import Mathlib

/-!
# uc-basic: a shallow embedding of the interpreter core

The C sources are embedded as Lean functions over a flat byte-addressed
memory.  The arena of `BASIC_MEM_MGR` starts at address 0, so an arena offset
`idx` and the pointer `base + idx` are the same number.  Buffers that do not
belong to the arena (the input line, string arguments) live at other
addresses of the same memory.

Loops of the C code that scan memory for a terminator take a `fuel`
argument; they return `none` when the fuel runs out.
-/

namespace UcBasic

/-! ## Memory -/

/-- Flat memory: one byte (a number below 256) at every address. -/
abbrev Mem := Nat → Nat

/-- Store of one `unsigned char`: `m[a] = v`. -/
def mem_write (m : Mem) (a v : Nat) : Mem :=
  fun i => if i = a then v % 256 else m i

/-- Result of `memmove(dst, src, n)`: the `n` bytes at `src` are copied to `dst`
as if through a temporary buffer. -/
def memmove (m : Mem) (dst src n : Nat) : Mem :=
  fun i => if dst ≤ i ∧ i < dst + n then m (src + (i - dst)) else m i

/-- Result of `memcpy(dst, bytes, len)` from a buffer given by value. -/
def mem_write_list (m : Mem) : Nat → List Nat → Mem
  | _, [] => m
  | a, b :: bs => mem_write_list (mem_write m a b) (a + 1) bs

/-- Result of `memset(dst, 0, n)`. -/
def memset0 (m : Mem) (dst n : Nat) : Mem :=
  fun i => if dst ≤ i ∧ i < dst + n then 0 else m i

/-- Length of the C string at `p`: `strlen(p)`. -/
def strlen : Nat → Mem → Nat → Option Nat
  | 0, _, _ => none
  | fuel + 1, m, p =>
    if m p = 0 then some 0
    else match strlen fuel m (p + 1) with
      | some n => some (n + 1)
      | none => none

/-- The list `l` is the C string stored at address `p`: its bytes are there,
each is a byte other than NUL, and a NUL follows. -/
def IsCStr (m : Mem) : Nat → List Nat → Prop
  | p, [] => m p = 0
  | p, c :: cs => m p = c ∧ c ≠ 0 ∧ c < 256 ∧ IsCStr m (p + 1) cs

/-- The bytes `l` are stored from address `p` on. -/
def MemIs (m : Mem) : Nat → List Nat → Prop
  | _, [] => True
  | p, c :: cs => m p = c ∧ MemIs m (p + 1) cs

/-! ## Keywords (`keywords.h`, `keywords.c`) -/

/-- The table `keyword_text_table`, each text as its bytes, in the order of
`KEYWORDS_INSTANTIATE`; entry `i` has the opcode `0x80 + i`. -/
def keyword_text_table : List (List Nat) :=
  [ [69, 78, 68],                   -- 0x80 END
    [70, 79, 82],                   -- 0x81 FOR
    [78, 69, 88, 84],               -- 0x82 NEXT
    [68, 65, 84, 65],               -- 0x83 DATA
    [73, 78, 80, 85, 84],           -- 0x84 INPUT
    [68, 73, 77],                   -- 0x85 DIM
    [82, 69, 65, 68],               -- 0x86 READ
    [76, 69, 84],                   -- 0x87 LET
    [71, 79, 84, 79],               -- 0x88 GOTO
    [82, 85, 78],                   -- 0x89 RUN
    [73, 70],                       -- 0x8a IF
    [82, 69, 83, 84, 79, 82, 69],   -- 0x8b RESTORE
    [71, 79, 83, 85, 66],           -- 0x8c GOSUB
    [82, 69, 84, 85, 82, 78],       -- 0x8d RETURN
    [82, 69, 77],                   -- 0x8e REM
    [83, 84, 79, 80],               -- 0x8f STOP
    [80, 82, 73, 78, 84],           -- 0x90 PRINT
    [76, 73, 83, 84],               -- 0x91 LIST
    [67, 76, 69, 65, 82],           -- 0x92 CLEAR
    [78, 69, 87],                   -- 0x93 NEW
    [84, 65, 66, 40],               -- 0x94 TAB(
    [84, 79],                       -- 0x95 TO
    [84, 72, 69, 78],               -- 0x96 THEN
    [83, 84, 69, 80],               -- 0x97 STEP
    [43],                           -- 0x98 +
    [45],                           -- 0x99 -
    [42],                           -- 0x9a *
    [47],                           -- 0x9b /
    [62],                           -- 0x9c >
    [61],                           -- 0x9d =
    [60],                           -- 0x9e <
    [83, 71, 78],                   -- 0x9f SGN
    [73, 78, 84],                   -- 0xa0 INT
    [65, 66, 83],                   -- 0xa1 ABS
    [85, 83, 82],                   -- 0xa2 USR
    [83, 81, 82],                   -- 0xa3 SQR
    [82, 78, 68],                   -- 0xa4 RND
    [83, 73, 78] ]                  -- 0xa5 SIN

def BASIC_KEYWORD_RANGE_BEGIN : Nat := 0x80
def BASIC_KEYWORD_RANGE_BEGIN_GENERAL : Nat := 0x80
def BASIC_KEYWORD_END : Nat := 0x80
def BASIC_KEYWORD_FOR : Nat := 0x81
def BASIC_KEYWORD_NEXT : Nat := 0x82
def BASIC_KEYWORD_DATA : Nat := 0x83
def BASIC_KEYWORD_INPUT : Nat := 0x84
def BASIC_KEYWORD_DIM : Nat := 0x85
def BASIC_KEYWORD_READ : Nat := 0x86
def BASIC_KEYWORD_LET : Nat := 0x87
def BASIC_KEYWORD_GOTO : Nat := 0x88
def BASIC_KEYWORD_RUN : Nat := 0x89
def BASIC_KEYWORD_IF : Nat := 0x8a
def BASIC_KEYWORD_RESTORE : Nat := 0x8b
def BASIC_KEYWORD_GOSUB : Nat := 0x8c
def BASIC_KEYWORD_RETURN : Nat := 0x8d
def BASIC_KEYWORD_REM : Nat := 0x8e
def BASIC_KEYWORD_STOP : Nat := 0x8f
def BASIC_KEYWORD_PRINT : Nat := 0x90
def BASIC_KEYWORD_LIST : Nat := 0x91
def BASIC_KEYWORD_CLEAR : Nat := 0x92
def BASIC_KEYWORD_NEW : Nat := 0x93
def BASIC_KEYWORD_RANGE_END_GENERAL : Nat := 0x93
def BASIC_KEYWORD_TAB : Nat := 0x94
def BASIC_KEYWORD_TO : Nat := 0x95
def BASIC_KEYWORD_THEN : Nat := 0x96
def BASIC_KEYWORD_STEP : Nat := 0x97
def BASIC_KEYWORD_GREATER : Nat := 0x9c
def BASIC_KEYWORD_EQUALS : Nat := 0x9d
def BASIC_KEYWORD_LESS : Nat := 0x9e
def BASIC_KEYWORD_RANGE_BEGIN_COMPARISON_OPERATORS : Nat := 0x9c
def BASIC_KEYWORD_RANGE_END_COMPARISON_OPERATORS : Nat := 0x9e
def BASIC_KEYWORD_PLUS : Nat := 0x98
def BASIC_KEYWORD_MINUS : Nat := 0x99
def BASIC_KEYWORD_MULTIPLY : Nat := 0x9a
def BASIC_KEYWORD_DIVIDE : Nat := 0x9b
def BASIC_KEYWORD_RANGE_BEGIN_OPERATORS : Nat := 0x98
def BASIC_KEYWORD_RANGE_END_OPERATORS : Nat := 0x9b
def BASIC_KEYWORD_SGN : Nat := 0x9f
def BASIC_KEYWORD_INT : Nat := 0xa0
def BASIC_KEYWORD_ABS : Nat := 0xa1
def BASIC_KEYWORD_USR : Nat := 0xa2
def BASIC_KEYWORD_SQR : Nat := 0xa3
def BASIC_KEYWORD_RND : Nat := 0xa4
def BASIC_KEYWORD_SIN : Nat := 0xa5
def BASIC_KEYWORD_RANGE_BEGIN_FUNCTIONS : Nat := 0x9f
def BASIC_KEYWORD_RANGE_END_FUNCTIONS : Nat := 0xa5
def BASIC_KEYWORD_RANGE_END : Nat := 0xa5

/-- The test `!strncmp(s, kw, strlen(kw))`: the bytes at `s` spell `kw`.  The
comparison stops at the first difference, so it never reads past a NUL of the
line (no keyword contains a NUL). -/
def strncmp_eq (m : Mem) : Nat → List Nat → Bool
  | _, [] => true
  | s, k :: ks => if m s = k then strncmp_eq m (s + 1) ks else false

/-- The `for` loop of `keywords_tokenize_line` over the table, from entry `i`
on: index and length of the first keyword whose text is at `s`. -/
def match_keyword (m : Mem) (s : Nat) : List (List Nat) → Nat → Option (Nat × Nat)
  | [], _ => none
  | kw :: rest, i =>
    if strncmp_eq m s kw then some (i, kw.length) else match_keyword m s rest (i + 1)

/-- The `do ... while(c)` loop of `keywords_tokenize_line` that copies a
string literal; `c` is the byte at `s` on entry.  Returns memory, `s`, `so`. -/
def copy_literal : Nat → Mem → Nat → Nat → Nat → Option (Mem × Nat × Nat)
  | 0, _, _, _, _ => none
  | fuel + 1, m, s, so, c =>
    let m1 := mem_write m so c
    let c1 := m1 (s + 1)
    if c1 = 34 then some (mem_write m1 (so + 1) c1, s + 2, so + 2)
    else if c1 ≠ 0 then copy_literal fuel m1 (s + 1) (so + 1) c1
    else some (m1, s + 1, so + 1)

/-- The outer `while((c = *s))` loop of `keywords_tokenize_line`, with read
pointer `s` and write pointer `so`.  Returns memory and the final `so`. -/
def tokenize_loop : Nat → Mem → Nat → Nat → Option (Mem × Nat)
  | 0, _, _, _ => none
  | fuel + 1, m, s, so =>
    let c := m s
    if c = 0 then some (m, so)
    else if c = 34 then
      match copy_literal fuel m s so c with
      | none => none
      | some (m1, s1, so1) => tokenize_loop fuel m1 s1 so1
    else
      let cs : Nat × Nat :=
        match match_keyword m s keyword_text_table 0 with
        | some (i, len) => ((i + BASIC_KEYWORD_RANGE_BEGIN) % 256, s + (len - 1))
        | none => (c, s)
      let m1 := mem_write m so cs.1
      if cs.1 = BASIC_KEYWORD_REM then
        match strlen fuel m1 (cs.2 + 1) with
        | none => none
        | some len => some (memmove m1 (so + 1) (cs.2 + 1) len, so + 1 + len)
      else tokenize_loop fuel m1 (cs.2 + 1) (so + 1)

/-- In-place line tokenizer `keywords_tokenize_line(s)`: the memory after the
call. -/
def keywords_tokenize_line (fuel : Nat) (m : Mem) (s : Nat) : Option Mem :=
  match tokenize_loop fuel m s s with
  | none => none
  | some (m1, so) => some (mem_write m1 so 0)

/-- Output of `print_tokenized_line(s)` (`program_storage.c`), the bytes sent
to `basic_printf` / `basic_putchar` before the final newline. -/
def print_tokenized_body : Nat → Mem → Nat → Option (List Nat)
  | 0, _, _ => none
  | fuel + 1, m, s =>
    let c := m s
    if c = 0 then some []
    else
      let txt : List Nat :=
        if BASIC_KEYWORD_RANGE_BEGIN ≤ c ∧ c ≤ BASIC_KEYWORD_RANGE_END then
          keyword_text_table.getD (c - BASIC_KEYWORD_RANGE_BEGIN) []
        else [c]
      match print_tokenized_body fuel m (s + 1) with
      | none => none
      | some out => some (txt ++ out)

/-- Output of `print_tokenized_line(s)`: the expanded line and a newline. -/
def print_tokenized_line (fuel : Nat) (m : Mem) (s : Nat) : Option (List Nat) :=
  match print_tokenized_body fuel m s with
  | none => none
  | some out => some (out ++ [10])

/-! ### The tokenizer as a function on strings -/

/-- First keyword of `table` (numbered from `i`) that is a prefix of `l`. -/
def first_keyword (l : List Nat) : List (List Nat) → Nat → Option (Nat × Nat)
  | [], _ => none
  | kw :: rest, i =>
    if kw.isPrefixOf l then some (i, kw.length) else first_keyword l rest (i + 1)

/-- What `keywords_tokenize_line` leaves in the buffer, as a function of the
line: `skip` counts bytes of a matched keyword still to be dropped, `inStr`
tells whether the scan is inside a string literal. -/
def tok_aux : Nat → Bool → List Nat → List Nat
  | _, _, [] => []
  | skip + 1, _, _ :: r => tok_aux skip false r
  | 0, true, c :: r => c :: tok_aux 0 (c != 34) r
  | 0, false, c :: r =>
    if c = 34 then c :: tok_aux 0 true r
    else
      match first_keyword (c :: r) keyword_text_table 0 with
      | some (i, len) =>
        if i + BASIC_KEYWORD_RANGE_BEGIN = BASIC_KEYWORD_REM then
          (i + BASIC_KEYWORD_RANGE_BEGIN) :: r.drop (len - 1)
        else (i + BASIC_KEYWORD_RANGE_BEGIN) :: tok_aux (len - 1) false r
      | none => if c = BASIC_KEYWORD_REM then c :: r else c :: tok_aux 0 false r

/-- The tokenized form of a line. -/
def tokenize (l : List Nat) : List Nat := tok_aux 0 false l

/-- The text LIST prints for a tokenized line (without the newline). -/
def detokenize : List Nat → List Nat
  | [] => []
  | c :: r =>
    (if BASIC_KEYWORD_RANGE_BEGIN ≤ c ∧ c ≤ BASIC_KEYWORD_RANGE_END then
      keyword_text_table.getD (c - BASIC_KEYWORD_RANGE_BEGIN) []
    else [c]) ++ detokenize r

/-- Memory holding the bytes `l` followed by a NUL at address `p`, zero
elsewhere (used to build concrete inputs). -/
def mem_of_string (p : Nat) (l : List Nat) : Mem :=
  mem_write_list (fun _ => 0) p l

/-- Reads `n` bytes at `p`. -/
def mem_read_list (m : Mem) : Nat → Nat → List Nat
  | _, 0 => []
  | p, n + 1 => m p :: mem_read_list m (p + 1) n

instance decIsCStr (m : Mem) : (p : Nat) → (l : List Nat) → Decidable (IsCStr m p l)
  | p, [] => inferInstanceAs (Decidable (m p = 0))
  | p, c :: cs =>
    have := decIsCStr m (p + 1) cs
    inferInstanceAs (Decidable (m p = c ∧ c ≠ 0 ∧ c < 256 ∧ IsCStr m (p + 1) cs))

/-- The table entries (by index) that the tokenizer replaces by an opcode while
it scans a line, in order; same scan as `tok_aux`. -/
def replaced_keywords : Nat → Bool → List Nat → List Nat
  | _, _, [] => []
  | skip + 1, _, _ :: r => replaced_keywords skip false r
  | 0, true, c :: r => replaced_keywords 0 (c != 34) r
  | 0, false, c :: r =>
    if c = 34 then replaced_keywords 0 true r
    else
      match first_keyword (c :: r) keyword_text_table 0 with
      | some (i, len) =>
        if i + BASIC_KEYWORD_RANGE_BEGIN = BASIC_KEYWORD_REM then [i]
        else i :: replaced_keywords (len - 1) false r
      | none => if c = BASIC_KEYWORD_REM then [] else replaced_keywords 0 false r

/-- Sum of (keyword length - 1) over the keywords replaced in a line. -/
def saved_bytes (l : List Nat) : Nat :=
  ((replaced_keywords 0 false l).map (fun i => (keyword_text_table.getD i []).length - 1)).sum

/-- Some keyword text occurs in the line outside string literals (a literal
runs from a double quote to the next one or to the end of the line). -/
def keyword_outside_literals : Bool → List Nat → Bool
  | _, [] => false
  | true, c :: r => keyword_outside_literals (c != 34) r
  | false, c :: r =>
    if c = 34 then keyword_outside_literals true r
    else keyword_text_table.any (fun kw => kw.isPrefixOf (c :: r)) ||
      keyword_outside_literals false r

/-- Some keyword text occurs in the line outside string literals and before
the first REM opcode that stands outside a string literal. -/
def keyword_before_rem : Bool → List Nat → Bool
  | _, [] => false
  | true, c :: r => keyword_before_rem (c != 34) r
  | false, c :: r =>
    if c = 34 then keyword_before_rem true r
    else if c = BASIC_KEYWORD_REM then false
    else keyword_text_table.any (fun kw => kw.isPrefixOf (c :: r)) ||
      keyword_before_rem false r

/-! ## The arena (`common_mem.h`) -/

/-- Range of the C type `unsigned` (32 bits). -/
abbrev UINT : Nat := 4294967296

/-- Range of the C type `size_t` (64 bits on the ports of the repository). -/
abbrev SIZE_T : Nat := 18446744073709551616

/-- A value stored into an `unsigned`. -/
def u32 (a : Nat) : Nat := a % UINT

/-- The difference `a - b` of two `unsigned` values, which wraps around. -/
def usub (a b : Nat) : Nat := (a % UINT + (UINT - b % UINT)) % UINT

/-- The difference `a - b` computed in `size_t`, which wraps around. -/
def zsub (a b : Nat) : Nat := (a % SIZE_T + (SIZE_T - b % SIZE_T)) % SIZE_T

/-- The structure `BASIC_MEM_MGR`.  The field `base` is the memory the pointer
`base` gives access to: `s.base i` is `s->base[i]`. -/
structure BASIC_MEM_MGR where
  base : Mem
  vars_idx : Nat
  array_idx : Nat
  free_idx : Nat
  stktop_idx : Nat
  max_idx : Nat

/-- `basic_mem_check_space(s, size)`. -/
def basic_mem_check_space (s : BASIC_MEM_MGR) (size : Nat) : Bool :=
  decide (size ≤ usub s.stktop_idx s.free_idx)

/-- The byte pair `lo | hi << 8` read as a 16-bit little-endian number (bytes
are below 256, so the bitwise or is a sum). -/
def le16 (lo hi : Nat) : Nat := lo + 256 * hi

/-- Store of a `uint16_t` at address `a` (little endian). -/
def mem_write16 (m : Mem) (a v : Nat) : Mem :=
  mem_write (mem_write m a (v % 256)) (a + 1) (v / 256 % 256)

/-- A single-precision float, as its 32-bit pattern. -/
abbrev F32 := Fin 4294967296

/-- The four bytes of a float in memory (little endian). -/
def f32_bytes (x : F32) : List Nat :=
  [x.val % 256, x.val / 256 % 256, x.val / 65536 % 256, x.val / 16777216 % 256]

/-- The float stored in the four bytes at address `a`. -/
def mem_read_f32 (m : Mem) (a : Nat) : F32 :=
  ⟨(m a % 256 + 256 * (m (a + 1) % 256) + 65536 * (m (a + 2) % 256) +
      16777216 * (m (a + 3) % 256)) % 4294967296, Nat.mod_lt _ (by decide)⟩

/-- The two bytes of a `uint16_t` in memory. -/
def u16_bytes (v : Nat) : List Nat := [v % 256, v / 256 % 256]

/-! ## Error codes (`basic_errors.h`, `basic_parsing.h`) -/

/-- The enumeration `BASIC_ERROR_ID`, extended by `BASIC_PARSING_NOT_FOUND`
(the value `BASIC_ERROR_MAX`) of `BASIC_PARSING_RESULT`. -/
inductive BASIC_ERROR_ID where
  | OK | NEXT_WITHOUT_FOR | SYNTAX | RETURN_WITHOUT_GOSUB | OUT_OF_DATA | PARAMETER
  | OVERFLOW | OUT_OF_MEMORY | NO_SUCH_LINE | SUBSCRIPT | REDIMENSION | DIVISION_BY_ZERO
  | IN_PROGRAM_ONLY | STOP | INTERNAL | NOT_FOUND
  deriving DecidableEq, Repr

/-! ## Program storage (`program_storage.c`) -/

/-- `prog_storage_clear`. -/
def prog_storage_clear (prog : BASIC_MEM_MGR) : BASIC_MEM_MGR :=
  { prog with
    base := mem_write (mem_write (mem_write prog.base 0 0) 1 0) 2 0
    vars_idx := 3, array_idx := 3, free_idx := 3 }

/-- `prog_storage_initialize(prog, base, max_size)` on the memory `base`. -/
def prog_storage_initialize (base : Mem) (max_size : Nat) : BASIC_MEM_MGR :=
  prog_storage_clear
    { base := base, vars_idx := 0, array_idx := 0, free_idx := 0,
      stktop_idx := max_size, max_idx := max_size }

/-- The structure `FIND_LINE_RESULT`. -/
structure FIND_LINE_RESULT where
  idx : Nat
  found : Bool
  deriving DecidableEq, Repr

/-- The `while` loop of `prog_storage_find_line`, from record offset `idx`. -/
def find_line_loop (cpb : Mem) (line : Nat) : Nat → Nat → Option FIND_LINE_RESULT
  | 0, _ => none
  | fuel + 1, idx =>
    if cpb idx ≠ 0 ∨ cpb (idx + 1) ≠ 0 then
      let nxt_idx := le16 (cpb idx) (cpb (idx + 1))
      let line_no := le16 (cpb (idx + 2)) (cpb (idx + 3))
      if line_no ≥ line then some ⟨idx, decide (line_no = line)⟩
      else find_line_loop cpb line fuel nxt_idx
    else some ⟨idx, false⟩

/-- `prog_storage_find_line(prog, line)`. -/
def prog_storage_find_line (fuel : Nat) (prog : BASIC_MEM_MGR) (line : Nat) :
    Option FIND_LINE_RESULT :=
  find_line_loop prog.base line fuel 1

/-- `prog_storage_get_line_parse_ptr(prog, line_idx)`. -/
def prog_storage_get_line_parse_ptr (_prog : BASIC_MEM_MGR) (line_idx : Nat) : Nat :=
  line_idx - 1

/-- `prog_storage_advance_line(prog, parse_ptr, pline)`: the new parse pointer
and the value stored in `*pline` (`UINT_MAX` at the end of the program). -/
def prog_storage_advance_line (prog : BASIC_MEM_MGR) (parse_ptr : Nat) : Nat × Nat :=
  if prog.base (parse_ptr + 1) ≠ 0 ∨ prog.base (parse_ptr + 2) ≠ 0 then
    (parse_ptr + 5, le16 (prog.base (parse_ptr + 3)) (prog.base (parse_ptr + 4)))
  else (parse_ptr, UINT - 1)

/-- The `while` loop of `rebuild_list`, from record offset `idx`. -/
def rebuild_list_loop : Nat → Mem → Nat → Option Mem
  | 0, _, _ => none
  | fuel + 1, cpb, idx =>
    if cpb idx ≠ 0 ∨ cpb (idx + 1) ≠ 0 then
      match strlen fuel cpb (idx + 4) with
      | none => none
      | some len =>
        let nxt_idx := u32 (idx + 4 + len + 1)
        rebuild_list_loop fuel
          (mem_write (mem_write cpb idx (nxt_idx % 256)) (idx + 1) (nxt_idx / 256)) nxt_idx
    else some cpb

/-- `rebuild_list(prog)`. -/
def rebuild_list (fuel : Nat) (prog : BASIC_MEM_MGR) : Option BASIC_MEM_MGR :=
  match rebuild_list_loop fuel prog.base 1 with
  | none => none
  | some m => some { prog with base := m }

/-- First part of `prog_storage_store_line`: the `if(fl.found)` block that
removes the existing record of the line. -/
def store_line_remove (prog : BASIC_MEM_MGR) (fl : FIND_LINE_RESULT) : BASIC_MEM_MGR :=
  if fl.found then
    let nxt_idx := le16 (prog.base fl.idx) (prog.base (fl.idx + 1))
    { prog with
      base := memmove prog.base fl.idx nxt_idx (usub prog.vars_idx nxt_idx)
      vars_idx := usub prog.vars_idx (usub nxt_idx fl.idx)
      array_idx := usub prog.array_idx (usub nxt_idx fl.idx)
      free_idx := usub prog.free_idx (usub nxt_idx fl.idx) }
  else prog

/-- Second part of `prog_storage_store_line`, from `unsigned len = strlen(content)`
on: insertion of the new record at `idx` when the content is not empty, and
`rebuild_list`. -/
def store_line_insert (fuel : Nat) (prog : BASIC_MEM_MGR) (idx line : Nat)
    (content : List Nat) : Option (Bool × BASIC_MEM_MGR) :=
  let len := content.length
  if len ≠ 0 then
    if basic_mem_check_space prog (u32 (len + 5)) = false then some (false, prog)
    else
      let pb1 := memmove prog.base (idx + len + 5) idx (usub prog.vars_idx idx)
      let pb2 := mem_write pb1 idx 0xff
      let pb3 := mem_write pb2 (idx + 2) (line % 256)
      let pb4 := mem_write pb3 (idx + 3) (line / 256)
      let pb5 := mem_write_list pb4 (idx + 4) (content ++ [0])
      match rebuild_list fuel
          { prog with
            base := pb5
            vars_idx := u32 (prog.vars_idx + (len + 5))
            array_idx := u32 (prog.array_idx + (len + 5))
            free_idx := u32 (prog.free_idx + (len + 5)) } with
      | none => none
      | some prog2 => some (true, prog2)
  else
    match rebuild_list fuel prog with
    | none => none
    | some prog2 => some (true, prog2)

/-- `prog_storage_store_line(prog, line, content)`; `content` is the string
argument given by its bytes, the terminator left out.  Returns the result of
the call and the arena after it. -/
def prog_storage_store_line (fuel : Nat) (prog : BASIC_MEM_MGR) (line : Nat)
    (content : List Nat) : Option (Bool × BASIC_MEM_MGR) :=
  match prog_storage_find_line fuel prog line with
  | none => none
  | some fl => store_line_insert fuel (store_line_remove prog fl) fl.idx line content

/-- Output of `prog_storage_list(prog, first_line)`: the `while` loop from
record offset `idx`, each line as the decimal digits of its number, a space,
the expanded body and a newline. -/
def prog_storage_list_loop : Nat → Mem → Nat → Option (List Nat)
  | 0, _, _ => none
  | fuel + 1, cpb, idx =>
    let nxt_idx := le16 (cpb idx) (cpb (idx + 1))
    if nxt_idx ≠ 0 then
      let line_num := le16 (cpb (idx + 2)) (cpb (idx + 3))
      match print_tokenized_line fuel cpb (idx + 4), prog_storage_list_loop fuel cpb nxt_idx with
      | some l, some rest =>
        some ((Nat.toDigits 10 line_num).map Char.toNat ++ [32] ++ l ++ rest)
      | _, _ => none
    else some []

/-- `prog_storage_list(prog, first_line)`. -/
def prog_storage_list (fuel : Nat) (prog : BASIC_MEM_MGR) (first_line : Nat) :
    Option (List Nat) :=
  match prog_storage_find_line fuel prog first_line with
  | none => none
  | some fl => prog_storage_list_loop fuel prog.base fl.idx

/-! ## Variable storage (`variable_storage.c`) -/

/-- `sizeof(VARIABLE_ENTRY)` (packed: 2-byte name, 4-byte value). -/
abbrev sizeof_VARIABLE_ENTRY : Nat := 6

/-- `sizeof(ARRAY_VARIABLE_HEADER)` (packed: 2-byte name, 2-byte block size). -/
abbrev sizeof_ARRAY_VARIABLE_HEADER : Nat := 4

/-- `sizeof(VARIABLE_VALUE)`. -/
abbrev sizeof_VARIABLE_VALUE : Nat := 4

/-- `variable_storage_clear`. -/
def variable_storage_clear (s : BASIC_MEM_MGR) : BASIC_MEM_MGR :=
  { s with free_idx := s.vars_idx, array_idx := s.vars_idx }

/-- The loop of `lookup_var` from offset `idx`; `n` bounds the number of
iterations.  Returns the address of the value of `var`, if `var` is found. -/
def lookup_var_loop (pb : Mem) (array_idx var : Nat) : Nat → Nat → Option Nat
  | 0, _ => none
  | n + 1, idx =>
    if idx < array_idx then
      if var = le16 (pb idx) (pb (idx + 1)) then some (idx + 2)
      else lookup_var_loop pb array_idx var n (idx + sizeof_VARIABLE_ENTRY)
    else none

/-- `lookup_var(s, var)`: the address of the value, or `none` for the null
pointer.  The loop adds 6 to `idx` until `idx >= array_idx`, so it runs at most
`array_idx - vars_idx` times. -/
def lookup_var (s : BASIC_MEM_MGR) (var : Nat) : Option Nat :=
  lookup_var_loop s.base s.array_idx var (s.array_idx - s.vars_idx + 1) s.vars_idx

/-- `variable_storage_read_var(s, var)`; an absent variable reads `0.0f`. -/
def variable_storage_read_var (s : BASIC_MEM_MGR) (var : Nat) : F32 :=
  match lookup_var s var with
  | some pval => mem_read_f32 s.base pval
  | none => 0

/-- `variable_storage_create_var(s, var)`: the returned pointer (`none` for the
null pointer) and the arena after the call. -/
def variable_storage_create_var (s : BASIC_MEM_MGR) (var : Nat) : Option Nat × BASIC_MEM_MGR :=
  match lookup_var s var with
  | some retval => (some retval, s)
  | none =>
    if basic_mem_check_space s sizeof_VARIABLE_ENTRY = false then (none, s)
    else
      let pb1 :=
        if s.array_idx ≠ s.free_idx then
          memmove s.base (s.array_idx + sizeof_VARIABLE_ENTRY) s.array_idx
            (usub s.free_idx s.array_idx)
        else s.base
      let pb2 := mem_write16 pb1 s.array_idx var
      let pb3 := memset0 pb2 (s.array_idx + 2) sizeof_VARIABLE_VALUE
      (some (s.array_idx + 2),
        { s with
          base := pb3
          array_idx := u32 (s.array_idx + sizeof_VARIABLE_ENTRY)
          free_idx := u32 (s.free_idx + sizeof_VARIABLE_ENTRY) })

/-- The search loop of `variable_storage_create_array_var` from offset `idx`;
`n` bounds the number of iterations.  Returns the offset of the header of
`var`, if `var` is found. -/
def lookup_array_loop (pb : Mem) (free_idx var : Nat) : Nat → Nat → Option Nat
  | 0, _ => none
  | n + 1, idx =>
    if idx + sizeof_ARRAY_VARIABLE_HEADER ≤ free_idx then
      if le16 (pb idx) (pb (idx + 1)) = var then some idx
      else lookup_array_loop pb free_idx var n
        (idx + sizeof_ARRAY_VARIABLE_HEADER + le16 (pb (idx + 2)) (pb (idx + 3)))
    else none

/-- `variable_storage_create_array_var(s, var, ppv, subscript, dim)`: the
result, the pointer stored in `*ppv` (0 when none is stored) and the arena
after the call. -/
def variable_storage_create_array_var (s : BASIC_MEM_MGR) (var subscript : Nat) (dim : Bool) :
    BASIC_ERROR_ID × Nat × BASIC_MEM_MGR :=
  match lookup_array_loop s.base s.free_idx var (s.free_idx - s.array_idx + 1) s.array_idx with
  | some idx =>
    if dim then (.REDIMENSION, 0, s)
    else if subscript * sizeof_VARIABLE_VALUE ≥ le16 (s.base (idx + 2)) (s.base (idx + 3)) then
      (.SUBSCRIPT, 0, s)
    else (.OK, idx + sizeof_ARRAY_VARIABLE_HEADER + sizeof_VARIABLE_VALUE * subscript, s)
  | none =>
    if dim = false ∧ subscript > 10 then (.SUBSCRIPT, 0, s)
    else
      let new_block_size := u32 (((if dim then subscript else 10) + 1) * sizeof_VARIABLE_VALUE)
      if basic_mem_check_space s (u32 (new_block_size + sizeof_ARRAY_VARIABLE_HEADER)) = false then
        (.OUT_OF_MEMORY, 0, s)
      else
        let pae := s.free_idx + sizeof_ARRAY_VARIABLE_HEADER
        let pb1 := mem_write16 s.base s.free_idx var
        let pb2 := mem_write16 pb1 (s.free_idx + 2) (new_block_size % 65536)
        let pb3 := memset0 pb2 pae new_block_size
        (.OK, pae + sizeof_VARIABLE_VALUE * subscript,
          { s with
            base := pb3
            free_idx := u32 (s.free_idx + (new_block_size + sizeof_ARRAY_VARIABLE_HEADER)) })

/-! ## FOR/GOSUB/expression stack (`for_gosub_stack.c`) -/

abbrev FGS_TAG_FOR : Nat := 0
abbrev FGS_TAG_GOSUB : Nat := 1

/-- The structure `FGS_ENTRY_GOSUB`. -/
structure FGS_ENTRY_GOSUB where
  line : Nat
  parse_idx : Nat
  deriving DecidableEq, Repr

/-- The structure `FGS_ENTRY_FOR`. -/
structure FGS_ENTRY_FOR where
  line : Nat
  parse_idx : Nat
  to_val : F32
  step : F32
  vn : Nat
  deriving DecidableEq, Repr

/-- `sizeof(FGS_ENTRY_GOSUB)`: two `uint16_t`. -/
abbrev sizeof_FGS_ENTRY_GOSUB : Nat := 4

/-- `sizeof(FGS_ENTRY_FOR)`: the structure is not packed, its floats are
aligned to 4 bytes, so `vn` is at offset 12 and two bytes of padding end it. -/
abbrev sizeof_FGS_ENTRY_FOR : Nat := 16

/-- `offsetof(FGS_ENTRY_FOR, vn)`. -/
abbrev offsetof_FGS_ENTRY_FOR_vn : Nat := 12

/-- The bytes of an `FGS_ENTRY_GOSUB` object. -/
def FGS_ENTRY_GOSUB.bytes (e : FGS_ENTRY_GOSUB) : List Nat :=
  u16_bytes e.line ++ u16_bytes e.parse_idx

/-- The bytes of an `FGS_ENTRY_FOR` object (padding bytes taken as zero). -/
def FGS_ENTRY_FOR.bytes (e : FGS_ENTRY_FOR) : List Nat :=
  u16_bytes e.line ++ u16_bytes e.parse_idx ++ f32_bytes e.to_val ++ f32_bytes e.step ++
    u16_bytes e.vn ++ [0, 0]

/-- The `FGS_ENTRY_GOSUB` object stored at address `a`. -/
def mem_read_gosub (m : Mem) (a : Nat) : FGS_ENTRY_GOSUB :=
  { line := le16 (m a) (m (a + 1)), parse_idx := le16 (m (a + 2)) (m (a + 3)) }

/-- The `FGS_ENTRY_FOR` object stored at address `a`. -/
def mem_read_for (m : Mem) (a : Nat) : FGS_ENTRY_FOR :=
  { line := le16 (m a) (m (a + 1)), parse_idx := le16 (m (a + 2)) (m (a + 3)),
    to_val := mem_read_f32 m (a + 4), step := mem_read_f32 m (a + 8),
    vn := le16 (m (a + 12)) (m (a + 13)) }

/-- `fgstack_clear`. -/
def fgstack_clear (s : BASIC_MEM_MGR) : BASIC_MEM_MGR :=
  { s with stktop_idx := s.max_idx }

/-- `fgstack_push(s, in, tag, size)` with the `size` bytes at `in` given by
value. -/
def fgstack_push (s : BASIC_MEM_MGR) (bytes : List Nat) (tag : Nat) : Bool × BASIC_MEM_MGR :=
  if usub s.stktop_idx s.free_idx < bytes.length + 1 then (false, s)
  else
    let top := usub s.stktop_idx (bytes.length + 1)
    (true, { s with
      stktop_idx := top
      base := mem_write_list (mem_write s.base top tag) (top + 1) bytes })

/-- `fgstack_push_gosub`. -/
def fgstack_push_gosub (s : BASIC_MEM_MGR) (e : FGS_ENTRY_GOSUB) : Bool × BASIC_MEM_MGR :=
  fgstack_push s e.bytes FGS_TAG_GOSUB

/-- `fgstack_push_for`. -/
def fgstack_push_for (s : BASIC_MEM_MGR) (e : FGS_ENTRY_FOR) : Bool × BASIC_MEM_MGR :=
  fgstack_push s e.bytes FGS_TAG_FOR

/-- `fgstack_push_expression(s, in, size)` with the bytes given by value. -/
def fgstack_push_expression (s : BASIC_MEM_MGR) (bytes : List Nat) : Bool × BASIC_MEM_MGR :=
  if usub s.stktop_idx s.free_idx < bytes.length then (false, s)
  else
    let top := usub s.stktop_idx bytes.length
    (true, { s with stktop_idx := top, base := mem_write_list s.base top bytes })

/-- `fgstack_push_expression_byte_nocheck(s, in)`. -/
def fgstack_push_expression_byte_nocheck (s : BASIC_MEM_MGR) (b : Nat) : BASIC_MEM_MGR :=
  { s with
    stktop_idx := usub s.stktop_idx 1
    base := mem_write s.base (usub s.stktop_idx 1) b }

/-- `fgstack_pop_expression(s, out, size)`: the bytes copied to `out` and the
arena after the call; `none` when the function calls `abort()`. -/
def fgstack_pop_expression (s : BASIC_MEM_MGR) (size : Nat) :
    Option (List Nat × BASIC_MEM_MGR) :=
  if s.stktop_idx > usub s.max_idx size then none
  else some (mem_read_list s.base s.stktop_idx size,
    { s with stktop_idx := u32 (s.stktop_idx + size) })

/-- The loop of `fgstack_pop_gosub` from stack offset `idx`. -/
def fgstack_pop_gosub_loop (s : BASIC_MEM_MGR) : Nat → Nat →
    Option (Bool × FGS_ENTRY_GOSUB × BASIC_MEM_MGR)
  | 0, _ => none
  | fuel + 1, idx =>
    if idx < zsub s.max_idx sizeof_FGS_ENTRY_GOSUB then
      if s.base idx = FGS_TAG_GOSUB then
        some (true, mem_read_gosub s.base (idx + 1),
          { s with stktop_idx := u32 (idx + (sizeof_FGS_ENTRY_GOSUB + 1)) })
      else if s.base idx = FGS_TAG_FOR ∧ idx < zsub s.max_idx sizeof_FGS_ENTRY_FOR then
        fgstack_pop_gosub_loop s fuel (u32 (idx + (sizeof_FGS_ENTRY_FOR + 1)))
      else some (false, ⟨0, 0⟩, s)
    else some (false, ⟨0, 0⟩, s)

/-- `fgstack_pop_gosub(s, out)`: the result, the entry copied to `out` (zero
when none is copied) and the arena after the call. -/
def fgstack_pop_gosub (fuel : Nat) (s : BASIC_MEM_MGR) :
    Option (Bool × FGS_ENTRY_GOSUB × BASIC_MEM_MGR) :=
  fgstack_pop_gosub_loop s fuel s.stktop_idx

/-- The loop of `fgstack_lookup_for` from stack offset `idx`. -/
def fgstack_lookup_for_loop (s : BASIC_MEM_MGR) (vn : Nat) : Nat → Nat →
    Option (Bool × FGS_ENTRY_FOR × BASIC_MEM_MGR)
  | 0, _ => none
  | fuel + 1, idx =>
    if idx < zsub s.max_idx sizeof_FGS_ENTRY_FOR then
      if s.base idx = FGS_TAG_FOR then
        if vn = le16 (s.base (idx + 1 + offsetof_FGS_ENTRY_FOR_vn))
            (s.base (idx + 1 + offsetof_FGS_ENTRY_FOR_vn + 1)) then
          some (true, mem_read_for s.base (idx + 1),
            { s with stktop_idx := u32 (idx + sizeof_FGS_ENTRY_FOR + 1) })
        else fgstack_lookup_for_loop s vn fuel (u32 (idx + (sizeof_FGS_ENTRY_FOR + 1)))
      else some (false, ⟨0, 0, 0, 0, 0⟩, s)
    else some (false, ⟨0, 0, 0, 0, 0⟩, s)

/-- `fgstack_lookup_for(s, out, vn)`: the result, the entry copied to `out`
(zero when none is copied) and the arena after the call. -/
def fgstack_lookup_for (fuel : Nat) (s : BASIC_MEM_MGR) (vn : Nat) :
    Option (Bool × FGS_ENTRY_FOR × BASIC_MEM_MGR) :=
  fgstack_lookup_for_loop s vn fuel s.stktop_idx

/-- `fgstack_get_top`. -/
def fgstack_get_top (s : BASIC_MEM_MGR) : Nat := s.stktop_idx

/-- `fgstack_set_top`. -/
def fgstack_set_top (s : BASIC_MEM_MGR) (top : Nat) : BASIC_MEM_MGR :=
  { s with stktop_idx := top }

/-! ### The program text as a list of lines -/

/-- Number of bytes taken by the records of a list of lines `(number, body)`:
4 bytes of header, the body and its terminator for each. -/
def prog_size : List (Nat × List Nat) → Nat
  | [] => 0
  | (_, body) :: rest => 5 + body.length + prog_size rest

/-- The records of the lines `recs` are stored back to back from offset `a`.
With `exact`, the `next_off` field of each record is the offset just past its
own NUL-terminated body (and fits 16 bits); without, it is only known to be
nonzero. -/
def RecsAt (exact : Bool) (m : Mem) : Nat → List (Nat × List Nat) → Prop
  | _, [] => True
  | a, (ln, body) :: rest =>
    (if exact then
        m a = (a + 5 + body.length) % 256 ∧ m (a + 1) = (a + 5 + body.length) / 256 ∧
          a + 5 + body.length < 65536
      else (m a ≠ 0 ∨ m (a + 1) ≠ 0)) ∧
    m (a + 2) = ln % 256 ∧ m (a + 3) = ln / 256 ∧ ln < 65536 ∧
    IsCStr m (a + 4) body ∧ RecsAt exact m (a + 5 + body.length) rest

/-- Line numbers strictly ascending. -/
def LinesSorted (recs : List (Nat × List Nat)) : Prop :=
  List.Pairwise (fun x y => x.1 < y.1) recs

/-- The program text of the arena is the chain of the lines `recs`: records from
offset 1 with exact `next_off` fields, in strictly ascending line order,
closed by two zero bytes at `vars_idx - 2` and `vars_idx - 1`. -/
def ProgWF (s : BASIC_MEM_MGR) (recs : List (Nat × List Nat)) : Prop :=
  RecsAt true s.base 1 recs ∧ LinesSorted recs ∧
    s.base (1 + prog_size recs) = 0 ∧ s.base (1 + prog_size recs + 1) = 0 ∧
    s.vars_idx = 1 + prog_size recs + 2

/-- The ordering of the five arena indices, which are values of type
`unsigned`. -/
def ArenaOrdered (s : BASIC_MEM_MGR) : Prop :=
  s.vars_idx ≤ s.array_idx ∧ s.array_idx ≤ s.free_idx ∧ s.free_idx ≤ s.stktop_idx ∧
    s.stktop_idx ≤ s.max_idx ∧ s.max_idx < UINT

instance (s : BASIC_MEM_MGR) : Decidable (ArenaOrdered s) :=
  inferInstanceAs (Decidable (_ ∧ _ ∧ _ ∧ _ ∧ _))

/-- The lines left when line `n` is removed. -/
def lines_remove (n : Nat) (recs : List (Nat × List Nat)) : List (Nat × List Nat) :=
  recs.filter (fun r => r.1 != n)

/-- The lines after line `n` with body `body` is put in its place. -/
def lines_insert (n : Nat) (body : List Nat) : List (Nat × List Nat) → List (Nat × List Nat)
  | [] => [(n, body)]
  | r :: rest => if n ≤ r.1 then (n, body) :: r :: rest else r :: lines_insert n body rest

/-- The program after `store_line(n, body)` succeeds. -/
def lines_store (n : Nat) (body : List Nat) (recs : List (Nat × List Nat)) :
    List (Nat × List Nat) :=
  if body = [] then lines_remove n recs else lines_insert n body (lines_remove n recs)

/-- The body given by the last call with line number `n` in a sequence of
`store_line` calls, if there is one. -/
def last_body (n : Nat) : List (Nat × List Nat) → Option (List Nat)
  | [] => none
  | (k, body) :: rest =>
    match last_body n rest with
    | some b => some b
    | none => if k = n then some body else none

/-- A sequence of `prog_storage_store_line` calls, stopped at the first call
that fails: `some (some s)` when all calls returned true and left the arena
`s`, `some none` when a call returned false. -/
def store_lines (fuel : Nat) : BASIC_MEM_MGR → List (Nat × List Nat) →
    Option (Option BASIC_MEM_MGR)
  | s, [] => some (some s)
  | s, (n, body) :: rest =>
    match prog_storage_store_line fuel s n body with
    | none => none
    | some (false, _) => some none
    | some (true, s1) => store_lines fuel s1 rest

/-- A `store_line` call `(line, content)` with a 16-bit line number and a C
string as content. -/
def ValidStore (op : Nat × List Nat) : Prop :=
  op.1 < 65536 ∧ (∀ c ∈ op.2, c ≠ 0 ∧ c < 256) ∧ op.2.length + 5 < UINT

/-- The session of three `store_line` calls in a 20-byte arena in which the
third call, replacing line 10 by a body that does not fit, runs out of memory:
`10 A`, `20 B`, `10 AAAAAAA`. -/
def oom_replace_session : Option (Bool × BASIC_MEM_MGR) :=
  match prog_storage_store_line 30 ( prog_storage_initialize (fun _ => 0) 20) 10 [65] with
  | some (true, s1) =>
    match prog_storage_store_line 30 s1 20 [66] with
    | some (true, s2) => prog_storage_store_line 30 s2 10 [65, 65, 65, 65, 65, 65, 65]
    | _ => none
  | _ => none

instance (op : Nat × List Nat) : Decidable (ValidStore op) :=
  inferInstanceAs (Decidable (_ ∧ _ ∧ _))

/-! ## Parsing (`basic_parsing.c`) -/

/-- The macro `IS_DIGIT`. -/
def IS_DIGIT (c : Nat) : Bool := decide (48 ≤ c ∧ c ≤ 57)

/-- The macro `IS_ALPHA`. -/
def IS_ALPHA (c : Nat) : Bool := decide ((65 ≤ c ∧ c ≤ 90) ∨ (97 ≤ c ∧ c ≤ 122))

/-- `basic_parsing_skipws(parse_ptr)`. -/
def basic_parsing_skipws (m : Mem) : Nat → Nat → Option Nat
  | 0, _ => none
  | fuel + 1, p => if m p = 32 then basic_parsing_skipws m fuel (p + 1) else some p

/-- `basic_parsing_skip_to_end_statement(parse_ptr)`. -/
def basic_parsing_skip_to_end_statement (m : Mem) : Nat → Nat → Option Nat
  | 0, _ => none
  | fuel + 1, p =>
    if m p ≠ 0 ∧ m p ≠ 58 then basic_parsing_skip_to_end_statement m fuel (p + 1) else some p

/-- The `while` loop of `basic_parsing_uint16` with the locals `p`, `result`
and `r`.  The result `SYNTAX` stands for the two `return BASIC_ERROR_SYNTAX`
inside the loop, any other result is the value of `r` when the loop ends. -/
def uint16_loop (m : Mem) : Nat → Nat → Nat → BASIC_ERROR_ID →
    Option (BASIC_ERROR_ID × Nat × Nat)
  | 0, _, _, _ => none
  | fuel + 1, p, result, r =>
    match basic_parsing_skipws m fuel p with
    | none => none
    | some p1 =>
      if IS_DIGIT (m p1) then
        if result ≥ 10000 then some (.SYNTAX, p1, result)
        else if 65535 - (m p1 - 48) < result * 10 then some (.SYNTAX, p1, result)
        else uint16_loop m fuel (p1 + 1) (result * 10 + (m p1 - 48)) .OK
      else some (r, p1, result)

/-- `basic_parsing_uint16(parse_ptr, out)`: the result and the values of
`*parse_ptr` and `*out` after the call. -/
def basic_parsing_uint16 (fuel : Nat) (m : Mem) (parse_ptr out : Nat) :
    Option (BASIC_ERROR_ID × Nat × Nat) :=
  match uint16_loop m fuel parse_ptr 0 .NOT_FOUND with
  | none => none
  | some (r, p, result) =>
    if r = .OK then some (.OK, p, result) else some (r, parse_ptr, out)

/-- The floating-point exception flags tested by `except_to_basic_error`. -/
structure FEFlags where
  divbyzero : Bool
  invalid : Bool
  overflow : Bool
  deriving DecidableEq, Repr

/-- No exception raised (the state after `feclearexcept(FE_ALL_EXCEPT)`). -/
def FE_NONE : FEFlags := ⟨false, false, false⟩

/-- Exception flags are sticky: the flags raised by two operations in turn. -/
def FEFlags.or (a b : FEFlags) : FEFlags :=
  ⟨a.divbyzero || b.divbyzero, a.invalid || b.invalid, a.overflow || b.overflow⟩

/-- `except_to_basic_error()` on the given exception flags. -/
def except_to_basic_error (f : FEFlags) : BASIC_ERROR_ID :=
  if f.divbyzero then .DIVISION_BY_ZERO
  else if f.invalid then .PARAMETER
  else if f.overflow then .OVERFLOW
  else .OK

/-- The floating-point and library primitives of the platform the code is
compiled for (IEEE single-precision arithmetic, `math.h`, `rand`), taken as
parameters: each operation gives its result and the exception flags it
raises. -/
structure FPU where
  add : F32 → F32 → F32 × FEFlags
  sub : F32 → F32 → F32 × FEFlags
  mul : F32 → F32 → F32 × FEFlags
  div : F32 → F32 → F32 × FEFlags
  /-- The comparison `a < b`. -/
  lt : F32 → F32 → Bool × FEFlags
  /-- Conversion of an `int` to `float`. -/
  of_int : Int → F32
  /-- Conversion of a `float` to `unsigned`. -/
  to_unsigned : F32 → Nat
  powf : F32 → F32 → F32 × FEFlags
  /-- The call `floor(x)` on the `float` x, its result converted to `float`. -/
  floor : F32 → F32 × FEFlags
  floorf : F32 → F32 × FEFlags
  fabsf : F32 → F32 × FEFlags
  sqrtf : F32 → F32 × FEFlags
  sinf : F32 → F32 × FEFlags
  /-- The call `rand()` from the generator state: value and next state. -/
  rand : Nat → Nat × Nat
  /-- The constant `RAND_MAX+1.0f`. -/
  rand_max_p1 : F32
  /-- The comparison `a == b`. -/
  eq : F32 → F32 → Bool
  /-- The characters printed for a `float` by the conversion `%G`. -/
  printf_G : F32 → List Nat

/-- The constants `1.0f`, `-1.0f`, `10.0f` and `32767.0f` (`0.0f` is the
pattern 0). -/
def f32_one : F32 := 1065353216
def f32_minus_one : F32 := 3212836864
def f32_ten : F32 := 1092616192
def f32_32767 : F32 := 1191181824

/-- Unary minus on a float: the sign bit is flipped. -/
def f32_neg (x : F32) : F32 :=
  ⟨(x.val + 2147483648) % 4294967296, Nat.mod_lt _ (by decide)⟩

/-- The float given by four bytes read from memory. -/
def f32_of_list (l : List Nat) : F32 :=
  ⟨(l.getD 0 0 % 256 + 256 * (l.getD 1 0 % 256) + 65536 * (l.getD 2 0 % 256) +
      16777216 * (l.getD 3 0 % 256)) % 4294967296, Nat.mod_lt _ (by decide)⟩

/-- A digit loop `while((c=*p), c >= '0' && c <= '9')` of `basic_parsing_float`
with the locals `p` and `val`, the exception flags raised so far and the
number of digits read. -/
def float_digits (P : FPU) (m : Mem) : Nat → Nat → F32 → FEFlags → Nat →
    Option (Nat × F32 × FEFlags × Nat)
  | 0, _, _, _, _ => none
  | fuel + 1, p, val, fl, n =>
    if 48 ≤ m p ∧ m p ≤ 57 then
      match basic_parsing_skipws m fuel (p + 1) with
      | none => none
      | some p1 =>
        float_digits P m fuel p1
          (P.add (P.mul val f32_ten).1 (P.of_int (m p - 48))).1
          ((fl.or (P.mul val f32_ten).2).or
            (P.add (P.mul val f32_ten).1 (P.of_int (m p - 48))).2) (n + 1)
    else some (p, val, fl, n)

/-- The fractional part of `basic_parsing_float`: the block `if(c == '.')`. -/
def float_fraction (P : FPU) (m : Mem) (fuel : Nat) (p : Nat) (val : F32) (fl : FEFlags) :
    Option (Nat × F32 × FEFlags × Nat) :=
  if m p = 46 then
    match basic_parsing_skipws m fuel (p + 1) with
    | none => none
    | some p1 => float_digits P m fuel p1 val fl 0
  else some (p, val, fl, 0)

/-- The exponent part of `basic_parsing_float`: the block `if(c=='e' || c=='E')`.
Returns the result of `basic_parsing_uint16`, `p` and the signed exponent. -/
def float_exponent (m : Mem) (fuel : Nat) (p : Nat) : Option (BASIC_ERROR_ID × Nat × Int) :=
  if m p = 101 ∨ m p = 69 then
    match basic_parsing_skipws m fuel (p + 1) with
    | none => none
    | some p1 =>
      let sp : Option (Int × Nat) :=
        if m p1 = BASIC_KEYWORD_PLUS then
          match basic_parsing_skipws m fuel (p1 + 1) with
          | none => none
          | some p2 => some (1, p2)
        else if m p1 = BASIC_KEYWORD_MINUS then
          match basic_parsing_skipws m fuel (p1 + 1) with
          | none => none
          | some p2 => some (-1, p2)
        else some (1, p1)
      match sp with
      | none => none
      | some (exponent_sign, p2) =>
        match basic_parsing_uint16 fuel m p2 0 with
        | none => none
        | some (r, p3, e) => some (r, p3, exponent_sign * (e : Int))
  else some (.OK, p, 0)

/-- `basic_parsing_float(parse_ptr, out)`: the result and the values of
`*parse_ptr` and `*out` after the call. -/
def basic_parsing_float (P : FPU) (fuel : Nat) (m : Mem) (parse_ptr : Nat) (out : F32) :
    Option (BASIC_ERROR_ID × Nat × F32) :=
  match float_digits P m fuel parse_ptr 0 FE_NONE 0 with
  | none => none
  | some (p1, val1, fl1, _) =>
    match float_fraction P m fuel p1 val1 fl1 with
    | none => none
    | some (p2, val2, fl2, nfrac) =>
      match float_exponent m fuel p2 with
      | none => none
      | some (r, p3, e) =>
        if r ≠ .NOT_FOUND ∧ r ≠ .OK then some (r, parse_ptr, out)
        else
          let pw := P.powf f32_ten (P.of_int (e - (nfrac : Int)))
          let v := P.mul val2 pw.1
          let r1 := except_to_basic_error ((fl2.or pw.2).or v.2)
          if r1 = .OK then some (r1, p3, v.1) else some (r1, p3, out)

/-- `var_name_empty()`. -/
def var_name_empty : Nat := 0

/-- `var_name_add_char(n, c)`, a value of type `uint16_t`. -/
def var_name_add_char (n c : Nat) : Nat := (n * 256 % 65536 + c % 256) % 65536

/-- `basic_parsing_varname(parse_ptr, out)`: the result and the values of
`*parse_ptr` and `*out` after the call. -/
def basic_parsing_varname (fuel : Nat) (m : Mem) (parse_ptr out : Nat) :
    Option (BASIC_ERROR_ID × Nat × Nat) :=
  if IS_ALPHA (m parse_ptr) = false then some (.SYNTAX, parse_ptr, out)
  else
    match basic_parsing_skipws m fuel (parse_ptr + 1) with
    | none => none
    | some p1 =>
      if IS_DIGIT (m p1) then
        match basic_parsing_skipws m fuel (p1 + 1) with
        | none => none
        | some p2 =>
          some (.OK, p2, var_name_add_char (var_name_add_char var_name_empty (m parse_ptr)) (m p1))
      else some (.OK, p1, var_name_add_char var_name_empty (m parse_ptr))

/-- `eval_function(x, fn)`: the value, the exception flags raised and the state
of the random generator after the call. -/
def eval_function (P : FPU) (x : F32) (fn : Nat) (seed : Nat) : F32 × FEFlags × Nat :=
  if fn = BASIC_KEYWORD_SGN then
    if (P.lt 0 x).1 then (f32_one, (P.lt 0 x).2, seed)
    else if (P.lt x 0).1 then (f32_minus_one, (P.lt 0 x).2.or (P.lt x 0).2, seed)
    else (0, (P.lt 0 x).2.or (P.lt x 0).2, seed)
  else if fn = BASIC_KEYWORD_INT then ((P.floor x).1, (P.floor x).2, seed)
  else if fn = BASIC_KEYWORD_ABS then ((P.fabsf x).1, (P.fabsf x).2, seed)
  else if fn = BASIC_KEYWORD_USR then (0, FE_NONE, seed)
  else if fn = BASIC_KEYWORD_SQR then ((P.sqrtf x).1, (P.sqrtf x).2, seed)
  else if fn = BASIC_KEYWORD_RND then
    ((P.div (P.of_int (P.rand seed).1) P.rand_max_p1).1,
      (P.div (P.of_int (P.rand seed).1) P.rand_max_p1).2, (P.rand seed).2)
  else if fn = BASIC_KEYWORD_SIN then ((P.sinf x).1, (P.sinf x).2, seed)
  else (0, FE_NONE, seed)

/-- The table `operator_precedence_table`, indexed by opcode minus
`BASIC_KEYWORD_RANGE_BEGIN_OPERATORS`. -/
def operator_precedence_table : List Nat := [1, 1, 2, 2]

/-- `operator_precedence_table[op - BASIC_KEYWORD_RANGE_BEGIN_OPERATORS]`. -/
def operator_precedence (op : Nat) : Nat :=
  operator_precedence_table.getD (op - BASIC_KEYWORD_RANGE_BEGIN_OPERATORS) 0

/-- `apply_operator(a, b, op)`: the value and the exception flags raised. -/
def apply_operator (P : FPU) (a b : F32) (op : Nat) : F32 × FEFlags :=
  if op = BASIC_KEYWORD_PLUS then P.add a b
  else if op = BASIC_KEYWORD_MINUS then P.sub a b
  else if op = BASIC_KEYWORD_MULTIPLY then P.mul a b
  else if op = BASIC_KEYWORD_DIVIDE then P.div a b
  else (0, FE_NONE)

abbrev PARSE_EXPR_STATE_EXPRESSION : Nat := 0
abbrev PARSE_EXPR_STATE_TERM : Nat := 1
abbrev PARSE_EXPR_STATE_SUBEXPR_RET : Nat := 2
abbrev PARSE_EXPR_STATE_FUNCTIONARG_RET : Nat := 3
abbrev PARSE_EXPR_STATE_SUBSCRIPT_RET : Nat := 4
abbrev PARSE_EXPR_STATE_FIRST_OPERATOR : Nat := 5
abbrev PARSE_EXPR_STATE_EXPR_1 : Nat := 6
abbrev PARSE_EXPR_STATE_SECOND_OPERATOR : Nat := 7
abbrev PARSE_EXPR_STATE_PRECEDENCE_DOWN : Nat := 8
abbrev PARSE_EXPR_STATE_APPLY_OPERATOR : Nat := 9
abbrev PARSE_EXPR_STATE_EXITING : Nat := 10

/-- The local variables of `expression_engine_norecurse` that live across
iterations of its loop, the arena and the state of the random generator. -/
structure EngState where
  lhs : F32
  rhs : F32
  val : F32
  p : Nat
  op : Nat
  min_precedence : Nat
  negate : Bool
  state : Nat
  r : BASIC_ERROR_ID
  mem : BASIC_MEM_MGR
  seed : Nat

/-- Outcome of one iteration of the loop of `expression_engine_norecurse`:
the loop goes on, the function returns `r` from inside the loop, the function
calls `abort()`, or a scan of the model ran out of fuel. -/
inductive EngStep where
  | next (σ : EngState)
  | ret (r : BASIC_ERROR_ID) (σ : EngState)
  | abort
  | out_of_fuel

/-- `fgstack_pop_expression(mem, &state, sizeof(state))` at the end of a case. -/
def eng_pop_state (σ : EngState) : EngStep :=
  match fgstack_pop_expression σ.mem 1 with
  | none => .abort
  | some (b, mem1) => .next { σ with state := b.getD 0 0, mem := mem1 }

/-- The sign loop at the start of the case `PARSE_EXPR_STATE_TERM`:
`while((p=basic_parsing_skipws(p)), (c = *p))`.  Returns `p` and `negate`. -/
def term_signs (m : Mem) : Nat → Nat → Bool → Option (Nat × Bool)
  | 0, _, _ => none
  | fuel + 1, p, negate =>
    match basic_parsing_skipws m fuel p with
    | none => none
    | some p1 =>
      if m p1 ≠ 0 then
        if m p1 = BASIC_KEYWORD_PLUS then term_signs m fuel (p1 + 1) negate
        else if m p1 = BASIC_KEYWORD_MINUS then term_signs m fuel (p1 + 1) (!negate)
        else some (p1, negate)
      else some (p1, negate)

/-- The pushes `negate`, `min_precedence`, `op`, `lhs` and the return state
that set up a "recursive" call. -/
def eng_push_locals (mem : BASIC_MEM_MGR) (σ : EngState) (negate : Bool) (tag : Nat) :
    BASIC_MEM_MGR :=
  let m1 := fgstack_push_expression_byte_nocheck mem (if negate then 1 else 0)
  let m2 := fgstack_push_expression_byte_nocheck m1 σ.min_precedence
  let m3 := fgstack_push_expression_byte_nocheck m2 σ.op
  let m4 := (fgstack_push_expression m3 (f32_bytes σ.lhs)).2
  fgstack_push_expression_byte_nocheck m4 tag

/-- The pops of `lhs`, `op`, `min_precedence` and `negate` at a return point;
`none` when `fgstack_pop_expression` calls `abort()`. -/
def eng_pop_locals (mem : BASIC_MEM_MGR) : Option (F32 × Nat × Nat × Bool × BASIC_MEM_MGR) :=
  match fgstack_pop_expression mem 4 with
  | none => none
  | some (b1, m1) =>
    match fgstack_pop_expression m1 1 with
    | none => none
    | some (b2, m2) =>
      match fgstack_pop_expression m2 1 with
      | none => none
      | some (b3, m3) =>
        match fgstack_pop_expression m3 1 with
        | none => none
        | some (b4, m4) =>
          some (f32_of_list b1, b2.getD 0 0, b3.getD 0 0, decide (b4.getD 0 0 ≠ 0), m4)

/-- `fgstack_check_space(s, size)`. -/
def fgstack_check_space (s : BASIC_MEM_MGR) (size : Nat) : Bool :=
  basic_mem_check_space s size

/-- The case `PARSE_EXPR_STATE_TERM` of `expression_engine_norecurse`. -/
def eng_term (P : FPU) (fuel : Nat) (σ : EngState) : EngStep :=
  match term_signs σ.mem.base fuel σ.p false with
  | none => .out_of_fuel
  | some (p, negate) =>
    if IS_ALPHA (σ.mem.base p) then
      match basic_parsing_varname fuel σ.mem.base p 0 with
      | none => .out_of_fuel
      | some (r, p1, vn) =>
        if r ≠ .OK then .ret (if r = .NOT_FOUND then .SYNTAX else r) σ
        else if σ.mem.base p1 = 40 then
          if fgstack_check_space σ.mem 10 = false then .ret .OUT_OF_MEMORY σ
          else
            .next { σ with
              p := p1 + 1, negate := negate, r := .NOT_FOUND
              state := PARSE_EXPR_STATE_EXPRESSION
              mem := eng_push_locals (fgstack_push_expression σ.mem (u16_bytes vn)).2 σ negate
                PARSE_EXPR_STATE_SUBSCRIPT_RET }
        else
          match basic_parsing_skipws σ.mem.base fuel p1 with
          | none => .out_of_fuel
          | some p2 =>
            eng_pop_state { σ with
              val := if negate then f32_neg (variable_storage_read_var σ.mem vn)
                else variable_storage_read_var σ.mem vn
              p := p2, negate := negate, r := r }
    else if IS_DIGIT (σ.mem.base p) ∨ σ.mem.base p = 46 then
      match basic_parsing_float P fuel σ.mem.base p σ.val with
      | none => .out_of_fuel
      | some (r, p1, val) =>
        if r ≠ .OK then .ret r σ
        else
          match basic_parsing_skipws σ.mem.base fuel p1 with
          | none => .out_of_fuel
          | some p2 =>
            eng_pop_state { σ with
              val := if negate then f32_neg val else val, p := p2, negate := negate, r := r }
    else if BASIC_KEYWORD_RANGE_BEGIN_FUNCTIONS ≤ σ.mem.base p ∧
        σ.mem.base p ≤ BASIC_KEYWORD_RANGE_END_FUNCTIONS then
      match basic_parsing_skipws σ.mem.base fuel (p + 1) with
      | none => .out_of_fuel
      | some p1 =>
        if σ.mem.base p1 ≠ 40 then .ret .SYNTAX σ
        else
          match basic_parsing_skipws σ.mem.base fuel (p1 + 1) with
          | none => .out_of_fuel
          | some p2 =>
            if fgstack_check_space σ.mem 9 = false then .ret .OUT_OF_MEMORY σ
            else
              .next { σ with
                p := p2, negate := negate, r := .NOT_FOUND
                state := PARSE_EXPR_STATE_EXPRESSION
                mem := eng_push_locals
                  (fgstack_push_expression_byte_nocheck σ.mem (σ.mem.base p)) σ negate
                  PARSE_EXPR_STATE_FUNCTIONARG_RET }
    else if σ.mem.base p = 40 then
      if fgstack_check_space σ.mem 8 = false then .ret .OUT_OF_MEMORY σ
      else
        .next { σ with
          p := p + 1, negate := negate, r := .NOT_FOUND
          state := PARSE_EXPR_STATE_EXPRESSION
          mem := eng_push_locals σ.mem σ negate PARSE_EXPR_STATE_SUBEXPR_RET }
    else .ret .SYNTAX σ

/-- The case `PARSE_EXPR_STATE_SUBEXPR_RET`. -/
def eng_subexpr_ret (fuel : Nat) (σ : EngState) : EngStep :=
  match eng_pop_locals σ.mem with
  | none => .abort
  | some (lhs, op, mp, negate, m1) =>
    if m1.base σ.p ≠ 41 then .ret .SYNTAX { σ with mem := m1 }
    else
      match basic_parsing_skipws m1.base fuel (σ.p + 1) with
      | none => .out_of_fuel
      | some p1 =>
        eng_pop_state { σ with
          val := if negate then f32_neg σ.lhs else σ.lhs
          lhs := lhs, op := op, min_precedence := mp, negate := negate, p := p1, mem := m1 }

/-- The case `PARSE_EXPR_STATE_FUNCTIONARG_RET`. -/
def eng_functionarg_ret (P : FPU) (fuel : Nat) (σ : EngState) : EngStep :=
  match eng_pop_locals σ.mem with
  | none => .abort
  | some (lhs, op, mp, negate, m1) =>
    match fgstack_pop_expression m1 1 with
    | none => .abort
    | some (fn, m2) =>
      if m2.base σ.p ≠ 41 then .ret .SYNTAX { σ with mem := m2 }
      else
        match basic_parsing_skipws m2.base fuel (σ.p + 1) with
        | none => .out_of_fuel
        | some p1 =>
          if except_to_basic_error (eval_function P σ.lhs (fn.getD 0 0) σ.seed).2.1 ≠ .OK then
            .ret (except_to_basic_error (eval_function P σ.lhs (fn.getD 0 0) σ.seed).2.1)
              { σ with mem := m2, seed := (eval_function P σ.lhs (fn.getD 0 0) σ.seed).2.2 }
          else
            eng_pop_state { σ with
              val := if negate then f32_neg (eval_function P σ.lhs (fn.getD 0 0) σ.seed).1
                else (eval_function P σ.lhs (fn.getD 0 0) σ.seed).1
              lhs := lhs, op := op, min_precedence := mp, negate := negate, p := p1, mem := m2
              r := .OK, seed := (eval_function P σ.lhs (fn.getD 0 0) σ.seed).2.2 }

/-- The case `PARSE_EXPR_STATE_SUBSCRIPT_RET`. -/
def eng_subscript_ret (P : FPU) (fuel : Nat) (σ : EngState) : EngStep :=
  if (P.lt σ.lhs 0).1 ∨ (P.lt f32_32767 σ.lhs).1 then .ret .PARAMETER σ
  else
    match eng_pop_locals σ.mem with
    | none => .abort
    | some (lhs, op, mp, negate, m1) =>
      match fgstack_pop_expression m1 2 with
      | none => .abort
      | some (vn, m2) =>
        if m2.base σ.p ≠ 41 then .ret .SYNTAX { σ with mem := m2 }
        else
          match basic_parsing_skipws m2.base fuel (σ.p + 1) with
          | none => .out_of_fuel
          | some p1 =>
            match variable_storage_create_array_var m2 (le16 (vn.getD 0 0) (vn.getD 1 0))
                (u32 (P.to_unsigned (P.floorf σ.lhs).1)) false with
            | (r, pval, m3) =>
              if r ≠ .OK then .ret r { σ with mem := m3 }
              else
                eng_pop_state { σ with
                  val := if negate then f32_neg (mem_read_f32 m3.base pval)
                    else mem_read_f32 m3.base pval
                  lhs := lhs, op := op, min_precedence := mp, negate := negate, p := p1
                  mem := m3, r := r }

/-- The test on the next byte shared by the cases `EXPR_1` and
`SECOND_OPERATOR`: it is a binary operator. -/
def is_operator (c : Nat) : Bool :=
  decide (BASIC_KEYWORD_RANGE_BEGIN_OPERATORS ≤ c ∧ c ≤ BASIC_KEYWORD_RANGE_END_OPERATORS)

/-- The case `PARSE_EXPR_STATE_EXPR_1`. -/
def eng_expr_1 (fuel : Nat) (σ : EngState) : EngStep :=
  if is_operator (σ.mem.base σ.p) ∧
      operator_precedence (σ.mem.base σ.p) ≥ σ.min_precedence then
    match basic_parsing_skipws σ.mem.base fuel (σ.p + 1) with
    | none => .out_of_fuel
    | some p1 =>
      match fgstack_push_expression σ.mem [PARSE_EXPR_STATE_SECOND_OPERATOR] with
      | (false, _) => .ret .OUT_OF_MEMORY σ
      | (true, m1) =>
        .next { σ with
          op := σ.mem.base σ.p, p := p1, state := PARSE_EXPR_STATE_TERM, mem := m1 }
  else eng_pop_state σ

/-- The case `PARSE_EXPR_STATE_SECOND_OPERATOR`. -/
def eng_second_operator (σ : EngState) : EngStep :=
  if is_operator (σ.mem.base σ.p) ∧
      operator_precedence (σ.mem.base σ.p) > operator_precedence σ.op then
    if fgstack_check_space σ.mem 7 = false then .ret .OUT_OF_MEMORY σ
    else
      .next { σ with
        rhs := σ.val, lhs := σ.val
        min_precedence := (operator_precedence σ.op + 1) % 256
        state := PARSE_EXPR_STATE_EXPR_1
        mem := fgstack_push_expression_byte_nocheck
          (fgstack_push_expression
            (fgstack_push_expression_byte_nocheck
              (fgstack_push_expression_byte_nocheck σ.mem σ.min_precedence) σ.op)
            (f32_bytes σ.lhs)).2 PARSE_EXPR_STATE_PRECEDENCE_DOWN }
  else .next { σ with rhs := σ.val, state := PARSE_EXPR_STATE_APPLY_OPERATOR }

/-- The case `PARSE_EXPR_STATE_PRECEDENCE_DOWN`. -/
def eng_precedence_down (σ : EngState) : EngStep :=
  match fgstack_pop_expression σ.mem 4 with
  | none => .abort
  | some (b1, m1) =>
    match fgstack_pop_expression m1 1 with
    | none => .abort
    | some (b2, m2) =>
      match fgstack_pop_expression m2 1 with
      | none => .abort
      | some (b3, m3) =>
        .next { σ with
          rhs := σ.lhs, lhs := f32_of_list b1, op := b2.getD 0 0, min_precedence := b3.getD 0 0
          state := PARSE_EXPR_STATE_APPLY_OPERATOR, mem := m3 }

/-- The case `PARSE_EXPR_STATE_APPLY_OPERATOR`. -/
def eng_apply_operator (P : FPU) (σ : EngState) : EngStep :=
  if except_to_basic_error (apply_operator P σ.lhs σ.rhs σ.op).2 ≠ .OK then
    .ret (except_to_basic_error (apply_operator P σ.lhs σ.rhs σ.op).2) σ
  else
    .next { σ with
      lhs := (apply_operator P σ.lhs σ.rhs σ.op).1, r := .OK
      state := PARSE_EXPR_STATE_EXPR_1 }

/-- One iteration of the loop of `expression_engine_norecurse`:
`switch(state)`. -/
def engine_step (P : FPU) (fuel : Nat) (σ : EngState) : EngStep :=
  if σ.state = PARSE_EXPR_STATE_EXPRESSION then
    match fgstack_push_expression σ.mem [PARSE_EXPR_STATE_FIRST_OPERATOR] with
    | (false, _) => .ret .OUT_OF_MEMORY σ
    | (true, m1) =>
      .next { σ with min_precedence := 0, state := PARSE_EXPR_STATE_TERM, mem := m1 }
  else if σ.state = PARSE_EXPR_STATE_TERM then eng_term P fuel σ
  else if σ.state = PARSE_EXPR_STATE_SUBEXPR_RET then eng_subexpr_ret fuel σ
  else if σ.state = PARSE_EXPR_STATE_FUNCTIONARG_RET then eng_functionarg_ret P fuel σ
  else if σ.state = PARSE_EXPR_STATE_SUBSCRIPT_RET then eng_subscript_ret P fuel σ
  else if σ.state = PARSE_EXPR_STATE_FIRST_OPERATOR then
    .next { σ with lhs := σ.val, state := PARSE_EXPR_STATE_EXPR_1 }
  else if σ.state = PARSE_EXPR_STATE_EXPR_1 then eng_expr_1 fuel σ
  else if σ.state = PARSE_EXPR_STATE_SECOND_OPERATOR then eng_second_operator σ
  else if σ.state = PARSE_EXPR_STATE_PRECEDENCE_DOWN then eng_precedence_down σ
  else if σ.state = PARSE_EXPR_STATE_APPLY_OPERATOR then eng_apply_operator P σ
  else if σ.state = PARSE_EXPR_STATE_EXITING then .next σ
  else .ret .INTERNAL σ

/-- Outcome of a call of the expression evaluator: a scan of the model ran out
of fuel, the code called `abort()`, or it returned `r` with the given values
of `*parse_ptr` and `*out`, arena and state of the random generator. -/
inductive EngResult where
  | out_of_fuel
  | abort
  | ret (r : BASIC_ERROR_ID) (parse_ptr : Nat) (out : F32) (mem : BASIC_MEM_MGR) (seed : Nat)

/-- The loop `while(state != PARSE_EXPR_STATE_EXITING)` of
`expression_engine_norecurse` and the code after it; `parse_ptr` and `out` are
the values of `*parse_ptr` and `*out` at the call, `n` bounds the number of
iterations. -/
def engine_loop (P : FPU) (fuel : Nat) (parse_ptr : Nat) (out : F32) : Nat → EngState → EngResult
  | 0, _ => .out_of_fuel
  | n + 1, σ =>
    if σ.state = PARSE_EXPR_STATE_EXITING then .ret σ.r σ.p σ.lhs σ.mem σ.seed
    else
      match engine_step P fuel σ with
      | .next σ1 => engine_loop P fuel parse_ptr out n σ1
      | .ret r σ1 => .ret r parse_ptr out σ1.mem σ1.seed
      | .abort => .abort
      | .out_of_fuel => .out_of_fuel

/-- The locals of `expression_engine_norecurse` when its loop is entered
(`op`, which the code leaves uninitialised, is taken as 0). -/
def engine_init (parse_ptr : Nat) (mem : BASIC_MEM_MGR) (seed : Nat) : EngState :=
  { lhs := 0, rhs := 0, val := 0, p := parse_ptr, op := 0, min_precedence := 0
    negate := false, state := PARSE_EXPR_STATE_EXPRESSION, r := .NOT_FOUND
    mem := mem, seed := seed }

/-- `expression_engine_norecurse(parse_ptr, out, mem)`. -/
def expression_engine_norecurse (P : FPU) (fuel : Nat) (parse_ptr : Nat) (out : F32)
    (mem : BASIC_MEM_MGR) (seed : Nat) : EngResult :=
  match fgstack_push_expression mem [PARSE_EXPR_STATE_EXITING] with
  | (false, _) => .ret .OUT_OF_MEMORY parse_ptr out mem seed
  | (true, m1) => engine_loop P fuel parse_ptr out fuel (engine_init parse_ptr m1 seed)

/-- `basic_parsing_expression(parse_ptr, out, mem)`. -/
def basic_parsing_expression (P : FPU) (fuel : Nat) (parse_ptr : Nat) (out : F32)
    (mem : BASIC_MEM_MGR) (seed : Nat) : EngResult :=
  match expression_engine_norecurse P fuel parse_ptr out mem seed with
  | .ret r p o m1 s => .ret r p o (fgstack_set_top m1 (fgstack_get_top mem)) s
  | .abort => .abort
  | .out_of_fuel => .out_of_fuel

/-- Number of spaces at the start of a string. -/
def count_spaces : List Nat → Nat
  | 32 :: r => count_spaces r + 1
  | _ => 0

/-- The digits `basic_parsing_uint16` would read from a string, as numbers
0..9 (spaces before and between digits are skipped, any other byte ends the
number), and the number of bytes up to the end of the digits and of the
spaces that follow them. -/
def uint16_scan : List Nat → List Nat × Nat
  | [] => ([], 0)
  | c :: r =>
    if c = 32 then ((uint16_scan r).1, (uint16_scan r).2 + 1)
    else if IS_DIGIT c then ((c - 48) :: (uint16_scan r).1, (uint16_scan r).2 + 1)
    else ([], 0)

/-- The decimal number formed by a list of digits, after the digits of `acc`. -/
def decimal_value (acc : Nat) (ds : List Nat) : Nat :=
  ds.foldl (fun a d => 10 * a + d) acc

/-- The names of the `n` scalar records stored back to back from offset `a`
(each record is 6 bytes: the packed name, then the value). -/
def scalar_names (pb : Mem) : Nat → Nat → List Nat
  | _, 0 => []
  | a, n + 1 => le16 (pb a) (pb (a + 1)) :: scalar_names pb (a + sizeof_VARIABLE_ENTRY) n

/-- The names of the scalars of the arena, in the order of their records
between `vars_idx` and `array_idx`. -/
def scalar_region (s : BASIC_MEM_MGR) : List Nat :=
  scalar_names s.base s.vars_idx ((s.array_idx - s.vars_idx) / sizeof_VARIABLE_ENTRY)

/-- An arena of 32 bytes with the scalar `A` (value bytes 1 2 3 4) and a
4-byte array region. -/
def one_var_arena : BASIC_MEM_MGR :=
  { base := mem_write_list (fun _ => 0) 3 [65, 0, 1, 2, 3, 4, 66, 0, 0, 0]
    vars_idx := 3, array_idx := 9, free_idx := 13, stktop_idx := 32, max_idx := 32 }

/-! ### The stack as a list of frames -/

/-- A frame of the FOR/GOSUB stack: its tag byte and its entry. -/
inductive FGS_FRAME where
  | gosub_frame (e : FGS_ENTRY_GOSUB)
  | for_frame (e : FGS_ENTRY_FOR)
  deriving DecidableEq, Repr

/-- Number of bytes of a frame: the tag and the entry. -/
def FGS_FRAME.size : FGS_FRAME → Nat
  | .gosub_frame _ => sizeof_FGS_ENTRY_GOSUB + 1
  | .for_frame _ => sizeof_FGS_ENTRY_FOR + 1

/-- Number of bytes of a list of frames. -/
def frames_size : List FGS_FRAME → Nat
  | [] => 0
  | f :: rest => f.size + frames_size rest

/-- The frames `frames` are stored back to back from offset `a` (the first of
the list at the lowest offset, which is the top of the stack): each has its tag
byte and reads back as its entry. -/
def FramesAt (m : Mem) : Nat → List FGS_FRAME → Prop
  | _, [] => True
  | a, .gosub_frame e :: rest =>
    m a = FGS_TAG_GOSUB ∧ mem_read_gosub m (a + 1) = e ∧
      FramesAt m (a + (sizeof_FGS_ENTRY_GOSUB + 1)) rest
  | a, .for_frame e :: rest =>
    m a = FGS_TAG_FOR ∧ mem_read_for m (a + 1) = e ∧
      FramesAt m (a + (sizeof_FGS_ENTRY_FOR + 1)) rest

/-- The stack of the arena is made of the well-formed frames `frames`, from
`stktop_idx` up to `max_idx`. -/
def StackWF (s : BASIC_MEM_MGR) (frames : List FGS_FRAME) : Prop :=
  FramesAt s.base s.stktop_idx frames ∧ s.stktop_idx + frames_size frames = s.max_idx

/-- The topmost GOSUB frame of a stack and the frames under it. -/
def frames_pop_gosub : List FGS_FRAME → Option (FGS_ENTRY_GOSUB × List FGS_FRAME)
  | [] => none
  | .gosub_frame e :: rest => some (e, rest)
  | .for_frame _ :: rest => frames_pop_gosub rest

/-- The fields of a GOSUB entry are values of type `uint16_t`. -/
def FGS_ENTRY_GOSUB.Valid (e : FGS_ENTRY_GOSUB) : Prop :=
  e.line < 65536 ∧ e.parse_idx < 65536

/-- The fields `line`, `parse_idx` and `vn` of a FOR entry are values of type
`uint16_t`. -/
def FGS_ENTRY_FOR.Valid (e : FGS_ENTRY_FOR) : Prop :=
  e.line < 65536 ∧ e.parse_idx < 65536 ∧ e.vn < 65536

instance (e : FGS_ENTRY_GOSUB) : Decidable e.Valid := inferInstanceAs (Decidable (_ ∧ _))

instance (e : FGS_ENTRY_FOR) : Decidable e.Valid := inferInstanceAs (Decidable (_ ∧ _ ∧ _))

/-- A sequence of `fgstack_push_for` calls that all succeed (`none` when one
fails). -/
def push_fors : BASIC_MEM_MGR → List FGS_ENTRY_FOR → Option BASIC_MEM_MGR
  | s, [] => some s
  | s, e :: rest =>
    match fgstack_push_for s e with
    | (true, s1) => push_fors s1 rest
    | (false, _) => none

/-- State of the stack while FOR frames are pushed on top of the GOSUB frame of
`g` that was pushed on the arena `S`: the `n + 1` new frames reach from
`stktop_idx` up
to the old top, the bytes from the old top on and the other indices are
those of `S`. -/
def PushedOn (S : BASIC_MEM_MGR) (g : FGS_ENTRY_GOSUB) (n : Nat) (T : BASIC_MEM_MGR) : Prop :=
  ArenaOrdered T ∧
  (∃ K, FramesAt T.base T.stktop_idx K ∧ T.stktop_idx + frames_size K = S.stktop_idx ∧
    frames_pop_gosub K = some (g, []) ∧ K.length = n + 1) ∧
  (∀ a, S.stktop_idx ≤ a → T.base a = S.base a) ∧
  T.vars_idx = S.vars_idx ∧ T.array_idx = S.array_idx ∧ T.free_idx = S.free_idx ∧
  T.max_idx = S.max_idx

/-- A 3-byte arena after `prog_storage_initialize`, taken from the start of a
larger buffer (as in the tests, where the arena is the start of the 256-byte
array `psbuf`) whose byte at offset 3 is 1. -/
def tiny_arena_gosub : BASIC_MEM_MGR :=
  prog_storage_initialize (mem_write (fun _ => 0) 3 1) 3

/-- A 9-byte arena after `prog_storage_initialize`, taken from the start of a
larger buffer whose bytes from offset 9 on are 0 but for the byte 65 (`A`) at
offset 22. -/
def tiny_arena_for : BASIC_MEM_MGR :=
  prog_storage_initialize (mem_write (fun _ => 0) 22 65) 9

/-- A 64-byte arena with an empty program and the FOR frame of the variable
`I` (line 10, resume offset 7, limit 0, step 0) on the stack. -/
def stack_demo_arena : BASIC_MEM_MGR :=
  (fgstack_push_for ( prog_storage_initialize (fun _ => 0) 64) ⟨10, 7, 0, 0, 73⟩).2

/-! ## The interpreter (`basic_main.c`) -/

/-- The value `UINT_MAX`. -/
abbrev UINT_MAX : Nat := 4294967295

/-- The structure `BASIC_MAIN_STATE`, together with the environment the
interpreter runs in: the address of the field `input_buf`, the characters
written so far, the input still to be read, the coming answers of the break-key
callback and the state of the random generator. -/
structure BASIC_MAIN_STATE where
  parse_ptr : Nat
  data_ptr : Nat
  prog : BASIC_MEM_MGR
  current_line : Nat
  data_line : Nat
  error_in_data : Bool
  /-- Address of the 80-byte field `input_buf`. -/
  input_buf : Nat
  /-- The characters written so far by `basic_printf` and `basic_putchar`. -/
  output : List Nat
  /-- The strings the next calls of `basic_fgets_stdin` read, newline included
  (none left: end of input). -/
  stdin : List (List Nat)
  /-- The results of the next calls of `basic_callback_check_break_key` (none
  left: the key is not pressed). -/
  break_keys : List Bool
  /-- State of the generator behind `rand`. -/
  seed : Nat

/-- Outcome of a call: it returns `a`, it calls `abort()`, or a loop of the
model ran out of fuel. -/
inductive Outcome (α : Type) where
  | ret (a : α)
  | abort
  | out_of_fuel

/-- Sequencing of calls: the first outcome that is not a return ends the run. -/
def Outcome.bind {α β : Type} (x : Outcome α) (f : α → Outcome β) : Outcome β :=
  match x with
  | .ret a => f a
  | .abort => .abort
  | .out_of_fuel => .out_of_fuel

instance : Monad Outcome where
  pure := Outcome.ret
  bind := Outcome.bind

/-- A scan of the model as an outcome. -/
def Outcome.of_option {α : Type} : Option α → Outcome α
  | some a => .ret a
  | none => .out_of_fuel

/-- The calls `basic_printf` and `basic_putchar`: the characters `l` are
written. -/
def bs_print (bs : BASIC_MAIN_STATE) (l : List Nat) : BASIC_MAIN_STATE :=
  { bs with output := bs.output ++ l }

/-- The characters of a string literal of the source. -/
def c_string (s : String) : List Nat := s.toList.map Char.toNat

/-- The characters printed for an unsigned number by `%u` (and for a
non-negative `int` by `%d`). -/
def printf_u (n : Nat) : List Nat := (Nat.toDigits 10 n).map Char.toNat

/-- The table `basic_error_text_table`. -/
def basic_error_text_table : List (List Nat) :=
  [c_string "OK", c_string "NEXT without FOR", c_string "Syntax",
   c_string "RETURN without GOSUB", c_string "Out of DATA", c_string "Parameter",
   c_string "Overflow", c_string "Out of memory", c_string "No such line",
   c_string "Subscript", c_string "Redimension", c_string "Division by 0",
   c_string "In program only", c_string "STOP", c_string "Internal"]

/-- The numeric value of an error identifier. -/
def BASIC_ERROR_ID.to_nat : BASIC_ERROR_ID → Nat
  | .OK => 0 | .NEXT_WITHOUT_FOR => 1 | .SYNTAX => 2 | .RETURN_WITHOUT_GOSUB => 3
  | .OUT_OF_DATA => 4 | .PARAMETER => 5 | .OVERFLOW => 6 | .OUT_OF_MEMORY => 7
  | .NO_SUCH_LINE => 8 | .SUBSCRIPT => 9 | .REDIMENSION => 10 | .DIVISION_BY_ZERO => 11
  | .IN_PROGRAM_ONLY => 12 | .STOP => 13 | .INTERNAL => 14 | .NOT_FOUND => 15

/-- The characters written by `basic_error_print(id, line)`. -/
def basic_error_print (id : BASIC_ERROR_ID) (line : Nat) : List Nat :=
  if id = .OK then []
  else
    let id1 : BASIC_ERROR_ID := if id.to_nat ≥ basic_error_text_table.length then .INTERNAL else id
    basic_error_text_table.getD id1.to_nat [] ++
      (if id1 ≠ .STOP then c_string " error" else []) ++
      (if line ≠ UINT_MAX then c_string " in line " ++ printf_u line else []) ++ [10]

/-- The call `basic_parsing_expression(&p, &val, &bs->prog)` with `val = 0.0f`:
the result, `p`, `val` and the state after the call. -/
def bs_expression (P : FPU) (fuel : Nat) (bs : BASIC_MAIN_STATE) (p : Nat) :
    Outcome (BASIC_ERROR_ID × Nat × F32 × BASIC_MAIN_STATE) :=
  match basic_parsing_expression P fuel p 0 bs.prog bs.seed with
  | .ret r p1 val mem1 seed1 => .ret (r, p1, val, { bs with prog := mem1, seed := seed1 })
  | .abort => .abort
  | .out_of_fuel => .out_of_fuel

/-- `basic_parsing_arrayindex(parse_ptr, out, mem)`: the result, `*parse_ptr`,
`*out`, the arena and the state of the generator after the call. -/
def basic_parsing_arrayindex (P : FPU) (fuel : Nat) (parse_ptr out : Nat) (mem : BASIC_MEM_MGR)
    (seed : Nat) : Outcome (BASIC_ERROR_ID × Nat × Nat × BASIC_MEM_MGR × Nat) :=
  match basic_parsing_expression P fuel (parse_ptr + 1) 0 mem seed with
  | .abort => .abort
  | .out_of_fuel => .out_of_fuel
  | .ret r p val mem1 seed1 =>
    if r ≠ .OK then .ret (r, parse_ptr, out, mem1, seed1)
    else if (P.lt val 0).1 ∨ (P.lt f32_32767 val).1 then
      .ret (.PARAMETER, parse_ptr, out, mem1, seed1)
    else
      match basic_parsing_skipws mem1.base fuel p with
      | none => .out_of_fuel
      | some p1 =>
        if mem1.base p1 ≠ 41 then .ret (.SYNTAX, parse_ptr, out, mem1, seed1)
        else .ret (.OK, p1 + 1, u32 (P.to_unsigned (P.floorf val).1), mem1, seed1)

/-- What `get_variable` passes back: the result, `*parse_ptr`, `*pvn`, the
pointer stored through `out` in creation mode (0 when none is), the value
stored through `out` in read mode, the arena and the state of the generator. -/
structure GET_VARIABLE_RESULT where
  r : BASIC_ERROR_ID
  parse_ptr : Nat
  vn : Nat
  pval : Nat
  fval : F32
  mem : BASIC_MEM_MGR
  seed : Nat

/-- `get_variable(parse_ptr, pvn, out, mem, create, dim)`; `vn0` is the value
of `*pvn` at the call. -/
def get_variable (P : FPU) (fuel : Nat) (parse_ptr vn0 : Nat) (mem : BASIC_MEM_MGR) (seed : Nat)
    (create dim : Bool) : Outcome GET_VARIABLE_RESULT :=
  match basic_parsing_varname fuel mem.base parse_ptr 0 with
  | none => .out_of_fuel
  | some (pr, p, vn) =>
    if pr ≠ .OK then .ret ⟨pr, parse_ptr, vn0, 0, 0, mem, seed⟩
    else if mem.base p = 40 then
      match basic_parsing_arrayindex P fuel p 0 mem seed with
      | .abort => .abort
      | .out_of_fuel => .out_of_fuel
      | .ret (pr1, p1, subscript, mem1, seed1) =>
        if pr1 = .NOT_FOUND then .ret ⟨.SYNTAX, parse_ptr, vn, 0, 0, mem1, seed1⟩
        else if pr1 ≠ .OK then .ret ⟨pr1, parse_ptr, vn, 0, 0, mem1, seed1⟩
        else
          match variable_storage_create_array_var mem1 vn subscript dim with
          | (pr2, pval, mem2) =>
            if pr2 ≠ .OK then .ret ⟨pr2, parse_ptr, vn, 0, 0, mem2, seed1⟩
            else
              match basic_parsing_skipws mem2.base fuel p1 with
              | none => .out_of_fuel
              | some p2 =>
                if create then .ret ⟨.OK, p2, vn, pval, 0, mem2, seed1⟩
                else .ret ⟨.OK, p2, vn, 0, mem_read_f32 mem2.base pval, mem2, seed1⟩
    else if create then
      match variable_storage_create_var mem vn with
      | (none, mem1) => .ret ⟨.OUT_OF_MEMORY, parse_ptr, vn, 0, 0, mem1, seed⟩
      | (some pval, mem1) =>
        match basic_parsing_skipws mem1.base fuel p with
        | none => .out_of_fuel
        | some p2 => .ret ⟨.OK, p2, vn, pval, 0, mem1, seed⟩
    else
      match basic_parsing_skipws mem.base fuel p with
      | none => .out_of_fuel
      | some p2 => .ret ⟨.OK, p2, vn, 0, variable_storage_read_var mem vn, mem, seed⟩

/-- `basic_parsing_variable_ref(parse_ptr, pvn, out, mem)`. -/
def basic_parsing_variable_ref (P : FPU) (fuel : Nat) (parse_ptr vn0 : Nat) (mem : BASIC_MEM_MGR)
    (seed : Nat) : Outcome GET_VARIABLE_RESULT :=
  get_variable P fuel parse_ptr vn0 mem seed true false

/-- `basic_parsing_variable_dim(parse_ptr, mem)`. -/
def basic_parsing_variable_dim (P : FPU) (fuel : Nat) (parse_ptr : Nat) (mem : BASIC_MEM_MGR)
    (seed : Nat) : Outcome GET_VARIABLE_RESULT :=
  get_variable P fuel parse_ptr 0 mem seed true true

/-- The store `pv->f = val`. -/
def store_value (bs : BASIC_MAIN_STATE) (pv : Nat) (val : F32) : BASIC_MAIN_STATE :=
  { bs with prog := { bs.prog with base := mem_write_list bs.prog.base pv (f32_bytes val) } }

/-- `handler_data`. -/
def handler_data (fuel : Nat) (bs : BASIC_MAIN_STATE) : Outcome (BASIC_ERROR_ID × BASIC_MAIN_STATE) :=
  match basic_parsing_skip_to_end_statement bs.prog.base fuel bs.parse_ptr with
  | none => .out_of_fuel
  | some p => .ret (.OK, { bs with parse_ptr := p })

/-- Index of the last newline character of a string, if there is one. -/
def last_newline (l : List Nat) : Option Nat :=
  match l.reverse.indexOf? 10 with
  | some i => some (l.length - 1 - i)
  | none => none

/-- `input_line`: `basic_fgets_stdin` stores the next string read (at most 79
characters) and a NUL in `input_buf`, then the last newline of the buffer is
overwritten by NUL. -/
def input_line (bs : BASIC_MAIN_STATE) : BASIC_ERROR_ID × BASIC_MAIN_STATE :=
  match bs.stdin with
  | [] => (.STOP, bs)
  | l :: rest =>
    let m1 := mem_write_list bs.prog.base bs.input_buf (l.take 79 ++ [0])
    let m2 := match last_newline (l.take 79) with
      | some i => mem_write m1 (bs.input_buf + i) 0
      | none => m1
    (.OK, { bs with stdin := rest, prog := { bs.prog with base := m2 } })

/-- The loop `while(!*input_ptr || (read && *input_ptr == ':'))` of
`read_input_common`, which looks for the next DATA item or asks for more
input: the result (not OK when the function returns from inside the loop),
`input_ptr`, `first_data` and the state. -/
def read_input_seek (read : Bool) : Nat → BASIC_MAIN_STATE → Nat → Bool →
    Outcome (BASIC_ERROR_ID × Nat × Bool × BASIC_MAIN_STATE)
  | 0, _, _, _ => .out_of_fuel
  | fuel + 1, bs, input_ptr, first_data =>
    if bs.prog.base input_ptr = 0 ∨ (read = true ∧ bs.prog.base input_ptr = 58) then
      if read then
        let adv : Nat × BASIC_MAIN_STATE :=
          if bs.prog.base input_ptr = 0 then
            ((prog_storage_advance_line bs.prog input_ptr).1,
              { bs with data_line := (prog_storage_advance_line bs.prog input_ptr).2 })
          else (input_ptr + 1, bs)
        if bs.prog.base input_ptr = 0 ∧ adv.2.data_line = UINT_MAX then
          .ret (.OUT_OF_DATA, adv.1, first_data, adv.2)
        else
          match basic_parsing_skipws bs.prog.base fuel adv.1 with
          | none => .out_of_fuel
          | some p1 =>
            if bs.prog.base p1 = BASIC_KEYWORD_DATA then
              match basic_parsing_skipws bs.prog.base fuel (p1 + 1) with
              | none => .out_of_fuel
              | some p2 => read_input_seek read fuel adv.2 p2 true
            else
              match basic_parsing_skip_to_end_statement bs.prog.base fuel p1 with
              | none => .out_of_fuel
              | some p2 => read_input_seek read fuel adv.2 p2 first_data
      else
        match input_line (bs_print bs (c_string "?? ")) with
        | (status, bs1) =>
          if status ≠ .OK then .ret (status, input_ptr, first_data, bs1)
          else read_input_seek read fuel bs1 bs1.input_buf first_data
    else .ret (.OK, input_ptr, first_data, bs)

/-- The `do ... while` loop of `read_input_common` with the locals `input_ptr`,
`first_input` and `first_data`. -/
def read_input_loop (P : FPU) (read : Bool) : Nat → BASIC_MAIN_STATE → Nat → Bool → Bool →
    Outcome (BASIC_ERROR_ID × BASIC_MAIN_STATE)
  | 0, _, _, _, _ => .out_of_fuel
  | fuel + 1, bs, input_ptr, first_input, first_data =>
    match read_input_seek read fuel bs input_ptr first_data with
    | .abort => .abort
    | .out_of_fuel => .out_of_fuel
    | .ret (status, input_ptr1, first_data1, bs1) =>
      if status ≠ .OK then .ret (status, bs1)
      else if first_input = false ∧ bs1.prog.base bs1.parse_ptr ≠ 44 then .ret (.SYNTAX, bs1)
      else
        match (if first_input then some bs1.parse_ptr
            else basic_parsing_skipws bs1.prog.base fuel (bs1.parse_ptr + 1)) with
        | none => .out_of_fuel
        | some pp =>
          if first_data1 = false ∧ bs1.prog.base input_ptr1 ≠ 44 then
            .ret (.SYNTAX, { bs1 with parse_ptr := pp, error_in_data := bs1.error_in_data || read })
          else
            match bs_expression P fuel { bs1 with parse_ptr := pp }
                (if first_data1 then input_ptr1 else input_ptr1 + 1) with
            | .abort => .abort
            | .out_of_fuel => .out_of_fuel
            | .ret (pr, input_ptr2, val, bs2) =>
              if pr = .NOT_FOUND then
                .ret (.SYNTAX, { bs2 with error_in_data := bs2.error_in_data || read })
              else if pr ≠ .OK then
                .ret (pr, { bs2 with error_in_data := bs2.error_in_data || read })
              else
                match basic_parsing_skipws bs2.prog.base fuel input_ptr2 with
                | none => .out_of_fuel
                | some input_ptr3 =>
                  match basic_parsing_variable_ref P fuel bs2.parse_ptr 0 bs2.prog bs2.seed with
                  | .abort => .abort
                  | .out_of_fuel => .out_of_fuel
                  | .ret g =>
                    if g.r = .NOT_FOUND then
                      .ret (.SYNTAX, { bs2 with prog := g.mem, seed := g.seed })
                    else if g.r ≠ .OK then .ret (g.r, { bs2 with prog := g.mem, seed := g.seed })
                    else
                      let bs3 := store_value
                        { bs2 with prog := g.mem, seed := g.seed, parse_ptr := g.parse_ptr }
                        g.pval val
                      if bs3.prog.base bs3.parse_ptr ≠ 0 ∧ bs3.prog.base bs3.parse_ptr ≠ 58 then
                        read_input_loop P read fuel bs3 input_ptr3 false false
                      else if read then .ret (.OK, { bs3 with data_ptr := input_ptr3 })
                      else .ret (.OK, bs3)

/-- `read_input_common(bs, read)`. -/
def read_input_common (P : FPU) (fuel : Nat) (bs : BASIC_MAIN_STATE) (read : Bool) :
    Outcome (BASIC_ERROR_ID × BASIC_MAIN_STATE) :=
  read_input_loop P read fuel bs (if read then bs.data_ptr else bs.input_buf) true (!read)

/-- `handler_input`. -/
def handler_input (P : FPU) (fuel : Nat) (bs : BASIC_MAIN_STATE) :
    Outcome (BASIC_ERROR_ID × BASIC_MAIN_STATE) :=
  if bs.current_line = UINT_MAX then .ret (.IN_PROGRAM_ONLY, bs)
  else
    match input_line (bs_print bs (c_string "? ")) with
    | (status, bs1) =>
      if status ≠ .OK then .ret (status, bs1) else read_input_common P fuel bs1 false

/-- The `do ... while(true)` loop of `handler_dim` with the local `p`. -/
def handler_dim_loop (P : FPU) : Nat → BASIC_MAIN_STATE → Nat →
    Outcome (BASIC_ERROR_ID × BASIC_MAIN_STATE)
  | 0, _, _ => .out_of_fuel
  | fuel + 1, bs, p =>
    match basic_parsing_variable_dim P fuel p bs.prog bs.seed with
    | .abort => .abort
    | .out_of_fuel => .out_of_fuel
    | .ret g =>
      if g.r = .NOT_FOUND then .ret (.SYNTAX, { bs with prog := g.mem, seed := g.seed })
      else if g.r ≠ .OK then .ret (g.r, { bs with prog := g.mem, seed := g.seed })
      else if g.mem.base g.parse_ptr = 44 then
        match basic_parsing_skipws g.mem.base fuel (g.parse_ptr + 1) with
        | none => .out_of_fuel
        | some p1 => handler_dim_loop P fuel { bs with prog := g.mem, seed := g.seed } p1
      else .ret (.OK, { bs with prog := g.mem, seed := g.seed, parse_ptr := g.parse_ptr })

/-- `handler_dim`. -/
def handler_dim (P : FPU) (fuel : Nat) (bs : BASIC_MAIN_STATE) :
    Outcome (BASIC_ERROR_ID × BASIC_MAIN_STATE) :=
  handler_dim_loop P fuel bs bs.parse_ptr

/-- `handler_read`. -/
def handler_read (P : FPU) (fuel : Nat) (bs : BASIC_MAIN_STATE) :
    Outcome (BASIC_ERROR_ID × BASIC_MAIN_STATE) :=
  read_input_common P fuel bs true

/-- `let_for_common(bs, pvn, ppv)`: the result, `*pvn`, `*ppv` and the state
after the call; `vn0` is the value of `*pvn` at the call. -/
def let_for_common (P : FPU) (fuel : Nat) (bs : BASIC_MAIN_STATE) (vn0 : Nat) :
    Outcome (BASIC_ERROR_ID × Nat × Nat × BASIC_MAIN_STATE) :=
  match basic_parsing_variable_ref P fuel bs.parse_ptr vn0 bs.prog bs.seed with
  | .abort => .abort
  | .out_of_fuel => .out_of_fuel
  | .ret g =>
    if g.r ≠ .OK then .ret (g.r, g.vn, 0, { bs with prog := g.mem, seed := g.seed })
    else
      match basic_parsing_skipws g.mem.base fuel g.parse_ptr with
      | none => .out_of_fuel
      | some p1 =>
        if g.mem.base p1 ≠ BASIC_KEYWORD_EQUALS then
          .ret (.SYNTAX, g.vn, g.pval, { bs with prog := g.mem, seed := g.seed, parse_ptr := p1 })
        else
          match bs_expression P fuel { bs with prog := g.mem, seed := g.seed, parse_ptr := p1 + 1 }
              (p1 + 1) with
          | .abort => .abort
          | .out_of_fuel => .out_of_fuel
          | .ret (pr, p2, val, bs1) =>
            if pr = .NOT_FOUND then .ret (.SYNTAX, g.vn, g.pval, { bs1 with parse_ptr := p2 })
            else if pr ≠ .OK then .ret (pr, g.vn, g.pval, { bs1 with parse_ptr := p2 })
            else .ret (.OK, g.vn, g.pval, store_value { bs1 with parse_ptr := p2 } g.pval val)

/-- `handler_let`. -/
def handler_let (P : FPU) (fuel : Nat) (bs : BASIC_MAIN_STATE) :
    Outcome (BASIC_ERROR_ID × BASIC_MAIN_STATE) :=
  match let_for_common P fuel bs 0 with
  | .abort => .abort
  | .out_of_fuel => .out_of_fuel
  | .ret (r, _, _, bs1) => .ret (r, bs1)

/-- `prog_storage_ptr_to_idx(prog, ptr)`, a value of type `unsigned`. -/
def prog_storage_ptr_to_idx (_prog : BASIC_MEM_MGR) (ptr : Nat) : Nat := u32 ptr

/-- `prog_storage_idx_to_ptr(prog, idx)`. -/
def prog_storage_idx_to_ptr (_prog : BASIC_MEM_MGR) (idx : Nat) : Nat := idx

/-- `handler_for`. -/
def handler_for (P : FPU) (fuel : Nat) (bs : BASIC_MAIN_STATE) :
    Outcome (BASIC_ERROR_ID × BASIC_MAIN_STATE) :=
  if bs.current_line = UINT_MAX then .ret (.IN_PROGRAM_ONLY, bs)
  else
    match let_for_common P fuel bs 0 with
    | .abort => .abort
    | .out_of_fuel => .out_of_fuel
    | .ret (status, vn, _, bs1) =>
      if status ≠ .OK then .ret (status, bs1)
      else
        match fgstack_lookup_for fuel bs1.prog vn with
        | none => .out_of_fuel
        | some (_, _, prog2) =>
          match basic_parsing_skipws prog2.base fuel bs1.parse_ptr with
          | none => .out_of_fuel
          | some p =>
            if prog2.base p ≠ BASIC_KEYWORD_TO then .ret (.SYNTAX, { bs1 with prog := prog2 })
            else
              match basic_parsing_skipws prog2.base fuel (p + 1) with
              | none => .out_of_fuel
              | some p1 =>
                match bs_expression P fuel { bs1 with prog := prog2 } p1 with
                | .abort => .abort
                | .out_of_fuel => .out_of_fuel
                | .ret (pr, p2, to_val, bs2) =>
                  if pr = .NOT_FOUND then .ret (.SYNTAX, bs2)
                  else if pr ≠ .OK then .ret (pr, bs2)
                  else
                    let step_part : Outcome (BASIC_ERROR_ID × Nat × F32 × BASIC_MAIN_STATE) :=
                      if bs2.prog.base p2 = BASIC_KEYWORD_STEP then
                        match basic_parsing_skipws bs2.prog.base fuel (p2 + 1) with
                        | none => .out_of_fuel
                        | some p3 => bs_expression P fuel bs2 p3
                      else .ret (.OK, p2, f32_one, bs2)
                    match step_part with
                    | .abort => .abort
                    | .out_of_fuel => .out_of_fuel
                    | .ret (pr1, p4, step, bs3) =>
                      if pr1 = .NOT_FOUND then .ret (.SYNTAX, bs3)
                      else if pr1 ≠ .OK then .ret (pr1, bs3)
                      else
                        match fgstack_push_for bs3.prog
                            ⟨bs3.current_line % 65536, prog_storage_ptr_to_idx bs3.prog p4 % 65536,
                              to_val, step, vn⟩ with
                        | (false, prog4) =>
                          .ret (.OUT_OF_MEMORY, { bs3 with parse_ptr := p4, prog := prog4 })
                        | (true, prog4) => .ret (.OK, { bs3 with parse_ptr := p4, prog := prog4 })

/-- `handler_next`. -/
def handler_next (P : FPU) (fuel : Nat) (bs : BASIC_MAIN_STATE) :
    Outcome (BASIC_ERROR_ID × BASIC_MAIN_STATE) :=
  match basic_parsing_varname fuel bs.prog.base bs.parse_ptr 0 with
  | none => .out_of_fuel
  | some (r, p, vn) =>
    if r ≠ .OK then .ret (.SYNTAX, bs)
    else
      match fgstack_lookup_for fuel bs.prog vn with
      | none => .out_of_fuel
      | some (false, _, prog1) => .ret (.NEXT_WITHOUT_FOR, { bs with parse_ptr := p, prog := prog1 })
      | some (true, fe, prog1) =>
        match variable_storage_create_var prog1 fe.vn with
        | (none, prog2) => .ret (.OUT_OF_MEMORY, { bs with parse_ptr := p, prog := prog2 })
        | (some pval, prog2) =>
          if ((P.lt 0 fe.step).1 ∧ (P.lt (mem_read_f32 prog2.base pval) fe.to_val).1) ∨
              ((P.lt fe.step 0).1 ∧ (P.lt fe.to_val (mem_read_f32 prog2.base pval)).1) then
            match fgstack_push_for prog2 fe with
            | (false, prog3) => .ret (.OUT_OF_MEMORY, { bs with parse_ptr := p, prog := prog3 })
            | (true, prog3) =>
              .ret (.OK, store_value
                { bs with
                  prog := prog3, current_line := fe.line
                  parse_ptr := prog_storage_idx_to_ptr prog3 fe.parse_idx }
                pval (P.add (mem_read_f32 prog3.base pval) fe.step).1)
          else .ret (.OK, { bs with parse_ptr := p, prog := prog2 })

/-- `goto_run_common(bs, line, line_must_exist)`. -/
def goto_run_common (fuel : Nat) (bs : BASIC_MAIN_STATE) (line : Nat) (line_must_exist : Bool) :
    Outcome (BASIC_ERROR_ID × BASIC_MAIN_STATE) :=
  match prog_storage_find_line fuel bs.prog line with
  | none => .out_of_fuel
  | some fr =>
    if fr.found = false ∧ line_must_exist = true then .ret (.NO_SUCH_LINE, bs)
    else
      .ret (.OK, { bs with
        current_line := line, parse_ptr := prog_storage_get_line_parse_ptr bs.prog fr.idx })

/-- `handler_goto`. -/
def handler_goto (fuel : Nat) (bs : BASIC_MAIN_STATE) : Outcome (BASIC_ERROR_ID × BASIC_MAIN_STATE) :=
  match basic_parsing_uint16 fuel bs.prog.base bs.parse_ptr 0 with
  | none => .out_of_fuel
  | some (pr, p, line) =>
    if pr ≠ .OK then .ret (.SYNTAX, { bs with parse_ptr := p })
    else goto_run_common fuel { bs with parse_ptr := p } line true

/-- `restore0`. -/
def restore0 (fuel : Nat) (bs : BASIC_MAIN_STATE) : Outcome BASIC_MAIN_STATE :=
  match prog_storage_find_line fuel bs.prog 0 with
  | none => .out_of_fuel
  | some fr =>
    .ret { bs with data_ptr := prog_storage_get_line_parse_ptr bs.prog fr.idx, data_line := 0 }

/-- `handler_run`. -/
def handler_run (fuel : Nat) (bs : BASIC_MAIN_STATE) : Outcome (BASIC_ERROR_ID × BASIC_MAIN_STATE) :=
  match basic_parsing_uint16 fuel bs.prog.base bs.parse_ptr 0 with
  | none => .out_of_fuel
  | some (pr, p, line) =>
    if pr = .SYNTAX then .ret (.SYNTAX, { bs with parse_ptr := p })
    else
      match restore0 fuel
          { bs with parse_ptr := p, prog := fgstack_clear (variable_storage_clear bs.prog) } with
      | .abort => .abort
      | .out_of_fuel => .out_of_fuel
      | .ret bs1 => goto_run_common fuel bs1 line (decide (pr = .OK))

/-- `handler_new`. -/
def handler_new (fuel : Nat) (bs : BASIC_MAIN_STATE) : Outcome (BASIC_ERROR_ID × BASIC_MAIN_STATE) :=
  if bs.prog.base bs.parse_ptr ≠ 0 ∧ bs.prog.base bs.parse_ptr ≠ 58 then .ret (.SYNTAX, bs)
  else
    match restore0 fuel
        { bs with prog := fgstack_clear (variable_storage_clear (prog_storage_clear bs.prog)) } with
    | .abort => .abort
    | .out_of_fuel => .out_of_fuel
    | .ret bs1 => .ret (.OK, bs1)

/-- `handler_rem`. -/
def handler_rem (fuel : Nat) (bs : BASIC_MAIN_STATE) : Outcome (BASIC_ERROR_ID × BASIC_MAIN_STATE) :=
  match strlen fuel bs.prog.base bs.parse_ptr with
  | none => .out_of_fuel
  | some n => .ret (.OK, { bs with parse_ptr := bs.parse_ptr + n })

/-- The loop of `handler_if` that reads the comparison operators, with the
locals `p` and `op_bitmap`. -/
def if_operators (m : Mem) : Nat → Nat → Nat → Option (Nat × Nat)
  | 0, _, _ => none
  | fuel + 1, p, op_bitmap =>
    match basic_parsing_skipws m fuel p with
    | none => none
    | some p1 =>
      if BASIC_KEYWORD_RANGE_BEGIN_COMPARISON_OPERATORS ≤ m p1 ∧
          m p1 ≤ BASIC_KEYWORD_RANGE_END_COMPARISON_OPERATORS then
        if_operators m fuel (p1 + 1)
          ((op_bitmap ||| (1 <<< (m p1 - BASIC_KEYWORD_RANGE_BEGIN_COMPARISON_OPERATORS))) % 256)
      else some (p1, op_bitmap)

/-- The value `cmp_bitmap` of `handler_if`. -/
def cmp_bitmap (P : FPU) (lhs rhs : F32) : Nat :=
  ((if (P.lt rhs lhs).1 then 1 else 0) <<<
      (BASIC_KEYWORD_GREATER - BASIC_KEYWORD_RANGE_BEGIN_COMPARISON_OPERATORS)) |||
    ((if P.eq lhs rhs then 1 else 0) <<<
      (BASIC_KEYWORD_EQUALS - BASIC_KEYWORD_RANGE_BEGIN_COMPARISON_OPERATORS)) |||
    ((if (P.lt lhs rhs).1 then 1 else 0) <<<
      (BASIC_KEYWORD_LESS - BASIC_KEYWORD_RANGE_BEGIN_COMPARISON_OPERATORS))

/-- `handler_if`. -/
def handler_if (P : FPU) (fuel : Nat) (bs : BASIC_MAIN_STATE) :
    Outcome (BASIC_ERROR_ID × BASIC_MAIN_STATE) :=
  match bs_expression P fuel bs bs.parse_ptr with
  | .abort => .abort
  | .out_of_fuel => .out_of_fuel
  | .ret (pr, p, lhs, bs1) =>
    if pr = .NOT_FOUND then .ret (.SYNTAX, bs1)
    else if pr ≠ .OK then .ret (pr, bs1)
    else
      match if_operators bs1.prog.base fuel p 0 with
      | none => .out_of_fuel
      | some (p1, op_bitmap) =>
        if op_bitmap = 0 then .ret (.SYNTAX, bs1)
        else
          match bs_expression P fuel bs1 p1 with
          | .abort => .abort
          | .out_of_fuel => .out_of_fuel
          | .ret (pr1, p2, rhs, bs2) =>
            if pr1 = .NOT_FOUND then .ret (.SYNTAX, bs2)
            else if pr1 ≠ .OK then .ret (pr1, bs2)
            else
              match basic_parsing_skipws bs2.prog.base fuel p2 with
              | none => .out_of_fuel
              | some p3 =>
                if bs2.prog.base p3 ≠ BASIC_KEYWORD_THEN then .ret (.SYNTAX, bs2)
                else if op_bitmap &&& cmp_bitmap P lhs rhs ≠ 0 then
                  match basic_parsing_uint16 fuel bs2.prog.base (p3 + 1) 0 with
                  | none => .out_of_fuel
                  | some (pr2, p4, line) =>
                    if pr2 = .OK then goto_run_common fuel { bs2 with parse_ptr := p4 } line true
                    else .ret (.OK, { bs2 with parse_ptr := p4 })
                else handler_rem fuel { bs2 with parse_ptr := p3 + 1 }

/-- `handler_restore`. -/
def handler_restore (fuel : Nat) (bs : BASIC_MAIN_STATE) :
    Outcome (BASIC_ERROR_ID × BASIC_MAIN_STATE) :=
  match restore0 fuel bs with
  | .abort => .abort
  | .out_of_fuel => .out_of_fuel
  | .ret bs1 => .ret (.OK, bs1)

/-- `handler_gosub`. -/
def handler_gosub (fuel : Nat) (bs : BASIC_MAIN_STATE) :
    Outcome (BASIC_ERROR_ID × BASIC_MAIN_STATE) :=
  if bs.current_line = UINT_MAX then .ret (.IN_PROGRAM_ONLY, bs)
  else
    match basic_parsing_uint16 fuel bs.prog.base bs.parse_ptr 0 with
    | none => .out_of_fuel
    | some (pr, p, line) =>
      if pr ≠ .OK then .ret (.SYNTAX, { bs with parse_ptr := p })
      else
        match fgstack_push_gosub bs.prog
            ⟨bs.current_line % 65536, prog_storage_ptr_to_idx bs.prog p % 65536⟩ with
        | (false, prog1) => .ret (.OUT_OF_MEMORY, { bs with parse_ptr := p, prog := prog1 })
        | (true, prog1) => goto_run_common fuel { bs with parse_ptr := p, prog := prog1 } line true

/-- `handler_return`. -/
def handler_return (fuel : Nat) (bs : BASIC_MAIN_STATE) :
    Outcome (BASIC_ERROR_ID × BASIC_MAIN_STATE) :=
  if bs.prog.base bs.parse_ptr ≠ 0 ∧ bs.prog.base bs.parse_ptr ≠ 58 then .ret (.SYNTAX, bs)
  else
    match fgstack_pop_gosub fuel bs.prog with
    | none => .out_of_fuel
    | some (false, _, prog1) => .ret (.RETURN_WITHOUT_GOSUB, { bs with prog := prog1 })
    | some (true, ge, prog1) =>
      .ret (.OK, { bs with
        prog := prog1, current_line := ge.line
        parse_ptr := prog_storage_idx_to_ptr prog1 ge.parse_idx })

/-- `handler_end`. -/
def handler_end (bs : BASIC_MAIN_STATE) : Outcome (BASIC_ERROR_ID × BASIC_MAIN_STATE) :=
  if bs.prog.base bs.parse_ptr ≠ 0 ∧ bs.prog.base bs.parse_ptr ≠ 58 then .ret (.SYNTAX, bs)
  else .ret (.OK, bs)

/-- `handler_stop`. -/
def handler_stop (bs : BASIC_MAIN_STATE) : Outcome (BASIC_ERROR_ID × BASIC_MAIN_STATE) :=
  if bs.prog.base bs.parse_ptr ≠ 0 ∧ bs.prog.base bs.parse_ptr ≠ 58 then .ret (.SYNTAX, bs)
  else .ret (.STOP, bs)

/-- The loop of `handler_print` that prints a string literal from `p`: the
address of the byte that ends it and the characters printed. -/
def print_literal (m : Mem) : Nat → Nat → Option (Nat × List Nat)
  | 0, _ => none
  | fuel + 1, p =>
    if m p ≠ 0 ∧ m p ≠ 34 then
      match print_literal m fuel (p + 1) with
      | none => none
      | some (q, l) => some (q, m p :: l)
    else some (p, [])

/-- The loop `while((c = *bs->parse_ptr), c && c != ':')` of `handler_print`
and the code after it. -/
def handler_print_loop (P : FPU) : Nat → BASIC_MAIN_STATE →
    Outcome (BASIC_ERROR_ID × BASIC_MAIN_STATE)
  | 0, _ => .out_of_fuel
  | fuel + 1, bs =>
    if bs.prog.base bs.parse_ptr ≠ 0 ∧ bs.prog.base bs.parse_ptr ≠ 58 then
      let item : Outcome (BASIC_ERROR_ID × Bool × BASIC_MAIN_STATE) :=
        if bs.prog.base bs.parse_ptr = 34 then
          match print_literal bs.prog.base fuel (bs.parse_ptr + 1) with
          | none => .out_of_fuel
          | some (q, l) =>
            .ret (.OK, false,
              { bs_print bs l with parse_ptr := if bs.prog.base q = 34 then q + 1 else q })
        else if bs.prog.base bs.parse_ptr = BASIC_KEYWORD_TAB then
          match basic_parsing_arrayindex P fuel bs.parse_ptr 0 bs.prog bs.seed with
          | .abort => .abort
          | .out_of_fuel => .out_of_fuel
          | .ret (pr, p, tab, mem1, seed1) =>
            if pr = .NOT_FOUND then
              .ret (.SYNTAX, true, { bs with parse_ptr := p, prog := mem1, seed := seed1 })
            else if pr ≠ .OK then
              .ret (pr, true, { bs with parse_ptr := p, prog := mem1, seed := seed1 })
            else
              .ret (.OK, false,
                bs_print { bs with parse_ptr := p, prog := mem1, seed := seed1 }
                  ([27, 91] ++ printf_u (tab + 1) ++ [71]))
        else if bs.prog.base bs.parse_ptr = 44 then
          .ret (.OK, false, bs_print { bs with parse_ptr := bs.parse_ptr + 1 } [9])
        else if bs.prog.base bs.parse_ptr = 59 then
          match basic_parsing_skipws bs.prog.base fuel (bs.parse_ptr + 1) with
          | none => .out_of_fuel
          | some p =>
            .ret (.OK, decide (bs.prog.base p = 0 ∨ bs.prog.base p = 58), { bs with parse_ptr := p })
        else
          match bs_expression P fuel bs bs.parse_ptr with
          | .abort => .abort
          | .out_of_fuel => .out_of_fuel
          | .ret (pr, p, val, bs1) =>
            if pr = .NOT_FOUND then .ret (.SYNTAX, true, bs1)
            else if pr ≠ .OK then .ret (pr, true, bs1)
            else .ret (.OK, false, bs_print { bs1 with parse_ptr := p } (P.printf_G val ++ [32]))
      match item with
      | .abort => .abort
      | .out_of_fuel => .out_of_fuel
      | .ret (r, finished, bs1) =>
        if finished then .ret (r, bs1)
        else
          match basic_parsing_skipws bs1.prog.base fuel bs1.parse_ptr with
          | none => .out_of_fuel
          | some p => handler_print_loop P fuel { bs1 with parse_ptr := p }
    else .ret (.OK, bs_print bs [10])

/-- `handler_print`. -/
def handler_print (P : FPU) (fuel : Nat) (bs : BASIC_MAIN_STATE) :
    Outcome (BASIC_ERROR_ID × BASIC_MAIN_STATE) :=
  handler_print_loop P fuel bs

/-- `handler_list`. -/
def handler_list (fuel : Nat) (bs : BASIC_MAIN_STATE) : Outcome (BASIC_ERROR_ID × BASIC_MAIN_STATE) :=
  match basic_parsing_uint16 fuel bs.prog.base bs.parse_ptr 0 with
  | none => .out_of_fuel
  | some (pr, p, line) =>
    if pr ≠ .OK ∧ pr ≠ .NOT_FOUND then .ret (pr, { bs with parse_ptr := p })
    else
      match prog_storage_list fuel bs.prog line with
      | none => .out_of_fuel
      | some l => .ret (.OK, bs_print { bs with parse_ptr := p } l)

/-- `handler_clear`. -/
def handler_clear (bs : BASIC_MAIN_STATE) : Outcome (BASIC_ERROR_ID × BASIC_MAIN_STATE) :=
  if bs.prog.base bs.parse_ptr ≠ 0 ∧ bs.prog.base bs.parse_ptr ≠ 58 then .ret (.SYNTAX, bs)
  else .ret (.OK, { bs with prog := fgstack_clear (variable_storage_clear bs.prog) })

/-- The call `cmd_handlers[c - BASIC_KEYWORD_RANGE_BEGIN_GENERAL](bs)` for a
general keyword `c`; no entry of the table is null, so the branch that returns
`BASIC_ERROR_INTERNAL` is taken for no general keyword. -/
def cmd_handlers (P : FPU) (fuel : Nat) (c : Nat) (bs : BASIC_MAIN_STATE) :
    Outcome (BASIC_ERROR_ID × BASIC_MAIN_STATE) :=
  if c = BASIC_KEYWORD_END then handler_end bs
  else if c = BASIC_KEYWORD_FOR then handler_for P fuel bs
  else if c = BASIC_KEYWORD_NEXT then handler_next P fuel bs
  else if c = BASIC_KEYWORD_DATA then handler_data fuel bs
  else if c = BASIC_KEYWORD_INPUT then handler_input P fuel bs
  else if c = BASIC_KEYWORD_DIM then handler_dim P fuel bs
  else if c = BASIC_KEYWORD_READ then handler_read P fuel bs
  else if c = BASIC_KEYWORD_LET then handler_let P fuel bs
  else if c = BASIC_KEYWORD_GOTO then handler_goto fuel bs
  else if c = BASIC_KEYWORD_RUN then handler_run fuel bs
  else if c = BASIC_KEYWORD_IF then handler_if P fuel bs
  else if c = BASIC_KEYWORD_RESTORE then handler_restore fuel bs
  else if c = BASIC_KEYWORD_GOSUB then handler_gosub fuel bs
  else if c = BASIC_KEYWORD_RETURN then handler_return fuel bs
  else if c = BASIC_KEYWORD_REM then handler_rem fuel bs
  else if c = BASIC_KEYWORD_STOP then handler_stop bs
  else if c = BASIC_KEYWORD_PRINT then handler_print P fuel bs
  else if c = BASIC_KEYWORD_LIST then handler_list fuel bs
  else if c = BASIC_KEYWORD_CLEAR then handler_clear bs
  else if c = BASIC_KEYWORD_NEW then handler_new fuel bs
  else .ret (.INTERNAL, bs)

/-- `basic_callback_check_break_key()`: the answer and the state after the
call. -/
def basic_callback_check_break_key (bs : BASIC_MAIN_STATE) : Bool × BASIC_MAIN_STATE :=
  match bs.break_keys with
  | [] => (false, bs)
  | b :: rest => (b, { bs with break_keys := rest })

/-- `exec_line`: each step of the model runs one statement, or goes to the
next program line at the end of a line; `n` bounds the number of steps. -/
def exec_line (P : FPU) (fuel : Nat) : Nat → BASIC_MAIN_STATE →
    Outcome (BASIC_ERROR_ID × BASIC_MAIN_STATE)
  | 0, _ => .out_of_fuel
  | n + 1, bs =>
    if bs.prog.base bs.parse_ptr ≠ 0 then
      match basic_callback_check_break_key { bs with error_in_data := false } with
      | (true, bs1) => .ret (.STOP, bs1)
      | (false, bs1) =>
        if bs.prog.base bs.parse_ptr > BASIC_KEYWORD_RANGE_END_GENERAL then .ret (.SYNTAX, bs1)
        else
          match basic_parsing_skipws bs1.prog.base fuel
              (if bs.prog.base bs.parse_ptr ≥ BASIC_KEYWORD_RANGE_BEGIN then bs1.parse_ptr + 1
                else bs1.parse_ptr) with
          | none => .out_of_fuel
          | some p =>
            match cmd_handlers P fuel
                (if bs.prog.base bs.parse_ptr ≥ BASIC_KEYWORD_RANGE_BEGIN then
                  bs.prog.base bs.parse_ptr else BASIC_KEYWORD_LET)
                { bs1 with parse_ptr := p } with
            | .abort => .abort
            | .out_of_fuel => .out_of_fuel
            | .ret (eid, bs2) =>
              if eid ≠ .OK then .ret (eid, bs2)
              else if bs.prog.base bs.parse_ptr = BASIC_KEYWORD_END ∨
                  bs.prog.base bs.parse_ptr = BASIC_KEYWORD_NEW then .ret (.OK, bs2)
              else if bs2.prog.base bs2.parse_ptr ≠ 0 then
                if bs.prog.base bs.parse_ptr ≠ BASIC_KEYWORD_IF ∧
                    bs2.prog.base bs2.parse_ptr ≠ 58 then .ret (.SYNTAX, bs2)
                else
                  match basic_parsing_skipws bs2.prog.base fuel
                      (if bs.prog.base bs.parse_ptr ≠ BASIC_KEYWORD_IF then bs2.parse_ptr + 1
                        else bs2.parse_ptr) with
                  | none => .out_of_fuel
                  | some p1 => exec_line P fuel n { bs2 with parse_ptr := p1 }
              else exec_line P fuel n bs2
    else if bs.current_line ≠ UINT_MAX then
      if (prog_storage_advance_line bs.prog bs.parse_ptr).2 ≠ UINT_MAX then
        exec_line P fuel n { bs with
          parse_ptr := (prog_storage_advance_line bs.prog bs.parse_ptr).1
          current_line := (prog_storage_advance_line bs.prog bs.parse_ptr).2 }
      else
        .ret (.OK, { bs with
          parse_ptr := (prog_storage_advance_line bs.prog bs.parse_ptr).1
          current_line := (prog_storage_advance_line bs.prog bs.parse_ptr).2 })
    else .ret (.OK, bs)

/-- `basic_main_process_line(bs, str)`: the value returned and the state after
the call. -/
def basic_main_process_line (P : FPU) (fuel : Nat) (bs : BASIC_MAIN_STATE) (str : Nat) :
    Outcome (Bool × BASIC_MAIN_STATE) :=
  match basic_parsing_skipws bs.prog.base fuel str with
  | none => .out_of_fuel
  | some p0 =>
    if bs.prog.base p0 = 0 then
      .ret (false, { bs with error_in_data := false, current_line := UINT_MAX, parse_ptr := p0 })
    else
      match keywords_tokenize_line fuel bs.prog.base p0 with
      | none => .out_of_fuel
      | some m1 =>
        match basic_parsing_uint16 fuel m1 p0 0 with
        | none => .out_of_fuel
        | some (pr, p1, line) =>
          if pr = .SYNTAX then
            .ret (true, bs_print
              { bs with
                error_in_data := false, current_line := UINT_MAX, parse_ptr := p1
                prog := { bs.prog with base := m1 } }
              (basic_error_print .SYNTAX UINT_MAX))
          else if pr = .OK then
            match strlen fuel m1 p1 with
            | none => .out_of_fuel
            | some len =>
              match prog_storage_store_line fuel
                  (fgstack_clear (variable_storage_clear { bs.prog with base := m1 })) line
                  (mem_read_list m1 p1 len) with
              | none => .out_of_fuel
              | some (false, prog1) =>
                .ret (false, bs_print
                  { bs with
                    error_in_data := false, current_line := UINT_MAX, parse_ptr := p1
                    prog := prog1 }
                  (basic_error_print .OUT_OF_MEMORY UINT_MAX))
              | some (true, prog1) =>
                match restore0 fuel
                    { bs with
                      error_in_data := false, current_line := UINT_MAX, parse_ptr := p1
                      prog := prog1 } with
                | .abort => .abort
                | .out_of_fuel => .out_of_fuel
                | .ret bs1 => .ret (false, bs1)
          else
            match exec_line P fuel fuel
                { bs with
                  error_in_data := false, current_line := UINT_MAX, parse_ptr := p1
                  prog := { bs.prog with base := m1 } } with
            | .abort => .abort
            | .out_of_fuel => .out_of_fuel
            | .ret (eid, bs1) =>
              .ret (true, bs_print bs1
                (basic_error_print eid
                  (if bs1.error_in_data then bs1.data_line else bs1.current_line)))

/-- `basic_main_initialize(bs, prog_base, prog_size)`: the arena is the memory
`prog_base`; the environment is that of `bs`. -/
def basic_main_initialize (fuel : Nat) (bs : BASIC_MAIN_STATE) (prog_base : Mem)
    (prog_size : Nat) : Outcome BASIC_MAIN_STATE :=
  restore0 fuel { bs with prog := prog_storage_initialize prog_base prog_size }

/-- The bytes of the program text `10 GOSUB 10`: the sentinel, the record of
line 10 (next-line offset 10, line number 10, the body `GOSUB 10` with the
keyword as its token, NUL) and the two zero bytes that end the program. -/
def gosub10_text : List Nat := [0, 10, 0, 10, 0, 0x8c, 32, 49, 48, 0, 0, 0]

/-- The interpreter is running the program `10 GOSUB 10`: the program text is
at the start of the arena, below `free_idx`, the arena indices are ordered and
the break key is never pressed. -/
def RunsGosub10 (bs : BASIC_MAIN_STATE) : Prop :=
  mem_read_list bs.prog.base 0 12 = gosub10_text ∧ 12 ≤ bs.prog.free_idx ∧
    ArenaOrdered bs.prog ∧ bs.break_keys = []

/-! ### Floats that hold small natural numbers -/

/-- Position of the leading bit of a number below `2 ^ k`. -/
def leading_bit : Nat → Nat → Nat
  | 0, _ => 0
  | k + 1, n => if n < 2 then 0 else leading_bit k (n / 2) + 1

/-- The single-precision pattern of the natural number `n` (for `n` below
`2 ^ 24`, which are all represented exactly): `0.0f` is the pattern 0, and a
positive `n` with leading bit `2 ^ e` has the exponent field `127 + e` and the
other bits of `n` at the top of the fraction field. -/
def f32_of_nat (n : Nat) : F32 :=
  if n = 0 then 0
  else Fin.ofNat ((127 + leading_bit 24 n) * 2 ^ 23 +
    (n - 2 ^ leading_bit 24 n) * 2 ^ (23 - leading_bit 24 n))

/-- The platform computes exactly on natural numbers below `N`: sums and
products below `N`, the conversion of an `int` below `N`, and `10` to the
power `0`; none of these raises an exception. -/
def ExactBelow (P : FPU) (N : Nat) : Prop :=
  (∀ a b, a + b < N → P.add (f32_of_nat a) (f32_of_nat b) = (f32_of_nat (a + b), FE_NONE)) ∧
  (∀ a b, a < N → b < N → a * b < N →
    P.mul (f32_of_nat a) (f32_of_nat b) = (f32_of_nat (a * b), FE_NONE)) ∧
  (∀ n : Nat, n < N → P.of_int (n : Int) = f32_of_nat n) ∧
  P.powf f32_ten (f32_of_nat 0) = (f32_one, FE_NONE)

/-- The natural number below 32 that a float holds, if it holds one. -/
def nat_of_f32 (x : F32) : Option Nat :=
  (List.range 32).find? (fun n => f32_of_nat n == x)

/-- A platform for concrete runs: it computes as the real one does on floats
that hold natural numbers below 32, as long as the results are such numbers,
and gives 0 everywhere else. -/
def nat_fpu : FPU where
  add := fun a b =>
    match nat_of_f32 a, nat_of_f32 b with
    | some x, some y => (f32_of_nat (x + y), FE_NONE)
    | _, _ => (0, FE_NONE)
  sub := fun a b =>
    match nat_of_f32 a, nat_of_f32 b with
    | some x, some y => (f32_of_nat (x - y), FE_NONE)
    | _, _ => (0, FE_NONE)
  mul := fun a b =>
    match nat_of_f32 a, nat_of_f32 b with
    | some x, some y => (f32_of_nat (x * y), FE_NONE)
    | _, _ => (0, FE_NONE)
  div := fun a b =>
    match nat_of_f32 a, nat_of_f32 b with
    | some x, some y => if y = 0 then (0, ⟨true, false, false⟩) else (f32_of_nat (x / y), FE_NONE)
    | _, _ => (0, FE_NONE)
  lt := fun a b =>
    match nat_of_f32 a, nat_of_f32 b with
    | some x, some y => (decide (x < y), FE_NONE)
    | _, _ => (false, FE_NONE)
  of_int := fun i => f32_of_nat i.toNat
  to_unsigned := fun a => (nat_of_f32 a).getD 0
  powf := fun a b =>
    match nat_of_f32 a, nat_of_f32 b with
    | some x, some y => (f32_of_nat (x ^ y), FE_NONE)
    | _, _ => (0, FE_NONE)
  floor := fun a => (a, FE_NONE)
  floorf := fun a => (a, FE_NONE)
  fabsf := fun a => (a, FE_NONE)
  sqrtf := fun a => (a, FE_NONE)
  sinf := fun _ => (0, FE_NONE)
  rand := fun s => (0, s + 1)
  rand_max_p1 := f32_one
  eq := fun a b => decide (a = b)
  printf_G := fun a => printf_u ((nat_of_f32 a).getD 0)

/-- A state in which the program `10 GOSUB 10` has just been started by `RUN`
in a 32-byte arena: the parse pointer is on the sentinel and the current line
is 0. -/
def gosub10_demo : BASIC_MAIN_STATE :=
  { parse_ptr := 0, data_ptr := 0
    prog :=
      { base := mem_write_list (fun _ => 0) 0 gosub10_text
        vars_idx := 12, array_idx := 12, free_idx := 12, stktop_idx := 32, max_idx := 32 }
    current_line := 0, data_line := 0, error_in_data := false, input_buf := 1000
    output := [], stdin := [], break_keys := [], seed := 0 }

/-- The comparison operators that `handler_if` reads from the string `l`, and
the number of bytes it moves over: spaces are skipped before each operator and
after the last one. -/
def if_ops_scan : List Nat → List Nat × Nat
  | [] => ([], 0)
  | c :: r =>
    if c = 32 then ((if_ops_scan r).1, (if_ops_scan r).2 + 1)
    else if BASIC_KEYWORD_RANGE_BEGIN_COMPARISON_OPERATORS ≤ c ∧
        c ≤ BASIC_KEYWORD_RANGE_END_COMPARISON_OPERATORS then
      (c :: (if_ops_scan r).1, (if_ops_scan r).2 + 1)
    else ([], 0)

/-- The relation named by the comparison opcode `o` holds between `lhs` and
`rhs` (as the platform compares them). -/
def relation_holds (P : FPU) (lhs rhs : F32) (o : Nat) : Prop :=
  (o = BASIC_KEYWORD_GREATER ∧ (P.lt rhs lhs).1 = true) ∨
  (o = BASIC_KEYWORD_EQUALS ∧ P.eq lhs rhs = true) ∨
  (o = BASIC_KEYWORD_LESS ∧ (P.lt lhs rhs).1 = true)

/-- The value of `op_bitmap` after the operators `ops` are read, from the
value `bm`. -/
def ops_bitmap (bm : Nat) (ops : List Nat) : Nat :=
  ops.foldl
    (fun b o => (b ||| (1 <<< (o - BASIC_KEYWORD_RANGE_BEGIN_COMPARISON_OPERATORS))) % 256) bm

/-- The call returned. -/
def Outcome.is_ret {α : Type} : Outcome α → Bool
  | .ret _ => true
  | _ => false

/-- The value a call returned (`d` when it did not return). -/
def Outcome.get_or {α : Type} (d : α) : Outcome α → α
  | .ret a => a
  | _ => d

/-- A state for `IF 1<2 THEN`: a 64-byte arena with an empty program; the
tokenized text `1<2 THEN` is at address 1000. -/
def if_demo : BASIC_MAIN_STATE :=
  { parse_ptr := 1000, data_ptr := 0
    prog := prog_storage_initialize (mem_of_string 1000 [49, 0x9e, 50, 32, 0x96]) 64
    current_line := UINT_MAX, data_line := 0, error_in_data := false, input_buf := 2000
    output := [], stdin := [], break_keys := [], seed := 0 }

/-- The value and the state after the left-hand side `1` of `if_demo` is
evaluated. -/
def if_demo_lhs : BASIC_ERROR_ID × Nat × F32 × BASIC_MAIN_STATE :=
  (bs_expression nat_fpu 20 if_demo if_demo.parse_ptr).get_or (.INTERNAL, 0, 0, if_demo)

/-- The value and the state after the right-hand side `2` of `if_demo` is
evaluated. -/
def if_demo_rhs : BASIC_ERROR_ID × Nat × F32 × BASIC_MAIN_STATE :=
  (bs_expression nat_fpu 20 if_demo_lhs.2.2.2 1002).get_or (.INTERNAL, 0, 0, if_demo)

/-- The state after `basic_main_initialize` on a 20-byte arena; lines typed by
the user are placed at address 1000. -/
def main_demo_20 : BASIC_MAIN_STATE :=
  ( basic_main_initialize 30
    { parse_ptr := 0, data_ptr := 0, prog := ⟨fun _ => 0, 0, 0, 0, 0, 0⟩, current_line := 0
      data_line := 0, error_in_data := false, input_buf := 2000, output := [], stdin := []
      break_keys := [], seed := 0 }
    (fun _ => 0) 20).get_or
    { parse_ptr := 0, data_ptr := 0, prog := ⟨fun _ => 0, 0, 0, 0, 0, 0⟩, current_line := 0
      data_line := 0, error_in_data := false, input_buf := 2000, output := [], stdin := []
      break_keys := [], seed := 0 }

/-- The call `basic_main_process_line(bs, str)` for each of the lines typed, in
turn; each line is copied to address 1000 before the call (`none` when a call
does not return). -/
def process_lines (P : FPU) (fuel : Nat) : BASIC_MAIN_STATE → List (List Nat) →
    Option BASIC_MAIN_STATE
  | bs, [] => some bs
  | bs, l :: rest =>
    match basic_main_process_line P fuel
        { bs with prog := { bs.prog with base := mem_write_list bs.prog.base 1000 (l ++ [0]) } }
        1000 with
    | .ret (_, bs1) => process_lines P fuel bs1 rest
    | _ => none

/-! ### The expression stack during a call of the evaluator -/

/-- The arena `mem` during a call of the expression evaluator that was entered
with the arena `M0`: the bytes `K` (top first) are what the evaluator has
pushed and not yet popped, the stack and the free area stay inside the area
that was free at entry, and the memory outside that area is as it was. -/
structure ExprStack (M0 mem : BASIC_MEM_MGR) (K : List Nat) : Prop where
  vars : mem.vars_idx = M0.vars_idx
  arr : mem.array_idx = M0.array_idx
  max : mem.max_idx = M0.max_idx
  free_ge : M0.free_idx ≤ mem.free_idx
  free_le : mem.free_idx ≤ mem.stktop_idx
  top : mem.stktop_idx + K.length = M0.stktop_idx
  bytes : MemIs mem.base mem.stktop_idx K
  same : ∀ x, x < M0.free_idx ∨ M0.stktop_idx ≤ x → mem.base x = M0.base x
  top_le : M0.stktop_idx ≤ M0.max_idx
  max_lt : M0.max_idx < UINT

/-- The memories `m` and `m1` hold the same text from `p` up to a NUL at `e`. -/
def SameText (m m1 : Mem) (p e : Nat) : Prop :=
  p ≤ e ∧ m e = 0 ∧ ∀ x, p ≤ x → x ≤ e → m1 x = m x

/-- The tokenized text of the expression `2+3*4`. -/
def expr_2_3_4 : List Nat := tokenize [50, 43, 51, 42, 52]

/-- An arena of `size` bytes after `prog_storage_initialize`, in a memory that
holds the text `2+3*4` at address 100. -/
def expr_arena (size : Nat) : BASIC_MEM_MGR :=
  prog_storage_initialize (mem_write_list (fun _ => 0) 100 (expr_2_3_4 ++ [0])) size

/-- An arena of 11 bytes that holds the program `10 STOP` and no variable, with
2 bytes left for the stack, in a memory that holds the text `A` at address
100. -/
def no_var_arena : BASIC_MEM_MGR :=
  { base := mem_write_list (mem_write_list (fun _ => 0) 0 [0, 7, 0, 10, 0, 0x8f, 0, 0, 0]) 100
      [65, 0]
    vars_idx := 9, array_idx := 9, free_idx := 9, stktop_idx := 11, max_idx := 11 }

/-! ### The array region as a list of records -/

/-- Size in bytes of array records given by name and block size: each has a
header of 4 bytes. -/
def arrays_size : List (Nat × Nat) → Nat
  | [] => 0
  | (_, bs) :: rest => sizeof_ARRAY_VARIABLE_HEADER + bs + arrays_size rest

/-- The array records `arrs` (name, block size in bytes) are stored back to
back from address `a`: each header holds the name and the block size. -/
def ArraysAt (m : Mem) : Nat → List (Nat × Nat) → Prop
  | _, [] => True
  | a, (n, bs) :: rest =>
    le16 (m a) (m (a + 1)) = n ∧ le16 (m (a + 2)) (m (a + 3)) = bs ∧
      ArraysAt m (a + sizeof_ARRAY_VARIABLE_HEADER + bs) rest

/-- The array region of the arena, between `array_idx` and `free_idx`, is made
of the records `arrs`. -/
def ArraysWF (s : BASIC_MEM_MGR) (arrs : List (Nat × Nat)) : Prop :=
  ArraysAt s.base s.array_idx arrs ∧ s.array_idx + arrays_size arrs = s.free_idx

/-- Offset of the header of the first record named `var`, for records stored
from `a`. -/
def array_offset (var : Nat) : List (Nat × Nat) → Nat → Option (Nat × Nat)
  | [], _ => none
  | (n, bs) :: rest, a =>
    if n = var then some (a, bs) else array_offset var rest (a + sizeof_ARRAY_VARIABLE_HEADER + bs)

/-- The arena after `variable_storage_create_array_var` makes a new record of
`n + 1` elements for the name `var`. -/
def array_created (s : BASIC_MEM_MGR) (var n : Nat) : BASIC_MEM_MGR :=
  { s with
    base := memset0 (mem_write16 (mem_write16 s.base s.free_idx var) (s.free_idx + 2)
        ((n + 1) * 4 % 65536)) (s.free_idx + 4) ((n + 1) * 4)
    free_idx := s.free_idx + ((n + 1) * 4 + 4) }


instance decArraysAt (m : Mem) : (a : Nat) → (arrs : List (Nat × Nat)) →
    Decidable (ArraysAt m a arrs)
  | _, [] => isTrue trivial
  | a, (n, bs) :: rest =>
    have := decArraysAt m (a + sizeof_ARRAY_VARIABLE_HEADER + bs) rest
    inferInstanceAs (Decidable (le16 (m a) (m (a + 1)) = n ∧ le16 (m (a + 2)) (m (a + 3)) = bs ∧
      ArraysAt m (a + sizeof_ARRAY_VARIABLE_HEADER + bs) rest))

instance (s : BASIC_MEM_MGR) (arrs : List (Nat × Nat)) : Decidable (ArraysWF s arrs) :=
  inferInstanceAs (Decidable (_ ∧ _))

/-- An empty arena of 64 bytes after `prog_storage_initialize`. -/
def empty_arena_64 : BASIC_MEM_MGR := prog_storage_initialize (fun _ => 0) 64

/-- An empty arena of 70000 bytes after `prog_storage_initialize`. -/
def empty_arena_70000 : BASIC_MEM_MGR := prog_storage_initialize (fun _ => 0) 70000

/-! ### Program lines: sizes and listing -/

/-- Size of the record stored for line `n` in the program `recs` (4 bytes of
header, the body and its NUL), 0 when the program has no line `n`. -/
def record_size (n : Nat) : List (Nat × List Nat) → Nat
  | [] => 0
  | (k, body) :: rest => if k = n then 5 + body.length else record_size n rest

/-- The text LIST prints for the lines `recs`: for each, the decimal digits of
its number, a space, the expanded body and a newline. -/
def list_text : List (Nat × List Nat) → List Nat
  | [] => []
  | (ln, body) :: rest =>
    (Nat.toDigits 10 ln).map Char.toNat ++ [32] ++ (detokenize body ++ [10]) ++ list_text rest

instance decRecsAt (exact : Bool) (m : Mem) : (a : Nat) → (recs : List (Nat × List Nat)) →
    Decidable (RecsAt exact m a recs)
  | _, [] => isTrue trivial
  | a, (ln, body) :: rest =>
    have := decRecsAt exact m (a + 5 + body.length) rest
    inferInstanceAs (Decidable ((if exact then
        m a = (a + 5 + body.length) % 256 ∧ m (a + 1) = (a + 5 + body.length) / 256 ∧
          a + 5 + body.length < 65536
      else (m a ≠ 0 ∨ m (a + 1) ≠ 0)) ∧
    m (a + 2) = ln % 256 ∧ m (a + 3) = ln / 256 ∧ ln < 65536 ∧
    IsCStr m (a + 4) body ∧ RecsAt exact m (a + 5 + body.length) rest))

instance (recs : List (Nat × List Nat)) : Decidable (LinesSorted recs) :=
  inferInstanceAs (Decidable (List.Pairwise (fun (x y : Nat × List Nat) => x.1 < y.1) recs))

instance (s : BASIC_MEM_MGR) (recs : List (Nat × List Nat)) : Decidable (ProgWF s recs) :=
  inferInstanceAs (Decidable (_ ∧ _ ∧ _ ∧ _ ∧ _))

/-- A state in direct mode whose parse pointer is at the tokenized text
`GOSUB 10`, stored at address 100 next to a 64-byte arena with an empty
program. -/
def direct_demo : BASIC_MAIN_STATE :=
  { parse_ptr := 100, data_ptr := 0
    prog := prog_storage_initialize
      (mem_write_list (fun _ => 0) 100 [BASIC_KEYWORD_GOSUB, 32, 49, 48, 0]) 64
    current_line := UINT_MAX, data_line := 0, error_in_data := false, input_buf := 100
    output := [], stdin := [], break_keys := [], seed := 0 }

/-- A state whose parse pointer is at the text `A` (the argument of `DIM A`),
stored at address 100 next to a 64-byte arena with an empty program and no
variable. -/
def dim_demo : BASIC_MAIN_STATE :=
  { parse_ptr := 100, data_ptr := 0
    prog := prog_storage_initialize (mem_write_list (fun _ => 0) 100 [65, 0]) 64
    current_line := UINT_MAX, data_line := 0, error_in_data := false, input_buf := 100
    output := [], stdin := [], break_keys := [], seed := 0 }

/-- The state after `basic_main_initialize` on a 100-byte arena; lines typed by
the user are placed at address 1000. -/
def main_demo_100 : BASIC_MAIN_STATE :=
  ( basic_main_initialize 30
    { parse_ptr := 0, data_ptr := 0, prog := ⟨fun _ => 0, 0, 0, 0, 0, 0⟩, current_line := 0
      data_line := 0, error_in_data := false, input_buf := 2000, output := [], stdin := []
      break_keys := [], seed := 0 }
    (fun _ => 0) 100).get_or
    { parse_ptr := 0, data_ptr := 0, prog := ⟨fun _ => 0, 0, 0, 0, 0, 0⟩, current_line := 0
      data_line := 0, error_in_data := false, input_buf := 2000, output := [], stdin := []
      break_keys := [], seed := 0 }

/-- A session on `main_demo_100`: the program `10 DATA 1,1/A`, `20 DATA 2,3`,
then `A=1`, `READ X`, and `READ Y,Z,5`, which reads into line 20 and fails at
its third target. -/
def stale_data_line_session : List (List Nat) :=
  [c_string "10 DATA 1,1/A", c_string "20 DATA 2,3", c_string "A=1", c_string "READ X",
    c_string "READ Y,Z,5"]

/-! ### The shape of the expression stack -/

/-- The bytes `K` (top first) that `expression_engine_norecurse` has on the
stack when it is about to return to the state on top: `Ret Q true K w` in the
states that end a call of `parse_expression` (the return address is EXITING,
PRECEDENCE_DOWN with the saved `lhs`, `op`, `min_precedence`, or one of the
three return points of a parenthesis with the saved locals), `Ret Q false K w`
in the states that end a call of `parse_primary` (the return address is
FIRST_OPERATOR or SECOND_OPERATOR).  `w` is a weight of the stack that bounds
the number of iterations which do not move the parse pointer.  `Q` holds of
every array name saved on the stack with the return point of a subscript. -/
inductive Ret (Q : Nat → Prop) : Bool → List Nat → Nat → Prop
  | exiting : Ret Q true [PARSE_EXPR_STATE_EXITING] 1
  | down (lhs : F32) (op mp : Nat) {K : List Nat} {w : Nat} : Ret Q true K w →
    Ret Q true ([PARSE_EXPR_STATE_PRECEDENCE_DOWN] ++ f32_bytes lhs ++ [op, mp] ++ K) (w + 3)
  | sub (lhs : F32) (op mp nb : Nat) {K : List Nat} {w : Nat} : Ret Q false K w →
    Ret Q true ([PARSE_EXPR_STATE_SUBEXPR_RET] ++ f32_bytes lhs ++ [op, mp, nb] ++ K) (w + 1)
  | fn (lhs : F32) (op mp nb f : Nat) {K : List Nat} {w : Nat} : Ret Q false K w →
    Ret Q true ([PARSE_EXPR_STATE_FUNCTIONARG_RET] ++ f32_bytes lhs ++ [op, mp, nb] ++
      ([f] ++ K)) (w + 1)
  | arr (lhs : F32) (op mp nb v0 v1 : Nat) {K : List Nat} {w : Nat} : Q (le16 v0 v1) →
    le16 v0 v1 < 65536 → Ret Q false K w →
    Ret Q true ([PARSE_EXPR_STATE_SUBSCRIPT_RET] ++ f32_bytes lhs ++ [op, mp, nb] ++
      ([v0, v1] ++ K)) (w + 1)
  | first {K : List Nat} {w : Nat} : Ret Q true K w →
    Ret Q false (PARSE_EXPR_STATE_FIRST_OPERATOR :: K) w
  | second {K : List Nat} {w : Nat} : Ret Q true K w →
    Ret Q false (PARSE_EXPR_STATE_SECOND_OPERATOR :: K) w

/-- The stack `K` fits the state `st` of the evaluator; `w` is the weight of
the stack plus a rank of the state; `Q` holds of every array name saved on the
stack. -/
inductive EngInv (Q : Nat → Prop) : Nat → List Nat → Nat → Prop
  | expression {K : List Nat} {w : Nat} : Ret Q true K w →
    EngInv Q PARSE_EXPR_STATE_EXPRESSION K (w + 1)
  | term {K : List Nat} {w : Nat} : Ret Q false K w → EngInv Q PARSE_EXPR_STATE_TERM K w
  | subexpr_ret (lhs : F32) (op mp nb : Nat) {K : List Nat} {w : Nat} : Ret Q false K w →
    EngInv Q PARSE_EXPR_STATE_SUBEXPR_RET (f32_bytes lhs ++ [op, mp, nb] ++ K) w
  | functionarg_ret (lhs : F32) (op mp nb f : Nat) {K : List Nat} {w : Nat} : Ret Q false K w →
    EngInv Q PARSE_EXPR_STATE_FUNCTIONARG_RET (f32_bytes lhs ++ [op, mp, nb] ++ ([f] ++ K)) w
  | subscript_ret (lhs : F32) (op mp nb v0 v1 : Nat) {K : List Nat} {w : Nat} :
    Q (le16 v0 v1) → le16 v0 v1 < 65536 → Ret Q false K w →
    EngInv Q PARSE_EXPR_STATE_SUBSCRIPT_RET (f32_bytes lhs ++ [op, mp, nb] ++ ([v0, v1] ++ K)) w
  | first_operator {K : List Nat} {w : Nat} : Ret Q true K w →
    EngInv Q PARSE_EXPR_STATE_FIRST_OPERATOR K (w + 1)
  | expr_1 {K : List Nat} {w : Nat} : Ret Q true K w → EngInv Q PARSE_EXPR_STATE_EXPR_1 K w
  | second_operator {K : List Nat} {w : Nat} : Ret Q true K w →
    EngInv Q PARSE_EXPR_STATE_SECOND_OPERATOR K (w + 4)
  | precedence_down (lhs : F32) (op mp : Nat) {K : List Nat} {w : Nat} : Ret Q true K w →
    EngInv Q PARSE_EXPR_STATE_PRECEDENCE_DOWN (f32_bytes lhs ++ [op, mp] ++ K) (w + 2)
  | apply_operator {K : List Nat} {w : Nat} : Ret Q true K w →
    EngInv Q PARSE_EXPR_STATE_APPLY_OPERATOR K (w + 1)
  | exiting : EngInv Q PARSE_EXPR_STATE_EXITING [] 0

/-- The array region of the arena is a chain of records whose block sizes are
multiples of the size of a value. -/
def ArrOK (s : BASIC_MEM_MGR) : Prop :=
  ∃ arrs, ArraysWF s arrs ∧ ∀ x ∈ arrs, x.2 % 4 = 0

/-- What one iteration of the evaluator does to the end of the array region:
nothing, or a record of 11 elements, all zero, is added (an array used for the
first time): `Q` holds of the name in its header, and no record of the array
region had this name. -/
def FreeStep (Q : Nat → Prop) (mem mem1 : BASIC_MEM_MGR) : Prop :=
  mem1.free_idx = mem.free_idx ∨
  (mem1.free_idx = mem.free_idx + 48 ∧
    le16 (mem1.base (mem.free_idx + 2)) (mem1.base (mem.free_idx + 3)) = 44 ∧
    (∀ x, mem.free_idx + 4 ≤ x → x < mem.free_idx + 48 → mem1.base x = 0) ∧
    Q (le16 (mem1.base mem.free_idx) (mem1.base (mem.free_idx + 1))) ∧
    ∀ arrs, ArraysWF mem arrs → ∀ x ∈ arrs,
      x.1 ≠ le16 (mem1.base mem.free_idx) (mem1.base (mem.free_idx + 1)))

/-- One iteration of the evaluator from the state `σ`, whose stack and parse
pointer are worth `φ`: it goes on with a state that is worth less, or the
evaluator returns; the arena stays that of a call entered with `M0`, and `Q`
holds of the array names on the stack and of the name of a new array. -/
def Progress (Q : Nat → Prop) (P : FPU) (fuel : Nat) (M0 : BASIC_MEM_MGR) (e : Nat)
    (σ : EngState) (φ : Nat) : Prop :=
  (∃ σ1 K1 w1, engine_step P fuel σ = .next σ1 ∧ ExprStack M0 σ1.mem K1 ∧
    EngInv Q σ1.state K1 w1 ∧ σ.p ≤ σ1.p ∧ σ1.p ≤ e ∧ 5 * (e - σ1.p) + w1 < φ ∧
    FreeStep Q σ.mem σ1.mem) ∨
  (∃ r σ1 K1, engine_step P fuel σ = .ret r σ1 ∧ ExprStack M0 σ1.mem K1 ∧
    FreeStep Q σ.mem σ1.mem)

/-! ### The DATA items of a program -/

/-- Where a scan of a program line for DATA items stands: at the start of a
statement, inside a statement that is not DATA, behind the keyword DATA, or
inside the item that starts at address `s`. -/
inductive DataScan where
  | start
  | skip
  | after_data
  | item (s : Nat)

/-- The DATA items of (the rest of) a line body: for each item the address of
its first byte and the address of the byte that ends it (a comma, the colon
that ends the statement or the NUL that ends the line).  Statements are the
texts between colons; a DATA statement starts, after blanks, with the keyword
DATA; its items are the texts between commas.  `a` is the address of the first
byte of the text. -/
def data_slots : DataScan → Nat → List Nat → List (Nat × Nat)
  | .item s, a, [] => [(s, a)]
  | .start, _, [] => []
  | .skip, _, [] => []
  | .after_data, _, [] => []
  | .start, a, c :: r =>
    if c = 32 then data_slots .start (a + 1) r
    else if c = 58 then data_slots .start (a + 1) r
    else if c = BASIC_KEYWORD_DATA then data_slots .after_data (a + 1) r
    else data_slots .skip (a + 1) r
  | .skip, a, c :: r =>
    if c = 58 then data_slots .start (a + 1) r else data_slots .skip (a + 1) r
  | .after_data, a, c :: r =>
    if c = 32 then data_slots .after_data (a + 1) r
    else if c = 58 then data_slots .start (a + 1) r
    else if c = 44 then (a, a) :: data_slots (.item (a + 1)) (a + 1) r
    else data_slots (.item a) (a + 1) r
  | .item s, a, c :: r =>
    if c = 44 then (s, a) :: data_slots (.item (a + 1)) (a + 1) r
    else if c = 58 then (s, a) :: data_slots .start (a + 1) r
    else data_slots (.item s) (a + 1) r

/-- The DATA items of the program lines `recs` stored from offset `a`, in
program order. -/
def program_slots : Nat → List (Nat × List Nat) → List (Nat × Nat)
  | _, [] => []
  | a, (_, body) :: rest =>
    data_slots .start (a + 4) body ++ program_slots (a + 5 + body.length) rest

/-- The DATA items of the rest of a line behind the byte at `p` that ends an
item or a statement; `r` is the text from `p` on. -/
def cursor_slots (p : Nat) : List Nat → List (Nat × Nat)
  | [] => []
  | c :: r =>
    if c = 44 then data_slots (.item (p + 1)) (p + 1) r
    else if c = 58 then data_slots .start (p + 1) r
    else []

/-- The DATA pointer `p` stands at the end of an item, of a statement or of a
line (or on the zero byte in front of the program), and the items that follow
it in the program text, which lies below `bound`, are `L`. -/
def CursorAt (m : Mem) (bound p : Nat) (L : List (Nat × Nat)) : Prop :=
  ∃ (r : List Nat) (post : List (Nat × List Nat)),
    IsCStr m p r ∧ (∀ c, r.head? = some c → c = 44 ∨ c = 58) ∧
    RecsAt true m (p + r.length + 1) post ∧
    m (p + r.length + 1 + prog_size post) = 0 ∧
    m (p + r.length + 1 + prog_size post + 1) = 0 ∧
    p + r.length + 1 + prog_size post + 2 ≤ bound ∧
    L = cursor_slots p r ++ program_slots (p + r.length + 1) post

/-- Length of the statement at the start of a text: the bytes before the first
colon. -/
def stmt_len : List Nat → Nat
  | [] => 0
  | c :: r => if c = 58 then 0 else stmt_len r + 1

/-- What the search for the next DATA item of `read_input_common` returns when
the items ahead are `L`: the start of the first item, with `first_data` set, or
OUT_OF_DATA when there is none; of the state only `data_line` changes. -/
def SeekFinds (L : List (Nat × Nat)) (bs : BASIC_MAIN_STATE)
    (res : Outcome (BASIC_ERROR_ID × Nat × Bool × BASIC_MAIN_STATE)) : Prop :=
  match L with
  | [] => ∃ ip fd dl, res = .ret (.OUT_OF_DATA, ip, fd, { bs with data_line := dl })
  | (s, _) :: _ => ∃ dl, res = .ret (.OK, s, true, { bs with data_line := dl })

/-- The arena between two statements: ordered indices, scalar records of 6
bytes each, and an array region that is a chain of records. -/
structure ArenaInv (s : BASIC_MEM_MGR) : Prop where
  ord : ArenaOrdered s
  h6 : (s.array_idx - s.vars_idx) % 6 = 0
  arr : ArrOK s

/-- The arena `t` has the program area, the stack top and the size of `s`, and
the memory outside the area of the variables and of the expression stack of `s`
is unchanged in `t`. -/
def SameOutside (s t : BASIC_MEM_MGR) : Prop :=
  t.vars_idx = s.vars_idx ∧ t.stktop_idx = s.stktop_idx ∧ t.max_idx = s.max_idx ∧
    ∀ x, x < s.vars_idx ∨ s.stktop_idx ≤ x → t.base x = s.base x

/-- The address `pval` is that of the value of a scalar record, or of an
element inside the block of an array record. -/
def ValueAt (s : BASIC_MEM_MGR) (pval : Nat) : Prop :=
  (s.vars_idx ≤ pval ∧ pval + 4 ≤ s.array_idx) ∨
  ∃ l1 n bs l2, ArraysWF s (l1 ++ (n, bs) :: l2) ∧ (∀ x ∈ l1 ++ (n, bs) :: l2, x.2 % 4 = 0) ∧
    s.array_idx + arrays_size l1 + 4 ≤ pval ∧ pval + 4 ≤ s.array_idx + arrays_size l1 + 4 + bs

/-- READ as the specification describes it, over the list `L` of the DATA items
that lie ahead of the data pointer (`L0` is that list when the statement
starts): each target takes the value of the next item and the item is removed
from the list; the statement fails with OUT_OF_DATA when a target finds the
list empty, and a statement that fails takes no item.  The value of an item is
the result of `basic_parsing_expression` on its text, the targets are parsed by
`basic_parsing_variable_ref`, with the error codes of `read_input_common`.
`none`: an item is not one whole expression (the evaluator stops before the end
of the item), or a call does not return. -/
def read_ref (P : FPU) : Nat → BASIC_MAIN_STATE → List (Nat × Nat) → List (Nat × Nat) → Bool →
    Option (BASIC_ERROR_ID × BASIC_MAIN_STATE × List (Nat × Nat))
  | 0, _, _, _, _ => none
  | _ + 1, bs, L0, [], _ => some (.OUT_OF_DATA, bs, L0)
  | fuel + 1, bs, L0, (s, d) :: L, first =>
    if first = false ∧ bs.prog.base bs.parse_ptr ≠ 44 then some (.SYNTAX, bs, L0)
    else
      match (if first then some bs.parse_ptr
          else basic_parsing_skipws bs.prog.base fuel (bs.parse_ptr + 1)) with
      | none => none
      | some pp =>
        match bs_expression P fuel { bs with parse_ptr := pp } s with
        | .abort => none
        | .out_of_fuel => none
        | .ret (pr, p2, val, bs2) =>
          if pr = .NOT_FOUND then some (.SYNTAX, { bs2 with error_in_data := true }, L0)
          else if pr ≠ .OK then some (pr, { bs2 with error_in_data := true }, L0)
          else if basic_parsing_skipws bs2.prog.base fuel p2 ≠ some d then none
          else
            match basic_parsing_variable_ref P fuel bs2.parse_ptr 0 bs2.prog bs2.seed with
            | .abort => none
            | .out_of_fuel => none
            | .ret g =>
              if g.r = .NOT_FOUND then
                some (.SYNTAX, { bs2 with prog := g.mem, seed := g.seed }, L0)
              else if g.r ≠ .OK then some (g.r, { bs2 with prog := g.mem, seed := g.seed }, L0)
              else
                let bs3 := store_value
                  { bs2 with prog := g.mem, seed := g.seed, parse_ptr := g.parse_ptr }
                  g.pval val
                if bs3.prog.base bs3.parse_ptr ≠ 0 ∧ bs3.prog.base bs3.parse_ptr ≠ 58 then
                  read_ref P fuel bs3 L0 L false
                else some (.OK, { bs3 with data_ptr := d }, L)

/-- The lines `10 DATA 3,5` and `20 DATA 7`. -/
def read_demo_lines : List (Nat × List Nat) :=
  [(10, [BASIC_KEYWORD_DATA, 51, 44, 53]), (20, [BASIC_KEYWORD_DATA, 55])]

/-- A state with the program `read_demo_lines` in an arena of 64 bytes that
holds no variable, the data pointer as RESTORE leaves it, and the text `A,B`
of a READ statement at address 100. -/
def read_demo : BASIC_MAIN_STATE :=
  { parse_ptr := 100, data_ptr := 0
    prog :=
      { base := mem_write_list (mem_write_list (fun _ => 0) 0
            [0, 10, 0, 10, 0, BASIC_KEYWORD_DATA, 51, 44, 53, 0,
              17, 0, 20, 0, BASIC_KEYWORD_DATA, 55, 0, 0, 0]) 100 [65, 44, 66, 0]
        vars_idx := 19, array_idx := 19, free_idx := 19, stktop_idx := 64, max_idx := 64 }
    current_line := UINT_MAX, data_line := 0, error_in_data := false, input_buf := 100
    output := [], stdin := [], break_keys := [], seed := 0 }

/-- A session on `main_demo_100`: the line `10 PRINT ":?5"`, where `?` stands
for the byte 0x83 (the token of DATA, typed inside a string literal), then
`READ A` and `PRINT A`. -/
def data_in_literal_session : List (List Nat) :=
  [c_string "10 PRINT " ++ [34, 58, 0x83, 53, 34], c_string "READ A", c_string "PRINT A"]

/-- The same session with the line `10 PRINT "X"`. -/
def no_data_session : List (List Nat) :=
  [c_string "10 PRINT " ++ [34, 88, 34], c_string "READ A", c_string "PRINT A"]

/-! ## C31: error rendering -/

/-- The characters written by `basic_error_print(id, line)` for an arbitrary
numeric value `id` of the (unsigned) enumeration type. -/
def basic_error_print_raw (id line : Nat) : List Nat :=
  if id = BASIC_ERROR_ID.OK.to_nat then []
  else
    let id1 : Nat :=
      if id ≥ basic_error_text_table.length then BASIC_ERROR_ID.INTERNAL.to_nat else id
    basic_error_text_table.getD id1 [] ++
      (if id1 ≠ BASIC_ERROR_ID.STOP.to_nat then c_string " error" else []) ++
      (if line ≠ UINT_MAX then c_string " in line " ++ printf_u line else []) ++ [10]

/-- The error text of the specification for the numeric error `id`: the text of
the error, the text of INTERNAL for a value outside 0..14. -/
def spec_error_text : Nat → String
  | 0 => "OK"
  | 1 => "NEXT without FOR"
  | 2 => "Syntax"
  | 3 => "RETURN without GOSUB"
  | 4 => "Out of DATA"
  | 5 => "Parameter"
  | 6 => "Overflow"
  | 7 => "Out of memory"
  | 8 => "No such line"
  | 9 => "Subscript"
  | 10 => "Redimension"
  | 11 => "Division by 0"
  | 12 => "In program only"
  | 13 => "STOP"
  | _ => "Internal"

/-- The rendering of an error as the specification words it: nothing for OK,
else the text, `" error"` unless the error is STOP, `" in line <n>"` unless the
line is `UINT_MAX`, and a newline. -/
def spec_error_message (id line : Nat) : List Nat :=
  if id = 0 then []
  else
    c_string (spec_error_text id) ++
      (if id = 13 then [] else c_string " error") ++
      (if line = UINT_MAX then [] else c_string " in line " ++ printf_u line) ++ [10]

/-! ## C37: the DATA pointer after a program line that does not fit -/

/-- A session on `main_demo_20`: the line `10 DATA 1,2`, then `READ A`, which
leaves the DATA pointer inside line 10, then a new text for line 10 that does
not fit in the arena. -/
def stale_data_ptr_session : List (List Nat) :=
  [c_string "10 DATA 1,2", c_string "READ A", c_string "10 PRINT 1234567890123"]

/-! ## C38: GOSUB to a line that does not exist -/

/-- The lines `10 GOSUB 500:PRINT 7` and `20 STOP`. -/
def gosub_demo_lines : List (Nat × List Nat) :=
  [(10, [BASIC_KEYWORD_GOSUB, 32, 53, 48, 48, 58, BASIC_KEYWORD_PRINT, 32, 55]),
    (20, [BASIC_KEYWORD_STOP])]

/-- A state that runs line 10 of the program `gosub_demo_lines` in an arena of
100 bytes with no variable and an empty stack; the parse pointer is at the
number of `GOSUB 500`. -/
def gosub_demo : BASIC_MAIN_STATE :=
  { parse_ptr := 7, data_ptr := 0
    prog :=
      { base := mem_write_list (fun _ => 0) 0
          [0, 15, 0, 10, 0, BASIC_KEYWORD_GOSUB, 32, 53, 48, 48, 58, BASIC_KEYWORD_PRINT, 32, 55, 0,
            21, 0, 20, 0, BASIC_KEYWORD_STOP, 0, 0, 0]
        vars_idx := 23, array_idx := 23, free_idx := 23, stktop_idx := 100, max_idx := 100 }
    current_line := 10, data_line := 0, error_in_data := false, input_buf := 1000
    output := [], stdin := [], break_keys := [], seed := 0 }

/-- A session on `main_demo_100`: the program `gosub_demo_lines`, then RUN,
which fails in line 10, then RETURN typed in direct mode. -/
def gosub_missing_session : List (List Nat) :=
  [c_string "10 GOSUB 500:PRINT 7", c_string "20 STOP", c_string "RUN", c_string "RETURN"]

/-! ## C39: the stack scans in arenas smaller than a frame -/

/-- The 3-byte arena of `tiny_arena_gosub` when the byte that follows the arena
(offset 3) is 2. -/
def tiny_arena_gosub_other : BASIC_MEM_MGR :=
  prog_storage_initialize (mem_write (fun _ => 0) 3 2) 3

/-- The 9-byte arena of `tiny_arena_for` when the byte that follows the arena
(offset 9) is 1. -/
def tiny_arena_for_other : BASIC_MEM_MGR :=
  prog_storage_initialize (mem_write (mem_write (fun _ => 0) 22 65) 9 1) 9

/-! ## C40: packed variable names -/

/-- The packed value the specification gives to a name: a lone letter packs to
its code, a letter and a digit to `letter * 256 + digit`. -/
def spec_pack (letter : Nat) : Option Nat → Nat
  | none => letter
  | some d => letter * 256 + d

/-- The name read at the start of a text: its first byte and, when the first
byte of `rest` (the text after the blanks that follow the letter) is a digit,
that digit. -/
def name_digit (rest : List Nat) : Option Nat := rest.head?.filter IS_DIGIT

/-- A legal name: a letter, alone or followed by one digit. -/
def legal_name (letter : Nat) (digit : Option Nat) : Prop :=
  IS_ALPHA letter = true ∧ ∀ d ∈ digit, IS_DIGIT d = true

/-! ## C35: a new scalar while arrays exist -/

/-- An arena of 40 bytes with the scalar `A` (value bytes 1 2 3 4) and the
array `B` of two elements (value bytes 5..8 and 9..12). -/
def array_demo_arena : BASIC_MEM_MGR :=
  { base := mem_write_list (fun _ => 0) 3
      [65, 0, 1, 2, 3, 4, 66, 0, 8, 0, 5, 6, 7, 8, 9, 10, 11, 12]
    vars_idx := 3, array_idx := 9, free_idx := 21, stktop_idx := 40, max_idx := 40 }

/-! ## C36: what the evaluator changes below the free area -/

/-- Records of arrays of 11 elements, all zero, with the names `names`, are
stored back to back from address `a`: a header with the name and the block size
44, then 44 zero bytes, for each. -/
def ZeroArraysAt (m : Mem) : Nat → List Nat → Prop
  | _, [] => True
  | a, n :: rest =>
    le16 (m a) (m (a + 1)) = n ∧ le16 (m (a + 2)) (m (a + 3)) = 44 ∧
      (∀ i < 44, m (a + 4 + i) = 0) ∧ ZeroArraysAt m (a + 48) rest

instance decZeroArraysAt (m : Mem) : (a : Nat) → (names : List Nat) →
    Decidable (ZeroArraysAt m a names)
  | _, [] => isTrue trivial
  | a, n :: rest =>
    have := decZeroArraysAt m (a + 48) rest
    inferInstanceAs (Decidable (le16 (m a) (m (a + 1)) = n ∧ le16 (m (a + 2)) (m (a + 3)) = 44 ∧
      (∀ i < 44, m (a + 4 + i) = 0) ∧ ZeroArraysAt m (a + 48) rest))

/-- An arena of 80 bytes after `prog_storage_initialize`, in a memory that
holds the tokenized text `A(1)/0` at address 100. -/
def array_expr_arena : BASIC_MEM_MGR :=
  prog_storage_initialize
    (mem_write_list (fun _ => 0) 100 [65, 40, 49, 41, BASIC_KEYWORD_DIVIDE, 48, 0]) 80

/-- The name `n` is referenced as an array in the text from `p` to `e`: at some
position of the text `basic_parsing_varname` reads the name `n`, and the
character behind the name is an opening parenthesis. -/
def ArrayRefIn (fuel : Nat) (m : Mem) (p e n : Nat) : Prop :=
  ∃ a a1, p ≤ a ∧ a < e ∧ IS_ALPHA (m a) = true ∧
    basic_parsing_varname fuel m a 0 = some (.OK, a1, n) ∧ m a1 = 40

/-- The state of the loop `while(state != PARSE_EXPR_STATE_EXITING)` of
`expression_engine_norecurse` after `k` iterations from the state `σ`; `none`
when the loop has ended before. -/
def engine_iter (P : FPU) (fuel : Nat) : Nat → EngState → Option EngState
  | 0, σ => some σ
  | k + 1, σ =>
    if σ.state = PARSE_EXPR_STATE_EXITING then none
    else
      match engine_step P fuel σ with
      | .next σ1 => engine_iter P fuel k σ1
      | _ => none

/-! ## C33: expressions that need two bytes of stack -/

/-- The loop of the evaluator gets from the state `σ` to the state `σ1` in a
number of iterations. -/
def Reaches (P : FPU) (fuel : Nat) (σ σ1 : EngState) : Prop :=
  ∃ k, ∀ pp out n, engine_loop P fuel pp out (n + k) σ = engine_loop P fuel pp out n σ1

/-- From the state `σ` the evaluator returns the error `r` from inside its
loop, after a number of iterations. -/
def Fails (P : FPU) (fuel : Nat) (σ : EngState) (r : BASIC_ERROR_ID) : Prop :=
  ∃ k m sd, ∀ pp out n, engine_loop P fuel pp out (n + k + 1) σ = .ret r pp out m sd

/-- What is fixed during a call of the evaluator entered with the arena `M0`
on the text from `p0` to the NUL at `e`. -/
structure SimCtx (fuel : Nat) (M0 : BASIC_MEM_MGR) (e p0 : Nat) : Prop where
  ord : ArenaOrdered M0
  h6 : (M0.array_idx - M0.vars_idx) % 6 = 0
  nul : M0.base e = 0
  outside : e < M0.free_idx ∨ M0.stktop_idx ≤ p0
  fuel_ok : e - p0 + 1 < fuel

/-- An operand of a chain at `p`: signs, then a number literal or the name of a
scalar (not followed by a parenthesis).  The result is an error code, the
position behind the operand and the blanks that follow it, and the value;
`none` when the text at `p` is not such an operand. -/
def chain_operand (P : FPU) (lf : Nat) (s : BASIC_MEM_MGR) (p : Nat) :
    Option (BASIC_ERROR_ID × Nat × F32) :=
  match term_signs s.base lf p false with
  | none => none
  | some (p1, neg) =>
    if IS_ALPHA (s.base p1) then
      match basic_parsing_varname lf s.base p1 0 with
      | none => none
      | some (r, p2, vn) =>
        if r ≠ .OK then none
        else if s.base p2 = 40 then none
        else
          match basic_parsing_skipws s.base lf p2 with
          | none => none
          | some p3 =>
            some (.OK, p3, if neg then f32_neg (variable_storage_read_var s vn)
              else variable_storage_read_var s vn)
    else if IS_DIGIT (s.base p1) ∨ s.base p1 = 46 then
      match basic_parsing_float P lf s.base p1 0 with
      | none => none
      | some (r, p2, v) =>
        if r ≠ .OK then some (r, p2, 0)
        else
          match basic_parsing_skipws s.base lf p2 with
          | none => none
          | some p3 => some (.OK, p3, if neg then f32_neg v else v)
    else none

/-- The operators and operands of a chain from the second operand on, applied
from left to right to `acc`.  `none` when the text is not a chain without
increase of precedence: an operand is not a literal or a scalar, or an operator
binds tighter than the one before it. -/
def chain_loop (P : FPU) (lf : Nat) (s : BASIC_MEM_MGR) : Nat → F32 → Nat →
    Option (BASIC_ERROR_ID × Nat × F32)
  | 0, _, _ => none
  | n + 1, acc, p =>
    if is_operator (s.base p) then
      match basic_parsing_skipws s.base lf (p + 1) with
      | none => none
      | some p1 =>
        match chain_operand P lf s p1 with
        | none => none
        | some (r, p2, v) =>
          if r ≠ .OK then some (r, p2, 0)
          else if is_operator (s.base p2) ∧
              operator_precedence (s.base p2) > operator_precedence (s.base p) then none
          else if except_to_basic_error (apply_operator P acc v (s.base p)).2 ≠ .OK then
            some (except_to_basic_error (apply_operator P acc v (s.base p)).2, p2, 0)
          else chain_loop P lf s n (apply_operator P acc v (s.base p)).1 p2
    else some (.OK, p, acc)

/-- The value of a chain at `p`: a literal or a scalar, followed by operators
and operands without increase of precedence, no parenthesis, function call or
subscript; `n` bounds the number of operators. -/
def chain_value (P : FPU) (lf : Nat) (s : BASIC_MEM_MGR) (n p : Nat) :
    Option (BASIC_ERROR_ID × Nat × F32) :=
  match chain_operand P lf s p with
  | none => none
  | some (r, p1, v) => if r ≠ .OK then some (r, p1, 0) else chain_loop P lf s n v p1

/-- An arena of `size` bytes after `prog_storage_initialize`, in a memory that
holds the tokenized text `2*3+4` at address 100. -/
def chain_arena (size : Nat) : BASIC_MEM_MGR :=
  prog_storage_initialize
    (mem_write_list (fun _ => 0) 100
      [50, BASIC_KEYWORD_MULTIPLY, 51, BASIC_KEYWORD_PLUS, 52, 0]) size

/-! ## C2: the evaluator and the conventional recursive evaluator -/

/-- A factor of the reference evaluator at `p`: unary signs, which bind
tightest, then an expression in parentheses, which `sub` evaluates, or a number
literal or the name of a scalar.  The result is an error code, the position
behind the factor and the blanks that follow it, and the value.  SYNTAX stands
for every text that is not a factor of this grammar (array elements and
function calls included). -/
def ref_factor (P : FPU) (lf : Nat) (s : BASIC_MEM_MGR)
    (sub : Nat → Option (BASIC_ERROR_ID × Nat × F32)) (p : Nat) :
    Option (BASIC_ERROR_ID × Nat × F32) :=
  match term_signs s.base lf p false with
  | none => none
  | some (p1, neg) =>
    if s.base p1 = 40 then
      match sub (p1 + 1) with
      | none => none
      | some (r, q, v) =>
        if r ≠ .OK then some (r, q, 0)
        else if s.base q ≠ 41 then some (.SYNTAX, q, 0)
        else
          match basic_parsing_skipws s.base lf (q + 1) with
          | none => none
          | some p2 => some (.OK, p2, if neg then f32_neg v else v)
    else
      match chain_operand P lf s p with
      | none => some (.SYNTAX, p, 0)
      | some x => some x

/-- The factors of a term from the second on, from left to right: `acc` is the
product so far; the first operation that raises an exception ends the
evaluation with its error code. -/
def ref_term_loop (P : FPU) (lf : Nat) (s : BASIC_MEM_MGR)
    (sub : Nat → Option (BASIC_ERROR_ID × Nat × F32)) : Nat → F32 → Nat →
    Option (BASIC_ERROR_ID × Nat × F32)
  | 0, _, _ => none
  | n + 1, acc, p =>
    if s.base p = BASIC_KEYWORD_MULTIPLY ∨ s.base p = BASIC_KEYWORD_DIVIDE then
      match basic_parsing_skipws s.base lf (p + 1) with
      | none => none
      | some p1 =>
        match ref_factor P lf s sub p1 with
        | none => none
        | some (r, p2, v) =>
          if r ≠ .OK then some (r, p2, 0)
          else if except_to_basic_error
              (if s.base p = BASIC_KEYWORD_MULTIPLY then P.mul acc v else P.div acc v).2 ≠ .OK then
            some (except_to_basic_error
              (if s.base p = BASIC_KEYWORD_MULTIPLY then P.mul acc v else P.div acc v).2, p2, 0)
          else
            ref_term_loop P lf s sub n
              (if s.base p = BASIC_KEYWORD_MULTIPLY then P.mul acc v else P.div acc v).1 p2
    else some (.OK, p, acc)

/-- A term of the reference evaluator: factors joined by `*` and `/`. -/
def ref_term (P : FPU) (lf : Nat) (s : BASIC_MEM_MGR)
    (sub : Nat → Option (BASIC_ERROR_ID × Nat × F32)) (n : Nat) (p : Nat) :
    Option (BASIC_ERROR_ID × Nat × F32) :=
  match ref_factor P lf s sub p with
  | none => none
  | some (r, p1, v) => if r ≠ .OK then some (r, p1, 0) else ref_term_loop P lf s sub n v p1

/-- The terms of a sum from the second on, from left to right: `acc` is the
sum so far. -/
def ref_sum_loop (P : FPU) (lf : Nat) (s : BASIC_MEM_MGR)
    (sub : Nat → Option (BASIC_ERROR_ID × Nat × F32)) (n : Nat) : Nat → F32 → Nat →
    Option (BASIC_ERROR_ID × Nat × F32)
  | 0, _, _ => none
  | k + 1, acc, p =>
    if s.base p = BASIC_KEYWORD_PLUS ∨ s.base p = BASIC_KEYWORD_MINUS then
      match basic_parsing_skipws s.base lf (p + 1) with
      | none => none
      | some p1 =>
        match ref_term P lf s sub n p1 with
        | none => none
        | some (r, p2, v) =>
          if r ≠ .OK then some (r, p2, 0)
          else if except_to_basic_error
              (if s.base p = BASIC_KEYWORD_PLUS then P.add acc v else P.sub acc v).2 ≠ .OK then
            some (except_to_basic_error
              (if s.base p = BASIC_KEYWORD_PLUS then P.add acc v else P.sub acc v).2, p2, 0)
          else
            ref_sum_loop P lf s sub n k
              (if s.base p = BASIC_KEYWORD_PLUS then P.add acc v else P.sub acc v).1 p2
    else some (.OK, p, acc)

/-- The reference evaluator: an expression is a sum of terms, a term a product
of factors, a factor a signed primary; `n` bounds the depth of the parentheses
and the number of operands of a sum or of a term, `lf` is the fuel of the
scanners.  `none`: the bounds are too small. -/
def ref_expr (P : FPU) (lf : Nat) (s : BASIC_MEM_MGR) : Nat → Nat →
    Option (BASIC_ERROR_ID × Nat × F32)
  | 0, _ => none
  | n + 1, p =>
    match ref_term P lf s (ref_expr P lf s n) n p with
    | none => none
    | some (r, p1, v) =>
      if r ≠ .OK then some (r, p1, 0) else ref_sum_loop P lf s (ref_expr P lf s n) n n v p1

/-- The error codes of the floating-point exceptions. -/
def IsFPError (r : BASIC_ERROR_ID) : Prop :=
  r = .DIVISION_BY_ZERO ∨ r = .PARAMETER ∨ r = .OVERFLOW

/-- The state `σ` of the evaluator with the stack `K`, in a call entered with
the arena `M0`: no array has been created, the parse pointer is in the text,
and there is room on the stack for `c` bytes and what the rest of the text can
need. -/
structure EngAt (M0 : BASIC_MEM_MGR) (e p0 c : Nat) (σ : EngState) (K : List Nat) : Prop where
  stack : ExprStack M0 σ.mem K
  free : σ.mem.free_idx = M0.free_idx
  lo : p0 ≤ σ.p
  hi : σ.p ≤ e
  room : K.length + c + 9 * (e - σ.p) ≤ M0.stktop_idx - M0.free_idx
  op_lt : σ.op < 256
  mp_lt : σ.min_precedence < 256

/-- The evaluator follows the reference evaluator `sub` on expressions: from the
state EXPRESSION it gets to the return state on top of the stack with the value
of `sub` in `lhs`, or it returns the floating-point error of `sub`. -/
def SimExpr (P : FPU) (fuel : Nat) (M0 : BASIC_MEM_MGR) (e p0 : Nat)
    (sub : Nat → Option (BASIC_ERROR_ID × Nat × F32)) : Prop :=
  ∀ (σ : EngState) (s : Nat) (K : List Nat) (r : BASIC_ERROR_ID) (q : Nat) (v : F32),
    σ.state = PARSE_EXPR_STATE_EXPRESSION → EngAt M0 e p0 1 σ (s :: K) →
    sub σ.p = some (r, q, v) →
    (r = .OK → ∃ σ1, Reaches P fuel σ σ1 ∧ σ1.state = s ∧ σ1.lhs = v ∧ σ1.p = q ∧
      σ1.seed = σ.seed ∧ σ1.r = .OK ∧ EngAt M0 e p0 0 σ1 K ∧ σ.p ≤ q) ∧
    (IsFPError r → Fails P fuel σ r)

/-! # Theorems -/

/-! ## Memory lemmas -/

theorem mem_write_same (m : Mem) (a v : Nat) : mem_write m a v a = v % 256 := by
  simp [mem_write]

theorem mem_write_other (m : Mem) (a v i : Nat) (h : i ≠ a) : mem_write m a v i = m i := by
  simp [mem_write, h]

theorem IsCStr_congr {m m' : Mem} : ∀ (l : List Nat) (p : Nat),
    (∀ a, p ≤ a → a ≤ p + l.length → m' a = m a) → IsCStr m p l → IsCStr m' p l
  | [], p, hm, h => by
    simp only [IsCStr] at h ⊢
    rw [hm p (Nat.le_refl _) (by simp)]; exact h
  | c :: cs, p, hm, h => by
    simp only [IsCStr] at h ⊢
    refine ⟨?_, h.2.1, h.2.2.1, IsCStr_congr cs (p + 1) ?_ h.2.2.2⟩
    · rw [hm p (Nat.le_refl _) (by simp)]; exact h.1
    · intro a h1 h2
      apply hm a (by omega)
      simp only [List.length_cons]; omega

theorem MemIs_congr {m m' : Mem} : ∀ (l : List Nat) (p : Nat),
    (∀ a, p ≤ a → a < p + l.length → m' a = m a) → MemIs m p l → MemIs m' p l
  | [], _, _, _ => trivial
  | c :: cs, p, hm, h => by
    simp only [MemIs] at h ⊢
    refine ⟨?_, MemIs_congr cs (p + 1) ?_ h.2⟩
    · rw [hm p (Nat.le_refl _) (by simp)]; exact h.1
    · intro a h1 h2
      apply hm a (by omega)
      simp only [List.length_cons]; omega

theorem IsCStr_drop {m : Mem} : ∀ (n : Nat) (l : List Nat) (p : Nat),
    n ≤ l.length → IsCStr m p l → IsCStr m (p + n) (l.drop n)
  | 0, l, p, _, h => by simpa using h
  | n + 1, [], p, hn, _ => by simp at hn
  | n + 1, c :: cs, p, hn, h => by
    simp only [IsCStr] at h
    have := IsCStr_drop n cs (p + 1) (by simpa using hn) h.2.2.2
    simpa [Nat.add_assoc, Nat.add_comm 1 n] using this

theorem IsCStr_MemIs {m : Mem} : ∀ (l : List Nat) (p : Nat), IsCStr m p l → MemIs m p l
  | [], _, _ => trivial
  | c :: cs, p, h => by
    simp only [IsCStr] at h
    exact ⟨h.1, IsCStr_MemIs cs (p + 1) h.2.2.2⟩

theorem IsCStr_nul {m : Mem} : ∀ (l : List Nat) (p : Nat), IsCStr m p l → m (p + l.length) = 0
  | [], p, h => by simpa [IsCStr] using h
  | c :: cs, p, h => by
    simp only [IsCStr] at h
    have := IsCStr_nul cs (p + 1) h.2.2.2
    simpa [Nat.add_assoc, Nat.add_comm 1] using this

theorem IsCStr_bytes {m : Mem} : ∀ (l : List Nat) (p : Nat), IsCStr m p l →
    ∀ c ∈ l, c ≠ 0 ∧ c < 256
  | [], _, _ => by simp
  | c :: cs, p, h => by
    simp only [IsCStr] at h
    intro x hx
    rcases List.mem_cons.1 hx with rfl | hx
    · exact ⟨h.2.1, h.2.2.1⟩
    · exact IsCStr_bytes cs (p + 1) h.2.2.2 x hx

theorem IsCStr_of_MemIs {m : Mem} : ∀ (l : List Nat) (p : Nat), MemIs m p l →
    (∀ c ∈ l, c ≠ 0 ∧ c < 256) → m (p + l.length) = 0 → IsCStr m p l
  | [], p, _, _, h0 => by simpa [IsCStr] using h0
  | c :: cs, p, h, hb, h0 => by
    simp only [MemIs] at h
    refine ⟨h.1, (hb c (by simp)).1, (hb c (by simp)).2, IsCStr_of_MemIs cs (p + 1) h.2 ?_ ?_⟩
    · intro x hx; exact hb x (by simp [hx])
    · simpa [Nat.add_assoc, Nat.add_comm 1] using h0

theorem strlen_spec {m : Mem} : ∀ (fuel : Nat) (l : List Nat) (p : Nat), IsCStr m p l →
    l.length < fuel → strlen fuel m p = some l.length
  | 0, _, _, _, hf => by omega
  | fuel + 1, [], p, h, _ => by
    simp only [IsCStr] at h
    simp [strlen, h]
  | fuel + 1, c :: cs, p, h, hf => by
    simp only [IsCStr] at h
    have ih := strlen_spec fuel cs (p + 1) h.2.2.2 (by simpa using hf)
    have hne : m p ≠ 0 := by rw [h.1]; exact h.2.1
    simp [strlen, hne, ih]

theorem MemIs_append {m : Mem} : ∀ (l1 l2 : List Nat) (p : Nat),
    MemIs m p (l1 ++ l2) ↔ MemIs m p l1 ∧ MemIs m (p + l1.length) l2
  | [], l2, p => by simp [MemIs]
  | c :: cs, l2, p => by
    have ih := MemIs_append (m := m) cs l2 (p + 1)
    rw [show p + 1 + cs.length = p + (c :: cs).length by simp; omega] at ih
    show (m p = c ∧ MemIs m (p + 1) (cs ++ l2)) ↔ _
    rw [ih]
    simp only [MemIs]
    tauto

/-! ## Tokenizer: the in-place code computes `tokenize` -/

theorem strncmp_eq_spec {m : Mem} : ∀ (kw l : List Nat) (s : Nat), IsCStr m s l →
    (∀ k ∈ kw, k ≠ 0) → strncmp_eq m s kw = kw.isPrefixOf l
  | [], l, s, _, _ => by simp [strncmp_eq, List.isPrefixOf]
  | k :: ks, [], s, h, hk => by
    simp only [IsCStr] at h
    have : k ≠ 0 := hk k (by simp)
    simp [strncmp_eq, List.isPrefixOf, h, Ne.symm this]
  | k :: ks, c :: cs, s, h, hk => by
    simp only [IsCStr] at h
    have ih := strncmp_eq_spec ks cs (s + 1) h.2.2.2 (fun x hx => hk x (by simp [hx]))
    by_cases hck : c = k
    · subst hck
      simp [strncmp_eq, List.isPrefixOf, h.1, ih]
    · have : ¬ (k = c) := fun e => hck e.symm
      simp [strncmp_eq, List.isPrefixOf, h.1, hck, this]

theorem match_keyword_spec {m : Mem} {l : List Nat} {s : Nat} (h : IsCStr m s l) :
    ∀ (table : List (List Nat)) (i : Nat), (∀ kw ∈ table, ∀ k ∈ kw, k ≠ 0) →
    match_keyword m s table i = first_keyword l table i
  | [], _, _ => rfl
  | kw :: rest, i, ht => by
    simp only [match_keyword, first_keyword]
    rw [strncmp_eq_spec kw l s h (ht kw (by simp)),
      match_keyword_spec h rest (i + 1) (fun kw' hkw' => ht kw' (by simp [hkw']))]

theorem first_keyword_some {l : List Nat} : ∀ (table : List (List Nat)) (i j len : Nat),
    first_keyword l table i = some (j, len) →
    ∃ kw, kw ∈ table ∧ table.getD (j - i) [] = kw ∧ i ≤ j ∧ j < i + table.length ∧
      len = kw.length ∧ kw.isPrefixOf l = true
  | [], _, _, _, h => by simp [first_keyword] at h
  | kw :: rest, i, j, len, h => by
    simp only [first_keyword] at h
    by_cases hp : kw.isPrefixOf l = true
    · simp only [hp, if_true, Option.some.injEq, Prod.mk.injEq] at h
      obtain ⟨rfl, rfl⟩ := h
      exact ⟨kw, by simp, by simp, Nat.le_refl _, by simp, rfl, hp⟩
    · simp only [hp] at h
      obtain ⟨kw', h1, h2, h3, h4, h5, h6⟩ := first_keyword_some rest (i + 1) j len h
      refine ⟨kw', by simp [h1], ?_, by omega, by simp only [List.length_cons]; omega, h5, h6⟩
      have : j - i = (j - (i + 1)) + 1 := by omega
      rw [this]
      simpa using h2

theorem first_keyword_none {l : List Nat} : ∀ (table : List (List Nat)) (i : Nat),
    first_keyword l table i = none ↔ ∀ kw ∈ table, kw.isPrefixOf l = false
  | [], _ => by simp [first_keyword]
  | kw :: rest, i => by
    simp only [first_keyword]
    by_cases hp : kw.isPrefixOf l = true
    · simp [hp]
    · have ih := first_keyword_none (l := l) rest (i + 1)
      simp only [Bool.not_eq_true] at hp
      simp [hp, ih]

theorem keyword_bytes : ∀ kw ∈ keyword_text_table, kw ≠ [] ∧ ∀ k ∈ kw, k ≠ 0 ∧ k < 128 ∧ k ≠ 34 := by
  decide

theorem keyword_table_length : keyword_text_table.length = 38 := by decide

theorem tok_aux_skip : ∀ (l : List Nat) (k : Nat) (b : Bool), 0 < k →
    tok_aux k b l = tok_aux 0 false (l.drop k)
  | [], k, b, _ => by simp [tok_aux]
  | c :: r, 0, _, h => by omega
  | c :: r, 1, b, _ => by simp [tok_aux]
  | c :: r, k + 2, b, _ => by
    have := tok_aux_skip r (k + 1) false (by omega)
    simp [tok_aux, this]

theorem tok_aux_skip' (l : List Nat) (k : Nat) :
    tok_aux k false l = tok_aux 0 false (l.drop k) := by
  rcases Nat.eq_zero_or_pos k with rfl | h
  · simp
  · exact tok_aux_skip l k false h

theorem isPrefixOf_split {kw l : List Nat} (h : kw.isPrefixOf l = true) :
    l = kw ++ l.drop kw.length := by
  have := List.isPrefixOf_iff_prefix.1 h
  obtain ⟨t, rfl⟩ := this
  simp

theorem IsCStr_mem_write {m : Mem} {l : List Nat} {p a v : Nat} (h : IsCStr m p l) (ha : a < p) :
    IsCStr (mem_write m a v) p l :=
  IsCStr_congr l p (fun x hx _ => mem_write_other m a v x (by omega)) h

theorem copy_literal_spec : ∀ (fuel : Nat) (m : Mem) (s so c : Nat) (rest : List Nat),
    c ≠ 0 → c < 256 → IsCStr m (s + 1) rest → so ≤ s → rest.length < fuel →
    ∃ m1 s1 so1 rest' out, copy_literal fuel m s so c = some (m1, s1, so1) ∧
      c :: tok_aux 0 true rest = out ++ tok_aux 0 false rest' ∧
      MemIs m1 so out ∧ so1 = so + out.length ∧ IsCStr m1 s1 rest' ∧ so1 ≤ s1 ∧
      s1 + rest'.length = s + 1 + rest.length ∧ rest'.length ≤ rest.length ∧
      (∀ a, a < so ∨ s1 ≤ a → m1 a = m a)
  | 0, _, _, _, _, _, _, _, _, _, hf => by omega
  | fuel + 1, m, s, so, c, [], hc0, hc, h, hso, _ => by
    simp only [IsCStr] at h
    have h1 : mem_write m so c (s + 1) = 0 := by
      rw [mem_write_other _ _ _ _ (by omega)]; exact h
    refine ⟨mem_write m so c, s + 1, so + 1, [], [c], ?_, ?_, ?_, rfl, ?_, by omega, rfl,
      Nat.le_refl _, ?_⟩
    · simp [copy_literal, h1]
    · simp [tok_aux]
    · simp [MemIs, mem_write_same, Nat.mod_eq_of_lt hc]
    · simp only [IsCStr]; exact h1
    · intro a ha
      exact mem_write_other _ _ _ _ (by omega)
  | fuel + 1, m, s, so, c, d :: r, hc0, hc, h, hso, hf => by
    simp only [IsCStr] at h
    obtain ⟨hd, hd0, hd256, hr⟩ := h
    have h1 : mem_write m so c (s + 1) = d := by
      rw [mem_write_other _ _ _ _ (by omega)]; exact hd
    by_cases hq : d = 34
    · subst hq
      refine ⟨mem_write (mem_write m so c) (so + 1) 34, s + 2, so + 2, r, [c, 34], ?_, ?_, ?_,
        rfl, ?_, by omega, ?_, ?_, ?_⟩
      · simp [copy_literal, h1]
      · simp [tok_aux]
      · simp only [MemIs, and_true]
        refine ⟨?_, mem_write_same _ _ _⟩
        rw [mem_write_other _ _ _ _ (by omega), mem_write_same, Nat.mod_eq_of_lt hc]
      · exact IsCStr_mem_write (IsCStr_mem_write hr (by omega)) (by omega)
      · simp only [List.length_cons]; omega
      · simp
      · intro a ha
        rw [mem_write_other _ _ _ _ (by omega), mem_write_other _ _ _ _ (by omega)]
    · have hr' : IsCStr (mem_write m so c) (s + 1 + 1) r := IsCStr_mem_write hr (by omega)
      obtain ⟨m1, s1, so1, rest', out, e1, e2, e3, e4, e5, e6, e7, e8, e9⟩ :=
        copy_literal_spec fuel (mem_write m so c) (s + 1) (so + 1) d r hd0 hd256 hr'
          (by omega) (by simpa using hf)
      refine ⟨m1, s1, so1, rest', c :: out, ?_, ?_, ?_, ?_, e5, e6, ?_, ?_, ?_⟩
      · simp only [copy_literal, h1, hq, if_false, hd0, ne_eq, not_false_eq_true, if_true]
        exact e1
      · have hb : (d != 34) = true := by simp [hq]
        have : tok_aux 0 true (d :: r) = d :: tok_aux 0 true r := by
          simp only [tok_aux, hb]
        rw [this, e2]; rfl
      · refine ⟨?_, e3⟩
        rw [e9 so (Or.inl (by omega)), mem_write_same, Nat.mod_eq_of_lt hc]
      · simp only [List.length_cons]; omega
      · simp only [List.length_cons]; omega
      · simp only [List.length_cons]; omega
      · intro a ha
        rw [e9 a (by omega), mem_write_other _ _ _ _ (by omega)]

theorem MemIs_memmove {m : Mem} : ∀ (l : List Nat) (dst src : Nat), MemIs m src l →
    MemIs (memmove m dst src l.length) dst l := by
  intro l dst src h
  have key : ∀ (l' : List Nat) (k : Nat), k + l'.length = l.length → MemIs m (src + k) l' →
      MemIs (memmove m dst src l.length) (dst + k) l' := by
    intro l'
    induction l' with
    | nil => intros; trivial
    | cons c cs ih =>
      intro k hk h'
      simp only [MemIs] at h' ⊢
      simp only [List.length_cons] at hk
      refine ⟨?_, ?_⟩
      · have : dst ≤ dst + k ∧ dst + k < dst + l.length := by omega
        simp only [memmove, this, and_self, if_true]
        rw [show dst + k - dst = k by omega]; exact h'.1
      · have := ih (k + 1) (by omega) (by simpa [Nat.add_assoc] using h'.2)
        simpa [Nat.add_assoc] using this
  simpa using key l 0 (by simp) (by simpa using h)

theorem memmove_other (m : Mem) (dst src n a : Nat) (h : a < dst ∨ dst + n ≤ a) :
    memmove m dst src n a = m a := by
  have : ¬ (dst ≤ a ∧ a < dst + n) := by omega
  simp [memmove, this]

theorem tokenize_loop_spec : ∀ (fuel : Nat) (m : Mem) (s so : Nat) (rest : List Nat),
    IsCStr m s rest → so ≤ s → rest.length < fuel →
    ∃ m', tokenize_loop fuel m s so = some (m', so + (tokenize rest).length) ∧
      MemIs m' so (tokenize rest) ∧ so + (tokenize rest).length ≤ s + rest.length ∧
      (∀ a, a < so ∨ s + rest.length ≤ a → m' a = m a)
  | 0, _, _, _, _, _, _, hf => by omega
  | fuel + 1, m, s, so, [], h, _, _ => by
    simp only [IsCStr] at h
    exact ⟨m, by simp [tokenize_loop, h, tokenize, tok_aux], by simp [tokenize, tok_aux, MemIs],
      by simp [tokenize, tok_aux]; omega, fun _ _ => rfl⟩
  | fuel + 1, m, s, so, c :: r, h, hso, hf => by
    have hcr := h
    simp only [IsCStr] at h
    obtain ⟨hc, hc0, hc256, hr⟩ := h
    have hf' : r.length < fuel := by simpa using hf
    have hms : m s ≠ 0 := by rw [hc]; exact hc0
    by_cases hq : c = 34
    · -- a string literal
      obtain ⟨m1, s1, so1, rest', out, e1, e2, e3, e4, e5, e6, e7, e8, e9⟩ :=
        copy_literal_spec fuel m s so c r hc0 hc256 hr hso hf'
      obtain ⟨m', i1, i2, i3, i4⟩ := tokenize_loop_spec fuel m1 s1 so1 rest' e5 e6 (by omega)
      have htok : tokenize (c :: r) = out ++ tokenize rest' := by
        simp only [tokenize] at *
        rw [← e2]
        simp [tok_aux, hq]
      refine ⟨m', ?_, ?_, ?_, ?_⟩
      · simp only [tokenize_loop, hc, if_neg hc0, if_pos hq, e1]
        rw [i1, htok, List.length_append, e4, Nat.add_assoc]
      · rw [htok, MemIs_append]
        refine ⟨MemIs_congr out so (fun a _ h2 => i4 a (Or.inl (by omega))) e3, ?_⟩
        rw [← e4]; exact i2
      · rw [htok, List.length_append]; simp only [List.length_cons]; omega
      · intro a ha
        simp only [List.length_cons] at ha
        rw [i4 a (by omega), e9 a (by omega)]
    · -- keyword or plain byte
      have hmk := match_keyword_spec hcr keyword_text_table 0
        (fun kw hkw k hk => ((keyword_bytes kw hkw).2 k hk).1)
      cases hkp : first_keyword (c :: r) keyword_text_table 0 with
      | none =>
        rw [hkp] at hmk
        by_cases hrem : c = BASIC_KEYWORD_REM
        · -- a raw REM opcode: the rest is copied verbatim
          have hsl : strlen fuel (mem_write m so c) (s + 1) = some r.length :=
            strlen_spec fuel r (s + 1) (IsCStr_mem_write hr (by omega)) hf'
          have htok : tokenize (c :: r) = c :: r := by
            simp only [tokenize, tok_aux, if_neg hq, hkp, if_pos hrem]
          refine ⟨memmove (mem_write m so c) (so + 1) (s + 1) r.length, ?_, ?_, ?_, ?_⟩
          · simp only [tokenize_loop, hc, if_neg hc0, if_neg hq, hmk, if_pos hrem, hsl]
            simp only [htok, List.length_cons]
            rw [show so + 1 + r.length = so + (r.length + 1) by omega]
          · rw [htok]
            refine ⟨?_, MemIs_memmove r (so + 1) (s + 1)
              (IsCStr_MemIs r (s + 1) (IsCStr_mem_write hr (by omega)))⟩
            rw [memmove_other _ _ _ _ _ (Or.inl (by omega)), mem_write_same,
              Nat.mod_eq_of_lt hc256]
          · rw [htok]; omega
          · intro a ha
            simp only [List.length_cons] at ha
            rw [memmove_other _ _ _ _ _ (by omega), mem_write_other _ _ _ _ (by omega)]
        · obtain ⟨m', i1, i2, i3, i4⟩ := tokenize_loop_spec fuel (mem_write m so c) (s + 1)
            (so + 1) r (IsCStr_mem_write hr (by omega)) (by omega) hf'
          have htok : tokenize (c :: r) = c :: tokenize r := by
            simp only [tokenize, tok_aux, if_neg hq, hkp, if_neg hrem]
          refine ⟨m', ?_, ?_, ?_, ?_⟩
          · simp only [tokenize_loop, hc, if_neg hc0, if_neg hq, hmk, if_neg hrem]
            rw [i1, htok]
            simp only [List.length_cons]
            rw [show so + 1 + (tokenize r).length = so + ((tokenize r).length + 1) by omega]
          · rw [htok]
            refine ⟨?_, i2⟩
            rw [i4 so (Or.inl (by omega)), mem_write_same, Nat.mod_eq_of_lt hc256]
          · rw [htok]; simp only [List.length_cons]; omega
          · intro a ha
            simp only [List.length_cons] at ha
            rw [i4 a (by omega), mem_write_other _ _ _ _ (by omega)]
      | some p =>
        obtain ⟨i, len⟩ := p
        rw [hkp] at hmk
        obtain ⟨kw, k1, k2, k3, k4, k5, k6⟩ := first_keyword_some keyword_text_table 0 i len hkp
        have hkwb := keyword_bytes kw k1
        have hi : i < 38 := by rw [keyword_table_length] at k4; omega
        have hlen1 : 1 ≤ len := by
          rw [k5]; exact List.length_pos.2 hkwb.1
        have hpre := List.isPrefixOf_iff_prefix.1 k6
        have hlen2 : len ≤ (c :: r).length := by rw [k5]; exact hpre.length_le
        simp only [List.length_cons] at hlen2
        have htk : (i + BASIC_KEYWORD_RANGE_BEGIN) % 256 = i + BASIC_KEYWORD_RANGE_BEGIN := by
          simp only [BASIC_KEYWORD_RANGE_BEGIN]; omega
        have hdrop : IsCStr (mem_write m so (i + BASIC_KEYWORD_RANGE_BEGIN)) (s + (len - 1) + 1)
            (r.drop (len - 1)) := by
          have := IsCStr_drop (len - 1) r (s + 1) (by omega) hr
          have e : s + 1 + (len - 1) = s + (len - 1) + 1 := by omega
          rw [e] at this
          exact IsCStr_mem_write this (by omega)
        by_cases hrem : i + BASIC_KEYWORD_RANGE_BEGIN = BASIC_KEYWORD_REM
        · have hsl := strlen_spec fuel (r.drop (len - 1)) (s + (len - 1) + 1) hdrop
            (by simp only [List.length_drop]; omega)
          have htok : tokenize (c :: r) = (i + BASIC_KEYWORD_RANGE_BEGIN) :: r.drop (len - 1) := by
            simp only [tokenize, tok_aux, if_neg hq, hkp, if_pos hrem]
          refine ⟨memmove (mem_write m so (i + BASIC_KEYWORD_RANGE_BEGIN)) (so + 1)
            (s + (len - 1) + 1) (r.drop (len - 1)).length, ?_, ?_, ?_, ?_⟩
          · simp only [tokenize_loop, hc, if_neg hc0, if_neg hq, hmk, htk, if_pos hrem, hsl]
            simp only [htok, List.length_cons]
            rw [show so + 1 + (List.drop (len - 1) r).length =
              so + ((List.drop (len - 1) r).length + 1) by omega]
          · rw [htok]
            refine ⟨?_, MemIs_memmove _ (so + 1) _ (IsCStr_MemIs _ _ hdrop)⟩
            rw [memmove_other _ _ _ _ _ (Or.inl (by omega)), mem_write_same, htk]
          · rw [htok]; simp only [List.length_cons, List.length_drop]; omega
          · intro a ha
            simp only [List.length_cons] at ha
            rw [memmove_other _ _ _ _ _ (by simp only [List.length_drop]; omega),
              mem_write_other _ _ _ _ (by omega)]
        · obtain ⟨m', i1, i2, i3, i4⟩ := tokenize_loop_spec fuel
            (mem_write m so (i + BASIC_KEYWORD_RANGE_BEGIN)) (s + (len - 1) + 1) (so + 1)
            (r.drop (len - 1)) hdrop (by omega) (by simp only [List.length_drop]; omega)
          have htok : tokenize (c :: r) =
              (i + BASIC_KEYWORD_RANGE_BEGIN) :: tokenize (r.drop (len - 1)) := by
            simp only [tokenize, tok_aux, if_neg hq, hkp, if_neg hrem]
            rw [tok_aux_skip' r (len - 1)]
          simp only [List.length_drop] at i3 i4
          refine ⟨m', ?_, ?_, ?_, ?_⟩
          · simp only [tokenize_loop, hc, if_neg hc0, if_neg hq, hmk, htk, if_neg hrem]
            rw [i1, htok]
            simp only [List.length_cons]
            rw [show so + 1 + (tokenize (List.drop (len - 1) r)).length =
              so + ((tokenize (List.drop (len - 1) r)).length + 1) by omega]
          · rw [htok]
            refine ⟨?_, i2⟩
            rw [i4 so (Or.inl (by omega)), mem_write_same, htk]
          · rw [htok]; simp only [List.length_cons]; omega
          · intro a ha
            simp only [List.length_cons] at ha
            rw [i4 a (by omega), mem_write_other _ _ _ _ (by omega)]

theorem tok_aux_bytes : ∀ (l : List Nat) (skip : Nat) (b : Bool),
    (∀ c ∈ l, c ≠ 0 ∧ c < 256) → ∀ c ∈ tok_aux skip b l, c ≠ 0 ∧ c < 256
  | [], _, _, _ => by simp [tok_aux]
  | c :: r, skip + 1, b, h => by
    simp only [tok_aux]
    exact tok_aux_bytes r skip false (fun x hx => h x (by simp [hx]))
  | c :: r, 0, true, h => by
    simp only [tok_aux]
    intro x hx
    rcases List.mem_cons.1 hx with rfl | hx
    · exact h _ (by simp)
    · exact tok_aux_bytes r 0 _ (fun x hx => h x (by simp [hx])) x hx
  | c :: r, 0, false, h => by
    have hr : ∀ x ∈ r, x ≠ 0 ∧ x < 256 := fun x hx => h x (by simp [hx])
    simp only [tok_aux]
    split
    · intro x hx
      rcases List.mem_cons.1 hx with rfl | hx
      · exact h _ (by simp)
      · exact tok_aux_bytes r 0 _ hr x hx
    · split
      · rename_i i len hkp
        obtain ⟨kw, k1, k2, k3, k4, k5, k6⟩ := first_keyword_some keyword_text_table 0 i len hkp
        rw [keyword_table_length] at k4
        have hi : i + BASIC_KEYWORD_RANGE_BEGIN ≠ 0 ∧ i + BASIC_KEYWORD_RANGE_BEGIN < 256 := by
          simp only [BASIC_KEYWORD_RANGE_BEGIN]; omega
        split
        · intro x hx
          rcases List.mem_cons.1 hx with rfl | hx
          · exact hi
          · exact hr x (List.mem_of_mem_drop hx)
        · intro x hx
          rcases List.mem_cons.1 hx with rfl | hx
          · exact hi
          · exact tok_aux_bytes r _ _ hr x hx
      · split
        · exact h
        · intro x hx
          rcases List.mem_cons.1 hx with rfl | hx
          · exact h _ (by simp)
          · exact tok_aux_bytes r 0 _ hr x hx

/-- The in-place tokenizer terminates on every NUL-terminated line, leaves the
string `tokenize l` in the buffer, which is not longer than the line, and
changes no byte outside the line. -/
theorem keywords_tokenize_line_spec (fuel : Nat) (m : Mem) (p : Nat) (l : List Nat)
    (h : IsCStr m p l) (hf : l.length < fuel) :
    ∃ m', keywords_tokenize_line fuel m p = some m' ∧ IsCStr m' p (tokenize l) ∧
      (tokenize l).length ≤ l.length ∧ ∀ a, a < p ∨ p + l.length < a → m' a = m a := by
  obtain ⟨m1, h1, h2, h3, h4⟩ := tokenize_loop_spec fuel m p p l h (Nat.le_refl _) hf
  refine ⟨mem_write m1 (p + (tokenize l).length) 0, ?_, ?_, by omega, ?_⟩
  · simp [keywords_tokenize_line, h1]
  · apply IsCStr_of_MemIs
    · exact MemIs_congr _ _ (fun a _ ha => mem_write_other _ _ _ _ (by omega)) h2
    · exact tok_aux_bytes l 0 false (IsCStr_bytes l p h)
    · simp [mem_write_same]
  · intro a ha
    rw [mem_write_other _ _ _ _ (by omega), h4 a (by omega)]

theorem print_tokenized_body_spec {m : Mem} : ∀ (fuel : Nat) (l : List Nat) (p : Nat),
    IsCStr m p l → l.length < fuel → print_tokenized_body fuel m p = some (detokenize l)
  | 0, _, _, _, hf => by omega
  | fuel + 1, [], p, h, _ => by
    simp only [IsCStr] at h
    simp [print_tokenized_body, h, detokenize]
  | fuel + 1, c :: cs, p, h, hf => by
    simp only [IsCStr] at h
    have ih := print_tokenized_body_spec fuel cs (p + 1) h.2.2.2 (by simpa using hf)
    simp only [print_tokenized_body, h.1, if_neg h.2.1, ih, detokenize]

/-! ## Tokenizer: properties of `tokenize` -/

theorem detokenize_ascii : ∀ (l : List Nat), (∀ c ∈ l, c < 128) → detokenize l = l
  | [], _ => rfl
  | c :: r, h => by
    have hc : c < 128 := h c (by simp)
    have : ¬ (BASIC_KEYWORD_RANGE_BEGIN ≤ c ∧ c ≤ BASIC_KEYWORD_RANGE_END) := by
      simp only [BASIC_KEYWORD_RANGE_BEGIN]; omega
    simp only [detokenize, if_neg this]
    rw [detokenize_ascii r (fun x hx => h x (by simp [hx]))]; rfl

theorem detokenize_cons_ascii (c : Nat) (r : List Nat) (hc : c < 128) :
    detokenize (c :: r) = c :: detokenize r := by
  have : ¬ (BASIC_KEYWORD_RANGE_BEGIN ≤ c ∧ c ≤ BASIC_KEYWORD_RANGE_END) := by
    simp only [BASIC_KEYWORD_RANGE_BEGIN]; omega
  simp only [detokenize, if_neg this]; rfl

theorem detokenize_cons_token (i : Nat) (r : List Nat) (hi : i < 38) :
    detokenize ((i + BASIC_KEYWORD_RANGE_BEGIN) :: r) =
      keyword_text_table.getD i [] ++ detokenize r := by
  have : BASIC_KEYWORD_RANGE_BEGIN ≤ i + BASIC_KEYWORD_RANGE_BEGIN ∧
      i + BASIC_KEYWORD_RANGE_BEGIN ≤ BASIC_KEYWORD_RANGE_END := by
    simp only [BASIC_KEYWORD_RANGE_BEGIN, BASIC_KEYWORD_RANGE_END]; omega
  simp only [detokenize, if_pos this, Nat.add_sub_cancel]

theorem first_keyword_split {c : Nat} {r : List Nat} {i len : Nat}
    (h : first_keyword (c :: r) keyword_text_table 0 = some (i, len)) :
    i < 38 ∧ 1 ≤ len ∧ len ≤ r.length + 1 ∧
      c :: r = keyword_text_table.getD i [] ++ r.drop (len - 1) ∧
      (keyword_text_table.getD i []).length = len ∧
      keyword_text_table.getD i [] ∈ keyword_text_table := by
  obtain ⟨kw, k1, k2, _, k4, k5, k6⟩ := first_keyword_some keyword_text_table 0 i len h
  rw [keyword_table_length] at k4
  have hne := (keyword_bytes kw k1).1
  have hlen1 : 1 ≤ len := by rw [k5]; exact List.length_pos.2 hne
  have hsplit := isPrefixOf_split k6
  have hlen2 : len ≤ (c :: r).length := by
    rw [k5]; exact (List.isPrefixOf_iff_prefix.1 k6).length_le
  simp only [Nat.sub_zero] at k2
  refine ⟨by omega, hlen1, by simpa using hlen2, ?_, by rw [k2, k5], by rw [k2]; exact k1⟩
  rw [k2]
  have : List.drop kw.length (c :: r) = List.drop (len - 1) r := by
    rw [← k5, show len = (len - 1) + 1 by omega]; simp
  rw [← this]; exact hsplit

theorem detokenize_tok_aux : ∀ (l : List Nat) (skip : Nat) (b : Bool), (∀ c ∈ l, c < 128) →
    detokenize (tok_aux skip b l) = l.drop skip
  | [], _, _, _ => by simp [tok_aux, detokenize]
  | c :: r, skip + 1, b, h => by
    simp only [tok_aux, List.drop_succ_cons]
    exact detokenize_tok_aux r skip false (fun x hx => h x (by simp [hx]))
  | c :: r, 0, true, h => by
    simp only [tok_aux, List.drop_zero]
    rw [detokenize_cons_ascii _ _ (h c (by simp)),
      detokenize_tok_aux r 0 _ (fun x hx => h x (by simp [hx]))]; rfl
  | c :: r, 0, false, h => by
    have hr : ∀ x ∈ r, x < 128 := fun x hx => h x (by simp [hx])
    have hc : c < 128 := h c (by simp)
    simp only [tok_aux, List.drop_zero]
    split
    · rw [detokenize_cons_ascii _ _ hc, detokenize_tok_aux r 0 _ hr]; rfl
    · split
      · rename_i i len hkp
        obtain ⟨hi, hl1, hl2, hsp, _, _⟩ := first_keyword_split hkp
        split
        · rw [detokenize_cons_token _ _ hi,
            detokenize_ascii _ (fun x hx => hr x (List.mem_of_mem_drop hx))]
          exact hsp.symm
        · rw [detokenize_cons_token _ _ hi, detokenize_tok_aux r _ _ hr]
          exact hsp.symm
      · split
        · rename_i hrem
          simp only [BASIC_KEYWORD_REM] at hrem; omega
        · rw [detokenize_cons_ascii _ _ hc, detokenize_tok_aux r 0 _ hr]; rfl

theorem detokenize_tokenize (l : List Nat) (h : ∀ c ∈ l, c < 128) :
    detokenize (tokenize l) = l := by
  simpa [tokenize] using detokenize_tok_aux l 0 false h

theorem tok_aux_length : ∀ (l : List Nat) (skip : Nat) (b : Bool), skip ≤ l.length →
    (tok_aux skip b l).length +
      ((replaced_keywords skip b l).map
        (fun i => (keyword_text_table.getD i []).length - 1)).sum + skip = l.length
  | [], skip, _, h => by
    simp only [List.length_nil, Nat.le_zero] at h
    subst h; simp [tok_aux, replaced_keywords]
  | c :: r, skip + 1, b, h => by
    have := tok_aux_length r skip false (by simpa using h)
    simp only [tok_aux, replaced_keywords, List.length_cons]; omega
  | c :: r, 0, true, _ => by
    have := tok_aux_length r 0 (c != 34) (Nat.zero_le _)
    simp only [tok_aux, replaced_keywords, List.length_cons]; omega
  | c :: r, 0, false, _ => by
    simp only [tok_aux, replaced_keywords]
    split
    · have := tok_aux_length r 0 true (Nat.zero_le _)
      simp only [List.length_cons]; omega
    · split
      · rename_i i len hkp
        obtain ⟨hi, hl1, hl2, hsp, hlen, _⟩ := first_keyword_split hkp
        split
        · simp only [List.length_cons, List.length_drop, List.map_cons, List.map_nil,
            List.sum_cons, List.sum_nil, hlen]
          omega
        · have := tok_aux_length r (len - 1) false (by omega)
          simp only [List.length_cons, List.map_cons, List.sum_cons, hlen]
          omega
      · split
        · simp
        · have := tok_aux_length r 0 false (Nat.zero_le _)
          simp only [List.length_cons]; omega

theorem tokenize_length (l : List Nat) : (tokenize l).length + saved_bytes l = l.length := by
  simpa [tokenize, saved_bytes] using tok_aux_length l 0 false (Nat.zero_le _)

theorem IsCStr_unique {m : Mem} : ∀ (l1 l2 : List Nat) (p : Nat),
    IsCStr m p l1 → IsCStr m p l2 → l1 = l2
  | [], [], _, _, _ => rfl
  | [], c :: cs, p, h1, h2 => by
    simp only [IsCStr] at h1 h2
    exact absurd (h2.1.symm.trans h1) h2.2.1
  | c :: cs, [], p, h1, h2 => by
    simp only [IsCStr] at h1 h2
    exact absurd (h1.1.symm.trans h2) h1.2.1
  | c :: cs, d :: ds, p, h1, h2 => by
    simp only [IsCStr] at h1 h2
    rw [← h1.1, ← h2.1, IsCStr_unique cs ds (p + 1) h1.2.2.2 h2.2.2.2]

theorem keyword_first_byte {kw : List Nat} (hk : kw ∈ keyword_text_table) {c : Nat}
    {r : List Nat} (hp : kw.isPrefixOf (c :: r) = true) : c < 128 ∧ c ≠ 34 := by
  obtain ⟨hne, hb⟩ := keyword_bytes kw hk
  cases kw with
  | nil => exact absurd rfl hne
  | cons k ks =>
    simp only [List.isPrefixOf, Bool.and_eq_true, beq_iff_eq] at hp
    have := hb k (by simp)
    rw [← hp.1]; exact ⟨this.2.1, this.2.2⟩

theorem tok_aux_eq_self : ∀ (l : List Nat) (b : Bool),
    tok_aux 0 b l = l ↔ keyword_before_rem b l = false
  | [], _ => by simp [tok_aux, keyword_before_rem]
  | c :: r, true => by
    simp only [tok_aux, keyword_before_rem, List.cons.injEq, true_and]
    exact tok_aux_eq_self r _
  | c :: r, false => by
    simp only [tok_aux, keyword_before_rem]
    by_cases hq : c = 34
    · simp only [if_pos hq, List.cons.injEq, true_and]
      exact tok_aux_eq_self r true
    · simp only [if_neg hq]
      cases hkp : first_keyword (c :: r) keyword_text_table 0 with
      | none =>
        have hany : (keyword_text_table.any fun kw => kw.isPrefixOf (c :: r)) = false := by
          rw [List.any_eq_false]
          intro kw hkw
          simp [(first_keyword_none keyword_text_table 0).1 hkp kw hkw]
        by_cases hrem : c = BASIC_KEYWORD_REM
        · simp [if_pos hrem]
        · simp only [if_neg hrem, List.cons.injEq, true_and, hany, Bool.false_or]
          exact tok_aux_eq_self r false
      | some q =>
        obtain ⟨i, len⟩ := q
        obtain ⟨kw, k1, _, _, _, _, k6⟩ := first_keyword_some keyword_text_table 0 i len hkp
        have hc := keyword_first_byte k1 k6
        have hrem : c ≠ BASIC_KEYWORD_REM := by simp only [BASIC_KEYWORD_REM]; omega
        have hany : (keyword_text_table.any fun kw => kw.isPrefixOf (c :: r)) = true :=
          List.any_eq_true.2 ⟨kw, k1, k6⟩
        have hne : i + BASIC_KEYWORD_RANGE_BEGIN ≠ c := by
          simp only [BASIC_KEYWORD_RANGE_BEGIN]; omega
        simp only [if_neg hrem, hany, Bool.true_or, Bool.true_eq_false, iff_false]
        split <;> simp [hne]

theorem tokenize_eq_self (l : List Nat) :
    tokenize l = l ↔ keyword_before_rem false l = false :=
  tok_aux_eq_self l false

theorem kw_isPrefixOf_append_quote {kw : List Nat} (hk : ∀ k ∈ kw, k ≠ 34) :
    ∀ (l x : List Nat), (x = [] ∨ x.head? = some 34) →
    kw.isPrefixOf (l ++ x) = kw.isPrefixOf l := by
  induction kw with
  | nil => intros; simp [List.isPrefixOf]
  | cons k ks ih =>
    intro l x hx
    cases l with
    | nil =>
      rcases hx with rfl | hx
      · simp
      · cases x with
        | nil => simp at hx
        | cons y ys =>
          simp only [List.head?_cons, Option.some.injEq] at hx
          subst hx
          have : k ≠ 34 := hk k (by simp)
          simp [List.isPrefixOf, this]
    | cons c cs =>
      rw [List.cons_append]
      simp only [List.isPrefixOf]
      rw [ih (fun y hy => hk y (by simp [hy])) cs x hx]

theorem first_keyword_append_quote (l x : List Nat) (hx : x = [] ∨ x.head? = some 34) :
    ∀ (table : List (List Nat)) (i : Nat), (∀ kw ∈ table, ∀ k ∈ kw, k ≠ 34) →
    first_keyword (l ++ x) table i = first_keyword l table i
  | [], _, _ => rfl
  | kw :: rest, i, ht => by
    simp only [first_keyword]
    rw [kw_isPrefixOf_append_quote (ht kw (by simp)) l x hx,
      first_keyword_append_quote l x hx rest (i + 1) (fun kw' h' => ht kw' (by simp [h']))]

theorem keyword_count_quote {kw : List Nat} (hk : kw ∈ keyword_text_table) :
    List.count 34 kw = 0 := by
  rw [List.count_eq_zero]
  intro h
  exact ((keyword_bytes kw hk).2 34 h).2.2 rfl

/-- A prefix with balanced quotes is tokenized by itself when a quote follows:
what follows is either copied verbatim (a REM came before) or tokenized from
a fresh state. -/
theorem tok_aux_append_quote (x : List Nat) (hx : x = [] ∨ x.head? = some 34) :
    ∀ (n : Nat) (pre : List Nat) (b : Bool), pre.length ≤ n →
    List.count 34 pre % 2 = (if b then 1 else 0) →
    tok_aux 0 b (pre ++ x) = tok_aux 0 b pre ++ x ∨
      tok_aux 0 b (pre ++ x) = tok_aux 0 b pre ++ tok_aux 0 false x := by
  intro n
  induction n with
  | zero =>
    intro pre b hn hpar
    have : pre = [] := List.length_eq_zero.1 (Nat.le_zero.1 hn)
    subst this
    cases b with
    | true => simp at hpar
    | false => right; simp [tok_aux]
  | succ n ih =>
    intro pre b hn hpar
    cases pre with
    | nil =>
      cases b with
      | true => simp at hpar
      | false => right; simp [tok_aux]
    | cons c r =>
      have hrn : r.length ≤ n := by simpa using hn
      cases b with
      | true =>
        rw [List.cons_append]
        simp only [tok_aux]
        have hpar' : List.count 34 r % 2 = (if (c != 34) = true then 1 else 0) := by
          by_cases hq : c = 34
          · subst hq
            simp only [List.count_cons_self, if_true] at hpar
            simp; omega
          · have : (c == 34) = false := by simp [hq]
            simp only [List.count_cons, this, if_true] at hpar
            simp [hq]; simpa using hpar
        rcases ih r (c != 34) hrn hpar' with h | h
        · left; rw [h]; rfl
        · right; rw [h]; rfl
      | false =>
        rw [List.cons_append]
        simp only [tok_aux]
        by_cases hq : c = 34
        · subst hq
          simp only [if_true]
          have hpar' : List.count 34 r % 2 = (if true = true then 1 else 0) := by
            simp only [List.count_cons_self] at hpar
            simp at hpar ⊢; omega
          rcases ih r true hrn hpar' with h | h
          · left; rw [h]; rfl
          · right; rw [h]; rfl
        · have hcnt : List.count 34 (c :: r) = List.count 34 r := by
            have : (c == 34) = false := by simp [hq]
            simp [List.count_cons, this]
          simp only [if_neg hq]
          have hkp := first_keyword_append_quote (c :: r) x hx keyword_text_table 0
            (fun kw hkw k hk => ((keyword_bytes kw hkw).2 k hk).2.2)
          simp only [List.cons_append] at hkp
          rw [hkp]
          cases hk : first_keyword (c :: r) keyword_text_table 0 with
          | none =>
            simp only
            by_cases hrem : c = BASIC_KEYWORD_REM
            · left; simp [if_pos hrem]
            · simp only [if_neg hrem]
              rcases ih r false hrn (by rw [← hcnt]; exact hpar) with h | h
              · left; rw [h]; rfl
              · right; rw [h]; rfl
          | some q =>
            obtain ⟨i, len⟩ := q
            obtain ⟨hi, hl1, hl2, hsp, hlen, hmem⟩ := first_keyword_split hk
            simp only
            by_cases hrem : i + BASIC_KEYWORD_RANGE_BEGIN = BASIC_KEYWORD_REM
            · left
              simp only [if_pos hrem, List.cons_append, List.cons.injEq, true_and]
              rw [List.drop_append_of_le_length (by omega)]
            · simp only [if_neg hrem]
              rw [tok_aux_skip' (r ++ x), tok_aux_skip' r,
                List.drop_append_of_le_length (by omega)]
              have hpar' : List.count 34 (List.drop (len - 1) r) % 2 =
                  (if false = true then 1 else 0) := by
                have := congrArg (List.count 34) hsp
                rw [List.count_append, keyword_count_quote hmem, Nat.zero_add] at this
                rw [← this]; exact hpar
              rcases ih (r.drop (len - 1)) false
                (by simp only [List.length_drop]; omega) hpar' with h | h
              · left; rw [h]; rfl
              · right; rw [h]; rfl

theorem tok_aux_literal_body : ∀ (body rest : List Nat), 34 ∉ body →
    tok_aux 0 true (body ++ 34 :: rest) = body ++ 34 :: tok_aux 0 false rest
  | [], rest, _ => by simp [tok_aux]
  | c :: cs, rest, h => by
    have hc : c ≠ 34 := fun e => h (by simp [e])
    have hb : (c != 34) = true := by simp [hc]
    rw [List.cons_append]
    simp only [tok_aux, hb]
    rw [tok_aux_literal_body cs rest (fun h' => h (by simp [h']))]; rfl

theorem tok_aux_literal_open : ∀ (body : List Nat), 34 ∉ body → tok_aux 0 true body = body
  | [], _ => by simp [tok_aux]
  | c :: cs, h => by
    have hc : c ≠ 34 := fun e => h (by simp [e])
    have hb : (c != 34) = true := by simp [hc]
    simp only [tok_aux, hb]
    rw [tok_aux_literal_open cs (fun h' => h (by simp [h']))]

/-- Whatever follows a REM opcode that stands outside a string literal in the
output is the unchanged rest of the input line. -/
theorem tok_aux_rem_suffix : ∀ (n : Nat) (l : List Nat) (b : Bool), l.length ≤ n →
    ∀ (o1 o2 : List Nat), tok_aux 0 b l = o1 ++ BASIC_KEYWORD_REM :: o2 →
    List.count 34 o1 % 2 = (if b then 1 else 0) → o2 <:+ l := by
  intro n
  induction n with
  | zero =>
    intro l b hn o1 o2 h _
    have : l = [] := List.length_eq_zero.1 (Nat.le_zero.1 hn)
    subst this
    simp [tok_aux] at h
  | succ n ih =>
    intro l b hn o1 o2 h hpar
    cases l with
    | nil => simp [tok_aux] at h
    | cons c r =>
      have hrn : r.length ≤ n := by simpa using hn
      have hsuf : ∀ {t : List Nat}, o2 <:+ t → t <:+ r → o2 <:+ c :: r :=
        fun h1 h2 => h1.trans (h2.trans (List.suffix_cons c r))
      cases b with
      | true =>
        simp only [tok_aux] at h
        cases o1 with
        | nil => simp at hpar
        | cons x o1' =>
          simp only [List.cons_append, List.cons.injEq] at h
          obtain ⟨hx, h⟩ := h
          subst hx
          refine hsuf (ih r _ hrn o1' o2 h ?_) (List.suffix_refl r)
          by_cases hq : c = 34
          · subst hq
            simp only [List.count_cons_self, if_true] at hpar
            simp; omega
          · have : (c == 34) = false := by simp [hq]
            simp only [List.count_cons, this, if_true] at hpar
            simp [hq]; simpa using hpar
      | false =>
        simp only [tok_aux] at h
        by_cases hq : c = 34
        · subst hq
          simp only [if_true] at h
          cases o1 with
          | nil =>
            simp only [List.nil_append, List.cons.injEq] at h
            exact absurd h.1 (by decide)
          | cons x o1' =>
            simp only [List.cons_append, List.cons.injEq] at h
            obtain ⟨hx, h⟩ := h
            subst hx
            refine hsuf (ih r true hrn o1' o2 h ?_) (List.suffix_refl r)
            simp only [List.count_cons_self] at hpar
            simp at hpar ⊢; omega
        · simp only [if_neg hq] at h
          cases hk : first_keyword (c :: r) keyword_text_table 0 with
          | none =>
            rw [hk] at h
            simp only at h
            by_cases hrem : c = BASIC_KEYWORD_REM
            · simp only [if_pos hrem] at h
              cases o1 with
              | nil =>
                simp only [List.nil_append, List.cons.injEq] at h
                rw [← h.2]; exact List.suffix_cons c r
              | cons x o1' =>
                simp only [List.cons_append, List.cons.injEq] at h
                refine hsuf ?_ (List.suffix_refl r)
                rw [h.2]
                exact (List.suffix_cons _ o2).trans (List.suffix_append o1' _)
            · simp only [if_neg hrem] at h
              cases o1 with
              | nil =>
                simp only [List.nil_append, List.cons.injEq] at h
                exact absurd h.1 hrem
              | cons x o1' =>
                simp only [List.cons_append, List.cons.injEq] at h
                obtain ⟨hx, h⟩ := h
                subst hx
                refine hsuf (ih r false hrn o1' o2 h ?_) (List.suffix_refl r)
                have : (c == 34) = false := by simp [hq]
                simpa [List.count_cons, this] using hpar
          | some q =>
            obtain ⟨i, len⟩ := q
            rw [hk] at h
            simp only at h
            obtain ⟨hi, hl1, hl2, hsp, hlen, hmem⟩ := first_keyword_split hk
            have htq : (i + BASIC_KEYWORD_RANGE_BEGIN == 34) = false := by
              simp [BASIC_KEYWORD_RANGE_BEGIN]
            by_cases hrem : i + BASIC_KEYWORD_RANGE_BEGIN = BASIC_KEYWORD_REM
            · simp only [if_pos hrem] at h
              cases o1 with
              | nil =>
                simp only [List.nil_append, List.cons.injEq] at h
                rw [← h.2]
                exact (List.drop_suffix (len - 1) r).trans (List.suffix_cons c r)
              | cons x o1' =>
                simp only [List.cons_append, List.cons.injEq] at h
                refine hsuf ?_ (List.drop_suffix (len - 1) r)
                rw [h.2]
                exact (List.suffix_cons _ o2).trans (List.suffix_append o1' _)
            · simp only [if_neg hrem] at h
              cases o1 with
              | nil =>
                simp only [List.nil_append, List.cons.injEq] at h
                exact absurd h.1 hrem
              | cons x o1' =>
                simp only [List.cons_append, List.cons.injEq] at h
                obtain ⟨hx, h⟩ := h
                subst hx
                rw [tok_aux_skip' r] at h
                refine hsuf (ih (r.drop (len - 1)) false
                  (by simp only [List.length_drop]; omega) o1' o2 h ?_) (List.drop_suffix _ r)
                simpa [List.count_cons, htq] using hpar

/-! ## Tokenizer: the claims -/

/-- C7: for every line made only of bytes 0x01..0x7F, tokenizing it in place
and then expanding the result the way LIST does (`print_tokenized_line`) prints
the line exactly as it was typed, followed by the newline. -/
theorem C7_list_reproduces_typed_line (fuel : Nat) (m : Mem) (p : Nat) (l : List Nat)
    (hl : IsCStr m p l) (hascii : ∀ c ∈ l, c < 128) (hf : l.length < fuel) :
    ∃ m', keywords_tokenize_line fuel m p = some m' ∧
      print_tokenized_line fuel m' p = some (l ++ [10]) := by
  obtain ⟨m', h1, h2, h3, _⟩ := keywords_tokenize_line_spec fuel m p l hl hf
  refine ⟨m', h1, ?_⟩
  simp only [print_tokenized_line,
    print_tokenized_body_spec fuel (tokenize l) p h2 (by omega), detokenize_tokenize l hascii]

/-- Witness of C7 on the line `PRINT "IF": NEXT I`. -/
theorem C7_list_reproduces_typed_line_witness :
    IsCStr (mem_of_string 100 [80, 82, 73, 78, 84, 32, 34, 73, 70, 34, 58, 32, 78, 69, 88, 84,
        32, 73]) 100 [80, 82, 73, 78, 84, 32, 34, 73, 70, 34, 58, 32, 78, 69, 88, 84, 32, 73] ∧
      ∃ m', keywords_tokenize_line 40 (mem_of_string 100 [80, 82, 73, 78, 84, 32, 34, 73, 70,
          34, 58, 32, 78, 69, 88, 84, 32, 73]) 100 = some m' ∧
        print_tokenized_line 40 m' 100 =
          some ([80, 82, 73, 78, 84, 32, 34, 73, 70, 34, 58, 32, 78, 69, 88, 84, 32, 73] ++ [10]) :=
  ⟨by decide, C7_list_reproduces_typed_line 40 _ 100 _ (by decide) (by decide) (by decide)⟩

/-- C8: verbatim regions of the tokenizer.  In the buffer left by
`keywords_tokenize_line`: (1) a string literal that opens after a prefix with
balanced quotes is copied unchanged together with both quotes, whatever it
spells; (2) so is a literal that is never closed, to the end of the line;
(3) whatever follows a REM opcode standing outside a string literal is the
unchanged rest of the input line. -/
theorem C8_verbatim_regions (fuel : Nat) (m : Mem) (p : Nat) (l : List Nat)
    (hl : IsCStr m p l) (hf : l.length < fuel) :
    ∃ m' out, keywords_tokenize_line fuel m p = some m' ∧ IsCStr m' p out ∧
      (∀ pre body rest, l = pre ++ 34 :: (body ++ 34 :: rest) → List.count 34 pre % 2 = 0 →
        34 ∉ body → ∃ R, (R = rest ∨ R = tokenize rest) ∧
          out = tokenize pre ++ 34 :: (body ++ 34 :: R)) ∧
      (∀ pre body, l = pre ++ 34 :: body → List.count 34 pre % 2 = 0 → 34 ∉ body →
        out = tokenize pre ++ 34 :: body) ∧
      (∀ o1 o2, out = o1 ++ BASIC_KEYWORD_REM :: o2 → List.count 34 o1 % 2 = 0 → o2 <:+ l) := by
  obtain ⟨m', h1, h2, _, _⟩ := keywords_tokenize_line_spec fuel m p l hl hf
  refine ⟨m', tokenize l, h1, h2, ?_, ?_, ?_⟩
  · intro pre body rest hl' hpar hb
    subst hl'
    have hlit : tok_aux 0 false (34 :: (body ++ 34 :: rest)) =
        34 :: (body ++ 34 :: tokenize rest) := by
      simp only [tok_aux, if_true, tokenize]
      rw [tok_aux_literal_body body rest hb]
    rcases tok_aux_append_quote (34 :: (body ++ 34 :: rest)) (Or.inr rfl) pre.length pre false
      (Nat.le_refl _) (by simpa using hpar) with h | h
    · exact ⟨rest, Or.inl rfl, h⟩
    · exact ⟨tokenize rest, Or.inr rfl, by rw [tokenize, h, hlit]; rfl⟩
  · intro pre body hl' hpar hb
    subst hl'
    have hlit : tok_aux 0 false (34 :: body) = 34 :: body := by
      simp only [tok_aux, if_true]
      rw [tok_aux_literal_open body hb]
    rcases tok_aux_append_quote (34 :: body) (Or.inr rfl) pre.length pre false
      (Nat.le_refl _) (by simpa using hpar) with h | h
    · exact h
    · rw [tokenize, h, hlit]; rfl
  · intro o1 o2 ho hpar
    exact tok_aux_rem_suffix l.length l false (Nat.le_refl _) o1 o2 ho (by simpa using hpar)

/-- Witness of C8 on the line `A"TO"REM IF`. -/
theorem C8_verbatim_regions_witness :
    IsCStr (mem_of_string 7 [65, 34, 84, 79, 34, 82, 69, 77, 32, 73, 70]) 7
        [65, 34, 84, 79, 34, 82, 69, 77, 32, 73, 70] ∧
      ∃ m' out, keywords_tokenize_line 12
          (mem_of_string 7 [65, 34, 84, 79, 34, 82, 69, 77, 32, 73, 70]) 7 = some m' ∧
        IsCStr m' 7 out ∧
        (∀ pre body rest, [65, 34, 84, 79, 34, 82, 69, 77, 32, 73, 70] =
            pre ++ 34 :: (body ++ 34 :: rest) → List.count 34 pre % 2 = 0 →
          34 ∉ body → ∃ R, (R = rest ∨ R = tokenize rest) ∧
            out = tokenize pre ++ 34 :: (body ++ 34 :: R)) ∧
        (∀ pre body, [65, 34, 84, 79, 34, 82, 69, 77, 32, 73, 70] = pre ++ 34 :: body →
          List.count 34 pre % 2 = 0 → 34 ∉ body → out = tokenize pre ++ 34 :: body) ∧
        (∀ o1 o2, out = o1 ++ BASIC_KEYWORD_REM :: o2 → List.count 34 o1 % 2 = 0 →
          o2 <:+ [65, 34, 84, 79, 34, 82, 69, 77, 32, 73, 70]) :=
  ⟨by decide, C8_verbatim_regions 12 _ 7 _ (by decide) (by decide)⟩

/-- C9: on every NUL-terminated line the in-place tokenizer returns, the string
it leaves is not longer than the line, its length is the length of the line
minus the sum of (keyword length - 1) over the keywords replaced, and no byte
after the terminator of the input line is written. -/
theorem C9_output_not_longer (fuel : Nat) (m : Mem) (p : Nat) (l : List Nat)
    (hl : IsCStr m p l) (hf : l.length < fuel) :
    ∃ m' out, keywords_tokenize_line fuel m p = some m' ∧ IsCStr m' p out ∧
      out.length ≤ l.length ∧ out.length + saved_bytes l = l.length ∧
      ∀ a, p + l.length < a → m' a = m a := by
  obtain ⟨m', h1, h2, h3, h4⟩ := keywords_tokenize_line_spec fuel m p l hl hf
  exact ⟨m', tokenize l, h1, h2, h3, tokenize_length l, fun a ha => h4 a (Or.inr ha)⟩

/-- Witness of C9 on the line `GOTO 10`. -/
theorem C9_output_not_longer_witness :
    IsCStr (mem_of_string 3 [71, 79, 84, 79, 32, 49, 48]) 3 [71, 79, 84, 79, 32, 49, 48] ∧
      ∃ m' out, keywords_tokenize_line 8 (mem_of_string 3 [71, 79, 84, 79, 32, 49, 48]) 3 =
          some m' ∧ IsCStr m' 3 out ∧
        out.length ≤ [71, 79, 84, 79, 32, 49, 48].length ∧
        out.length + saved_bytes [71, 79, 84, 79, 32, 49, 48] =
          [71, 79, 84, 79, 32, 49, 48].length ∧
        ∀ a, 3 + [71, 79, 84, 79, 32, 49, 48].length < a →
          m' a = mem_of_string 3 [71, 79, 84, 79, 32, 49, 48] a :=
  ⟨by decide, C9_output_not_longer 8 _ 3 _ (by decide) (by decide)⟩

/-- C10 as stated fails: the tokenized form of `REM IF` is left unchanged by a
second tokenization although it contains the keyword text `IF` outside any
string literal. -/
theorem C10_counterexample :
    tokenize [82, 69, 77, 32, 73, 70] = [0x8e, 32, 73, 70] ∧
      (∃ m', keywords_tokenize_line 5 (mem_of_string 0 [0x8e, 32, 73, 70]) 0 = some m' ∧
        IsCStr m' 0 [0x8e, 32, 73, 70]) ∧
      keyword_outside_literals false [0x8e, 32, 73, 70] = true := by
  refine ⟨by decide, ?_, by decide⟩
  obtain ⟨m', h1, h2, _, _⟩ := keywords_tokenize_line_spec 5 (mem_of_string 0 [0x8e, 32, 73, 70])
    0 [0x8e, 32, 73, 70] (by decide) (by decide)
  exact ⟨m', h1, by simpa [show tokenize [0x8e, 32, 73, 70] = [0x8e, 32, 73, 70] by decide] using h2⟩

/-- C10 (amended): tokenizing a line in place leaves it unchanged if and only if
no keyword text occurs in it outside string literals and before the first REM
opcode that stands outside a string literal. -/
theorem C10_fixed_point_iff (fuel : Nat) (m : Mem) (p : Nat) (t : List Nat)
    (ht : IsCStr m p t) (hf : t.length < fuel) :
    ∃ m', keywords_tokenize_line fuel m p = some m' ∧
      (IsCStr m' p t ↔ keyword_before_rem false t = false) := by
  obtain ⟨m', h1, h2, _, _⟩ := keywords_tokenize_line_spec fuel m p t ht hf
  refine ⟨m', h1, ?_⟩
  rw [← tokenize_eq_self]
  constructor
  · intro h; exact IsCStr_unique _ _ p h2 h
  · intro h; rw [h] at h2; exact h2

/-- Witness of C10 (amended) on the tokenized form of `REM IF`. -/
theorem C10_fixed_point_iff_witness :
    IsCStr (mem_of_string 0 [0x8e, 32, 73, 70]) 0 [0x8e, 32, 73, 70] ∧
      ∃ m', keywords_tokenize_line 5 (mem_of_string 0 [0x8e, 32, 73, 70]) 0 = some m' ∧
        (IsCStr m' 0 [0x8e, 32, 73, 70] ↔ keyword_before_rem false [0x8e, 32, 73, 70] = false) :=
  ⟨by decide, C10_fixed_point_iff 5 _ 0 _ (by decide) (by decide)⟩

/-! ## Program storage -/

theorem IsCStr_translate {m m' : Mem} : ∀ (l : List Nat) (a a' : Nat),
    (∀ k, k ≤ l.length → m' (a' + k) = m (a + k)) → IsCStr m a l → IsCStr m' a' l
  | [], a, a', hm, h => by
    simp only [IsCStr] at h ⊢
    have := hm 0 (Nat.zero_le _)
    simpa [h] using this
  | c :: cs, a, a', hm, h => by
    simp only [IsCStr] at h ⊢
    refine ⟨?_, h.2.1, h.2.2.1, IsCStr_translate cs (a + 1) (a' + 1) ?_ h.2.2.2⟩
    · have := hm 0 (Nat.zero_le _)
      simpa [h.1] using this
    · intro k hk
      have := hm (k + 1) (by simp only [List.length_cons]; omega)
      simpa [Nat.add_assoc, Nat.add_comm 1 k] using this

theorem le16_bytes (v : Nat) : le16 (v % 256) (v / 256) = v := by
  simp only [le16]; omega

theorem RecsAt_translate {m m' : Mem} : ∀ (recs : List (Nat × List Nat)) (a a' : Nat),
    (∀ k, k < prog_size recs → m' (a' + k) = m (a + k)) →
    RecsAt false m a recs → RecsAt false m' a' recs
  | [], _, _, _, _ => trivial
  | (ln, body) :: rest, a, a', hm, h => by
    simp only [RecsAt, prog_size] at h hm ⊢
    obtain ⟨h1, h2, h3, h4, h5, h6⟩ := h
    have e0 := hm 0 (by omega)
    have e1 := hm 1 (by omega)
    have e2 := hm 2 (by omega)
    have e3 := hm 3 (by omega)
    simp only [Nat.add_zero] at e0
    refine ⟨?_, by rw [e2]; exact h2, by rw [e3]; exact h3, h4, ?_, ?_⟩
    · simpa [e0, e1] using h1
    · apply IsCStr_translate body (a + 4) (a' + 4) _ h5
      intro k hk
      have := hm (4 + k) (by omega)
      simpa [Nat.add_assoc] using this
    · apply RecsAt_translate rest (a + 5 + body.length) (a' + 5 + body.length) _ h6
      intro k hk
      have := hm (5 + body.length + k) (by omega)
      simpa [Nat.add_assoc] using this

theorem RecsAt_congr {m m' : Mem} (exact : Bool) : ∀ (recs : List (Nat × List Nat)) (a : Nat),
    (∀ x, a ≤ x → x < a + prog_size recs → m' x = m x) →
    RecsAt exact m a recs → RecsAt exact m' a recs
  | [], _, _, _ => trivial
  | (ln, body) :: rest, a, hm, h => by
    simp only [RecsAt, prog_size] at h hm ⊢
    obtain ⟨h1, h2, h3, h4, h5, h6⟩ := h
    have e0 := hm a (by omega) (by omega)
    have e1 := hm (a + 1) (by omega) (by omega)
    have e2 := hm (a + 2) (by omega) (by omega)
    have e3 := hm (a + 3) (by omega) (by omega)
    refine ⟨?_, by rw [e2]; exact h2, by rw [e3]; exact h3, h4, ?_, ?_⟩
    · rw [e0, e1]; exact h1
    · exact IsCStr_congr body (a + 4) (fun x hx1 hx2 => hm x (by omega) (by omega)) h5
    · exact RecsAt_congr exact rest _ (fun x hx1 hx2 => hm x (by omega) (by omega)) h6

theorem RecsAt_weaken {m : Mem} : ∀ (recs : List (Nat × List Nat)) (a : Nat),
    RecsAt true m a recs → RecsAt false m a recs
  | [], _, _ => trivial
  | (ln, body) :: rest, a, h => by
    simp only [RecsAt, if_true] at h ⊢
    obtain ⟨⟨h1, h1', h1''⟩, h2, h3, h4, h5, h6⟩ := h
    refine ⟨?_, h2, h3, h4, h5, RecsAt_weaken rest _ h6⟩
    simp only [Bool.false_eq_true, if_false]
    rw [h1, h1']
    omega

theorem prog_size_append (l1 l2 : List (Nat × List Nat)) :
    prog_size (l1 ++ l2) = prog_size l1 + prog_size l2 := by
  induction l1 with
  | nil => simp [prog_size]
  | cons r rest ih =>
    obtain ⟨ln, body⟩ := r
    rw [List.cons_append]
    simp only [prog_size]
    rw [ih]; omega

theorem RecsAt_append {m : Mem} (exact : Bool) : ∀ (l1 l2 : List (Nat × List Nat)) (a : Nat),
    RecsAt exact m a (l1 ++ l2) ↔ RecsAt exact m a l1 ∧ RecsAt exact m (a + prog_size l1) l2
  | [], l2, a => by simp [RecsAt, prog_size]
  | (ln, body) :: rest, l2, a => by
    have ih := RecsAt_append (m := m) exact rest l2 (a + 5 + body.length)
    rw [List.cons_append]
    simp only [RecsAt, prog_size, ih]
    rw [show a + 5 + body.length + prog_size rest = a + (5 + body.length + prog_size rest) by omega]
    tauto

theorem find_line_loop_spec {m : Mem} (line : Nat) : ∀ (recs : List (Nat × List Nat))
    (a fuel : Nat), RecsAt true m a recs → m (a + prog_size recs) = 0 →
    m (a + prog_size recs + 1) = 0 → recs.length < fuel →
    find_line_loop m line fuel a =
      some ⟨a + prog_size (recs.takeWhile (fun r => decide (r.1 < line))),
        match recs.dropWhile (fun r => decide (r.1 < line)) with
        | [] => false
        | r :: _ => decide (r.1 = line)⟩
  | _, _, 0, _, _, _, hf => by omega
  | [], a, fuel + 1, _, h0, h1, _ => by
    simp only [prog_size, Nat.add_zero] at h0 h1
    simp [find_line_loop, h0, h1, prog_size]
  | (ln, body) :: rest, a, fuel + 1, h, h0, h1, hf => by
    simp only [RecsAt, if_true] at h
    obtain ⟨⟨p1, p2, p3⟩, h2, h3, h4, h5, h6⟩ := h
    simp only [prog_size] at h0 h1
    have hnz : m a ≠ 0 ∨ m (a + 1) ≠ 0 := by rw [p1, p2]; omega
    have hnxt : le16 (m a) (m (a + 1)) = a + 5 + body.length := by rw [p1, p2, le16_bytes]
    have hln : le16 (m (a + 2)) (m (a + 3)) = ln := by rw [h2, h3, le16_bytes]
    by_cases hlt : ln < line
    · have ih := find_line_loop_spec line rest (a + 5 + body.length) fuel h6
        (by rw [← h0]; congr 1; omega) (by rw [← h1]; congr 1; omega) (by simpa using hf)
      have hge : ¬ (ln ≥ line) := by omega
      simp only [find_line_loop, if_pos hnz, hnxt, hln, if_neg hge, ih, List.takeWhile_cons,
        List.dropWhile_cons, decide_eq_true hlt, if_true, prog_size]
      rw [show a + 5 + body.length + prog_size (List.takeWhile (fun r => decide (r.1 < line)) rest)
        = a + (5 + body.length + prog_size (List.takeWhile (fun r => decide (r.1 < line)) rest))
        by omega]
    · have hge : ln ≥ line := by omega
      have hd : decide (ln < line) = false := decide_eq_false hlt
      simp [find_line_loop, if_pos hnz, hnxt, hln, hge, List.takeWhile_cons,
        List.dropWhile_cons, hd, prog_size]

theorem rebuild_list_loop_spec : ∀ (recs : List (Nat × List Nat)) (m : Mem) (a fuel : Nat),
    RecsAt false m a recs → m (a + prog_size recs) = 0 → m (a + prog_size recs + 1) = 0 →
    a + prog_size recs < UINT → prog_size recs < fuel →
    ∃ m', rebuild_list_loop fuel m a = some m' ∧
      (a + prog_size recs < 65536 → RecsAt true m' a recs) ∧
      (∀ x, x < a ∨ a + prog_size recs ≤ x → m' x = m x)
  | _, _, _, 0, _, _, _, _, hf => by omega
  | [], m, a, fuel + 1, _, h0, h1, _, _ => by
    simp only [prog_size, Nat.add_zero] at h0 h1
    exact ⟨m, by simp [rebuild_list_loop, h0, h1], fun _ => trivial, fun _ _ => rfl⟩
  | (ln, body) :: rest, m, a, fuel + 1, h, h0, h1, hb, hf => by
    simp only [RecsAt, Bool.false_eq_true, if_false] at h
    obtain ⟨hnz, h2, h3, h4, h5, h6⟩ := h
    simp only [prog_size] at h0 h1 hb hf
    have hsl := strlen_spec fuel body (a + 4) h5 (by omega)
    have hu : u32 (a + 4 + body.length + 1) = a + 5 + body.length := by
      simp only [u32, UINT] at hb ⊢; omega
    let m1 := mem_write (mem_write m a ((a + 5 + body.length) % 256)) (a + 1)
      ((a + 5 + body.length) / 256)
    have hm1 : ∀ x, x ≠ a → x ≠ a + 1 → m1 x = m x := fun x hx1 hx2 => by
      show mem_write _ _ _ x = m x
      rw [mem_write_other _ _ _ _ hx2, mem_write_other _ _ _ _ hx1]
    obtain ⟨m', e1, e2, e3⟩ := rebuild_list_loop_spec rest m1 (a + 5 + body.length) fuel
      (RecsAt_congr false rest _ (fun x hx _ => hm1 x (by omega) (by omega)) h6)
      (by rw [hm1 _ (by omega) (by omega), ← h0]; congr 1; omega)
      (by rw [hm1 _ (by omega) (by omega), ← h1]; congr 1; omega) (by omega) (by omega)
    refine ⟨m', ?_, ?_, ?_⟩
    · simp only [rebuild_list_loop, if_pos hnz, hsl, hu]
      exact e1
    · intro hb'
      simp only [prog_size] at hb'
      simp only [RecsAt, if_true]
      refine ⟨⟨?_, ?_, by omega⟩, ?_, ?_, h4, ?_, e2 (by omega)⟩
      · rw [e3 a (Or.inl (by omega))]
        show mem_write _ _ _ a = _
        rw [mem_write_other _ _ _ _ (by omega), mem_write_same, Nat.mod_mod]
      · rw [e3 (a + 1) (Or.inl (by omega))]
        show mem_write _ _ _ (a + 1) = _
        rw [mem_write_same]; omega
      · rw [e3 _ (Or.inl (by omega)), hm1 _ (by omega) (by omega)]; exact h2
      · rw [e3 _ (Or.inl (by omega)), hm1 _ (by omega) (by omega)]; exact h3
      · exact IsCStr_congr body (a + 4) (fun x hx1 hx2 => by
          rw [e3 x (Or.inl (by omega)), hm1 x (by omega) (by omega)]) h5
    · intro x hx
      simp only [prog_size] at hx
      rw [e3 x (by omega), hm1 x (by omega) (by omega)]

/-- A sorted list of lines splits at line number `n` into the lines below `n`,
possibly line `n` itself, and the lines above `n`. -/
theorem lines_split (n : Nat) : ∀ (recs : List (Nat × List Nat)), LinesSorted recs →
    ∃ pre post, recs.takeWhile (fun r => decide (r.1 < n)) = pre ∧
      (∀ r ∈ pre, r.1 < n) ∧ (∀ r ∈ post, n < r.1) ∧
      ((recs = pre ++ post ∧ recs.dropWhile (fun r => decide (r.1 < n)) = post) ∨
        ∃ b, recs = pre ++ (n, b) :: post ∧
          recs.dropWhile (fun r => decide (r.1 < n)) = (n, b) :: post)
  | [], _ => ⟨[], [], rfl, by simp, by simp, Or.inl ⟨rfl, rfl⟩⟩
  | (k, b) :: rest, hs => by
    have hs' : LinesSorted rest := (List.pairwise_cons.1 hs).2
    have hk : ∀ r ∈ rest, k < r.1 := (List.pairwise_cons.1 hs).1
    by_cases hlt : k < n
    · obtain ⟨pre, post, h1, h2, h3, h4⟩ := lines_split n rest hs'
      refine ⟨(k, b) :: pre, post, ?_, ?_, h3, ?_⟩
      · simp [List.takeWhile_cons, hlt, h1]
      · intro r hr
        rcases List.mem_cons.1 hr with rfl | hr
        · exact hlt
        · exact h2 r hr
      · rcases h4 with ⟨e1, e2⟩ | ⟨b', e1, e2⟩
        · left; exact ⟨by rw [e1]; rfl, by simp [List.dropWhile_cons, hlt, e2]⟩
        · right; exact ⟨b', by rw [e1]; rfl, by simp [List.dropWhile_cons, hlt, e2]⟩
    · have hd : decide (k < n) = false := decide_eq_false hlt
      by_cases heq : k = n
      · subst heq
        refine ⟨[], rest, by simp [List.takeWhile_cons, hd], by simp, hk, Or.inr ⟨b, rfl, ?_⟩⟩
        simp [List.dropWhile_cons, hd]
      · refine ⟨[], (k, b) :: rest, by simp [List.takeWhile_cons, hd], by simp, ?_,
          Or.inl ⟨rfl, by simp [List.dropWhile_cons, hd]⟩⟩
        intro r hr
        rcases List.mem_cons.1 hr with rfl | hr
        · show n < k; omega
        · have := hk r hr; omega

theorem lines_remove_split (n : Nat) (pre post : List (Nat × List Nat))
    (h1 : ∀ r ∈ pre, r.1 < n) (h2 : ∀ r ∈ post, n < r.1) :
    lines_remove n (pre ++ post) = pre ++ post ∧
      ∀ b, lines_remove n (pre ++ (n, b) :: post) = pre ++ post := by
  have e1 : lines_remove n pre = pre := by
    simp only [lines_remove]
    rw [List.filter_eq_self]
    intro r hr
    have := h1 r hr
    simp; omega
  have e2 : lines_remove n post = post := by
    simp only [lines_remove]
    rw [List.filter_eq_self]
    intro r hr
    have := h2 r hr
    simp; omega
  simp only [lines_remove] at e1 e2 ⊢
  refine ⟨by rw [List.filter_append, e1, e2], fun b => ?_⟩
  rw [List.filter_append, e1, List.filter_cons]
  simp [e2]

theorem lines_insert_split (n : Nat) (body : List Nat) : ∀ (pre post : List (Nat × List Nat)),
    (∀ r ∈ pre, r.1 < n) → (∀ r ∈ post, n < r.1) →
    lines_insert n body (pre ++ post) = pre ++ (n, body) :: post
  | [], [], _, _ => rfl
  | [], r :: post, _, h2 => by
    have : n ≤ r.1 := Nat.le_of_lt (h2 r (by simp))
    simp [lines_insert, this]
  | r :: pre, post, h1, h2 => by
    have : ¬ (n ≤ r.1) := by have := h1 r (by simp); omega
    rw [List.cons_append]
    simp only [lines_insert, if_neg this]
    rw [lines_insert_split n body pre post (fun x hx => h1 x (by simp [hx])) h2]; rfl

theorem lines_sorted_split {n : Nat} {pre post : List (Nat × List Nat)}
    (h1 : ∀ r ∈ pre, r.1 < n) (h2 : ∀ r ∈ post, n < r.1)
    (hpre : LinesSorted pre) (hpost : LinesSorted post) :
    LinesSorted (pre ++ post) ∧ ∀ b, LinesSorted (pre ++ (n, b) :: post) := by
  refine ⟨?_, fun b => ?_⟩
  · exact List.pairwise_append.2 ⟨hpre, hpost, fun x hx y hy => by
      have := h1 x hx; have := h2 y hy; omega⟩
  · refine List.pairwise_append.2 ⟨hpre, List.pairwise_cons.2 ⟨fun y hy => h2 y hy, hpost⟩, ?_⟩
    intro x hx y hy
    have := h1 x hx
    rcases List.mem_cons.1 hy with rfl | hy
    · exact this
    · have := h2 y hy; omega

theorem lines_sorted_parts {pre post : List (Nat × List Nat)} (h : LinesSorted (pre ++ post)) :
    LinesSorted pre ∧ LinesSorted post :=
  ⟨(List.pairwise_append.1 h).1, (List.pairwise_append.1 h).2.1⟩

theorem mem_write_list_other : ∀ (l : List Nat) (m : Mem) (a x : Nat),
    x < a ∨ a + l.length ≤ x → mem_write_list m a l x = m x
  | [], _, _, _, _ => rfl
  | c :: cs, m, a, x, h => by
    simp only [List.length_cons] at h
    simp only [mem_write_list]
    rw [mem_write_list_other cs _ (a + 1) x (by omega), mem_write_other _ _ _ _ (by omega)]

theorem mem_write_list_IsCStr : ∀ (l : List Nat) (m : Mem) (a : Nat),
    (∀ c ∈ l, c ≠ 0 ∧ c < 256) → IsCStr (mem_write_list m a (l ++ [0])) a l
  | [], m, a, _ => by
    simp [mem_write_list, IsCStr, mem_write_same]
  | c :: cs, m, a, h => by
    rw [List.cons_append]
    simp only [mem_write_list, IsCStr]
    refine ⟨?_, (h c (by simp)).1, (h c (by simp)).2,
      mem_write_list_IsCStr cs _ (a + 1) (fun x hx => h x (by simp [hx]))⟩
    rw [mem_write_list_other _ _ _ _ (Or.inl (by omega)), mem_write_same,
      Nat.mod_eq_of_lt (h c (by simp)).2]

theorem usub_eq {a b : Nat} (ha : a < UINT) (hb : b ≤ a) : usub a b = a - b := by
  simp only [usub, UINT] at *; omega

theorem u32_eq {a : Nat} (ha : a < UINT) : u32 a = a := by
  simp only [u32, UINT] at *; omega

/-- Memory after the old record of a line is removed by `memmove`. -/
theorem store_remove_mem {m : Mem} {pre post : List (Nat × List Nat)} {n idx : Nat}
    {b : List Nat} (hidx : idx = 1 + prog_size pre)
    (h : RecsAt true m 1 (pre ++ (n, b) :: post))
    (h0 : m (1 + prog_size (pre ++ (n, b) :: post)) = 0)
    (h1 : m (1 + prog_size (pre ++ (n, b) :: post) + 1) = 0) (m1 : Mem)
    (hm1 : m1 = memmove m idx (idx + 5 + b.length) (prog_size post + 2)) :
    RecsAt true m1 1 pre ∧ RecsAt false m1 idx post ∧ m1 (idx + prog_size post) = 0 ∧
      m1 (idx + prog_size post + 1) = 0 := by
  rw [RecsAt_append] at h
  obtain ⟨hpre, hrec⟩ := h
  simp only [RecsAt, if_true] at hrec
  have hpost := RecsAt_weaken _ _ hrec.2.2.2.2.2
  rw [← hidx] at hpost
  simp only [prog_size_append, prog_size] at h0 h1
  have hmv : ∀ k, k < prog_size post + 2 → m1 (idx + k) = m (idx + 5 + b.length + k) := by
    intro k hk
    have : idx ≤ idx + k ∧ idx + k < idx + (prog_size post + 2) := by omega
    rw [hm1]
    simp only [memmove, this, and_self, if_true]
    congr 1; omega
  refine ⟨?_, ?_, ?_, ?_⟩
  · rw [hm1]
    exact RecsAt_congr true pre 1 (fun x _ hx => memmove_other _ _ _ _ _ (Or.inl (by omega))) hpre
  · exact RecsAt_translate post _ _ (fun k hk => hmv k (by omega)) hpost
  · rw [hmv _ (by omega), ← h0]; congr 1; omega
  · rw [show idx + prog_size post + 1 = idx + (prog_size post + 1) by omega,
      hmv _ (by omega), ← h1]; congr 1; omega

/-- Memory after a new record is inserted at offset `idx`. -/
theorem store_insert_mem {m : Mem} {pre post : List (Nat × List Nat)} {n idx : Nat}
    {content : List Nat} (hn : n < 65536) (hc : ∀ c ∈ content, c ≠ 0 ∧ c < 256)
    (hidx : idx = 1 + prog_size pre)
    (hpre : RecsAt true m 1 pre) (hpost : RecsAt false m idx post)
    (h0 : m (idx + prog_size post) = 0) (h1 : m (idx + prog_size post + 1) = 0) (m5 : Mem)
    (hm5 : m5 = mem_write_list (mem_write (mem_write (mem_write
      (memmove m (idx + content.length + 5) idx (prog_size post + 2)) idx 0xff) (idx + 2)
      (n % 256)) (idx + 3) (n / 256)) (idx + 4) (content ++ [0])) :
    RecsAt true m5 1 pre ∧ RecsAt false m5 idx ((n, content) :: post) ∧
      m5 (idx + prog_size ((n, content) :: post)) = 0 ∧
      m5 (idx + prog_size ((n, content) :: post) + 1) = 0 := by
  have hlen : (content ++ [0]).length = content.length + 1 := by simp
  have hlow : ∀ x, x < idx → m5 x = m x := by
    intro x hx
    rw [hm5, mem_write_list_other _ _ _ _ (Or.inl (by omega)),
      mem_write_other _ _ _ _ (by omega), mem_write_other _ _ _ _ (by omega),
      mem_write_other _ _ _ _ (by omega), memmove_other _ _ _ _ _ (Or.inl (by omega))]
  have hhigh : ∀ k, k < prog_size post + 2 → m5 (idx + content.length + 5 + k) = m (idx + k) := by
    intro k hk
    rw [hm5, mem_write_list_other _ _ _ _ (Or.inr (by rw [hlen]; omega)),
      mem_write_other _ _ _ _ (by omega), mem_write_other _ _ _ _ (by omega),
      mem_write_other _ _ _ _ (by omega)]
    have : idx + content.length + 5 ≤ idx + content.length + 5 + k ∧
        idx + content.length + 5 + k < idx + content.length + 5 + (prog_size post + 2) := by
      omega
    simp only [memmove, this, and_self, if_true]
    congr 1; omega
  refine ⟨?_, ?_, ?_, ?_⟩
  · exact RecsAt_congr true pre 1 (fun x _ hx => hlow x (by omega)) hpre
  · simp only [RecsAt, Bool.false_eq_true, if_false]
    refine ⟨Or.inl ?_, ?_, ?_, hn, ?_, ?_⟩
    · rw [hm5, mem_write_list_other _ _ _ _ (Or.inl (by omega)),
        mem_write_other _ _ _ _ (by omega), mem_write_other _ _ _ _ (by omega), mem_write_same]
      decide
    · rw [hm5, mem_write_list_other _ _ _ _ (Or.inl (by omega)),
        mem_write_other _ _ _ _ (by omega), mem_write_same, Nat.mod_mod]
    · rw [hm5, mem_write_list_other _ _ _ _ (Or.inl (by omega)), mem_write_same]
      omega
    · rw [hm5]; exact mem_write_list_IsCStr content _ _ hc
    · refine RecsAt_translate post idx _ (fun k hk => ?_) hpost
      have := hhigh k (by omega)
      rw [← this]; congr 1; omega
  · simp only [prog_size]
    rw [show idx + (5 + content.length + prog_size post) =
      idx + content.length + 5 + prog_size post by omega, hhigh _ (by omega)]
    exact h0
  · simp only [prog_size]
    rw [show idx + (5 + content.length + prog_size post) + 1 =
      idx + content.length + 5 + (prog_size post + 1) by omega, hhigh _ (by omega)]
    rw [← h1]; congr 1

theorem lines_length_le_size : ∀ (recs : List (Nat × List Nat)), recs.length ≤ prog_size recs
  | [] => Nat.le_refl _
  | (_, b) :: rest => by
    have := lines_length_le_size rest
    simp only [List.length_cons, prog_size]; omega

/-- Second part of `store_line` on an arena whose records below `idx` are `pre`
and from `idx` on are `post`. -/
theorem store_line_insert_spec (fuel : Nat) (p : BASIC_MEM_MGR) (idx line : Nat)
    (content : List Nat) (pre post : List (Nat × List Nat))
    (hidx : idx = 1 + prog_size pre) (hpre : RecsAt true p.base 1 pre)
    (hpost : RecsAt false p.base idx post) (h0 : p.base (idx + prog_size post) = 0)
    (h1 : p.base (idx + prog_size post + 1) = 0)
    (hvars : p.vars_idx = idx + prog_size post + 2) (hord : ArenaOrdered p)
    (hline : line < 65536) (hc : ∀ c ∈ content, c ≠ 0 ∧ c < 256)
    (hlen : content.length + 5 < UINT) (hf : p.max_idx < fuel) :
    ∃ r s', store_line_insert fuel p idx line content = some (r, s') ∧
      s'.stktop_idx = p.stktop_idx ∧ s'.max_idx = p.max_idx ∧
      (r = true ↔ content = [] ∨ content.length + 5 ≤ p.stktop_idx - p.free_idx) ∧
      (r = false → s' = p) ∧
      (r = true → content = [] → s'.vars_idx = p.vars_idx ∧ s'.array_idx = p.array_idx ∧
        s'.free_idx = p.free_idx ∧
        (p.vars_idx < 65538 → RecsAt true s'.base 1 (pre ++ post)) ∧
        s'.base (1 + prog_size (pre ++ post)) = 0 ∧
        s'.base (1 + prog_size (pre ++ post) + 1) = 0) ∧
      (r = true → content ≠ [] → s'.vars_idx = p.vars_idx + (content.length + 5) ∧
        s'.array_idx = p.array_idx + (content.length + 5) ∧
        s'.free_idx = p.free_idx + (content.length + 5) ∧
        (p.vars_idx + (content.length + 5) < 65538 →
          RecsAt true s'.base 1 (pre ++ (line, content) :: post)) ∧
        s'.base (1 + prog_size (pre ++ (line, content) :: post)) = 0 ∧
        s'.base (1 + prog_size (pre ++ (line, content) :: post) + 1) = 0) := by
  obtain ⟨o1, o2, o3, o4, o5⟩ := hord
  by_cases hnil : content = []
  · subst hnil
    have hall : RecsAt false p.base 1 (pre ++ post) :=
      (RecsAt_append false pre post 1).2 ⟨RecsAt_weaken _ _ hpre, by rw [← hidx]; exact hpost⟩
    have hsz : 1 + prog_size (pre ++ post) = idx + prog_size post := by
      rw [prog_size_append]; omega
    obtain ⟨m', e1, e2, e3⟩ := rebuild_list_loop_spec (pre ++ post) p.base 1 fuel hall
      (by rw [hsz]; exact h0) (by rw [hsz]; exact h1) (by omega) (by omega)
    refine ⟨true, { p with base := m' }, ?_, rfl, rfl, by simp, by simp, ?_, by simp⟩
    · simp [store_line_insert, rebuild_list, e1]
    · intro _ _
      refine ⟨rfl, rfl, rfl, fun hb => e2 (by omega), ?_, ?_⟩
      · show m' _ = 0
        rw [e3 _ (Or.inr (by omega)), hsz]; exact h0
      · show m' _ = 0
        rw [e3 _ (Or.inr (by omega)), hsz]; exact h1
  · have hlen0 : content.length ≠ 0 := fun h => hnil (List.length_eq_zero.1 h)
    have hsub : usub p.stktop_idx p.free_idx = p.stktop_idx - p.free_idx :=
      usub_eq (by omega) o3
    have hu5 : u32 (content.length + 5) = content.length + 5 := u32_eq hlen
    by_cases hfit : content.length + 5 ≤ p.stktop_idx - p.free_idx
    · have hcs : basic_mem_check_space p (u32 (content.length + 5)) = true := by
        simp [basic_mem_check_space, hsub, hu5, hfit]
      have hmv : usub p.vars_idx idx = prog_size post + 2 := by
        rw [usub_eq (by omega) (by omega)]; omega
      obtain ⟨i1, i2, i3, i4⟩ := store_insert_mem (m := p.base) hline hc hidx hpre hpost h0 h1 _ rfl
      have hall := (RecsAt_append false pre ((line, content) :: post) 1).2
        ⟨RecsAt_weaken _ _ i1, by rw [← hidx]; exact i2⟩
      have hsz : 1 + prog_size (pre ++ (line, content) :: post) =
          idx + prog_size ((line, content) :: post) := by
        rw [prog_size_append]; omega
      have hsz' : prog_size ((line, content) :: post) = 5 + content.length + prog_size post := rfl
      obtain ⟨m', e1, e2, e3⟩ := rebuild_list_loop_spec _ _ 1 fuel hall
        (by rw [hsz]; exact i3) (by rw [hsz]; exact i4) (by omega) (by omega)
      refine ⟨true, BASIC_MEM_MGR.mk m' (p.vars_idx + (content.length + 5))
        (p.array_idx + (content.length + 5)) (p.free_idx + (content.length + 5))
        p.stktop_idx p.max_idx, ?_, rfl, rfl, by simp [hfit],
        by simp, fun _ h => absurd h hnil, ?_⟩
      · simp only [store_line_insert, ne_eq, hlen0, not_false_eq_true, if_true, hcs,
          Bool.true_eq_false, if_false, rebuild_list, hmv]
        rw [e1]
        simp only [u32_eq (show p.vars_idx + (content.length + 5) < UINT by omega),
          u32_eq (show p.array_idx + (content.length + 5) < UINT by omega),
          u32_eq (show p.free_idx + (content.length + 5) < UINT by omega)]
      · intro _ _
        refine ⟨rfl, rfl, rfl, fun hb => e2 (by omega), ?_, ?_⟩
        · show m' _ = 0
          rw [e3 _ (Or.inr (by omega)), hsz]; exact i3
        · show m' _ = 0
          rw [e3 _ (Or.inr (by omega)), hsz]; exact i4
    · have hcs : basic_mem_check_space p (u32 (content.length + 5)) = false := by
        simp [basic_mem_check_space, hsub, hu5]; omega
      refine ⟨false, p, ?_, rfl, rfl, by simp [hnil, hfit], fun _ => rfl, by simp, by simp⟩
      simp [store_line_insert, hlen0, hcs]

/-- Full effect of `prog_storage_store_line` on an arena whose program text is
the well-formed chain of the lines `recs`. -/
theorem store_line_spec (fuel : Nat) (s : BASIC_MEM_MGR) (line : Nat) (content : List Nat)
    (recs : List (Nat × List Nat)) (hwf : ProgWF s recs) (hord : ArenaOrdered s)
    (hline : line < 65536) (hc : ∀ c ∈ content, c ≠ 0 ∧ c < 256)
    (hlen : content.length + 5 < UINT) (hf : s.max_idx < fuel) :
    ∃ r s', prog_storage_store_line fuel s line content = some (r, s') ∧
      s'.stktop_idx = s.stktop_idx ∧ s'.max_idx = s.max_idx ∧
      prog_size (lines_remove line recs) ≤ prog_size recs ∧
      (r = true ↔ content = [] ∨ content.length + 5 ≤
        s.stktop_idx - s.free_idx + (prog_size recs - prog_size (lines_remove line recs))) ∧
      s'.vars_idx + (prog_size recs - prog_size (lines_remove line recs)) =
        s.vars_idx + (if r = true ∧ content ≠ [] then content.length + 5 else 0) ∧
      s'.array_idx + (prog_size recs - prog_size (lines_remove line recs)) =
        s.array_idx + (if r = true ∧ content ≠ [] then content.length + 5 else 0) ∧
      s'.free_idx + (prog_size recs - prog_size (lines_remove line recs)) =
        s.free_idx + (if r = true ∧ content ≠ [] then content.length + 5 else 0) ∧
      ArenaOrdered s' ∧
      (r = true → s.max_idx ≤ 65535 → ProgWF s' (lines_store line content recs)) := by
  obtain ⟨hrecs, hsorted, hz0, hz1, hvars⟩ := hwf
  obtain ⟨o1, o2, o3, o4, o5⟩ := hord
  obtain ⟨pre, post, htw, hpre, hpost, hcase⟩ := lines_split line recs hsorted
  have hfl := find_line_loop_spec (m := s.base) line recs 1 fuel hrecs hz0 hz1
    (by have := lines_length_le_size recs; omega)
  rw [htw] at hfl
  rcases hcase with ⟨hsplit, hdw⟩ | ⟨b, hsplit, hdw⟩
  · -- the line is not in the program
    rw [hdw] at hfl
    have hfl' : find_line_loop s.base line fuel 1 = some ⟨1 + prog_size pre, false⟩ := by
      rw [hfl]
      cases post with
      | nil => rfl
      | cons r rest =>
        have := hpost r (by simp)
        have hne : ¬ (r.1 = line) := by omega
        simp [hne]
    have hrm : lines_remove line recs = recs := by
      rw [hsplit]; exact (lines_remove_split line pre post hpre hpost).1
    have hsz : prog_size recs = prog_size pre + prog_size post := by
      rw [hsplit, prog_size_append]
    have hsp := hsplit ▸ hrecs
    rw [RecsAt_append] at hsp
    obtain ⟨r, s', e1, e2, e3, e4, e5, e6, e7⟩ := store_line_insert_spec fuel s
      (1 + prog_size pre) line content pre post rfl hsp.1 (RecsAt_weaken _ _ hsp.2)
      (by rw [← hz0, hsz]; congr 1; omega) (by rw [← hz1, hsz]; congr 1; omega)
      (by rw [hvars, hsz]; omega) ⟨o1, o2, o3, o4, o5⟩ hline hc hlen hf
    have hss := lines_sorted_parts (hsplit ▸ hsorted)
    refine ⟨r, s', ?_, e2, e3, by rw [hrm], ?_, ?_⟩
    · simp only [prog_storage_store_line, prog_storage_find_line, hfl', store_line_remove]
      exact e1
    · rw [hrm, Nat.sub_self, Nat.add_zero]; exact e4
    · rw [hrm, Nat.sub_self]
      simp only [Nat.add_zero]
      cases r with
      | false =>
        have := e5 rfl
        subst this
        simp only [Bool.false_eq_true, false_and, if_false, Nat.add_zero, true_and]
        exact ⟨⟨o1, o2, o3, o4, o5⟩, fun h => absurd h (by decide)⟩
      | true =>
        by_cases hnil : content = []
        · obtain ⟨a1, a2, a3, a4, a5, a6⟩ := e6 rfl hnil
          simp only [hnil, ne_eq, not_true_eq_false, and_false, if_false, Nat.add_zero]
          refine ⟨a1, a2, a3, ⟨by omega, by omega, by omega, by omega, by omega⟩, fun _ hb => ?_⟩
          simp only [lines_store, if_true]
          rw [hrm, hsplit]
          rw [← hsplit]
          exact ⟨hsplit ▸ a4 (by omega), hsorted, hsplit ▸ a5, hsplit ▸ a6, by rw [a1, hvars]⟩
        · obtain ⟨a1, a2, a3, a4, a5, a6⟩ := e7 rfl hnil
          have hfit := e4.1 rfl
          simp only [hnil, false_or] at hfit
          simp only [ne_eq, hnil, not_false_eq_true, and_self, if_true]
          refine ⟨a1, a2, a3, ⟨by omega, by omega, by omega, by omega, by omega⟩, fun _ hb => ?_⟩
          simp only [lines_store, if_neg hnil]
          rw [hrm, hsplit, lines_insert_split line content pre post hpre hpost]
          refine ⟨a4 (by omega), (lines_sorted_split hpre hpost hss.1 hss.2).2 content, a5, a6, ?_⟩
          rw [a1, hvars, hsz, prog_size_append]
          simp only [prog_size]; omega
  · -- the line is in the program: its record is removed first
    rw [hdw] at hfl
    simp only [decide_True] at hfl
    have hrm : lines_remove line recs = pre ++ post := by
      rw [hsplit]; exact (lines_remove_split line pre post hpre hpost).2 b
    have hsz : prog_size recs = prog_size pre + (5 + b.length + prog_size post) := by
      rw [hsplit, prog_size_append]; rfl
    have hszr : prog_size (lines_remove line recs) = prog_size pre + prog_size post := by
      rw [hrm, prog_size_append]
    have hsp := hsplit ▸ hrecs
    have hsp' := hsp
    rw [RecsAt_append] at hsp'
    have hrec := hsp'.2
    simp only [RecsAt, if_true] at hrec
    have hnxt : le16 (s.base (1 + prog_size pre)) (s.base (1 + prog_size pre + 1)) =
        1 + prog_size pre + 5 + b.length := by
      rw [hrec.1.1, hrec.1.2.1, le16_bytes]
    have hu1 : usub s.vars_idx (1 + prog_size pre + 5 + b.length) = prog_size post + 2 := by
      rw [usub_eq (by omega) (by omega)]; omega
    have hu2 : usub (1 + prog_size pre + 5 + b.length) (1 + prog_size pre) = 5 + b.length := by
      rw [usub_eq (by omega) (by omega)]; omega
    have hp1 : store_line_remove s ⟨1 + prog_size pre, true⟩ =
        BASIC_MEM_MGR.mk (memmove s.base (1 + prog_size pre) (1 + prog_size pre + 5 + b.length)
          (prog_size post + 2)) (s.vars_idx - (5 + b.length)) (s.array_idx - (5 + b.length))
          (s.free_idx - (5 + b.length)) s.stktop_idx s.max_idx := by
      simp only [store_line_remove, if_true, hnxt, hu1, hu2]
      rw [usub_eq (by omega) (by omega), usub_eq (by omega) (by omega),
        usub_eq (by omega) (by omega)]
    obtain ⟨i1, i2, i3, i4⟩ := store_remove_mem (m := s.base) rfl hsp (hsplit ▸ hz0)
      (hsplit ▸ hz1) _ rfl
    obtain ⟨p1, hp1eq⟩ : ∃ p1, p1 = store_line_remove s ⟨1 + prog_size pre, true⟩ := ⟨_, rfl⟩
    have q1 : p1.base = memmove s.base (1 + prog_size pre) (1 + prog_size pre + 5 + b.length)
        (prog_size post + 2) := by rw [hp1eq, hp1]
    have q2 : p1.vars_idx + (5 + b.length) = s.vars_idx := by
      rw [hp1eq, hp1]; show s.vars_idx - _ + _ = _; omega
    have q3 : p1.array_idx + (5 + b.length) = s.array_idx := by
      rw [hp1eq, hp1]; show s.array_idx - _ + _ = _; omega
    have q4 : p1.free_idx + (5 + b.length) = s.free_idx := by
      rw [hp1eq, hp1]; show s.free_idx - _ + _ = _; omega
    have q5 : p1.stktop_idx = s.stktop_idx := by rw [hp1eq, hp1]
    have q6 : p1.max_idx = s.max_idx := by rw [hp1eq, hp1]
    rw [← q1] at i1 i2 i3 i4
    clear hu1 hu2 hp1 hnxt hrec hsp hsp' q1
    obtain ⟨r, s', e1, e2, e3, e4, e5, e6, e7⟩ := store_line_insert_spec fuel p1
      (1 + prog_size pre) line content pre post rfl i1 i2 i3 i4 (by omega)
      ⟨by omega, by omega, by omega, by omega, by omega⟩ hline hc hlen (by omega)
    have hss := lines_sorted_parts (hsplit ▸ hsorted)
    have hsspost : LinesSorted post := (List.pairwise_cons.1 hss.2).2
    have hrmv : prog_size recs - prog_size (lines_remove line recs) = 5 + b.length := by
      rw [hsz, hszr]; omega
    refine ⟨r, s', ?_, e2.trans q5, e3.trans q6, by omega, ?_, ?_⟩
    · simp only [prog_storage_store_line, prog_storage_find_line, hfl]
      rw [← hp1eq]
      exact e1
    · rw [hrmv, e4]
      have : p1.stktop_idx - p1.free_idx =
          s.stktop_idx - s.free_idx + (5 + b.length) := by omega
      rw [this]
    · rw [hrmv]
      cases r with
      | false =>
        have := e5 rfl
        subst this
        simp only [Bool.false_eq_true, false_and, if_false, Nat.add_zero]
        exact ⟨by omega, by omega, by omega,
          ⟨by omega, by omega, by omega, by omega, by omega⟩,
          fun h => absurd h (by decide)⟩
      | true =>
        by_cases hnil : content = []
        · obtain ⟨a1, a2, a3, a4, a5, a6⟩ := e6 rfl hnil
          simp only [hnil, ne_eq, not_true_eq_false, and_false, if_false, Nat.add_zero]
          refine ⟨by omega, by omega, by omega,
            ⟨by omega, by omega, by omega, by omega, by omega⟩, fun _ hb => ?_⟩
          simp only [lines_store, if_true]
          rw [hrm]
          exact ⟨a4 (by omega), (lines_sorted_split hpre hpost hss.1 hsspost).1, a5, a6,
            by rw [a1, prog_size_append]; omega⟩
        · obtain ⟨a1, a2, a3, a4, a5, a6⟩ := e7 rfl hnil
          have hfit := e4.1 rfl
          simp only [hnil, false_or] at hfit
          simp only [ne_eq, hnil, not_false_eq_true, and_self, if_true]
          refine ⟨by omega, by omega, by omega,
            ⟨by omega, by omega, by omega, by omega, by omega⟩, fun _ hb => ?_⟩
          simp only [lines_store, if_neg hnil]
          rw [hrm, lines_insert_split line content pre post hpre hpost]
          refine ⟨a4 (by omega), (lines_sorted_split hpre hpost hss.1 hsspost).2 content,
            a5, a6, ?_⟩
          rw [a1, prog_size_append]
          simp only [prog_size]; omega

theorem prog_storage_initialize_wf (base : Mem) (max_size : Nat) (h3 : 3 ≤ max_size)
    (hm : max_size < UINT) :
    ProgWF ( prog_storage_initialize base max_size) [] ∧
      ArenaOrdered ( prog_storage_initialize base max_size) ∧
      ( prog_storage_initialize base max_size).max_idx = max_size := by
  refine ⟨⟨trivial, List.Pairwise.nil, ?_, ?_, rfl⟩, ⟨?_, ?_, ?_, ?_, ?_⟩, rfl⟩
  · show mem_write (mem_write (mem_write base 0 0) 1 0) 2 0 1 = 0
    rw [mem_write_other _ _ _ _ (by decide), mem_write_same]
  · show mem_write (mem_write (mem_write base 0 0) 1 0) 2 0 2 = 0
    rw [mem_write_same]
  · exact Nat.le_refl _
  · exact Nat.le_refl _
  · exact h3
  · exact Nat.le_refl _
  · exact hm

theorem mem_lines_remove {n : Nat} {recs : List (Nat × List Nat)} {x : Nat × List Nat} :
    x ∈ lines_remove n recs ↔ x ∈ recs ∧ x.1 ≠ n := by
  simp [lines_remove]

theorem mem_lines_insert {n : Nat} {body : List Nat} : ∀ {recs : List (Nat × List Nat)}
    {x : Nat × List Nat}, x ∈ lines_insert n body recs ↔ x = (n, body) ∨ x ∈ recs
  | [], x => by simp [lines_insert]
  | r :: rest, x => by
    simp only [lines_insert]
    split
    · simp
    · simp only [List.mem_cons, @mem_lines_insert _ _ rest _]
      tauto

theorem has_line_store (k n : Nat) (body : List Nat) (recs : List (Nat × List Nat)) :
    (∃ b, (k, b) ∈ lines_store n body recs) ↔
      if k = n then body ≠ [] else ∃ b, (k, b) ∈ recs := by
  by_cases hk : k = n
  · subst hk
    simp only [if_true, lines_store]
    by_cases hb : body = []
    · simp [hb, mem_lines_remove]
    · simp only [if_neg hb, mem_lines_insert, mem_lines_remove]
      simp [hb]
  · simp only [if_neg hk, lines_store]
    by_cases hb : body = []
    · simp [hb, mem_lines_remove, hk]
    · simp only [if_neg hb, mem_lines_insert, mem_lines_remove]
      simp [hk]

/-- On a well-formed program `prog_storage_find_line` returns, and reports a
line as found exactly when the program has a record with that number. -/
theorem find_line_found (fuel : Nat) (s : BASIC_MEM_MGR) (n : Nat)
    (recs : List (Nat × List Nat)) (hwf : ProgWF s recs) (hf : s.vars_idx ≤ fuel) :
    ∃ r, prog_storage_find_line fuel s n = some r ∧ (r.found = true ↔ ∃ b, (n, b) ∈ recs) := by
  obtain ⟨hrecs, hsorted, hz0, hz1, hvars⟩ := hwf
  obtain ⟨pre, post, htw, hpre, hpost, hcase⟩ := lines_split n recs hsorted
  have hfl := find_line_loop_spec (m := s.base) n recs 1 fuel hrecs hz0 hz1
    (by have := lines_length_le_size recs; omega)
  refine ⟨_, hfl, ?_⟩
  rcases hcase with ⟨hsplit, hdw⟩ | ⟨b, hsplit, hdw⟩
  · rw [hdw]
    have hno : ¬ ∃ b, (n, b) ∈ recs := by
      rintro ⟨b, hb⟩
      rw [hsplit] at hb
      rcases List.mem_append.1 hb with h | h
      · have := hpre _ h; simp at this
      · have := hpost _ h; simp at this
    cases post with
    | nil => simp [hno]
    | cons r rest =>
      have := hpost r (by simp)
      have hne : ¬ (r.1 = n) := by omega
      simp [hne, hno]
  · rw [hdw]
    have : ∃ b, (n, b) ∈ recs := ⟨b, by rw [hsplit]; simp⟩
    simp [this]

/-- A run of `store_line` calls from a well-formed program in an arena of at
most 65535 bytes terminates; when every call succeeded, the program is the
well-formed chain of the lines obtained by storing the calls in order. -/
theorem store_lines_spec (fuel : Nat) : ∀ (ops : List (Nat × List Nat)) (s : BASIC_MEM_MGR)
    (recs : List (Nat × List Nat)), ProgWF s recs → ArenaOrdered s → s.max_idx ≤ 65535 →
    s.max_idx < fuel → (∀ op ∈ ops, ValidStore op) →
    ∃ res, store_lines fuel s ops = some res ∧
      ∀ s', res = some s' → ∃ recs', ProgWF s' recs' ∧ ArenaOrdered s' ∧
        s'.max_idx = s.max_idx ∧
        ∀ k, (∃ b, (k, b) ∈ recs') ↔
          match last_body k ops with
          | some b => b ≠ []
          | none => ∃ b, (k, b) ∈ recs
  | [], s, recs, hwf, hord, _, _, _ =>
    ⟨some s, rfl, fun s' h => by
      cases h
      exact ⟨recs, hwf, hord, rfl, fun k => by simp [last_body]⟩⟩
  | (n, body) :: rest, s, recs, hwf, hord, hmax, hf, hops => by
    obtain ⟨v1, v2, v3⟩ := hops (n, body) (by simp)
    obtain ⟨r, s1, e1, e2, e3, _, _, _, _, _, e9, e10⟩ :=
      store_line_spec fuel s n body recs hwf hord v1 v2 v3 hf
    cases r with
    | false => exact ⟨none, by simp [store_lines, e1], fun s' h => by cases h⟩
    | true =>
      obtain ⟨res, i1, i2⟩ := store_lines_spec fuel rest s1 (lines_store n body recs)
        (e10 rfl hmax) e9 (by omega) (by omega) (fun op h => hops op (by simp [h]))
      refine ⟨res, by simp [store_lines, e1, i1], fun s' h => ?_⟩
      obtain ⟨recs', j1, j2, j3, j4⟩ := i2 s' h
      refine ⟨recs', j1, j2, by omega, fun k => ?_⟩
      rw [j4 k]
      simp only [last_body]
      cases hlb : last_body k rest with
      | some b => rfl
      | none =>
        simp only
        rw [has_line_store]
        by_cases hk : k = n
        · subst hk; simp
        · have : ¬ (n = k) := fun e => hk e.symm
          simp [hk, this]

/-! ## Program storage: the claims -/

/-- C4 as stated fails: in a 3-byte arena `store_line(10, "P")` returns false
(out of memory) and a following `find_line(10)` does not find the line, although
the last call with that number had a non-empty body. -/
theorem C4_counterexample :
    (match prog_storage_store_line 5 ( prog_storage_initialize (fun _ => 0) 3) 10 [80] with
      | some (r, s) => some (r, prog_storage_find_line 5 s 10)
      | none => none) = some (false, some ⟨1, false⟩) ∧
    last_body 10 [(10, [80])] = some [80] := by
  decide!

/-- C4 (amended): a sequence of `prog_storage_store_line` calls from the empty
program in an arena of at most 65535 bytes terminates, and when all the calls
return success, a following `prog_storage_find_line(n)` has `found = true` if
and only if the last call of the sequence with line number `n` had a non-empty
body. -/
theorem C4_find_after_stores (fuel : Nat) (base : Mem) (max_size : Nat)
    (ops : List (Nat × List Nat)) (n : Nat) (h3 : 3 ≤ max_size) (hmax : max_size ≤ 65535)
    (hf : max_size < fuel) (hops : ∀ op ∈ ops, ValidStore op) :
    ∃ res, store_lines fuel ( prog_storage_initialize base max_size) ops = some res ∧
      ∀ s', res = some s' → ∃ r, prog_storage_find_line fuel s' n = some r ∧
        (r.found = true ↔ ∃ b, last_body n ops = some b ∧ b ≠ []) := by
  obtain ⟨w1, w2, w3⟩ := prog_storage_initialize_wf base max_size h3
    (by simp only [UINT]; omega)
  obtain ⟨res, e1, e2⟩ := store_lines_spec fuel ops _ [] w1 w2 (by rw [w3]; exact hmax)
    (by rw [w3]; exact hf) hops
  refine ⟨res, e1, fun s' hs => ?_⟩
  obtain ⟨recs', j1, j2, j3, j4⟩ := e2 s' hs
  obtain ⟨r, f1, f2⟩ := find_line_found fuel s' n recs' j1
    (by obtain ⟨o1, o2, o3, o4, _⟩ := j2; rw [w3] at j3; omega)
  refine ⟨r, f1, ?_⟩
  rw [f2, j4 n]
  cases last_body n ops with
  | some b => simp
  | none => simp

/-- Witness of C4 (amended): `10 A`, `20 B`, then line 10 deleted, in a 20-byte
arena; line 10 is looked up. -/
theorem C4_find_after_stores_witness :
    ∃ res, store_lines 30 ( prog_storage_initialize (fun _ => 0) 20)
        [(10, [65]), (20, [66]), (10, [])] = some res ∧
      ∀ s', res = some s' → ∃ r, prog_storage_find_line 30 s' 10 = some r ∧
        (r.found = true ↔ ∃ b, last_body 10 [(10, [65]), (20, [66]), (10, [])] = some b ∧
          b ≠ []) :=
  C4_find_after_stores 30 (fun _ => 0) 20 [(10, [65]), (20, [66]), (10, [])] 10
    (by decide) (by decide) (by decide) (by decide)

/-- C5, the failing run: after `10 A`, `20 B` the call `store_line(10, "AAAAAAA")`
returns false in a 20-byte arena with `vars_idx = array_idx = free_idx = 9`;
the record of line 20 now stands at offset 1 with body `B` ending at offset 6,
but its `next_off` field still holds 13, not 7. -/
theorem C5_oom_leaves_stale_next_off :
    (match oom_replace_session with
      | some (r, s) => some (r, [s.vars_idx, s.array_idx, s.free_idx, s.stktop_idx,
          le16 (s.base 1) (s.base 2), le16 (s.base 3) (s.base 4)], mem_read_list s.base 5 4)
      | none => none) = some (false, [9, 9, 9, 20, 13, 20], [66, 0, 0, 0]) := by
  decide!

/-! ## Numeric parsers -/

theorem count_spaces_le : ∀ (l : List Nat), count_spaces l ≤ l.length
  | [] => Nat.le_refl _
  | c :: r => by
    by_cases h : c = 32
    · subst h
      have := count_spaces_le r
      simp only [count_spaces, List.length_cons]; omega
    · have : count_spaces (c :: r) = 0 := by
        unfold count_spaces
        split
        · rename_i heq
          simp only [List.cons.injEq] at heq
          exact absurd heq.1 h
        · rfl
      rw [this]; exact Nat.zero_le _

theorem count_spaces_cons_ne {c : Nat} (r : List Nat) (h : c ≠ 32) :
    count_spaces (c :: r) = 0 := by
  unfold count_spaces
  split
  · rename_i heq
    simp only [List.cons.injEq] at heq
    exact absurd heq.1 h
  · rfl

/-- `basic_parsing_skipws` moves the pointer past the spaces at the start of
the string. -/
theorem skipws_spec {m : Mem} : ∀ (fuel : Nat) (l : List Nat) (p : Nat), IsCStr m p l →
    count_spaces l < fuel → basic_parsing_skipws m fuel p = some (p + count_spaces l)
  | 0, _, _, _, hf => by omega
  | fuel + 1, [], p, h, _ => by
    simp only [IsCStr] at h
    simp [basic_parsing_skipws, h, count_spaces]
  | fuel + 1, c :: r, p, h, hf => by
    simp only [IsCStr] at h
    by_cases hc : c = 32
    · subst hc
      simp only [count_spaces] at hf ⊢
      have ih := skipws_spec fuel r (p + 1) h.2.2.2 (by omega)
      simp only [basic_parsing_skipws, h.1, if_true, ih]
      congr 1; omega
    · rw [count_spaces_cons_ne r hc]
      simp [basic_parsing_skipws, h.1, hc]

theorem drop_count_spaces_head : ∀ (l : List Nat),
    (l.drop (count_spaces l)).head? ≠ some 32
  | [] => by simp
  | c :: r => by
    by_cases hc : c = 32
    · subst hc
      simp only [count_spaces, List.drop_succ_cons]
      exact drop_count_spaces_head r
    · rw [count_spaces_cons_ne r hc]
      simp [hc]

theorem uint16_scan_spaces : ∀ (l : List Nat),
    uint16_scan l = ((uint16_scan (l.drop (count_spaces l))).1,
      (uint16_scan (l.drop (count_spaces l))).2 + count_spaces l)
  | [] => by simp [uint16_scan, count_spaces]
  | c :: r => by
    by_cases hc : c = 32
    · subst hc
      have ih := uint16_scan_spaces r
      simp only [count_spaces, List.drop_succ_cons]
      rw [show uint16_scan (32 :: r) = ((uint16_scan r).1, (uint16_scan r).2 + 1) by
        simp [uint16_scan]]
      rw [ih]
      rfl
    · rw [count_spaces_cons_ne r hc]; simp

theorem decimal_value_mono (acc : Nat) : ∀ (ds : List Nat) (a : Nat), a ≤ acc →
    decimal_value a ds ≤ decimal_value acc ds
  | [], a, h => h
  | d :: ds, a, h => by
    simp only [decimal_value, List.foldl_cons]
    exact decimal_value_mono (10 * acc + d) ds (10 * a + d) (by omega)

theorem decimal_value_ge (acc : Nat) : ∀ (ds : List Nat), acc ≤ decimal_value acc ds
  | [] => Nat.le_refl _
  | d :: ds => by
    simp only [decimal_value, List.foldl_cons]
    have := decimal_value_ge (10 * acc + d) ds
    simp only [decimal_value] at this
    omega

/-- The loop of `basic_parsing_uint16` from an accumulated value `result`. -/
theorem uint16_loop_spec {m : Mem} : ∀ (fuel : Nat) (l : List Nat) (p result : Nat)
    (r : BASIC_ERROR_ID), IsCStr m p l → l.length + 1 < fuel → result ≤ 65535 →
    r ≠ .SYNTAX →
    ∃ q, uint16_loop m fuel p result r = some q ∧
      (q.1 = .SYNTAX ↔ decimal_value result (uint16_scan l).1 ≥ 65536) ∧
      (q.1 ≠ .SYNTAX → q.1 = (if (uint16_scan l).1 = [] then r else .OK) ∧
        q.2.1 = p + (uint16_scan l).2 ∧ q.2.2 = decimal_value result (uint16_scan l).1)
  | 0, _, _, _, _, _, hf, _, _ => by omega
  | fuel + 1, l, p, result, r, h, hf, hres, hr => by
    have hsk := skipws_spec fuel l p h (by have := count_spaces_le l; omega)
    have hd := IsCStr_drop (count_spaces l) l p (count_spaces_le l) h
    have hhead := drop_count_spaces_head l
    rw [uint16_scan_spaces l]
    simp only [uint16_loop, hsk]
    cases hl : l.drop (count_spaces l) with
    | nil =>
      rw [hl] at hd
      simp only [IsCStr] at hd
      have hnd : IS_DIGIT (m (p + count_spaces l)) = false := by rw [hd]; decide
      simp only [hnd, Bool.false_eq_true, if_false, uint16_scan, decimal_value, List.foldl_nil]
      exact ⟨_, rfl, ⟨fun h => absurd h hr, fun h => by omega⟩, fun _ => ⟨by simp, by simp, rfl⟩⟩
    | cons c rest =>
      rw [hl] at hd hhead
      simp only [IsCStr] at hd
      have hc32 : c ≠ 32 := by simpa using hhead
      by_cases hdig : IS_DIGIT c = true
      · have hc : 48 ≤ c ∧ c ≤ 57 := by simpa [IS_DIGIT] using hdig
        have hscan : uint16_scan (c :: rest) =
            ((c - 48) :: (uint16_scan rest).1, (uint16_scan rest).2 + 1) := by
          simp [uint16_scan, hc32, hdig]
        have hlen : rest.length + count_spaces l + 1 = l.length := by
          have := congrArg List.length hl
          simp only [List.length_drop, List.length_cons] at this
          have := count_spaces_le l
          omega
        rw [hd.1, hscan]
        simp only [hdig, if_true, decimal_value, List.foldl_cons]
        by_cases h1 : result ≥ 10000
        · refine ⟨(.SYNTAX, p + count_spaces l, result), by simp only [if_pos h1],
            ⟨fun _ => ?_, fun _ => rfl⟩, fun h => absurd rfl h⟩
          have := decimal_value_ge (10 * result + (c - 48)) (uint16_scan rest).1
          simp only [decimal_value] at this
          omega
        · by_cases h2 : 65535 - (c - 48) < result * 10
          · refine ⟨(.SYNTAX, p + count_spaces l, result),
              by simp only [if_neg h1, if_pos h2], ⟨fun _ => ?_, fun _ => rfl⟩,
              fun h => absurd rfl h⟩
            have := decimal_value_ge (10 * result + (c - 48)) (uint16_scan rest).1
            simp only [decimal_value] at this
            omega
          · obtain ⟨q, e1, e2, e3⟩ := uint16_loop_spec fuel rest (p + count_spaces l + 1)
              (result * 10 + (c - 48)) .OK hd.2.2.2 (by omega) (by omega) (by decide)
            refine ⟨q, by simp only [if_neg h1, if_neg h2]; exact e1, ?_, ?_⟩
            · rw [e2, decimal_value, Nat.mul_comm result 10]
            · intro hq
              obtain ⟨a1, a2, a3⟩ := e3 hq
              refine ⟨?_, ?_, ?_⟩
              · rw [a1]; simp
              · rw [a2]; omega
              · rw [a3, decimal_value, Nat.mul_comm result 10]
      · have hdig' : IS_DIGIT c = false := by simpa using hdig
        have hscan : uint16_scan (c :: rest) = ([], 0) := by
          simp [uint16_scan, hc32, hdig']
        rw [hd.1, hscan]
        simp only [hdig', Bool.false_eq_true, if_false, decimal_value, List.foldl_nil]
        exact ⟨_, rfl, ⟨fun h => absurd h hr, fun h => by omega⟩,
          fun _ => ⟨by simp, by simp, rfl⟩⟩

/-- `basic_parsing_uint16` on a NUL-terminated string, in terms of the digits
scanned by `uint16_scan`. -/
theorem basic_parsing_uint16_spec (fuel : Nat) (m : Mem) (p out : Nat) (l : List Nat) (h : IsCStr m p l)
    (hf : l.length + 1 < fuel) :
    basic_parsing_uint16 fuel m p out = some
      (if (uint16_scan l).1 = [] then (.NOT_FOUND, p, out)
       else if decimal_value 0 (uint16_scan l).1 ≥ 65536 then (.SYNTAX, p, out)
       else (.OK, p + (uint16_scan l).2, decimal_value 0 (uint16_scan l).1)) := by
  obtain ⟨⟨r, q, v⟩, e1, e2, e3⟩ := uint16_loop_spec fuel l p 0 .NOT_FOUND h hf (by omega)
    (by decide)
  simp only at e2 e3
  simp only [basic_parsing_uint16, e1]
  by_cases hs : r = .SYNTAX
  · have hge := e2.1 hs
    have hne : (uint16_scan l).1 ≠ [] := by
      intro h0
      rw [h0] at hge
      simp [decimal_value] at hge
    subst hs
    simp [hne, hge]
  · obtain ⟨a1, a2, a3⟩ := e3 hs
    have hlt : ¬ decimal_value 0 (uint16_scan l).1 ≥ 65536 := fun h => hs (e2.2 h)
    by_cases h0 : (uint16_scan l).1 = []
    · rw [if_pos h0] at a1
      subst a1
      simp [h0]
    · rw [if_neg h0] at a1
      subst a1
      simp only [if_true, if_neg h0, if_neg hlt, a2, a3]

/-- C11: on every NUL-terminated string `basic_parsing_uint16` returns
NOT_FOUND when it meets no digit, SYNTAX when the decimal number formed by the
digits it would read is 65536 or more, and otherwise OK with `out` equal to
that number and the cursor moved past the digits and the spaces that follow
them; on NOT_FOUND and SYNTAX the cursor and `out` are unchanged. -/
theorem C11_uint16 (fuel : Nat) (m : Mem) (p out : Nat) (l : List Nat) (h : IsCStr m p l)
    (hf : l.length + 1 < fuel) :
    basic_parsing_uint16 fuel m p out = some
      (if (uint16_scan l).1 = [] then (.NOT_FOUND, p, out)
       else if decimal_value 0 (uint16_scan l).1 ≥ 65536 then (.SYNTAX, p, out)
       else (.OK, p + (uint16_scan l).2, decimal_value 0 (uint16_scan l).1)) :=
  basic_parsing_uint16_spec fuel m p out l h hf

/-- Witness of C11 on the string `1 0FOR` (test `LIST` of the source). -/
theorem C11_uint16_witness :
    IsCStr (mem_of_string 4 [49, 32, 48, 70, 79, 82]) 4 [49, 32, 48, 70, 79, 82] ∧
    basic_parsing_uint16 9 (mem_of_string 4 [49, 32, 48, 70, 79, 82]) 4 7 = some
      (if (uint16_scan [49, 32, 48, 70, 79, 82]).1 = [] then (.NOT_FOUND, 4, 7)
       else if decimal_value 0 (uint16_scan [49, 32, 48, 70, 79, 82]).1 ≥ 65536 then
        (.SYNTAX, 4, 7)
       else (.OK, 4 + (uint16_scan [49, 32, 48, 70, 79, 82]).2,
        decimal_value 0 (uint16_scan [49, 32, 48, 70, 79, 82]).1)) :=
  ⟨by decide, C11_uint16 9 _ 4 7 _ (by decide) (by decide)⟩

/-! ## Variable storage -/

theorem scalar_names_congr {m m' : Mem} : ∀ (n a : Nat),
    (∀ x, a ≤ x → x < a + 6 * n → m' x = m x) → scalar_names m' a n = scalar_names m a n
  | 0, _, _ => rfl
  | n + 1, a, h => by
    simp only [scalar_names]
    rw [h a (by omega) (by omega), h (a + 1) (by omega) (by omega),
      scalar_names_congr n (a + 6) (fun x h1 h2 => h x (by omega) (by omega))]

theorem scalar_names_succ (m : Mem) : ∀ (n a : Nat),
    scalar_names m a (n + 1) =
      scalar_names m a n ++ [le16 (m (a + 6 * n)) (m (a + 6 * n + 1))]
  | 0, a => by simp [scalar_names]
  | n + 1, a => by
    have ih := scalar_names_succ m n (a + 6)
    rw [scalar_names, ih, scalar_names, List.cons_append]
    rw [show a + 6 + 6 * n = a + 6 * (n + 1) by omega]

/-- The loop of `lookup_var` over `n` records finds the first record named
`var`, whatever iterations are left over. -/
theorem lookup_var_loop_spec (pb : Mem) (var : Nat) : ∀ (n fuel idx array_idx : Nat),
    array_idx = idx + 6 * n → n < fuel →
    lookup_var_loop pb array_idx var fuel idx =
      if var ∈ scalar_names pb idx n then
        some (idx + 6 * (scalar_names pb idx n).indexOf var + 2)
      else none
  | _, 0, _, _, _, hf => by omega
  | 0, fuel + 1, idx, array_idx, ha, _ => by
    have : ¬ idx < array_idx := by omega
    simp [lookup_var_loop, this, scalar_names]
  | n + 1, fuel + 1, idx, array_idx, ha, hf => by
    have hlt : idx < array_idx := by omega
    simp only [lookup_var_loop, hlt, if_true, scalar_names, sizeof_VARIABLE_ENTRY]
    by_cases hv : var = le16 (pb idx) (pb (idx + 1))
    · rw [if_pos hv]
      simp [← hv]
    · rw [if_neg hv, lookup_var_loop_spec pb var n fuel (idx + 6) array_idx (by omega) (by omega)]
      have hv' : ¬ le16 (pb idx) (pb (idx + 1)) = var := fun h => hv h.symm
      by_cases hm : var ∈ scalar_names pb (idx + 6) n
      · simp only [hm, if_true, List.mem_cons, or_true, List.indexOf_cons_ne _ hv']
        congr 1
        omega
      · simp [hm, hv]

theorem lookup_var_spec (s : BASIC_MEM_MGR) (var : Nat) (h : s.vars_idx ≤ s.array_idx)
    (h6 : (s.array_idx - s.vars_idx) % 6 = 0) :
    lookup_var s var =
      if var ∈ scalar_region s then
        some (s.vars_idx + 6 * (scalar_region s).indexOf var + 2)
      else none := by
  have hdiv := Nat.div_add_mod (s.array_idx - s.vars_idx) 6
  exact lookup_var_loop_spec s.base var ((s.array_idx - s.vars_idx) / 6) _ _ _
    (by omega) (by omega)

/-- Memory after `variable_storage_create_var` makes a new record. -/
theorem create_var_mem (m : Mem) (array_idx free_idx var : Nat) (h : array_idx ≤ free_idx)
    (hf : free_idx < UINT) (hv : var < 65536) :
    mem_read_list (memset0 (mem_write16 (if array_idx ≠ free_idx then
        memmove m (array_idx + 6) array_idx (usub free_idx array_idx) else m) array_idx var)
        (array_idx + 2) 4) array_idx 6 = [var % 256, var / 256, 0, 0, 0, 0] ∧
    (∀ a, a < array_idx → memset0 (mem_write16 (if array_idx ≠ free_idx then
        memmove m (array_idx + 6) array_idx (usub free_idx array_idx) else m) array_idx var)
        (array_idx + 2) 4 a = m a) ∧
    (∀ a, array_idx ≤ a → a < free_idx → memset0 (mem_write16 (if array_idx ≠ free_idx then
        memmove m (array_idx + 6) array_idx (usub free_idx array_idx) else m) array_idx var)
        (array_idx + 2) 4 (a + 6) = m a) ∧
    (∀ a, free_idx + 6 ≤ a → memset0 (mem_write16 (if array_idx ≠ free_idx then
        memmove m (array_idx + 6) array_idx (usub free_idx array_idx) else m) array_idx var)
        (array_idx + 2) 4 a = m a) := by
  rw [usub_eq hf h]
  refine ⟨?_, ?_, ?_, ?_⟩
  · have h256 : var / 256 % 256 = var / 256 := by omega
    have h1 : var % 256 % 256 = var % 256 := by omega
    simp [mem_read_list, memset0, mem_write16, mem_write, h256]
  · intro a ha
    have h1 : ¬ (array_idx + 2 ≤ a ∧ a < array_idx + 2 + 4) := by omega
    have h2 : a ≠ array_idx + 1 := by omega
    have h3 : a ≠ array_idx := by omega
    simp only [memset0, h1, if_false, mem_write16, mem_write, h2, h3]
    split
    · exact memmove_other _ _ _ _ _ (by omega)
    · rfl
  · intro a ha hb
    have h1 : ¬ (array_idx + 2 ≤ a + 6 ∧ a + 6 < array_idx + 2 + 4) := by omega
    have h2 : a + 6 ≠ array_idx + 1 := by omega
    have h3 : a + 6 ≠ array_idx := by omega
    have h4 : array_idx ≠ free_idx := by omega
    have h5 : array_idx + 6 ≤ a + 6 ∧ a + 6 < array_idx + 6 + (free_idx - array_idx) := by omega
    simp only [memset0, h1, if_false, mem_write16, mem_write, h2, h3, h4, ne_eq,
      not_false_eq_true, if_true, memmove, h5, and_self]
    congr 1
    omega
  · intro a ha
    have h1 : ¬ (array_idx + 2 ≤ a ∧ a < array_idx + 2 + 4) := by omega
    have h2 : a ≠ array_idx + 1 := by omega
    have h3 : a ≠ array_idx := by omega
    simp only [memset0, h1, if_false, mem_write16, mem_write, h2, h3]
    split
    · exact memmove_other _ _ _ _ _ (by omega)
    · rfl

theorem create_var_absent (s : BASIC_MEM_MGR) (var : Nat) (ho : ArenaOrdered s)
    (h6 : (s.array_idx - s.vars_idx) % 6 = 0) (hn : var ∉ scalar_region s) :
    variable_storage_create_var s var =
      if s.stktop_idx - s.free_idx < 6 then (none, s)
      else (some (s.array_idx + 2),
        { s with
          base := memset0 (mem_write16 (if s.array_idx ≠ s.free_idx then
            memmove s.base (s.array_idx + 6) s.array_idx (usub s.free_idx s.array_idx)
            else s.base) s.array_idx var) (s.array_idx + 2) 4
          array_idx := s.array_idx + 6
          free_idx := s.free_idx + 6 }) := by
  obtain ⟨h1, h2, h3, h4, h5⟩ := ho
  have hl := lookup_var_spec s var h1 h6
  rw [if_neg hn] at hl
  have hu : usub s.stktop_idx s.free_idx = s.stktop_idx - s.free_idx :=
    usub_eq (by omega) h3
  simp only [variable_storage_create_var, hl, basic_mem_check_space, hu, sizeof_VARIABLE_ENTRY,
    sizeof_VARIABLE_VALUE, decide_eq_false_iff_not, Nat.not_le]
  by_cases hs : s.stktop_idx - s.free_idx < 6
  · simp only [if_pos hs]
  · simp only [if_neg hs]
    rw [u32_eq (by omega), u32_eq (by omega)]

/-- C19: `variable_storage_create_var(name)` returns the slot of the scalar
`name` and changes nothing when the scalar exists; otherwise, when at least 6
bytes are free, it writes the record of `name` with value 0.0 at the old
`array_idx` (moving the arrays up by 6 bytes), advances `array_idx` and
`free_idx` by 6 and returns the new slot; otherwise it returns the null pointer
and changes nothing.  The scalar names stay free of repetitions. -/
theorem C19_create_var (s : BASIC_MEM_MGR) (var : Nat) (ho : ArenaOrdered s)
    (h6 : (s.array_idx - s.vars_idx) % 6 = 0) (hv : var < 65536) :
    (var ∈ scalar_region s →
      variable_storage_create_var s var =
        (some (s.vars_idx + 6 * (scalar_region s).indexOf var + 2), s)) ∧
    (var ∉ scalar_region s → 6 ≤ s.stktop_idx - s.free_idx →
      (variable_storage_create_var s var).1 = some (s.array_idx + 2) ∧
      (variable_storage_create_var s var).2.vars_idx = s.vars_idx ∧
      (variable_storage_create_var s var).2.array_idx = s.array_idx + 6 ∧
      (variable_storage_create_var s var).2.free_idx = s.free_idx + 6 ∧
      (variable_storage_create_var s var).2.stktop_idx = s.stktop_idx ∧
      (variable_storage_create_var s var).2.max_idx = s.max_idx ∧
      mem_read_list (variable_storage_create_var s var).2.base s.array_idx 6 =
        [var % 256, var / 256, 0, 0, 0, 0] ∧
      (∀ a, a < s.array_idx → (variable_storage_create_var s var).2.base a = s.base a) ∧
      (∀ a, s.array_idx ≤ a → a < s.free_idx →
        (variable_storage_create_var s var).2.base (a + 6) = s.base a) ∧
      (∀ a, s.free_idx + 6 ≤ a → (variable_storage_create_var s var).2.base a = s.base a) ∧
      scalar_region (variable_storage_create_var s var).2 = scalar_region s ++ [var]) ∧
    (var ∉ scalar_region s → s.stktop_idx - s.free_idx < 6 →
      variable_storage_create_var s var = (none, s)) ∧
    ((scalar_region s).Nodup →
      (scalar_region (variable_storage_create_var s var).2).Nodup) := by
  have hfound : var ∈ scalar_region s → variable_storage_create_var s var =
      (some (s.vars_idx + 6 * (scalar_region s).indexOf var + 2), s) := by
    intro hm
    have hl := lookup_var_spec s var ho.1 h6
    rw [if_pos hm] at hl
    simp only [variable_storage_create_var, hl]
  have hnew : var ∉ scalar_region s → 6 ≤ s.stktop_idx - s.free_idx →
      (variable_storage_create_var s var).1 = some (s.array_idx + 2) ∧
      (variable_storage_create_var s var).2.vars_idx = s.vars_idx ∧
      (variable_storage_create_var s var).2.array_idx = s.array_idx + 6 ∧
      (variable_storage_create_var s var).2.free_idx = s.free_idx + 6 ∧
      (variable_storage_create_var s var).2.stktop_idx = s.stktop_idx ∧
      (variable_storage_create_var s var).2.max_idx = s.max_idx ∧
      mem_read_list (variable_storage_create_var s var).2.base s.array_idx 6 =
        [var % 256, var / 256, 0, 0, 0, 0] ∧
      (∀ a, a < s.array_idx → (variable_storage_create_var s var).2.base a = s.base a) ∧
      (∀ a, s.array_idx ≤ a → a < s.free_idx →
        (variable_storage_create_var s var).2.base (a + 6) = s.base a) ∧
      (∀ a, s.free_idx + 6 ≤ a → (variable_storage_create_var s var).2.base a = s.base a) ∧
      scalar_region (variable_storage_create_var s var).2 = scalar_region s ++ [var] := by
    intro hn hs
    have hc := create_var_absent s var ho h6 hn
    rw [if_neg (by omega)] at hc
    obtain ⟨h1, h2, h3, h4, h5⟩ := ho
    obtain ⟨m1, m2, m3, m4⟩ := create_var_mem s.base s.array_idx s.free_idx var h2
      (by omega) hv
    rw [hc]
    refine ⟨rfl, rfl, rfl, rfl, rfl, rfl, m1, m2, m3, m4, ?_⟩
    have hdiv := Nat.div_add_mod (s.array_idx - s.vars_idx) 6
    have hn1 : (s.array_idx + 6 - s.vars_idx) / 6 = (s.array_idx - s.vars_idx) / 6 + 1 := by
      omega
    simp only [scalar_region, sizeof_VARIABLE_ENTRY, hn1]
    rw [scalar_names_succ, scalar_names_congr _ _ (fun x hx1 hx2 => m2 x (by omega))]
    have e0 : s.vars_idx + 6 * ((s.array_idx - s.vars_idx) / 6) = s.array_idx := by omega
    simp only [mem_read_list, List.cons.injEq] at m1
    rw [e0, m1.1, m1.2.1, le16]
    congr 2
    omega
  refine ⟨hfound, hnew, ?_, ?_⟩
  · intro hn hs
    rw [create_var_absent s var ho h6 hn, if_pos hs]
  · intro hd
    by_cases hm : var ∈ scalar_region s
    · rw [hfound hm]; exact hd
    · by_cases hs : s.stktop_idx - s.free_idx < 6
      · rw [create_var_absent s var ho h6 hm, if_pos hs]; exact hd
      · rw [(hnew hm (by omega)).2.2.2.2.2.2.2.2.2.2]
        exact List.Nodup.append hd (List.nodup_singleton _) (by simpa using hm)

/-- Witness of C19: creating the scalar `B` in `one_var_arena`. -/
theorem C19_create_var_witness :
    (ArenaOrdered one_var_arena ∧ 66 ∉ scalar_region one_var_arena ∧
      6 ≤ one_var_arena.stktop_idx - one_var_arena.free_idx) ∧
    (66 ∈ scalar_region one_var_arena →
      variable_storage_create_var one_var_arena 66 =
        (some (one_var_arena.vars_idx + 6 * (scalar_region one_var_arena).indexOf 66 + 2),
          one_var_arena)) ∧
    (66 ∉ scalar_region one_var_arena →
        6 ≤ one_var_arena.stktop_idx - one_var_arena.free_idx →
      (variable_storage_create_var one_var_arena 66).1 = some (one_var_arena.array_idx + 2) ∧
      (variable_storage_create_var one_var_arena 66).2.vars_idx = one_var_arena.vars_idx ∧
      (variable_storage_create_var one_var_arena 66).2.array_idx =
        one_var_arena.array_idx + 6 ∧
      (variable_storage_create_var one_var_arena 66).2.free_idx =
        one_var_arena.free_idx + 6 ∧
      (variable_storage_create_var one_var_arena 66).2.stktop_idx =
        one_var_arena.stktop_idx ∧
      (variable_storage_create_var one_var_arena 66).2.max_idx = one_var_arena.max_idx ∧
      mem_read_list (variable_storage_create_var one_var_arena 66).2.base
        one_var_arena.array_idx 6 = [66 % 256, 66 / 256, 0, 0, 0, 0] ∧
      (∀ a, a < one_var_arena.array_idx →
        (variable_storage_create_var one_var_arena 66).2.base a = one_var_arena.base a) ∧
      (∀ a, one_var_arena.array_idx ≤ a → a < one_var_arena.free_idx →
        (variable_storage_create_var one_var_arena 66).2.base (a + 6) =
          one_var_arena.base a) ∧
      (∀ a, one_var_arena.free_idx + 6 ≤ a →
        (variable_storage_create_var one_var_arena 66).2.base a = one_var_arena.base a) ∧
      scalar_region (variable_storage_create_var one_var_arena 66).2 =
        scalar_region one_var_arena ++ [66]) ∧
    (66 ∉ scalar_region one_var_arena →
        one_var_arena.stktop_idx - one_var_arena.free_idx < 6 →
      variable_storage_create_var one_var_arena 66 = (none, one_var_arena)) ∧
    ((scalar_region one_var_arena).Nodup →
      (scalar_region (variable_storage_create_var one_var_arena 66).2).Nodup) :=
  ⟨by decide, C19_create_var one_var_arena 66 (by decide) (by decide) (by decide)⟩

/-! ## FOR/GOSUB stack -/

theorem mem_read_f32_congr {m m' : Mem} (a : Nat)
    (h : ∀ x, a ≤ x → x < a + 4 → m' x = m x) : mem_read_f32 m' a = mem_read_f32 m a := by
  simp only [mem_read_f32, h a (by omega) (by omega), h (a + 1) (by omega) (by omega),
    h (a + 2) (by omega) (by omega), h (a + 3) (by omega) (by omega)]

theorem mem_read_gosub_congr {m m' : Mem} (a : Nat)
    (h : ∀ x, a ≤ x → x < a + 4 → m' x = m x) : mem_read_gosub m' a = mem_read_gosub m a := by
  simp only [mem_read_gosub, h a (by omega) (by omega), h (a + 1) (by omega) (by omega),
    h (a + 2) (by omega) (by omega), h (a + 3) (by omega) (by omega)]

theorem mem_read_for_congr {m m' : Mem} (a : Nat)
    (h : ∀ x, a ≤ x → x < a + 16 → m' x = m x) : mem_read_for m' a = mem_read_for m a := by
  simp only [mem_read_for, h a (by omega) (by omega), h (a + 1) (by omega) (by omega),
    h (a + 2) (by omega) (by omega), h (a + 3) (by omega) (by omega),
    h (a + 12) (by omega) (by omega), h (a + 13) (by omega) (by omega),
    mem_read_f32_congr (a + 4) (fun x h1 h2 => h x (by omega) (by omega)),
    mem_read_f32_congr (a + 8) (fun x h1 h2 => h x (by omega) (by omega))]

theorem FramesAt_congr {m m' : Mem} : ∀ (frames : List FGS_FRAME) (a : Nat),
    (∀ x, a ≤ x → x < a + frames_size frames → m' x = m x) →
    FramesAt m a frames → FramesAt m' a frames
  | [], _, _, _ => trivial
  | .gosub_frame e :: rest, a, h, hf => by
    have h' : ∀ x, a ≤ x → x < a + (5 + frames_size rest) → m' x = m x := h
    have hf' : m a = 1 ∧ mem_read_gosub m (a + 1) = e ∧ FramesAt m (a + 5) rest := hf
    show m' a = 1 ∧ mem_read_gosub m' (a + 1) = e ∧ FramesAt m' (a + 5) rest
    rw [h' a (by omega) (by omega),
      mem_read_gosub_congr (a + 1) (fun x h1 h2 => h' x (by omega) (by omega))]
    exact ⟨hf'.1, hf'.2.1,
      FramesAt_congr rest _ (fun x h1 h2 => h' x (by omega) (by omega)) hf'.2.2⟩
  | .for_frame e :: rest, a, h, hf => by
    have h' : ∀ x, a ≤ x → x < a + (17 + frames_size rest) → m' x = m x := h
    have hf' : m a = 0 ∧ mem_read_for m (a + 1) = e ∧ FramesAt m (a + 17) rest := hf
    show m' a = 0 ∧ mem_read_for m' (a + 1) = e ∧ FramesAt m' (a + 17) rest
    rw [h' a (by omega) (by omega),
      mem_read_for_congr (a + 1) (fun x h1 h2 => h' x (by omega) (by omega))]
    exact ⟨hf'.1, hf'.2.1,
      FramesAt_congr rest _ (fun x h1 h2 => h' x (by omega) (by omega)) hf'.2.2⟩

theorem zsub_eq {a b : Nat} (ha : a < UINT) (hb : b ≤ a) : zsub a b = a - b := by
  simp only [zsub, SIZE_T, UINT] at *; omega

/-- The scan of `fgstack_pop_gosub` over well-formed frames that end at
`max_idx`. -/
theorem pop_gosub_loop_spec (s : BASIC_MEM_MGR) (hmax : s.max_idx < UINT)
    (h4 : 4 ≤ s.max_idx) : ∀ (frames : List FGS_FRAME) (fuel idx : Nat),
    FramesAt s.base idx frames → idx + frames_size frames = s.max_idx →
    frames.length < fuel →
    fgstack_pop_gosub_loop s fuel idx = some
      (match frames_pop_gosub frames with
       | none => (false, ⟨0, 0⟩, s)
       | some (e, rest) => (true, e, { s with stktop_idx := s.max_idx - frames_size rest }))
  | _, 0, _, _, _, hf => by omega
  | [], fuel + 1, idx, _, hs, _ => by
    have hs' : idx + 0 = s.max_idx := hs
    have hz : zsub s.max_idx 4 = s.max_idx - 4 := zsub_eq hmax h4
    have : ¬ idx < zsub s.max_idx 4 := by omega
    simp only [fgstack_pop_gosub_loop, sizeof_FGS_ENTRY_GOSUB, this, if_false,
      frames_pop_gosub]
  | .gosub_frame e :: rest, fuel + 1, idx, hfr, hs, _ => by
    have hs' : idx + (5 + frames_size rest) = s.max_idx := hs
    have hz : zsub s.max_idx 4 = s.max_idx - 4 := zsub_eq hmax h4
    have h1 : idx < zsub s.max_idx 4 := by omega
    have hu : u32 (idx + (4 + 1)) = idx + 5 := u32_eq (by omega)
    have hfr : s.base idx = 1 ∧ mem_read_gosub s.base (idx + 1) = e ∧
      FramesAt s.base (idx + 5) rest := hfr
    simp only [fgstack_pop_gosub_loop, sizeof_FGS_ENTRY_GOSUB, FGS_TAG_GOSUB, h1, if_true,
      hfr.1, hfr.2.1, frames_pop_gosub, hu]
    rw [show s.max_idx - frames_size rest = idx + 5 by omega]
  | .for_frame e :: rest, fuel + 1, idx, hfr, hs, hf => by
    have hs' : idx + (17 + frames_size rest) = s.max_idx := hs
    have hz : zsub s.max_idx 4 = s.max_idx - 4 := zsub_eq hmax h4
    have hz2 : zsub s.max_idx 16 = s.max_idx - 16 := zsub_eq hmax (by omega)
    have h1 : idx < zsub s.max_idx 4 := by omega
    have h2 : idx < zsub s.max_idx 16 := by omega
    have hu : u32 (idx + (16 + 1)) = idx + 17 := u32_eq (by omega)
    have hfr : s.base idx = 0 ∧ mem_read_for s.base (idx + 1) = e ∧
      FramesAt s.base (idx + 17) rest := hfr
    have h3 : ¬ s.base idx = 1 := by rw [hfr.1]; decide
    have h0 : s.base idx = 0 := hfr.1
    simp only [fgstack_pop_gosub_loop, sizeof_FGS_ENTRY_GOSUB, sizeof_FGS_ENTRY_FOR,
      FGS_TAG_GOSUB, FGS_TAG_FOR, h1, if_true, h3, if_false, h0, h2, and_self,
      frames_pop_gosub, hu]
    exact pop_gosub_loop_spec s hmax h4 rest fuel _ hfr.2.2 (by omega)
      (by simp only [List.length_cons] at hf; omega)

/-- `fgstack_pop_gosub` on a stack of well-formed frames in an arena of at
least 4 bytes. -/
theorem pop_gosub_spec (s : BASIC_MEM_MGR) (frames : List FGS_FRAME) (fuel : Nat)
    (hmax : s.max_idx < UINT) (h4 : 4 ≤ s.max_idx) (hw : StackWF s frames)
    (hf : frames.length < fuel) :
    fgstack_pop_gosub fuel s = some
      (match frames_pop_gosub frames with
       | none => (false, ⟨0, 0⟩, s)
       | some (e, rest) => (true, e, { s with stktop_idx := s.max_idx - frames_size rest })) :=
  pop_gosub_loop_spec s hmax h4 frames fuel s.stktop_idx hw.1 hw.2 hf

/-- The scan of `fgstack_pop_gosub` over well-formed frames that hold a GOSUB
frame. -/
theorem pop_gosub_loop_found (s : BASIC_MEM_MGR) (hmax : s.max_idx < UINT) :
    ∀ (frames : List FGS_FRAME) (fuel idx : Nat) (e : FGS_ENTRY_GOSUB) (rest : List FGS_FRAME),
    FramesAt s.base idx frames → idx + frames_size frames ≤ s.max_idx →
    frames.length < fuel → frames_pop_gosub frames = some (e, rest) →
    fgstack_pop_gosub_loop s fuel idx = some
      (true, e, { s with stktop_idx := idx + frames_size frames - frames_size rest })
  | _, 0, _, _, _, _, _, hf, _ => by omega
  | [], fuel + 1, idx, _, _, _, _, _, hp => by simp [frames_pop_gosub] at hp
  | .gosub_frame e :: rest, fuel + 1, idx, e', rest', hfr, hs, _, hp => by
    have hs' : idx + (5 + frames_size rest) ≤ s.max_idx := hs
    have hz : zsub s.max_idx 4 = s.max_idx - 4 := zsub_eq hmax (by omega)
    have h1 : idx < zsub s.max_idx 4 := by omega
    have hu : u32 (idx + (4 + 1)) = idx + 5 := u32_eq (by omega)
    have hfr : s.base idx = 1 ∧ mem_read_gosub s.base (idx + 1) = e ∧
      FramesAt s.base (idx + 5) rest := hfr
    simp only [frames_pop_gosub, Option.some.injEq, Prod.mk.injEq] at hp
    obtain ⟨rfl, rfl⟩ := hp
    simp only [fgstack_pop_gosub_loop, sizeof_FGS_ENTRY_GOSUB, FGS_TAG_GOSUB, h1, if_true,
      hfr.1, hfr.2.1, hu]
    rw [show idx + frames_size (FGS_FRAME.gosub_frame e :: rest) - frames_size rest = idx + 5 by
      show idx + (5 + frames_size rest) - frames_size rest = idx + 5
      omega]
  | .for_frame e :: rest, fuel + 1, idx, e', rest', hfr, hs, hf, hp => by
    have hs' : idx + (17 + frames_size rest) ≤ s.max_idx := hs
    have hz : zsub s.max_idx 4 = s.max_idx - 4 := zsub_eq hmax (by omega)
    have hz2 : zsub s.max_idx 16 = s.max_idx - 16 := zsub_eq hmax (by omega)
    have h1 : idx < zsub s.max_idx 4 := by omega
    have h2 : idx < zsub s.max_idx 16 := by omega
    have hu : u32 (idx + (16 + 1)) = idx + 17 := u32_eq (by omega)
    have hfr : s.base idx = 0 ∧ mem_read_for s.base (idx + 1) = e ∧
      FramesAt s.base (idx + 17) rest := hfr
    have h3 : ¬ s.base idx = 1 := by rw [hfr.1]; decide
    have h0 : s.base idx = 0 := hfr.1
    simp only [frames_pop_gosub] at hp
    simp only [fgstack_pop_gosub_loop, sizeof_FGS_ENTRY_GOSUB, sizeof_FGS_ENTRY_FOR,
      FGS_TAG_GOSUB, FGS_TAG_FOR, h1, if_true, h3, if_false, h0, h2, and_self, hu]
    rw [pop_gosub_loop_found s hmax rest fuel _ e' rest' hfr.2.2 (by omega)
      (by simp only [List.length_cons] at hf; omega) hp]
    rw [show idx + frames_size (FGS_FRAME.for_frame e :: rest) =
      idx + 17 + frames_size rest by
        show idx + (17 + frames_size rest) = idx + 17 + frames_size rest
        omega]
    simp

/-- `fgstack_push` when the bytes fit. -/
theorem fgstack_push_ok (s : BASIC_MEM_MGR) (bytes : List Nat) (tag : Nat)
    (ho : ArenaOrdered s) (h : bytes.length + 1 ≤ s.stktop_idx - s.free_idx) :
    fgstack_push s bytes tag = (true, { s with
      stktop_idx := s.stktop_idx - (bytes.length + 1)
      base := mem_write_list (mem_write s.base (s.stktop_idx - (bytes.length + 1)) tag)
        (s.stktop_idx - (bytes.length + 1) + 1) bytes }) := by
  obtain ⟨h1, h2, h3, h4, h5⟩ := ho
  have hu : usub s.stktop_idx s.free_idx = s.stktop_idx - s.free_idx := usub_eq (by omega) h3
  have hu2 : usub s.stktop_idx (bytes.length + 1) = s.stktop_idx - (bytes.length + 1) :=
    usub_eq (by omega) (by omega)
  have : ¬ s.stktop_idx - s.free_idx < bytes.length + 1 := by omega
  simp only [fgstack_push, hu, hu2, this, if_false]

/-- `fgstack_push` when the bytes do not fit. -/
theorem fgstack_push_fail (s : BASIC_MEM_MGR) (bytes : List Nat) (tag : Nat)
    (ho : ArenaOrdered s) (h : s.stktop_idx - s.free_idx < bytes.length + 1) :
    fgstack_push s bytes tag = (false, s) := by
  obtain ⟨h1, h2, h3, h4, h5⟩ := ho
  have hu : usub s.stktop_idx s.free_idx = s.stktop_idx - s.free_idx := usub_eq (by omega) h3
  simp only [fgstack_push, hu, h, if_true]

theorem le16_u16 (v : Nat) (h : v < 65536) : le16 (v % 256) (v / 256 % 256) = v := by
  simp only [le16]; omega

/-- A pushed GOSUB frame reads back as the entry pushed. -/
theorem push_gosub_read (m : Mem) (top : Nat) (g : FGS_ENTRY_GOSUB) (hg : g.Valid) :
    mem_write_list (mem_write m top FGS_TAG_GOSUB) (top + 1) g.bytes top = FGS_TAG_GOSUB ∧
    mem_read_gosub (mem_write_list (mem_write m top FGS_TAG_GOSUB) (top + 1) g.bytes)
      (top + 1) = g := by
  obtain ⟨h1, h2⟩ := hg
  have e1 : le16 (g.line % 256) (g.line / 256 % 256) = g.line := le16_u16 _ h1
  have e2 : le16 (g.parse_idx % 256) (g.parse_idx / 256 % 256) = g.parse_idx := le16_u16 _ h2
  refine ⟨?_, ?_⟩
  · simp [FGS_ENTRY_GOSUB.bytes, u16_bytes, mem_write_list, mem_write, Nat.add_assoc]
  · simp [FGS_ENTRY_GOSUB.bytes, u16_bytes, mem_write_list, mem_write, mem_read_gosub, e1, e2,
      Nat.add_assoc]

/-- The tag byte of a pushed FOR frame. -/
theorem push_for_tag (m : Mem) (top : Nat) (e : FGS_ENTRY_FOR) :
    mem_write_list (mem_write m top FGS_TAG_FOR) (top + 1) e.bytes top = FGS_TAG_FOR := by
  rw [mem_write_list_other _ _ _ _ (by omega)]
  simp [mem_write]

/-- A scan of `fgstack_lookup_for` gives the same result, entry and stack top
in two arenas of the same size that hold the same bytes from the scanned offset
on. -/
theorem lookup_for_loop_congr (s t : BASIC_MEM_MGR) (vn : Nat) (hm : t.max_idx = s.max_idx)
    (hmax : s.max_idx < UINT) (h16 : 16 ≤ s.max_idx) :
    ∀ (fuel idx : Nat), t.stktop_idx = s.stktop_idx → (∀ a, idx ≤ a → t.base a = s.base a) →
    (fgstack_lookup_for_loop t vn fuel idx).map (fun r => (r.1, r.2.1, r.2.2.stktop_idx)) =
      (fgstack_lookup_for_loop s vn fuel idx).map (fun r => (r.1, r.2.1, r.2.2.stktop_idx))
  | 0, _, _, _ => rfl
  | fuel + 1, idx, ht, h => by
    have hr : mem_read_for t.base (idx + 1) = mem_read_for s.base (idx + 1) :=
      mem_read_for_congr _ (fun x h1 _ => h x (by omega))
    have hz : zsub s.max_idx 16 = s.max_idx - 16 := zsub_eq hmax h16
    simp only [fgstack_lookup_for_loop, sizeof_FGS_ENTRY_FOR, offsetof_FGS_ENTRY_FOR_vn,
      FGS_TAG_FOR, hm, h idx (Nat.le_refl _), h (idx + 1 + 12) (by omega),
      h (idx + 1 + 12 + 1) (by omega), hr, hz]
    by_cases h1 : idx < s.max_idx - 16
    · have hu : u32 (idx + (16 + 1)) = idx + 17 := u32_eq (by omega)
      simp only [h1, if_true, hu]
      by_cases h2 : s.base idx = 0
      · simp only [h2, if_true]
        by_cases h3 : vn = le16 (s.base (idx + 1 + 12)) (s.base (idx + 1 + 12 + 1))
        · simp only [if_pos h3, Option.map_some']
        · simp only [if_neg h3]
          exact lookup_for_loop_congr s t vn hm hmax h16 fuel _ ht (fun a ha => h a (by omega))
      · simp only [if_neg h2, Option.map_some', ht]
    · simp only [if_neg h1, Option.map_some', ht]

theorem frames_pop_gosub_for (e : FGS_ENTRY_FOR) (K : List FGS_FRAME) :
    frames_pop_gosub (.for_frame e :: K) = frames_pop_gosub K := rfl

theorem push_fors_PushedOn (S : BASIC_MEM_MGR) (g : FGS_ENTRY_GOSUB) :
    ∀ (fs : List FGS_ENTRY_FOR) (n : Nat) (T T2 : BASIC_MEM_MGR), PushedOn S g n T →
    push_fors T fs = some T2 → PushedOn S g (n + fs.length) T2
  | [], n, T, T2, h, hp => by
    simp only [push_fors, Option.some.injEq] at hp
    exact hp ▸ h
  | e :: rest, n, T, T2, h, hp => by
    obtain ⟨ho, ⟨K, hK1, hK2, hK3, hK4⟩, hb, i1, i2, i3, i4⟩ := h
    by_cases hfit : 16 + 1 ≤ T.stktop_idx - T.free_idx
    · have hpush := fgstack_push_ok T e.bytes FGS_TAG_FOR ho hfit
      have hlen : e.bytes.length = 16 := rfl
      simp only [push_fors, fgstack_push_for, hpush] at hp
      rw [show n + (e :: rest).length = n + 1 + rest.length by
        simp only [List.length_cons]; omega]
      refine push_fors_PushedOn S g rest (n + 1) _ T2 ?_ hp
      obtain ⟨o1, o2, o3, o4, o5⟩ := ho
      have hother : ∀ a, T.stktop_idx ≤ a →
          mem_write_list (mem_write T.base (T.stktop_idx - (e.bytes.length + 1)) FGS_TAG_FOR)
            (T.stktop_idx - (e.bytes.length + 1) + 1) e.bytes a = T.base a := by
        intro a ha
        rw [mem_write_list_other _ _ _ _ (by omega), mem_write_other _ _ _ _ (by omega)]
      refine ⟨⟨o1, o2, by simp only [hlen]; omega, by simp only [hlen]; omega, o5⟩,
        ⟨.for_frame (mem_read_for (mem_write_list
          (mem_write T.base (T.stktop_idx - (e.bytes.length + 1)) FGS_TAG_FOR)
          (T.stktop_idx - (e.bytes.length + 1) + 1) e.bytes)
          (T.stktop_idx - (e.bytes.length + 1) + 1)) :: K, ?_, ?_, ?_, ?_⟩,
        fun a ha => ?_, i1, i2, i3, i4⟩
      · refine ⟨push_for_tag _ _ _, rfl, ?_⟩
        rw [show T.stktop_idx - (e.bytes.length + 1) + (sizeof_FGS_ENTRY_FOR + 1) =
          T.stktop_idx by simp only [hlen, sizeof_FGS_ENTRY_FOR]; omega]
        exact FramesAt_congr K _ (fun x h1 _ => hother x h1) hK1
      · show T.stktop_idx - (e.bytes.length + 1) + (17 + frames_size K) = S.stktop_idx
        simp only [hlen]; omega
      · rw [frames_pop_gosub_for]; exact hK3
      · simp only [List.length_cons, hK4]
      · exact (hother a (by omega)).trans (hb a ha)
    · have hpush := fgstack_push_fail T e.bytes FGS_TAG_FOR ho (by
        have hlen : e.bytes.length = 16 := rfl
        simp only [hlen]; omega)
      simp [push_fors, fgstack_push_for, hpush] at hp

theorem push_gosub_PushedOn (S S1 : BASIC_MEM_MGR) (g : FGS_ENTRY_GOSUB) (ho : ArenaOrdered S)
    (hg : g.Valid) (h1 : fgstack_push_gosub S g = (true, S1)) : PushedOn S g 0 S1 := by
  have hlen : g.bytes.length = 4 := rfl
  by_cases hfit : 4 + 1 ≤ S.stktop_idx - S.free_idx
  · have hpush := fgstack_push_ok S g.bytes FGS_TAG_GOSUB ho hfit
    simp only [fgstack_push_gosub, hpush, Prod.mk.injEq, true_and] at h1
    subst h1
    obtain ⟨o1, o2, o3, o4, o5⟩ := ho
    have hr := push_gosub_read S.base (S.stktop_idx - (g.bytes.length + 1)) g hg
    refine ⟨⟨o1, o2, by simp only [hlen]; omega, by simp only [hlen]; omega, o5⟩,
      ⟨[.gosub_frame g], ⟨hr.1, hr.2, trivial⟩, ?_, rfl, rfl⟩,
      fun a ha => ?_, rfl, rfl, rfl, rfl⟩
    · show S.stktop_idx - (g.bytes.length + 1) + (5 + 0) = S.stktop_idx
      simp only [hlen]; omega
    · show mem_write_list _ _ _ a = S.base a
      rw [mem_write_list_other _ _ _ _ (by simp only [hlen]; omega),
        mem_write_other _ _ _ _ (by simp only [hlen]; omega)]
  · have hpush := fgstack_push_fail S g.bytes FGS_TAG_GOSUB ho (by simp only [hlen]; omega)
    simp [fgstack_push_gosub, hpush] at h1

/-- C14: after a successful `fgstack_push_gosub(g)` followed by any number of
successful `fgstack_push_for` calls, `fgstack_pop_gosub` returns `g` and puts
`stktop_idx` and the stack bytes back to those of the state `S` before the
pushes, so that (in an arena that can hold a FOR frame) every
`fgstack_lookup_for` then gives the result, the entry and the stack top it
gives on `S`: a FOR frame of `S` is found again and the FOR frames pushed after
the GOSUB frame are not. -/
theorem C14_pop_gosub_restores (S S1 S2 : BASIC_MEM_MGR) (g : FGS_ENTRY_GOSUB)
    (fs : List FGS_ENTRY_FOR) (fuel : Nat) (ho : ArenaOrdered S) (hg : g.Valid)
    (hfuel : fs.length + 1 < fuel) (h1 : fgstack_push_gosub S g = (true, S1))
    (h2 : push_fors S1 fs = some S2) :
    ∃ S3, fgstack_pop_gosub fuel S2 = some (true, g, S3) ∧
      S3.stktop_idx = S.stktop_idx ∧ (∀ a, S.stktop_idx ≤ a → S3.base a = S.base a) ∧
      S3.vars_idx = S.vars_idx ∧ S3.array_idx = S.array_idx ∧ S3.free_idx = S.free_idx ∧
      S3.max_idx = S.max_idx ∧
      ∀ (vn n : Nat), 16 ≤ S.max_idx →
        (fgstack_lookup_for n S3 vn).map (fun r => (r.1, r.2.1, r.2.2.stktop_idx)) =
          (fgstack_lookup_for n S vn).map (fun r => (r.1, r.2.1, r.2.2.stktop_idx)) := by
  have hP := push_fors_PushedOn S g fs 0 S1 S2 (push_gosub_PushedOn S S1 g ho hg h1) h2
  obtain ⟨ho2, ⟨K, hK1, hK2, hK3, hK4⟩, hb, i1, i2, i3, i4⟩ := hP
  have hmax : S.max_idx < UINT := ho.2.2.2.2
  have hS := ho.2.2.2.1
  have hst : S2.stktop_idx + frames_size K - frames_size [] = S.stktop_idx := by
    show S2.stktop_idx + frames_size K - 0 = S.stktop_idx
    omega
  have hpop := pop_gosub_loop_found S2 (by omega) K fuel S2.stktop_idx g [] hK1
    (by omega) (by omega) hK3
  rw [hst] at hpop
  refine ⟨_, hpop, rfl, hb, i1, i2, i3, i4, fun vn n h16 => ?_⟩
  exact lookup_for_loop_congr S { S2 with stktop_idx := S.stktop_idx } vn i4 hmax h16 n
    S.stktop_idx rfl hb

theorem option_eq_some_getD {α : Type} (o : Option α) (d : α) (h : o.isSome = true) :
    o = some (o.getD d) := by
  cases o with
  | none => simp at h
  | some x => rfl

/-- Witness of C14: a GOSUB frame and the FOR frame of the variable `J` are
pushed on `stack_demo_arena` and the GOSUB frame is popped. -/
theorem C14_pop_gosub_restores_witness :
    ∃ S3, fgstack_pop_gosub 3
        ((push_fors (fgstack_push_gosub stack_demo_arena ⟨20, 9⟩).2 [⟨30, 5, 0, 0, 74⟩]).getD
          stack_demo_arena) = some (true, ⟨20, 9⟩, S3) ∧
      S3.stktop_idx = stack_demo_arena.stktop_idx ∧
      (∀ a, stack_demo_arena.stktop_idx ≤ a → S3.base a = stack_demo_arena.base a) ∧
      S3.vars_idx = stack_demo_arena.vars_idx ∧ S3.array_idx = stack_demo_arena.array_idx ∧
      S3.free_idx = stack_demo_arena.free_idx ∧ S3.max_idx = stack_demo_arena.max_idx ∧
      ∀ (vn n : Nat), 16 ≤ stack_demo_arena.max_idx →
        (fgstack_lookup_for n S3 vn).map (fun r => (r.1, r.2.1, r.2.2.stktop_idx)) =
          (fgstack_lookup_for n stack_demo_arena vn).map
            (fun r => (r.1, r.2.1, r.2.2.stktop_idx)) :=
  C14_pop_gosub_restores stack_demo_arena (fgstack_push_gosub stack_demo_arena ⟨20, 9⟩).2
    ((push_fors (fgstack_push_gosub stack_demo_arena ⟨20, 9⟩).2 [⟨30, 5, 0, 0, 74⟩]).getD
      stack_demo_arena) ⟨20, 9⟩ [⟨30, 5, 0, 0, 74⟩] 3 (by decide) (by decide) (by decide)
    (Prod.ext (by decide) rfl) (option_eq_some_getD _ _ (by decide))

/-- C12, the failing run: in a 3-byte arena with an empty stack, when the byte
that follows the arena is 1, `fgstack_pop_gosub` reads that byte as the tag of
a GOSUB frame, returns true and sets `stktop_idx` to 8, above `max_idx = 3`. -/
theorem C12_pop_gosub_tiny_arena :
    StackWF tiny_arena_gosub [] ∧ ArenaOrdered tiny_arena_gosub ∧
    (fgstack_pop_gosub 2 tiny_arena_gosub).map
      (fun r => (r.1, r.2.1, r.2.2.stktop_idx, r.2.2.max_idx)) =
        some (true, ⟨0, 0⟩, 8, 3) :=
  ⟨⟨trivial, rfl⟩, by decide, by decide⟩

/-- C13, the failing run: in a 9-byte arena with an empty stack, when the bytes
that follow the arena are 0 but for the byte `A` at offset 22,
`fgstack_lookup_for` of the name `A` reads them as a FOR frame of `A`, returns
true and sets `stktop_idx` to 26, above `max_idx = 9`. -/
theorem C13_lookup_for_tiny_arena :
    StackWF tiny_arena_for [] ∧ ArenaOrdered tiny_arena_for ∧
    (fgstack_lookup_for 2 tiny_arena_for 65).map
      (fun r => (r.1, r.2.1.vn, r.2.2.stktop_idx, r.2.2.max_idx)) =
        some (true, 65, 26, 9) :=
  ⟨⟨trivial, rfl⟩, by decide, by decide⟩

/-- C1, a failing run: the 3-byte arena `tiny_arena_gosub` satisfies the
ordering, has `max_idx = 3` and an empty stack, and `fgstack_pop_gosub` returns
true on it with `stktop_idx = 8`, above `max_idx`: the arena it returns does
not satisfy the ordering. -/
theorem C1_pop_gosub_breaks_ordering :
    ArenaOrdered tiny_arena_gosub ∧ 3 ≤ tiny_arena_gosub.max_idx ∧
    StackWF tiny_arena_gosub [] ∧
    (fgstack_pop_gosub 2 tiny_arena_gosub).map
      (fun r => (r.1, r.2.2.stktop_idx, r.2.2.max_idx, decide (ArenaOrdered r.2.2))) =
        some (true, 8, 3, false) :=
  ⟨by decide, by decide, ⟨trivial, rfl⟩, by decide⟩

/-! ## The interpreter -/

theorem RunsGosub10_bytes {bs : BASIC_MAIN_STATE} (h : RunsGosub10 bs) :
    bs.prog.base 0 = 0 ∧ bs.prog.base 1 = 10 ∧ bs.prog.base 2 = 0 ∧ bs.prog.base 3 = 10 ∧
    bs.prog.base 4 = 0 ∧ bs.prog.base 5 = 140 ∧ bs.prog.base 6 = 32 ∧ bs.prog.base 7 = 49 ∧
    bs.prog.base 8 = 48 ∧ bs.prog.base 9 = 0 ∧ bs.prog.base 10 = 0 ∧ bs.prog.base 11 = 0 := by
  have := h.1
  simp only [mem_read_list, gosub10_text, List.cons.injEq, and_true] at this
  simpa using this

/-- The step of `exec_line` that goes from the sentinel to line 10. -/
theorem gosub10_advance (P : FPU) (fuel n : Nat) (bs : BASIC_MAIN_STATE) (h : RunsGosub10 bs)
    (hp : bs.parse_ptr = 0) (hl : bs.current_line ≠ UINT_MAX) :
    exec_line P fuel (n + 1) bs =
      exec_line P fuel n { bs with parse_ptr := 5, current_line := 10 } := by
  obtain ⟨b0, b1, b2, b3, b4, b5, b6, b7, b8, b9, b10, b11⟩ := RunsGosub10_bytes h
  have ha : prog_storage_advance_line bs.prog 0 = (5, 10) := by
    simp [prog_storage_advance_line, b1, b3, b4, le16]
  rw [exec_line]
  simp only [hp, b0, ne_eq, not_true_eq_false, if_false, hl, not_false_eq_true, if_true, ha]
  simp [UINT_MAX]

/-- `GOSUB 10` in the program `10 GOSUB 10`: the frame is pushed and line 10 is
entered again when 5 bytes are free, and the statement fails otherwise. -/
theorem gosub10_handler (fuel : Nat) (bs : BASIC_MAIN_STATE) (h : RunsGosub10 bs)
    (hp : bs.parse_ptr = 7) (hl : bs.current_line = 10) (hf : 4 ≤ fuel) :
    handler_gosub fuel bs =
      if 5 ≤ bs.prog.stktop_idx - bs.prog.free_idx then
        .ret (.OK, { bs with
          parse_ptr := 0, current_line := 10
          prog := { bs.prog with
            stktop_idx := bs.prog.stktop_idx - 5
            base := mem_write_list (mem_write bs.prog.base (bs.prog.stktop_idx - 5) 1)
              (bs.prog.stktop_idx - 5 + 1) [10, 0, 9, 0] } })
      else .ret (.OUT_OF_MEMORY, { bs with parse_ptr := 9 }) := by
  obtain ⟨b0, b1, b2, b3, b4, b5, b6, b7, b8, b9, b10, b11⟩ := RunsGosub10_bytes h
  obtain ⟨-, hfree, ho, -⟩ := h
  have hs : IsCStr bs.prog.base 7 [49, 48] := ⟨b7, by decide, by decide, b8, by decide,
    by decide, b9⟩
  have hu := basic_parsing_uint16_spec fuel bs.prog.base 7 0 [49, 48] hs
    (by simp only [List.length_cons, List.length_nil]; omega)
  have hv : (if (uint16_scan [49, 48]).1 = [] then (BASIC_ERROR_ID.NOT_FOUND, 7, 0)
       else if decimal_value 0 (uint16_scan [49, 48]).1 ≥ 65536 then (.SYNTAX, 7, 0)
       else (.OK, 7 + (uint16_scan [49, 48]).2, decimal_value 0 (uint16_scan [49, 48]).1)) =
      (BASIC_ERROR_ID.OK, 9, 10) := by decide
  rw [hv] at hu
  have hl' : ¬ bs.current_line = UINT_MAX := by rw [hl]; decide
  have hg : (⟨bs.current_line % 65536, prog_storage_ptr_to_idx bs.prog 9 % 65536⟩ :
      FGS_ENTRY_GOSUB) = ⟨10, 9⟩ := by
    rw [hl]; rfl
  simp only [handler_gosub, hl', if_false, hp, hu, ne_eq, not_true_eq_false, hg]
  by_cases hgap : 5 ≤ bs.prog.stktop_idx - bs.prog.free_idx
  · have hpush := fgstack_push_ok bs.prog (FGS_ENTRY_GOSUB.bytes ⟨10, 9⟩) FGS_TAG_GOSUB ho hgap
    have hb : FGS_ENTRY_GOSUB.bytes ⟨10, 9⟩ = [10, 0, 9, 0] := rfl
    rw [hb] at hpush
    simp only [List.length_cons, List.length_nil] at hpush
    simp only [fgstack_push_gosub, hb, hpush, if_pos hgap]
    obtain ⟨o1, o2, o3, o4, o5⟩ := ho
    have hfl : prog_storage_find_line fuel
        { bs.prog with
          stktop_idx := bs.prog.stktop_idx - (0 + 1 + 1 + 1 + 1 + 1)
          base := mem_write_list (mem_write bs.prog.base
            (bs.prog.stktop_idx - (0 + 1 + 1 + 1 + 1 + 1)) FGS_TAG_GOSUB)
            (bs.prog.stktop_idx - (0 + 1 + 1 + 1 + 1 + 1) + 1) [10, 0, 9, 0] } 10 =
        some ⟨1, true⟩ := by
      obtain ⟨f, rfl⟩ : ∃ f, fuel = f + 1 := ⟨fuel - 1, by omega⟩
      have r1 : ∀ a, a < 12 → mem_write_list (mem_write bs.prog.base
            (bs.prog.stktop_idx - (0 + 1 + 1 + 1 + 1 + 1)) FGS_TAG_GOSUB)
            (bs.prog.stktop_idx - (0 + 1 + 1 + 1 + 1 + 1) + 1) [10, 0, 9, 0] a =
            bs.prog.base a := by
        intro a ha
        rw [mem_write_list_other _ _ _ _ (by omega), mem_write_other _ _ _ _ (by omega)]
      simp only [prog_storage_find_line, find_line_loop, r1 1 (by omega), r1 2 (by omega),
        r1 3 (by omega), r1 4 (by omega), b1, b2, b3, b4, le16]
      simp
    simp only [goto_run_common, hfl]
    simp [prog_storage_get_line_parse_ptr]
  · have hpush := fgstack_push_fail bs.prog (FGS_ENTRY_GOSUB.bytes ⟨10, 9⟩) FGS_TAG_GOSUB ho
      (by show _ < 4 + 1; omega)
    simp only [fgstack_push_gosub, hpush, if_neg hgap]

/-- The step of `exec_line` that runs the statement `GOSUB 10` of line 10. -/
theorem gosub10_statement (P : FPU) (fuel n : Nat) (bs : BASIC_MAIN_STATE)
    (h : RunsGosub10 bs) (hp : bs.parse_ptr = 5) (hl : bs.current_line = 10) (hf : 4 ≤ fuel) :
    exec_line P fuel (n + 1) bs =
      if 5 ≤ bs.prog.stktop_idx - bs.prog.free_idx then
        exec_line P fuel n { bs with
          error_in_data := false, parse_ptr := 0, current_line := 10
          prog := { bs.prog with
            stktop_idx := bs.prog.stktop_idx - 5
            base := mem_write_list (mem_write bs.prog.base (bs.prog.stktop_idx - 5) 1)
              (bs.prog.stktop_idx - 5 + 1) [10, 0, 9, 0] } }
      else .ret (.OUT_OF_MEMORY, { bs with error_in_data := false, parse_ptr := 9 }) := by
  obtain ⟨b0, b1, b2, b3, b4, b5, b6, b7, b8, b9, b10, b11⟩ := RunsGosub10_bytes h
  have hbk : bs.break_keys = [] := h.2.2.2
  have hsk : basic_parsing_skipws bs.prog.base fuel 6 = some 7 := by
    obtain ⟨f, rfl⟩ : ∃ f, fuel = f + 2 := ⟨fuel - 2, by omega⟩
    simp [basic_parsing_skipws, b6, b7]
  have h1 : RunsGosub10 { bs with error_in_data := false, parse_ptr := 7, break_keys := [] } :=
    ⟨h.1, h.2.1, h.2.2.1, rfl⟩
  have hh := gosub10_handler fuel
    { bs with error_in_data := false, parse_ptr := 7, break_keys := [] } h1 rfl hl hf
  rw [exec_line]
  simp only [hp, b5, basic_callback_check_break_key, hbk, cmd_handlers]
  simp only [BASIC_KEYWORD_RANGE_END_GENERAL, BASIC_KEYWORD_RANGE_BEGIN, BASIC_KEYWORD_END,
    BASIC_KEYWORD_FOR, BASIC_KEYWORD_NEXT, BASIC_KEYWORD_DATA, BASIC_KEYWORD_INPUT,
    BASIC_KEYWORD_DIM, BASIC_KEYWORD_READ, BASIC_KEYWORD_LET, BASIC_KEYWORD_GOTO,
    BASIC_KEYWORD_RUN, BASIC_KEYWORD_IF, BASIC_KEYWORD_RESTORE, BASIC_KEYWORD_GOSUB,
    BASIC_KEYWORD_NEW]
  norm_num
  rw [hsk]
  simp only []
  rw [hh]
  by_cases hgap : 5 ≤ bs.prog.stktop_idx - bs.prog.free_idx
  · simp only [if_pos hgap]
    have r0 : mem_write_list (mem_write bs.prog.base (bs.prog.stktop_idx - 5) 1)
        (bs.prog.stktop_idx - 5 + 1) [10, 0, 9, 0] 0 = 0 := by
      have := h.2.1
      rw [mem_write_list_other _ _ _ _ (by omega), mem_write_other _ _ _ _ (by omega)]
      exact b0
    simp [r0]
  · simp only [if_neg hgap]
    simp

/-- The run of `10 GOSUB 10` from the sentinel with `k` times 5 bytes free:
`k` frames are pushed, then `GOSUB` runs out of memory in line 10. -/
theorem gosub10_runs (P : FPU) (fuel : Nat) (hf : 4 ≤ fuel) :
    ∀ (k n : Nat) (bs : BASIC_MAIN_STATE), RunsGosub10 bs → bs.parse_ptr = 0 →
    bs.current_line ≠ UINT_MAX → (bs.prog.stktop_idx - bs.prog.free_idx) / 5 = k →
    2 * k + 2 ≤ n →
    ∃ bs', exec_line P fuel n bs = .ret (.OUT_OF_MEMORY, bs') ∧ bs'.current_line = 10 ∧
      bs'.prog.stktop_idx + 5 * k = bs.prog.stktop_idx ∧
      bs'.prog.stktop_idx - bs'.prog.free_idx < 5 ∧ bs'.prog.free_idx = bs.prog.free_idx ∧
      bs'.prog.vars_idx = bs.prog.vars_idx ∧ bs'.prog.array_idx = bs.prog.array_idx ∧
      bs'.prog.max_idx = bs.prog.max_idx
  | 0, n, bs, h, hp, hl, hk, hn => by
    obtain ⟨m, rfl⟩ : ∃ m, n = m + 1 + 1 := ⟨n - 2, by omega⟩
    have h5 : RunsGosub10 { bs with parse_ptr := 5, current_line := 10 } := h
    have hgap : ¬ 5 ≤ bs.prog.stktop_idx - bs.prog.free_idx := by omega
    rw [gosub10_advance P fuel (m + 1) bs h hp hl,
      gosub10_statement P fuel m _ h5 rfl rfl hf, if_neg hgap]
    exact ⟨_, rfl, rfl, rfl, by show bs.prog.stktop_idx - bs.prog.free_idx < 5; omega, rfl, rfl,
      rfl, rfl⟩
  | k + 1, n, bs, h, hp, hl, hk, hn => by
    obtain ⟨m, rfl⟩ : ∃ m, n = m + 1 + 1 := ⟨n - 2, by omega⟩
    have h5 : RunsGosub10 { bs with parse_ptr := 5, current_line := 10 } := h
    have hgap : 5 ≤ bs.prog.stktop_idx - bs.prog.free_idx := by omega
    obtain ⟨ht, hfree, ⟨o1, o2, o3, o4, o5⟩, hbk⟩ := h
    rw [gosub10_advance P fuel (m + 1) bs ⟨ht, hfree, ⟨o1, o2, o3, o4, o5⟩, hbk⟩ hp hl,
      gosub10_statement P fuel m _ h5 rfl rfl hf, if_pos hgap]
    have hnext : RunsGosub10 { bs with
        error_in_data := false, parse_ptr := 0, current_line := 10
        prog := { bs.prog with
          stktop_idx := bs.prog.stktop_idx - 5
          base := mem_write_list (mem_write bs.prog.base (bs.prog.stktop_idx - 5) 1)
            (bs.prog.stktop_idx - 5 + 1) [10, 0, 9, 0] } } := by
      refine ⟨?_, hfree, ⟨o1, o2, by show bs.prog.free_idx ≤ bs.prog.stktop_idx - 5; omega,
        by show bs.prog.stktop_idx - 5 ≤ bs.prog.max_idx; omega, o5⟩, hbk⟩
      rw [← ht]
      have r : ∀ a, a < 12 → mem_write_list (mem_write bs.prog.base (bs.prog.stktop_idx - 5) 1)
          (bs.prog.stktop_idx - 5 + 1) [10, 0, 9, 0] a = bs.prog.base a := by
        intro a ha
        rw [mem_write_list_other _ _ _ _ (by omega), mem_write_other _ _ _ _ (by omega)]
      simp only [mem_read_list, r 0 (by omega), r (0 + 1) (by omega), r (0 + 1 + 1) (by omega),
        r (0 + 1 + 1 + 1) (by omega), r (0 + 1 + 1 + 1 + 1) (by omega),
        r (0 + 1 + 1 + 1 + 1 + 1) (by omega), r (0 + 1 + 1 + 1 + 1 + 1 + 1) (by omega),
        r (0 + 1 + 1 + 1 + 1 + 1 + 1 + 1) (by omega),
        r (0 + 1 + 1 + 1 + 1 + 1 + 1 + 1 + 1) (by omega),
        r (0 + 1 + 1 + 1 + 1 + 1 + 1 + 1 + 1 + 1) (by omega),
        r (0 + 1 + 1 + 1 + 1 + 1 + 1 + 1 + 1 + 1 + 1) (by omega),
        r (0 + 1 + 1 + 1 + 1 + 1 + 1 + 1 + 1 + 1 + 1 + 1) (by omega)]
    obtain ⟨bs', e, c1, c2, c3, c4, c5, c6, c7⟩ := gosub10_runs P fuel hf k m _ hnext rfl
      (by show (10 : Nat) ≠ UINT_MAX; decide)
      (by show (bs.prog.stktop_idx - 5 - bs.prog.free_idx) / 5 = k; omega) (by omega)
    refine ⟨bs', e, c1, ?_, c3, c4, c5, c6, c7⟩
    have c2' : bs'.prog.stktop_idx + 5 * k = bs.prog.stktop_idx - 5 := c2
    omega

/-- C18: while the program `10 GOSUB 10` runs, every `GOSUB` pushes a 5-byte
frame and enters line 10 again; with a free gap of `stktop_idx - free_idx`
bytes, after `(stktop_idx - free_idx) / 5` pushes fewer than 5 bytes are free,
`handler_gosub` returns OUT_OF_MEMORY with `current_line = 10`, and `exec_line`
returns that error: enough fuel (two steps for each push, and two more)
always gives a result. -/
theorem C18_gosub10_terminates (P : FPU) (fuel n : Nat) (bs : BASIC_MAIN_STATE)
    (h : RunsGosub10 bs) (hp : bs.parse_ptr = 0) (hl : bs.current_line ≠ UINT_MAX)
    (hf : 4 ≤ fuel) (hn : 2 * ((bs.prog.stktop_idx - bs.prog.free_idx) / 5) + 2 ≤ n) :
    ∃ bs', exec_line P fuel n bs = .ret (.OUT_OF_MEMORY, bs') ∧ bs'.current_line = 10 ∧
      bs'.prog.stktop_idx + 5 * ((bs.prog.stktop_idx - bs.prog.free_idx) / 5) =
        bs.prog.stktop_idx ∧
      bs'.prog.stktop_idx - bs'.prog.free_idx < 5 ∧ bs'.prog.free_idx = bs.prog.free_idx ∧
      bs'.prog.vars_idx = bs.prog.vars_idx ∧ bs'.prog.array_idx = bs.prog.array_idx ∧
      bs'.prog.max_idx = bs.prog.max_idx :=
  gosub10_runs P fuel hf _ n bs h hp hl rfl hn

/-- Witness of C18: the run from `gosub10_demo`, with 20 free bytes. -/
theorem C18_gosub10_terminates_witness :
    ∃ bs', exec_line nat_fpu 4 10 gosub10_demo = .ret (.OUT_OF_MEMORY, bs') ∧
      bs'.current_line = 10 ∧
      bs'.prog.stktop_idx +
          5 * ((gosub10_demo.prog.stktop_idx - gosub10_demo.prog.free_idx) / 5) =
        gosub10_demo.prog.stktop_idx ∧
      bs'.prog.stktop_idx - bs'.prog.free_idx < 5 ∧
      bs'.prog.free_idx = gosub10_demo.prog.free_idx ∧
      bs'.prog.vars_idx = gosub10_demo.prog.vars_idx ∧
      bs'.prog.array_idx = gosub10_demo.prog.array_idx ∧
      bs'.prog.max_idx = gosub10_demo.prog.max_idx :=
  C18_gosub10_terminates nat_fpu 4 10 gosub10_demo ⟨by decide, by decide, by decide, rfl⟩ rfl
    (by decide) (by decide) (by decide)

theorem nat_of_f32_of_nat : ∀ n, n < 16 → nat_of_f32 (f32_of_nat n) = some n := by
  decide

/-- The platform `nat_fpu` is exact on the numbers below 16. -/
theorem nat_fpu_exact : ExactBelow nat_fpu 16 := by
  refine ⟨fun a b h => ?_, fun a b ha hb h => ?_, fun n h => ?_, by decide⟩
  · simp only [nat_fpu, nat_of_f32_of_nat a (by omega), nat_of_f32_of_nat b (by omega)]
  · simp only [nat_fpu, nat_of_f32_of_nat a ha, nat_of_f32_of_nat b hb]
  · simp [nat_fpu]

theorem f32_of_nat_consts : f32_of_nat 0 = 0 ∧ f32_of_nat 1 = f32_one ∧ f32_of_nat 10 = f32_ten := by
  decide

/-- `fgstack_pop_gosub` on a stack of well-formed frames; an empty stack is
taken in an arena of at least 4 bytes. -/
theorem pop_gosub_spec_wf (s : BASIC_MEM_MGR) (frames : List FGS_FRAME) (fuel : Nat)
    (hmax : s.max_idx < UINT) (h4 : frames = [] → 4 ≤ s.max_idx) (hw : StackWF s frames)
    (hf : frames.length < fuel) :
    fgstack_pop_gosub fuel s = some
      (match frames_pop_gosub frames with
       | none => (false, ⟨0, 0⟩, s)
       | some (e, rest) => (true, e, { s with stktop_idx := s.max_idx - frames_size rest })) := by
  cases frames with
  | nil => exact pop_gosub_spec s [] fuel hmax (h4 rfl) hw hf
  | cons f rest =>
    have : 4 ≤ s.max_idx := by
      have h2 : s.stktop_idx + (f.size + frames_size rest) = s.max_idx := hw.2
      cases f with
      | for_frame e => have : s.stktop_idx + (17 + frames_size rest) = s.max_idx := h2; omega
      | gosub_frame e => have : s.stktop_idx + (5 + frames_size rest) = s.max_idx := h2; omega
    exact pop_gosub_spec s _ fuel hmax this hw hf

theorem scalar_names_length (pb : Mem) : ∀ (n a : Nat), (scalar_names pb a n).length = n
  | 0, _ => rfl
  | n + 1, a => by simp [scalar_names, scalar_names_length pb n]

theorem if_ops_scan_spaces : ∀ (l : List Nat),
    if_ops_scan l = ((if_ops_scan (l.drop (count_spaces l))).1,
      (if_ops_scan (l.drop (count_spaces l))).2 + count_spaces l)
  | [] => by simp [if_ops_scan, count_spaces]
  | c :: r => by
    by_cases hc : c = 32
    · subst hc
      have ih := if_ops_scan_spaces r
      simp only [count_spaces, List.drop_succ_cons]
      rw [show if_ops_scan (32 :: r) = ((if_ops_scan r).1, (if_ops_scan r).2 + 1) by
        simp [if_ops_scan]]
      rw [ih]
      rfl
    · rw [count_spaces_cons_ne r hc]; simp

/-- The loop of `handler_if` that reads the comparison operators. -/
theorem if_operators_spec {m : Mem} : ∀ (fuel : Nat) (l : List Nat) (p bm : Nat),
    IsCStr m p l → l.length + 1 < fuel →
    if_operators m fuel p bm =
      some (p + (if_ops_scan l).2, ops_bitmap bm (if_ops_scan l).1)
  | 0, _, _, _, _, hf => by omega
  | fuel + 1, l, p, bm, h, hf => by
    have hsk := skipws_spec fuel l p h (by have := count_spaces_le l; omega)
    have hd := IsCStr_drop (count_spaces l) l p (count_spaces_le l) h
    have hhead := drop_count_spaces_head l
    rw [if_ops_scan_spaces l]
    simp only [if_operators, hsk]
    cases hl : l.drop (count_spaces l) with
    | nil =>
      rw [hl] at hd
      simp only [IsCStr] at hd
      simp [hd, if_ops_scan, ops_bitmap, BASIC_KEYWORD_RANGE_BEGIN_COMPARISON_OPERATORS]
    | cons c rest =>
      rw [hl] at hd hhead
      simp only [IsCStr] at hd
      have hc32 : c ≠ 32 := by simpa using hhead
      have hlen : rest.length + count_spaces l + 1 = l.length := by
        have := congrArg List.length hl
        simp only [List.length_drop, List.length_cons] at this
        have := count_spaces_le l
        omega
      rw [hd.1]
      by_cases hop : BASIC_KEYWORD_RANGE_BEGIN_COMPARISON_OPERATORS ≤ c ∧
          c ≤ BASIC_KEYWORD_RANGE_END_COMPARISON_OPERATORS
      · have hscan : if_ops_scan (c :: rest) =
            (c :: (if_ops_scan rest).1, (if_ops_scan rest).2 + 1) := by
          simp only [if_ops_scan, if_neg hc32, if_pos hop]
        rw [if_pos hop, hscan,
          if_operators_spec fuel rest (p + count_spaces l + 1) _ hd.2.2.2 (by omega)]
        simp only [ops_bitmap, List.foldl_cons]
        congr 2
        omega
      · have hscan : if_ops_scan (c :: rest) = ([], 0) := by
          simp only [if_ops_scan, if_neg hc32, if_neg hop]
        rw [if_neg hop, hscan]
        simp [ops_bitmap]

theorem if_ops_scan_range : ∀ (l : List Nat) (o : Nat), o ∈ (if_ops_scan l).1 →
    o = BASIC_KEYWORD_GREATER ∨ o = BASIC_KEYWORD_EQUALS ∨ o = BASIC_KEYWORD_LESS
  | [], o, h => by simp [if_ops_scan] at h
  | c :: r, o, h => by
    by_cases hc : c = 32
    · have : if_ops_scan (c :: r) = ((if_ops_scan r).1, (if_ops_scan r).2 + 1) := by
        simp only [if_ops_scan, if_pos hc]
      rw [this] at h
      exact if_ops_scan_range r o h
    · by_cases hop : BASIC_KEYWORD_RANGE_BEGIN_COMPARISON_OPERATORS ≤ c ∧
          c ≤ BASIC_KEYWORD_RANGE_END_COMPARISON_OPERATORS
      · have : if_ops_scan (c :: r) = (c :: (if_ops_scan r).1, (if_ops_scan r).2 + 1) := by
          simp only [if_ops_scan, if_neg hc, if_pos hop]
        rw [this] at h
        rcases List.mem_cons.mp h with rfl | h'
        · simp only [BASIC_KEYWORD_RANGE_BEGIN_COMPARISON_OPERATORS,
            BASIC_KEYWORD_RANGE_END_COMPARISON_OPERATORS, BASIC_KEYWORD_GREATER,
            BASIC_KEYWORD_EQUALS, BASIC_KEYWORD_LESS] at hop ⊢
          omega
        · exact if_ops_scan_range r o h'
      · have : if_ops_scan (c :: r) = ([], 0) := by
          simp only [if_ops_scan, if_neg hc, if_neg hop]
        rw [this] at h
        simp at h

theorem bitmap_step : ∀ bm, bm < 8 → ∀ k, k < 3 →
    (bm ||| (1 <<< k)) % 256 < 8 ∧
    ∀ j, j < 3 → ((bm ||| (1 <<< k)) % 256).testBit j = (bm.testBit j || decide (j = k)) := by
  decide

theorem bitmap_test : ∀ bm, bm < 8 → ∀ g e l : Bool,
    (bm &&& (((if g = true then 1 else 0) <<< 0) ||| ((if e = true then 1 else 0) <<< 1) |||
      ((if l = true then 1 else 0) <<< 2)) ≠ 0) ↔
    ((bm.testBit 0 = true ∧ g = true) ∨ (bm.testBit 1 = true ∧ e = true) ∨
      (bm.testBit 2 = true ∧ l = true)) := by
  decide

theorem bitmap_zero : ∀ bm, bm < 8 →
    (bm = 0 ↔ (bm.testBit 0 = false ∧ bm.testBit 1 = false ∧ bm.testBit 2 = false)) := by
  decide

/-- The bits of `op_bitmap`: bit `j` is set when the operator with offset `j`
has been read. -/
theorem ops_bitmap_bits : ∀ (ops : List Nat) (bm : Nat), bm < 8 →
    (∀ o ∈ ops, o = BASIC_KEYWORD_GREATER ∨ o = BASIC_KEYWORD_EQUALS ∨ o = BASIC_KEYWORD_LESS) →
    ops_bitmap bm ops < 8 ∧
    ∀ j, j < 3 → (ops_bitmap bm ops).testBit j = (bm.testBit j || decide (0x9c + j ∈ ops))
  | [], bm, hb, _ => by
    simp [ops_bitmap, hb]
  | o :: r, bm, hb, ho => by
    have hk : o - BASIC_KEYWORD_RANGE_BEGIN_COMPARISON_OPERATORS < 3 ∧
        o = 0x9c + (o - BASIC_KEYWORD_RANGE_BEGIN_COMPARISON_OPERATORS) := by
      have := ho o (List.mem_cons_self _ _)
      simp only [BASIC_KEYWORD_RANGE_BEGIN_COMPARISON_OPERATORS, BASIC_KEYWORD_GREATER,
        BASIC_KEYWORD_EQUALS, BASIC_KEYWORD_LESS] at this ⊢
      omega
    obtain ⟨s1, s2⟩ := bitmap_step bm hb _ hk.1
    obtain ⟨i1, i2⟩ := ops_bitmap_bits r _ s1 (fun x hx => ho x (List.mem_cons_of_mem _ hx))
    have e : ops_bitmap bm (o :: r) = ops_bitmap
        ((bm ||| (1 <<< (o - BASIC_KEYWORD_RANGE_BEGIN_COMPARISON_OPERATORS))) % 256) r := rfl
    rw [e]
    refine ⟨i1, fun j hj => ?_⟩
    rw [i2 j hj, s2 j hj]
    have : (0x9c + j = o) ↔ j = o - BASIC_KEYWORD_RANGE_BEGIN_COMPARISON_OPERATORS := by
      have := hk.2
      simp only [BASIC_KEYWORD_RANGE_BEGIN_COMPARISON_OPERATORS] at this ⊢
      omega
    simp only [List.mem_cons, Bool.or_assoc, this, Bool.decide_or]

/-- The test `(op_bitmap & cmp_bitmap) != 0` of `handler_if`: it holds when one
of the operators read names a relation that holds. -/
theorem if_test_spec (P : FPU) (lhs rhs : F32) (ops : List Nat)
    (ho : ∀ o ∈ ops, o = BASIC_KEYWORD_GREATER ∨ o = BASIC_KEYWORD_EQUALS ∨
      o = BASIC_KEYWORD_LESS) :
    (ops_bitmap 0 ops &&& cmp_bitmap P lhs rhs ≠ 0) ↔ ∃ o ∈ ops, relation_holds P lhs rhs o := by
  obtain ⟨b1, b2⟩ := ops_bitmap_bits ops 0 (by decide) ho
  have hc : cmp_bitmap P lhs rhs =
      (((if (P.lt rhs lhs).1 = true then 1 else 0) <<< 0) |||
        ((if P.eq lhs rhs = true then 1 else 0) <<< 1) |||
        ((if (P.lt lhs rhs).1 = true then 1 else 0) <<< 2)) := rfl
  rw [hc, bitmap_test _ b1, b2 0 (by decide), b2 1 (by decide), b2 2 (by decide)]
  simp only [Nat.zero_testBit, Bool.false_or, decide_eq_true_eq]
  constructor
  · rintro (⟨h, g⟩ | ⟨h, g⟩ | ⟨h, g⟩)
    · exact ⟨_, h, Or.inl ⟨rfl, g⟩⟩
    · exact ⟨_, h, Or.inr (Or.inl ⟨rfl, g⟩)⟩
    · exact ⟨_, h, Or.inr (Or.inr ⟨rfl, g⟩)⟩
  · rintro ⟨o, ho', (⟨rfl, g⟩ | ⟨rfl, g⟩ | ⟨rfl, g⟩)⟩
    · exact Or.inl ⟨ho', g⟩
    · exact Or.inr (Or.inl ⟨ho', g⟩)
    · exact Or.inr (Or.inr ⟨ho', g⟩)

theorem ops_bitmap_eq_zero (ops : List Nat)
    (ho : ∀ o ∈ ops, o = BASIC_KEYWORD_GREATER ∨ o = BASIC_KEYWORD_EQUALS ∨
      o = BASIC_KEYWORD_LESS) : ops_bitmap 0 ops = 0 ↔ ops = [] := by
  obtain ⟨b1, b2⟩ := ops_bitmap_bits ops 0 (by decide) ho
  rw [bitmap_zero _ b1, b2 0 (by decide), b2 1 (by decide), b2 2 (by decide)]
  simp only [Nat.zero_testBit, Bool.false_or, decide_eq_false_iff_not]
  constructor
  · rintro ⟨h0, h1, h2⟩
    cases ops with
    | nil => rfl
    | cons o r =>
      exfalso
      rcases ho o (List.mem_cons_self _ _) with rfl | rfl | rfl
      · exact h0 (List.mem_cons_self _ _)
      · exact h1 (List.mem_cons_self _ _)
      · exact h2 (List.mem_cons_self _ _)
  · rintro rfl
    simp

/-- C16: the condition of IF.  After the left-hand side, `handler_if` reads
the comparison opcodes `<`, `=`, `>` in any order and number; with none it
fails with SYNTAX.  With the right-hand side and THEN read, the condition is
true, and the statement goes on after THEN (or jumps to the line number that
follows), if and only if one of the opcodes read names a relation that holds
between the two values; when it is false the parse pointer is moved to the NUL
that ends the line. -/
theorem C16_handler_if (P : FPU) (fuel : Nat) (bs bs1 : BASIC_MAIN_STATE) (p : Nat) (lhs : F32)
    (l : List Nat) (h1 : bs_expression P fuel bs bs.parse_ptr = .ret (.OK, p, lhs, bs1))
    (hl : IsCStr bs1.prog.base p l) (hfuel : l.length + 1 < fuel) :
    ((if_ops_scan l).1 = [] → handler_if P fuel bs = .ret (.SYNTAX, bs1)) ∧
    ((if_ops_scan l).1 ≠ [] → ∀ (p2 : Nat) (rhs : F32) (bs2 : BASIC_MAIN_STATE) (p3 : Nat)
        (tail : List Nat),
      bs_expression P fuel bs1 (p + (if_ops_scan l).2) = .ret (.OK, p2, rhs, bs2) →
      basic_parsing_skipws bs2.prog.base fuel p2 = some p3 →
      bs2.prog.base p3 = BASIC_KEYWORD_THEN →
      IsCStr bs2.prog.base (p3 + 1) tail → tail.length < fuel →
      ((∃ o ∈ (if_ops_scan l).1, relation_holds P lhs rhs o) →
        handler_if P fuel bs =
          match basic_parsing_uint16 fuel bs2.prog.base (p3 + 1) 0 with
          | none => .out_of_fuel
          | some (pr2, p4, line) =>
            if pr2 = .OK then goto_run_common fuel { bs2 with parse_ptr := p4 } line true
            else .ret (.OK, { bs2 with parse_ptr := p4 })) ∧
      (¬ (∃ o ∈ (if_ops_scan l).1, relation_holds P lhs rhs o) →
        handler_if P fuel bs = .ret (.OK, { bs2 with parse_ptr := p3 + 1 + tail.length }) ∧
        bs2.prog.base (p3 + 1 + tail.length) = 0)) := by
  have hops := if_operators_spec fuel l p 0 hl hfuel
  have hrange := if_ops_scan_range l
  refine ⟨fun hnil => ?_, fun hne p2 rhs bs2 p3 tail h2 h3 h4 h5 h6 => ⟨fun hrel => ?_, fun hrel => ?_⟩⟩
  · have hz := (ops_bitmap_eq_zero _ hrange).mpr hnil
    simp only [handler_if, h1, hops, hz]
    simp
  · have hz : ¬ ops_bitmap 0 (if_ops_scan l).1 = 0 := fun h =>
      hne ((ops_bitmap_eq_zero _ hrange).mp h)
    have ht := (if_test_spec P lhs rhs _ hrange).mpr hrel
    simp only [handler_if, h1, hops, if_neg hz, h2, h3, h4]
    simp only [ne_eq, not_true_eq_false, if_false, reduceCtorEq]
    rw [if_pos ht]
  · have hz : ¬ ops_bitmap 0 (if_ops_scan l).1 = 0 := fun h =>
      hne ((ops_bitmap_eq_zero _ hrange).mp h)
    have ht : ¬ (ops_bitmap 0 (if_ops_scan l).1 &&& cmp_bitmap P lhs rhs ≠ 0) := fun h =>
      hrel ((if_test_spec P lhs rhs _ hrange).mp h)
    have hs := strlen_spec fuel tail (p3 + 1) h5 h6
    refine ⟨?_, IsCStr_nul _ _ h5⟩
    simp only [handler_if, h1, hops, if_neg hz, h2, h3, h4, ht, handler_rem, hs]
    simp

theorem outcome_eq_ret {α : Type} (x : Outcome α) (d : α) (h : x.is_ret = true) :
    x = .ret (x.get_or d) := by
  cases x <;> simp_all [Outcome.is_ret, Outcome.get_or]

theorem prod4_eta {α β γ δ : Type} (a : α × β × γ × δ) (x : α) (h : a.1 = x) :
    a = (x, a.2.1, a.2.2.1, a.2.2.2) := by
  obtain ⟨a1, a2, a3, a4⟩ := a
  simp only at h
  rw [h]

/-- Witness of C16: in `if_demo` the condition `1<2` is true and the statement
goes on after THEN, at address 1005. -/
theorem C16_handler_if_witness :
    (match handler_if nat_fpu 20 if_demo with
      | .ret (r, b) => some (r, b.parse_ptr)
      | _ => none) = some (.OK, 1005) := by
  have h1 : bs_expression nat_fpu 20 if_demo if_demo.parse_ptr =
      .ret (.OK, if_demo_lhs.2.1, if_demo_lhs.2.2.1, if_demo_lhs.2.2.2) :=
    (outcome_eq_ret _ (.INTERNAL, 0, 0, if_demo) (by decide!)).trans
      (congrArg Outcome.ret (prod4_eta if_demo_lhs .OK (by decide!)))
  have e : 1002 = if_demo_lhs.2.1 + (if_ops_scan [0x9e, 50, 32, 0x96]).2 := by decide!
  have h2 : bs_expression nat_fpu 20 if_demo_lhs.2.2.2
      (if_demo_lhs.2.1 + (if_ops_scan [0x9e, 50, 32, 0x96]).2) =
      .ret (.OK, if_demo_rhs.2.1, if_demo_rhs.2.2.1, if_demo_rhs.2.2.2) :=
    e ▸ (outcome_eq_ret (bs_expression nat_fpu 20 if_demo_lhs.2.2.2 1002)
      (.INTERNAL, 0, 0, if_demo) (by decide!)).trans
      (congrArg Outcome.ret (prod4_eta if_demo_rhs .OK (by decide!)))
  have h := ((C16_handler_if nat_fpu 20 if_demo if_demo_lhs.2.2.2 if_demo_lhs.2.1
    if_demo_lhs.2.2.1 [0x9e, 50, 32, 0x96] h1 (by decide!) (by decide)).2 (by decide)
    if_demo_rhs.2.1 if_demo_rhs.2.2.1 if_demo_rhs.2.2.2 1004 [] h2 (by decide!) (by decide!)
    (by decide!) (by decide)).1 ⟨0x9e, by decide, Or.inr (Or.inr ⟨rfl, by decide!⟩)⟩
  rw [h]
  decide!

/-- C6, the failing run: in a 20-byte arena the lines `10 A`, `20 B` and
`10 AAAAAAA` are typed (the third cannot be stored, and `vars_idx` is 9); then
the line `20` is typed to delete line 20.  `prog_storage_store_line` takes the
stale offset 13 of the record of line 20 as its end and subtracts 12 from
`vars_idx`, `array_idx` and `free_idx`, which become 4294967293. -/
theorem C6_stale_chain_breaks_program_end :
    ((process_lines nat_fpu 30 main_demo_20
        [[49, 48, 32, 65], [50, 48, 32, 66], [49, 48, 32, 65, 65, 65, 65, 65, 65, 65]]).map
      (fun bs => [bs.prog.vars_idx, bs.prog.array_idx, bs.prog.free_idx, bs.prog.stktop_idx,
        bs.prog.max_idx, le16 (bs.prog.base 1) (bs.prog.base 2)]),
     (process_lines nat_fpu 30 main_demo_20
        [[49, 48, 32, 65], [50, 48, 32, 66], [49, 48, 32, 65, 65, 65, 65, 65, 65, 65],
          [50, 48]]).map
      (fun bs => [bs.prog.vars_idx, bs.prog.array_idx, bs.prog.free_idx, bs.prog.stktop_idx,
        bs.prog.max_idx])) =
    (some [9, 9, 9, 20, 20, 13], some [4294967293, 4294967293, 4294967293, 20, 20]) := by
  decide!

/-! ## The expression evaluator -/

theorem MemIs_mem_write_list : ∀ (l : List Nat) (m : Mem) (a : Nat), (∀ c ∈ l, c < 256) →
    MemIs (mem_write_list m a l) a l
  | [], _, _, _ => trivial
  | c :: cs, m, a, h => by
    simp only [mem_write_list, MemIs]
    refine ⟨?_, MemIs_mem_write_list cs _ (a + 1) (fun x hx => h x (by simp [hx]))⟩
    rw [mem_write_list_other cs _ (a + 1) a (by omega), mem_write_same]
    exact Nat.mod_eq_of_lt (h c (by simp))

theorem mem_read_list_MemIs {m : Mem} : ∀ (l : List Nat) (p : Nat), MemIs m p l →
    mem_read_list m p l.length = l
  | [], _, _ => rfl
  | c :: cs, p, h => by
    simp only [MemIs] at h
    simp only [List.length_cons, mem_read_list, h.1, mem_read_list_MemIs cs (p + 1) h.2]

theorem ExprStack.init (M0 : BASIC_MEM_MGR) (h1 : M0.free_idx ≤ M0.stktop_idx)
    (h2 : M0.stktop_idx ≤ M0.max_idx) (h3 : M0.max_idx < UINT) : ExprStack M0 M0 [] :=
  ⟨rfl, rfl, rfl, Nat.le_refl _, h1, rfl, trivial, fun _ _ => rfl, h2, h3⟩

/-- A checked push on the expression stack that fits. -/
theorem ExprStack.push {M0 mem : BASIC_MEM_MGR} {K : List Nat} (h : ExprStack M0 mem K)
    (bs : List Nat) (hb : ∀ c ∈ bs, c < 256) (hfit : bs.length ≤ mem.stktop_idx - mem.free_idx) :
    ∃ mem1, fgstack_push_expression mem bs = (true, mem1) ∧ ExprStack M0 mem1 (bs ++ K) ∧
      mem1.free_idx = mem.free_idx := by
  obtain ⟨h1, h2, h3, h4, h5, h6, h7, h8, h9, h10⟩ := h
  have hu : usub mem.stktop_idx mem.free_idx = mem.stktop_idx - mem.free_idx :=
    usub_eq (by omega) h5
  have hu2 : usub mem.stktop_idx bs.length = mem.stktop_idx - bs.length :=
    usub_eq (by omega) (by omega)
  refine ⟨{ mem with
      stktop_idx := mem.stktop_idx - bs.length
      base := mem_write_list mem.base (mem.stktop_idx - bs.length) bs },
    by simp only [fgstack_push_expression, hu, hu2, Nat.not_lt.2 hfit, if_false], ?_, rfl⟩
  refine ⟨h1, h2, h3, h4, by show mem.free_idx ≤ mem.stktop_idx - bs.length; omega,
    by show mem.stktop_idx - bs.length + (bs ++ K).length = _; simp only [List.length_append]; omega,
    ?_, ?_, h9, h10⟩
  · show MemIs (mem_write_list mem.base (mem.stktop_idx - bs.length) bs)
      (mem.stktop_idx - bs.length) (bs ++ K)
    rw [MemIs_append]
    refine ⟨MemIs_mem_write_list bs _ _ hb, ?_⟩
    rw [show mem.stktop_idx - bs.length + bs.length = mem.stktop_idx by omega]
    refine MemIs_congr K _ ?_ h7
    intro a ha1 ha2
    exact mem_write_list_other bs _ _ a (by omega)
  · intro x hx
    show mem_write_list mem.base (mem.stktop_idx - bs.length) bs x = _
    rw [mem_write_list_other bs _ _ x (by omega)]
    exact h8 x hx

/-- A checked push on the expression stack that does not fit. -/
theorem ExprStack.push_fail {M0 mem : BASIC_MEM_MGR} {K : List Nat} (h : ExprStack M0 mem K)
    (bs : List Nat) (hfit : mem.stktop_idx - mem.free_idx < bs.length) :
    fgstack_push_expression mem bs = (false, mem) := by
  obtain ⟨h1, h2, h3, h4, h5, h6, h7, h8, h9, h10⟩ := h
  have hu : usub mem.stktop_idx mem.free_idx = mem.stktop_idx - mem.free_idx :=
    usub_eq (by omega) h5
  simp only [fgstack_push_expression, hu, hfit, if_true]

/-- The result of a checked push that fits, as a term. -/
theorem ExprStack.push_eq {M0 mem : BASIC_MEM_MGR} {K : List Nat} (h : ExprStack M0 mem K)
    (bs : List Nat) (hb : ∀ c ∈ bs, c < 256) (hfit : bs.length ≤ mem.stktop_idx - mem.free_idx) :
    ExprStack M0 (fgstack_push_expression mem bs).2 (bs ++ K) ∧
      (fgstack_push_expression mem bs).2.free_idx = mem.free_idx := by
  obtain ⟨m1, e, i1, i2⟩ := h.push bs hb hfit
  rw [e]; exact ⟨i1, i2⟩

/-- An unchecked push of one byte when there is room for it. -/
theorem ExprStack.push_byte {M0 mem : BASIC_MEM_MGR} {K : List Nat} (h : ExprStack M0 mem K)
    (b : Nat) (hb : b < 256) (hfit : 1 ≤ mem.stktop_idx - mem.free_idx) :
    ExprStack M0 (fgstack_push_expression_byte_nocheck mem b) (b :: K) ∧
      (fgstack_push_expression_byte_nocheck mem b).free_idx = mem.free_idx := by
  have e : fgstack_push_expression_byte_nocheck mem b = (fgstack_push_expression mem [b]).2 := by
    obtain ⟨h1, h2, h3, h4, h5, h6, h7, h8, h9, h10⟩ := h
    have hu : usub mem.stktop_idx mem.free_idx = mem.stktop_idx - mem.free_idx :=
      usub_eq (by omega) h5
    simp only [fgstack_push_expression_byte_nocheck, fgstack_push_expression, hu,
      List.length_singleton, Nat.not_lt.2 hfit, if_false, mem_write_list]
  rw [e]
  exact h.push_eq [b] (by simpa using hb) (by simpa using hfit)

/-- A pop from the expression stack gives back the bytes pushed last. -/
theorem ExprStack.pop {M0 mem : BASIC_MEM_MGR} {K : List Nat} (bs : List Nat)
    (h : ExprStack M0 mem (bs ++ K)) :
    ∃ mem1, fgstack_pop_expression mem bs.length = some (bs, mem1) ∧ ExprStack M0 mem1 K ∧
      mem1.free_idx = mem.free_idx ∧ mem1.base = mem.base := by
  obtain ⟨h1, h2, h3, h4, h5, h6, h7, h8, h9, h10⟩ := h
  simp only [List.length_append] at h6
  have hu : usub mem.max_idx bs.length = mem.max_idx - bs.length :=
    usub_eq (by omega) (by omega)
  have hu2 : u32 (mem.stktop_idx + bs.length) = mem.stktop_idx + bs.length :=
    u32_eq (by omega)
  rw [MemIs_append] at h7
  refine ⟨{ mem with stktop_idx := mem.stktop_idx + bs.length }, by
    simp only [fgstack_pop_expression, hu, hu2, mem_read_list_MemIs bs _ h7.1]
    rw [if_neg (by omega)], ?_, rfl, rfl⟩
  exact ⟨h1, h2, h3, h4, by show mem.free_idx ≤ mem.stktop_idx + bs.length; omega,
    by show mem.stktop_idx + bs.length + K.length = _; omega, h7.2, h8, h9, h10⟩

theorem ExprStack.check_space {M0 mem : BASIC_MEM_MGR} {K : List Nat} (h : ExprStack M0 mem K)
    (n : Nat) : fgstack_check_space mem n = decide (n ≤ mem.stktop_idx - mem.free_idx) := by
  obtain ⟨h1, h2, h3, h4, h5, h6, h7, h8, h9, h10⟩ := h
  have hu : usub mem.stktop_idx mem.free_idx = mem.stktop_idx - mem.free_idx :=
    usub_eq (by omega) h5
  simp only [fgstack_check_space, basic_mem_check_space, hu]

theorem SameText.mono {m m1 : Mem} {p e : Nat} (h : SameText m m1 p e) (q : Nat) (h1 : p ≤ q)
    (h2 : q ≤ e) : SameText m m1 q e :=
  ⟨h2, h.2.1, fun x hx1 hx2 => h.2.2 x (by omega) hx2⟩

theorem SameText.lt {m m1 : Mem} {p e : Nat} (h : SameText m m1 p e) (hne : m p ≠ 0) : p < e := by
  rcases Nat.lt_or_ge p e with h1 | h1
  · exact h1
  · have : p = e := Nat.le_antisymm h.1 h1
    rw [this] at hne
    exact absurd h.2.1 hne

theorem SameText.at {m m1 : Mem} {p e : Nat} (h : SameText m m1 p e) : m1 p = m p :=
  h.2.2 p (Nat.le_refl _) h.1

theorem SameText.refl {m : Mem} {p e : Nat} (h1 : p ≤ e) (h2 : m e = 0) : SameText m m p e :=
  ⟨h1, h2, fun _ _ _ => rfl⟩

/-- `basic_parsing_skipws` stays inside the text and reads only the text. -/
theorem skipws_text {m m1 : Mem} {e : Nat} : ∀ (fuel p : Nat), SameText m m1 p e →
    e - p < fuel → ∃ q, basic_parsing_skipws m fuel p = some q ∧
      basic_parsing_skipws m1 fuel p = some q ∧ p ≤ q ∧ q ≤ e ∧ m q ≠ 32
  | 0, _, _, hf => by omega
  | fuel + 1, p, h, hf => by
    simp only [basic_parsing_skipws, h.at]
    by_cases hc : m p = 32
    · have hlt : p < e := h.lt (by omega)
      obtain ⟨q, e1, e2, e3, e4, e5⟩ := skipws_text fuel (p + 1) (h.mono _ (by omega) hlt)
        (by omega)
      exact ⟨q, by simp only [hc, if_true, e1], by simp only [hc, if_true, e2], by omega, e4, e5⟩
    · exact ⟨p, by simp only [hc, if_false], by simp only [hc, if_false], Nat.le_refl _, h.1, hc⟩

/-- The digit loops of `basic_parsing_float` stay inside the text. -/
theorem float_digits_text (P : FPU) {m m1 : Mem} {e : Nat} : ∀ (fuel p : Nat) (val : F32)
    (fl : FEFlags) (n : Nat), SameText m m1 p e → e - p < fuel →
    ∃ res, float_digits P m fuel p val fl n = some res ∧
      float_digits P m1 fuel p val fl n = some res ∧ p ≤ res.1 ∧ res.1 ≤ e
  | 0, _, _, _, _, _, hf => by omega
  | fuel + 1, p, val, fl, n, h, hf => by
    simp only [float_digits, h.at]
    by_cases hc : 48 ≤ m p ∧ m p ≤ 57
    · have hlt : p < e := h.lt (by omega)
      obtain ⟨q, e1, e2, e3, e4, _⟩ := skipws_text fuel (p + 1) (h.mono _ (by omega) hlt)
        (by omega)
      obtain ⟨res, r1, r2, r3, r4⟩ := float_digits_text P fuel q
        (P.add (P.mul val f32_ten).1 (P.of_int (m p - 48))).1
        ((fl.or (P.mul val f32_ten).2).or
            (P.add (P.mul val f32_ten).1 (P.of_int (m p - 48))).2) (n + 1)
        (h.mono _ (by omega) e4) (by omega)
      exact ⟨res, by simp only [hc, and_self, if_true, e1, r1],
        by simp only [hc, and_self, if_true, e2, r2], by omega, r4⟩
    · exact ⟨(p, val, fl, n), by simp only [hc, if_false], by simp only [hc, if_false],
        Nat.le_refl _, h.1⟩

theorem float_fraction_text (P : FPU) {m m1 : Mem} {e : Nat} (fuel p : Nat) (val : F32)
    (fl : FEFlags) (h : SameText m m1 p e) (hf : e - p < fuel) :
    ∃ res, float_fraction P m fuel p val fl = some res ∧
      float_fraction P m1 fuel p val fl = some res ∧ p ≤ res.1 ∧ res.1 ≤ e := by
  simp only [float_fraction, h.at]
  by_cases hc : m p = 46
  · have hlt : p < e := h.lt (by omega)
    obtain ⟨q, e1, e2, e3, e4, _⟩ := skipws_text fuel (p + 1) (h.mono _ (by omega) hlt)
      (by omega)
    obtain ⟨res, r1, r2, r3, r4⟩ := float_digits_text P fuel q val fl 0
      (h.mono _ (by omega) e4) (by omega)
    exact ⟨res, by simp only [hc, if_true, e1, r1], by simp only [hc, if_true, e2, r2],
      by omega, r4⟩
  · exact ⟨(p, val, fl, 0), by simp only [hc, if_false], by simp only [hc, if_false],
      Nat.le_refl _, h.1⟩

theorem uint16_loop_text {m m1 : Mem} {e : Nat} : ∀ (fuel p result : Nat) (r : BASIC_ERROR_ID),
    SameText m m1 p e → e - p + 1 < fuel →
    ∃ res, uint16_loop m fuel p result r = some res ∧
      uint16_loop m1 fuel p result r = some res ∧ p ≤ res.2.1 ∧ res.2.1 ≤ e
  | 0, _, _, _, _, hf => by omega
  | fuel + 1, p, result, r, h, hf => by
    obtain ⟨q, e1, e2, e3, e4, _⟩ := skipws_text fuel p h (by omega)
    have hq := h.mono q e3 e4
    simp only [uint16_loop, e1, e2, hq.at]
    by_cases hd : IS_DIGIT (m q) = true
    · simp only [hd, if_true]
      by_cases h1 : result ≥ 10000
      · exact ⟨(.SYNTAX, q, result), by simp only [h1, if_true], by simp only [h1, if_true],
          e3, e4⟩
      · by_cases h2 : 65535 - (m q - 48) < result * 10
        · exact ⟨(.SYNTAX, q, result), by simp only [h1, h2, if_true, if_false],
            by simp only [h1, h2, if_true, if_false], e3, e4⟩
        · have hlt : q < e := hq.lt (by
            simp only [IS_DIGIT, decide_eq_true_eq] at hd; omega)
          obtain ⟨res, r1, r2, r3, r4⟩ := uint16_loop_text fuel (q + 1)
            (result * 10 + (m q - 48)) .OK (hq.mono _ (by omega) hlt) (by omega)
          exact ⟨res, by simp only [h1, h2, if_false, r1], by simp only [h1, h2, if_false, r2],
            by omega, r4⟩
    · exact ⟨(r, q, result), by simp only [hd]; rfl, by simp only [hd]; rfl, e3, e4⟩

theorem uint16_text {m m1 : Mem} {e : Nat} (fuel p out : Nat) (h : SameText m m1 p e)
    (hf : e - p + 1 < fuel) :
    ∃ res, basic_parsing_uint16 fuel m p out = some res ∧
      basic_parsing_uint16 fuel m1 p out = some res ∧ p ≤ res.2.1 ∧ res.2.1 ≤ e := by
  obtain ⟨⟨r, q, v⟩, r1, r2, r3, r4⟩ := uint16_loop_text fuel p 0 .NOT_FOUND h hf
  simp only [basic_parsing_uint16, r1, r2]
  by_cases hr : r = .OK
  · exact ⟨(.OK, q, v), by simp only [hr, if_true], by simp only [hr, if_true], r3, r4⟩
  · exact ⟨(r, p, out), by simp only [hr, if_false], by simp only [hr, if_false],
      Nat.le_refl _, h.1⟩

theorem float_exponent_text {m m1 : Mem} {e : Nat} (fuel p : Nat) (h : SameText m m1 p e)
    (hf : e - p < fuel) :
    ∃ res, float_exponent m fuel p = some res ∧ float_exponent m1 fuel p = some res ∧
      p ≤ res.2.1 ∧ res.2.1 ≤ e := by
  simp only [float_exponent, h.at]
  by_cases hc : m p = 101 ∨ m p = 69
  · have hlt : p < e := h.lt (by omega)
    obtain ⟨q, e1, e2, e3, e4, _⟩ := skipws_text fuel (p + 1) (h.mono _ (by omega) hlt)
      (by omega)
    have hq := h.mono q (by omega) e4
    simp only [hc, if_true, e1, e2, hq.at]
    by_cases hp : m q = BASIC_KEYWORD_PLUS
    · have hlt2 : q < e := hq.lt (by rw [hp]; decide)
      obtain ⟨q2, f1, f2, f3, f4, _⟩ := skipws_text fuel (q + 1) (hq.mono _ (by omega) hlt2)
        (by omega)
      obtain ⟨⟨r, q3, v⟩, r1, r2, r3, r4⟩ := uint16_text fuel q2 0 (h.mono q2 (by omega) f4)
        (by omega)
      exact ⟨(r, q3, 1 * (v : Int)), by simp only [hp, if_true, f1, r1],
        by simp only [hp, if_true, f2, r2], by show p ≤ q3; simp only at r3; omega, r4⟩
    · by_cases hm : m q = BASIC_KEYWORD_MINUS
      · have hlt2 : q < e := hq.lt (by rw [hm]; decide)
        obtain ⟨q2, f1, f2, f3, f4, _⟩ := skipws_text fuel (q + 1) (hq.mono _ (by omega) hlt2)
          (by omega)
        obtain ⟨⟨r, q3, v⟩, r1, r2, r3, r4⟩ := uint16_text fuel q2 0 (h.mono q2 (by omega) f4)
          (by omega)
        have hne : ¬ BASIC_KEYWORD_MINUS = BASIC_KEYWORD_PLUS := by decide
        exact ⟨(r, q3, -1 * (v : Int)), by simp only [hm, hne, if_true, if_false, f1, r1],
          by simp only [hm, hne, if_true, if_false, f2, r2],
          by show p ≤ q3; simp only at r3; omega, r4⟩
      · obtain ⟨⟨r, q3, v⟩, r1, r2, r3, r4⟩ := uint16_text fuel q 0 hq (by omega)
        exact ⟨(r, q3, 1 * (v : Int)), by simp only [hp, hm, if_false, r1],
          by simp only [hp, hm, if_false, r2], by show p ≤ q3; simp only at r3; omega, r4⟩
  · exact ⟨(.OK, p, 0), by simp only [hc, if_false], by simp only [hc, if_false],
      Nat.le_refl _, h.1⟩

/-- `basic_parsing_float` returns, stays inside the text and reads only the
text. -/
theorem float_text (P : FPU) {m m1 : Mem} {e : Nat} (fuel p : Nat) (out : F32)
    (h : SameText m m1 p e) (hf : e - p < fuel) :
    ∃ res, basic_parsing_float P fuel m p out = some res ∧
      basic_parsing_float P fuel m1 p out = some res ∧ p ≤ res.2.1 ∧ res.2.1 ≤ e := by
  obtain ⟨⟨p1, val1, fl1, n1⟩, a1, a2, a3, a4⟩ := float_digits_text P fuel p 0 FE_NONE 0 h hf
  simp only at a3 a4
  obtain ⟨⟨p2, val2, fl2, nfrac⟩, b1, b2, b3, b4⟩ := float_fraction_text P fuel p1 val1 fl1
    (h.mono p1 a3 a4) (by omega)
  simp only at b3 b4
  obtain ⟨⟨r, p3, ex⟩, c1, c2, c3, c4⟩ := float_exponent_text fuel p2
    (h.mono p2 (by omega) b4) (by omega)
  simp only at c3 c4
  simp only [basic_parsing_float, a1, a2, b1, b2, c1, c2]
  by_cases hr : r ≠ .NOT_FOUND ∧ r ≠ .OK
  · exact ⟨(r, p, out), by simp only [hr, ne_eq, not_false_eq_true, and_self, if_true],
      by simp only [hr, ne_eq, not_false_eq_true, and_self, if_true], Nat.le_refl _, h.1⟩
  · rw [if_neg hr]
    by_cases h1 : except_to_basic_error ((fl2.or (P.powf f32_ten (P.of_int (ex - (nfrac : Int)))).2).or
        (P.mul val2 (P.powf f32_ten (P.of_int (ex - (nfrac : Int)))).1).2) = .OK
    · rw [if_pos h1]
      exact ⟨_, rfl, rfl, by show p ≤ p3; omega, c4⟩
    · rw [if_neg h1]
      exact ⟨_, rfl, rfl, by show p ≤ p3; omega, c4⟩

/-- `basic_parsing_varname` returns, stays inside the text and reads only the
text. -/
theorem varname_text {m m1 : Mem} {e : Nat} (fuel p out : Nat) (h : SameText m m1 p e)
    (hf : e - p < fuel) :
    ∃ res, basic_parsing_varname fuel m p out = some res ∧
      basic_parsing_varname fuel m1 p out = some res ∧ p ≤ res.2.1 ∧ res.2.1 ≤ e ∧
      (res.1 = .OK → p < res.2.1 ∧ m res.2.1 ≠ 32) ∧ (res.1 = .OK ∨ res.1 = .SYNTAX) := by
  simp only [basic_parsing_varname, h.at]
  by_cases hc : IS_ALPHA (m p) = false
  · exact ⟨(.SYNTAX, p, out), by simp only [hc, if_true], by simp only [hc, if_true],
      Nat.le_refl _, h.1, by simp, by simp⟩
  · have hlt : p < e := h.lt (by
      intro h0; rw [h0] at hc; exact hc (by decide))
    obtain ⟨q, e1, e2, e3, e4, e5⟩ := skipws_text fuel (p + 1) (h.mono _ (by omega) hlt)
      (by omega)
    have hq := h.mono q (by omega) e4
    rw [if_neg hc, if_neg hc]
    simp only [e1, e2, hq.at]
    by_cases hd : IS_DIGIT (m q) = true
    · have hlt2 : q < e := hq.lt (by
        intro h0; rw [h0] at hd; exact absurd hd (by decide))
      obtain ⟨q2, f1, f2, f3, f4, f5⟩ := skipws_text fuel (q + 1) (hq.mono _ (by omega) hlt2)
        (by omega)
      simp only [hd, if_true, f1, f2]
      exact ⟨_, rfl, rfl, by show p ≤ q2; omega, f4,
        fun _ => ⟨by show p < q2; omega, f5⟩, Or.inl rfl⟩
    · rw [if_neg hd, if_neg hd]
      exact ⟨_, rfl, rfl, by show p ≤ q; omega, e4, fun _ => ⟨by show p < q; omega, e5⟩,
        Or.inl rfl⟩

/-- The sign loop of a term returns, stays inside the text and reads only the
text; it stops on a byte that is no space and no sign. -/
theorem term_signs_text {m m1 : Mem} {e : Nat} : ∀ (fuel p : Nat) (neg : Bool),
    SameText m m1 p e → e - p + 1 < fuel →
    ∃ res, term_signs m fuel p neg = some res ∧ term_signs m1 fuel p neg = some res ∧
      p ≤ res.1 ∧ res.1 ≤ e ∧ m res.1 ≠ 32 ∧ m res.1 ≠ BASIC_KEYWORD_PLUS ∧
      m res.1 ≠ BASIC_KEYWORD_MINUS
  | 0, _, _, _, hf => by omega
  | fuel + 1, p, neg, h, hf => by
    obtain ⟨q, e1, e2, e3, e4, e5⟩ := skipws_text fuel p h (by omega)
    have hq := h.mono q e3 e4
    simp only [term_signs, e1, e2, hq.at]
    by_cases h0 : m q = 0
    · exact ⟨(q, neg), by simp [h0], by simp [h0], e3, e4, e5, by rw [h0]; decide,
        by rw [h0]; decide⟩
    · have hlt : q < e := hq.lt h0
      by_cases hp : m q = BASIC_KEYWORD_PLUS
      · obtain ⟨res, r1, r2, r3, r4, r5⟩ := term_signs_text fuel (q + 1) neg
          (hq.mono _ (by omega) hlt) (by omega)
        have hne0 : ¬ BASIC_KEYWORD_PLUS = 0 := by decide
        exact ⟨res, by simp only [hp, hne0, ne_eq, not_false_eq_true, if_true, r1],
          by simp only [hp, hne0, ne_eq, not_false_eq_true, if_true, r2], by omega, r4, r5⟩
      · by_cases hm : m q = BASIC_KEYWORD_MINUS
        · obtain ⟨res, r1, r2, r3, r4, r5⟩ := term_signs_text fuel (q + 1) (!neg)
            (hq.mono _ (by omega) hlt) (by omega)
          have hne : ¬ BASIC_KEYWORD_MINUS = BASIC_KEYWORD_PLUS := by decide
          have hne0 : ¬ BASIC_KEYWORD_MINUS = 0 := by decide
          exact ⟨res, by simp only [hm, hne, hne0, ne_eq, not_false_eq_true, if_true, if_false, r1],
            by simp only [hm, hne, hne0, ne_eq, not_false_eq_true, if_true, if_false, r2],
            by omega, r4, r5⟩
        · exact ⟨(q, neg), by simp only [h0, hp, hm, ne_eq, not_false_eq_true, if_true, if_false],
            by simp only [h0, hp, hm, ne_eq, not_false_eq_true, if_true, if_false],
            e3, e4, e5, hp, hm⟩

theorem engine_loop_next (P : FPU) (fuel pp : Nat) (out : F32) (n : Nat) {σ σ1 : EngState}
    (hs : σ.state ≠ PARSE_EXPR_STATE_EXITING) (h : engine_step P fuel σ = .next σ1) :
    engine_loop P fuel pp out (n + 1) σ = engine_loop P fuel pp out n σ1 := by
  simp only [engine_loop, hs, if_false, h]

theorem engine_loop_ret (P : FPU) (fuel pp : Nat) (out : F32) (n : Nat) {σ σ1 : EngState}
    {r : BASIC_ERROR_ID} (hs : σ.state ≠ PARSE_EXPR_STATE_EXITING)
    (h : engine_step P fuel σ = .ret r σ1) :
    engine_loop P fuel pp out (n + 1) σ = .ret r pp out σ1.mem σ1.seed := by
  simp only [engine_loop, hs, if_false, h]

theorem engine_loop_exit (P : FPU) (fuel pp : Nat) (out : F32) (n : Nat) {σ : EngState}
    (hs : σ.state = PARSE_EXPR_STATE_EXITING) :
    engine_loop P fuel pp out (n + 1) σ = .ret σ.r σ.p σ.lhs σ.mem σ.seed := by
  simp only [engine_loop, hs, if_true]

theorem engine_step_expression (P : FPU) (fuel : Nat) {σ : EngState}
    (hs : σ.state = PARSE_EXPR_STATE_EXPRESSION) :
    engine_step P fuel σ =
      match fgstack_push_expression σ.mem [PARSE_EXPR_STATE_FIRST_OPERATOR] with
      | (false, _) => .ret .OUT_OF_MEMORY σ
      | (true, m1) =>
        .next { σ with min_precedence := 0, state := PARSE_EXPR_STATE_TERM, mem := m1 } := by
  unfold engine_step
  rw [if_pos hs]

theorem engine_step_term (P : FPU) (fuel : Nat) {σ : EngState}
    (hs : σ.state = PARSE_EXPR_STATE_TERM) : engine_step P fuel σ = eng_term P fuel σ := by
  unfold engine_step; simp [hs]

theorem engine_step_subexpr_ret (P : FPU) (fuel : Nat) {σ : EngState}
    (hs : σ.state = PARSE_EXPR_STATE_SUBEXPR_RET) :
    engine_step P fuel σ = eng_subexpr_ret fuel σ := by
  unfold engine_step; simp [hs]

theorem engine_step_functionarg_ret (P : FPU) (fuel : Nat) {σ : EngState}
    (hs : σ.state = PARSE_EXPR_STATE_FUNCTIONARG_RET) :
    engine_step P fuel σ = eng_functionarg_ret P fuel σ := by
  unfold engine_step; simp [hs]

theorem engine_step_subscript_ret (P : FPU) (fuel : Nat) {σ : EngState}
    (hs : σ.state = PARSE_EXPR_STATE_SUBSCRIPT_RET) :
    engine_step P fuel σ = eng_subscript_ret P fuel σ := by
  unfold engine_step; simp [hs]

theorem engine_step_first_operator (P : FPU) (fuel : Nat) {σ : EngState}
    (hs : σ.state = PARSE_EXPR_STATE_FIRST_OPERATOR) :
    engine_step P fuel σ = .next { σ with lhs := σ.val, state := PARSE_EXPR_STATE_EXPR_1 } := by
  unfold engine_step; simp [hs]

theorem engine_step_expr_1 (P : FPU) (fuel : Nat) {σ : EngState}
    (hs : σ.state = PARSE_EXPR_STATE_EXPR_1) : engine_step P fuel σ = eng_expr_1 fuel σ := by
  unfold engine_step; simp [hs]

theorem engine_step_second_operator (P : FPU) (fuel : Nat) {σ : EngState}
    (hs : σ.state = PARSE_EXPR_STATE_SECOND_OPERATOR) :
    engine_step P fuel σ = eng_second_operator σ := by
  unfold engine_step; simp [hs]

theorem engine_step_precedence_down (P : FPU) (fuel : Nat) {σ : EngState}
    (hs : σ.state = PARSE_EXPR_STATE_PRECEDENCE_DOWN) :
    engine_step P fuel σ = eng_precedence_down σ := by
  unfold engine_step; simp [hs]

theorem engine_step_apply_operator (P : FPU) (fuel : Nat) {σ : EngState}
    (hs : σ.state = PARSE_EXPR_STATE_APPLY_OPERATOR) :
    engine_step P fuel σ = eng_apply_operator P σ := by
  unfold engine_step; simp [hs]

/-- The text of the expression is not touched by the stack: it reads the same
in the arena at entry and in the current one. -/
theorem ExprStack.text {M0 mem : BASIC_MEM_MGR} {K : List Nat} (h : ExprStack M0 mem K)
    {p0 p e : Nat} (h0 : M0.base e = 0) (hout : e < M0.free_idx ∨ M0.stktop_idx ≤ p0)
    (h1 : p0 ≤ p) (h2 : p ≤ e) : SameText M0.base mem.base p e :=
  ⟨h2, h0, fun x hx1 hx2 => h.same x (by omega)⟩

/-- The case `EXPRESSION`: the return state `FIRST_OPERATOR` is pushed. -/
theorem step_expression (P : FPU) (fuel : Nat) {M0 : BASIC_MEM_MGR} {σ : EngState}
    {K : List Nat} (hs : σ.state = PARSE_EXPR_STATE_EXPRESSION) (hk : ExprStack M0 σ.mem K) :
    (1 ≤ σ.mem.stktop_idx - σ.mem.free_idx → ∃ m1,
      engine_step P fuel σ =
        .next { σ with min_precedence := 0, state := PARSE_EXPR_STATE_TERM, mem := m1 } ∧
      ExprStack M0 m1 (PARSE_EXPR_STATE_FIRST_OPERATOR :: K) ∧
      m1.free_idx = σ.mem.free_idx) ∧
    (σ.mem.stktop_idx - σ.mem.free_idx < 1 →
      engine_step P fuel σ = .ret .OUT_OF_MEMORY σ) := by
  rw [engine_step_expression P fuel hs]
  constructor
  · intro hg
    obtain ⟨m1, e1, i1, i2⟩ := hk.push [PARSE_EXPR_STATE_FIRST_OPERATOR]
      (by intro c hc; simp at hc; subst hc; decide) (by simpa using hg)
    exact ⟨m1, by rw [e1], i1, i2⟩
  · intro hg
    rw [hk.push_fail [PARSE_EXPR_STATE_FIRST_OPERATOR] (by simpa using hg)]

/-- The entry of `expression_engine_norecurse`: the state `EXITING` is pushed. -/
theorem engine_enter (P : FPU) (fuel pp : Nat) (out : F32) (M0 : BASIC_MEM_MGR) (seed : Nat)
    (h1 : M0.free_idx ≤ M0.stktop_idx) (h2 : M0.stktop_idx ≤ M0.max_idx)
    (h3 : M0.max_idx < UINT) :
    (1 ≤ M0.stktop_idx - M0.free_idx → ∃ m1,
      expression_engine_norecurse P fuel pp out M0 seed =
        engine_loop P fuel pp out fuel (engine_init pp m1 seed) ∧
      ExprStack M0 m1 [PARSE_EXPR_STATE_EXITING] ∧ m1.free_idx = M0.free_idx) ∧
    (M0.stktop_idx - M0.free_idx < 1 →
      expression_engine_norecurse P fuel pp out M0 seed = .ret .OUT_OF_MEMORY pp out M0 seed) := by
  have hk := ExprStack.init M0 h1 h2 h3
  unfold expression_engine_norecurse
  constructor
  · intro hg
    obtain ⟨m1, e1, i1, i2⟩ := hk.push [PARSE_EXPR_STATE_EXITING]
      (by intro c hc; simp at hc; subst hc; decide) (by simpa using hg)
    exact ⟨m1, by rw [e1], i1, i2⟩
  · intro hg
    rw [hk.push_fail [PARSE_EXPR_STATE_EXITING] (by simpa using hg)]

/-- The end of a case that returns to the state on top of the stack. -/
theorem eng_pop_state_spec {M0 : BASIC_MEM_MGR} {σ : EngState} {s : Nat} {K : List Nat}
    (hk : ExprStack M0 σ.mem (s :: K)) :
    ∃ m1, eng_pop_state σ = .next { σ with state := s, mem := m1 } ∧ ExprStack M0 m1 K ∧
      m1.free_idx = σ.mem.free_idx ∧ m1.base = σ.mem.base := by
  obtain ⟨m1, e1, i1, i2, i3⟩ := ExprStack.pop [s] hk
  refine ⟨m1, ?_, i1, i2, i3⟩
  simp only [List.length_singleton] at e1
  simp only [eng_pop_state, e1, List.getD_cons_zero]

theorem skipws_congr {m m1 : Mem} {p e : Nat} (fuel : Nat) (h : SameText m m1 p e)
    (hf : e - p < fuel) : basic_parsing_skipws m1 fuel p = basic_parsing_skipws m fuel p := by
  obtain ⟨q, e1, e2, _⟩ := skipws_text fuel p h hf
  rw [e1, e2]

theorem skipws_bounds {m m1 : Mem} {p e q : Nat} (fuel : Nat) (h : SameText m m1 p e)
    (hf : e - p < fuel) (hq : basic_parsing_skipws m fuel p = some q) :
    p ≤ q ∧ q ≤ e ∧ m q ≠ 32 := by
  obtain ⟨q1, e1, _, e3, e4, e5⟩ := skipws_text fuel p h hf
  rw [e1] at hq
  cases hq
  exact ⟨e3, e4, e5⟩

theorem term_signs_congr {m m1 : Mem} {p e : Nat} (fuel : Nat) (neg : Bool)
    (h : SameText m m1 p e) (hf : e - p + 1 < fuel) :
    term_signs m1 fuel p neg = term_signs m fuel p neg := by
  obtain ⟨q, e1, e2, _⟩ := term_signs_text fuel p neg h hf
  rw [e1, e2]

theorem term_signs_bounds {m m1 : Mem} {p e p1 : Nat} {neg n1 : Bool} (fuel : Nat)
    (h : SameText m m1 p e) (hf : e - p + 1 < fuel)
    (hq : term_signs m fuel p neg = some (p1, n1)) : p ≤ p1 ∧ p1 ≤ e := by
  obtain ⟨q1, e1, _, e3, e4, _⟩ := term_signs_text fuel p neg h hf
  rw [e1] at hq
  cases hq
  exact ⟨e3, e4⟩

theorem float_congr (P : FPU) {m m1 : Mem} {p e : Nat} (fuel : Nat) (out : F32)
    (h : SameText m m1 p e) (hf : e - p < fuel) :
    basic_parsing_float P fuel m1 p out = basic_parsing_float P fuel m p out := by
  obtain ⟨q, e1, e2, _⟩ := float_text P fuel p out h hf
  rw [e1, e2]

theorem float_bounds (P : FPU) {m m1 : Mem} {p e p1 : Nat} {r : BASIC_ERROR_ID} {v : F32}
    (fuel : Nat) (out : F32) (h : SameText m m1 p e) (hf : e - p < fuel)
    (hq : basic_parsing_float P fuel m p out = some (r, p1, v)) : p ≤ p1 ∧ p1 ≤ e := by
  obtain ⟨q1, e1, _, e3, e4⟩ := float_text P fuel p out h hf
  rw [e1] at hq
  cases hq
  exact ⟨e3, e4⟩

theorem varname_congr {m m1 : Mem} {p e : Nat} (fuel out : Nat) (h : SameText m m1 p e)
    (hf : e - p < fuel) :
    basic_parsing_varname fuel m1 p out = basic_parsing_varname fuel m p out := by
  obtain ⟨q, e1, e2, _⟩ := varname_text fuel p out h hf
  rw [e1, e2]

theorem varname_bounds {m m1 : Mem} {p e p1 vn : Nat} {r : BASIC_ERROR_ID} (fuel out : Nat)
    (h : SameText m m1 p e) (hf : e - p < fuel)
    (hq : basic_parsing_varname fuel m p out = some (r, p1, vn)) :
    p ≤ p1 ∧ p1 ≤ e ∧ (r = .OK → p < p1 ∧ m p1 ≠ 32) ∧ (r = .OK ∨ r = .SYNTAX) := by
  obtain ⟨q1, e1, _, e3, e4, e5, e6⟩ := varname_text fuel p out h hf
  rw [e1] at hq
  cases hq
  exact ⟨e3, e4, e5, e6⟩

/-- An unchecked push of one byte when there is room for it: the byte is
stored modulo 256. -/
theorem ExprStack.push_byte_mod {M0 mem : BASIC_MEM_MGR} {K : List Nat}
    (h : ExprStack M0 mem K) (b : Nat) (hfit : 1 ≤ mem.stktop_idx - mem.free_idx) :
    ExprStack M0 (fgstack_push_expression_byte_nocheck mem b) (b % 256 :: K) ∧
      (fgstack_push_expression_byte_nocheck mem b).free_idx = mem.free_idx := by
  have e : fgstack_push_expression_byte_nocheck mem b =
      fgstack_push_expression_byte_nocheck mem (b % 256) := by
    have hw : mem_write mem.base (usub mem.stktop_idx 1) (b % 256) =
        mem_write mem.base (usub mem.stktop_idx 1) b := by
      funext i
      simp only [mem_write, Nat.mod_mod]
    simp only [fgstack_push_expression_byte_nocheck, hw]
  rw [e]
  exact h.push_byte (b % 256) (Nat.mod_lt _ (by decide)) hfit

theorem ExprStack.gap {M0 mem : BASIC_MEM_MGR} {K : List Nat} (h : ExprStack M0 mem K) :
    mem.stktop_idx - mem.free_idx + K.length = M0.stktop_idx - mem.free_idx := by
  have := h.top
  have := h.free_le
  omega

theorem f32_bytes_lt (x : F32) : ∀ c ∈ f32_bytes x, c < 256 := by
  intro c hc
  simp only [f32_bytes, List.mem_cons, List.mem_singleton, List.not_mem_nil, or_false] at hc
  rcases hc with h | h | h | h <;> (rw [h]; exact Nat.mod_lt _ (by decide))

theorem f32_bytes_length (x : F32) : (f32_bytes x).length = 4 := rfl

theorem f32_of_list_bytes (x : F32) : f32_of_list (f32_bytes x) = x := by
  apply Fin.ext
  have := x.isLt
  simp only [f32_of_list, f32_bytes, List.getD_cons_zero, List.getD_cons_succ, Nat.mod_mod]
  omega

/-- The pushes that set up a "recursive" call, when `size` bytes fit. -/
theorem eng_push_locals_spec {M0 mem : BASIC_MEM_MGR} {K : List Nat} (hk : ExprStack M0 mem K)
    (σ : EngState) (neg : Bool) (tag : Nat) (hfit : 8 ≤ mem.stktop_idx - mem.free_idx) :
    ExprStack M0 (eng_push_locals mem σ neg tag)
      ([tag % 256] ++ f32_bytes σ.lhs ++
        [σ.op % 256, σ.min_precedence % 256, if neg then 1 else 0] ++ K) ∧
    (eng_push_locals mem σ neg tag).free_idx = mem.free_idx := by
  obtain ⟨a1, a2⟩ := hk.push_byte_mod (if neg then 1 else 0) (by omega)
  have g1 := a1.gap
  have g0 := hk.gap
  simp only [List.length_cons] at g1
  obtain ⟨b1, b2⟩ := a1.push_byte_mod σ.min_precedence (by omega)
  have g2 := b1.gap
  simp only [List.length_cons] at g2
  obtain ⟨c1, c2⟩ := b1.push_byte_mod σ.op (by omega)
  have g3 := c1.gap
  simp only [List.length_cons] at g3
  obtain ⟨d1, d2⟩ := c1.push_eq (f32_bytes σ.lhs) (f32_bytes_lt _) (by
    rw [f32_bytes_length]; omega)
  have g4 := d1.gap
  simp only [List.length_cons, List.length_append, f32_bytes_length] at g4
  obtain ⟨e1, e2⟩ := d1.push_byte_mod tag (by omega)
  have hb : (if neg = true then 1 else 0) % 256 = if neg = true then 1 else 0 := by
    cases neg <;> rfl
  rw [hb] at e1
  refine ⟨by simpa [eng_push_locals] using e1, ?_⟩
  simp only [eng_push_locals]
  omega

/-- The pops of `lhs`, `op`, `min_precedence` and `negate` at a return point. -/
theorem eng_pop_locals_spec {M0 mem : BASIC_MEM_MGR} {K : List Nat} (lhs : F32)
    (op mp nb : Nat) (hk : ExprStack M0 mem (f32_bytes lhs ++ [op, mp, nb] ++ K)) :
    ∃ m1, eng_pop_locals mem = some (lhs, op, mp, decide (nb ≠ 0), m1) ∧ ExprStack M0 m1 K ∧
      m1.free_idx = mem.free_idx ∧ m1.base = mem.base := by
  rw [List.append_assoc] at hk
  obtain ⟨m1, a1, a2, a3, a4⟩ := ExprStack.pop (f32_bytes lhs) hk
  obtain ⟨m2, b1, b2, b3, b4⟩ := ExprStack.pop [op] (K := [mp, nb] ++ K) a2
  obtain ⟨m3, c1, c2, c3, c4⟩ := ExprStack.pop [mp] (K := [nb] ++ K) b2
  obtain ⟨m4, d1, d2, d3, d4⟩ := ExprStack.pop [nb] (K := K) c2
  refine ⟨m4, ?_, d2, by omega, by rw [d4, c4, b4, a4]⟩
  simp only [f32_bytes, List.length_cons, List.length_nil] at a1 b1 c1 d1
  simp only [eng_pop_locals, a1, b1, c1, d1, List.getD_cons_zero]
  rw [show ([lhs.val % 256, lhs.val / 256 % 256, lhs.val / 65536 % 256,
    lhs.val / 16777216 % 256] : List Nat) = f32_bytes lhs from rfl, f32_of_list_bytes]

/-- The case `TERM` on a number literal. -/
theorem step_term_number (P : FPU) (fuel : Nat) {M0 : BASIC_MEM_MGR} {σ : EngState}
    {s e p1 p2 : Nat} {K : List Nat} {neg : Bool} {r : BASIC_ERROR_ID} {v : F32}
    (hs : σ.state = PARSE_EXPR_STATE_TERM) (hk : ExprStack M0 σ.mem (s :: K))
    (ht : SameText M0.base σ.mem.base σ.p e) (hf : e - σ.p + 1 < fuel)
    (hsig : term_signs M0.base fuel σ.p false = some (p1, neg))
    (ha : IS_ALPHA (M0.base p1) = false)
    (hd : IS_DIGIT (M0.base p1) = true ∨ M0.base p1 = 46)
    (hfl : basic_parsing_float P fuel M0.base p1 σ.val = some (r, p2, v)) :
    (r ≠ .OK → engine_step P fuel σ = .ret r σ) ∧
    (r = .OK → ∀ p3, basic_parsing_skipws M0.base fuel p2 = some p3 → ∃ m1,
      engine_step P fuel σ = .next { σ with
        val := if neg then f32_neg v else v, p := p3, negate := neg, r := .OK
        state := s, mem := m1 } ∧
      ExprStack M0 m1 K ∧ m1.free_idx = σ.mem.free_idx ∧ m1.base = σ.mem.base) := by
  obtain ⟨b1, b2⟩ := term_signs_bounds fuel ht hf hsig
  have ht1 := ht.mono p1 b1 b2
  obtain ⟨c1, c2⟩ := float_bounds P fuel σ.val ht1 (by omega) hfl
  have ht2 := ht.mono p2 (by omega) c2
  rw [engine_step_term P fuel hs]
  unfold eng_term
  rw [term_signs_congr fuel false ht hf, hsig]
  simp only [ht1.at]
  rw [if_neg (by rw [ha]; decide), if_pos hd]
  simp only [float_congr P fuel σ.val ht1 (by omega), hfl, skipws_congr fuel ht2 (by omega)]
  constructor
  · intro hr
    simp only [hr, ne_eq, not_false_eq_true, if_true]
  · intro hr p3 hsk
    subst hr
    simp only [hsk, ne_eq, not_true_eq_false, if_false]
    exact eng_pop_state_spec
      (σ := { σ with val := if neg then f32_neg v else v, p := p3, negate := neg, r := .OK }) hk

/-- The case `TERM` on the name of a scalar. -/
theorem step_term_scalar (P : FPU) (fuel : Nat) {M0 : BASIC_MEM_MGR} {σ : EngState}
    {s e p1 p2 p3 vn : Nat} {K : List Nat} {neg : Bool}
    (hs : σ.state = PARSE_EXPR_STATE_TERM) (hk : ExprStack M0 σ.mem (s :: K))
    (ht : SameText M0.base σ.mem.base σ.p e) (hf : e - σ.p + 1 < fuel)
    (hsig : term_signs M0.base fuel σ.p false = some (p1, neg))
    (ha : IS_ALPHA (M0.base p1) = true)
    (hv : basic_parsing_varname fuel M0.base p1 0 = some (.OK, p2, vn))
    (hnp : M0.base p2 ≠ 40) (hsk : basic_parsing_skipws M0.base fuel p2 = some p3) :
    ∃ m1, engine_step P fuel σ = .next { σ with
        val := if neg then f32_neg (variable_storage_read_var σ.mem vn)
          else variable_storage_read_var σ.mem vn
        p := p3, negate := neg, r := .OK, state := s, mem := m1 } ∧
      ExprStack M0 m1 K ∧ m1.free_idx = σ.mem.free_idx ∧ m1.base = σ.mem.base := by
  obtain ⟨b1, b2⟩ := term_signs_bounds fuel ht hf hsig
  have ht1 := ht.mono p1 b1 b2
  obtain ⟨c1, c2, _, _⟩ := varname_bounds fuel 0 ht1 (by omega) hv
  have ht2 := ht.mono p2 (by omega) c2
  rw [engine_step_term P fuel hs]
  unfold eng_term
  rw [term_signs_congr fuel false ht hf, hsig]
  simp only [ht1.at, ha, if_true, varname_congr fuel 0 ht1 (by omega), hv, ht2.at,
    skipws_congr fuel ht2 (by omega), hsk, ne_eq, not_true_eq_false, if_false, hnp]
  exact eng_pop_state_spec
    (σ := { σ with
      val := if neg then f32_neg (variable_storage_read_var σ.mem vn)
        else variable_storage_read_var σ.mem vn
      p := p3, negate := neg, r := .OK }) hk

/-- The case `TERM` on an opening parenthesis. -/
theorem step_term_paren (P : FPU) (fuel : Nat) {M0 : BASIC_MEM_MGR} {σ : EngState}
    {e p1 : Nat} {K : List Nat} {neg : Bool}
    (hs : σ.state = PARSE_EXPR_STATE_TERM) (hk : ExprStack M0 σ.mem K)
    (ht : SameText M0.base σ.mem.base σ.p e) (hf : e - σ.p + 1 < fuel)
    (hsig : term_signs M0.base fuel σ.p false = some (p1, neg))
    (hp : M0.base p1 = 40) :
    (8 ≤ σ.mem.stktop_idx - σ.mem.free_idx → ∃ m1,
      engine_step P fuel σ = .next { σ with
        p := p1 + 1, negate := neg, r := .NOT_FOUND, state := PARSE_EXPR_STATE_EXPRESSION
        mem := m1 } ∧
      ExprStack M0 m1 ([PARSE_EXPR_STATE_SUBEXPR_RET] ++ f32_bytes σ.lhs ++
        [σ.op % 256, σ.min_precedence % 256, if neg then 1 else 0] ++ K) ∧
      m1.free_idx = σ.mem.free_idx) ∧
    (σ.mem.stktop_idx - σ.mem.free_idx < 8 → engine_step P fuel σ = .ret .OUT_OF_MEMORY σ) := by
  obtain ⟨b1, b2⟩ := term_signs_bounds fuel ht hf hsig
  have ht1 := ht.mono p1 b1 b2
  rw [engine_step_term P fuel hs]
  unfold eng_term
  rw [term_signs_congr fuel false ht hf, hsig]
  have h1 : IS_ALPHA (40 : Nat) = false := by decide
  have h2 : ¬ (IS_DIGIT (40 : Nat) = true ∨ (40 : Nat) = 46) := by decide
  have h3 : ¬ (BASIC_KEYWORD_RANGE_BEGIN_FUNCTIONS ≤ 40 ∧
      40 ≤ BASIC_KEYWORD_RANGE_END_FUNCTIONS) := by decide
  simp only [ht1.at, hp, h1, h2, h3, if_false, if_true, hk.check_space]
  constructor
  · intro hg
    obtain ⟨i1, i2⟩ := eng_push_locals_spec hk σ neg PARSE_EXPR_STATE_SUBEXPR_RET hg
    refine ⟨_, ?_, i1, i2⟩
    simp only [decide_eq_false_iff_not, not_le, Nat.not_lt.2 hg, if_false, Bool.false_eq_true]
  · intro hg
    simp only [decide_eq_false_iff_not, not_le, hg, if_true, Bool.false_eq_true, if_false]

/-- The case `SUBEXPR_RET`: the locals saved at the opening parenthesis are
restored, the closing parenthesis is read. -/
theorem step_subexpr_ret (P : FPU) (fuel : Nat) {M0 : BASIC_MEM_MGR} {σ : EngState}
    {e s op mp nb : Nat} {lhs : F32} {K : List Nat}
    (hs : σ.state = PARSE_EXPR_STATE_SUBEXPR_RET)
    (hk : ExprStack M0 σ.mem (f32_bytes lhs ++ [op, mp, nb] ++ (s :: K)))
    (ht : SameText M0.base σ.mem.base σ.p e) (hf : e - σ.p + 1 < fuel) :
    (M0.base σ.p ≠ 41 → ∃ m1, engine_step P fuel σ = .ret .SYNTAX { σ with mem := m1 }) ∧
    (M0.base σ.p = 41 → ∀ p1, basic_parsing_skipws M0.base fuel (σ.p + 1) = some p1 → ∃ m1,
      engine_step P fuel σ = .next { σ with
        val := if decide (nb ≠ 0) then f32_neg σ.lhs else σ.lhs
        lhs := lhs, op := op, min_precedence := mp, negate := decide (nb ≠ 0), p := p1
        state := s, mem := m1 } ∧
      ExprStack M0 m1 K ∧ m1.free_idx = σ.mem.free_idx ∧ m1.base = σ.mem.base) := by
  obtain ⟨m1, a1, a2, a3, a4⟩ := eng_pop_locals_spec lhs op mp nb hk
  rw [engine_step_subexpr_ret P fuel hs]
  unfold eng_subexpr_ret
  simp only [a1, a4, ht.at]
  constructor
  · intro hc
    exact ⟨m1, by simp only [hc, ne_eq, not_false_eq_true, if_true]⟩
  · intro hc p1 hsk
    have hlt : σ.p < e := ht.lt (by rw [hc]; decide)
    have ht1 := ht.mono (σ.p + 1) (by omega) hlt
    simp only [hc, ne_eq, not_true_eq_false, if_false, skipws_congr fuel ht1 (by omega), hsk]
    obtain ⟨m2, c1, c2, c3, c4⟩ := eng_pop_state_spec
      (σ := { σ with
        val := if decide (nb ≠ 0) then f32_neg σ.lhs else σ.lhs
        lhs := lhs, op := op, min_precedence := mp, negate := decide (nb ≠ 0), p := p1
        mem := m1 }) a2
    exact ⟨m2, c1, c2, by rw [c3]; exact a3, by rw [c4]; exact a4⟩

/-- The case `EXPR_1` of the loop of `parse_expression_1`. -/
theorem step_expr_1 (P : FPU) (fuel : Nat) {M0 : BASIC_MEM_MGR} {σ : EngState}
    {e : Nat} {K : List Nat} (hs : σ.state = PARSE_EXPR_STATE_EXPR_1)
    (hk : ExprStack M0 σ.mem K)
    (ht : SameText M0.base σ.mem.base σ.p e) (hf : e - σ.p + 1 < fuel) :
    (is_operator (M0.base σ.p) = true ∧
        operator_precedence (M0.base σ.p) ≥ σ.min_precedence →
      ∀ p1, basic_parsing_skipws M0.base fuel (σ.p + 1) = some p1 →
      (1 ≤ σ.mem.stktop_idx - σ.mem.free_idx → ∃ m1,
        engine_step P fuel σ = .next { σ with
          op := M0.base σ.p, p := p1, state := PARSE_EXPR_STATE_TERM, mem := m1 } ∧
        ExprStack M0 m1 (PARSE_EXPR_STATE_SECOND_OPERATOR :: K) ∧
        m1.free_idx = σ.mem.free_idx) ∧
      (σ.mem.stktop_idx - σ.mem.free_idx < 1 →
        engine_step P fuel σ = .ret .OUT_OF_MEMORY σ)) ∧
    (¬ (is_operator (M0.base σ.p) = true ∧
        operator_precedence (M0.base σ.p) ≥ σ.min_precedence) →
      ∀ s K1, K = s :: K1 → ∃ m1,
        engine_step P fuel σ = .next { σ with state := s, mem := m1 } ∧
        ExprStack M0 m1 K1 ∧ m1.free_idx = σ.mem.free_idx ∧ m1.base = σ.mem.base) := by
  rw [engine_step_expr_1 P fuel hs]
  unfold eng_expr_1
  simp only [ht.at]
  constructor
  · intro hc p1 hsk
    have hlt : σ.p < e := ht.lt (by
      intro h0; rw [h0] at hc; exact absurd hc.1 (by decide))
    have ht1 := ht.mono (σ.p + 1) (by omega) hlt
    rw [if_pos hc]
    simp only [skipws_congr fuel ht1 (by omega), hsk]
    constructor
    · intro hg
      obtain ⟨m1, e1, i1, i2⟩ := hk.push [PARSE_EXPR_STATE_SECOND_OPERATOR]
        (by intro c hc; simp at hc; subst hc; decide) (by simpa using hg)
      exact ⟨m1, by rw [e1], i1, i2⟩
    · intro hg
      rw [hk.push_fail [PARSE_EXPR_STATE_SECOND_OPERATOR] (by simpa using hg)]
  · intro hc s K1 hK
    subst hK
    rw [if_neg hc]
    exact eng_pop_state_spec hk

/-- The case `SECOND_OPERATOR`. -/
theorem step_second_operator (P : FPU) (fuel : Nat) {M0 : BASIC_MEM_MGR} {σ : EngState}
    {e : Nat} {K : List Nat} (hs : σ.state = PARSE_EXPR_STATE_SECOND_OPERATOR)
    (hk : ExprStack M0 σ.mem K) (ht : SameText M0.base σ.mem.base σ.p e) :
    (is_operator (M0.base σ.p) = true ∧
        operator_precedence (M0.base σ.p) > operator_precedence σ.op →
      (7 ≤ σ.mem.stktop_idx - σ.mem.free_idx → ∃ m1,
        engine_step P fuel σ = .next { σ with
          rhs := σ.val, lhs := σ.val
          min_precedence := (operator_precedence σ.op + 1) % 256
          state := PARSE_EXPR_STATE_EXPR_1, mem := m1 } ∧
        ExprStack M0 m1 ([PARSE_EXPR_STATE_PRECEDENCE_DOWN] ++ f32_bytes σ.lhs ++
          [σ.op % 256, σ.min_precedence % 256] ++ K) ∧
        m1.free_idx = σ.mem.free_idx) ∧
      (σ.mem.stktop_idx - σ.mem.free_idx < 7 →
        engine_step P fuel σ = .ret .OUT_OF_MEMORY σ)) ∧
    (¬ (is_operator (M0.base σ.p) = true ∧
        operator_precedence (M0.base σ.p) > operator_precedence σ.op) →
      engine_step P fuel σ =
        .next { σ with rhs := σ.val, state := PARSE_EXPR_STATE_APPLY_OPERATOR }) := by
  rw [engine_step_second_operator P fuel hs]
  unfold eng_second_operator
  simp only [ht.at, hk.check_space]
  constructor
  · intro hc
    rw [if_pos hc]
    constructor
    · intro hg
      obtain ⟨a1, a2⟩ := hk.push_byte_mod σ.min_precedence (by omega)
      have g0 := hk.gap
      have g1 := a1.gap
      simp only [List.length_cons] at g1
      obtain ⟨b1, b2⟩ := a1.push_byte_mod σ.op (by omega)
      have g2 := b1.gap
      simp only [List.length_cons] at g2
      obtain ⟨c1, c2⟩ := b1.push_eq (f32_bytes σ.lhs) (f32_bytes_lt _) (by
        rw [f32_bytes_length]; omega)
      have g3 := c1.gap
      simp only [List.length_cons, List.length_append, f32_bytes_length] at g3
      obtain ⟨d1, d2⟩ := c1.push_byte_mod PARSE_EXPR_STATE_PRECEDENCE_DOWN (by omega)
      refine ⟨_, ?_, by simpa using d1, by omega⟩
      simp only [decide_eq_false_iff_not, not_le, Nat.not_lt.2 hg, if_false]
    · intro hg
      simp only [decide_eq_false_iff_not, not_le, hg, if_true]
  · intro hc
    rw [if_neg hc]

/-- The case `PRECEDENCE_DOWN`: the locals saved by `SECOND_OPERATOR` are
restored. -/
theorem step_precedence_down (P : FPU) (fuel : Nat) {M0 : BASIC_MEM_MGR} {σ : EngState}
    {op mp : Nat} {lhs : F32} {K : List Nat}
    (hs : σ.state = PARSE_EXPR_STATE_PRECEDENCE_DOWN)
    (hk : ExprStack M0 σ.mem (f32_bytes lhs ++ [op, mp] ++ K)) :
    ∃ m1, engine_step P fuel σ = .next { σ with
        rhs := σ.lhs, lhs := lhs, op := op, min_precedence := mp
        state := PARSE_EXPR_STATE_APPLY_OPERATOR, mem := m1 } ∧
      ExprStack M0 m1 K ∧ m1.free_idx = σ.mem.free_idx ∧ m1.base = σ.mem.base := by
  rw [List.append_assoc] at hk
  obtain ⟨m1, a1, a2, a3, a4⟩ := ExprStack.pop (f32_bytes lhs) hk
  obtain ⟨m2, b1, b2, b3, b4⟩ := ExprStack.pop [op] (K := [mp] ++ K) a2
  obtain ⟨m3, c1, c2, c3, c4⟩ := ExprStack.pop [mp] (K := K) b2
  refine ⟨m3, ?_, c2, by omega, by rw [c4, b4, a4]⟩
  rw [engine_step_precedence_down P fuel hs]
  simp only [f32_bytes_length, List.length_cons, List.length_nil] at a1 b1 c1
  simp only [eng_precedence_down, a1, b1, c1, List.getD_cons_zero, f32_of_list_bytes]

/-- The case `APPLY_OPERATOR`. -/
theorem step_apply_operator (P : FPU) (fuel : Nat) {σ : EngState}
    (hs : σ.state = PARSE_EXPR_STATE_APPLY_OPERATOR) :
    (except_to_basic_error (apply_operator P σ.lhs σ.rhs σ.op).2 ≠ .OK →
      engine_step P fuel σ =
        .ret (except_to_basic_error (apply_operator P σ.lhs σ.rhs σ.op).2) σ) ∧
    (except_to_basic_error (apply_operator P σ.lhs σ.rhs σ.op).2 = .OK →
      engine_step P fuel σ = .next { σ with
        lhs := (apply_operator P σ.lhs σ.rhs σ.op).1, r := .OK
        state := PARSE_EXPR_STATE_EXPR_1 }) := by
  rw [engine_step_apply_operator P fuel hs]
  unfold eng_apply_operator
  constructor
  · intro h; rw [if_pos h]
  · intro h; rw [if_neg (by rw [h]; simp)]

theorem skipws_stop {m : Mem} {p : Nat} (fuel : Nat) (h : m p ≠ 32) (hf : 0 < fuel) :
    basic_parsing_skipws m fuel p = some p := by
  obtain ⟨n, rfl⟩ : ∃ n, fuel = n + 1 := ⟨fuel - 1, by omega⟩
  simp only [basic_parsing_skipws, h, if_false]

theorem term_signs_stop {m : Mem} {p : Nat} (fuel : Nat) (neg : Bool) (h : m p ≠ 32)
    (hp : m p ≠ BASIC_KEYWORD_PLUS) (hm : m p ≠ BASIC_KEYWORD_MINUS) (hf : 1 < fuel) :
    term_signs m fuel p neg = some (p, neg) := by
  obtain ⟨n, rfl⟩ : ∃ n, fuel = n + 1 := ⟨fuel - 1, by omega⟩
  simp only [term_signs, skipws_stop n h (by omega), hp, hm, if_false, ite_self]

/-- The scalars read the same during a call of the evaluator as at its entry. -/
theorem read_var_congr {M0 mem : BASIC_MEM_MGR} {K : List Nat} (hk : ExprStack M0 mem K)
    (h1 : M0.vars_idx ≤ M0.array_idx) (h2 : M0.array_idx ≤ M0.free_idx)
    (h6 : (M0.array_idx - M0.vars_idx) % 6 = 0) (vn : Nat) :
    variable_storage_read_var mem vn = variable_storage_read_var M0 vn := by
  have hv := hk.vars
  have ha := hk.arr
  have hdiv := Nat.div_add_mod (M0.array_idx - M0.vars_idx) 6
  have hreg : scalar_region mem = scalar_region M0 := by
    simp only [scalar_region, hv, ha, sizeof_VARIABLE_ENTRY]
    exact scalar_names_congr _ _ (fun x hx1 hx2 => hk.same x (Or.inl (by omega)))
  simp only [variable_storage_read_var, lookup_var_spec mem vn (by omega) (by rw [hv, ha]; exact h6),
    lookup_var_spec M0 vn h1 h6, hreg]
  by_cases hm : vn ∈ scalar_region M0
  · simp only [hm, if_true, hv]
    apply mem_read_f32_congr
    intro x hx1 hx2
    apply hk.same
    left
    have hi := List.indexOf_lt_length.2 hm
    have hlen : (scalar_region M0).length = (M0.array_idx - M0.vars_idx) / 6 :=
      scalar_names_length _ _ _
    omega
  · simp only [hm, if_false]

theorem varname_alpha {m : Mem} {fuel p out p1 vn : Nat}
    (h : basic_parsing_varname fuel m p out = some (.OK, p1, vn)) : IS_ALPHA (m p) = true := by
  by_cases hc : IS_ALPHA (m p) = false
  · simp [basic_parsing_varname, hc] at h
  · simpa using hc

theorem alpha_not_sign {c : Nat} (h : IS_ALPHA c = true) :
    c ≠ 32 ∧ c ≠ BASIC_KEYWORD_PLUS ∧ c ≠ BASIC_KEYWORD_MINUS ∧ c ≠ 0 := by
  simp only [IS_ALPHA, decide_eq_true_eq] at h
  simp only [BASIC_KEYWORD_PLUS, BASIC_KEYWORD_MINUS]
  omega

/-- An expression that is the name of a scalar: the evaluator returns the
value of the scalar and changes nothing outside the area of the stack. -/
theorem expression_scalar (P : FPU) (fuel : Nat) (s : BASIC_MEM_MGR) (vn : Nat)
    (ho : ArenaOrdered s) (h6 : (s.array_idx - s.vars_idx) % 6 = 0)
    (p p1 e seed : Nat) (out : F32) (hpe : p ≤ e) (h0 : s.base e = 0)
    (hout : e < s.free_idx ∨ s.stktop_idx ≤ p) (hf : e - p + 1 < fuel) (hf5 : 5 ≤ fuel)
    (hv : basic_parsing_varname fuel s.base p 0 = some (.OK, p1, vn))
    (hnp : s.base p1 ≠ 40) (hnop : is_operator (s.base p1) = false)
    (hgap : 2 ≤ s.stktop_idx - s.free_idx) :
    ∃ m1, basic_parsing_expression P fuel p out s seed =
        .ret .OK p1 (variable_storage_read_var s vn) m1 seed ∧
      m1.vars_idx = s.vars_idx ∧ m1.array_idx = s.array_idx ∧ m1.free_idx = s.free_idx ∧
      m1.stktop_idx = s.stktop_idx ∧ m1.max_idx = s.max_idx ∧
      ∀ x, x < s.free_idx ∨ s.stktop_idx ≤ x → m1.base x = s.base x := by
  obtain ⟨o1, o2, o3, o4, o5⟩ := ho
  have hal := varname_alpha hv
  obtain ⟨a1, a2, a3, a4⟩ := alpha_not_sign hal
  have hsig := term_signs_stop fuel false a1 a2 a3 (by omega)
  obtain ⟨b1, b2, b3, _⟩ := varname_bounds fuel 0 (SameText.refl hpe h0) (by omega) hv
  have hsk := skipws_stop fuel (b3 rfl).2 (by omega)
  obtain ⟨n, rfl⟩ : ∃ n, fuel = n + 5 := ⟨fuel - 5, by omega⟩
  -- the state `EXITING` is pushed
  obtain ⟨m1, e1, k1, f1⟩ := (engine_enter P (n + 5) p out s seed o3 o4 o5).1 (by omega)
  have g1 := k1.gap
  -- `EXPRESSION`
  obtain ⟨m2, e2, k2, f2⟩ := (step_expression P (n + 5) (σ := engine_init p m1 seed) rfl k1).1
    (by simp only [List.length_singleton, engine_init] at g1 ⊢; omega)
  have f2 : m2.free_idx = m1.free_idx := f2
  -- `TERM`
  obtain ⟨m3, e3, k3, f3, c3⟩ := step_term_scalar P (n + 5)
    (σ := { engine_init p m1 seed with
      min_precedence := 0, state := PARSE_EXPR_STATE_TERM, mem := m2 })
    rfl k2 (k2.text h0 hout (Nat.le_refl p) hpe) hf hsig hal hv hnp hsk
  have f3 : m3.free_idx = m2.free_idx := f3
  -- `FIRST_OPERATOR`, `EXPR_1`
  have hrd := read_var_congr k2 o1 o2 h6 vn
  obtain ⟨m4, e4, k4, f4, c4⟩ := (step_expr_1 P (n + 5)
    (σ := { engine_init p m1 seed with
      min_precedence := 0, state := PARSE_EXPR_STATE_EXPR_1, mem := m3
      val := variable_storage_read_var m2 vn, lhs := variable_storage_read_var m2 vn
      p := p1, negate := false, r := .OK })
    rfl k3 (k3.text h0 hout b1 b2) (by show e - p1 + 1 < n + 5; omega)).2
    (by show ¬ (is_operator (s.base p1) = true ∧ _); rw [hnop]; simp) _ _ rfl
  have f4 : m4.free_idx = m3.free_idx := f4
  refine ⟨fgstack_set_top m4 (fgstack_get_top s), ?_, k4.vars, k4.arr, by
    show m4.free_idx = _
    rw [f4, f3, f2, f1], rfl, k4.max, k4.same⟩
  have hrun := (engine_loop_next P (n + 5) p out (n + 4) (show (0 : Nat) ≠ 10 by decide) e2).trans
    ((engine_loop_next P (n + 5) p out (n + 3) (show (1 : Nat) ≠ 10 by decide) e3).trans
    ((engine_loop_next P (n + 5) p out (n + 2) (show (5 : Nat) ≠ 10 by decide)
      (engine_step_first_operator P (n + 5) rfl)).trans
    ((engine_loop_next P (n + 5) p out (n + 1) (show (6 : Nat) ≠ 10 by decide) e4).trans
    (engine_loop_exit P (n + 5) p out n rfl))))
  unfold basic_parsing_expression
  rw [e1, hrun]
  simp only [Bool.false_eq_true, if_false, hrd]
  rfl

/-- C20: reading a scalar that does not exist gives 0.0 and allocates nothing.
`variable_storage_read_var` returns 0.0 for a name that has no record.  An
expression that is such a name (not followed by a parenthesis or an operator)
evaluates to 0.0 when two bytes of stack are free, whether or not there is
room for a record of 6 bytes; `vars_idx`, `array_idx`, `free_idx`, the stack
top and the memory outside the area of the stack are as before. -/
theorem C20_read_absent_scalar (P : FPU) (fuel : Nat) (s : BASIC_MEM_MGR) (vn : Nat)
    (ho : ArenaOrdered s) (h6 : (s.array_idx - s.vars_idx) % 6 = 0)
    (habs : vn ∉ scalar_region s) :
    variable_storage_read_var s vn = 0 ∧
    ∀ (p p1 e seed : Nat) (out : F32), p ≤ e → s.base e = 0 →
      (e < s.free_idx ∨ s.stktop_idx ≤ p) → e - p + 1 < fuel → 5 ≤ fuel →
      basic_parsing_varname fuel s.base p 0 = some (.OK, p1, vn) →
      s.base p1 ≠ 40 → is_operator (s.base p1) = false →
      2 ≤ s.stktop_idx - s.free_idx →
      ∃ m1, basic_parsing_expression P fuel p out s seed = .ret .OK p1 0 m1 seed ∧
        m1.vars_idx = s.vars_idx ∧ m1.array_idx = s.array_idx ∧
        m1.free_idx = s.free_idx ∧ m1.stktop_idx = s.stktop_idx ∧ m1.max_idx = s.max_idx ∧
        ∀ x, x < s.free_idx ∨ s.stktop_idx ≤ x → m1.base x = s.base x := by
  have hz : variable_storage_read_var s vn = 0 := by
    simp only [variable_storage_read_var, lookup_var_spec s vn ho.1 h6, habs, if_false]
  refine ⟨hz, ?_⟩
  intro p p1 e seed out hpe h0 hout hf hf5 hv hnp hnop hgap
  have h := expression_scalar P fuel s vn ho h6 p p1 e seed out hpe h0 hout hf hf5 hv hnp hnop
    hgap
  rw [hz] at h
  exact h

/-- `basic_parsing_float` on a single digit: on a platform that is exact on
the small natural numbers the value is the digit. -/
theorem float_one_digit (P : FPU) (hP : ExactBelow P 16) (m : Mem) (p d fuel : Nat) (out : F32)
    (hd : m p = 48 + d) (hd9 : d ≤ 9) (hn : ¬ (48 ≤ m (p + 1) ∧ m (p + 1) ≤ 57))
    (h32 : m (p + 1) ≠ 32) (h46 : m (p + 1) ≠ 46) (h101 : m (p + 1) ≠ 101)
    (h69 : m (p + 1) ≠ 69) (hf : 3 ≤ fuel) :
    basic_parsing_float P fuel m p out = some (.OK, p + 1, f32_of_nat d) := by
  obtain ⟨hadd, hmul, hint, hpow⟩ := hP
  obtain ⟨c0, c1, c10⟩ := f32_of_nat_consts
  obtain ⟨n, rfl⟩ : ∃ n, fuel = n + 3 := ⟨fuel - 3, by omega⟩
  have hdig : 48 ≤ m p ∧ m p ≤ 57 := by omega
  have hsub : ((m p : Int) - 48) = ((d : Nat) : Int) := by omega
  have hm0 : P.mul 0 f32_ten = (0, FE_NONE) := by
    have := hmul 0 10 (by omega) (by omega) (by omega)
    rw [c0, c10] at this
    simpa using this
  have hval : (P.add 0 (P.of_int ((m p : Int) - 48))) = (f32_of_nat d, FE_NONE) := by
    rw [hsub, hint d (by omega), ← c0]
    have := hadd 0 d (by omega)
    simpa using this
  have hdg : float_digits P m (n + 3) p 0 FE_NONE 0 = some (p + 1, f32_of_nat d, FE_NONE, 1) := by
    simp only [float_digits, hdig, and_self, if_true, skipws_stop (n + 2) h32 (by omega), hn,
      if_false, hm0, hval]
    rfl
  have hfr : float_fraction P m (n + 3) (p + 1) (f32_of_nat d) FE_NONE =
      some (p + 1, f32_of_nat d, FE_NONE, 0) := by
    simp only [float_fraction, h46, if_false]
  have hex : float_exponent m (n + 3) (p + 1) = some (.OK, p + 1, 0) := by
    simp only [float_exponent, h101, h69, or_self, if_false]
  have hpw : P.powf f32_ten (P.of_int ((0 : Int) - ((0 : Nat) : Int))) = (f32_one, FE_NONE) := by
    have h0 := hint 0 (by omega)
    simp only [Nat.cast_zero] at h0
    simp only [Nat.cast_zero, sub_self, h0, hpow]
  have hm1 : P.mul (f32_of_nat d) f32_one = (f32_of_nat d, FE_NONE) := by
    rw [← c1]
    have := hmul d 1 (by omega) (by omega) (by omega)
    simpa using this
  simp only [basic_parsing_float, hdg, hfr, hex, hpw, hm1]
  rfl

theorem apply_operator_plus (P : FPU) (a b : F32) :
    apply_operator P a b 152 = P.add a b := by
  simp [apply_operator, BASIC_KEYWORD_PLUS]

theorem apply_operator_multiply (P : FPU) (a b : F32) :
    apply_operator P a b 154 = P.mul a b := by
  simp [apply_operator, BASIC_KEYWORD_PLUS, BASIC_KEYWORD_MINUS, BASIC_KEYWORD_MULTIPLY]

/-- The case `TERM` on a literal of one digit. -/
theorem step_term_digit (P : FPU) (hP : ExactBelow P 16) (fuel : Nat) {M0 : BASIC_MEM_MGR}
    {σ : EngState} {s e : Nat} {K : List Nat} (d : Nat)
    (hs : σ.state = PARSE_EXPR_STATE_TERM) (hk : ExprStack M0 σ.mem (s :: K))
    (ht : SameText M0.base σ.mem.base σ.p e) (hf : e - σ.p + 1 < fuel) (hf3 : 3 ≤ fuel)
    (hd : M0.base σ.p = 48 + d) (hd9 : d ≤ 9)
    (hn : ¬ (48 ≤ M0.base (σ.p + 1) ∧ M0.base (σ.p + 1) ≤ 57) ∧ M0.base (σ.p + 1) ≠ 32 ∧
      M0.base (σ.p + 1) ≠ 46 ∧ M0.base (σ.p + 1) ≠ 101 ∧ M0.base (σ.p + 1) ≠ 69) :
    ∃ m1, engine_step P fuel σ = .next { σ with
        val := f32_of_nat d, p := σ.p + 1, negate := false, r := .OK, state := s, mem := m1 } ∧
      ExprStack M0 m1 K ∧ m1.free_idx = σ.mem.free_idx := by
  obtain ⟨n1, n2, n3, n4, n5⟩ := hn
  have hsig : term_signs M0.base fuel σ.p false = some (σ.p, false) :=
    term_signs_stop fuel false (by omega) (by simp only [BASIC_KEYWORD_PLUS]; omega)
      (by simp only [BASIC_KEYWORD_MINUS]; omega) (by omega)
  have ha : IS_ALPHA (M0.base σ.p) = false := by
    simp only [IS_ALPHA, decide_eq_false_iff_not]; omega
  have hdg : IS_DIGIT (M0.base σ.p) = true := by
    simp only [IS_DIGIT, decide_eq_true_eq]; omega
  obtain ⟨m1, e1, k1, f1, _⟩ := (step_term_number P fuel hs hk ht hf hsig ha (Or.inl hdg)
    (float_one_digit P hP M0.base σ.p d fuel σ.val hd hd9 n1 n2 n3 n4 n5 hf3)).2 rfl (σ.p + 1)
    (skipws_stop fuel n2 (by omega))
  simp only [Bool.false_eq_true, if_false] at e1
  exact ⟨m1, e1, k1, f1⟩

/-- The run on `2+3*4` up to the second operator: the two terms `2` and `3`
are read, one byte of stack is needed. -/
theorem run_2_3_4_first (P : FPU) (hP : ExactBelow P 16) (fuel : Nat) (s m1 : BASIC_MEM_MGR)
    (p seed : Nat) (out : F32)
    (t0 : s.base p = 50) (t1 : s.base (p + 1) = 152) (t2 : s.base (p + 2) = 51)
    (t3 : s.base (p + 3) = 154) (t5 : s.base (p + 5) = 0)
    (hout : p + 5 < s.free_idx ∨ s.stktop_idx ≤ p) (hf : 7 ≤ fuel)
    (k1 : ExprStack s m1 [PARSE_EXPR_STATE_EXITING]) (f1 : m1.free_idx = s.free_idx)
    (hg : 2 ≤ s.stktop_idx - s.free_idx) :
    ∃ m5, (∀ k, engine_loop P fuel p out (k + 5) (engine_init p m1 seed) =
        engine_loop P fuel p out k
          ⟨f32_of_nat 2, 0, f32_of_nat 3, p + 3, 152, 0, false, 7, .OK, m5, seed⟩) ∧
      ExprStack s m5 [PARSE_EXPR_STATE_EXITING] ∧ m5.free_idx = s.free_idx := by
  have g1 := k1.gap
  simp only [List.length_singleton] at g1
  obtain ⟨m2, e2, k2, f2⟩ := (step_expression P fuel (σ := engine_init p m1 seed) rfl k1).1
    (by show 1 ≤ m1.stktop_idx - m1.free_idx; omega)
  have f2 : m2.free_idx = m1.free_idx := f2
  obtain ⟨m3, e3, k3, f3⟩ := step_term_digit P hP fuel
    (σ := ⟨0, 0, 0, p, 0, 0, false, 1, .NOT_FOUND, m2, seed⟩) (e := p + 5) 2
    rfl k2 (k2.text t5 hout (Nat.le_refl p) (by show p ≤ p + 5; omega))
    (by show p + 5 - p + 1 < fuel; omega) (by omega) (by rw [t0]) (by omega)
    (by show ¬ (48 ≤ s.base (p + 1) ∧ _) ∧ _; rw [t1]; decide)
  have f3 : m3.free_idx = m2.free_idx := f3
  have g3 := k3.gap
  simp only [List.length_singleton] at g3
  obtain ⟨m4, e4, k4, f4⟩ := ((step_expr_1 P fuel
    (σ := ⟨f32_of_nat 2, 0, f32_of_nat 2, p + 1, 0, 0, false, 6, .OK, m3, seed⟩) (e := p + 5)
    rfl k3 (k3.text t5 hout (by show p ≤ p + 1; omega) (by show p + 1 ≤ p + 5; omega))
    (by show p + 5 - (p + 1) + 1 < fuel; omega)).1
    (by show is_operator (s.base (p + 1)) = true ∧ operator_precedence (s.base (p + 1)) ≥ 0
        rw [t1]; decide) (p + 2)
    (skipws_stop fuel (by rw [t2]; decide) (by omega))).1
    (by show 1 ≤ m3.stktop_idx - m3.free_idx; omega)
  have f4 : m4.free_idx = m3.free_idx := f4
  rw [t1] at e4
  obtain ⟨m5, e5, k5, f5⟩ := step_term_digit P hP fuel
    (σ := ⟨f32_of_nat 2, 0, f32_of_nat 2, p + 2, 152, 0, false, 1, .OK, m4, seed⟩)
    (e := p + 5) 3
    rfl k4 (k4.text t5 hout (by show p ≤ p + 2; omega) (by show p + 2 ≤ p + 5; omega))
    (by show p + 5 - (p + 2) + 1 < fuel; omega) (by omega) (by rw [t2]) (by omega)
    (by show ¬ (48 ≤ s.base (p + 3) ∧ _) ∧ _; rw [t3]; decide)
  have f5 : m5.free_idx = m4.free_idx := f5
  refine ⟨m5, fun k => ?_, k5, by omega⟩
  exact (engine_loop_next P fuel p out (k + 4) (show (0 : Nat) ≠ 10 by decide) e2).trans
    ((engine_loop_next P fuel p out (k + 3) (show (1 : Nat) ≠ 10 by decide) e3).trans
    ((engine_loop_next P fuel p out (k + 2) (show (5 : Nat) ≠ 10 by decide)
      (engine_step_first_operator P fuel
        (σ := ⟨0, 0, f32_of_nat 2, p + 1, 0, 0, false, 5, .OK, m3, seed⟩) rfl)).trans
    ((engine_loop_next P fuel p out (k + 1) (show (6 : Nat) ≠ 10 by decide) e4).trans
    (engine_loop_next P fuel p out k (show (1 : Nat) ≠ 10 by decide) e5))))

/-- The run on `2+3*4` from the end of the text: the product and the sum are
computed and the loop is left. -/
theorem run_2_3_4_last (P : FPU) (hP : ExactBelow P 16) (fuel : Nat) (s m8 : BASIC_MEM_MGR)
    (p seed : Nat) (out : F32) (t5 : s.base (p + 5) = 0)
    (hout : p + 5 < s.free_idx ∨ s.stktop_idx ≤ p) (hf : 7 ≤ fuel)
    (k8 : ExprStack s m8 ([PARSE_EXPR_STATE_PRECEDENCE_DOWN] ++ f32_bytes (f32_of_nat 2) ++
      [152 % 256, 0 % 256] ++ [PARSE_EXPR_STATE_EXITING])) :
    ∃ m11, ∀ k, engine_loop P fuel p out (k + 7)
        ⟨f32_of_nat 3, f32_of_nat 3, f32_of_nat 4, p + 5, 154, 2, false, 7, .OK, m8, seed⟩ =
      .ret .OK (p + 5) (f32_of_nat 14) m11 seed := by
  have hadd := hP.1
  have hmul := hP.2.1
  have hnop : ∀ mp : Nat, ¬ (is_operator (s.base (p + 5)) = true ∧
      operator_precedence (s.base (p + 5)) ≥ mp) := by
    intro mp
    have h0 : is_operator (s.base (p + 5)) = false := by rw [t5]; decide
    rw [h0]; simp
  have e9 := (step_second_operator P fuel
      (σ := ⟨f32_of_nat 3, f32_of_nat 3, f32_of_nat 4, p + 5, 154, 2, false, 7, .OK, m8, seed⟩)
      (e := p + 5) rfl k8
      (k8.text t5 hout (by show p ≤ p + 5; omega) (Nat.le_refl _))).2
      (by
        have h0 : is_operator (s.base (p + 5)) = false := by rw [t5]; decide
        show ¬ (is_operator (s.base (p + 5)) = true ∧ _)
        rw [h0]; simp)
  have hmul34 : apply_operator P (f32_of_nat 3) (f32_of_nat 4) 154 = (f32_of_nat 12, FE_NONE) := by
    rw [apply_operator_multiply]
    exact hmul 3 4 (by omega) (by omega) (by omega)
  have e10 := (step_apply_operator P fuel
      (σ := ⟨f32_of_nat 3, f32_of_nat 4, f32_of_nat 4, p + 5, 154, 2, false, 9, .OK, m8, seed⟩)
      rfl).2 (by show except_to_basic_error (apply_operator P _ _ 154).2 = _; rw [hmul34]; rfl)
  rw [hmul34] at e10
  obtain ⟨m9, e11, k9, f9, c9⟩ := (step_expr_1 P fuel
    (σ := ⟨f32_of_nat 12, f32_of_nat 4, f32_of_nat 4, p + 5, 154, 2, false, 6, .OK, m8, seed⟩)
    (e := p + 5) rfl k8
    (k8.text t5 hout (by show p ≤ p + 5; omega) (Nat.le_refl _))
    (by show p + 5 - (p + 5) + 1 < fuel; omega)).2 (hnop 2) _ _ rfl
  obtain ⟨m10, e12, k10, f10, c10⟩ := @step_precedence_down P fuel _
    ⟨f32_of_nat 12, f32_of_nat 4, f32_of_nat 4, p + 5, 154, 2, false, 8, .OK, m9, seed⟩
    152 0 (f32_of_nat 2) [10] rfl k9
  have hadd212 : apply_operator P (f32_of_nat 2) (f32_of_nat 12) 152 =
      (f32_of_nat 14, FE_NONE) := by
    rw [apply_operator_plus]
    exact hadd 2 12 (by omega)
  have e13 := (step_apply_operator P fuel
      (σ := ⟨f32_of_nat 2, f32_of_nat 12, f32_of_nat 4, p + 5, 152, 0, false, 9, .OK, m10,
        seed⟩)
      rfl).2 (by show except_to_basic_error (apply_operator P _ _ 152).2 = _; rw [hadd212]; rfl)
  rw [hadd212] at e13
  obtain ⟨m11, e14, k11, f11, c11⟩ := (step_expr_1 P fuel
    (σ := ⟨f32_of_nat 14, f32_of_nat 12, f32_of_nat 4, p + 5, 152, 0, false, 6, .OK, m10, seed⟩)
    (e := p + 5) rfl k10
    (k10.text t5 hout (by show p ≤ p + 5; omega) (Nat.le_refl _))
    (by show p + 5 - (p + 5) + 1 < fuel; omega)).2 (hnop 0) _ _ rfl
  refine ⟨m11, fun k => ?_⟩
  exact (engine_loop_next P fuel p out (k + 6) (show (7 : Nat) ≠ 10 by decide) e9).trans
    ((engine_loop_next P fuel p out (k + 5) (show (9 : Nat) ≠ 10 by decide) e10).trans
    ((engine_loop_next P fuel p out (k + 4) (show (6 : Nat) ≠ 10 by decide) e11).trans
    ((engine_loop_next P fuel p out (k + 3) (show (8 : Nat) ≠ 10 by decide) e12).trans
    ((engine_loop_next P fuel p out (k + 2) (show (9 : Nat) ≠ 10 by decide) e13).trans
    ((engine_loop_next P fuel p out (k + 1) (show (6 : Nat) ≠ 10 by decide) e14).trans
    (engine_loop_exit P fuel p out k
      (σ := ⟨f32_of_nat 14, f32_of_nat 12, f32_of_nat 4, p + 5, 152, 0, false, 10, .OK, m11,
        seed⟩) rfl))))))

/-- The run of `expression_engine_norecurse` on the tokenized text `2+3*4`,
by the number of bytes free for the stack. -/
theorem engine_2_3_4 (P : FPU) (hP : ExactBelow P 16) (fuel : Nat) (s : BASIC_MEM_MGR)
    (p seed : Nat) (out : F32) (ho : ArenaOrdered s)
    (htext : MemIs s.base p [50, 152, 51, 154, 52, 0])
    (hout : p + 5 < s.free_idx ∨ s.stktop_idx ≤ p) (hf : 16 ≤ fuel) :
    ∃ m1, expression_engine_norecurse P fuel p out s seed =
      if 9 ≤ s.stktop_idx - s.free_idx then .ret .OK (p + 5) (f32_of_nat 14) m1 seed
      else .ret .OUT_OF_MEMORY p out m1 seed := by
  obtain ⟨o1, o2, o3, o4, o5⟩ := ho
  obtain ⟨t0, t1, t2, t3, t4, t5, _⟩ := htext
  have t1 : s.base (p + 1) = 152 := t1
  have t2 : s.base (p + 2) = 51 := t2
  have t3 : s.base (p + 3) = 154 := t3
  have t4 : s.base (p + 4) = 52 := t4
  have t5 : s.base (p + 5) = 0 := t5
  obtain ⟨n, rfl⟩ : ∃ n, fuel = n + 16 := ⟨fuel - 16, by omega⟩
  -- the state `EXITING` is pushed
  by_cases g0 : s.stktop_idx - s.free_idx < 1
  · exact ⟨s, by rw [(engine_enter P (n + 16) p out s seed o3 o4 o5).2 g0,
      if_neg (show ¬ 9 ≤ s.stktop_idx - s.free_idx by omega)]⟩
  obtain ⟨m1, e1, k1, f1⟩ := (engine_enter P (n + 16) p out s seed o3 o4 o5).1 (by omega)
  have g1 := k1.gap
  simp only [List.length_singleton] at g1
  rw [e1]
  -- `EXPRESSION`
  by_cases g0 : s.stktop_idx - s.free_idx < 2
  · refine ⟨m1, ?_⟩
    rw [if_neg (show ¬ 9 ≤ s.stktop_idx - s.free_idx by omega)]
    exact engine_loop_ret P (n + 16) p out (n + 15) (show (0 : Nat) ≠ 10 by decide)
      ((step_expression P (n + 16) (σ := engine_init p m1 seed) rfl k1).2
        (by show m1.stktop_idx - m1.free_idx < 1; omega))
  -- the terms `2` and `3`
  obtain ⟨m5, r5, k5, f5⟩ := run_2_3_4_first P hP (n + 16) s m1 p seed out t0 t1 t2 t3 t5 hout
    (by omega) k1 f1 (by omega)
  have g5 := k5.gap
  simp only [List.length_singleton] at g5
  rw [r5 (n + 11)]
  -- `SECOND_OPERATOR`: the operator `*` binds tighter than `+`
  have hso := (step_second_operator P (n + 16)
    (σ := ⟨f32_of_nat 2, 0, f32_of_nat 3, p + 3, 152, 0, false, 7, .OK, m5, seed⟩)
    (e := p + 5) rfl k5
    (k5.text t5 hout (by show p ≤ p + 3; omega) (by show p + 3 ≤ p + 5; omega))).1
    (by show is_operator (s.base (p + 3)) = true ∧
          operator_precedence (s.base (p + 3)) > operator_precedence 152
        rw [t3]; decide)
  by_cases g0 : s.stktop_idx - s.free_idx < 8
  · have hlt : m5.stktop_idx - m5.free_idx < 7 := by clear hso; omega
    have hn9 : ¬ 9 ≤ s.stktop_idx - s.free_idx := by clear hso; omega
    refine ⟨m5, ?_⟩
    rw [if_neg hn9]
    exact engine_loop_ret P (n + 16) p out (n + 10) (show (7 : Nat) ≠ 10 by decide)
      (hso.2 hlt)
  have hge : 7 ≤ m5.stktop_idx - m5.free_idx := by clear hso; omega
  obtain ⟨m6, e6, k6, f6⟩ := hso.1 hge
  clear hso
  have f6 : m6.free_idx = m5.free_idx := f6
  have g6 := k6.gap
  simp only [List.length_cons, List.length_append, List.length_nil, f32_bytes_length] at g6
  have hmp : (operator_precedence 152 + 1) % 256 = 2 := by decide
  simp only [hmp] at e6
  rw [engine_loop_next P (n + 16) p out (n + 10) (show (7 : Nat) ≠ 10 by decide) e6]
  -- `EXPR_1`: the operator `*`
  have hex := (step_expr_1 P (n + 16)
    (σ := ⟨f32_of_nat 3, f32_of_nat 3, f32_of_nat 3, p + 3, 152, 2, false, 6, .OK, m6, seed⟩)
    (e := p + 5) rfl k6
    (k6.text t5 hout (by show p ≤ p + 3; omega) (by show p + 3 ≤ p + 5; omega))
    (by show p + 5 - (p + 3) + 1 < n + 16; omega)).1
    (by show is_operator (s.base (p + 3)) = true ∧ operator_precedence (s.base (p + 3)) ≥ 2
        rw [t3]; decide) (p + 4)
    (skipws_stop (n + 16) (by rw [t4]; decide) (by omega))
  by_cases g0 : s.stktop_idx - s.free_idx < 9
  · have hlt : m6.stktop_idx - m6.free_idx < 1 := by clear hex; omega
    have hn9 : ¬ 9 ≤ s.stktop_idx - s.free_idx := by clear hex; omega
    refine ⟨m6, ?_⟩
    rw [if_neg hn9]
    exact engine_loop_ret P (n + 16) p out (n + 9) (show (6 : Nat) ≠ 10 by decide)
      (hex.2 hlt)
  have hge : 1 ≤ m6.stktop_idx - m6.free_idx := by clear hex; omega
  obtain ⟨m7, e7, k7, f7⟩ := hex.1 hge
  clear hex
  rw [t3] at e7
  rw [engine_loop_next P (n + 16) p out (n + 9) (show (6 : Nat) ≠ 10 by decide) e7]
  -- `TERM`: the literal 4
  obtain ⟨m8, e8, k8, f8⟩ := step_term_digit P hP (n + 16)
    (σ := ⟨f32_of_nat 3, f32_of_nat 3, f32_of_nat 3, p + 4, 154, 2, false, 1, .OK, m7, seed⟩)
    (e := p + 5) 4
    rfl k7 (k7.text t5 hout (by show p ≤ p + 4; omega) (by show p + 4 ≤ p + 5; omega))
    (by show p + 5 - (p + 4) + 1 < n + 16; omega) (by omega) (by rw [t4]) (by omega)
    (by show ¬ (48 ≤ s.base (p + 5) ∧ _) ∧ _; rw [t5]; decide)
  rw [engine_loop_next P (n + 16) p out (n + 8) (show (1 : Nat) ≠ 10 by decide) e8]
  -- the rest of the run
  obtain ⟨m11, r11⟩ := run_2_3_4_last P hP (n + 16) s m8 p seed out t5 hout (by omega) k8
  refine ⟨m11, ?_⟩
  rw [if_pos (show 9 ≤ s.stktop_idx - s.free_idx by omega)]
  exact r11 (n + 1)

theorem basic_parsing_expression_of_engine (P : FPU) (fuel p : Nat) (out : F32)
    (s : BASIC_MEM_MGR) (seed : Nat) {r : BASIC_ERROR_ID} {p1 : Nat} {o : F32}
    {m1 : BASIC_MEM_MGR} {sd : Nat}
    (h : expression_engine_norecurse P fuel p out s seed = .ret r p1 o m1 sd) :
    basic_parsing_expression P fuel p out s seed =
      .ret r p1 o (fgstack_set_top m1 (fgstack_get_top s)) sd := by
  simp only [basic_parsing_expression, h]

theorem IsCStr_MemIs_nul {m : Mem} (l : List Nat) (p : Nat) (h : IsCStr m p l) :
    MemIs m p (l ++ [0]) := by
  rw [MemIs_append]
  exact ⟨IsCStr_MemIs l p h, IsCStr_nul l p h, trivial⟩

/-- C17: the expression `2+3*4` in a tight arena.  On a platform that computes
exactly on the natural numbers below 16, with the tokenized text outside the
area of the stack: with 9 bytes (or more) between `free_idx` and `stktop_idx`,
`basic_parsing_expression` returns OK, the value 14 and the pointer at the end
of the text; with 8 bytes or fewer it returns OUT_OF_MEMORY and leaves the
pointer and the value as they were.  In both cases the stack top is as at
entry. -/
theorem C17_expression_arena_tightness (P : FPU) (hP : ExactBelow P 16) (fuel : Nat)
    (s : BASIC_MEM_MGR) (p seed : Nat) (out : F32) (ho : ArenaOrdered s)
    (htext : IsCStr s.base p expr_2_3_4)
    (hout : p + 5 < s.free_idx ∨ s.stktop_idx ≤ p) (hf : 16 ≤ fuel) :
    (9 ≤ s.stktop_idx - s.free_idx → ∃ m1,
      basic_parsing_expression P fuel p out s seed = .ret .OK (p + 5) (f32_of_nat 14) m1 seed ∧
      m1.stktop_idx = s.stktop_idx) ∧
    (s.stktop_idx - s.free_idx ≤ 8 → ∃ m1,
      basic_parsing_expression P fuel p out s seed = .ret .OUT_OF_MEMORY p out m1 seed ∧
      m1.stktop_idx = s.stktop_idx) := by
  have ht : expr_2_3_4 ++ [0] = [50, 152, 51, 154, 52, 0] := by decide
  have htext := IsCStr_MemIs_nul _ _ htext
  rw [ht] at htext
  obtain ⟨m1, e1⟩ := engine_2_3_4 P hP fuel s p seed out ho htext hout hf
  constructor
  · intro hg
    rw [if_pos hg] at e1
    exact ⟨_, basic_parsing_expression_of_engine P fuel p out s seed e1, rfl⟩
  · intro hg
    rw [if_neg (by omega)] at e1
    exact ⟨_, basic_parsing_expression_of_engine P fuel p out s seed e1, rfl⟩

/-- Witness of C17: the arenas of 12 and of 11 bytes (9 and 8 bytes free). -/
theorem C17_expression_arena_tightness_witness :
    (ExactBelow nat_fpu 16 ∧ ArenaOrdered (expr_arena 12) ∧ ArenaOrdered (expr_arena 11) ∧
      (expr_arena 12).stktop_idx - (expr_arena 12).free_idx = 9 ∧
      (expr_arena 11).stktop_idx - (expr_arena 11).free_idx = 8) ∧
    (∃ m1, basic_parsing_expression nat_fpu 16 100 0 (expr_arena 12) 0 =
        .ret .OK 105 (f32_of_nat 14) m1 0 ∧ m1.stktop_idx = (expr_arena 12).stktop_idx) ∧
    (∃ m1, basic_parsing_expression nat_fpu 16 100 0 (expr_arena 11) 0 =
        .ret .OUT_OF_MEMORY 100 0 m1 0 ∧ m1.stktop_idx = (expr_arena 11).stktop_idx) :=
  ⟨⟨nat_fpu_exact, by decide, by decide, by decide, by decide⟩,
    (C17_expression_arena_tightness nat_fpu nat_fpu_exact 16 (expr_arena 12) 100 0 0
      (by decide) (by decide) (by decide) (by decide)).1 (by decide),
    (C17_expression_arena_tightness nat_fpu nat_fpu_exact 16 (expr_arena 11) 100 0 0
      (by decide) (by decide) (by decide) (by decide)).2 (by decide)⟩

/-- Witness of C20: the scalar `A` read in an arena with 2 free bytes. -/
theorem C20_read_absent_scalar_witness :
    (ArenaOrdered no_var_arena ∧ (no_var_arena.array_idx - no_var_arena.vars_idx) % 6 = 0 ∧
      65 ∉ scalar_region no_var_arena ∧
      no_var_arena.stktop_idx - no_var_arena.free_idx < 6) ∧
    variable_storage_read_var no_var_arena 65 = 0 ∧
    ∃ m1, basic_parsing_expression nat_fpu 5 100 0 no_var_arena 0 = .ret .OK 101 0 m1 0 ∧
      m1.vars_idx = no_var_arena.vars_idx ∧ m1.array_idx = no_var_arena.array_idx ∧
      m1.free_idx = no_var_arena.free_idx ∧ m1.stktop_idx = no_var_arena.stktop_idx ∧
      m1.max_idx = no_var_arena.max_idx ∧
      ∀ x, x < no_var_arena.free_idx ∨ no_var_arena.stktop_idx ≤ x →
        m1.base x = no_var_arena.base x :=
  ⟨⟨by decide, by decide, by decide, by decide⟩,
    (C20_read_absent_scalar nat_fpu 5 no_var_arena 65 (by decide) (by decide) (by decide)).1,
    (C20_read_absent_scalar nat_fpu 5 no_var_arena 65 (by decide) (by decide) (by decide)).2
      100 101 101 0 0 (by decide) (by decide) (by decide) (by decide) (by decide) (by decide)
      (by decide) (by decide) (by decide)⟩

/-! ## Array variables -/

theorem ArraysAt_congr {m m1 : Mem} : ∀ (arrs : List (Nat × Nat)) (a : Nat),
    (∀ x, a ≤ x → x < a + arrays_size arrs → m1 x = m x) → ArraysAt m a arrs →
    ArraysAt m1 a arrs
  | [], _, _, _ => trivial
  | (n, bs) :: rest, a, h, hw => by
    simp only [ArraysAt, arrays_size, sizeof_ARRAY_VARIABLE_HEADER] at hw h ⊢
    rw [h a (by omega) (by omega), h (a + 1) (by omega) (by omega),
      h (a + 2) (by omega) (by omega), h (a + 3) (by omega) (by omega)]
    exact ⟨hw.1, hw.2.1, ArraysAt_congr rest _ (fun x h1 h2 => h x (by omega) (by omega)) hw.2.2⟩

theorem ArraysAt_append {m : Mem} : ∀ (l1 l2 : List (Nat × Nat)) (a : Nat),
    ArraysAt m a (l1 ++ l2) ↔ ArraysAt m a l1 ∧ ArraysAt m (a + arrays_size l1) l2
  | [], l2, a => by simp [ArraysAt, arrays_size]
  | (n, bs) :: rest, l2, a => by
    show (_ ∧ _ ∧ ArraysAt m (a + sizeof_ARRAY_VARIABLE_HEADER + bs) (rest ++ l2)) ↔
      (_ ∧ _ ∧ ArraysAt m (a + sizeof_ARRAY_VARIABLE_HEADER + bs) rest) ∧
        ArraysAt m (a + (sizeof_ARRAY_VARIABLE_HEADER + bs + arrays_size rest)) l2
    rw [ArraysAt_append rest l2, show a + sizeof_ARRAY_VARIABLE_HEADER + bs + arrays_size rest =
      a + (sizeof_ARRAY_VARIABLE_HEADER + bs + arrays_size rest) by omega]
    tauto

theorem arrays_size_append : ∀ (l1 l2 : List (Nat × Nat)),
    arrays_size (l1 ++ l2) = arrays_size l1 + arrays_size l2
  | [], _ => by simp [arrays_size]
  | (n, bs) :: rest, l2 => by
    show sizeof_ARRAY_VARIABLE_HEADER + bs + arrays_size (rest ++ l2) =
      sizeof_ARRAY_VARIABLE_HEADER + bs + arrays_size rest + arrays_size l2
    rw [arrays_size_append rest l2]
    omega

theorem arrays_length_le_size : ∀ (l : List (Nat × Nat)), 4 * l.length ≤ arrays_size l
  | [] => by simp [arrays_size]
  | (n, bs) :: rest => by
    have := arrays_length_le_size rest
    simp only [arrays_size, List.length_cons, sizeof_ARRAY_VARIABLE_HEADER]
    omega

/-- The search loop of `variable_storage_create_array_var` finds the first
record of the name. -/
theorem lookup_array_loop_spec (m : Mem) (var free : Nat) : ∀ (arrs : List (Nat × Nat))
    (n a : Nat), ArraysAt m a arrs → a + arrays_size arrs = free → arrs.length < n →
    lookup_array_loop m free var n a = (array_offset var arrs a).map Prod.fst
  | [], n, a, _, hs, hn => by
    obtain ⟨k, rfl⟩ : ∃ k, n = k + 1 := ⟨n - 1, by simp at hn; omega⟩
    simp only [arrays_size] at hs
    simp only [lookup_array_loop, sizeof_ARRAY_VARIABLE_HEADER, array_offset, Option.map_none']
    rw [if_neg (by omega)]
  | (nm, bs) :: rest, n, a, hw, hs, hn => by
    obtain ⟨k, rfl⟩ : ∃ k, n = k + 1 := ⟨n - 1, by simp at hn; omega⟩
    simp only [ArraysAt, arrays_size, sizeof_ARRAY_VARIABLE_HEADER] at hw hs
    simp only [lookup_array_loop, sizeof_ARRAY_VARIABLE_HEADER, array_offset, hw.1, hw.2.1]
    rw [if_pos (by omega)]
    by_cases hv : nm = var
    · simp [hv]
    · rw [if_neg hv, if_neg hv]
      exact lookup_array_loop_spec m var free rest k (a + 4 + bs) hw.2.2 (by omega)
        (by simpa using hn)

theorem array_offset_none {var : Nat} : ∀ (arrs : List (Nat × Nat)) (a : Nat),
    (∀ x ∈ arrs, x.1 ≠ var) → array_offset var arrs a = none
  | [], _, _ => rfl
  | (n, bs) :: rest, a, h => by
    simp only [array_offset]
    rw [if_neg (h (n, bs) (by simp))]
    exact array_offset_none rest _ (fun x hx => h x (by simp [hx]))

theorem array_offset_append_new {var bs : Nat} : ∀ (arrs : List (Nat × Nat)) (a : Nat),
    (∀ x ∈ arrs, x.1 ≠ var) →
    array_offset var (arrs ++ [(var, bs)]) a = some (a + arrays_size arrs, bs)
  | [], a, _ => by simp [array_offset, arrays_size]
  | (n, b) :: rest, a, h => by
    show (if n = var then some (a, b)
      else array_offset var (rest ++ [(var, bs)]) (a + sizeof_ARRAY_VARIABLE_HEADER + b)) =
      some (a + (sizeof_ARRAY_VARIABLE_HEADER + b + arrays_size rest), bs)
    rw [if_neg (h (n, b) (by simp)),
      array_offset_append_new rest _ (fun x hx => h x (by simp [hx]))]
    simp only [Option.some.injEq, Prod.mk.injEq, and_true]
    omega

/-- The lookup at the start of `variable_storage_create_array_var`. -/
theorem lookup_array_spec (s : BASIC_MEM_MGR) (var : Nat) (arrs : List (Nat × Nat))
    (hw : ArraysWF s arrs) :
    lookup_array_loop s.base s.free_idx var (s.free_idx - s.array_idx + 1) s.array_idx =
      (array_offset var arrs s.array_idx).map Prod.fst := by
  have := arrays_length_le_size arrs
  exact lookup_array_loop_spec s.base var s.free_idx arrs _ _ hw.1 hw.2 (by
    have := hw.2
    omega)

/-- `variable_storage_create_array_var` on a name that has a record. -/
theorem create_array_found (s : BASIC_MEM_MGR) (var sub : Nat) (dim : Bool)
    (arrs : List (Nat × Nat)) (hw : ArraysWF s arrs) {off bs : Nat}
    (hoff : array_offset var arrs s.array_idx = some (off, bs))
    (hbs : le16 (s.base (off + 2)) (s.base (off + 3)) = bs) :
    variable_storage_create_array_var s var sub dim =
      if dim then (.REDIMENSION, 0, s)
      else if sub * 4 ≥ bs then (.SUBSCRIPT, 0, s)
      else (.OK, off + 4 + 4 * sub, s) := by
  simp only [variable_storage_create_array_var, lookup_array_spec s var arrs hw, hoff,
    Option.map_some', hbs, sizeof_VARIABLE_VALUE, sizeof_ARRAY_VARIABLE_HEADER]

theorem array_offset_block {m : Mem} {var : Nat} : ∀ (arrs : List (Nat × Nat)) (a : Nat)
    {off bs : Nat}, ArraysAt m a arrs → array_offset var arrs a = some (off, bs) →
    le16 (m (off + 2)) (m (off + 3)) = bs ∧ (var, bs) ∈ arrs ∧ a ≤ off ∧
      off + 4 + bs ≤ a + arrays_size arrs
  | [], _, _, _, _, h => by simp [array_offset] at h
  | (n, b) :: rest, a, off, bs, hw, h => by
    simp only [ArraysAt, sizeof_ARRAY_VARIABLE_HEADER] at hw
    simp only [array_offset, sizeof_ARRAY_VARIABLE_HEADER] at h
    simp only [arrays_size, sizeof_ARRAY_VARIABLE_HEADER]
    by_cases hv : n = var
    · rw [if_pos hv] at h
      simp only [Option.some.injEq, Prod.mk.injEq] at h
      obtain ⟨rfl, rfl⟩ := h
      exact ⟨hw.2.1, by simp [hv], Nat.le_refl _, by omega⟩
    · rw [if_neg hv] at h
      obtain ⟨i1, i2, i3, i4⟩ := array_offset_block rest _ hw.2.2 h
      exact ⟨i1, by simp [i2], by omega, by omega⟩

/-- The search loop of `variable_storage_create_array_var` on a name that has
a record inside the region searched. -/
theorem lookup_array_loop_found (m : Mem) (var free : Nat) : ∀ (arrs : List (Nat × Nat))
    (n a : Nat) {off bs : Nat}, ArraysAt m a arrs → a + arrays_size arrs ≤ free →
    arrs.length < n → array_offset var arrs a = some (off, bs) →
    lookup_array_loop m free var n a = some off
  | [], _, _, _, _, _, _, _, h => by simp [array_offset] at h
  | (nm, b) :: rest, n, a, off, bs, hw, hs, hn, h => by
    obtain ⟨k, rfl⟩ : ∃ k, n = k + 1 := ⟨n - 1, by simp at hn; omega⟩
    simp only [ArraysAt, arrays_size, sizeof_ARRAY_VARIABLE_HEADER] at hw hs
    simp only [array_offset, sizeof_ARRAY_VARIABLE_HEADER] at h
    simp only [lookup_array_loop, sizeof_ARRAY_VARIABLE_HEADER, hw.1, hw.2.1]
    rw [if_pos (by omega)]
    by_cases hv : nm = var
    · rw [if_pos hv] at h ⊢
      simp only [Option.some.injEq, Prod.mk.injEq] at h
      rw [h.1]
    · rw [if_neg hv] at h ⊢
      exact lookup_array_loop_found m var free rest k (a + 4 + b) hw.2.2 (by omega)
        (by simpa using hn) h

/-- `variable_storage_create_array_var` when the search finds a record. -/
theorem create_array_of_lookup (s : BASIC_MEM_MGR) (var sub : Nat) (dim : Bool) {off : Nat}
    (hl : lookup_array_loop s.base s.free_idx var (s.free_idx - s.array_idx + 1) s.array_idx =
      some off) :
    variable_storage_create_array_var s var sub dim =
      if dim then (.REDIMENSION, 0, s)
      else if sub * 4 ≥ le16 (s.base (off + 2)) (s.base (off + 3)) then (.SUBSCRIPT, 0, s)
      else (.OK, off + 4 + 4 * sub, s) := by
  simp only [variable_storage_create_array_var, hl, sizeof_VARIABLE_VALUE,
    sizeof_ARRAY_VARIABLE_HEADER]

theorem mem_write16_read (m : Mem) (a v : Nat) (hv : v < 65536) :
    le16 (mem_write16 m a v a) (mem_write16 m a v (a + 1)) = v := by
  have hne : a ≠ a + 1 := by omega
  simp only [mem_write16, mem_write, le16, if_true, Nat.mod_mod, hne, if_false]
  omega

theorem mem_write16_other (m : Mem) (a v x : Nat) (h : x < a ∨ a + 2 ≤ x) :
    mem_write16 m a v x = m x := by
  simp only [mem_write16, mem_write]
  rw [if_neg (by omega), if_neg (by omega)]

/-- `variable_storage_create_array_var` on a name that has no record. -/
theorem create_array_absent (s : BASIC_MEM_MGR) (var sub : Nat) (dim : Bool)
    (arrs : List (Nat × Nat)) (ho : ArenaOrdered s) (hw : ArraysWF s arrs)
    (habs : ∀ x ∈ arrs, x.1 ≠ var) (hsub : dim = true → sub < 1073741822) :
    variable_storage_create_array_var s var sub dim =
      if dim = false ∧ sub > 10 then (.SUBSCRIPT, 0, s)
      else if s.stktop_idx - s.free_idx < ((if dim then sub else 10) + 1) * 4 + 4 then
        (.OUT_OF_MEMORY, 0, s)
      else (.OK, s.free_idx + 4 + 4 * sub, array_created s var (if dim then sub else 10)) := by
  obtain ⟨o1, o2, o3, o4, o5⟩ := ho
  simp only [variable_storage_create_array_var, lookup_array_spec s var arrs hw,
    array_offset_none arrs s.array_idx habs, Option.map_none', sizeof_VARIABLE_VALUE,
    sizeof_ARRAY_VARIABLE_HEADER, basic_mem_check_space, usub_eq (Nat.lt_of_le_of_lt o4 o5) o3,
    array_created]
  cases dim
  · simp only [Bool.false_eq_true, if_false, true_and]
    by_cases h10 : sub > 10
    · simp only [h10, if_true]
    · simp only [h10, if_false, u32, UINT, Nat.reduceAdd, Nat.reduceMul, Nat.reduceMod,
        decide_eq_false_iff_not, Nat.not_le]
      by_cases hg : s.stktop_idx - s.free_idx < 48
      · simp only [hg, if_true]
      · simp only [hg, if_false]
        have o5 : s.max_idx < 4294967296 := o5
        rw [Nat.mod_eq_of_lt (by omega)]
  · simp only [if_true, Bool.true_eq_false, false_and, if_false]
    have hsub := hsub rfl
    have h1 : u32 ((sub + 1) * 4) = (sub + 1) * 4 := u32_eq (by show (sub + 1) * 4 < 4294967296; omega)
    have h2 : u32 ((sub + 1) * 4 + 4) = (sub + 1) * 4 + 4 :=
      u32_eq (by show (sub + 1) * 4 + 4 < 4294967296; omega)
    simp only [h1, h2, decide_eq_false_iff_not, Nat.not_le]
    by_cases hg : s.stktop_idx - s.free_idx < (sub + 1) * 4 + 4
    · simp only [hg, if_true]
    · simp only [hg, if_false]
      have o5 : s.max_idx < 4294967296 := o5
      rw [u32_eq (by show _ < 4294967296; omega)]

theorem array_created_below (s : BASIC_MEM_MGR) (var n x : Nat) (h : x < s.free_idx) :
    (array_created s var n).base x = s.base x := by
  simp only [array_created, memset0]
  rw [if_neg (by omega), mem_write16_other _ _ _ _ (by omega),
    mem_write16_other _ _ _ _ (by omega)]

theorem array_created_above (s : BASIC_MEM_MGR) (var n x : Nat)
    (h : s.free_idx + 4 + (n + 1) * 4 ≤ x) : (array_created s var n).base x = s.base x := by
  simp only [array_created, memset0]
  rw [if_neg (by omega), mem_write16_other _ _ _ _ (by omega),
    mem_write16_other _ _ _ _ (by omega)]

theorem array_created_zero (s : BASIC_MEM_MGR) (var n x : Nat) (h1 : s.free_idx + 4 ≤ x)
    (h2 : x < s.free_idx + 4 + (n + 1) * 4) : (array_created s var n).base x = 0 := by
  simp only [array_created, memset0]
  rw [if_pos ⟨h1, h2⟩]

theorem array_created_header (s : BASIC_MEM_MGR) (var n : Nat) (hv : var < 65536) :
    le16 ((array_created s var n).base s.free_idx) ((array_created s var n).base (s.free_idx + 1)) =
        var ∧
      le16 ((array_created s var n).base (s.free_idx + 2))
        ((array_created s var n).base (s.free_idx + 3)) = (n + 1) * 4 % 65536 := by
  simp only [array_created, memset0]
  rw [if_neg (by omega), if_neg (by omega), if_neg (by omega), if_neg (by omega),
    mem_write16_other _ _ _ s.free_idx (by omega),
    mem_write16_other _ _ _ (s.free_idx + 1) (by omega)]
  exact ⟨mem_write16_read _ _ _ hv, mem_write16_read _ _ _ (Nat.mod_lt _ (by decide))⟩

theorem array_created_read (s : BASIC_MEM_MGR) (var n j : Nat) (hj : j ≤ n) :
    mem_read_f32 (array_created s var n).base (s.free_idx + 4 + 4 * j) = 0 := by
  apply Fin.ext
  simp only [mem_read_f32]
  rw [array_created_zero s var n _ (by omega) (by omega),
    array_created_zero s var n _ (by omega) (by omega),
    array_created_zero s var n _ (by omega) (by omega),
    array_created_zero s var n _ (by omega) (by omega)]
  rfl

/-- After a record is made for `var`, a reference to the element `j` of `var`
finds the record: it succeeds when `4 * j` is below the block size stored in
the header, and fails with SUBSCRIPT otherwise. -/
theorem array_created_access (s : BASIC_MEM_MGR) (var n j : Nat) (arrs : List (Nat × Nat))
    (hw : ArraysWF s arrs) (habs : ∀ x ∈ arrs, x.1 ≠ var) (hv : var < 65536) :
    variable_storage_create_array_var (array_created s var n) var j false =
      if j * 4 ≥ (n + 1) * 4 % 65536 then (.SUBSCRIPT, 0, array_created s var n)
      else (.OK, s.free_idx + 4 + 4 * j, array_created s var n) := by
  obtain ⟨h1, h2⟩ := array_created_header s var n hv
  have hat : ArraysAt (array_created s var n).base s.array_idx
      (arrs ++ [(var, (n + 1) * 4 % 65536)]) := by
    rw [ArraysAt_append]
    refine ⟨ArraysAt_congr arrs _ (fun x hx1 hx2 => array_created_below s var n x ?_) hw.1, ?_⟩
    · have := hw.2; omega
    · rw [hw.2]
      exact ⟨h1, h2, trivial⟩
  have hmod : (n + 1) * 4 % 65536 ≤ (n + 1) * 4 := Nat.mod_le _ _
  have hlen := arrays_length_le_size arrs
  have hl := lookup_array_loop_found (array_created s var n).base var
    (array_created s var n).free_idx (arrs ++ [(var, (n + 1) * 4 % 65536)])
    ((array_created s var n).free_idx - (array_created s var n).array_idx + 1) s.array_idx hat
    (by
      rw [arrays_size_append]
      simp only [arrays_size, sizeof_ARRAY_VARIABLE_HEADER, array_created]
      have := hw.2
      omega)
    (by
      simp only [List.length_append, List.length_singleton, array_created]
      have := hw.2
      omega)
    (array_offset_append_new arrs s.array_idx habs)
  rw [hw.2] at hl
  rw [create_array_of_lookup _ var j false hl, h2]
  simp only [Bool.false_eq_true, if_false]

theorem array_created_wf (s : BASIC_MEM_MGR) (var n : Nat) (arrs : List (Nat × Nat))
    (hw : ArraysWF s arrs) (hv : var < 65536) (hn : (n + 1) * 4 < 65536) :
    ArraysWF (array_created s var n) (arrs ++ [(var, (n + 1) * 4)]) := by
  obtain ⟨h1, h2⟩ := array_created_header s var n hv
  rw [Nat.mod_eq_of_lt hn] at h2
  constructor
  · show ArraysAt (array_created s var n).base s.array_idx _
    rw [ArraysAt_append]
    refine ⟨ArraysAt_congr arrs _ (fun x hx1 hx2 => array_created_below s var n x ?_) hw.1, ?_⟩
    · have := hw.2; omega
    · rw [hw.2]
      exact ⟨h1, h2, trivial⟩
  · show s.array_idx + _ = s.free_idx + ((n + 1) * 4 + 4)
    rw [arrays_size_append]
    simp only [arrays_size, sizeof_ARRAY_VARIABLE_HEADER]
    have := hw.2
    omega

theorem array_offset_of_mem {var : Nat} : ∀ (arrs : List (Nat × Nat)) (a : Nat),
    (∃ bs, (var, bs) ∈ arrs) → ∃ off bs, array_offset var arrs a = some (off, bs)
  | [], _, h => by simp at h
  | (n, b) :: rest, a, h => by
    simp only [array_offset]
    by_cases hv : n = var
    · exact ⟨a, b, by rw [if_pos hv]⟩
    · rw [if_neg hv]
      apply array_offset_of_mem rest
      obtain ⟨bs, hm⟩ := h
      rcases List.mem_cons.1 hm with h1 | h1
      · simp only [Prod.mk.injEq] at h1
        exact absurd h1.1.symm hv
      · exact ⟨bs, h1⟩

/-- C21: default dimensioning.  For a name without array record, a reference
to the element `i` (`dim = false`) with `i > 10` returns SUBSCRIPT and changes
nothing; with `i <= 10` and at least 48 free bytes it returns OK and the slot
of element `i` in a new record of 44 bytes of zeros after a 4-byte header:
`free_idx` grows by 48, the other indices and the memory below the old
`free_idx` stay, afterwards the elements 0..10 are found and read 0.0 and the
elements above 10 give SUBSCRIPT; with fewer than 48 free bytes it returns
OUT_OF_MEMORY and changes nothing. -/
theorem C21_default_dimension (s : BASIC_MEM_MGR) (var i : Nat) (arrs : List (Nat × Nat))
    (ho : ArenaOrdered s) (hw : ArraysWF s arrs) (habs : ∀ x ∈ arrs, x.1 ≠ var)
    (hv : var < 65536) :
    (i > 10 → variable_storage_create_array_var s var i false = (.SUBSCRIPT, 0, s)) ∧
    (i ≤ 10 → 48 ≤ s.stktop_idx - s.free_idx → ∃ s1,
      variable_storage_create_array_var s var i false = (.OK, s.free_idx + 4 + 4 * i, s1) ∧
      s1.free_idx = s.free_idx + 48 ∧ s1.vars_idx = s.vars_idx ∧
      s1.array_idx = s.array_idx ∧ s1.stktop_idx = s.stktop_idx ∧ s1.max_idx = s.max_idx ∧
      (∀ x, x < s.free_idx → s1.base x = s.base x) ∧
      ArraysWF s1 (arrs ++ [(var, 44)]) ∧
      (∀ j, j ≤ 10 →
        variable_storage_create_array_var s1 var j false =
          (.OK, s.free_idx + 4 + 4 * j, s1) ∧
        mem_read_f32 s1.base (s.free_idx + 4 + 4 * j) = 0) ∧
      (∀ j, j > 10 → variable_storage_create_array_var s1 var j false = (.SUBSCRIPT, 0, s1))) ∧
    (i ≤ 10 → s.stktop_idx - s.free_idx < 48 →
      variable_storage_create_array_var s var i false = (.OUT_OF_MEMORY, 0, s)) := by
  have hc := create_array_absent s var i false arrs ho hw habs (by simp)
  simp only [Bool.false_eq_true, if_false, true_and] at hc
  refine ⟨fun h => by rw [hc, if_pos h], fun h hg => ?_, fun h hg => ?_⟩
  · rw [if_neg (by omega), if_neg (by omega)] at hc
    refine ⟨array_created s var 10, hc, rfl, rfl, rfl, rfl, rfl,
      fun x hx => array_created_below s var 10 x hx,
      array_created_wf s var 10 arrs hw hv (by decide), fun j hj => ?_, fun j hj => ?_⟩
    · have ha := array_created_access s var 10 j arrs hw habs hv
      rw [if_neg (by omega)] at ha
      exact ⟨ha, array_created_read s var 10 j hj⟩
    · have ha := array_created_access s var 10 j arrs hw habs hv
      rw [if_pos (by omega)] at ha
      exact ha
  · rw [hc, if_neg (by omega), if_pos (by omega)]

/-- Witness of C21: the array `A` in an empty arena of 64 bytes. -/
theorem C21_default_dimension_witness :
    (ArenaOrdered empty_arena_64 ∧ ArraysWF empty_arena_64 [] ∧
      48 ≤ empty_arena_64.stktop_idx - empty_arena_64.free_idx) ∧
    ∃ s1, variable_storage_create_array_var empty_arena_64 65 1 false =
        (.OK, empty_arena_64.free_idx + 4 + 4 * 1, s1) ∧
      s1.free_idx = empty_arena_64.free_idx + 48 ∧ s1.vars_idx = empty_arena_64.vars_idx ∧
      s1.array_idx = empty_arena_64.array_idx ∧ s1.stktop_idx = empty_arena_64.stktop_idx ∧
      s1.max_idx = empty_arena_64.max_idx ∧
      (∀ x, x < empty_arena_64.free_idx → s1.base x = empty_arena_64.base x) ∧
      ArraysWF s1 ([] ++ [(65, 44)]) ∧
      (∀ j, j ≤ 10 →
        variable_storage_create_array_var s1 65 j false =
          (.OK, empty_arena_64.free_idx + 4 + 4 * j, s1) ∧
        mem_read_f32 s1.base (empty_arena_64.free_idx + 4 + 4 * j) = 0) ∧
      (∀ j, j > 10 → variable_storage_create_array_var s1 65 j false = (.SUBSCRIPT, 0, s1)) :=
  ⟨⟨by decide, by decide, by decide⟩,
    (C21_default_dimension empty_arena_64 65 1 [] (by decide) (by decide) (by simp)
      (by decide)).2.1 (by decide) (by decide)⟩

/-- An explicit DIM of `n + 1` elements whose block size fits the 16-bit
field of the header: the elements 0..n are found and read 0.0, the elements
above `n` give SUBSCRIPT. -/
theorem dim_spec (s : BASIC_MEM_MGR) (var n : Nat) (arrs : List (Nat × Nat))
    (ho : ArenaOrdered s) (hw : ArraysWF s arrs) (habs : ∀ x ∈ arrs, x.1 ≠ var)
    (hv : var < 65536) (hn : n ≤ 16382) (hg : (n + 1) * 4 + 4 ≤ s.stktop_idx - s.free_idx) :
    variable_storage_create_array_var s var n true =
      (.OK, s.free_idx + 4 + 4 * n, array_created s var n) ∧
    ArraysWF (array_created s var n) (arrs ++ [(var, (n + 1) * 4)]) ∧
    (∀ j, j ≤ n →
      variable_storage_create_array_var (array_created s var n) var j false =
        (.OK, s.free_idx + 4 + 4 * j, array_created s var n) ∧
      mem_read_f32 (array_created s var n).base (s.free_idx + 4 + 4 * j) = 0) ∧
    (∀ j, j > n →
      variable_storage_create_array_var (array_created s var n) var j false =
        (.SUBSCRIPT, 0, array_created s var n)) := by
  have hc := create_array_absent s var n true arrs ho hw habs (fun _ => by omega)
  simp only [Bool.true_eq_false, false_and, if_false, if_true] at hc
  rw [if_neg (by omega)] at hc
  have hmod : (n + 1) * 4 % 65536 = (n + 1) * 4 := Nat.mod_eq_of_lt (by omega)
  refine ⟨hc, array_created_wf s var n arrs hw hv (by omega), fun j hj => ?_, fun j hj => ?_⟩
  · have ha := array_created_access s var n j arrs hw habs hv
    rw [hmod, if_neg (by omega)] at ha
    exact ⟨ha, array_created_read s var n j hj⟩
  · have ha := array_created_access s var n j arrs hw habs hv
    rw [hmod, if_pos (by omega)] at ha
    exact ha

/-- An explicit DIM of 16384 elements: the block size 65536 is stored as 0 in
the 16-bit field of the header, and no element of the array can be reached. -/
theorem dim_16383 (s : BASIC_MEM_MGR) (var j : Nat) (arrs : List (Nat × Nat))
    (ho : ArenaOrdered s) (hw : ArraysWF s arrs) (habs : ∀ x ∈ arrs, x.1 ≠ var)
    (hv : var < 65536) (hg : 65540 ≤ s.stktop_idx - s.free_idx) :
    variable_storage_create_array_var s var 16383 true =
      (.OK, s.free_idx + 4 + 4 * 16383, array_created s var 16383) ∧
    variable_storage_create_array_var (array_created s var 16383) var j false =
      (.SUBSCRIPT, 0, array_created s var 16383) := by
  have hc := create_array_absent s var 16383 true arrs ho hw habs (fun _ => by omega)
  simp only [Bool.true_eq_false, false_and, if_false, if_true] at hc
  rw [if_neg (by omega)] at hc
  have ha := array_created_access s var 16383 j arrs hw habs hv
  rw [if_pos (by omega)] at ha
  exact ⟨hc, ha⟩

/-- C22 fails in the code: in an empty arena of 70000 bytes `DIM A(16383)`
succeeds and takes 65540 bytes, and afterwards the element 0 of `A` gives
SUBSCRIPT. -/
theorem C22_dim_16383_unreachable :
    65540 ≤ empty_arena_70000.stktop_idx - empty_arena_70000.free_idx ∧
    (variable_storage_create_array_var empty_arena_70000 65 16383 true).1 = .OK ∧
    (variable_storage_create_array_var empty_arena_70000 65 16383 true).2.2.free_idx =
      empty_arena_70000.free_idx + 65540 ∧
    (variable_storage_create_array_var
      (variable_storage_create_array_var empty_arena_70000 65 16383 true).2.2 65 0 false).1 =
      .SUBSCRIPT := by
  obtain ⟨h1, h2⟩ := dim_16383 empty_arena_70000 65 0 [] (by decide) (by decide) (by simp)
    (by decide) (by decide)
  rw [h1, h2]
  exact ⟨by decide, rfl, rfl, rfl⟩

/-- C23: DIM of a name that has an array record, of whatever block size,
returns REDIMENSION for every requested size and leaves the arena as it is. -/
theorem C23_redimension (s : BASIC_MEM_MGR) (var sub : Nat) (arrs : List (Nat × Nat))
    (hw : ArraysWF s arrs) (hex : ∃ bs, (var, bs) ∈ arrs) :
    variable_storage_create_array_var s var sub true = (.REDIMENSION, 0, s) := by
  obtain ⟨off, bs, hoff⟩ := array_offset_of_mem arrs s.array_idx hex
  have hl := lookup_array_spec s var arrs hw
  rw [hoff] at hl
  rw [create_array_of_lookup s var sub true hl]
  rfl

/-- Witness of C23: `DIM A(5)` after the array `A` was made by a first
reference in an empty arena of 64 bytes. -/
theorem C23_redimension_witness :
    (ArraysWF (array_created empty_arena_64 65 10) [(65, 44)] ∧
      (variable_storage_create_array_var empty_arena_64 65 1 false).2.2 =
        array_created empty_arena_64 65 10) ∧
    variable_storage_create_array_var (array_created empty_arena_64 65 10) 65 5 true =
      (.REDIMENSION, 0, array_created empty_arena_64 65 10) :=
  ⟨⟨by decide, rfl⟩,
    C23_redimension (array_created empty_arena_64 65 10) 65 5 [(65, 44)] (by decide)
      ⟨44, by simp⟩⟩

/-! ## Program-only statements, line storage and listing: the claims -/

/-- `basic_parsing_skipws` over a run of spaces that ends at `q`. -/
theorem skipws_run {m : Mem} {q : Nat} : ∀ (fuel p : Nat), p ≤ q →
    (∀ x, p ≤ x → x < q → m x = 32) → m q ≠ 32 → q - p < fuel →
    basic_parsing_skipws m fuel p = some q
  | 0, _, _, _, _, hf => by omega
  | fuel + 1, p, hpq, hsp, hq, hf => by
    by_cases h : p = q
    · subst h
      simp [basic_parsing_skipws, hq]
    · have h32 : m p = 32 := hsp p (Nat.le_refl _) (by omega)
      simp only [basic_parsing_skipws, h32, if_true]
      exact skipws_run fuel (p + 1) (by omega) (fun x h1 h2 => hsp x (by omega) h2) hq (by omega)

/-- C30: in direct mode (`current_line = UINT_MAX`) the handlers of FOR, GOSUB
and INPUT return IN_PROGRAM_ONLY and leave the whole state as it is (no
variable, no frame, no input read, parse pointer unmoved), whatever follows the
keyword; and a statement that starts with one of these keywords, run by
`exec_line` with the break key not pressed, ends with IN_PROGRAM_ONLY with the
parse pointer at the first non-blank after the keyword and nothing else
changed but the break-key poll. -/
theorem C30_program_only (P : FPU) (fuel n : Nat) (bs : BASIC_MAIN_STATE) (q : Nat)
    (h : bs.current_line = UINT_MAX) :
    handler_for P fuel bs = .ret (.IN_PROGRAM_ONLY, bs) ∧
    handler_gosub fuel bs = .ret (.IN_PROGRAM_ONLY, bs) ∧
    handler_input P fuel bs = .ret (.IN_PROGRAM_ONLY, bs) ∧
    ((bs.prog.base bs.parse_ptr = BASIC_KEYWORD_FOR ∨
        bs.prog.base bs.parse_ptr = BASIC_KEYWORD_GOSUB ∨
        bs.prog.base bs.parse_ptr = BASIC_KEYWORD_INPUT) →
      (basic_callback_check_break_key bs).1 = false →
      bs.parse_ptr < q → (∀ x, bs.parse_ptr < x → x < q → bs.prog.base x = 32) →
      bs.prog.base q ≠ 32 → q - bs.parse_ptr ≤ fuel →
      exec_line P fuel (n + 1) bs = .ret (.IN_PROGRAM_ONLY,
        { bs with
          error_in_data := false, parse_ptr := q
          break_keys := (basic_callback_check_break_key bs).2.break_keys })) := by
  have h1 : handler_for P fuel bs = .ret (.IN_PROGRAM_ONLY, bs) := by
    unfold handler_for; rw [if_pos h]
  have h2 : handler_gosub fuel bs = .ret (.IN_PROGRAM_ONLY, bs) := by
    unfold handler_gosub; rw [if_pos h]
  have h3 : handler_input P fuel bs = .ret (.IN_PROGRAM_ONLY, bs) := by
    unfold handler_input; rw [if_pos h]
  refine ⟨h1, h2, h3, fun hc hb hpq hsp hq hf => ?_⟩
  have hsk : basic_parsing_skipws bs.prog.base fuel (bs.parse_ptr + 1) = some q :=
    skipws_run fuel (bs.parse_ptr + 1) (by omega) (fun x hx1 hx2 => hsp x (by omega) hx2) hq
      (by omega)
  have hne : bs.prog.base bs.parse_ptr ≠ 0 := by
    rcases hc with hc | hc | hc <;> rw [hc] <;> decide
  have hle : ¬ bs.prog.base bs.parse_ptr > BASIC_KEYWORD_RANGE_END_GENERAL := by
    rcases hc with hc | hc | hc <;> rw [hc] <;> decide
  have hge : bs.prog.base bs.parse_ptr ≥ BASIC_KEYWORD_RANGE_BEGIN := by
    rcases hc with hc | hc | hc <;> rw [hc] <;> decide
  obtain ⟨bk, hbk⟩ : ∃ bk, basic_callback_check_break_key { bs with error_in_data := false } =
      (false, { bs with error_in_data := false, break_keys := bk }) ∧
      (basic_callback_check_break_key bs).2.break_keys = bk := by
    unfold basic_callback_check_break_key at hb ⊢
    cases hk : bs.break_keys with
    | nil => exact ⟨[], by simp only [hk], by simp only [hk]⟩
    | cons b rest =>
      rw [hk] at hb
      simp only at hb
      subst hb
      exact ⟨rest, by simp only [hk], by simp only [hk]⟩
  have hcmd : cmd_handlers P fuel (bs.prog.base bs.parse_ptr)
      { bs with error_in_data := false, break_keys := bk, parse_ptr := q } =
      .ret (.IN_PROGRAM_ONLY, { bs with error_in_data := false, break_keys := bk, parse_ptr := q }) := by
    rcases hc with hc | hc | hc
    · rw [hc]
      exact (show cmd_handlers P fuel BASIC_KEYWORD_FOR _ = handler_for P fuel _ from rfl).trans
        (by unfold handler_for; rw [if_pos h])
    · rw [hc]
      exact (show cmd_handlers P fuel BASIC_KEYWORD_GOSUB _ = handler_gosub fuel _ from rfl).trans
        (by unfold handler_gosub; rw [if_pos h])
    · rw [hc]
      exact (show cmd_handlers P fuel BASIC_KEYWORD_INPUT _ = handler_input P fuel _ from rfl).trans
        (by unfold handler_input; rw [if_pos h])
  rw [hbk.2]
  unfold exec_line
  rw [if_pos hne, hbk.1]
  simp only [if_neg hle, if_pos hge, hsk, hcmd]
  simp

/-- Witness of C30: `GOSUB 10` typed in direct mode. -/
theorem C30_program_only_witness :
    direct_demo.current_line = UINT_MAX ∧
    handler_for nat_fpu 10 direct_demo = .ret (.IN_PROGRAM_ONLY, direct_demo) ∧
    handler_gosub 10 direct_demo = .ret (.IN_PROGRAM_ONLY, direct_demo) ∧
    handler_input nat_fpu 10 direct_demo = .ret (.IN_PROGRAM_ONLY, direct_demo) ∧
    exec_line nat_fpu 10 (0 + 1) direct_demo = .ret (.IN_PROGRAM_ONLY,
      { direct_demo with
        error_in_data := false, parse_ptr := 102
        break_keys := (basic_callback_check_break_key direct_demo).2.break_keys }) :=
  have h := C30_program_only nat_fpu 10 0 direct_demo 102 rfl
  ⟨rfl, h.1, h.2.1, h.2.2.1, h.2.2.2 (by decide) rfl (by decide)
    (fun x h1 h2 => by
      have hx : x = 101 := by
        have h1 : 100 < x := h1
        omega
      subst hx
      decide) (by decide) (by decide)⟩

theorem record_size_absent (n : Nat) : ∀ (recs : List (Nat × List Nat)),
    (∀ r ∈ recs, r.1 ≠ n) → record_size n recs = 0
  | [], _ => rfl
  | (k, b) :: rest, h => by
    have hk : k ≠ n := h (k, b) (by simp)
    simp only [record_size, if_neg hk]
    exact record_size_absent n rest (fun r hr => h r (List.mem_cons_of_mem _ hr))

theorem record_size_split (n : Nat) (b : List Nat) : ∀ (pre post : List (Nat × List Nat)),
    (∀ r ∈ pre, r.1 < n) → (∀ r ∈ post, n < r.1) →
    record_size n (pre ++ post) = 0 ∧ record_size n (pre ++ (n, b) :: post) = 5 + b.length
  | [], post, _, h2 => by
    refine ⟨record_size_absent n post (fun r hr => by have := h2 r hr; omega), ?_⟩
    simp [record_size]
  | (k, c) :: pre, post, h1, h2 => by
    have hk : k ≠ n := by have := h1 (k, c) (by simp); simp only at this; omega
    have ih := record_size_split n b pre post (fun r hr => h1 r (List.mem_cons_of_mem _ hr)) h2
    simp only [List.cons_append, record_size, if_neg hk]
    exact ih

/-- Removing line `n` from a sorted program frees the bytes of its record. -/
theorem prog_size_remove (n : Nat) (recs : List (Nat × List Nat)) (hs : LinesSorted recs) :
    prog_size (lines_remove n recs) + record_size n recs = prog_size recs := by
  obtain ⟨pre, post, _, hpre, hpost, hcase⟩ := lines_split n recs hs
  obtain ⟨r1, r2⟩ := lines_remove_split n pre post hpre hpost
  rcases hcase with ⟨e, _⟩ | ⟨b, e, _⟩
  · rw [e, r1, (record_size_split n [] pre post hpre hpost).1]
    rfl
  · rw [e, r2 b, (record_size_split n b pre post hpre hpost).2, prog_size_append,
      prog_size_append]
    simp only [prog_size]
    omega

/-- C28: on a well-formed program `prog_storage_store_line(n, body)` returns,
and with a non-empty body of length `L` it succeeds if and only if
`L + 5 <= (stktop_idx - free_idx) + r`, where `r` is the size of the record
stored for line `n` (0 when there is none); with an empty body it always
succeeds. -/
theorem C28_store_line_room (fuel : Nat) (s : BASIC_MEM_MGR) (line : Nat) (content : List Nat)
    (recs : List (Nat × List Nat)) (hwf : ProgWF s recs) (hord : ArenaOrdered s)
    (hline : line < 65536) (hc : ∀ c ∈ content, c ≠ 0 ∧ c < 256)
    (hlen : content.length + 5 < UINT) (hf : s.max_idx < fuel) :
    ∃ r s1, prog_storage_store_line fuel s line content = some (r, s1) ∧
      (content ≠ [] →
        (r = true ↔ content.length + 5 ≤ s.stktop_idx - s.free_idx + record_size line recs)) ∧
      (content = [] → r = true) := by
  obtain ⟨r, s1, h1, _, _, h4, h5, _⟩ := store_line_spec fuel s line content recs hwf hord hline
    hc hlen hf
  have hsz := prog_size_remove line recs hwf.2.1
  have hr : prog_size recs - prog_size (lines_remove line recs) = record_size line recs := by
    omega
  rw [hr] at h5
  refine ⟨r, s1, h1, fun hne => ?_, fun he => h5.2 (Or.inl he)⟩
  rw [h5]
  constructor
  · rintro (h | h)
    · exact absurd h hne
    · exact h
  · exact Or.inr

/-- Witness of C28: in the 11-byte arena that holds `10 STOP` and has 2 bytes
free, line 10 is replaced by a body of 2 bytes, which needs 7 bytes. -/
theorem C28_store_line_room_witness :
    (ProgWF no_var_arena [(10, [0x8f])] ∧ ArenaOrdered no_var_arena ∧
      no_var_arena.stktop_idx - no_var_arena.free_idx = 2 ∧
      record_size 10 [(10, [0x8f])] = 6) ∧
    ∃ r s1, prog_storage_store_line 12 no_var_arena 10 [65, 66] = some (r, s1) ∧
      (([65, 66] : List Nat) ≠ [] →
        (r = true ↔ ([65, 66] : List Nat).length + 5 ≤
          no_var_arena.stktop_idx - no_var_arena.free_idx + record_size 10 [(10, [0x8f])])) ∧
      (([65, 66] : List Nat) = [] → r = true) :=
  ⟨⟨by decide, by decide, by decide, by decide⟩,
    C28_store_line_room 12 no_var_arena 10 [65, 66] [(10, [0x8f])] (by decide) (by decide)
      (by decide) (by decide) (by decide) (by decide)⟩

/-- The loop of `prog_storage_list` over a chain of records prints its lines. -/
theorem list_loop_spec {m : Mem} : ∀ (recs : List (Nat × List Nat)) (a fuel : Nat),
    RecsAt true m a recs → m (a + prog_size recs) = 0 → m (a + prog_size recs + 1) = 0 →
    prog_size recs < fuel → prog_storage_list_loop fuel m a = some (list_text recs)
  | _, _, 0, _, _, _, hf => by omega
  | [], a, fuel + 1, _, h0, h1, _ => by
    simp only [prog_size, Nat.add_zero] at h0 h1
    simp [prog_storage_list_loop, h0, h1, le16, list_text]
  | (ln, body) :: rest, a, fuel + 1, h, h0, h1, hf => by
    simp only [RecsAt, if_true] at h
    obtain ⟨⟨n1, n2, n3⟩, l1, l2, l3, hb, hrest⟩ := h
    simp only [prog_size] at h0 h1 hf
    have hnxt : le16 (m a) (m (a + 1)) = a + 5 + body.length := by
      simp only [le16, n1, n2]; omega
    have hln : le16 (m (a + 2)) (m (a + 3)) = ln := by
      simp only [le16, l1, l2]; omega
    have ih := list_loop_spec rest (a + 5 + body.length) fuel hrest
      (by rw [← h0]; congr 1; omega) (by rw [← h1]; congr 1; omega) (by omega)
    have hp : print_tokenized_line fuel m (a + 4) = some (detokenize body ++ [10]) := by
      simp only [print_tokenized_line, print_tokenized_body_spec fuel body (a + 4) hb (by omega)]
    simp only [prog_storage_list_loop, hnxt, hln, hp, ih, list_text]
    rw [if_pos (by omega)]

/-- C29: on a well-formed program `prog_storage_find_line(n)` returns; the
program splits into the lines numbered below `n` and the lines numbered `n` or
more, `idx` is the offset just past the records of the first part, where the
first record numbered `n` or more stands, or else the two zero bytes that end
the program; `found` is true if and only if the program has a line `n`; and
`prog_storage_list` from `n` prints the lines of the second part, which are in
ascending order. -/
theorem C29_find_line_list (fuel : Nat) (s : BASIC_MEM_MGR) (n : Nat)
    (recs : List (Nat × List Nat)) (hwf : ProgWF s recs) (hf : s.vars_idx ≤ fuel) :
    ∃ pre post r, recs = pre ++ post ∧ (∀ x ∈ pre, x.1 < n) ∧ (∀ x ∈ post, n ≤ x.1) ∧
      LinesSorted post ∧
      prog_storage_find_line fuel s n = some r ∧ r.idx = 1 + prog_size pre ∧
      (r.found = true ↔ ∃ b, (n, b) ∈ recs) ∧
      RecsAt true s.base r.idx post ∧
      (post = [] → s.base r.idx = 0 ∧ s.base (r.idx + 1) = 0) ∧
      prog_storage_list fuel s n = some (list_text post) := by
  obtain ⟨r, hfind, hfound⟩ := find_line_found fuel s n recs hwf hf
  obtain ⟨hrecs, hsorted, hz0, hz1, hvars⟩ := hwf
  have hfl := find_line_loop_spec (m := s.base) n recs 1 fuel hrecs hz0 hz1
    (by have := lines_length_le_size recs; omega)
  have hr : r = ⟨1 + prog_size (recs.takeWhile (fun r => decide (r.1 < n))),
        match recs.dropWhile (fun r => decide (r.1 < n)) with
        | [] => false
        | r :: _ => decide (r.1 = n)⟩ := by
    have := hfind.symm.trans hfl
    exact Option.some.inj this
  have hidx : r.idx = 1 + prog_size (recs.takeWhile (fun r => decide (r.1 < n))) := by
    rw [hr]
  obtain ⟨pre, post, htw, hpre, hpost, hcase⟩ := lines_split n recs hsorted
  rw [htw] at hidx
  have key : ∀ post1, recs = pre ++ post1 → (∀ x ∈ post1, n ≤ x.1) →
      ∃ pre post r, recs = pre ++ post ∧ (∀ x ∈ pre, x.1 < n) ∧ (∀ x ∈ post, n ≤ x.1) ∧
      LinesSorted post ∧
      prog_storage_find_line fuel s n = some r ∧ r.idx = 1 + prog_size pre ∧
      (r.found = true ↔ ∃ b, (n, b) ∈ recs) ∧
      RecsAt true s.base r.idx post ∧
      (post = [] → s.base r.idx = 0 ∧ s.base (r.idx + 1) = 0) ∧
      prog_storage_list fuel s n = some (list_text post) := by
    intro post1 he hge
    have hsz : prog_size recs = prog_size pre + prog_size post1 := by
      rw [he, prog_size_append]
    have hra : RecsAt true s.base (1 + prog_size pre) post1 := by
      have := (RecsAt_append (m := s.base) true pre post1 1).1 (by rw [← he]; exact hrecs)
      exact this.2
    have e0 : s.base (1 + prog_size pre + prog_size post1) = 0 := by
      rw [← hz0]; congr 1; omega
    have e1 : s.base (1 + prog_size pre + prog_size post1 + 1) = 0 := by
      rw [← hz1]; congr 1; omega
    refine ⟨pre, post1, r, he, hpre, hge, ?_, hfind, hidx, hfound, by rw [hidx]; exact hra,
      fun hnil => ?_, ?_⟩
    · have : LinesSorted (pre ++ post1) := by rw [← he]; exact hsorted
      exact (List.pairwise_append.1 this).2.1
    · subst hnil
      simp only [prog_size, Nat.add_zero] at e0 e1
      rw [hidx]
      exact ⟨e0, e1⟩
    · simp only [prog_storage_list, hfind, hidx]
      exact list_loop_spec post1 (1 + prog_size pre) fuel hra e0 e1 (by omega)
  rcases hcase with ⟨e, _⟩ | ⟨b, e, _⟩
  · exact key post e (fun x hx => Nat.le_of_lt (hpost x hx))
  · refine key ((n, b) :: post) e (fun x hx => ?_)
    rcases List.mem_cons.1 hx with rfl | hx
    · exact Nat.le_refl _
    · exact Nat.le_of_lt (hpost x hx)

/-- Witness of C29: the program `10 STOP` listed from line 5. -/
theorem C29_find_line_list_witness :
    ProgWF no_var_arena [(10, [0x8f])] ∧
    ∃ pre post r, [(10, [0x8f])] = pre ++ post ∧ (∀ x ∈ pre, x.1 < 5) ∧
      (∀ x ∈ post, 5 ≤ x.1) ∧ LinesSorted post ∧
      prog_storage_find_line 9 no_var_arena 5 = some r ∧ r.idx = 1 + prog_size pre ∧
      (r.found = true ↔ ∃ b, (5, b) ∈ [(10, [0x8f])]) ∧
      RecsAt true no_var_arena.base r.idx post ∧
      (post = [] → no_var_arena.base r.idx = 0 ∧ no_var_arena.base (r.idx + 1) = 0) ∧
      prog_storage_list 9 no_var_arena 5 = some (list_text post) :=
  ⟨by decide, C29_find_line_list 9 no_var_arena 5 [(10, [0x8f])] (by decide) (by decide)⟩

/-! ## DIM of a bare name -/

theorem skipws_nonblank {m : Mem} : ∀ (fuel p q : Nat),
    basic_parsing_skipws m fuel p = some q → m q ≠ 32
  | 0, _, _, h => by simp [basic_parsing_skipws] at h
  | fuel + 1, p, q, h => by
    by_cases hc : m p = 32
    · simp only [basic_parsing_skipws, hc, if_true] at h
      exact skipws_nonblank fuel (p + 1) q h
    · simp only [basic_parsing_skipws, hc, if_false, Option.some.injEq] at h
      rw [← h]; exact hc

theorem varname_nonblank {m : Mem} {fuel p out p1 vn : Nat}
    (h : basic_parsing_varname fuel m p out = some (.OK, p1, vn)) : m p1 ≠ 32 := by
  unfold basic_parsing_varname at h
  by_cases hc : IS_ALPHA (m p) = false
  · simp [hc] at h
  · rw [if_neg hc] at h
    cases h1 : basic_parsing_skipws m fuel (p + 1) with
    | none => simp [h1] at h
    | some q1 =>
      simp only [h1] at h
      by_cases hd : IS_DIGIT (m q1) = true
      · rw [if_pos hd] at h
        cases h2 : basic_parsing_skipws m fuel (q1 + 1) with
        | none => simp [h2] at h
        | some q2 =>
          simp only [h2, Option.some.injEq, Prod.mk.injEq, true_and] at h
          rw [← h.1]; exact skipws_nonblank _ _ _ h2
      · rw [if_neg hd] at h
        simp only [Option.some.injEq, Prod.mk.injEq, true_and] at h
        rw [← h.1]; exact skipws_nonblank _ _ _ h1

/-- C24 as stated fails: with an empty program, no variable and the text `A`,
`DIM A` returns OK and moves `array_idx` and `free_idx` from 3 to 9. -/
theorem C24_counterexample :
    (dim_demo.prog.vars_idx, dim_demo.prog.array_idx, dim_demo.prog.free_idx) = (3, 3, 3) ∧
    (match handler_dim nat_fpu 5 dim_demo with
      | .ret (r, bs1) => some (r, bs1.prog.vars_idx, bs1.prog.array_idx, bs1.prog.free_idx)
      | _ => none) = some (.OK, 3, 9, 9) := by
  decide

/-- C24 (amended): `DIM` of a bare name (a name followed by neither `(` nor
`,`) does what a first reference to the scalar does: when the scalar exists it
returns OK and changes only the parse pointer; when it does not and at least 6
bytes are free it returns OK and creates the scalar (`array_idx` and `free_idx`
grow by 6, `vars_idx` stays); when fewer than 6 bytes are free it returns
OUT_OF_MEMORY and changes nothing.  Arrays of that name play no part. -/
theorem C24_dim_bare_name (P : FPU) (fuel : Nat) (bs : BASIC_MAIN_STATE) (p1 vn : Nat)
    (ho : ArenaOrdered bs.prog) (h6 : (bs.prog.array_idx - bs.prog.vars_idx) % 6 = 0)
    (hvn : basic_parsing_varname fuel bs.prog.base bs.parse_ptr 0 = some (.OK, p1, vn))
    (hnp : bs.prog.base p1 ≠ 40) (hnc : bs.prog.base p1 ≠ 44)
    (hout : p1 < bs.prog.array_idx ∨ bs.prog.free_idx + 6 ≤ p1) (hf : 1 ≤ fuel) :
    (vn ∈ scalar_region bs.prog →
      handler_dim P (fuel + 1) bs = .ret (.OK, { bs with parse_ptr := p1 })) ∧
    (vn ∉ scalar_region bs.prog → 6 ≤ bs.prog.stktop_idx - bs.prog.free_idx →
      ∃ prog1, handler_dim P (fuel + 1) bs = .ret (.OK, { bs with parse_ptr := p1, prog := prog1 }) ∧
        prog1.vars_idx = bs.prog.vars_idx ∧ prog1.array_idx = bs.prog.array_idx + 6 ∧
        prog1.free_idx = bs.prog.free_idx + 6 ∧ prog1.stktop_idx = bs.prog.stktop_idx ∧
        prog1 = (variable_storage_create_var bs.prog vn).2) ∧
    (vn ∉ scalar_region bs.prog → bs.prog.stktop_idx - bs.prog.free_idx < 6 →
      handler_dim P (fuel + 1) bs = .ret (.OUT_OF_MEMORY, bs)) := by
  have hb := varname_nonblank hvn
  have hl := lookup_var_spec bs.prog vn ho.1 h6
  refine ⟨fun hm => ?_, fun hn hg => ?_, fun hn hg => ?_⟩
  · rw [if_pos hm] at hl
    have hsk : basic_parsing_skipws bs.prog.base fuel p1 = some p1 :=
      skipws_stop fuel hb (by omega)
    simp only [handler_dim, handler_dim_loop, basic_parsing_variable_dim, get_variable, hvn,
      variable_storage_create_var, hl, hsk]
    simp [hnp, hnc]
  · have hc := create_var_absent bs.prog vn ho h6 hn
    rw [if_neg (by omega)] at hc
    obtain ⟨o1, o2, o3, o4, o5⟩ := ho
    have hsame : (variable_storage_create_var bs.prog vn).2.base p1 = bs.prog.base p1 := by
      rw [hc]
      simp only [memset0]
      rw [if_neg (by omega), mem_write16_other _ _ _ _ (by omega)]
      by_cases he : bs.prog.array_idx ≠ bs.prog.free_idx
      · rw [if_pos he, memmove_other _ _ _ _ _ (by
          rw [usub_eq (by omega) o2]; omega)]
      · rw [if_neg he]
    have hsk : basic_parsing_skipws (variable_storage_create_var bs.prog vn).2.base fuel p1 =
        some p1 := skipws_stop fuel (by rw [hsame]; exact hb) (by omega)
    have h1 : (variable_storage_create_var bs.prog vn).1 = some (bs.prog.array_idx + 2) := by
      rw [hc]
    refine ⟨(variable_storage_create_var bs.prog vn).2, ?_, by rw [hc], by rw [hc], by rw [hc],
      by rw [hc], rfl⟩
    have hcv : variable_storage_create_var bs.prog vn =
        (some (bs.prog.array_idx + 2), (variable_storage_create_var bs.prog vn).2) := by
      rw [← h1]
    simp only [handler_dim, handler_dim_loop, basic_parsing_variable_dim, get_variable, hvn]
    rw [hcv]
    simp only [hsk]
    simp [hnp, hnc, hsame]
  · have hc := create_var_absent bs.prog vn ho h6 hn
    rw [if_pos hg] at hc
    simp only [handler_dim, handler_dim_loop, basic_parsing_variable_dim, get_variable, hvn, hc]
    simp [hnp]

/-- Witness of C24 (amended): `DIM A` with no variable `A` and 61 free bytes. -/
theorem C24_dim_bare_name_witness :
    (ArenaOrdered dim_demo.prog ∧ 65 ∉ scalar_region dim_demo.prog ∧
      6 ≤ dim_demo.prog.stktop_idx - dim_demo.prog.free_idx) ∧
    ∃ prog1, handler_dim nat_fpu (4 + 1) dim_demo =
        .ret (.OK, { dim_demo with parse_ptr := 101, prog := prog1 }) ∧
      prog1.vars_idx = dim_demo.prog.vars_idx ∧ prog1.array_idx = dim_demo.prog.array_idx + 6 ∧
      prog1.free_idx = dim_demo.prog.free_idx + 6 ∧
      prog1.stktop_idx = dim_demo.prog.stktop_idx ∧
      prog1 = (variable_storage_create_var dim_demo.prog 65).2 :=
  ⟨⟨by decide, by decide, by decide⟩,
    (C24_dim_bare_name nat_fpu 4 dim_demo 101 65 (by decide) (by decide) (by decide)
      (by decide) (by decide) (by decide) (by decide)).2.1 (by decide) (by decide)⟩

/-! ## The range of subscripts -/

/-- C27, the failing run: after the session `stale_data_line_session` the DATA
pointer is at offset 8, inside the record of line 10 (after its first item),
but `data_line` is 20, left there by the READ that failed at its target `5`.
With `A=0`, `READ W` then evaluates the item `1/A` of line 10, which divides by
zero; `error_in_data` is set and the message names line 20. -/
theorem C27_stale_data_line :
    (process_lines nat_fpu 200 main_demo_100 stale_data_line_session).map
      (fun bs => (bs.output, bs.data_ptr, bs.data_line,
        le16 (bs.prog.base 1) (bs.prog.base 2), le16 (bs.prog.base 3) (bs.prog.base 4))) =
      some (c_string "Syntax error" ++ [10], 8, 20, 13, 10) ∧
    (process_lines nat_fpu 200 main_demo_100
        (stale_data_line_session ++ [c_string "A=0", c_string "READ W"])).map
      (fun bs => (bs.output, bs.data_ptr, bs.data_line, bs.error_in_data)) =
      some (c_string "Syntax error" ++ [10] ++ c_string "Division by 0 error in line 20" ++ [10],
        8, 20, true) := by
  decide!

/-! ## The expression evaluator returns -/

theorem var_name_add_char_lt (n c : Nat) : var_name_add_char n c < 65536 :=
  Nat.mod_lt _ (by decide)

theorem varname_vn_lt {fuel : Nat} {m : Mem} {p p1 vn : Nat} {r : BASIC_ERROR_ID}
    (h : basic_parsing_varname fuel m p 0 = some (r, p1, vn)) : vn < 65536 := by
  unfold basic_parsing_varname at h
  split at h
  · cases h; decide
  · split at h
    · cases h
    · split at h
      · split at h
        · cases h
        · cases h; exact var_name_add_char_lt _ _
      · cases h; exact var_name_add_char_lt _ _

theorem Ret.mono_names {Q R : Nat → Prop} (hqr : ∀ n, Q n → R n) : ∀ {b : Bool} {K : List Nat}
    {w : Nat}, Ret Q b K w → Ret R b K w := by
  intro b K w h
  induction h with
  | exiting => exact .exiting
  | down lhs op mp _ ih => exact .down lhs op mp ih
  | sub lhs op mp nb _ ih => exact .sub lhs op mp nb ih
  | fn lhs op mp nb f _ ih => exact .fn lhs op mp nb f ih
  | arr lhs op mp nb v0 v1 hq hv _ ih => exact .arr lhs op mp nb v0 v1 (hqr _ hq) hv ih
  | first _ ih => exact .first ih
  | second _ ih => exact .second ih

theorem EngInv.weaken_names {Q R : Nat → Prop} (hqr : ∀ n, Q n → R n) {st : Nat} {K : List Nat}
    {w : Nat} (h : EngInv Q st K w) : EngInv R st K w := by
  cases h with
  | expression h => exact .expression (h.mono_names hqr)
  | term h => exact .term (h.mono_names hqr)
  | subexpr_ret lhs op mp nb h => exact .subexpr_ret lhs op mp nb (h.mono_names hqr)
  | functionarg_ret lhs op mp nb f h => exact .functionarg_ret lhs op mp nb f (h.mono_names hqr)
  | subscript_ret lhs op mp nb v0 v1 hq hv h =>
    exact .subscript_ret lhs op mp nb v0 v1 (hqr _ hq) hv (h.mono_names hqr)
  | first_operator h => exact .first_operator (h.mono_names hqr)
  | expr_1 h => exact .expr_1 (h.mono_names hqr)
  | second_operator h => exact .second_operator (h.mono_names hqr)
  | precedence_down lhs op mp h => exact .precedence_down lhs op mp (h.mono_names hqr)
  | apply_operator h => exact .apply_operator (h.mono_names hqr)
  | exiting => exact .exiting

theorem Ret.pop_true {Q : Nat → Prop} {K : List Nat} {w : Nat} (h : Ret Q true K w) :
    ∃ s rest w1, K = s :: rest ∧ EngInv Q s rest w1 ∧ w1 < w := by
  cases h with
  | exiting => exact ⟨_, _, 0, rfl, .exiting, by omega⟩
  | down lhs op mp h1 => exact ⟨_, _, _, rfl, .precedence_down lhs op mp h1, by omega⟩
  | sub lhs op mp nb h1 => exact ⟨_, _, _, rfl, .subexpr_ret lhs op mp nb h1, by omega⟩
  | fn lhs op mp nb f h1 => exact ⟨_, _, _, rfl, .functionarg_ret lhs op mp nb f h1, by omega⟩
  | arr lhs op mp nb v0 v1 hq hv h1 =>
    exact ⟨_, _, _, rfl, .subscript_ret lhs op mp nb v0 v1 hq hv h1, by omega⟩

theorem Ret.pop_false {Q : Nat → Prop} {K : List Nat} {w : Nat} (h : Ret Q false K w) :
    ∃ s rest w1, K = s :: rest ∧ EngInv Q s rest w1 ∧ w1 ≤ w + 4 := by
  cases h with
  | first h1 => exact ⟨_, _, _, rfl, .first_operator h1, by omega⟩
  | second h1 => exact ⟨_, _, _, rfl, .second_operator h1, by omega⟩

theorem FreeStep.after_pop {Q : Nat → Prop} {mem mem0 m1 : BASIC_MEM_MGR}
    (h : FreeStep Q mem mem0) (hf : m1.free_idx = mem0.free_idx) (hb : m1.base = mem0.base) :
    FreeStep Q mem m1 := by
  unfold FreeStep at *
  rw [hf, hb]
  exact h

/-- The end of a case that returns to the state on top of the stack, when the
parse pointer has moved or the stack ends a call of `parse_expression`. -/
theorem progress_pop {Q : Nat → Prop} (P : FPU) (fuel : Nat) {M0 : BASIC_MEM_MGR} {e : Nat}
    {σ σ0 : EngState} {K : List Nat} {w φ : Nat} {b : Bool}
    (hstep : engine_step P fuel σ = eng_pop_state σ0)
    (hk : ExprStack M0 σ0.mem K) (hr : Ret Q b K w) (hp : σ.p ≤ σ0.p) (hpe : σ0.p ≤ e)
    (hφ : 5 * (e - σ0.p) + w + (if b then 0 else 5) ≤ φ) (hfs : FreeStep Q σ.mem σ0.mem) :
    Progress Q P fuel M0 e σ φ := by
  left
  cases b with
  | true =>
    obtain ⟨s, rest, w1, rfl, hi, hw⟩ := hr.pop_true
    obtain ⟨m1, e1, k1, f1, b1⟩ := eng_pop_state_spec hk
    exact ⟨_, rest, w1, hstep.trans e1, k1, hi, hp, hpe, by
      simp only [if_true] at hφ
      show 5 * (e - σ0.p) + w1 < φ
      omega, hfs.after_pop f1 b1⟩
  | false =>
    obtain ⟨s, rest, w1, rfl, hi, hw⟩ := hr.pop_false
    obtain ⟨m1, e1, k1, f1, b1⟩ := eng_pop_state_spec hk
    exact ⟨_, rest, w1, hstep.trans e1, k1, hi, hp, hpe, by
      simp only [Bool.false_eq_true, if_false] at hφ
      show 5 * (e - σ0.p) + w1 < φ
      omega, hfs.after_pop f1 b1⟩

theorem progress_expression {Q : Nat → Prop} (P : FPU) (fuel : Nat) {M0 : BASIC_MEM_MGR}
    {e : Nat}
    {σ : EngState} {K : List Nat} {w : Nat} (hs : σ.state = PARSE_EXPR_STATE_EXPRESSION)
    (hk : ExprStack M0 σ.mem K) (hr : Ret Q true K w) (hpe : σ.p ≤ e) :
    Progress Q P fuel M0 e σ (5 * (e - σ.p) + (w + 1)) := by
  obtain ⟨h1, h2⟩ := step_expression P fuel hs hk
  by_cases hg : 1 ≤ σ.mem.stktop_idx - σ.mem.free_idx
  · obtain ⟨m1, e1, k1, f1⟩ := h1 hg
    exact Or.inl ⟨_, _, w, e1, k1, .term (.first hr), Nat.le_refl _, hpe, by
      show 5 * (e - σ.p) + w < _
      omega, Or.inl f1⟩
  · exact Or.inr ⟨_, σ, K, h2 (by omega), hk, Or.inl rfl⟩

theorem progress_first_operator {Q : Nat → Prop} (P : FPU) (fuel : Nat) {M0 : BASIC_MEM_MGR}
    {e : Nat}
    {σ : EngState} {K : List Nat} {w : Nat} (hs : σ.state = PARSE_EXPR_STATE_FIRST_OPERATOR)
    (hk : ExprStack M0 σ.mem K) (hr : Ret Q true K w) (hpe : σ.p ≤ e) :
    Progress Q P fuel M0 e σ (5 * (e - σ.p) + (w + 1)) :=
  Or.inl ⟨_, K, w, engine_step_first_operator P fuel hs, hk, .expr_1 hr, Nat.le_refl _, hpe, by
    show 5 * (e - σ.p) + w < _
    omega, Or.inl rfl⟩

theorem progress_apply_operator {Q : Nat → Prop} (P : FPU) (fuel : Nat) {M0 : BASIC_MEM_MGR}
    {e : Nat}
    {σ : EngState} {K : List Nat} {w : Nat} (hs : σ.state = PARSE_EXPR_STATE_APPLY_OPERATOR)
    (hk : ExprStack M0 σ.mem K) (hr : Ret Q true K w) (hpe : σ.p ≤ e) :
    Progress Q P fuel M0 e σ (5 * (e - σ.p) + (w + 1)) := by
  obtain ⟨h1, h2⟩ := step_apply_operator P fuel hs
  by_cases hc : except_to_basic_error (apply_operator P σ.lhs σ.rhs σ.op).2 = .OK
  · exact Or.inl ⟨_, K, w, h2 hc, hk, .expr_1 hr, Nat.le_refl _, hpe, by
      show 5 * (e - σ.p) + w < _
      omega, Or.inl rfl⟩
  · exact Or.inr ⟨_, σ, K, h1 hc, hk, Or.inl rfl⟩

theorem progress_second_operator {Q : Nat → Prop} (P : FPU) (fuel : Nat) {M0 : BASIC_MEM_MGR}
    {e : Nat}
    {σ : EngState} {K : List Nat} {w : Nat} (hs : σ.state = PARSE_EXPR_STATE_SECOND_OPERATOR)
    (hk : ExprStack M0 σ.mem K) (hr : Ret Q true K w) (hpe : σ.p ≤ e)
    (ht : SameText M0.base σ.mem.base σ.p e) :
    Progress Q P fuel M0 e σ (5 * (e - σ.p) + (w + 4)) := by
  obtain ⟨h1, h2⟩ := step_second_operator P fuel hs hk ht
  by_cases hc : is_operator (M0.base σ.p) = true ∧
      operator_precedence (M0.base σ.p) > operator_precedence σ.op
  · by_cases hg : 7 ≤ σ.mem.stktop_idx - σ.mem.free_idx
    · obtain ⟨m1, e1, k1, f1⟩ := (h1 hc).1 hg
      exact Or.inl ⟨_, _, _, e1, k1, .expr_1 (.down σ.lhs _ _ hr), Nat.le_refl _, hpe, by
        show 5 * (e - σ.p) + (w + 3) < _
        omega, Or.inl f1⟩
    · exact Or.inr ⟨_, σ, K, (h1 hc).2 (by omega), hk, Or.inl rfl⟩
  · exact Or.inl ⟨_, K, w + 1, h2 hc, hk, .apply_operator hr, Nat.le_refl _, hpe, by
      show 5 * (e - σ.p) + (w + 1) < _
      omega, Or.inl rfl⟩

theorem progress_precedence_down {Q : Nat → Prop} (P : FPU) (fuel : Nat) {M0 : BASIC_MEM_MGR}
    {e : Nat}
    {σ : EngState} {K : List Nat} {w op mp : Nat} {lhs : F32}
    (hs : σ.state = PARSE_EXPR_STATE_PRECEDENCE_DOWN)
    (hk : ExprStack M0 σ.mem (f32_bytes lhs ++ [op, mp] ++ K)) (hr : Ret Q true K w)
    (hpe : σ.p ≤ e) : Progress Q P fuel M0 e σ (5 * (e - σ.p) + (w + 2)) := by
  obtain ⟨m1, e1, k1, f1, _⟩ := step_precedence_down P fuel hs hk
  exact Or.inl ⟨_, K, w + 1, e1, k1, .apply_operator hr, Nat.le_refl _, hpe, by
    show 5 * (e - σ.p) + (w + 1) < _
    omega, Or.inl f1⟩

theorem operator_ne_zero {c : Nat} (h : is_operator c = true) : c ≠ 0 := by
  simp only [is_operator, decide_eq_true_eq, BASIC_KEYWORD_RANGE_BEGIN_OPERATORS] at h
  omega

theorem progress_expr_1 {Q : Nat → Prop} (P : FPU) (fuel : Nat) {M0 : BASIC_MEM_MGR}
    {e : Nat}
    {σ : EngState} {K : List Nat} {w : Nat} (hs : σ.state = PARSE_EXPR_STATE_EXPR_1)
    (hk : ExprStack M0 σ.mem K) (hr : Ret Q true K w) (hpe : σ.p ≤ e)
    (ht : SameText M0.base σ.mem.base σ.p e) (hf : e - σ.p + 1 < fuel) :
    Progress Q P fuel M0 e σ (5 * (e - σ.p) + w) := by
  obtain ⟨h1, h2⟩ := step_expr_1 P fuel hs hk ht hf
  by_cases hc : is_operator (M0.base σ.p) = true ∧
      operator_precedence (M0.base σ.p) ≥ σ.min_precedence
  · have hlt : σ.p < e := ht.lt (operator_ne_zero hc.1)
    obtain ⟨q, q1, _, q3, q4, _⟩ := skipws_text fuel (σ.p + 1) (ht.mono _ (by omega) hlt)
      (by omega)
    by_cases hg : 1 ≤ σ.mem.stktop_idx - σ.mem.free_idx
    · obtain ⟨m1, e1, k1, f1⟩ := (h1 hc q q1).1 hg
      exact Or.inl ⟨_, _, w, e1, k1, .term (.second hr), by show σ.p ≤ q; omega, q4, by
        show 5 * (e - q) + w < _
        omega, Or.inl f1⟩
    · exact Or.inr ⟨_, σ, K, (h1 hc q q1).2 (by omega), hk, Or.inl rfl⟩
  · obtain ⟨s, rest, w1, rfl, hi, hw⟩ := hr.pop_true
    obtain ⟨m1, e1, k1, f1, _⟩ := h2 hc s rest rfl
    exact Or.inl ⟨_, rest, w1, e1, k1, hi, Nat.le_refl _, hpe, by
      show 5 * (e - σ.p) + w1 < _
      omega, Or.inl f1⟩

theorem FreeStep.of_free {Q : Nat → Prop} {mem m2 m3 : BASIC_MEM_MGR} (h : FreeStep Q m2 m3)
    (hf : m2.free_idx = mem.free_idx) (hb : m2.base = mem.base)
    (ha : m2.array_idx = mem.array_idx) : FreeStep Q mem m3 := by
  rcases h with h | ⟨h1, h2, h3, h4, h5⟩
  · exact Or.inl (by rw [← hf]; exact h)
  · refine Or.inr ⟨by rw [← hf]; exact h1, by rw [← hf]; exact h2, by rw [← hf]; exact h3,
      by rw [← hf]; exact h4, fun arrs hw x hx => ?_⟩
    rw [← hf]
    exact h5 arrs ⟨by rw [hb, ha]; exact hw.1, by rw [ha, hf]; exact hw.2⟩ x hx

/-- The name in the header of a new array record. -/
theorem new_header_name (b : Mem) (f var : Nat) (hv : var < 65536) :
    le16
      (memset0 (mem_write16 (mem_write16 b f var) (f + 2) (44 % 65536))
        (f + sizeof_ARRAY_VARIABLE_HEADER) 44 f)
      (memset0 (mem_write16 (mem_write16 b f var) (f + 2) (44 % 65536))
        (f + sizeof_ARRAY_VARIABLE_HEADER) 44 (f + 1)) = var := by
  have e1 : memset0 (mem_write16 (mem_write16 b f var) (f + 2) (44 % 65536))
      (f + sizeof_ARRAY_VARIABLE_HEADER) 44 f = var % 256 := by
    simp only [memset0, sizeof_ARRAY_VARIABLE_HEADER]
    rw [if_neg (by omega), mem_write16_other _ _ _ f (Or.inl (by omega))]
    simp only [mem_write16, mem_write]
    rw [if_neg (by omega), if_pos trivial]
    omega
  have e2 : memset0 (mem_write16 (mem_write16 b f var) (f + 2) (44 % 65536))
      (f + sizeof_ARRAY_VARIABLE_HEADER) 44 (f + 1) = var / 256 % 256 := by
    simp only [memset0, sizeof_ARRAY_VARIABLE_HEADER]
    rw [if_neg (by omega), mem_write16_other _ _ _ (f + 1) (Or.inl (by omega))]
    simp only [mem_write16, mem_write]
    rw [if_pos trivial]
    omega
  rw [e1, e2]
  exact le16_u16 var hv

/-- A first reference to an array element during a call of the evaluator
leaves the expression stack as it is. -/
theorem create_array_ExprStack {Q : Nat → Prop} {M0 mem : BASIC_MEM_MGR} {K : List Nat}
    (hk : ExprStack M0 mem K) (var sub : Nat) (hq : Q var) (hv : var < 65536) :
    ExprStack M0 (variable_storage_create_array_var mem var sub false).2.2 K ∧
      FreeStep Q mem (variable_storage_create_array_var mem var sub false).2.2 := by
  unfold variable_storage_create_array_var
  cases hlk : lookup_array_loop mem.base mem.free_idx var (mem.free_idx - mem.array_idx + 1)
      mem.array_idx with
  | some idx =>
    simp only [Bool.false_eq_true, if_false]
    split <;> exact ⟨hk, Or.inl rfl⟩
  | none =>
    simp only [Bool.false_eq_true, if_false, true_and]
    by_cases h10 : sub > 10
    · rw [if_pos h10]; exact ⟨hk, Or.inl rfl⟩
    · rw [if_neg h10]
      obtain ⟨h1, h2, h3, h4, h5, h6, h7, h8, h9, h10'⟩ := hk
      have hmax : M0.max_idx < 4294967296 := h10'
      have hu : usub mem.stktop_idx mem.free_idx = mem.stktop_idx - mem.free_idx :=
        usub_eq (by simp only [UINT]; omega) h5
      have hnb : u32 ((10 + 1) * sizeof_VARIABLE_VALUE) = 44 := by decide
      have hsz : u32 (44 + sizeof_ARRAY_VARIABLE_HEADER) = 48 := by decide
      simp only [hnb, hsz, basic_mem_check_space, hu, decide_eq_false_iff_not, Nat.not_le]
      by_cases hg : mem.stktop_idx - mem.free_idx < 48
      · rw [if_pos hg]
        exact ⟨⟨h1, h2, h3, h4, h5, h6, h7, h8, h9, h10'⟩, Or.inl rfl⟩
      · rw [if_neg hg]
        have hfree : u32 (mem.free_idx + (44 + sizeof_ARRAY_VARIABLE_HEADER)) =
            mem.free_idx + 48 := u32_eq (by simp only [UINT, sizeof_ARRAY_VARIABLE_HEADER]; omega)
        have hsame : ∀ x, x < mem.free_idx ∨ mem.free_idx + 48 ≤ x →
            memset0 (mem_write16 (mem_write16 mem.base mem.free_idx var) (mem.free_idx + 2)
              (44 % 65536)) (mem.free_idx + sizeof_ARRAY_VARIABLE_HEADER) 44 x = mem.base x := by
          intro x hx
          simp only [memset0, sizeof_ARRAY_VARIABLE_HEADER]
          rw [if_neg (by omega), mem_write16_other _ _ _ _ (by omega),
            mem_write16_other _ _ _ _ (by omega)]
        have hname := new_header_name mem.base mem.free_idx var hv
        refine ⟨⟨h1, h2, h3, ?_, ?_, h6, ?_, ?_, h9, h10'⟩, Or.inr ⟨hfree, ?_, ?_, ?_, ?_⟩⟩
        · show M0.free_idx ≤ u32 _
          rw [hfree]; omega
        · show u32 _ ≤ mem.stktop_idx
          rw [hfree]; omega
        · exact MemIs_congr K mem.stktop_idx (fun a ha1 ha2 => hsame a (Or.inr (by omega))) h7
        · intro x hx
          show memset0 _ _ _ x = _
          rw [hsame x (by omega)]
          exact h8 x hx
        · show le16 (memset0 _ _ _ _) (memset0 _ _ _ _) = 44
          simp only [memset0, sizeof_ARRAY_VARIABLE_HEADER]
          rw [if_neg (by omega), if_neg (by omega)]
          simp [mem_write16, mem_write, le16]
        · intro x hx1 hx2
          show memset0 _ _ _ x = 0
          simp only [memset0, sizeof_ARRAY_VARIABLE_HEADER]
          rw [if_pos ⟨hx1, by omega⟩]
        · show Q (le16 (memset0 _ _ _ _) (memset0 _ _ _ _))
          rw [hname]
          exact hq
        · intro arrs hw x hx hx1
          have hx2 : x.1 = var := hx1.trans hname
          have hmem : (var, x.2) ∈ arrs := by
            rw [← hx2]
            exact hx
          obtain ⟨off, bs, hoff⟩ := array_offset_of_mem arrs mem.array_idx ⟨x.2, hmem⟩
          have hsp := lookup_array_spec mem var arrs hw
          rw [hlk, hoff] at hsp
          cases hsp

/-- The pops of the saved locals, for any bytes on the stack. -/
theorem eng_pop_locals_stack {M0 mem : BASIC_MEM_MGR} {K : List Nat} (lhs : F32)
    (op mp nb : Nat) (hk : ExprStack M0 mem (f32_bytes lhs ++ [op, mp, nb] ++ K)) :
    ∃ m1, eng_pop_locals mem = some (lhs, op, mp, decide (nb ≠ 0), m1) ∧ ExprStack M0 m1 K ∧
      m1.free_idx = mem.free_idx ∧ m1.base = mem.base :=
  eng_pop_locals_spec lhs op mp nb hk

theorem progress_subexpr_ret {Q : Nat → Prop} (P : FPU) (fuel : Nat) {M0 : BASIC_MEM_MGR}
    {e : Nat}
    {σ : EngState} {K : List Nat} {w op mp nb : Nat} {lhs : F32}
    (hs : σ.state = PARSE_EXPR_STATE_SUBEXPR_RET)
    (hk : ExprStack M0 σ.mem (f32_bytes lhs ++ [op, mp, nb] ++ K)) (hr : Ret Q false K w)
    (hpe : σ.p ≤ e) (ht : SameText M0.base σ.mem.base σ.p e) (hf : e - σ.p + 1 < fuel) :
    Progress Q P fuel M0 e σ (5 * (e - σ.p) + w) := by
  obtain ⟨m1, a1, a2, a3, a4⟩ := eng_pop_locals_spec lhs op mp nb hk
  have hstep := engine_step_subexpr_ret P fuel hs
  unfold eng_subexpr_ret at hstep
  simp only [a1, a4, ht.at] at hstep
  by_cases hc : M0.base σ.p = 41
  · have hlt : σ.p < e := ht.lt (by rw [hc]; decide)
    have ht1 := ht.mono (σ.p + 1) (by omega) hlt
    obtain ⟨q, q1, q2, q3, q4, _⟩ := skipws_text fuel (σ.p + 1) ht1 (by omega)
    rw [if_neg (by simpa using hc), q2] at hstep
    exact progress_pop P fuel hstep a2 hr (by show σ.p ≤ q; omega) q4 (by
      show 5 * (e - q) + w + (if false = true then 0 else 5) ≤ _
      simp only [Bool.false_eq_true, if_false]
      omega) (Or.inl a3)
  · rw [if_pos hc] at hstep
    exact Or.inr ⟨_, _, _, hstep, a2, Or.inl a3⟩

theorem progress_functionarg_ret {Q : Nat → Prop} (P : FPU) (fuel : Nat) {M0 : BASIC_MEM_MGR}
    {e : Nat}
    {σ : EngState} {K : List Nat} {w op mp nb f : Nat} {lhs : F32}
    (hs : σ.state = PARSE_EXPR_STATE_FUNCTIONARG_RET)
    (hk : ExprStack M0 σ.mem (f32_bytes lhs ++ [op, mp, nb] ++ ([f] ++ K))) (hr : Ret Q false K w)
    (hpe : σ.p ≤ e) (ht : SameText M0.base σ.mem.base σ.p e) (hf : e - σ.p + 1 < fuel) :
    Progress Q P fuel M0 e σ (5 * (e - σ.p) + w) := by
  obtain ⟨m1, a1, a2, a3, a4⟩ := eng_pop_locals_spec lhs op mp nb hk
  obtain ⟨m2, b1, b2, b3, b4⟩ := ExprStack.pop [f] a2
  have hstep := engine_step_functionarg_ret P fuel hs
  unfold eng_functionarg_ret at hstep
  simp only [a1, show ([f] : List Nat).length = 1 from rfl] at b1 hstep
  simp only [b1, b4, a4, ht.at] at hstep
  by_cases hc : M0.base σ.p = 41
  · have hlt : σ.p < e := ht.lt (by rw [hc]; decide)
    have ht1 := ht.mono (σ.p + 1) (by omega) hlt
    obtain ⟨q, q1, q2, q3, q4, _⟩ := skipws_text fuel (σ.p + 1) ht1 (by omega)
    rw [if_neg (by simpa using hc), q2] at hstep
    dsimp only at hstep
    split at hstep
    · exact Or.inr ⟨_, _, _, hstep, b2, Or.inl (b3.trans a3)⟩
    · exact progress_pop P fuel hstep b2 hr (by show σ.p ≤ q; omega) q4 (by
        show 5 * (e - q) + w + (if false = true then 0 else 5) ≤ _
        simp only [Bool.false_eq_true, if_false]
        omega) (Or.inl (b3.trans a3))
  · rw [if_pos hc] at hstep
    exact Or.inr ⟨_, _, _, hstep, b2, Or.inl (b3.trans a3)⟩

theorem progress_subscript_ret {Q : Nat → Prop} (P : FPU) (fuel : Nat) {M0 : BASIC_MEM_MGR}
    {e : Nat}
    {σ : EngState} {K : List Nat} {w op mp nb v0 v1 : Nat} {lhs : F32}
    (hs : σ.state = PARSE_EXPR_STATE_SUBSCRIPT_RET)
    (hk : ExprStack M0 σ.mem (f32_bytes lhs ++ [op, mp, nb] ++ ([v0, v1] ++ K)))
    (hq : Q (le16 v0 v1)) (hv : le16 v0 v1 < 65536)
    (hr : Ret Q false K w) (hpe : σ.p ≤ e) (ht : SameText M0.base σ.mem.base σ.p e)
    (hf : e - σ.p + 1 < fuel) :
    Progress Q P fuel M0 e σ (5 * (e - σ.p) + w) := by
  obtain ⟨m1, a1, a2, a3, a4⟩ := eng_pop_locals_spec lhs op mp nb hk
  obtain ⟨m2, b1, b2, b3, b4⟩ := ExprStack.pop [v0, v1] a2
  have hstep := engine_step_subscript_ret P fuel hs
  unfold eng_subscript_ret at hstep
  by_cases hrange : (P.lt σ.lhs 0).1 = true ∨ (P.lt f32_32767 σ.lhs).1 = true
  · rw [if_pos hrange] at hstep
    exact Or.inr ⟨_, _, _, hstep, hk, Or.inl rfl⟩
  · rw [if_neg hrange] at hstep
    simp only [a1, show ([v0, v1] : List Nat).length = 2 from rfl] at b1 hstep
    simp only [b1, b4, a4, ht.at] at hstep
    by_cases hc : M0.base σ.p = 41
    · have hlt : σ.p < e := ht.lt (by rw [hc]; decide)
      have ht1 := ht.mono (σ.p + 1) (by omega) hlt
      obtain ⟨q, q1, q2, q3, q4, _⟩ := skipws_text fuel (σ.p + 1) ht1 (by omega)
      rw [if_neg (by simpa using hc), q2] at hstep
      dsimp only at hstep
      obtain ⟨hca, hcf⟩ := create_array_ExprStack (Q := Q) b2
        (le16 ([v0, v1].getD 0 0) ([v0, v1].getD 1 0)) (u32 (P.to_unsigned (P.floorf σ.lhs).1))
        hq hv
      have hcf1 := hcf.of_free (b3.trans a3) (b4.trans a4) (b2.arr.trans hk.arr.symm)
      split at hstep
      · exact Or.inr ⟨_, _, _, hstep, hca, hcf1⟩
      · exact progress_pop P fuel hstep hca hr (by show σ.p ≤ q; omega) q4 (by
          show 5 * (e - q) + w + (if false = true then 0 else 5) ≤ _
          simp only [Bool.false_eq_true, if_false]
          omega) hcf1
    · rw [if_pos hc] at hstep
      exact Or.inr ⟨_, _, _, hstep, b2, Or.inl (b3.trans a3)⟩

theorem float_digits_advance (P : FPU) {m m1 : Mem} {e : Nat} (fuel p : Nat) (val : F32)
    (fl : FEFlags) (n : Nat) (h : SameText m m1 p e) (hf : e - p < fuel)
    (hc : 48 ≤ m p ∧ m p ≤ 57) {res : Nat × F32 × FEFlags × Nat}
    (hq : float_digits P m fuel p val fl n = some res) : p < res.1 := by
  cases fuel with
  | zero => omega
  | succ fuel =>
    have hlt : p < e := h.lt (by omega)
    obtain ⟨q, e1, e2, e3, e4, _⟩ := skipws_text fuel (p + 1) (h.mono _ (by omega) hlt)
      (by omega)
    obtain ⟨res1, r1, r2, r3, r4⟩ := float_digits_text P fuel q
      (P.add (P.mul val f32_ten).1 (P.of_int (m p - 48))).1
      ((fl.or (P.mul val f32_ten).2).or
          (P.add (P.mul val f32_ten).1 (P.of_int (m p - 48))).2) (n + 1)
      (h.mono _ (by omega) e4) (by omega)
    simp only [float_digits, hc, and_self, if_true, e1, r1, Option.some.injEq] at hq
    rw [← hq]
    omega

/-- A number that starts with a digit or a point and is read without error
takes at least one character. -/
theorem float_advance (P : FPU) {m m1 : Mem} {e : Nat} (fuel p : Nat) (out : F32)
    (h : SameText m m1 p e) (hf : e - p < fuel) (hc : IS_DIGIT (m p) = true ∨ m p = 46)
    {p1 : Nat} {v : F32} (hq : basic_parsing_float P fuel m p out = some (.OK, p1, v)) :
    p < p1 := by
  obtain ⟨⟨q1, val1, fl1, n1⟩, a1, a2, a3, a4⟩ := float_digits_text P fuel p 0 FE_NONE 0 h hf
  simp only at a3 a4
  obtain ⟨⟨q2, val2, fl2, nfrac⟩, b1, b2, b3, b4⟩ := float_fraction_text P fuel q1 val1 fl1
    (h.mono q1 a3 a4) (by omega)
  simp only at b3 b4
  obtain ⟨⟨r, q3, ex⟩, c1, c2, c3, c4⟩ := float_exponent_text fuel q2
    (h.mono q2 (by omega) b4) (by omega)
  simp only at c3 c4
  have hadv : p < q2 := by
    by_cases hd : 48 ≤ m p ∧ m p ≤ 57
    · have := float_digits_advance P fuel p 0 FE_NONE 0 h hf hd a1
      simp only at this
      omega
    · have h46 : m p = 46 := by
        rcases hc with hc | hc
        · simp only [IS_DIGIT, decide_eq_true_eq] at hc
          exact absurd hc hd
        · exact hc
      have hq1 : q1 = p := by
        cases fuel with
        | zero => omega
        | succ fuel =>
          simp only [float_digits, hd, if_false, Option.some.injEq, Prod.mk.injEq] at a1
          exact a1.1.symm
      subst hq1
      have hlt : q1 < e := h.lt (by omega)
      obtain ⟨q, e1, e2, e3, e4, _⟩ := skipws_text fuel (q1 + 1) (h.mono _ (by omega) hlt)
        (by omega)
      obtain ⟨res1, r1, r2, r3, r4⟩ := float_digits_text P fuel q val1 fl1 0
        (h.mono _ (by omega) e4) (by omega)
      simp only [float_fraction, h46, if_true, e1, r1, Option.some.injEq] at b1
      have : res1.1 = q2 := by rw [b1]
      omega
  simp only [basic_parsing_float, a1, b1, c1] at hq
  by_cases hr : r ≠ .NOT_FOUND ∧ r ≠ .OK
  · rw [if_pos hr] at hq
    simp only [Option.some.injEq, Prod.mk.injEq] at hq
    exact absurd hq.1 hr.2
  · rw [if_neg hr] at hq
    split at hq
    · simp only [Option.some.injEq, Prod.mk.injEq] at hq
      omega
    · simp only [Option.some.injEq, Prod.mk.injEq] at hq
      omega

theorem u16_bytes_lt (v : Nat) : ∀ c ∈ u16_bytes v, c < 256 := by
  intro c hc
  simp only [u16_bytes, List.mem_cons, List.mem_singleton, List.not_mem_nil, or_false] at hc
  rcases hc with h | h <;> (rw [h]; exact Nat.mod_lt _ (by decide))

theorem progress_term {Q : Nat → Prop} (P : FPU) (fuel : Nat) {M0 : BASIC_MEM_MGR}
    {e : Nat}
    {σ : EngState} {K : List Nat} {w : Nat} (hs : σ.state = PARSE_EXPR_STATE_TERM)
    (hk : ExprStack M0 σ.mem K) (hr : Ret Q false K w) (hpe : σ.p ≤ e)
    (ht : SameText M0.base σ.mem.base σ.p e) (hf : e - σ.p + 1 < fuel)
    (hQ : ∀ a a1 n, σ.p ≤ a → a < e → IS_ALPHA (M0.base a) = true →
      basic_parsing_varname fuel M0.base a 0 = some (.OK, a1, n) → M0.base a1 = 40 → Q n) :
    Progress Q P fuel M0 e σ (5 * (e - σ.p) + w) := by
  have hstep := engine_step_term P fuel hs
  unfold eng_term at hstep
  obtain ⟨⟨p, neg⟩, s1, s2, s3, s4, _⟩ := term_signs_text fuel σ.p false ht hf
  simp only at s3 s4
  have htp := ht.mono p s3 s4
  rw [s2] at hstep
  simp only [htp.at] at hstep
  by_cases ha : IS_ALPHA (M0.base p) = true
  · rw [if_pos ha] at hstep
    obtain ⟨⟨r, p1, vn⟩, v1, v2, v3, v4, v5, v6⟩ := varname_text fuel p 0 htp (by omega)
    simp only at v3 v4 v5 v6
    rw [v2] at hstep
    dsimp only at hstep
    by_cases hro : r = .OK
    · subst hro
      have htp1 := htp.mono p1 v3 v4
      rw [if_neg (by simp), htp1.at] at hstep
      by_cases h40 : M0.base p1 = 40
      · have hlt : p1 < e := htp1.lt (by rw [h40]; decide)
        rw [if_pos h40, hk.check_space 10] at hstep
        by_cases hfit : 10 ≤ σ.mem.stktop_idx - σ.mem.free_idx
        · rw [if_neg (by simpa using hfit)] at hstep
          obtain ⟨a1, a2⟩ := hk.push_eq (u16_bytes vn) (u16_bytes_lt vn)
            (by show 2 ≤ _; omega)
          have g1 := a1.gap
          have g0 := hk.gap
          simp only [List.length_append, show (u16_bytes vn).length = 2 from rfl] at g1
          obtain ⟨b1, b2⟩ := eng_push_locals_spec a1 σ neg PARSE_EXPR_STATE_SUBSCRIPT_RET
            (by omega)
          have hvn : vn < 65536 := varname_vn_lt v1
          exact Or.inl ⟨_, _, w + 1 + 1, hstep, b1,
            .expression (.arr σ.lhs _ _ _ (vn % 256) (vn / 256 % 256)
              (by rw [le16_u16 vn hvn]; exact hQ p p1 vn s3 (by omega) ha v1 h40)
              (by rw [le16_u16 vn hvn]; exact hvn) hr), by show σ.p ≤ p1 + 1; omega,
            by show p1 + 1 ≤ e; omega, by
              show 5 * (e - (p1 + 1)) + (w + 1 + 1) < _
              omega, Or.inl (b2.trans a2)⟩
        · rw [if_pos (by simpa using hfit)] at hstep
          exact Or.inr ⟨_, _, _, hstep, hk, Or.inl rfl⟩
      · rw [if_neg h40] at hstep
        obtain ⟨q, q1, q2, q3, q4, _⟩ := skipws_text fuel p1 htp1 (by omega)
        rw [q2] at hstep
        exact progress_pop P fuel hstep hk hr (by show σ.p ≤ q; omega) q4 (by
          show 5 * (e - q) + w + (if false = true then 0 else 5) ≤ _
          simp only [Bool.false_eq_true, if_false]
          have := (v5 rfl).1
          omega) (Or.inl rfl)
    · rw [if_pos hro] at hstep
      exact Or.inr ⟨_, _, _, hstep, hk, Or.inl rfl⟩
  · rw [if_neg ha] at hstep
    by_cases hd : IS_DIGIT (M0.base p) = true ∨ M0.base p = 46
    · rw [if_pos hd] at hstep
      obtain ⟨⟨r, p1, v⟩, v1, v2, v3, v4⟩ := float_text P fuel p σ.val htp (by omega)
      simp only at v3 v4
      rw [v2] at hstep
      dsimp only at hstep
      by_cases hro : r = .OK
      · subst hro
        rw [if_neg (by simp)] at hstep
        have hadv := float_advance P fuel p σ.val htp (by omega) hd v1
        obtain ⟨q, q1, q2, q3, q4, _⟩ := skipws_text fuel p1 (htp.mono p1 v3 v4) (by omega)
        rw [q2] at hstep
        exact progress_pop P fuel hstep hk hr (by show σ.p ≤ q; omega) q4 (by
          show 5 * (e - q) + w + (if false = true then 0 else 5) ≤ _
          simp only [Bool.false_eq_true, if_false]
          omega) (Or.inl rfl)
      · rw [if_pos hro] at hstep
        exact Or.inr ⟨_, _, _, hstep, hk, Or.inl rfl⟩
    · rw [if_neg hd] at hstep
      by_cases hfn : BASIC_KEYWORD_RANGE_BEGIN_FUNCTIONS ≤ M0.base p ∧
          M0.base p ≤ BASIC_KEYWORD_RANGE_END_FUNCTIONS
      · rw [if_pos hfn] at hstep
        have hlt : p < e := htp.lt (by
          have := hfn.1
          simp only [BASIC_KEYWORD_RANGE_BEGIN_FUNCTIONS] at this
          omega)
        obtain ⟨q, q1, q2, q3, q4, _⟩ := skipws_text fuel (p + 1)
          (htp.mono _ (by omega) hlt) (by omega)
        have htq := htp.mono q (by omega) q4
        rw [q2] at hstep
        dsimp only at hstep
        rw [htq.at] at hstep
        by_cases h40 : M0.base q = 40
        · have hlt2 : q < e := htq.lt (by rw [h40]; decide)
          obtain ⟨q', q1', q2', q3', q4', _⟩ := skipws_text fuel (q + 1)
            (htq.mono _ (by omega) hlt2) (by omega)
          rw [if_neg (by simpa using h40), q2'] at hstep
          dsimp only at hstep
          rw [hk.check_space 9] at hstep
          by_cases hfit : 9 ≤ σ.mem.stktop_idx - σ.mem.free_idx
          · rw [if_neg (by simpa using hfit)] at hstep
            obtain ⟨a1, a2⟩ := hk.push_byte_mod (M0.base p) (by omega)
            have g1 := a1.gap
            have g0 := hk.gap
            simp only [List.length_cons] at g1
            obtain ⟨b1, b2⟩ := eng_push_locals_spec a1 σ neg PARSE_EXPR_STATE_FUNCTIONARG_RET
              (by omega)
            exact Or.inl ⟨_, _, w + 1 + 1, hstep, b1,
              .expression (.fn σ.lhs _ _ _ _ hr), by show σ.p ≤ q'; omega,
              q4', by
                show 5 * (e - q') + (w + 1 + 1) < _
                omega, Or.inl (b2.trans a2)⟩
          · rw [if_pos (by simpa using hfit)] at hstep
            exact Or.inr ⟨_, _, _, hstep, hk, Or.inl rfl⟩
        · rw [if_pos h40] at hstep
          exact Or.inr ⟨_, _, _, hstep, hk, Or.inl rfl⟩
      · rw [if_neg hfn] at hstep
        by_cases h40 : M0.base p = 40
        · have hlt : p < e := htp.lt (by rw [h40]; decide)
          rw [if_pos h40, hk.check_space 8] at hstep
          by_cases hfit : 8 ≤ σ.mem.stktop_idx - σ.mem.free_idx
          · rw [if_neg (by simpa using hfit)] at hstep
            obtain ⟨b1, b2⟩ := eng_push_locals_spec hk σ neg PARSE_EXPR_STATE_SUBEXPR_RET hfit
            exact Or.inl ⟨_, _, w + 1 + 1, hstep, b1,
              .expression (.sub σ.lhs _ _ _ hr), by show σ.p ≤ p + 1; omega,
              by show p + 1 ≤ e; omega, by
                show 5 * (e - (p + 1)) + (w + 1 + 1) < _
                omega, Or.inl b2⟩
          · rw [if_pos (by simpa using hfit)] at hstep
            exact Or.inr ⟨_, _, _, hstep, hk, Or.inl rfl⟩
        · rw [if_neg h40] at hstep
          exact Or.inr ⟨_, _, _, hstep, hk, Or.inl rfl⟩

theorem ExprStack.rebase {M0 mem : BASIC_MEM_MGR} {K : List Nat} (h : ExprStack M0 mem K) :
    ExprStack { mem with stktop_idx := M0.stktop_idx } mem K := by
  obtain ⟨h1, h2, h3, h4, h5, h6, h7, h8, h9, h10⟩ := h
  exact ⟨rfl, rfl, rfl, Nat.le_refl _, h5, h6, h7, fun _ _ => rfl,
    by show M0.stktop_idx ≤ mem.max_idx; omega, by show mem.max_idx < UINT; omega⟩

/-- The array region stays a chain of records over an iteration of the
evaluator. -/
theorem ArrOK.step {Q : Nat → Prop} {M0 mem mem1 : BASIC_MEM_MGR} {K1 : List Nat}
    (hk : ExprStack M0 mem1 K1)
    (hb : ∀ x, x < mem.free_idx → M0.base x = mem.base x) (ha : M0.array_idx = mem.array_idx)
    (hf : mem.free_idx ≤ M0.free_idx) (hfs : FreeStep Q mem mem1) (h : ArrOK mem) :
    ArrOK mem1 := by
  obtain ⟨arrs, ⟨hat, hsz⟩, h4⟩ := h
  have hsame : ∀ x, x < mem.free_idx → mem1.base x = mem.base x := fun x hx => by
    rw [hk.same x (Or.inl (by omega)), hb x hx]
  have harr : mem1.array_idx = mem.array_idx := hk.arr.trans ha
  have hat1 : ArraysAt mem1.base mem.array_idx arrs :=
    ArraysAt_congr arrs _ (fun x _ h2 => hsame x (by omega)) hat
  rcases hfs with hfs | ⟨hfs, hhd, _, _, _⟩
  · exact ⟨arrs, ⟨by rw [harr]; exact hat1, by rw [harr, hfs]; exact hsz⟩, h4⟩
  · refine ⟨arrs ++ [(le16 (mem1.base mem.free_idx) (mem1.base (mem.free_idx + 1)), 44)],
      ⟨?_, ?_⟩, ?_⟩
    · rw [harr, ArraysAt_append, hsz]
      exact ⟨hat1, rfl, hhd, trivial⟩
    · rw [harr, hfs, arrays_size_append]
      simp only [arrays_size, sizeof_ARRAY_VARIABLE_HEADER]
      omega
    · intro x hx
      rcases List.mem_append.1 hx with hx | hx
      · exact h4 x hx
      · simp only [List.mem_singleton] at hx
        rw [hx]
        show 44 % 4 = 0
        decide

/-- One iteration of the loop of the evaluator, in any state but `EXITING`:
it ends the call, or it goes on with a state of smaller measure. -/
theorem progress_step {Q : Nat → Prop} (P : FPU) (fuel : Nat) {M0 : BASIC_MEM_MGR} {e : Nat}
    {σ : EngState} {K : List Nat} {w : Nat} (hk : ExprStack M0 σ.mem K)
    (hi : EngInv Q σ.state K w)
    (hne : σ.state ≠ PARSE_EXPR_STATE_EXITING) (hpe : σ.p ≤ e)
    (ht : SameText M0.base σ.mem.base σ.p e) (hf : e - σ.p + 1 < fuel)
    (hQ : ∀ a a1 n, σ.p ≤ a → a < e → IS_ALPHA (M0.base a) = true →
      basic_parsing_varname fuel M0.base a 0 = some (.OK, a1, n) → M0.base a1 = 40 → Q n) :
    Progress Q P fuel M0 e σ (5 * (e - σ.p) + w) := by
  generalize hst : σ.state = st at hi
  cases hi with
  | expression h => exact progress_expression P fuel hst hk h hpe
  | term h => exact progress_term P fuel hst hk h hpe ht hf hQ
  | subexpr_ret lhs op mp nb h => exact progress_subexpr_ret P fuel hst hk h hpe ht hf
  | functionarg_ret lhs op mp nb f h =>
    exact progress_functionarg_ret P fuel hst hk h hpe ht hf
  | subscript_ret lhs op mp nb v0 v1 hq hv h =>
    exact progress_subscript_ret P fuel hst hk hq hv h hpe ht hf
  | first_operator h => exact progress_first_operator P fuel hst hk h hpe
  | expr_1 h => exact progress_expr_1 P fuel hst hk h hpe ht hf
  | second_operator h => exact progress_second_operator P fuel hst hk h hpe ht
  | precedence_down lhs op mp h => exact progress_precedence_down P fuel hst hk h hpe
  | apply_operator h => exact progress_apply_operator P fuel hst hk h hpe
  | exiting => exact absurd hst hne

/-- The array region after one iteration of the evaluator. -/
theorem progress_arrays {Q : Nat → Prop} (P : FPU) (fuel : Nat) {M0 : BASIC_MEM_MGR} {e : Nat}
    {σ : EngState} {K : List Nat} {w : Nat} (hk : ExprStack M0 σ.mem K)
    (hi : EngInv Q σ.state K w)
    (hne : σ.state ≠ PARSE_EXPR_STATE_EXITING) (hpe : σ.p ≤ e)
    (ht : SameText M0.base σ.mem.base σ.p e) (hf : e - σ.p + 1 < fuel) (ha : ArrOK σ.mem) :
    (∀ σ1, engine_step P fuel σ = .next σ1 → ArrOK σ1.mem) ∧
    (∀ r σ1, engine_step P fuel σ = .ret r σ1 → ArrOK σ1.mem) := by
  have h0 : σ.mem.base e = 0 := by rw [ht.2.2 e hpe (Nat.le_refl _)]; exact ht.2.1
  rcases progress_step (Q := fun _ => True) P fuel hk.rebase (hi.weaken_names (fun _ _ => trivial)) hne
      hpe (SameText.refl hpe h0) hf (fun _ _ _ _ _ _ _ _ => trivial) with
    ⟨σ1, K1, w1, e1, k1, _, _, _, _, fs⟩ | ⟨r, σ1, K1, e1, k1, fs⟩
  · refine ⟨fun σ2 h2 => ?_, fun r σ2 h2 => ?_⟩
    · rw [e1] at h2
      cases h2
      exact @ArrOK.step _ _ σ.mem _ _ k1 (fun _ _ => rfl) rfl (Nat.le_refl _) fs ha
    · rw [e1] at h2
      cases h2
  · refine ⟨fun σ2 h2 => ?_, fun r σ2 h2 => ?_⟩
    · rw [e1] at h2
      cases h2
    · rw [e1] at h2
      cases h2
      exact @ArrOK.step _ _ σ.mem _ _ k1 (fun _ _ => rfl) rfl (Nat.le_refl _) fs ha

/-- The loop of the evaluator returns when the bound on its iterations exceeds
the measure of the state, and its stack and the array region are then in
order. -/
theorem engine_loop_returns (P : FPU) (fuel pp : Nat) (out : F32) {M0 : BASIC_MEM_MGR}
    {e p0 : Nat} (h0 : M0.base e = 0) (hout : e < M0.free_idx ∨ M0.stktop_idx ≤ p0)
    (hf : e - p0 + 1 < fuel) (hpp : p0 ≤ pp ∧ pp ≤ e) :
    ∀ (n : Nat) (σ : EngState) (K : List Nat) (w : Nat), ExprStack M0 σ.mem K →
      EngInv (fun _ => True) σ.state K w → p0 ≤ σ.p → σ.p ≤ e → 5 * (e - σ.p) + w < n →
      ∃ r p1 o m1 sd K1, engine_loop P fuel pp out n σ = .ret r p1 o m1 sd ∧
        ExprStack M0 m1 K1 ∧ (ArrOK σ.mem → ArrOK m1) ∧ p0 ≤ p1 ∧ p1 ≤ e
  | 0, _, _, _, _, _, _, _, hn => by omega
  | n + 1, σ, K, w, hk, hi, hp0, hpe, hn => by
    by_cases hs : σ.state = PARSE_EXPR_STATE_EXITING
    · exact ⟨_, _, _, _, _, K, engine_loop_exit P fuel pp out n hs, hk, id, hp0, hpe⟩
    · have ht : SameText M0.base σ.mem.base σ.p e := hk.text h0 hout hp0 hpe
      have harr := progress_arrays P fuel hk hi hs hpe ht (by omega)
      rcases progress_step P fuel hk hi hs hpe ht (by omega)
          (fun _ _ _ _ _ _ _ _ => trivial) with
        ⟨σ1, K1, w1, e1, k1, i1, hp1, hpe1, hφ, _⟩ | ⟨r, σ1, K1, e1, k1, _⟩
      · rw [engine_loop_next P fuel pp out n hs e1]
        obtain ⟨r, p1, o, m1, sd, K2, l1, l2, l3, l4⟩ := engine_loop_returns P fuel pp out h0
          hout hf hpp n σ1 K1 w1 k1 i1 (by omega) hpe1 (by omega)
        exact ⟨r, p1, o, m1, sd, K2, l1, l2, fun ha => l3 ((harr ha).1 σ1 e1), l4⟩
      · exact ⟨_, _, _, _, _, K1, engine_loop_ret P fuel pp out n hs e1, k1,
          fun ha => (harr ha).2 r σ1 e1, hpp⟩

/-- The evaluator returns on every NUL-terminated text outside the free area
of the arena, given fuel in proportion to the length of the text.  The stack
top is then as at entry, the indices of the regions below it are unchanged but
for `free_idx`, which can only grow (arrays created on first use), no byte
below the free area or above the stack top at entry has changed, the array
region is a chain of records if it was one, and the parse pointer is inside
the text. -/
theorem expression_returns (P : FPU) (fuel p e : Nat) (out : F32) (s : BASIC_MEM_MGR)
    (seed : Nat) (ho : ArenaOrdered s) (hpe : p ≤ e) (h0 : s.base e = 0)
    (hout : e < s.free_idx ∨ s.stktop_idx ≤ p) (hf : 5 * (e - p) + 3 ≤ fuel) :
    ∃ r p1 o m1 sd, basic_parsing_expression P fuel p out s seed = .ret r p1 o m1 sd ∧
      m1.stktop_idx = s.stktop_idx ∧ m1.vars_idx = s.vars_idx ∧ m1.array_idx = s.array_idx ∧
      m1.max_idx = s.max_idx ∧ s.free_idx ≤ m1.free_idx ∧ m1.free_idx ≤ s.stktop_idx ∧
      (∀ x, x < s.free_idx ∨ s.stktop_idx ≤ x → m1.base x = s.base x) ∧
      (ArrOK s → ArrOK m1) ∧ p ≤ p1 ∧ p1 ≤ e := by
  obtain ⟨o1, o2, o3, o4, o5⟩ := ho
  obtain ⟨h1, h2⟩ := engine_enter P fuel p out s seed o3 o4 o5
  have main : ∃ r p1 o m1 sd K1, expression_engine_norecurse P fuel p out s seed =
      .ret r p1 o m1 sd ∧ ExprStack s m1 K1 ∧ (ArrOK s → ArrOK m1) ∧ p ≤ p1 ∧ p1 ≤ e := by
    by_cases hg : 1 ≤ s.stktop_idx - s.free_idx
    · obtain ⟨m1, e1, k1, f1⟩ := h1 hg
      rw [e1]
      obtain ⟨r, p1, o, m2, sd, K2, l1, l2, l3, l4⟩ := engine_loop_returns P fuel p out h0
        hout (by omega) ⟨Nat.le_refl _, hpe⟩ fuel (engine_init p m1 seed)
        _ (1 + 1) k1 (.expression .exiting) (Nat.le_refl _) hpe (by
          show 5 * (e - p) + (1 + 1) < fuel
          omega)
      exact ⟨r, p1, o, m2, sd, K2, l1, l2, fun ha => l3
        (ArrOK.step (Q := fun _ => True) k1 (fun _ _ => rfl) rfl (Nat.le_refl _) (Or.inl f1)
          ha), l4⟩
    · exact ⟨_, _, _, _, _, [], h2 (by omega), ExprStack.init s o3 o4 o5, id,
        Nat.le_refl _, hpe⟩
  obtain ⟨r, p1, o, m1, sd, K1, e1, k1, ha1, hp1⟩ := main
  refine ⟨r, p1, o, _, sd, basic_parsing_expression_of_engine P fuel p out s seed e1, rfl,
    k1.vars, k1.arr, k1.max, k1.free_ge, ?_, k1.same, ?_, hp1⟩
  · have := k1.free_le
    have := k1.top
    show m1.free_idx ≤ s.stktop_idx
    omega
  · intro ha
    exact ha1 ha

/-- C3: `basic_parsing_expression` returns on every NUL-terminated byte string
(at `p`, with its NUL at `e`, outside the free area of the arena) and in every
arena with ordered indices, and the stack top is then as at entry, whatever
the result of the call. -/
theorem C3_stack_top_restored (P : FPU) (fuel p e : Nat) (out : F32) (s : BASIC_MEM_MGR)
    (seed : Nat) (ho : ArenaOrdered s) (hpe : p ≤ e) (h0 : s.base e = 0)
    (hout : e < s.free_idx ∨ s.stktop_idx ≤ p) (hf : 5 * (e - p) + 3 ≤ fuel) :
    ∃ r p1 o m1 sd, basic_parsing_expression P fuel p out s seed = .ret r p1 o m1 sd ∧
      m1.stktop_idx = s.stktop_idx := by
  obtain ⟨r, p1, o, m1, sd, e1, e2, _⟩ := expression_returns P fuel p e out s seed ho hpe h0
    hout hf
  exact ⟨r, p1, o, m1, sd, e1, e2⟩

/-- Witness of C3: the text `2+3*4` at address 100 and an arena of 12 bytes. -/
theorem C3_stack_top_restored_witness :
    (ArenaOrdered (expr_arena 12) ∧ 100 ≤ 105 ∧ (expr_arena 12).base 105 = 0 ∧
      ((105 < (expr_arena 12).free_idx) ∨ (expr_arena 12).stktop_idx ≤ 100) ∧
      5 * (105 - 100) + 3 ≤ 28) ∧
    ∃ r p1 o m1 sd, basic_parsing_expression nat_fpu 28 100 0 (expr_arena 12) 0 =
      .ret r p1 o m1 sd ∧ m1.stktop_idx = (expr_arena 12).stktop_idx :=
  ⟨⟨by decide, by decide, by decide, by decide, by decide⟩,
    C3_stack_top_restored nat_fpu 28 100 105 0 (expr_arena 12) 0 (by decide) (by decide)
      (by decide) (by decide) (by decide)⟩

/-! ## READ and DATA: the order of the items -/

theorem data_slots_start_blanks : ∀ (t : List Nat) (a : Nat),
    data_slots .start a t = data_slots .start (a + count_spaces t) (t.drop (count_spaces t))
  | [], a => by simp [count_spaces]
  | c :: r, a => by
    by_cases hc : c = 32
    · subst hc
      simp only [count_spaces, data_slots, if_true, List.drop_succ_cons]
      rw [data_slots_start_blanks r (a + 1)]
      congr 1; omega
    · rw [count_spaces_cons_ne r hc]; rfl

theorem data_slots_after_data_blanks : ∀ (t : List Nat) (a : Nat),
    data_slots .after_data a t =
      data_slots .after_data (a + count_spaces t) (t.drop (count_spaces t))
  | [], a => by simp [count_spaces]
  | c :: r, a => by
    by_cases hc : c = 32
    · subst hc
      simp only [count_spaces, data_slots, if_true, List.drop_succ_cons]
      rw [data_slots_after_data_blanks r (a + 1)]
      congr 1; omega
    · rw [count_spaces_cons_ne r hc]; rfl

theorem stmt_len_le : ∀ (t : List Nat), stmt_len t ≤ t.length
  | [] => Nat.le_refl _
  | c :: r => by
    have := stmt_len_le r
    simp only [stmt_len, List.length_cons]
    split <;> omega

theorem data_slots_skip : ∀ (t : List Nat) (a : Nat),
    data_slots .skip a t = cursor_slots (a + stmt_len t) (t.drop (stmt_len t))
  | [], a => rfl
  | c :: r, a => by
    by_cases hc : c = 58
    · subst hc
      simp [data_slots, stmt_len, cursor_slots]
    · simp only [data_slots, stmt_len, if_neg hc, List.drop_succ_cons]
      rw [data_slots_skip r (a + 1)]
      congr 1; omega

/-- A statement that does not start with DATA holds no item. -/
theorem data_slots_start_other (c : Nat) (r : List Nat) (a : Nat) (h32 : c ≠ 32)
    (hd : c ≠ BASIC_KEYWORD_DATA) :
    data_slots .start a (c :: r) =
      cursor_slots (a + stmt_len (c :: r)) ((c :: r).drop (stmt_len (c :: r))) := by
  by_cases hc : c = 58
  · subst hc
    simp [data_slots, stmt_len, cursor_slots]
  · simp only [data_slots, stmt_len, if_neg hc, if_neg h32, if_neg hd, List.drop_succ_cons]
    rw [data_slots_skip r (a + 1)]
    congr 1; omega

theorem skip_to_end_statement_spec {m : Mem} : ∀ (fuel : Nat) (t : List Nat) (p : Nat),
    IsCStr m p t → stmt_len t < fuel →
    basic_parsing_skip_to_end_statement m fuel p = some (p + stmt_len t)
  | 0, _, _, _, hf => by omega
  | fuel + 1, [], p, h, _ => by
    simp only [IsCStr] at h
    simp [basic_parsing_skip_to_end_statement, h, stmt_len]
  | fuel + 1, c :: r, p, h, hf => by
    simp only [IsCStr] at h
    by_cases hc : c = 58
    · subst hc
      simp [basic_parsing_skip_to_end_statement, h.1, stmt_len]
    · simp only [stmt_len, if_neg hc] at hf ⊢
      have ih := skip_to_end_statement_spec fuel r (p + 1) h.2.2.2 (by omega)
      simp only [basic_parsing_skip_to_end_statement, h.1]
      rw [if_pos ⟨h.2.1, hc⟩, ih]
      congr 1; omega

/-- The text behind a statement is empty or starts with a colon. -/
theorem drop_stmt_len_head : ∀ (t : List Nat) (c : Nat),
    (t.drop (stmt_len t)).head? = some c → c = 44 ∨ c = 58
  | [], c, h => by simp [stmt_len] at h
  | x :: r, c, h => by
    by_cases hx : x = 58
    · subst hx
      simp only [stmt_len, if_true, List.drop_zero, List.head?_cons, Option.some.injEq] at h
      exact Or.inr h.symm
    · simp only [stmt_len, if_neg hx, List.drop_succ_cons] at h
      exact drop_stmt_len_head r c h

/-- Inside an item the scan always finds the end of the item. -/
theorem data_slots_item : ∀ (t : List Nat) (s a : Nat),
    ∃ d L, data_slots (.item s) a t = (s, d) :: L
  | [], s, a => ⟨a, [], rfl⟩
  | c :: r, s, a => by
    by_cases h44 : c = 44
    · exact ⟨a, _, by simp only [data_slots, if_pos h44]; rfl⟩
    · by_cases h58 : c = 58
      · exact ⟨a, _, by simp only [data_slots, if_neg h44, if_pos h58]; rfl⟩
      · obtain ⟨d, L, h⟩ := data_slots_item r s (a + 1)
        exact ⟨d, L, by simp only [data_slots, if_neg h44, if_neg h58, h]⟩

/-- Behind the keyword DATA and blanks: an empty statement, or the first item
starts here. -/
theorem data_slots_after_data_head (c : Nat) (r : List Nat) (a : Nat) (h32 : c ≠ 32) :
    (c = 58 → data_slots .after_data a (c :: r) = cursor_slots a (c :: r)) ∧
    (c ≠ 58 → ∃ d L, data_slots .after_data a (c :: r) = (a, d) :: L) := by
  constructor
  · intro h58
    subst h58
    simp [data_slots, cursor_slots]
  · intro h58
    by_cases h44 : c = 44
    · exact ⟨a, _, by simp only [data_slots, if_neg h32, if_neg h58, if_pos h44]; rfl⟩
    · obtain ⟨d, L, h⟩ := data_slots_item r a (a + 1)
      exact ⟨d, L, by simp only [data_slots, if_neg h32, if_neg h58, if_neg h44, h]⟩

theorem le16_split (x : Nat) : le16 (x % 256) (x / 256) = x := by
  simp only [le16]; omega

/-- The search of `read_input_common` at the start of a statement. -/
theorem seek_statement {m : Mem} (fuel : Nat) (fd : Bool) (bs : BASIC_MAIN_STATE)
    (hm : bs.prog.base = m)
    (ih : ∀ (p : Nat) (r : List Nat) (post : List (Nat × List Nat)) (fd1 : Bool),
      IsCStr m p r → (∀ c, r.head? = some c → c = 58) →
      RecsAt true m (p + r.length + 1) post →
      m (p + r.length + 1 + prog_size post) = 0 →
      m (p + r.length + 1 + prog_size post + 1) = 0 →
      r.length + prog_size post + 2 ≤ fuel →
      SeekFinds (cursor_slots p r ++ program_slots (p + r.length + 1) post) bs
        (read_input_seek true fuel bs p fd1))
    (a : Nat) (t : List Nat) (post : List (Nat × List Nat)) (ht : IsCStr m a t)
    (hrecs : RecsAt true m (a + t.length + 1) post)
    (h0 : m (a + t.length + 1 + prog_size post) = 0)
    (h1 : m (a + t.length + 1 + prog_size post + 1) = 0)
    (hf : t.length + prog_size post + 2 ≤ fuel) :
    SeekFinds (data_slots .start a t ++ program_slots (a + t.length + 1) post) bs
      (match basic_parsing_skipws m fuel a with
        | none => .out_of_fuel
        | some p1 =>
          if m p1 = BASIC_KEYWORD_DATA then
            match basic_parsing_skipws m fuel (p1 + 1) with
            | none => .out_of_fuel
            | some p2 => read_input_seek true fuel bs p2 true
          else
            match basic_parsing_skip_to_end_statement m fuel p1 with
            | none => .out_of_fuel
            | some p2 => read_input_seek true fuel bs p2 fd) := by
  have hcs := count_spaces_le t
  rw [skipws_spec fuel t a ht (by omega), data_slots_start_blanks t a]
  dsimp only
  have ht1 := IsCStr_drop (count_spaces t) t a hcs ht
  have hhead := drop_count_spaces_head t
  have hlen1 : (t.drop (count_spaces t)).length = t.length - count_spaces t := List.length_drop _ _
  generalize hp1 : a + count_spaces t = p1 at *
  generalize ht1e : t.drop (count_spaces t) = t1 at *
  have hend : a + t.length + 1 = p1 + t1.length + 1 := by omega
  rw [hend] at hrecs h0 h1 ⊢
  have hf1 : t1.length + prog_size post + 2 ≤ fuel := by omega
  clear hend hlen1 hcs hf ht hp1 ht1e
  -- a statement other than DATA
  have hother : m p1 ≠ BASIC_KEYWORD_DATA → (∀ c r, t1 = c :: r → c ≠ BASIC_KEYWORD_DATA) →
      SeekFinds (data_slots .start p1 t1 ++ program_slots (p1 + t1.length + 1) post) bs
        (if m p1 = BASIC_KEYWORD_DATA then
            match basic_parsing_skipws m fuel (p1 + 1) with
            | none => .out_of_fuel
            | some p2 => read_input_seek true fuel bs p2 true
          else
            match basic_parsing_skip_to_end_statement m fuel p1 with
            | none => .out_of_fuel
            | some p2 => read_input_seek true fuel bs p2 fd) := by
    intro hne hnd
    have hsl := stmt_len_le t1
    rw [if_neg hne, skip_to_end_statement_spec fuel t1 p1 ht1 (by omega)]
    have hsp : data_slots .start p1 t1 =
        cursor_slots (p1 + stmt_len t1) (t1.drop (stmt_len t1)) := by
      cases t1 with
      | nil => rfl
      | cons c r =>
        exact data_slots_start_other c r p1 (fun h => hhead (by rw [h]; rfl)) (hnd c r rfl)
    rw [hsp]
    have hl : (t1.drop (stmt_len t1)).length = t1.length - stmt_len t1 := List.length_drop _ _
    have he : p1 + t1.length + 1 = p1 + stmt_len t1 + (t1.drop (stmt_len t1)).length + 1 := by
      omega
    rw [he] at hrecs h0 h1 ⊢
    exact ih _ _ post fd (IsCStr_drop _ t1 p1 hsl ht1)
      (fun c hc => by
        rcases drop_stmt_len_head t1 c hc with h | h
        · exfalso
          -- the text behind a statement does not start with a comma
          have : ∀ (l : List Nat), (l.drop (stmt_len l)).head? ≠ some 44 := by
            intro l
            induction l with
            | nil => simp [stmt_len]
            | cons x xs ihx =>
              by_cases hx : x = 58
              · subst hx; simp [stmt_len]
              · simpa [stmt_len, hx] using ihx
          exact this t1 (by rw [hc, h])
        · exact h)
      hrecs h0 h1 (by omega)
  cases ht1c : t1 with
  | nil =>
    subst ht1c
    simp only [IsCStr] at ht1
    exact hother (by rw [ht1]; decide) (fun c r h => by simp at h)
  | cons c r =>
    subst ht1c
    simp only [IsCStr] at ht1
    by_cases hd : c = BASIC_KEYWORD_DATA
    · subst hd
      have hcs2 := count_spaces_le r
      rw [if_pos ht1.1, skipws_spec fuel r (p1 + 1) ht1.2.2.2
        (by simp only [List.length_cons] at hf1; omega)]
      have hds : data_slots .start p1 (BASIC_KEYWORD_DATA :: r) =
          data_slots .after_data (p1 + 1 + count_spaces r) (r.drop (count_spaces r)) := by
        rw [← data_slots_after_data_blanks r (p1 + 1)]
        rfl
      rw [hds]
      have ht3 := IsCStr_drop (count_spaces r) r (p1 + 1) hcs2 ht1.2.2.2
      have hhead3 := drop_count_spaces_head r
      have hlen3 : (r.drop (count_spaces r)).length = r.length - count_spaces r :=
        List.length_drop _ _
      generalize hp2 : p1 + 1 + count_spaces r = p2 at *
      generalize ht3e : r.drop (count_spaces r) = t3 at *
      have hend : p1 + (BASIC_KEYWORD_DATA :: r).length + 1 = p2 + t3.length + 1 := by
        simp only [List.length_cons]; omega
      rw [hend] at hrecs h0 h1 ⊢
      have hf3 : t3.length + prog_size post + 2 ≤ fuel := by
        simp only [List.length_cons] at hf1; omega
      cases t3 with
      | nil =>
        exact ih p2 [] post true ht3 (fun c hc => by simp at hc) hrecs h0 h1 hf3
      | cons c3 r3 =>
        have h32 : c3 ≠ 32 := fun h => hhead3 (by rw [h]; rfl)
        by_cases h58 : c3 = 58
        · rw [(data_slots_after_data_head c3 r3 p2 h32).1 h58]
          exact ih p2 (c3 :: r3) post true ht3
            (fun c hc => by simp only [List.head?_cons, Option.some.injEq] at hc; rw [← hc, h58])
            hrecs h0 h1 hf3
        · obtain ⟨d, L, hL⟩ := (data_slots_after_data_head c3 r3 p2 h32).2 h58
          rw [hL]
          simp only [IsCStr] at ht3
          obtain ⟨k, hk⟩ : ∃ k, fuel = k + 1 := ⟨fuel - 1, by omega⟩
          refine ⟨bs.data_line, ?_⟩
          rw [hk]
          simp only [read_input_seek, hm, ht3.1]
          rw [if_neg (by
            rintro (h | ⟨_, h⟩)
            · exact ht3.2.1 h
            · exact h58 h)]
    · exact hother (by rw [ht1.1]; exact hd) (fun c' r' h => by
        simp only [List.cons.injEq] at h; rw [← h.1]; exact hd)

/-- The search of `read_input_common` for the next DATA item, from the end of
a statement or of a line: it finds the first of the items ahead in the program
text, or reports OUT_OF_DATA when there is none. -/
theorem seek_spec {m : Mem} : ∀ (fuel : Nat) (bs : BASIC_MAIN_STATE) (p : Nat) (r : List Nat)
    (post : List (Nat × List Nat)) (fd : Bool), bs.prog.base = m →
    IsCStr m p r → (∀ c, r.head? = some c → c = 58) →
    RecsAt true m (p + r.length + 1) post →
    m (p + r.length + 1 + prog_size post) = 0 →
    m (p + r.length + 1 + prog_size post + 1) = 0 →
    r.length + prog_size post + 2 ≤ fuel →
    SeekFinds (cursor_slots p r ++ program_slots (p + r.length + 1) post) bs
      (read_input_seek true fuel bs p fd)
  | 0, _, _, _, _, _, _, _, _, _, _, _, hf => by omega
  | fuel + 1, bs, p, r, post, fd, hm, hr, hhead, hrecs, h0, h1, hf => by
    have ih : ∀ (bs1 : BASIC_MAIN_STATE), bs1.prog.base = m →
        ∀ (p : Nat) (r : List Nat) (post : List (Nat × List Nat)) (fd1 : Bool),
        IsCStr m p r → (∀ c, r.head? = some c → c = 58) →
        RecsAt true m (p + r.length + 1) post →
        m (p + r.length + 1 + prog_size post) = 0 →
        m (p + r.length + 1 + prog_size post + 1) = 0 →
        r.length + prog_size post + 2 ≤ fuel →
        SeekFinds (cursor_slots p r ++ program_slots (p + r.length + 1) post) bs1
          (read_input_seek true fuel bs1 p fd1) :=
      fun bs1 hm1 p r post fd1 a b c d e f => seek_spec fuel bs1 p r post fd1 hm1 a b c d e f
    cases r with
    | nil =>
      simp only [IsCStr] at hr
      simp only [List.length_nil, Nat.add_zero] at hrecs h0 h1 hf
      cases post with
      | nil =>
        simp only [prog_size, Nat.add_zero] at h0 h1
        refine ⟨p, fd, UINT - 1, ?_⟩
        simp only [read_input_seek, hm, hr, prog_storage_advance_line, h0,
          show m (p + 2) = 0 from h1]
        simp
      | cons rec rest =>
        obtain ⟨ln, body⟩ := rec
        simp only [RecsAt, if_true] at hrecs
        obtain ⟨⟨n1, n2, n3⟩, l1, l2, l3, hb, hrest⟩ := hrecs
        simp only [prog_size] at h0 h1 hf
        have hadv : prog_storage_advance_line bs.prog p = (p + 5, ln) := by
          have hnz : m (p + 1) ≠ 0 ∨ m (p + 2) ≠ 0 := by
            rw [show p + 2 = p + 1 + 1 from rfl, n1, n2]; omega
          simp only [prog_storage_advance_line, hm]
          rw [if_pos hnz, show p + 3 = p + 1 + 2 from rfl, show p + 4 = p + 1 + 3 from rfl, l1, l2,
            le16_split]
        have hst := seek_statement fuel fd { bs with data_line := ln } hm
          (ih { bs with data_line := ln } hm) (p + 5) body rest
          (by rw [show p + 5 = p + 1 + 4 from rfl]; exact hb)
          (by rw [show p + 5 + body.length + 1 = p + 1 + 5 + body.length by omega]; exact hrest)
          (by rw [← h0]; congr 1; omega) (by rw [← h1]; congr 1; omega) (by omega)
        have hlist : cursor_slots p [] ++ program_slots (p + ([] : List Nat).length + 1)
            ((ln, body) :: rest) =
            data_slots .start (p + 5) body ++ program_slots (p + 5 + body.length + 1) rest := by
          simp only [cursor_slots, List.nil_append, program_slots, List.length_nil, Nat.add_zero]
          rw [show p + 1 + 4 = p + 5 from rfl,
            show p + 1 + 5 + body.length = p + 5 + body.length + 1 by omega]
        rw [hlist]
        have hcode : read_input_seek true (fuel + 1) bs p fd =
            (match basic_parsing_skipws m fuel (p + 5) with
            | none => .out_of_fuel
            | some p1 =>
              if m p1 = BASIC_KEYWORD_DATA then
                match basic_parsing_skipws m fuel (p1 + 1) with
                | none => .out_of_fuel
                | some p2 => read_input_seek true fuel { bs with data_line := ln } p2 true
              else
                match basic_parsing_skip_to_end_statement m fuel p1 with
                | none => .out_of_fuel
                | some p2 => read_input_seek true fuel { bs with data_line := ln } p2 fd) := by
          simp only [read_input_seek, hm, hr, hadv]
          have hne : ln ≠ UINT_MAX := by simp only [UINT_MAX]; omega
          simp [hne]
          try rfl
        rw [hcode]
        cases hL : data_slots .start (p + 5) body ++ program_slots (p + 5 + body.length + 1) rest with
        | nil =>
          rw [hL] at hst
          obtain ⟨ip, fd1, dl, h⟩ := hst
          exact ⟨ip, fd1, dl, h⟩
        | cons sd L =>
          rw [hL] at hst
          obtain ⟨dl, h⟩ := hst
          exact ⟨dl, h⟩
    | cons c r' =>
      have hc : c = 58 := hhead c rfl
      subst hc
      simp only [IsCStr] at hr
      simp only [List.length_cons] at hrecs h0 h1 hf
      have hst := seek_statement fuel fd bs hm (ih bs hm) (p + 1) r' post hr.2.2.2
        (by rw [show p + 1 + r'.length + 1 = p + (r'.length + 1) + 1 by omega]; exact hrecs)
        (by rw [← h0]; congr 1; omega) (by rw [← h1]; congr 1; omega) (by omega)
      have hlist : cursor_slots p (58 :: r') ++ program_slots (p + (58 :: r').length + 1) post =
          data_slots .start (p + 1) r' ++ program_slots (p + 1 + r'.length + 1) post := by
        rw [show cursor_slots p (58 :: r') = data_slots .start (p + 1) r' from rfl,
          List.length_cons, show p + (r'.length + 1) + 1 = p + 1 + r'.length + 1 by omega]
      rw [hlist]
      have hcode : read_input_seek true (fuel + 1) bs p fd =
          (match basic_parsing_skipws m fuel (p + 1) with
          | none => .out_of_fuel
          | some p1 =>
            if m p1 = BASIC_KEYWORD_DATA then
              match basic_parsing_skipws m fuel (p1 + 1) with
              | none => .out_of_fuel
              | some p2 => read_input_seek true fuel bs p2 true
            else
              match basic_parsing_skip_to_end_statement m fuel p1 with
              | none => .out_of_fuel
              | some p2 => read_input_seek true fuel bs p2 fd) := by
        simp only [read_input_seek, hm, hr.1]
        simp
        try rfl
      rw [hcode]
      exact hst

/-- The scan of a line finds an item: its end is a comma, a colon or the end
of the line, and the items behind it are those found from there on. -/
theorem data_slots_first : ∀ (t : List Nat) (σ : DataScan) (a s d : Nat) (L : List (Nat × Nat)),
    (∀ s0, σ = .item s0 → s0 ≤ a) → data_slots σ a t = (s, d) :: L →
    ∃ k, k ≤ t.length ∧ d = a + k ∧ (∀ c, (t.drop k).head? = some c → c = 44 ∨ c = 58) ∧
      L = cursor_slots d (t.drop k) ∧ s ≤ d ∧ (∀ s0, σ = .item s0 → s = s0)
  | [], σ, a, s, d, L, hσ, h => by
    cases σ with
    | item s0 =>
      simp only [data_slots, List.cons.injEq, Prod.mk.injEq] at h
      obtain ⟨⟨rfl, rfl⟩, rfl⟩ := h
      exact ⟨0, Nat.le_refl _, rfl, by simp, rfl, hσ s0 rfl, fun s1 h1 => by
        cases h1; rfl⟩
    | start => simp [data_slots] at h
    | skip => simp [data_slots] at h
    | after_data => simp [data_slots] at h
  | c :: r, σ, a, s, d, L, hσ, h => by
    have step : ∀ (σ1 : DataScan), (∀ s0, σ1 = .item s0 → s0 ≤ a + 1) →
        data_slots σ1 (a + 1) r = (s, d) :: L →
        ∃ k, k ≤ (c :: r).length ∧ d = a + k ∧
          (∀ c1, ((c :: r).drop k).head? = some c1 → c1 = 44 ∨ c1 = 58) ∧
          L = cursor_slots d ((c :: r).drop k) ∧ s ≤ d ∧ (∀ s0, σ1 = .item s0 → s = s0) := by
      intro σ1 h1 h2
      obtain ⟨k, k1, k2, k3, k4, k5, k6⟩ := data_slots_first r σ1 (a + 1) s d L h1 h2
      exact ⟨k + 1, by simp only [List.length_cons]; omega, by omega,
        by simpa only [List.drop_succ_cons] using k3,
        by simpa only [List.drop_succ_cons] using k4, k5, k6⟩
    have here : ∀ (L0 : List (Nat × Nat)) (s1 : Nat), (c = 44 ∨ c = 58) →
        cursor_slots a (c :: r) = L0 → s1 ≤ a → (s1, a) :: L0 = (s, d) :: L →
        ∃ k, k ≤ (c :: r).length ∧ d = a + k ∧
          (∀ c1, ((c :: r).drop k).head? = some c1 → c1 = 44 ∨ c1 = 58) ∧
          L = cursor_slots d ((c :: r).drop k) ∧ s ≤ d ∧ s = s1 := by
      intro L0 s1 hc hL0 hs1 he
      simp only [List.cons.injEq, Prod.mk.injEq] at he
      obtain ⟨⟨rfl, rfl⟩, rfl⟩ := he
      exact ⟨0, Nat.zero_le _, rfl, fun c1 h1 => by
        simp only [List.drop_zero, List.head?_cons, Option.some.injEq] at h1
        rw [← h1]; exact hc, hL0.symm, hs1, rfl⟩
    cases σ with
    | start =>
      simp only [data_slots] at h
      by_cases h32 : c = 32
      · rw [if_pos h32] at h
        obtain ⟨k, k1, k2, k3, k4, k5, _⟩ := step .start (fun _ h => by cases h) h
        exact ⟨k, k1, k2, k3, k4, k5, fun _ h => by cases h⟩
      · rw [if_neg h32] at h
        by_cases h58 : c = 58
        · rw [if_pos h58] at h
          obtain ⟨k, k1, k2, k3, k4, k5, _⟩ := step .start (fun _ h => by cases h) h
          exact ⟨k, k1, k2, k3, k4, k5, fun _ h => by cases h⟩
        · rw [if_neg h58] at h
          by_cases hd : c = BASIC_KEYWORD_DATA
          · rw [if_pos hd] at h
            obtain ⟨k, k1, k2, k3, k4, k5, _⟩ := step .after_data (fun _ h => by cases h) h
            exact ⟨k, k1, k2, k3, k4, k5, fun _ h => by cases h⟩
          · rw [if_neg hd] at h
            obtain ⟨k, k1, k2, k3, k4, k5, _⟩ := step .skip (fun _ h => by cases h) h
            exact ⟨k, k1, k2, k3, k4, k5, fun _ h => by cases h⟩
    | skip =>
      simp only [data_slots] at h
      by_cases h58 : c = 58
      · rw [if_pos h58] at h
        obtain ⟨k, k1, k2, k3, k4, k5, _⟩ := step .start (fun _ h => by cases h) h
        exact ⟨k, k1, k2, k3, k4, k5, fun _ h => by cases h⟩
      · rw [if_neg h58] at h
        obtain ⟨k, k1, k2, k3, k4, k5, _⟩ := step .skip (fun _ h => by cases h) h
        exact ⟨k, k1, k2, k3, k4, k5, fun _ h => by cases h⟩
    | after_data =>
      simp only [data_slots] at h
      by_cases h32 : c = 32
      · rw [if_pos h32] at h
        obtain ⟨k, k1, k2, k3, k4, k5, _⟩ := step .after_data (fun _ h => by cases h) h
        exact ⟨k, k1, k2, k3, k4, k5, fun _ h => by cases h⟩
      · rw [if_neg h32] at h
        by_cases h58 : c = 58
        · rw [if_pos h58] at h
          obtain ⟨k, k1, k2, k3, k4, k5, _⟩ := step .start (fun _ h => by cases h) h
          exact ⟨k, k1, k2, k3, k4, k5, fun _ h => by cases h⟩
        · rw [if_neg h58] at h
          by_cases h44 : c = 44
          · rw [if_pos h44] at h
            obtain ⟨k, k1, k2, k3, k4, k5, _⟩ := here _ a (Or.inl h44)
              (by subst h44; rfl) (Nat.le_refl _) h
            exact ⟨k, k1, k2, k3, k4, k5, fun _ h => by cases h⟩
          · rw [if_neg h44] at h
            obtain ⟨k, k1, k2, k3, k4, k5, _⟩ := step (.item a)
              (fun s0 h => by cases h; omega) h
            exact ⟨k, k1, k2, k3, k4, k5, fun _ h => by cases h⟩
    | item s0 =>
      have hs0 := hσ s0 rfl
      simp only [data_slots] at h
      by_cases h44 : c = 44
      · rw [if_pos h44] at h
        obtain ⟨k, k1, k2, k3, k4, k5, k6⟩ := here _ s0 (Or.inl h44)
          (by subst h44; rfl) hs0 h
        exact ⟨k, k1, k2, k3, k4, k5, fun s1 h1 => by cases h1; exact k6⟩
      · rw [if_neg h44] at h
        by_cases h58 : c = 58
        · rw [if_pos h58] at h
          obtain ⟨k, k1, k2, k3, k4, k5, k6⟩ := here _ s0 (Or.inr h58)
            (by subst h58; rfl) hs0 h
          exact ⟨k, k1, k2, k3, k4, k5, fun s1 h1 => by cases h1; exact k6⟩
        · rw [if_neg h58] at h
          obtain ⟨k, k1, k2, k3, k4, k5, k6⟩ := step (.item s0)
            (fun s1 h1 => by cases h1; omega) h
          exact ⟨k, k1, k2, k3, k4, k5, k6⟩

/-- The items found by a scan start at or behind the place given. -/
theorem data_slots_start_ge : ∀ (t : List Nat) (σ : DataScan) (a a0 s0 d0 : Nat)
    (L0 : List (Nat × Nat)),
    (∀ x, σ = .item x → a ≤ x) → a ≤ a0 → data_slots σ a0 t = (s0, d0) :: L0 → a ≤ s0
  | [], σ, a, a0, s0, d0, L0, hx, ha, h => by
    cases σ with
    | item x =>
      simp only [data_slots, List.cons.injEq, Prod.mk.injEq] at h
      rw [← h.1.1]; exact hx x rfl
    | start => simp [data_slots] at h
    | skip => simp [data_slots] at h
    | after_data => simp [data_slots] at h
  | c :: r, σ, a, a0, s0, d0, L0, hx, ha, h => by
    have ih := data_slots_start_ge r
    cases σ with
    | start =>
      simp only [data_slots] at h
      split at h
      · exact ih _ a _ _ _ _ (fun _ h => by cases h) (by omega) h
      · split at h
        · exact ih _ a _ _ _ _ (fun _ h => by cases h) (by omega) h
        · split at h
          · exact ih _ a _ _ _ _ (fun _ h => by cases h) (by omega) h
          · exact ih _ a _ _ _ _ (fun _ h => by cases h) (by omega) h
    | skip =>
      simp only [data_slots] at h
      split at h
      · exact ih _ a _ _ _ _ (fun _ h => by cases h) (by omega) h
      · exact ih _ a _ _ _ _ (fun _ h => by cases h) (by omega) h
    | after_data =>
      simp only [data_slots] at h
      split at h
      · exact ih _ a _ _ _ _ (fun _ h => by cases h) (by omega) h
      · split at h
        · exact ih _ a _ _ _ _ (fun _ h => by cases h) (by omega) h
        · split at h
          · simp only [List.cons.injEq, Prod.mk.injEq] at h
            rw [← h.1.1]; exact ha
          · exact ih _ a _ _ _ _ (fun x h => by cases h; exact ha) (by omega) h
    | item x =>
      have := hx x rfl
      simp only [data_slots] at h
      split at h
      · simp only [List.cons.injEq, Prod.mk.injEq] at h
        rw [← h.1.1]; exact this
      · split at h
        · simp only [List.cons.injEq, Prod.mk.injEq] at h
          rw [← h.1.1]; exact this
        · exact ih _ a _ _ _ _ (fun y h => by cases h; exact this) (by omega) h

/-- The DATA pointer behind the first item found in a line. -/
theorem cursor_of_slots {m : Mem} {bound : Nat} (t : List Nat) (σ : DataScan)
    (a s d : Nat) (L : List (Nat × Nat)) (post : List (Nat × List Nat))
    (hσ : ∀ s0, σ = .item s0 → s0 ≤ a) (ht : IsCStr m a t)
    (hrecs : RecsAt true m (a + t.length + 1) post)
    (h0 : m (a + t.length + 1 + prog_size post) = 0)
    (h1 : m (a + t.length + 1 + prog_size post + 1) = 0)
    (hb : a + t.length + 1 + prog_size post + 2 ≤ bound)
    (h : data_slots σ a t = (s, d) :: L) :
    CursorAt m bound d (L ++ program_slots (a + t.length + 1) post) ∧ s ≤ d ∧ a ≤ d ∧
      (∀ s0, σ = .item s0 → s = s0) := by
  obtain ⟨k, k1, k2, k3, k4, k5, k6⟩ := data_slots_first t σ a s d L hσ h
  have hl : (t.drop k).length = t.length - k := List.length_drop _ _
  have he : d + (t.drop k).length + 1 = a + t.length + 1 := by omega
  refine ⟨⟨t.drop k, post, by rw [k2]; exact IsCStr_drop k t a k1 ht, k3, by rw [he]; exact hrecs,
    by rw [he]; exact h0, by rw [he]; exact h1, by rw [he]; exact hb, by rw [he, k4]⟩, k5,
    by omega, k6⟩

/-- The DATA pointer behind the first item of the lines that follow. -/
theorem cursor_of_program_slots {m : Mem} {bound : Nat} :
    ∀ (post : List (Nat × List Nat)) (a s d : Nat) (L : List (Nat × Nat)),
    RecsAt true m a post → m (a + prog_size post) = 0 → m (a + prog_size post + 1) = 0 →
    a + prog_size post + 2 ≤ bound → program_slots a post = (s, d) :: L →
    CursorAt m bound d L ∧ s ≤ d ∧ a ≤ s
  | [], _, _, _, _, _, _, _, _, h => by simp [program_slots] at h
  | (ln, body) :: rest, a, s, d, L, hrecs, h0, h1, hb, h => by
    simp only [RecsAt, if_true] at hrecs
    obtain ⟨_, _, _, _, hbody, hrest⟩ := hrecs
    simp only [prog_size] at h0 h1 hb
    simp only [program_slots] at h
    have e0 : m (a + 5 + body.length + prog_size rest) = 0 := by rw [← h0]; congr 1; omega
    have e1 : m (a + 5 + body.length + prog_size rest + 1) = 0 := by rw [← h1]; congr 1; omega
    cases hd : data_slots .start (a + 4) body with
    | nil =>
      rw [hd, List.nil_append] at h
      obtain ⟨c1, c2, c3⟩ := @cursor_of_program_slots m bound rest (a + 5 + body.length) s d L
        hrest e0 e1 (by omega) h
      exact ⟨c1, c2, Nat.le_trans (by omega) c3⟩
    | cons sd L1 =>
      obtain ⟨s1, d1⟩ := sd
      rw [hd, List.cons_append, List.cons.injEq, Prod.mk.injEq] at h
      obtain ⟨⟨rfl, rfl⟩, rfl⟩ := h
      have he : a + 4 + body.length + 1 = a + 5 + body.length := by omega
      obtain ⟨c1, c2, c3, _⟩ := @cursor_of_slots m bound body .start (a + 4) s1 d1
        L1 rest (fun _ h => by cases h) hbody (by rw [he]; exact hrest) (by rw [he]; exact e0)
        (by rw [he]; exact e1) (by omega) hd
      rw [he] at c1
      refine ⟨c1, c2, ?_⟩
      exact data_slots_start_ge body .start a (a + 4) s1 d1 L1 (fun _ h => by cases h) (by omega) hd

/-- The DATA pointer moves behind the item it reads: when the items ahead of
the pointer `p` are `(s, d) :: L`, the pointer `d` has the items `L` ahead;
behind a comma the item starts at the next byte, and otherwise the pointer is
at the end of a statement or of a line. -/
theorem CursorAt.next {m : Mem} {bound p s d : Nat} {L : List (Nat × Nat)}
    (h : CursorAt m bound p ((s, d) :: L)) :
    CursorAt m bound d L ∧ s ≤ d ∧ p < s ∧ d < bound ∧ (m p = 44 → s = p + 1) ∧
      (m p = 44 ∨ m p = 0 ∨ m p = 58) := by
  obtain ⟨r, post, hr, hhead, hrecs, h0, h1, hb, hL⟩ := h
  cases r with
  | nil =>
    simp only [IsCStr] at hr
    simp only [cursor_slots, List.nil_append, List.length_nil, Nat.add_zero] at hL hrecs h0 h1 hb
    obtain ⟨c1, c2, c3⟩ := cursor_of_program_slots post (p + 1) s d L hrecs h0 h1 hb hL.symm
    have hdb : d < bound := by
      obtain ⟨r2, post2, _, _, _, _, _, hb2, _⟩ := c1
      omega
    exact ⟨c1, c2, by omega, hdb, fun h => by rw [hr] at h; exact absurd h (by decide),
      Or.inr (Or.inl hr)⟩
  | cons c r' =>
    simp only [IsCStr] at hr
    simp only [List.length_cons] at hrecs h0 h1 hb hL
    have he : p + 1 + r'.length + 1 = p + (r'.length + 1) + 1 := by omega
    have key : ∀ (σ : DataScan), (∀ s0, σ = .item s0 → s0 = p + 1) →
        cursor_slots p (c :: r') = data_slots σ (p + 1) r' →
        CursorAt m bound d L ∧ s ≤ d ∧ p < s ∧ d < bound ∧ (∀ s0, σ = .item s0 → s = s0) := by
      intro σ hσ hcs
      rw [hcs] at hL
      cases hd : data_slots σ (p + 1) r' with
      | nil =>
        rw [hd, List.nil_append] at hL
        obtain ⟨c1, c2, c3⟩ := cursor_of_program_slots post _ s d L hrecs h0 h1 hb hL.symm
        have hdb : d < bound := by
          obtain ⟨r2, post2, _, _, _, _, _, hb2, _⟩ := c1
          omega
        refine ⟨c1, c2, by omega, hdb, fun s0 h0 => ?_⟩
        subst h0
        obtain ⟨d', L', h'⟩ := data_slots_item r' s0 (p + 1)
        rw [h'] at hd
        cases hd
      | cons sd L1 =>
        obtain ⟨s1, d1⟩ := sd
        rw [hd, List.cons_append, List.cons.injEq, Prod.mk.injEq] at hL
        obtain ⟨⟨rfl, rfl⟩, rfl⟩ := hL
        obtain ⟨c1, c2, c3, c4⟩ := @cursor_of_slots m bound r' σ (p + 1) s d
          L1 post (fun s0 h => by rw [hσ s0 h]) hr.2.2.2 (by rw [he]; exact hrecs)
          (by rw [he]; exact h0) (by rw [he]; exact h1) (by omega) hd
        rw [he] at c1
        have hdb : d < bound := by
          obtain ⟨r2, post2, _, _, _, _, _, hb2, _⟩ := c1
          omega
        have hps := data_slots_start_ge r' σ (p + 1) (p + 1) s d L1
          (fun x h => by rw [hσ x h]) (Nat.le_refl _) hd
        exact ⟨c1, c2, by omega, hdb, c4⟩
    rcases hhead c rfl with rfl | rfl
    · obtain ⟨k1, k2, k3, k4, k5⟩ := key (.item (p + 1)) (fun s0 h => by cases h; rfl) rfl
      exact ⟨k1, k2, k3, k4, fun _ => k5 _ rfl, Or.inl hr.1⟩
    · obtain ⟨k1, k2, k3, k4, _⟩ := key .start (fun s0 h => by cases h) rfl
      exact ⟨k1, k2, k3, k4, fun h => by rw [hr.1] at h; exact absurd h (by decide),
        Or.inr (Or.inr hr.1)⟩

/-! ## The arena over the calls made by READ -/

theorem SameOutside.same (s : BASIC_MEM_MGR) : SameOutside s s :=
  ⟨rfl, rfl, rfl, fun _ _ => rfl⟩

theorem SameOutside.trans {s t u : BASIC_MEM_MGR} (h1 : SameOutside s t)
    (h2 : SameOutside t u) : SameOutside s u := by
  obtain ⟨a1, a2, a3, a4⟩ := h1
  obtain ⟨b1, b2, b3, b4⟩ := h2
  exact ⟨b1.trans a1, b2.trans a2, b3.trans a3, fun x hx => by
    rw [b4 x (by rw [a1, a2]; exact hx), a4 x hx]⟩

/-- The evaluator on a text outside the area of the variables and of the stack:
it returns, and the arena is in order after the call as it was before. -/
theorem expression_frame (P : FPU) (fuel p e : Nat) (out : F32) (s : BASIC_MEM_MGR)
    (seed : Nat) (hi : ArenaInv s) (hpe : p ≤ e) (h0 : s.base e = 0)
    (hout : e < s.vars_idx ∨ s.stktop_idx ≤ p) (hf : 5 * (e - p) + 3 ≤ fuel) :
    ∃ r p1 o m1 sd, basic_parsing_expression P fuel p out s seed = .ret r p1 o m1 sd ∧
      ArenaInv m1 ∧ SameOutside s m1 ∧ p ≤ p1 ∧ p1 ≤ e := by
  obtain ⟨⟨o1, o2, o3, o4, o5⟩, h6, ha⟩ := hi
  obtain ⟨r, p1, o, m1, sd, e1, f1, f2, f3, f4, f5, f6, f7, f8, f9⟩ :=
    expression_returns P fuel p e out s seed ⟨o1, o2, o3, o4, o5⟩ hpe h0
      (by omega) hf
  refine ⟨r, p1, o, m1, sd, e1, ⟨⟨?_, ?_, ?_, ?_, ?_⟩, ?_, f8 ha⟩, ⟨f2, f1, f4, ?_⟩, f9⟩
  · omega
  · omega
  · omega
  · omega
  · omega
  · rw [f2, f3]; exact h6
  · intro x hx
    exact f7 x (by omega)

theorem lookup_var_loop_bound (pb : Mem) (array_idx var : Nat) : ∀ (n idx : Nat) {r : Nat},
    (array_idx - idx) % 6 = 0 → lookup_var_loop pb array_idx var n idx = some r →
    idx + 2 ≤ r ∧ r + 4 ≤ array_idx
  | 0, _, _, _, h => by simp [lookup_var_loop] at h
  | n + 1, idx, r, h6, h => by
    simp only [lookup_var_loop, sizeof_VARIABLE_ENTRY] at h
    by_cases hlt : idx < array_idx
    · rw [if_pos hlt] at h
      by_cases hv : var = le16 (pb idx) (pb (idx + 1))
      · rw [if_pos hv] at h
        cases h
        omega
      · rw [if_neg hv] at h
        have := lookup_var_loop_bound pb array_idx var n (idx + 6) (by omega) h
        omega
    · rw [if_neg hlt] at h
      cases h

theorem ArraysAt_shift {m m1 : Mem} (k : Nat) : ∀ (arrs : List (Nat × Nat)) (a : Nat),
    (∀ x, a ≤ x → x < a + arrays_size arrs → m1 (x + k) = m x) → ArraysAt m a arrs →
    ArraysAt m1 (a + k) arrs
  | [], _, _, _ => trivial
  | (n, bs) :: rest, a, h, hw => by
    simp only [ArraysAt, arrays_size, sizeof_ARRAY_VARIABLE_HEADER] at hw h ⊢
    have e1 : a + k + 1 = a + 1 + k := by omega
    have e2 : a + k + 2 = a + 2 + k := by omega
    have e3 : a + k + 3 = a + 3 + k := by omega
    have e4 : a + k + 4 + bs = a + 4 + bs + k := by omega
    rw [e1, e2, e3, e4, h a (by omega) (by omega), h (a + 1) (by omega) (by omega),
      h (a + 2) (by omega) (by omega), h (a + 3) (by omega) (by omega)]
    exact ⟨hw.1, hw.2.1, ArraysAt_shift k rest _ (fun x h1 h2 => h x (by omega) (by omega))
      hw.2.2⟩

/-- `variable_storage_create_var` keeps the arena in order, and the pointer it
returns is that of the value of a scalar record. -/
theorem create_var_frame (s : BASIC_MEM_MGR) (var : Nat) (hv : var < 65536)
    (hi : ArenaInv s) :
    ArenaInv (variable_storage_create_var s var).2 ∧
    SameOutside s (variable_storage_create_var s var).2 ∧
    ∀ pval, (variable_storage_create_var s var).1 = some pval →
      ValueAt (variable_storage_create_var s var).2 pval := by
  obtain ⟨ho, h6, ha⟩ := hi
  obtain ⟨o1, o2, o3, o4, o5⟩ := ho
  by_cases hm : var ∈ scalar_region s
  · have hl := lookup_var_spec s var o1 h6
    rw [if_pos hm] at hl
    have hb := lookup_var_loop_bound s.base s.array_idx var _ _ h6 hl
    simp only [variable_storage_create_var, hl]
    exact ⟨⟨⟨o1, o2, o3, o4, o5⟩, h6, ha⟩, SameOutside.same s, fun pval hp => by
      cases hp
      exact Or.inl ⟨by omega, by omega⟩⟩
  · rw [create_var_absent s var ⟨o1, o2, o3, o4, o5⟩ h6 hm]
    by_cases hs : s.stktop_idx - s.free_idx < 6
    · rw [if_pos hs]
      exact ⟨⟨⟨o1, o2, o3, o4, o5⟩, h6, ha⟩, SameOutside.same s, fun pval hp => by cases hp⟩
    · rw [if_neg hs]
      obtain ⟨m1, m2, m3, m4⟩ := create_var_mem s.base s.array_idx s.free_idx var o2
        (by omega) hv
      obtain ⟨arrs, ⟨hat, hsz⟩, h4⟩ := ha
      refine ⟨⟨⟨?_, ?_, ?_, o4, o5⟩, ?_, arrs, ⟨?_, ?_⟩, h4⟩, ⟨rfl, rfl, rfl, ?_⟩, ?_⟩
      · show s.vars_idx ≤ s.array_idx + 6
        omega
      · show s.array_idx + 6 ≤ s.free_idx + 6
        omega
      · show s.free_idx + 6 ≤ s.stktop_idx
        omega
      · show (s.array_idx + 6 - s.vars_idx) % 6 = 0
        omega
      · exact ArraysAt_shift 6 arrs s.array_idx (fun x h1 h2 => m3 x h1 (by omega)) hat
      · show s.array_idx + 6 + arrays_size arrs = s.free_idx + 6
        omega
      · intro x hx
        rcases hx with hx | hx
        · exact m2 x (by omega)
        · exact m4 x (by omega)
      · intro pval hp
        cases hp
        exact Or.inl ⟨by show s.vars_idx ≤ s.array_idx + 2; omega, Nat.le_refl _⟩

theorem array_offset_split {var : Nat} : ∀ (arrs : List (Nat × Nat)) (a : Nat) {off bs : Nat},
    array_offset var arrs a = some (off, bs) →
    ∃ l1 n l2, arrs = l1 ++ (n, bs) :: l2 ∧ off = a + arrays_size l1
  | [], _, _, _, h => by simp [array_offset] at h
  | (n, b) :: rest, a, off, bs, h => by
    simp only [array_offset] at h
    by_cases hv : n = var
    · rw [if_pos hv] at h
      simp only [Option.some.injEq, Prod.mk.injEq] at h
      exact ⟨[], n, rest, by rw [h.2]; rfl, by rw [← h.1]; rfl⟩
    · rw [if_neg hv] at h
      obtain ⟨l1, n1, l2, e1, e2⟩ := array_offset_split rest _ h
      refine ⟨(n, b) :: l1, n1, l2, by rw [e1]; rfl, ?_⟩
      rw [e2]
      simp only [arrays_size]
      omega

/-- `variable_storage_create_array_var` on a reference to an element keeps the
arena in order, and the pointer it returns is inside the block of a record. -/
theorem create_array_frame (s : BASIC_MEM_MGR) (var sub : Nat) (hi : ArenaInv s) :
    ArenaInv (variable_storage_create_array_var s var sub false).2.2 ∧
    SameOutside s (variable_storage_create_array_var s var sub false).2.2 ∧
    ((variable_storage_create_array_var s var sub false).1 = .OK →
      ValueAt (variable_storage_create_array_var s var sub false).2.2
        (variable_storage_create_array_var s var sub false).2.1) := by
  obtain ⟨ho, h6, ha⟩ := hi
  obtain ⟨o1, o2, o3, o4, o5⟩ := ho
  have hinv : ArenaInv s := ⟨⟨o1, o2, o3, o4, o5⟩, h6, ha⟩
  obtain ⟨arrs, hw, h4⟩ := ha
  unfold variable_storage_create_array_var
  rw [lookup_array_spec s var arrs hw]
  cases hoff : array_offset var arrs s.array_idx with
  | some ob =>
    obtain ⟨off, bs⟩ := ob
    obtain ⟨b1, b2, b3, b4⟩ := array_offset_block arrs s.array_idx hw.1 hoff
    obtain ⟨l1, n, l2, e1, e2⟩ := array_offset_split arrs s.array_idx hoff
    simp only [Option.map_some', Bool.false_eq_true, if_false, b1, sizeof_VARIABLE_VALUE,
      sizeof_ARRAY_VARIABLE_HEADER]
    by_cases hsub : sub * 4 ≥ bs
    · rw [if_pos hsub]
      exact ⟨hinv, SameOutside.same s, fun h => by cases h⟩
    · rw [if_neg hsub]
      refine ⟨hinv, SameOutside.same s, fun _ => Or.inr ⟨l1, n, bs, l2, by rw [← e1]; exact hw,
        by rw [← e1]; exact h4, ?_, ?_⟩⟩
      · show s.array_idx + arrays_size l1 + 4 ≤ off + 4 + 4 * sub
        omega
      · show off + 4 + 4 * sub + 4 ≤ s.array_idx + arrays_size l1 + 4 + bs
        have := h4 (n, bs) (by rw [e1]; simp)
        simp only at this
        omega
  | none =>
    simp only [Option.map_none', Bool.false_eq_true, if_false, true_and]
    by_cases h10 : sub > 10
    · rw [if_pos h10]
      exact ⟨hinv, SameOutside.same s, fun h => by cases h⟩
    · rw [if_neg h10]
      have hu : usub s.stktop_idx s.free_idx = s.stktop_idx - s.free_idx :=
        usub_eq (by simp only [UINT] at *; omega) o3
      have hnb : u32 ((10 + 1) * sizeof_VARIABLE_VALUE) = 44 := by decide
      have hsz : u32 (44 + sizeof_ARRAY_VARIABLE_HEADER) = 48 := by decide
      simp only [hnb, hsz, basic_mem_check_space, hu, decide_eq_false_iff_not, Nat.not_le]
      by_cases hg : s.stktop_idx - s.free_idx < 48
      · rw [if_pos hg]
        exact ⟨hinv, SameOutside.same s, fun h => by cases h⟩
      · rw [if_neg hg]
        have hfree : u32 (s.free_idx + (44 + sizeof_ARRAY_VARIABLE_HEADER)) =
            s.free_idx + 48 :=
          u32_eq (by simp only [UINT, sizeof_ARRAY_VARIABLE_HEADER] at *; omega)
        have hsame : ∀ x, x < s.free_idx ∨ s.free_idx + 48 ≤ x →
            memset0 (mem_write16 (mem_write16 s.base s.free_idx var) (s.free_idx + 2)
              (44 % 65536)) (s.free_idx + sizeof_ARRAY_VARIABLE_HEADER) 44 x = s.base x := by
          intro x hx
          simp only [memset0, sizeof_ARRAY_VARIABLE_HEADER]
          rw [if_neg (by omega), mem_write16_other _ _ _ _ (by omega),
            mem_write16_other _ _ _ _ (by omega)]
        have hhd : le16 (memset0 (mem_write16 (mem_write16 s.base s.free_idx var)
              (s.free_idx + 2) (44 % 65536)) (s.free_idx + sizeof_ARRAY_VARIABLE_HEADER) 44
              (s.free_idx + 2))
            (memset0 (mem_write16 (mem_write16 s.base s.free_idx var)
              (s.free_idx + 2) (44 % 65536)) (s.free_idx + sizeof_ARRAY_VARIABLE_HEADER) 44
              (s.free_idx + 2 + 1)) = 44 := by
          simp only [memset0, sizeof_ARRAY_VARIABLE_HEADER]
          rw [if_neg (by omega), if_neg (by omega)]
          exact mem_write16_read _ _ _ (by decide)
        have hwf : ArraysWF { s with
            base := memset0 (mem_write16 (mem_write16 s.base s.free_idx var) (s.free_idx + 2)
              (44 % 65536)) (s.free_idx + sizeof_ARRAY_VARIABLE_HEADER) 44
            free_idx := u32 (s.free_idx + (44 + sizeof_ARRAY_VARIABLE_HEADER)) }
            (arrs ++ [(le16 (memset0 (mem_write16 (mem_write16 s.base s.free_idx var)
              (s.free_idx + 2) (44 % 65536)) (s.free_idx + sizeof_ARRAY_VARIABLE_HEADER) 44
              s.free_idx) (memset0 (mem_write16 (mem_write16 s.base s.free_idx var)
              (s.free_idx + 2) (44 % 65536)) (s.free_idx + sizeof_ARRAY_VARIABLE_HEADER) 44
              (s.free_idx + 1)), 44)]) := by
          constructor
          · show ArraysAt _ s.array_idx _
            rw [ArraysAt_append, hw.2]
            exact ⟨ArraysAt_congr arrs _ (fun x _ h2 => hsame x (by
              have := hw.2
              omega)) hw.1, rfl, hhd, trivial⟩
          · show s.array_idx + _ = u32 _
            rw [hfree, arrays_size_append]
            simp only [arrays_size, sizeof_ARRAY_VARIABLE_HEADER]
            have := hw.2
            omega
        have h4' : ∀ x ∈ arrs ++ [(le16 (memset0 (mem_write16 (mem_write16 s.base s.free_idx var)
              (s.free_idx + 2) (44 % 65536)) (s.free_idx + sizeof_ARRAY_VARIABLE_HEADER) 44
              s.free_idx) (memset0 (mem_write16 (mem_write16 s.base s.free_idx var)
              (s.free_idx + 2) (44 % 65536)) (s.free_idx + sizeof_ARRAY_VARIABLE_HEADER) 44
              (s.free_idx + 1)), 44)], x.2 % 4 = 0 := by
          intro x hx
          rcases List.mem_append.1 hx with hx | hx
          · exact h4 x hx
          · simp only [List.mem_singleton] at hx
            rw [hx]
            show 44 % 4 = 0
            decide
        refine ⟨⟨⟨o1, ?_, ?_, o4, o5⟩, h6, _, hwf, h4'⟩, ⟨rfl, rfl, rfl, ?_⟩, fun _ =>
          Or.inr ⟨arrs, _, 44, [], hwf, h4', ?_, ?_⟩⟩
        · show s.array_idx ≤ u32 _
          rw [hfree]; omega
        · show u32 _ ≤ s.stktop_idx
          rw [hfree]; omega
        · intro x hx
          exact hsame x (by omega)
        · show s.array_idx + arrays_size arrs + 4 ≤
            s.free_idx + sizeof_ARRAY_VARIABLE_HEADER + 4 * sub
          have := hw.2
          simp only [sizeof_ARRAY_VARIABLE_HEADER]
          omega
        · show s.free_idx + sizeof_ARRAY_VARIABLE_HEADER + 4 * sub + 4 ≤
            s.array_idx + arrays_size arrs + 4 + 44
          have := hw.2
          simp only [sizeof_ARRAY_VARIABLE_HEADER]
          omega

/-- A store through a pointer to a value keeps the arena in order. -/
theorem store_frame (s : BASIC_MEM_MGR) (pval : Nat) (val : F32) (hi : ArenaInv s)
    (hp : ValueAt s pval) :
    ArenaInv { s with base := mem_write_list s.base pval (f32_bytes val) } ∧
    SameOutside s { s with base := mem_write_list s.base pval (f32_bytes val) } := by
  obtain ⟨ho, h6, ha⟩ := hi
  obtain ⟨o1, o2, o3, o4, o5⟩ := ho
  have hother : ∀ x, x < pval ∨ pval + 4 ≤ x →
      mem_write_list s.base pval (f32_bytes val) x = s.base x := fun x hx =>
    mem_write_list_other _ _ _ _ (by rw [f32_bytes_length]; exact hx)
  rcases hp with ⟨p1, p2⟩ | ⟨l1, n, bs, l2, hw, h4, p1, p2⟩
  · obtain ⟨arrs, hw, h4⟩ := ha
    refine ⟨⟨⟨o1, o2, o3, o4, o5⟩, h6, arrs, ⟨?_, hw.2⟩, h4⟩, rfl, rfl, rfl, fun x hx =>
      hother x (by omega)⟩
    exact ArraysAt_congr arrs s.array_idx (fun x h1 _ => hother x (by omega)) hw.1
  · have hsz := hw.2
    rw [arrays_size_append] at hsz
    simp only [arrays_size, sizeof_ARRAY_VARIABLE_HEADER] at hsz
    refine ⟨⟨⟨o1, o2, o3, o4, o5⟩, h6, l1 ++ (n, bs) :: l2, ⟨?_, hw.2⟩, h4⟩, rfl, rfl, rfl,
      fun x hx => hother x (by omega)⟩
    have hat := hw.1
    show ArraysAt _ s.array_idx _
    rw [ArraysAt_append] at hat ⊢
    obtain ⟨a1, a2, a3, a4⟩ := hat
    simp only [sizeof_ARRAY_VARIABLE_HEADER] at a4
    refine ⟨ArraysAt_congr l1 s.array_idx (fun x _ h2 => hother x (by omega)) a1, ?_, ?_, ?_⟩
    · show le16 (mem_write_list _ _ _ _) (mem_write_list _ _ _ _) = n
      rw [hother _ (by omega), hother _ (by omega)]
      exact a2
    · show le16 (mem_write_list _ _ _ _) (mem_write_list _ _ _ _) = bs
      rw [hother _ (by omega), hother _ (by omega)]
      exact a3
    · simp only [sizeof_ARRAY_VARIABLE_HEADER]
      exact ArraysAt_congr l2 _ (fun x h1 _ => hother x (by omega)) a4

theorem SameOutside.same_text {s t : BASIC_MEM_MGR} (h : SameOutside s t) {p e q : Nat}
    (h0 : s.base e = 0) (hout : e < s.vars_idx ∨ s.stktop_idx ≤ p) (hpq : p ≤ q)
    (hqe : q ≤ e) : SameText s.base t.base q e :=
  ⟨hqe, h0, fun x h1 h2 => h.2.2.2 x (by omega)⟩

/-- `basic_parsing_arrayindex` on a text outside the area of the variables and
of the stack: it returns, and the arena is in order after the call. -/
theorem arrayindex_frame (P : FPU) (fuel p e out : Nat) (s : BASIC_MEM_MGR) (seed : Nat)
    (hi : ArenaInv s) (hpe : p < e) (h0 : s.base e = 0)
    (hout : e < s.vars_idx ∨ s.stktop_idx ≤ p) (hf : 5 * (e - p) + 3 ≤ fuel) :
    ∃ r p1 sub m1 sd, basic_parsing_arrayindex P fuel p out s seed = .ret (r, p1, sub, m1, sd) ∧
      ArenaInv m1 ∧ SameOutside s m1 ∧ (r = .OK → p < p1 ∧ p1 ≤ e) := by
  obtain ⟨r, p1, o, m1, sd, e1, i1, s1, b1, b2⟩ := expression_frame P fuel (p + 1) e 0 s seed hi
    (by omega) h0 (by omega) (by omega)
  unfold basic_parsing_arrayindex
  rw [e1]
  dsimp only
  by_cases hr : r = .OK
  · rw [if_neg (by simpa using hr)]
    by_cases hrange : (P.lt o 0).1 = true ∨ (P.lt f32_32767 o).1 = true
    · rw [if_pos hrange]
      exact ⟨_, _, _, _, _, rfl, i1, s1, fun h => by cases h⟩
    · rw [if_neg hrange]
      have ht := s1.same_text h0 hout (show p ≤ p1 by omega) b2
      obtain ⟨q, q1, q2, q3, q4, _⟩ := skipws_text fuel p1 ht (by omega)
      rw [q2]
      dsimp only
      rw [(ht.mono q q3 q4).at]
      by_cases h41 : s.base q = 41
      · rw [if_neg (by simpa using h41)]
        have hlt : q < e := (ht.mono q q3 q4).lt (by rw [h41]; decide)
        exact ⟨_, _, _, _, _, rfl, i1, s1, fun _ => ⟨by omega, by omega⟩⟩
      · rw [if_pos h41]
        exact ⟨_, _, _, _, _, rfl, i1, s1, fun h => by cases h⟩
  · rw [if_pos hr]
    exact ⟨_, _, _, _, _, rfl, i1, s1, fun h => absurd h hr⟩

/-- `basic_parsing_variable_ref` on a text outside the area of the variables
and of the stack: it returns, the arena is in order after the call, and when
the result is OK the parse pointer has moved on and the pointer passed back is
that of a value. -/
theorem variable_ref_frame (P : FPU) (fuel p e vn0 : Nat) (s : BASIC_MEM_MGR) (seed : Nat)
    (hi : ArenaInv s) (hpe : p ≤ e) (h0 : s.base e = 0)
    (hout : e < s.vars_idx ∨ s.stktop_idx ≤ p) (hf : 5 * (e - p) + 3 ≤ fuel) :
    ∃ g, basic_parsing_variable_ref P fuel p vn0 s seed = .ret g ∧ ArenaInv g.mem ∧
      SameOutside s g.mem ∧
      (g.r = .OK → p < g.parse_ptr ∧ g.parse_ptr ≤ e ∧ ValueAt g.mem g.pval) := by
  have ht0 : SameText s.base s.base p e := SameText.refl hpe h0
  obtain ⟨⟨pr, p1, vn⟩, v1, _, v3, v4, v5, v6⟩ := varname_text fuel p 0 ht0 (by omega)
  simp only at v3 v4 v5 v6
  have hvn := varname_vn_lt v1
  unfold basic_parsing_variable_ref get_variable
  rw [v1]
  dsimp only
  by_cases hr : pr = .OK
  · subst hr
    rw [if_neg (by simp)]
    by_cases h40 : s.base p1 = 40
    · rw [if_pos h40]
      have hlt : p1 < e := (ht0.mono p1 v3 v4).lt (by rw [h40]; decide)
      obtain ⟨r, p2, sub, m1, sd, e1, i1, s1, b1⟩ := arrayindex_frame P fuel p1 e 0 s seed hi
        hlt h0 (by omega) (by omega)
      rw [e1]
      dsimp only
      by_cases hnf : r = .NOT_FOUND
      · rw [if_pos hnf]
        exact ⟨_, rfl, i1, s1, fun h => by cases h⟩
      · rw [if_neg hnf]
        by_cases hok : r = .OK
        · rw [if_neg (by simpa using hok)]
          obtain ⟨c1, c2, c3⟩ := create_array_frame m1 vn sub i1
          obtain ⟨b2, b3⟩ := b1 hok
          have s2 := s1.trans c2
          generalize variable_storage_create_array_var m1 vn sub false = res at c1 c2 c3 s2
          obtain ⟨pr2, pval, mem2⟩ := res
          dsimp only at c1 c2 c3 s2 ⊢
          by_cases hok2 : pr2 = .OK
          · rw [if_neg (by simpa using hok2)]
            have ht := s2.same_text h0 hout (show p ≤ p2 by omega) b3
            obtain ⟨q, q1, q2, q3, q4, _⟩ := skipws_text fuel p2 ht (by omega)
            rw [q2]
            exact ⟨_, rfl, c1, s2, fun _ => ⟨by show p < q; omega, q4, c3 hok2⟩⟩
          · rw [if_pos hok2]
            exact ⟨_, rfl, c1, s2, fun h => absurd h hok2⟩
        · rw [if_pos hok]
          exact ⟨_, rfl, i1, s1, fun h => absurd h hok⟩
    · rw [if_neg h40]
      simp only [if_true]
      obtain ⟨c1, c2, c3⟩ := create_var_frame s vn hvn hi
      generalize variable_storage_create_var s vn = res at c1 c2 c3
      obtain ⟨opt, mem1⟩ := res
      dsimp only at c1 c2 c3 ⊢
      cases opt with
      | none => exact ⟨_, rfl, c1, c2, fun h => by cases h⟩
      | some pval =>
        dsimp only
        have ht := c2.same_text h0 hout v3 v4
        obtain ⟨q, q1, q2, q3, q4, _⟩ := skipws_text fuel p1 ht (by omega)
        rw [q2]
        have := (v5 rfl).1
        exact ⟨_, rfl, c1, c2, fun _ => ⟨by show p < q; omega, q4, c3 pval rfl⟩⟩
  · rw [if_pos hr]
    exact ⟨_, rfl, hi, SameOutside.same s, fun h => absurd h hr⟩

/-! ## The data pointer as a cursor in the list of DATA items -/

theorem CursorAt.congr {m m1 : Mem} {bound p : Nat} {L : List (Nat × Nat)}
    (h : CursorAt m bound p L) (hm : ∀ x, x < bound → m1 x = m x) : CursorAt m1 bound p L := by
  obtain ⟨r, post, hr, hhead, hrecs, h0, h1, hb, hL⟩ := h
  refine ⟨r, post, IsCStr_congr r p (fun a _ _ => hm a (by omega)) hr, hhead,
    RecsAt_congr true post _ (fun x _ _ => hm x (by omega)) hrecs, ?_, ?_, hb, hL⟩
  · rw [hm _ (by omega)]; exact h0
  · rw [hm _ (by omega)]; exact h1

theorem CursorAt.nul {m : Mem} {bound p : Nat} {L : List (Nat × Nat)}
    (h : CursorAt m bound p L) : ∃ e, p ≤ e ∧ m e = 0 ∧ e < bound := by
  obtain ⟨r, post, hr, _, _, _, _, hb, _⟩ := h
  exact ⟨p + r.length, by omega, IsCStr_nul r p hr, by omega⟩

theorem CursorAt.nil_ne {m : Mem} {bound p : Nat} (h : CursorAt m bound p []) : m p ≠ 44 := by
  obtain ⟨r, post, hr, _, _, _, _, _, hL⟩ := h
  cases r with
  | nil =>
    simp only [IsCStr] at hr
    rw [hr]; decide
  | cons c r' =>
    simp only [IsCStr] at hr
    rw [hr.1]
    intro hc
    subst hc
    obtain ⟨d, L1, h1⟩ := data_slots_item r' (p + 1) (p + 1)
    have : cursor_slots p (44 :: r') = (p + 1, d) :: L1 := by
      simp only [cursor_slots, if_true, h1]
    rw [this] at hL
    cases hL

/-- The search for the next item from a cursor: it ends at the first item
ahead. -/
theorem seek_cursor {bs : BASIC_MAIN_STATE} {p s d : Nat} {L : List (Nat × Nat)} (fuel : Nat)
    (h : CursorAt bs.prog.base bs.prog.vars_idx p ((s, d) :: L))
    (hf : bs.prog.vars_idx ≤ fuel) :
    ∃ ip fd dl, read_input_seek true fuel bs p false =
        .ret (.OK, ip, fd, { bs with data_line := dl }) ∧
      (if fd then ip else ip + 1) = s ∧ (fd = false → bs.prog.base ip = 44) := by
  obtain ⟨_, _, _, _, h44, _⟩ := h.next
  obtain ⟨r, post, hr, hhead, hrecs, h0, h1, hb, hL⟩ := h
  by_cases hc : bs.prog.base p = 44
  · obtain ⟨n, rfl⟩ : ∃ n, fuel = n + 1 := ⟨fuel - 1, by omega⟩
    refine ⟨p, false, bs.data_line, ?_, by simp only [Bool.false_eq_true, if_false]; exact (h44 hc).symm,
      fun _ => hc⟩
    simp only [read_input_seek, hc]
    simp
  · have hhead1 : ∀ c, r.head? = some c → c = 58 := by
      intro c hcr
      rcases hhead c hcr with h | h
      · cases r with
        | nil => cases hcr
        | cons c' r' =>
          simp only [List.head?_cons, Option.some.injEq] at hcr
          simp only [IsCStr] at hr
          rw [hr.1, hcr, h] at hc
          exact absurd rfl hc
      · exact h
    have hs := seek_spec fuel bs p r post false rfl hr hhead1 hrecs h0 h1 (by omega)
    rw [← hL] at hs
    obtain ⟨dl, e1⟩ := hs
    exact ⟨s, true, dl, e1, by simp only [if_true], fun h => by cases h⟩

theorem seek_cursor_nil {bs : BASIC_MAIN_STATE} {p : Nat} (fuel : Nat)
    (h : CursorAt bs.prog.base bs.prog.vars_idx p []) (hf : bs.prog.vars_idx ≤ fuel) :
    ∃ ip fd dl, read_input_seek true fuel bs p false =
      .ret (.OUT_OF_DATA, ip, fd, { bs with data_line := dl }) := by
  have hc := h.nil_ne
  obtain ⟨r, post, hr, hhead, hrecs, h0, h1, hb, hL⟩ := h
  have hhead1 : ∀ c, r.head? = some c → c = 58 := by
    intro c hcr
    rcases hhead c hcr with h | h
    · cases r with
      | nil => cases hcr
      | cons c' r' =>
        simp only [List.head?_cons, Option.some.injEq] at hcr
        simp only [IsCStr] at hr
        rw [hr.1, hcr, h] at hc
        exact absurd rfl hc
    · exact h
  have hs := seek_spec fuel bs p r post false rfl hr hhead1 hrecs h0 h1 (by omega)
  rw [← hL] at hs
  exact hs

/-- The loop of `read_input_common` in a READ, from a cursor in the list of the
items: whenever the READ of the specification has a result, the code returns
it, up to the line number kept for error messages. -/
theorem read_loop_spec (P : FPU) (e : Nat) : ∀ (fuel : Nat) (bs : BASIC_MAIN_STATE) (ip : Nat)
    (L0 L : List (Nat × Nat)) (first : Bool) (dl : Nat)
    (res : BASIC_ERROR_ID × BASIC_MAIN_STATE × List (Nat × Nat)),
    ArenaInv bs.prog → CursorAt bs.prog.base bs.prog.vars_idx ip L →
    bs.parse_ptr ≤ e → bs.prog.base e = 0 →
    (e < bs.prog.vars_idx ∨ bs.prog.stktop_idx ≤ bs.parse_ptr) →
    5 * bs.prog.vars_idx + 6 * (e - bs.parse_ptr) + 4 ≤ fuel →
    read_ref P fuel { bs with data_line := dl } L0 L first = some res →
    ∃ b, read_input_loop P true fuel bs ip first false = .ret (res.1, b) ∧
      res.2.1 = { b with data_line := dl } ∧ ArenaInv b.prog ∧ SameOutside bs.prog b.prog ∧
      (res.1 = .OK → CursorAt b.prog.base b.prog.vars_idx b.data_ptr res.2.2) ∧
      (res.1 ≠ .OK → b.data_ptr = bs.data_ptr ∧ res.2.2 = L0)
  | 0, _, _, _, _, _, _, _, _, _, _, _, _, _, href => by simp [read_ref] at href
  | n + 1, bs, ip, L0, [], first, dl, res, hi, hcur, hpe, h0, hout, hf, href => by
    simp only [read_ref, Option.some.injEq] at href
    subst href
    obtain ⟨ip1, fd, dl1, e1⟩ := seek_cursor_nil n hcur (by omega)
    refine ⟨{ bs with data_line := dl1 }, ?_, rfl, hi, SameOutside.same _, ?_, ?_⟩
    · simp only [read_input_loop, e1]
      simp
    · intro h; cases h
    · intro _; exact ⟨rfl, rfl⟩
  | n + 1, bs, ip, L0, (s, d) :: L, first, dl, res, hi, hcur, hpe, h0, hout, hf, href => by
    obtain ⟨hnext, hsd, hps, hdb, _, _⟩ := hcur.next
    obtain ⟨ip1, fd, dl1, e1, e2, e3⟩ := seek_cursor n hcur (by omega)
    obtain ⟨es, hes1, hes2, hes3⟩ := hnext.nul
    have ht0 : SameText bs.prog.base bs.prog.base bs.parse_ptr e := SameText.refl hpe h0
    simp only [read_input_loop, e1]
    simp only [read_ref] at href
    rw [if_neg (by simp)]
    by_cases hsep : first = false ∧ bs.prog.base bs.parse_ptr ≠ 44
    · rw [if_pos hsep] at href ⊢
      simp only [Option.some.injEq] at href
      subst href
      refine ⟨_, rfl, rfl, hi, SameOutside.same _, ?_, ?_⟩
      · intro h; cases h
      · intro _; exact ⟨rfl, rfl⟩
    · rw [if_neg hsep] at href ⊢
      -- the target pointer behind the separator
      have hpp : ∃ pp, (if first = true then some bs.parse_ptr
          else basic_parsing_skipws bs.prog.base n (bs.parse_ptr + 1)) = some pp ∧
          bs.parse_ptr ≤ pp ∧ pp ≤ e := by
        cases first with
        | true => exact ⟨_, rfl, Nat.le_refl _, hpe⟩
        | false =>
          have h44 : bs.prog.base bs.parse_ptr = 44 := by
            by_contra hne
            exact hsep ⟨rfl, hne⟩
          have hlt : bs.parse_ptr < e := ht0.lt (by rw [h44]; decide)
          obtain ⟨q, q1, _, q3, q4, _⟩ := skipws_text n (bs.parse_ptr + 1)
            (ht0.mono _ (by omega) hlt) (by omega)
          exact ⟨q, by simp only [Bool.false_eq_true, if_false]; exact q1, by omega, q4⟩
      obtain ⟨pp, hpp1, hpp2, hpp3⟩ := hpp
      rw [hpp1] at href ⊢
      dsimp only at href ⊢
      rw [if_neg (by
        intro hc
        exact hc.2 (e3 hc.1)), e2]
      -- the value of the item
      obtain ⟨r, p2, o, m1, sd, x1, i1, s1, b1, b2⟩ := expression_frame P n s es 0 bs.prog
        bs.seed hi (by omega) hes2 (Or.inl (by omega)) (by omega)
      simp only [bs_expression, x1] at href ⊢
      by_cases hnf : r = .NOT_FOUND
      · rw [if_pos hnf] at href ⊢
        simp only [Option.some.injEq] at href
        subst href
        refine ⟨_, rfl, by simp, i1, s1, ?_, ?_⟩
        · intro h; cases h
        · intro _; exact ⟨rfl, rfl⟩
      · rw [if_neg hnf] at href ⊢
        by_cases hok : r = .OK
        · subst hok
          rw [if_neg (by simp)] at href ⊢
          have hts := s1.same_text hes2 (Or.inl (by omega)) (Nat.le_refl s) (show s ≤ es by omega)
          obtain ⟨q, _, q2, q3, q4, _⟩ := skipws_text n p2 (hts.mono p2 b1 b2) (by omega)
          rw [q2] at href ⊢
          by_cases hqd : q = d
          · subst hqd
            rw [if_neg (by simp)] at href
            dsimp only at href ⊢
            -- the target
            have h0m : m1.base e = 0 := by rw [s1.2.2.2 e (by omega)]; exact h0
            obtain ⟨g, g1, g2, g3, g4⟩ := variable_ref_frame P n pp e 0 m1 sd i1 hpp3 h0m
              (by rw [s1.1, s1.2.1]; omega) (by omega)
            rw [g1] at href ⊢
            dsimp only at href ⊢
            by_cases hgnf : g.r = .NOT_FOUND
            · rw [if_pos hgnf] at href ⊢
              simp only [Option.some.injEq] at href
              subst href
              refine ⟨_, rfl, rfl, g2, s1.trans g3, ?_, ?_⟩
              · intro h; cases h
              · intro _; exact ⟨rfl, rfl⟩
            · rw [if_neg hgnf] at href ⊢
              by_cases hgok : g.r = .OK
              · rw [if_neg (by simpa using hgok)] at href ⊢
                obtain ⟨g5, g6, g7⟩ := g4 hgok
                obtain ⟨t1, t2⟩ := store_frame g.mem g.pval o g2 g7
                have s3 := (s1.trans g3).trans t2
                simp only [store_value] at href ⊢
                by_cases hmore : mem_write_list g.mem.base g.pval (f32_bytes o) g.parse_ptr ≠ 0 ∧
                    mem_write_list g.mem.base g.pval (f32_bytes o) g.parse_ptr ≠ 58
                · rw [if_pos hmore] at href ⊢
                  obtain ⟨b, c1, c2, c3, c4, c5, c6⟩ := read_loop_spec P e n
                    { bs with
                      parse_ptr := g.parse_ptr
                      prog := { g.mem with
                        base := mem_write_list g.mem.base g.pval (f32_bytes o) }
                      seed := g.seed, data_line := dl1 } q L0 L false dl
                    res t1 (by
                      show CursorAt (mem_write_list g.mem.base g.pval (f32_bytes o))
                        g.mem.vars_idx q L
                      have hv : g.mem.vars_idx = bs.prog.vars_idx := s3.1
                      rw [hv]
                      exact hnext.congr (fun x hx => s3.2.2.2 x (Or.inl hx))) g6 (by
                      show mem_write_list g.mem.base g.pval (f32_bytes o) e = 0
                      rw [show mem_write_list g.mem.base g.pval (f32_bytes o) e = bs.prog.base e
                        from s3.2.2.2 e (by omega)]
                      exact h0) (by
                      show e < g.mem.vars_idx ∨ g.mem.stktop_idx ≤ g.parse_ptr
                      have := s3.1
                      have := s3.2.1
                      simp only at *
                      omega) (by
                      show 5 * g.mem.vars_idx + 6 * (e - g.parse_ptr) + 4 ≤ n
                      have := s3.1
                      simp only at *
                      omega) href
                  exact ⟨b, c1, c2, c3, s3.trans c4, c5, c6⟩
                · rw [if_neg hmore] at href ⊢
                  simp only [Option.some.injEq] at href
                  subst href
                  refine ⟨_, rfl, rfl, t1, s3, ?_, ?_⟩
                  · intro _
                    show CursorAt (mem_write_list g.mem.base g.pval (f32_bytes o))
                      g.mem.vars_idx q L
                    have hv : g.mem.vars_idx = bs.prog.vars_idx := s3.1
                    rw [hv]
                    exact hnext.congr (fun x hx => s3.2.2.2 x (Or.inl hx))
                  · intro h; exact absurd rfl h
              · rw [if_pos hgok] at href ⊢
                simp only [Option.some.injEq] at href
                subst href
                refine ⟨_, rfl, rfl, g2, s1.trans g3, ?_, ?_⟩
                · intro h; exact absurd h hgok
                · intro _; exact ⟨rfl, rfl⟩
          · rw [if_pos (by simpa using hqd)] at href
            cases href
        · rw [if_pos hok] at href ⊢
          simp only [Option.some.injEq] at href
          subst href
          refine ⟨_, rfl, by simp, i1, s1, ?_, ?_⟩
          · intro h; exact absurd h hok
          · intro _; exact ⟨rfl, rfl⟩

theorem ProgWF_same {s t : BASIC_MEM_MGR} {recs : List (Nat × List Nat)} (h : ProgWF s recs)
    (hs : SameOutside s t) : ProgWF t recs := by
  obtain ⟨h1, h2, h3, h4, h5⟩ := h
  obtain ⟨s1, _, _, s4⟩ := hs
  refine ⟨RecsAt_congr true recs 1 (fun x _ hx => s4 x (Or.inl (by omega))) h1, h2, ?_, ?_, ?_⟩
  · rw [s4 _ (Or.inl (by omega))]; exact h3
  · rw [s4 _ (Or.inl (by omega))]; exact h4
  · rw [s1]; exact h5

/-- `restore0` puts the data pointer before the first line: all the items of
the program lie ahead. -/
theorem restore0_cursor (fuel : Nat) (bs : BASIC_MAIN_STATE) (recs : List (Nat × List Nat))
    (hwf : ProgWF bs.prog recs) (hz : bs.prog.base 0 = 0) (hf : bs.prog.vars_idx ≤ fuel) :
    restore0 fuel bs = .ret { bs with data_ptr := 0, data_line := 0 } ∧
      CursorAt bs.prog.base bs.prog.vars_idx 0 (program_slots 1 recs) := by
  obtain ⟨h1, h2, h3, h4, h5⟩ := hwf
  constructor
  · have hfl := find_line_loop_spec (m := bs.prog.base) 0 recs 1 fuel h1 h3 h4
      (by have := lines_length_le_size recs; omega)
    have htw : recs.takeWhile (fun r => decide (r.1 < 0)) = [] := by
      cases recs with
      | nil => rfl
      | cons r rest => simp [List.takeWhile]
    rw [htw] at hfl
    simp only [restore0, prog_storage_find_line, hfl, prog_storage_get_line_parse_ptr,
      prog_size, Nat.add_zero, Nat.sub_self]
  · exact ⟨[], recs, hz, (fun c h => by cases h), by simpa using h1, by simpa using h3,
      by simpa using h4, by simp only [List.length_nil]; omega, by simp [cursor_slots]⟩

/-- READ takes the DATA items in program order.  In a state with a
well-formed program and arena, `restore0` (RESTORE, RUN, CLEAR) leaves the data
pointer as a cursor before the list of all the items of the DATA statements,
in program order.  From a cursor before the items `L`, whenever the READ of the
specification has a result (target `i` of the statement takes the value of item
`i` of `L`; OUT_OF_DATA when the items run out; the items taken are removed
when the statement succeeds), `handler_read` returns that result and that
state, up to the line number kept for error messages, and the data pointer is
then a cursor before the items that are left. -/
theorem read_data_order (P : FPU) (fuel e : Nat) (bs : BASIC_MAIN_STATE)
    (recs : List (Nat × List Nat)) (hwf : ProgWF bs.prog recs) (hz : bs.prog.base 0 = 0)
    (hi : ArenaInv bs.prog) (hpe : bs.parse_ptr ≤ e) (h0 : bs.prog.base e = 0)
    (hout : e < bs.prog.vars_idx ∨ bs.prog.stktop_idx ≤ bs.parse_ptr)
    (hf : 5 * bs.prog.vars_idx + 6 * (e - bs.parse_ptr) + 4 ≤ fuel) :
    (restore0 fuel bs = .ret { bs with data_ptr := 0, data_line := 0 } ∧
      CursorAt bs.prog.base bs.prog.vars_idx 0 (program_slots 1 recs)) ∧
    ∀ (L : List (Nat × Nat)) (res : BASIC_ERROR_ID × BASIC_MAIN_STATE × List (Nat × Nat)),
      CursorAt bs.prog.base bs.prog.vars_idx bs.data_ptr L →
      read_ref P fuel bs L L true = some res →
      ∃ b, handler_read P fuel bs = .ret (res.1, b) ∧
        res.2.1 = { b with data_line := bs.data_line } ∧
        ProgWF b.prog recs ∧ b.prog.base 0 = 0 ∧ ArenaInv b.prog ∧
        CursorAt b.prog.base b.prog.vars_idx b.data_ptr res.2.2 := by
  refine ⟨restore0_cursor fuel bs recs hwf hz (by omega), ?_⟩
  intro L res hcur href
  obtain ⟨b, c1, c2, c3, c4, c5, c6⟩ := read_loop_spec P e fuel bs bs.data_ptr L L true
    bs.data_line res hi hcur hpe h0 hout hf href
  have hv : 0 < bs.prog.vars_idx := by
    have := hwf.2.2.2.2
    omega
  refine ⟨b, c1, c2, ProgWF_same hwf c4, ?_, c3, ?_⟩
  · rw [c4.2.2.2 0 (Or.inl hv)]; exact hz
  · by_cases hok : res.1 = .OK
    · exact c5 hok
    · obtain ⟨d1, d2⟩ := c6 hok
      rw [d1, d2, c4.1]
      exact hcur.congr (fun x hx => c4.2.2.2 x (Or.inl hx))

/-- The theorem `read_data_order` on the program `10 DATA 3,5`, `20 DATA 7`
and the statement `READ A,B` after RESTORE.  The items are at the addresses 6, 8 and 15; A takes
3, B takes 5, and the item 7 is left for the next READ. -/
theorem read_data_order_demo :
    (ProgWF read_demo.prog read_demo_lines ∧ read_demo.prog.base 0 = 0 ∧
      ArenaInv read_demo.prog ∧ read_demo.parse_ptr ≤ 103 ∧ read_demo.prog.base 103 = 0 ∧
      (103 < read_demo.prog.vars_idx ∨ read_demo.prog.stktop_idx ≤ read_demo.parse_ptr) ∧
      5 * read_demo.prog.vars_idx + 6 * (103 - read_demo.parse_ptr) + 4 ≤ 117) ∧
    program_slots 1 read_demo_lines = [(6, 7), (8, 9), (15, 16)] ∧
    restore0 117 read_demo = .ret { read_demo with data_ptr := 0, data_line := 0 } ∧
    ∃ res b, read_ref nat_fpu 117 read_demo (program_slots 1 read_demo_lines)
        (program_slots 1 read_demo_lines) true = some res ∧
      handler_read nat_fpu 117 read_demo = .ret (res.1, b) ∧
      res.1 = .OK ∧ res.2.2 = [(15, 16)] ∧
      variable_storage_read_var b.prog 65 = f32_of_nat 3 ∧
      variable_storage_read_var b.prog 66 = f32_of_nat 5 ∧
      CursorAt b.prog.base b.prog.vars_idx b.data_ptr [(15, 16)] := by
  have hinv : ArenaInv read_demo.prog :=
    ⟨by decide, by decide, ⟨[], by decide, by decide⟩⟩
  have hwf : ProgWF read_demo.prog read_demo_lines := by decide
  obtain ⟨⟨r1, r2⟩, hread⟩ := read_data_order nat_fpu 117 103 read_demo read_demo_lines
    hwf (by decide) hinv (by decide) (by decide) (by decide) (by decide)
  have hm : (read_ref nat_fpu 117 read_demo (program_slots 1 read_demo_lines)
      (program_slots 1 read_demo_lines) true).map
      (fun r => (r.1, r.2.2, variable_storage_read_var r.2.1.prog 65,
        variable_storage_read_var r.2.1.prog 66)) =
      some (.OK, [(15, 16)], f32_of_nat 3, f32_of_nat 5) := by decide!
  refine ⟨⟨hwf, by decide, hinv, by decide, by decide, by decide, by decide⟩, by decide, r1, ?_⟩
  cases hr : read_ref nat_fpu 117 read_demo (program_slots 1 read_demo_lines)
      (program_slots 1 read_demo_lines) true with
  | none =>
    rw [hr] at hm
    cases hm
  | some res =>
    rw [hr] at hm
    simp only [Option.map_some', Option.some.injEq, Prod.mk.injEq] at hm
    obtain ⟨m1, m2, m3, m4⟩ := hm
    obtain ⟨b, c1, c2, _, _, _, c6⟩ := hread _ res r2 hr
    have hp : res.2.1.prog = b.prog := by rw [c2]
    rw [hp] at m3 m4
    rw [m2] at c6
    exact ⟨res, b, rfl, c1, m1, m2, m3, m4, c6⟩

/-- C26: a program without DATA statement from which READ takes an item.  The
line `10 PRINT ":?5"`, with the byte 0x83 for `?`, is stored as one PRINT
statement (token 0x90, blank, the literal).  `READ A` skips the statement up
to the colon inside the literal, finds the byte of the DATA token behind it,
and gives A the value 5 (`PRINT A` prints `5`), where a program without DATA
statement, such as `10 PRINT "X"`, gives OUT_OF_DATA. -/
theorem C26_data_in_string_literal :
    (process_lines nat_fpu 200 main_demo_100 data_in_literal_session).map
      (fun bs => (bs.output, (List.range 13).map (fun i => bs.prog.base (i + 1)))) =
      some (c_string "5 " ++ [10],
        [13, 0, 10, 0, BASIC_KEYWORD_PRINT, 32, 34, 58, BASIC_KEYWORD_DATA, 53, 34, 0, 0]) ∧
    (process_lines nat_fpu 200 main_demo_100 no_data_session).map (fun bs => bs.output) =
      some (c_string "Out of DATA error" ++ [10] ++ c_string "0 " ++ [10]) := by decide!

theorem spec_error_text_ge (k : Nat) : spec_error_text (k + 14) = "Internal" := by
  cases k with
  | zero => rfl
  | succ k => rfl

theorem basic_error_print_raw_spec (id line : Nat) :
    basic_error_print_raw id line = spec_error_message id line := by
  by_cases h : id < 15
  · by_cases hl : line = UINT_MAX
    · subst hl
      interval_cases id <;> decide
    · interval_cases id <;>
        simp [basic_error_print_raw, spec_error_message, hl, BASIC_ERROR_ID.to_nat,
          basic_error_text_table, spec_error_text]
  · obtain ⟨k, rfl⟩ : ∃ k, id = k + 1 + 14 := ⟨id - 15, by omega⟩
    have ht := spec_error_text_ge (k + 1)
    have hlen : basic_error_text_table.length = 15 := by decide
    have hge : k + 1 + 14 ≥ 15 := by omega
    have h13 : ¬ (k + 1 + 14 = 13) := by omega
    have h0 : ¬ (k + 1 + 14 = 0) := by omega
    simp only [basic_error_print_raw, spec_error_message, BASIC_ERROR_ID.to_nat, hlen, hge,
      if_true, h0, if_false, h13, ht]
    have : basic_error_text_table.getD 14 [] = c_string "Internal" := by decide
    rw [this]
    simp

/-- C31: `basic_error_print(id, line)` writes nothing when `id` is OK; for every
other `id` it writes the error text of `id` (the text of INTERNAL for a value
outside 0..14), then `" error"` unless `id` is STOP, then `" in line "` and the
line number in decimal unless `line` is `UINT_MAX`, then a newline and nothing
else.  The statement covers every numeric value `n` of the enumeration type
and the identifiers `id` the interpreter passes. -/
theorem C31_error_print (id : BASIC_ERROR_ID) (n line : Nat) :
    basic_error_print_raw n line = spec_error_message n line ∧
      basic_error_print id line = spec_error_message id.to_nat line ∧
      basic_error_print .OK line = [] := by
  refine ⟨basic_error_print_raw_spec n line, ?_, by simp [basic_error_print]⟩
  rw [← basic_error_print_raw_spec]
  cases id <;>
    by_cases hl : line = UINT_MAX <;>
    simp [basic_error_print, basic_error_print_raw, BASIC_ERROR_ID.to_nat,
      basic_error_text_table, hl]

theorem strncmp_eq_two {m : Mem} : ∀ (a b : List Nat) (s : Nat),
    strncmp_eq m s a = true → strncmp_eq m s b = true → a <+: b ∨ b <+: a
  | [], b, _, _, _ => Or.inl ⟨b, rfl⟩
  | x :: a, [], _, _, _ => Or.inr ⟨x :: a, rfl⟩
  | x :: a, y :: b, s, ha, hb => by
    simp only [strncmp_eq] at ha hb
    by_cases hx : m s = x
    · by_cases hy : m s = y
      · have hxy : x = y := hx.symm.trans hy
        subst hxy
        simp only [hx, if_true] at ha hb
        rcases strncmp_eq_two a b (s + 1) ha hb with h | h
        · obtain ⟨t, ht⟩ := h
          exact Or.inl ⟨t, congrArg (List.cons x) ht⟩
        · obtain ⟨t, ht⟩ := h
          exact Or.inr ⟨t, congrArg (List.cons x) ht⟩
      · simp [hy] at hb
    · simp [hx] at ha

theorem keyword_table_no_overlap :
    keyword_text_table.Pairwise (fun a b => ¬ a <+: b ∧ ¬ b <+: a) := by
  decide

theorem match_keyword_find {m : Mem} {s : Nat} : ∀ (T : List (List Nat)) (i : Nat),
    (match_keyword m s T i).map (fun r => (T.getD (r.1 - i) [], r.2)) =
      (T.find? (strncmp_eq m s)).map (fun kw => (kw, kw.length)) ∧
    ∀ r, match_keyword m s T i = some r → i ≤ r.1
  | [], _ => by simp [match_keyword]
  | kw :: rest, i => by
    simp only [match_keyword, List.find?]
    by_cases h : strncmp_eq m s kw = true
    · simp [h]
    · simp only [h, Bool.false_eq_true, if_false]
      simp only [Bool.not_eq_true] at h
      obtain ⟨ih1, ih2⟩ := match_keyword_find rest (i + 1)
      refine ⟨?_, fun r hr => by have := ih2 r hr; omega⟩
      rw [← ih1]
      cases hm : match_keyword m s rest (i + 1) with
      | none => rfl
      | some r =>
        have := ih2 r hm
        obtain ⟨k, hk⟩ : ∃ k, r.1 = i + 1 + k := ⟨r.1 - (i + 1), by omega⟩
        simp only [Option.map_some', hk]
        rw [show i + 1 + k - i = k + 1 by omega, show i + 1 + k - (i + 1) = k by omega]
        rfl

theorem find_perm_unique {α : Type} (p : α → Bool) {T T1 : List α} (hp : T.Perm T1)
    (hu : ∀ a ∈ T, ∀ b ∈ T, p a = true → p b = true → a = b) :
    T.find? p = T1.find? p := by
  cases h : T.find? p with
  | none =>
    rw [List.find?_eq_none] at h
    symm
    rw [List.find?_eq_none]
    intro x hx
    exact h x (hp.mem_iff.2 hx)
  | some a =>
    have ha : a ∈ T := List.mem_of_find?_eq_some h
    have hpa : p a = true := List.find?_some h
    cases h1 : T1.find? p with
    | none =>
      rw [List.find?_eq_none] at h1
      exact absurd hpa (h1 a (hp.mem_iff.1 ha))
    | some b =>
      have hb : b ∈ T := hp.mem_iff.2 (List.mem_of_find?_eq_some h1)
      rw [hu a ha b hb hpa (List.find?_some h1)]

theorem keyword_unique_at (m : Mem) (s : Nat) :
    ∀ a ∈ keyword_text_table, ∀ b ∈ keyword_text_table,
      strncmp_eq m s a = true → strncmp_eq m s b = true → a = b := by
  intro a ha b hb h1 h2
  by_contra hne
  have hpw := keyword_table_no_overlap
  have key : ∀ (T : List (List Nat)), T.Pairwise (fun a b => ¬ a <+: b ∧ ¬ b <+: a) →
      a ∈ T → b ∈ T → False := by
    intro T hT
    induction hT with
    | nil => intro h; cases h
    | cons hx _ ih =>
      intro ha hb
      rcases List.mem_cons.1 ha with rfl | ha1
      · rcases List.mem_cons.1 hb with rfl | hb1
        · exact hne rfl
        · rcases strncmp_eq_two _ _ s h1 h2 with h | h
          · exact (hx b hb1).1 h
          · exact (hx b hb1).2 h
      · rcases List.mem_cons.1 hb with rfl | hb1
        · rcases strncmp_eq_two _ _ s h1 h2 with h | h
          · exact (hx a ha1).2 h
          · exact (hx a ha1).1 h
        · exact ih ha1 hb1
  exact key _ hpw ha hb

/-- C32: the keyword table has 38 entries (END to SIN), no entry is a prefix of
an entry at another position, so at every position `s` of every memory at most
one keyword matches, and the first-match scan of the tokenizer finds the same
keyword text (and length) in every reordering `T` of the table. -/
theorem C32_keyword_match_unique (T : List (List Nat)) (m : Mem) (s : Nat)
    (hT : T.Perm keyword_text_table) :
    keyword_text_table.length = 38 ∧
    keyword_text_table.head? = some [69, 78, 68] ∧
    keyword_text_table.getLast? = some [83, 73, 78] ∧
    keyword_text_table.Pairwise (fun a b => ¬ a <+: b ∧ ¬ b <+: a) ∧
    (∀ a ∈ keyword_text_table, ∀ b ∈ keyword_text_table,
      strncmp_eq m s a = true → strncmp_eq m s b = true → a = b) ∧
    (match_keyword m s T 0).map (fun r => (T.getD r.1 [], r.2)) =
      (match_keyword m s keyword_text_table 0).map
        (fun r => (keyword_text_table.getD r.1 [], r.2)) := by
  refine ⟨by decide, by decide, by decide, keyword_table_no_overlap,
    keyword_unique_at m s, ?_⟩
  have h1 := (@match_keyword_find m s T 0).1
  have h2 := (@match_keyword_find m s keyword_text_table 0).1
  simp only [Nat.sub_zero] at h1 h2
  rw [h1, h2, find_perm_unique (strncmp_eq m s) hT.symm (keyword_unique_at m s)]

/-- Witness of C32: the reversed table finds the keyword GOTO at the start of
the line `GOTO 10`, as the table does. -/
theorem C32_keyword_match_unique_witness :
    keyword_text_table.reverse.Perm keyword_text_table ∧
    (match_keyword (mem_of_string 0 [71, 79, 84, 79, 32, 49, 48]) 0
        keyword_text_table.reverse 0).map
      (fun r => (keyword_text_table.reverse.getD r.1 [], r.2)) =
    (match_keyword (mem_of_string 0 [71, 79, 84, 79, 32, 49, 48]) 0 keyword_text_table 0).map
      (fun r => (keyword_text_table.getD r.1 [], r.2)) :=
  ⟨List.reverse_perm _, (C32_keyword_match_unique keyword_text_table.reverse
      (mem_of_string 0 [71, 79, 84, 79, 32, 49, 48]) 0 (List.reverse_perm _)).2.2.2.2.2⟩

theorem tok_aux_keyword_text : ∀ (ks l : List Nat), (∀ k ∈ ks, k < 128 ∧ k ≠ 34) →
    ks.isPrefixOf (tok_aux 0 false l) = true → ks.isPrefixOf l = true
  | [], _, _, _ => by simp [List.isPrefixOf]
  | k :: ks, [], _, h => by simp [tok_aux, List.isPrefixOf] at h
  | k :: ks, c :: r, hk, h => by
    have hk0 := hk k (by simp)
    simp only [tok_aux] at h
    by_cases hq : c = 34
    · simp only [if_pos hq, List.isPrefixOf, Bool.and_eq_true, beq_iff_eq] at h
      exact absurd (h.1.trans hq) hk0.2
    · simp only [if_neg hq] at h
      cases hkp : first_keyword (c :: r) keyword_text_table 0 with
      | some q =>
        obtain ⟨i, len⟩ := q
        simp only [hkp] at h
        have hhead : ∀ t, (k :: ks).isPrefixOf ((i + BASIC_KEYWORD_RANGE_BEGIN) :: t) = true →
            False := by
          intro t ht
          simp only [List.isPrefixOf, Bool.and_eq_true, beq_iff_eq] at ht
          have := ht.1
          simp only [BASIC_KEYWORD_RANGE_BEGIN] at this
          omega
        split at h
        · exact (hhead _ h).elim
        · exact (hhead _ h).elim
      | none =>
        simp only [hkp] at h
        by_cases hrem : c = BASIC_KEYWORD_REM
        · simp only [if_pos hrem, List.isPrefixOf, Bool.and_eq_true, beq_iff_eq] at h
          have := h.1
          simp only [hrem, BASIC_KEYWORD_REM] at this
          omega
        · simp only [if_neg hrem, List.isPrefixOf, Bool.and_eq_true, beq_iff_eq] at h
          simp only [List.isPrefixOf, Bool.and_eq_true, beq_iff_eq]
          exact ⟨h.1, tok_aux_keyword_text ks r (fun x hx => hk x (by simp [hx])) h.2⟩

theorem tok_aux_no_keyword : ∀ (n : Nat) (l : List Nat) (b : Bool), l.length ≤ n →
    keyword_before_rem b (tok_aux 0 b l) = false
  | _, [], _, _ => by simp [tok_aux, keyword_before_rem]
  | 0, c :: r, _, h => by simp at h
  | n + 1, c :: r, true, h => by
    simp only [tok_aux, keyword_before_rem]
    exact tok_aux_no_keyword n r _ (by simpa using h)
  | n + 1, c :: r, false, h => by
    have hr : r.length ≤ n := by simpa using h
    simp only [tok_aux]
    by_cases hq : c = 34
    · simp only [if_pos hq, keyword_before_rem, if_true]
      exact tok_aux_no_keyword n r true hr
    · simp only [if_neg hq]
      cases hkp : first_keyword (c :: r) keyword_text_table 0 with
      | some q =>
        obtain ⟨i, len⟩ := q
        obtain ⟨kw, k1, _, _, k4, _, k6⟩ := first_keyword_some keyword_text_table 0 i len hkp
        have h34 : i + BASIC_KEYWORD_RANGE_BEGIN ≠ 34 := by
          simp only [BASIC_KEYWORD_RANGE_BEGIN]; omega
        have hany : ∀ t, (keyword_text_table.any
            fun kw => kw.isPrefixOf ((i + BASIC_KEYWORD_RANGE_BEGIN) :: t)) = false := by
          intro t
          rw [List.any_eq_false]
          intro kw2 hkw2 hp
          have := (keyword_first_byte hkw2 hp).1
          simp only [BASIC_KEYWORD_RANGE_BEGIN] at this
          omega
        simp only []
        split
        · rename_i hrem
          rw [hrem]
          simp only [keyword_before_rem, if_true]
          rw [if_neg (by decide)]
        · rename_i hrem
          simp only [keyword_before_rem, if_neg h34, if_neg hrem, hany, Bool.false_or]
          by_cases hl : len - 1 = 0
          · rw [hl]
            exact tok_aux_no_keyword n r false hr
          · rw [tok_aux_skip r (len - 1) false (by omega)]
            exact tok_aux_no_keyword n _ false (by simp; omega)
      | none =>
        simp only []
        by_cases hrem : c = BASIC_KEYWORD_REM
        · rw [if_pos hrem]
          simp only [keyword_before_rem, if_neg hq, if_pos hrem]
        · simp only [if_neg hrem, keyword_before_rem, if_neg hq]
          have hany : (keyword_text_table.any
              fun kw => kw.isPrefixOf (c :: tok_aux 0 false r)) = false := by
            rw [List.any_eq_false]
            intro kw hkw hp
            have hnone := (first_keyword_none keyword_text_table 0).1 hkp kw hkw
            obtain ⟨hne, hb⟩ := keyword_bytes kw hkw
            cases kw with
            | nil => exact hne rfl
            | cons k ks =>
              simp only [List.isPrefixOf, Bool.and_eq_true, beq_iff_eq] at hp
              have := tok_aux_keyword_text ks r
                (fun x hx => ⟨(hb x (by simp [hx])).2.1, (hb x (by simp [hx])).2.2⟩) hp.2
              simp [List.isPrefixOf, hp.1, this] at hnone
          rw [hany, Bool.false_or]
          exact tok_aux_no_keyword n r false hr

theorem MemIs_get {m : Mem} : ∀ (l : List Nat) (p k : Nat), MemIs m p l → k < l.length →
    m (p + k) = l.getD k 0
  | [], _, _, _, hk => by simp at hk
  | c :: cs, p, 0, h, _ => by
    simp only [MemIs] at h
    simpa using h.1
  | c :: cs, p, k + 1, h, hk => by
    simp only [MemIs] at h
    have := MemIs_get cs (p + 1) k h.2 (by simpa using hk)
    rw [show p + (k + 1) = p + 1 + k by omega, this]
    rfl

theorem tokenize_idem (l : List Nat) : tokenize (tokenize l) = tokenize l :=
  (tokenize_eq_self _).2 (tok_aux_no_keyword l.length l false (Nat.le_refl _))

/-- C34: the in-place tokenizer is idempotent on every NUL-terminated line: it
returns on the line, it returns again on its own output, and the second call
leaves every byte of the memory as the first call left it. -/
theorem C34_tokenize_idempotent (fuel : Nat) (m : Mem) (p : Nat) (l : List Nat)
    (h : IsCStr m p l) (hf : l.length < fuel) :
    ∃ m1 m2, keywords_tokenize_line fuel m p = some m1 ∧
      keywords_tokenize_line fuel m1 p = some m2 ∧
      IsCStr m1 p (tokenize l) ∧ IsCStr m2 p (tokenize l) ∧ m2 = m1 := by
  obtain ⟨m1, h1, h2, h3, _⟩ := keywords_tokenize_line_spec fuel m p l h hf
  obtain ⟨m2, g1, g2, _, g4⟩ := keywords_tokenize_line_spec fuel m1 p (tokenize l) h2 (by omega)
  rw [tokenize_idem] at g2
  refine ⟨m1, m2, h1, g1, h2, g2, ?_⟩
  funext a
  by_cases ha : a < p ∨ p + (tokenize l).length < a
  · exact g4 a ha
  · have hM1 := IsCStr_MemIs_nul _ p h2
    have hM2 := IsCStr_MemIs_nul _ p g2
    obtain ⟨k, rfl⟩ : ∃ k, a = p + k := ⟨a - p, by omega⟩
    have hk : k < (tokenize l ++ [0]).length := by simp; omega
    rw [MemIs_get _ p k hM1 hk, MemIs_get _ p k hM2 hk]

/-- Witness of C34 on the line `REM IF`. -/
theorem C34_tokenize_idempotent_witness :
    IsCStr (mem_of_string 0 [82, 69, 77, 32, 73, 70]) 0 [82, 69, 77, 32, 73, 70] ∧
    ∃ m1 m2, keywords_tokenize_line 7 (mem_of_string 0 [82, 69, 77, 32, 73, 70]) 0 = some m1 ∧
      keywords_tokenize_line 7 m1 0 = some m2 ∧
      IsCStr m1 0 (tokenize [82, 69, 77, 32, 73, 70]) ∧
      IsCStr m2 0 (tokenize [82, 69, 77, 32, 73, 70]) ∧ m2 = m1 :=
  ⟨by decide, C34_tokenize_idempotent 7 _ 0 _ (by decide) (by decide)⟩

/-- C37, the failing run: in a 20-byte arena, after `10 DATA 1,2` and `READ A`
the DATA pointer is at offset 8 inside line 10; the line `10 PRINT
1234567890123` then deletes line 10, fails with OUT_OF_MEMORY and returns
without resetting the DATA pointer, which stays at offset 8 although the
program is now empty (`vars_idx = 3`); a later `READ B` reads the item 2 of the
deleted line and `PRINT B` prints it. -/
theorem C37_stale_data_pointer :
    (process_lines nat_fpu 200 main_demo_20 (stale_data_ptr_session.take 2)).map
      (fun bs => (bs.data_ptr, bs.data_line, bs.prog.vars_idx)) = some (8, 10, 13) ∧
    (process_lines nat_fpu 200 main_demo_20 stale_data_ptr_session).map
      (fun bs => (bs.data_ptr, bs.data_line, bs.prog.vars_idx, bs.output)) =
        some (8, 10, 3, c_string "Out of memory error" ++ [10]) ∧
    (process_lines nat_fpu 200 main_demo_20
        (stale_data_ptr_session ++ [c_string "READ B", c_string "PRINT B"])).map
      (fun bs => (bs.data_ptr, bs.prog.vars_idx, bs.output)) =
        some (10, 3, c_string "Out of memory error" ++ [10] ++ c_string "2 " ++ [10]) := by
  decide!

theorem pop_gosub_top (fuel : Nat) (s : BASIC_MEM_MGR) (hf : 0 < fuel) (hmax : s.max_idx < UINT)
    (h5 : s.stktop_idx + 5 ≤ s.max_idx) (ht : s.base s.stktop_idx = FGS_TAG_GOSUB) :
    fgstack_pop_gosub fuel s = some (true, mem_read_gosub s.base (s.stktop_idx + 1),
      { s with stktop_idx := s.stktop_idx + 5 }) := by
  obtain ⟨n, rfl⟩ : ∃ n, fuel = n + 1 := ⟨fuel - 1, by omega⟩
  have hz : zsub s.max_idx sizeof_FGS_ENTRY_GOSUB = s.max_idx - 4 :=
    zsub_eq hmax (by simp only [sizeof_FGS_ENTRY_GOSUB]; omega)
  have hlt : s.stktop_idx < s.max_idx - 4 := by omega
  have hu : u32 (s.stktop_idx + (sizeof_FGS_ENTRY_GOSUB + 1)) = s.stktop_idx + 5 :=
    u32_eq (by simp only [sizeof_FGS_ENTRY_GOSUB, UINT] at *; omega)
  simp only [fgstack_pop_gosub, fgstack_pop_gosub_loop, hz, hlt, if_true, ht, hu]

/-- C38: a GOSUB statement that runs in program line `current_line`, whose
argument is the number of a line that does not exist, returns NO_SUCH_LINE when
5 bytes are free; `current_line` is unchanged, the parse pointer is after the
number, the stack top is 5 lower and a GOSUB frame with the line and that
position is on top, the rest of the arena is unchanged; in every later state
with this stack whose parse pointer is at the end of a statement, RETURN
succeeds, pops the frame and resumes after the GOSUB. -/
theorem C38_gosub_missing_line (fuel : Nat) (bs : BASIC_MAIN_STATE)
    (recs : List (Nat × List Nat)) (l : List Nat)
    (hcl : bs.current_line < 65536) (hwf : ProgWF bs.prog recs) (ho : ArenaOrdered bs.prog)
    (hs : IsCStr bs.prog.base bs.parse_ptr l) (hd : (uint16_scan l).1 ≠ [])
    (hv : decimal_value 0 (uint16_scan l).1 < 65536)
    (hno : ∀ b, (decimal_value 0 (uint16_scan l).1, b) ∉ recs)
    (hp : bs.parse_ptr + (uint16_scan l).2 < 65536)
    (hroom : 5 ≤ bs.prog.stktop_idx - bs.prog.free_idx)
    (hf : l.length + 1 < fuel) (hf2 : bs.prog.vars_idx ≤ fuel) :
    ∃ b, handler_gosub fuel bs = .ret (.NO_SUCH_LINE, b) ∧
      b.current_line = bs.current_line ∧
      b.parse_ptr = bs.parse_ptr + (uint16_scan l).2 ∧
      b.prog.stktop_idx + 5 = bs.prog.stktop_idx ∧
      b.prog.base b.prog.stktop_idx = FGS_TAG_GOSUB ∧
      mem_read_gosub b.prog.base (b.prog.stktop_idx + 1) = ⟨bs.current_line, b.parse_ptr⟩ ∧
      (∀ a, a < b.prog.stktop_idx ∨ bs.prog.stktop_idx ≤ a → b.prog.base a = bs.prog.base a) ∧
      b.prog.vars_idx = bs.prog.vars_idx ∧ b.prog.array_idx = bs.prog.array_idx ∧
      b.prog.free_idx = bs.prog.free_idx ∧ b.prog.max_idx = bs.prog.max_idx ∧
      ∀ b1 : BASIC_MAIN_STATE, b1.prog.stktop_idx = b.prog.stktop_idx →
        b1.prog.max_idx = b.prog.max_idx →
        (∀ a, b.prog.stktop_idx ≤ a → a < bs.prog.stktop_idx →
          b1.prog.base a = b.prog.base a) →
        (b1.prog.base b1.parse_ptr = 0 ∨ b1.prog.base b1.parse_ptr = 58) →
        handler_return fuel b1 = .ret (.OK, { b1 with
          prog := { b1.prog with stktop_idx := bs.prog.stktop_idx }
          current_line := bs.current_line
          parse_ptr := bs.parse_ptr + (uint16_scan l).2 }) := by
  have hne : bs.current_line ≠ UINT_MAX := by simp only [UINT_MAX]; omega
  have hu := basic_parsing_uint16_spec fuel bs.prog.base bs.parse_ptr 0 l hs hf
  have hv2 : ¬ decimal_value 0 (uint16_scan l).1 ≥ 65536 := by omega
  simp only [hd, if_false, hv2] at hu
  obtain ⟨o1, o2, o3, o4, o5⟩ := ho
  have ho2 : ArenaOrdered bs.prog := ⟨o1, o2, o3, o4, o5⟩
  let g : FGS_ENTRY_GOSUB := ⟨bs.current_line, bs.parse_ptr + (uint16_scan l).2⟩
  have hg : g.Valid := ⟨hcl, hp⟩
  have hlen : g.bytes.length = 4 := rfl
  have hpush := fgstack_push_ok bs.prog g.bytes FGS_TAG_GOSUB ho2 (by rw [hlen]; exact hroom)
  rw [hlen] at hpush
  have hread := push_gosub_read bs.prog.base (bs.prog.stktop_idx - (4 + 1)) g hg
  have hsame : ∀ a, a < bs.prog.stktop_idx - (4 + 1) ∨ bs.prog.stktop_idx ≤ a →
      mem_write_list (mem_write bs.prog.base (bs.prog.stktop_idx - (4 + 1)) FGS_TAG_GOSUB)
        (bs.prog.stktop_idx - (4 + 1) + 1) g.bytes a = bs.prog.base a := by
    intro a ha
    rw [mem_write_list_other _ _ _ _ (by rw [hlen]; omega), mem_write_other _ _ _ _ (by omega)]
  -- the program is still well formed after the push
  obtain ⟨w1, w2, w3, w4, w5⟩ := hwf
  let prog1 : BASIC_MEM_MGR := { bs.prog with
    stktop_idx := bs.prog.stktop_idx - (4 + 1)
    base := mem_write_list (mem_write bs.prog.base (bs.prog.stktop_idx - (4 + 1)) FGS_TAG_GOSUB)
      (bs.prog.stktop_idx - (4 + 1) + 1) g.bytes }
  have hwf1 : ProgWF prog1 recs := by
    refine ⟨RecsAt_congr true recs 1 (fun x _ hx => hsame x (Or.inl (by omega))) w1, w2, ?_, ?_, w5⟩
    · show mem_write_list _ _ _ _ = 0
      rw [hsame _ (Or.inl (by omega))]; exact w3
    · show mem_write_list _ _ _ _ = 0
      rw [hsame _ (Or.inl (by omega))]; exact w4
  obtain ⟨fr, hfr, hfound⟩ := find_line_found fuel prog1 (decimal_value 0 (uint16_scan l).1) recs
    hwf1 hf2
  have hnf : fr.found = false := by
    cases hb : fr.found with
    | false => rfl
    | true =>
      obtain ⟨b, hb1⟩ := hfound.1 hb
      exact absurd hb1 (hno b)
  have hidx : prog_storage_ptr_to_idx bs.prog (bs.parse_ptr + (uint16_scan l).2) % 65536 =
      bs.parse_ptr + (uint16_scan l).2 := by
    simp only [prog_storage_ptr_to_idx, u32, UINT]; omega
  have hcl2 : bs.current_line % 65536 = bs.current_line := Nat.mod_eq_of_lt hcl
  refine ⟨{ bs with parse_ptr := bs.parse_ptr + (uint16_scan l).2, prog := prog1 }, ?_, rfl, rfl,
    ?_, hread.1, hread.2, hsame, rfl, rfl, rfl, rfl, ?_⟩
  · simp only [handler_gosub, hne, if_false, hu, ne_eq, not_true_eq_false, hidx, hcl2,
      fgstack_push_gosub]
    rw [show fgstack_push bs.prog (FGS_ENTRY_GOSUB.bytes
        ⟨bs.current_line, bs.parse_ptr + (uint16_scan l).2⟩) FGS_TAG_GOSUB = (true, prog1) from hpush]
    simp only [goto_run_common, hfr, hnf, and_self, if_true]
  · show bs.prog.stktop_idx - (4 + 1) + 5 = bs.prog.stktop_idx
    omega
  · intro b1 e1 e2 e3 e4
    have e1a : b1.prog.stktop_idx = bs.prog.stktop_idx - (4 + 1) := e1
    have e2a : b1.prog.max_idx = bs.prog.max_idx := e2
    have hf0 : 0 < fuel := by omega
    have htag : b1.prog.base b1.prog.stktop_idx = FGS_TAG_GOSUB := by
      rw [e1a, e3 _ (Nat.le_refl _) (by omega)]
      exact hread.1
    have hpop := pop_gosub_top fuel b1.prog hf0 (by rw [e2a]; exact o5) (by omega) htag
    have hge : mem_read_gosub b1.prog.base (b1.prog.stktop_idx + 1) = g := by
      rw [← hread.2, e1a]
      simp only [mem_read_gosub]
      rw [e3 _ (by omega) (by omega), e3 _ (by omega) (by omega), e3 _ (by omega) (by omega),
        e3 _ (by omega) (by omega)]
    have hend : ¬ (b1.prog.base b1.parse_ptr ≠ 0 ∧ b1.prog.base b1.parse_ptr ≠ 58) := by
      rcases e4 with h | h <;> simp [h]
    simp only [handler_return, hend, if_false, hpop, hge, prog_storage_idx_to_ptr]
    rw [show b1.prog.stktop_idx + 5 = bs.prog.stktop_idx by omega]

/-- Witness of C38 on line 10 of the program `10 GOSUB 500:PRINT 7`, `20 STOP`;
the session `gosub_missing_session` shows the same at the prompt: RUN prints
the error of line 10, and RETURN then runs `PRINT 7` and line 20. -/
theorem C38_gosub_missing_line_witness :
    (gosub_demo.current_line < 65536 ∧ ProgWF gosub_demo.prog gosub_demo_lines ∧
      ArenaOrdered gosub_demo.prog ∧
      IsCStr gosub_demo.prog.base gosub_demo.parse_ptr [53, 48, 48, 58, BASIC_KEYWORD_PRINT, 32, 55] ∧
      decimal_value 0 (uint16_scan [53, 48, 48, 58, BASIC_KEYWORD_PRINT, 32, 55]).1 = 500 ∧
      (∀ b, (500, b) ∉ gosub_demo_lines)) ∧
    (∃ b, handler_gosub 30 gosub_demo = .ret (.NO_SUCH_LINE, b) ∧
      b.current_line = 10 ∧ b.parse_ptr = 10 ∧ b.prog.stktop_idx + 5 = 100 ∧
      b.prog.base b.prog.stktop_idx = FGS_TAG_GOSUB ∧
      mem_read_gosub b.prog.base (b.prog.stktop_idx + 1) = ⟨10, b.parse_ptr⟩) ∧
    (process_lines nat_fpu 200 main_demo_100 gosub_missing_session).map (fun bs => bs.output) =
      some (c_string "No such line error in line 10" ++ [10] ++ c_string "7 " ++ [10] ++
        c_string "STOP in line 20" ++ [10]) := by
  have hno : ∀ b, (500, b) ∉ gosub_demo_lines := by
    intro b hb
    simp [gosub_demo_lines] at hb
  obtain ⟨b, h1, h2, h3, h4, h5, h6, _⟩ := C38_gosub_missing_line 30 gosub_demo gosub_demo_lines
    [53, 48, 48, 58, BASIC_KEYWORD_PRINT, 32, 55] (by decide) (by decide) (by decide) (by decide)
    (by decide) (by decide) hno (by decide) (by decide) (by decide) (by decide)
  exact ⟨⟨by decide, by decide, by decide, by decide, by decide, hno⟩,
    ⟨b, h1, h2, h3, h4, h5, h6⟩, by decide!⟩

/-- C39, failing runs: two 3-byte arenas with an empty stack that hold the same
bytes at every index below `max_idx = 3` and differ in the byte that follows
the arena give different results of `fgstack_pop_gosub` (success with
`stktop_idx = 8` against failure), and two such 9-byte arenas give different
results of `fgstack_lookup_for`: the scans read bytes at indices at or above
`max_idx`, and a call that should fail moves `stktop_idx` above `max_idx`. -/
theorem C39_scan_reads_past_arena :
    (3 ≤ tiny_arena_gosub.max_idx ∧ tiny_arena_gosub.stktop_idx = tiny_arena_gosub.max_idx ∧
      tiny_arena_gosub_other.max_idx = tiny_arena_gosub.max_idx ∧
      tiny_arena_gosub_other.stktop_idx = tiny_arena_gosub.stktop_idx ∧
      (∀ a < tiny_arena_gosub.max_idx, tiny_arena_gosub_other.base a = tiny_arena_gosub.base a) ∧
      (fgstack_pop_gosub 2 tiny_arena_gosub).map (fun r => (r.1, r.2.2.stktop_idx)) =
        some (true, 8) ∧
      (fgstack_pop_gosub 2 tiny_arena_gosub_other).map (fun r => (r.1, r.2.2.stktop_idx)) =
        some (false, 3)) ∧
    (3 ≤ tiny_arena_for.max_idx ∧ tiny_arena_for.stktop_idx = tiny_arena_for.max_idx ∧
      tiny_arena_for_other.max_idx = tiny_arena_for.max_idx ∧
      tiny_arena_for_other.stktop_idx = tiny_arena_for.stktop_idx ∧
      (∀ a < tiny_arena_for.max_idx, tiny_arena_for_other.base a = tiny_arena_for.base a) ∧
      (fgstack_lookup_for 2 tiny_arena_for 65).map (fun r => (r.1, r.2.2.stktop_idx)) =
        some (true, 26) ∧
      (fgstack_lookup_for 2 tiny_arena_for_other 65).map (fun r => (r.1, r.2.2.stktop_idx)) =
        some (false, 9)) := by
  decide

theorem count_spaces_replicate : ∀ (k : Nat) (rest : List Nat), rest.head? ≠ some 32 →
    count_spaces (List.replicate k 32 ++ rest) = k
  | 0, [], _ => by simp [count_spaces]
  | 0, c :: r, h => by
    have hc : c ≠ 32 := fun hc => h (by simp [hc])
    simpa using count_spaces_cons_ne r hc
  | k + 1, rest, h => by
    show count_spaces (List.replicate k 32 ++ rest) + 1 = k + 1
    rw [count_spaces_replicate k rest h]

theorem add_char_letter {c : Nat} (h : IS_ALPHA c = true) :
    var_name_add_char var_name_empty c = c := by
  simp only [IS_ALPHA, decide_eq_true_eq] at h
  simp only [var_name_add_char, var_name_empty]
  omega

theorem add_char_digit {c d : Nat} (h : IS_ALPHA c = true) (hd : IS_DIGIT d = true) :
    var_name_add_char (var_name_add_char var_name_empty c) d = c * 256 + d := by
  rw [add_char_letter h]
  simp only [IS_ALPHA, IS_DIGIT, decide_eq_true_eq] at h hd
  simp only [var_name_add_char]
  omega

theorem name_digit_legal (letter : Nat) (rest : List Nat) (h : IS_ALPHA letter = true) :
    legal_name letter (name_digit rest) := by
  refine ⟨h, fun d hd => ?_⟩
  simp only [name_digit, Option.mem_def, Option.filter_eq_some] at hd
  exact hd.2

theorem spec_pack_inj {l1 l2 : Nat} {d1 d2 : Option Nat} (h1 : legal_name l1 d1)
    (h2 : legal_name l2 d2) : spec_pack l1 d1 = spec_pack l2 d2 ↔ l1 = l2 ∧ d1 = d2 := by
  constructor
  · intro h
    obtain ⟨a1, b1⟩ := h1
    obtain ⟨a2, b2⟩ := h2
    simp only [IS_ALPHA, decide_eq_true_eq] at a1 a2
    cases d1 with
    | none =>
      cases d2 with
      | none => exact ⟨h, rfl⟩
      | some y =>
        simp only [spec_pack] at h
        omega
    | some x =>
      have hx := b1 x rfl
      simp only [IS_DIGIT, decide_eq_true_eq] at hx
      cases d2 with
      | none =>
        simp only [spec_pack] at h
        omega
      | some y =>
        have hy := b2 y rfl
        simp only [IS_DIGIT, decide_eq_true_eq] at hy
        simp only [spec_pack] at h
        have : l1 = l2 := by omega
        subst this
        have : x = y := by omega
        subst this
        exact ⟨rfl, rfl⟩
  · rintro ⟨rfl, rfl⟩
    rfl

theorem varname_packs (fuel : Nat) (m : Mem) (p out k letter : Nat) (rest : List Nat)
    (hs : IsCStr m p (letter :: (List.replicate k 32 ++ rest)))
    (ha : IS_ALPHA letter = true) (hr : rest.head? ≠ some 32)
    (hf : k + rest.length + 1 < fuel) :
    ∃ p1, basic_parsing_varname fuel m p out =
      some (.OK, p1, spec_pack letter (name_digit rest)) := by
  have hs0 := hs
  simp only [IsCStr] at hs
  obtain ⟨hm, _, _, hs1⟩ := hs
  have hcs := count_spaces_replicate k rest hr
  have hsk : basic_parsing_skipws m fuel (p + 1) = some (p + 1 + k) := by
    have := skipws_spec fuel _ (p + 1) hs1 (by rw [hcs]; omega)
    rw [hcs] at this
    exact this
  have hrest : IsCStr m (p + 1 + k) rest := by
    have := IsCStr_drop k _ (p + 1) (by simp) hs1
    simpa using this
  simp only [basic_parsing_varname, hm, ha, Bool.true_eq_false, if_false, hsk]
  cases rest with
  | nil =>
    simp only [IsCStr] at hrest
    refine ⟨p + 1 + k, ?_⟩
    simp [hrest, IS_DIGIT, name_digit, spec_pack, add_char_letter ha]
  | cons c r =>
    simp only [IsCStr] at hrest
    obtain ⟨hc, _, _, hr1⟩ := hrest
    by_cases hd : IS_DIGIT c = true
    · have hle := count_spaces_le r
      have := skipws_spec fuel r (p + 1 + k + 1) hr1 (by simp at hf; omega)
      refine ⟨p + 1 + k + 1 + count_spaces r, ?_⟩
      simp only [hc, hd, if_true, this]
      simp [name_digit, Option.filter, hd, spec_pack, add_char_digit ha hd]
    · refine ⟨p + 1 + k, ?_⟩
      simp only [hc, hd, Bool.false_eq_true, if_false]
      simp [name_digit, Option.filter, hd, spec_pack, add_char_letter ha]

/-- C40: on two texts that start with a letter, any number of blanks (`k1`,
`k2`) and then the rest of the line, `basic_parsing_varname` succeeds and
yields packed names `v1`, `v2` that are equal if and only if the names (the
letter, and the digit when the first byte after the blanks is one) are the
same; a packed name is never the empty name, is the letter code (high byte 0)
for a one-letter name and `letter * 256 + digit` for a two-character name,
whatever the number of blanks between the letter and the digit. -/
theorem C40_varname_packing (fuel : Nat) (m1 m2 : Mem) (p1 p2 out1 out2 k1 k2 l1 l2 : Nat)
    (rest1 rest2 : List Nat)
    (hs1 : IsCStr m1 p1 (l1 :: (List.replicate k1 32 ++ rest1)))
    (hs2 : IsCStr m2 p2 (l2 :: (List.replicate k2 32 ++ rest2)))
    (ha1 : IS_ALPHA l1 = true) (ha2 : IS_ALPHA l2 = true)
    (hr1 : rest1.head? ≠ some 32) (hr2 : rest2.head? ≠ some 32)
    (hf1 : k1 + rest1.length + 1 < fuel) (hf2 : k2 + rest2.length + 1 < fuel) :
    ∃ q1 q2 v1 v2,
      basic_parsing_varname fuel m1 p1 out1 = some (.OK, q1, v1) ∧
      basic_parsing_varname fuel m2 p2 out2 = some (.OK, q2, v2) ∧
      (v1 = v2 ↔ l1 = l2 ∧ name_digit rest1 = name_digit rest2) ∧
      v1 ≠ var_name_empty ∧ v1 < 65536 ∧
      (name_digit rest1 = none → v1 = l1 ∧ v1 / 256 = 0) ∧
      (∀ d, name_digit rest1 = some d → v1 = l1 * 256 + d ∧ v1 / 256 = l1 ∧ v1 % 256 = d) := by
  obtain ⟨q1, e1⟩ := varname_packs fuel m1 p1 out1 k1 l1 rest1 hs1 ha1 hr1 hf1
  obtain ⟨q2, e2⟩ := varname_packs fuel m2 p2 out2 k2 l2 rest2 hs2 ha2 hr2 hf2
  have hl1 := name_digit_legal l1 rest1 ha1
  have hl2 := name_digit_legal l2 rest2 ha2
  refine ⟨q1, q2, _, _, e1, e2, spec_pack_inj hl1 hl2, ?_, ?_, ?_, ?_⟩
  · have a1 := ha1
    simp only [IS_ALPHA, decide_eq_true_eq] at a1
    cases hd : name_digit rest1 with
    | none => simp only [spec_pack, var_name_empty]; omega
    | some d => simp only [spec_pack, var_name_empty]; omega
  · have a1 := ha1
    simp only [IS_ALPHA, decide_eq_true_eq] at a1
    cases hd : name_digit rest1 with
    | none => simp only [spec_pack]; omega
    | some d =>
      have := hl1.2 d (by rw [hd]; rfl)
      simp only [IS_DIGIT, decide_eq_true_eq] at this
      simp only [spec_pack]; omega
  · intro hd
    have a1 := ha1
    simp only [IS_ALPHA, decide_eq_true_eq] at a1
    rw [hd]
    show l1 = l1 ∧ l1 / 256 = 0
    exact ⟨rfl, by omega⟩
  · intro d hd
    have a1 := ha1
    simp only [IS_ALPHA, decide_eq_true_eq] at a1
    have := hl1.2 d (by rw [hd]; rfl)
    simp only [IS_DIGIT, decide_eq_true_eq] at this
    rw [hd]
    show l1 * 256 + d = l1 * 256 + d ∧ (l1 * 256 + d) / 256 = l1 ∧ (l1 * 256 + d) % 256 = d
    exact ⟨rfl, by omega, by omega⟩

/-- Witness of C40: the texts `A  1=2` and `A1` give the same packed name
`65 * 256 + 49`. -/
theorem C40_varname_packing_witness :
    IsCStr (mem_of_string 0 [65, 32, 32, 49, 61, 50]) 0 (65 :: (List.replicate 2 32 ++ [49, 61, 50])) ∧
    IsCStr (mem_of_string 4 [65, 49]) 4 (65 :: (List.replicate 0 32 ++ [49])) ∧
    ∃ q1 q2 v1 v2,
      basic_parsing_varname 9 (mem_of_string 0 [65, 32, 32, 49, 61, 50]) 0 0 = some (.OK, q1, v1) ∧
      basic_parsing_varname 9 (mem_of_string 4 [65, 49]) 4 0 = some (.OK, q2, v2) ∧
      (v1 = v2 ↔ 65 = 65 ∧ name_digit [49, 61, 50] = name_digit [49]) ∧
      v1 ≠ var_name_empty ∧ v1 < 65536 ∧
      (name_digit [49, 61, 50] = none → v1 = 65 ∧ v1 / 256 = 0) ∧
      (∀ d, name_digit [49, 61, 50] = some d → v1 = 65 * 256 + d ∧ v1 / 256 = 65 ∧ v1 % 256 = d) :=
  ⟨by decide, by decide,
    C40_varname_packing 9 _ _ 0 4 0 0 2 0 65 65 [49, 61, 50] [49] (by decide) (by decide)
      (by decide) (by decide) (by decide) (by decide) (by decide) (by decide)⟩

theorem array_offset_shift {var : Nat} (k : Nat) : ∀ (arrs : List (Nat × Nat)) (a : Nat),
    array_offset var arrs (a + k) =
      (array_offset var arrs a).map (fun r => (r.1 + k, r.2))
  | [], _ => rfl
  | (n, bs) :: rest, a => by
    simp only [array_offset]
    by_cases hv : n = var
    · simp [hv]
    · rw [if_neg hv, if_neg hv,
        show a + k + sizeof_ARRAY_VARIABLE_HEADER + bs = a + sizeof_ARRAY_VARIABLE_HEADER + bs + k
          by omega]
      exact array_offset_shift k rest _

/-- The arena after `variable_storage_create_var` makes the record of a new
scalar. -/
theorem create_var_new (s : BASIC_MEM_MGR) (var : Nat) (ho : ArenaOrdered s)
    (h6 : (s.array_idx - s.vars_idx) % 6 = 0) (hv : var < 65536)
    (hn : var ∉ scalar_region s) (hs : 6 ≤ s.stktop_idx - s.free_idx) :
    ∃ t, variable_storage_create_var s var = (some (s.array_idx + 2), t) ∧
      t.vars_idx = s.vars_idx ∧ t.array_idx = s.array_idx + 6 ∧
      t.free_idx = s.free_idx + 6 ∧ t.stktop_idx = s.stktop_idx ∧ t.max_idx = s.max_idx ∧
      mem_read_list t.base s.array_idx 6 = [var % 256, var / 256, 0, 0, 0, 0] ∧
      (∀ a, a < s.array_idx → t.base a = s.base a) ∧
      (∀ a, s.array_idx ≤ a → a < s.free_idx → t.base (a + 6) = s.base a) ∧
      (∀ a, s.free_idx + 6 ≤ a → t.base a = s.base a) ∧
      scalar_region t = scalar_region s ++ [var] := by
  have hc := create_var_absent s var ho h6 hn
  rw [if_neg (by omega)] at hc
  obtain ⟨h1, h2, h3, h4, h5⟩ := ho
  obtain ⟨m1, m2, m3, m4⟩ := create_var_mem s.base s.array_idx s.free_idx var h2
    (by omega) hv
  refine ⟨_, hc, rfl, rfl, rfl, rfl, rfl, m1, m2, m3, m4, ?_⟩
  have hdiv := Nat.div_add_mod (s.array_idx - s.vars_idx) 6
  have hn1 : (s.array_idx + 6 - s.vars_idx) / 6 = (s.array_idx - s.vars_idx) / 6 + 1 := by
    omega
  simp only [scalar_region, sizeof_VARIABLE_ENTRY, hn1]
  rw [scalar_names_succ, scalar_names_congr _ _ (fun x hx1 hx2 => m2 x (by omega))]
  have e0 : s.vars_idx + 6 * ((s.array_idx - s.vars_idx) / 6) = s.array_idx := by omega
  simp only [mem_read_list, List.cons.injEq] at m1
  rw [e0, m1.1, m1.2.1, le16]
  congr 2
  omega

/-- C35: `variable_storage_create_var` on a new name, with at least 6 bytes
free, in an arena whose array region holds the records `arrs`: the region is
moved up by 6 bytes unchanged (the byte at `a + 6` is the old byte at `a`), the
records are the same list of names and sizes, every scalar reads the value it
had (the new one reads 0, as an absent scalar does), and every access to an
element of an array of `arrs` gives the same result, the pointer 6 higher and
the same value.  The block sizes are multiples of 4, as those of all the
arrays the code creates. -/
theorem C35_create_var_keeps_arrays (s : BASIC_MEM_MGR) (var : Nat)
    (arrs : List (Nat × Nat)) (ho : ArenaOrdered s)
    (h6 : (s.array_idx - s.vars_idx) % 6 = 0) (hv : var < 65536) (hw : ArraysWF s arrs)
    (h4 : ∀ x ∈ arrs, x.2 % 4 = 0)
    (hn : var ∉ scalar_region s) (hs : 6 ≤ s.stktop_idx - s.free_idx) :
    ∃ t, variable_storage_create_var s var = (some (s.array_idx + 2), t) ∧
      t.array_idx = s.array_idx + 6 ∧ t.free_idx = s.free_idx + 6 ∧
      (∀ a, s.array_idx ≤ a → a < s.free_idx → t.base (a + 6) = s.base a) ∧
      ArraysWF t arrs ∧
      (∀ v, variable_storage_read_var t v = variable_storage_read_var s v) ∧
      ∀ name sub, (∃ bs, (name, bs) ∈ arrs) →
        ∃ r pval, variable_storage_create_array_var s name sub false = (r, pval, s) ∧
          variable_storage_create_array_var t name sub false =
            (r, if r = .OK then pval + 6 else pval, t) ∧
          (r = .OK → mem_read_f32 t.base (pval + 6) = mem_read_f32 s.base pval) := by
  obtain ⟨t, e0, e1, e2, e3, e4, e5, m1, m2, m3, m4, hreg⟩ :=
    create_var_new s var ho h6 hv hn hs
  obtain ⟨o1, o2, o3, o4, o5⟩ := ho
  obtain ⟨hat, hsz⟩ := hw
  have hwt : ArraysWF t arrs := by
    refine ⟨?_, by rw [e2, e3]; omega⟩
    rw [e2]
    exact ArraysAt_shift 6 arrs s.array_idx (fun x h1 h2 => m3 x h1 (by omega)) hat
  refine ⟨t, e0, e2, e3, m3, hwt, ?_, ?_⟩
  · intro v
    have hdiv := Nat.div_add_mod (s.array_idx - s.vars_idx) 6
    have hlen : (scalar_region s).length = (s.array_idx - s.vars_idx) / 6 :=
      scalar_names_length _ _ _
    simp only [variable_storage_read_var,
      lookup_var_spec t v (by omega) (by rw [e1, e2]; omega),
      lookup_var_spec s v o1 h6, hreg, e1]
    by_cases hm : v ∈ scalar_region s
    · have hi := List.indexOf_lt_length.2 hm
      simp only [hm, List.mem_append, true_or, if_true, List.indexOf_append_of_mem hm]
      apply mem_read_f32_congr
      intro x hx1 hx2
      exact m2 x (by omega)
    · by_cases hvv : v = var
      · subst hvv
        simp only [hm, List.mem_append, List.mem_singleton, or_true, if_true, if_false]
        rw [List.indexOf_append_of_not_mem hm]
        simp only [List.indexOf_cons_self, Nat.add_zero, hlen]
        rw [show s.vars_idx + 6 * ((s.array_idx - s.vars_idx) / 6) + 2 = s.array_idx + 2 by omega]
        simp only [mem_read_list, List.cons.injEq] at m1
        apply Fin.ext
        simp only [mem_read_f32]
        rw [show s.array_idx + 2 + 1 = s.array_idx + 1 + 1 + 1 by omega,
          show s.array_idx + 2 + 2 = s.array_idx + 1 + 1 + 1 + 1 by omega,
          show s.array_idx + 2 + 3 = s.array_idx + 1 + 1 + 1 + 1 + 1 by omega,
          show s.array_idx + 2 = s.array_idx + 1 + 1 by omega,
          m1.2.2.1, m1.2.2.2.1, m1.2.2.2.2.1, m1.2.2.2.2.2.1]
        rfl
      · simp [hm, hvv]
  · intro name sub hex
    obtain ⟨off, bs, hoff⟩ := array_offset_of_mem arrs s.array_idx hex
    obtain ⟨b1, b2, b3, b4⟩ := array_offset_block arrs s.array_idx hat hoff
    have hofft : array_offset name arrs t.array_idx = some (off + 6, bs) := by
      rw [e2, array_offset_shift 6 arrs s.array_idx, hoff]
      rfl
    obtain ⟨c1, c2, c3, c4⟩ := array_offset_block arrs t.array_idx hwt.1 hofft
    have hbs4 : bs % 4 = 0 := h4 (name, bs) b2
    rw [create_array_found s name sub false arrs ⟨hat, hsz⟩ hoff b1,
      create_array_found t name sub false arrs hwt hofft c1]
    simp only [Bool.false_eq_true, if_false]
    by_cases hsub : sub * 4 ≥ bs
    · exact ⟨.SUBSCRIPT, 0, by rw [if_pos hsub], by rw [if_pos hsub]; rfl, fun h => by cases h⟩
    · refine ⟨.OK, off + 4 + 4 * sub, by rw [if_neg hsub], ?_, fun _ => ?_⟩
      · rw [if_neg hsub]
        simp only [if_true]
        rw [show off + 6 + 4 + 4 * sub = off + 4 + 4 * sub + 6 by omega]
      · apply Fin.ext
        simp only [mem_read_f32]
        rw [show off + 4 + 4 * sub + 6 + 1 = off + 4 + 4 * sub + 1 + 6 by omega,
          show off + 4 + 4 * sub + 6 + 2 = off + 4 + 4 * sub + 2 + 6 by omega,
          show off + 4 + 4 * sub + 6 + 3 = off + 4 + 4 * sub + 3 + 6 by omega,
          m3 _ (by omega) (by omega), m3 _ (by omega) (by omega), m3 _ (by omega) (by omega),
          m3 _ (by omega) (by omega)]

/-- Witness of C35: the scalar `C` is created in `array_demo_arena`, which holds
the scalar `A` and the array `B` of two elements. -/
theorem C35_create_var_keeps_arrays_witness :
    (ArenaOrdered array_demo_arena ∧ ArraysWF array_demo_arena [(66, 8)] ∧
      67 ∉ scalar_region array_demo_arena) ∧
    ∃ t, variable_storage_create_var array_demo_arena 67 =
        (some (array_demo_arena.array_idx + 2), t) ∧
      t.array_idx = array_demo_arena.array_idx + 6 ∧
      t.free_idx = array_demo_arena.free_idx + 6 ∧
      (∀ a, array_demo_arena.array_idx ≤ a → a < array_demo_arena.free_idx →
        t.base (a + 6) = array_demo_arena.base a) ∧
      ArraysWF t [(66, 8)] ∧
      (∀ v, variable_storage_read_var t v = variable_storage_read_var array_demo_arena v) ∧
      ∀ name sub, (∃ bs, (name, bs) ∈ [(66, 8)]) →
        ∃ r pval, variable_storage_create_array_var array_demo_arena name sub false =
            (r, pval, array_demo_arena) ∧
          variable_storage_create_array_var t name sub false =
            (r, if r = .OK then pval + 6 else pval, t) ∧
          (r = .OK → mem_read_f32 t.base (pval + 6) = mem_read_f32 array_demo_arena.base pval) :=
  ⟨⟨by decide, by decide, by decide⟩,
    C35_create_var_keeps_arrays array_demo_arena 67 [(66, 8)] (by decide) (by decide) (by decide)
      (by decide) (by decide) (by decide) (by decide)⟩

theorem ZeroArraysAt_congr {m m' : Mem} : ∀ (names : List Nat) (a : Nat),
    (∀ x, a ≤ x → x < a + 48 * names.length → m' x = m x) → ZeroArraysAt m a names →
    ZeroArraysAt m' a names
  | [], _, _, _ => trivial
  | n :: rest, a, h, hz => by
    simp only [ZeroArraysAt, List.length_cons] at hz h ⊢
    obtain ⟨z1, z2, z3, z4⟩ := hz
    rw [h a (by omega) (by omega), h (a + 1) (by omega) (by omega),
      h (a + 2) (by omega) (by omega), h (a + 3) (by omega) (by omega)]
    refine ⟨z1, z2, fun i hi => ?_, ZeroArraysAt_congr rest _
      (fun x h1 h2 => h x (by omega) (by omega)) z4⟩
    rw [h _ (by omega) (by omega)]
    exact z3 i hi

theorem ZeroArraysAt_arrays {m : Mem} : ∀ (names : List Nat) (a : Nat),
    ZeroArraysAt m a names → ArraysAt m a (names.map (fun n => (n, 44))) ∧
      arrays_size (names.map (fun n => (n, 44))) = 48 * names.length
  | [], _, _ => ⟨trivial, rfl⟩
  | n :: rest, a, hz => by
    simp only [ZeroArraysAt] at hz
    obtain ⟨z1, z2, _, z4⟩ := hz
    obtain ⟨i1, i2⟩ := ZeroArraysAt_arrays rest (a + 48) z4
    simp only [List.map_cons, ArraysAt, arrays_size, sizeof_ARRAY_VARIABLE_HEADER,
      List.length_cons]
    exact ⟨⟨z1, z2, i1⟩, by omega⟩

/-- What one iteration of the evaluator adds to the array region: no record,
or one record whose name satisfies `Q` and is the name of no record of the
region. -/
theorem FreeStep.appended {Q : Nat → Prop} {M0 mem mem1 : BASIC_MEM_MGR} {K1 : List Nat}
    (hk : ExprStack { mem with stktop_idx := M0.stktop_idx } mem1 K1)
    (hfs : FreeStep Q mem mem1) :
    ∃ news, mem1.free_idx = mem.free_idx + 48 * news.length ∧
      ZeroArraysAt mem1.base mem.free_idx news ∧
      (∀ x, x < mem.free_idx → mem1.base x = mem.base x) ∧
      (∀ n ∈ news, Q n) ∧ news.Nodup ∧
      ∀ arrs, ArraysWF mem arrs → ∀ n ∈ news, ∀ x ∈ arrs, x.1 ≠ n := by
  have hsame : ∀ x, x < mem.free_idx → mem1.base x = mem.base x :=
    fun x hx => hk.same x (Or.inl hx)
  rcases hfs with hfs | ⟨hfs, hhd, hz, hq, habs⟩
  · exact ⟨[], by simpa using hfs, trivial, hsame, by simp, by simp, by simp⟩
  · refine ⟨[le16 (mem1.base mem.free_idx) (mem1.base (mem.free_idx + 1))], by simpa using hfs,
      ⟨rfl, hhd, fun i hi => hz _ (by omega) (by omega), trivial⟩, hsame, ?_, by simp, ?_⟩
    · intro n hn
      simp only [List.mem_singleton] at hn
      rw [hn]
      exact hq
    · intro arrs hw n hn x hx
      simp only [List.mem_singleton] at hn
      rw [hn]
      exact habs arrs hw x hx

theorem ZeroArraysAt_cons_append {m : Mem} : ∀ (l1 l2 : List Nat) (a : Nat),
    ZeroArraysAt m a l1 → ZeroArraysAt m (a + 48 * l1.length) l2 → ZeroArraysAt m a (l1 ++ l2)
  | [], l2, a, _, h => by simpa using h
  | n :: rest, l2, a, h1, h2 => by
    simp only [ZeroArraysAt, List.cons_append] at h1 ⊢
    refine ⟨h1.1, h1.2.1, h1.2.2.1, ZeroArraysAt_cons_append rest l2 (a + 48) h1.2.2.2 ?_⟩
    rw [show a + 48 + 48 * rest.length = a + 48 * (n :: rest).length by
      simp only [List.length_cons]; omega]
    exact h2

/-- The array region with new records of 11 zero elements behind it. -/
theorem ArraysWF_appended {s m1 : BASIC_MEM_MGR} {arrs : List (Nat × Nat)} {news : List Nat}
    (hw : ArraysWF s arrs) (ha : m1.array_idx = s.array_idx)
    (hf : m1.free_idx = s.free_idx + 48 * news.length)
    (hz : ZeroArraysAt m1.base s.free_idx news)
    (hs : ∀ x, x < s.free_idx → m1.base x = s.base x) :
    ArraysWF m1 (arrs ++ news.map (fun n => (n, 44))) := by
  obtain ⟨hat, hsz⟩ := hw
  obtain ⟨z1, z2⟩ := ZeroArraysAt_arrays news s.free_idx hz
  refine ⟨?_, ?_⟩
  · rw [ha, ArraysAt_append, hsz]
    exact ⟨ArraysAt_congr arrs _ (fun x _ hx => hs x (by omega)) hat, z1⟩
  · rw [ha, hf, arrays_size_append, z2]
    omega

/-- The loop of the evaluator returns, and what it has added to the array
region is a chain of records of 11 zero elements, each for a name that
satisfies `Q` and had no record, no name twice; nothing below the free index
at entry has changed, nor anything below the free index of a state that the
loop has gone through. -/
theorem engine_loop_appends {Q : Nat → Prop} (P : FPU) (fuel pp : Nat) (out : F32)
    {M0 : BASIC_MEM_MGR} {e p0 : Nat} (h0 : M0.base e = 0)
    (hout : e < M0.free_idx ∨ M0.stktop_idx ≤ p0) (hf : e - p0 + 1 < fuel)
    (hQ : ∀ a a1 n, p0 ≤ a → a < e → IS_ALPHA (M0.base a) = true →
      basic_parsing_varname fuel M0.base a 0 = some (.OK, a1, n) → M0.base a1 = 40 → Q n) :
    ∀ (n : Nat) (σ : EngState) (K : List Nat) (w : Nat) (arrs : List (Nat × Nat)),
      ExprStack M0 σ.mem K → EngInv Q σ.state K w → p0 ≤ σ.p → σ.p ≤ e →
      5 * (e - σ.p) + w < n → ArraysWF σ.mem arrs →
      ∃ r p1 o m1 sd K1 news, engine_loop P fuel pp out n σ = .ret r p1 o m1 sd ∧
        ExprStack M0 m1 K1 ∧ m1.free_idx = σ.mem.free_idx + 48 * news.length ∧
        ZeroArraysAt m1.base σ.mem.free_idx news ∧
        (∀ x, x < σ.mem.free_idx → m1.base x = σ.mem.base x) ∧
        (∀ v ∈ news, Q v) ∧ news.Nodup ∧ (∀ v ∈ news, ∀ x ∈ arrs, x.1 ≠ v) ∧
        ∀ k σk, engine_iter P fuel k σ = some σk →
          σk.mem.free_idx ≤ m1.free_idx ∧ ∀ x, x < σk.mem.free_idx → m1.base x = σk.mem.base x
  | 0, _, _, _, _, _, _, _, _, hn, _ => by omega
  | n + 1, σ, K, w, arrs, hk, hi, hp0, hpe, hn, hw => by
    by_cases hs : σ.state = PARSE_EXPR_STATE_EXITING
    · refine ⟨_, _, _, _, _, K, [], engine_loop_exit P fuel pp out n hs, hk, by simp, trivial,
        fun _ _ => rfl, by simp, by simp, by simp, fun k σk hit => ?_⟩
      cases k with
      | zero =>
        simp only [engine_iter, Option.some.injEq] at hit
        subst hit
        exact ⟨Nat.le_refl _, fun _ _ => rfl⟩
      | succ k => simp [engine_iter, hs] at hit
    · have ht : SameText M0.base σ.mem.base σ.p e := hk.text h0 hout hp0 hpe
      have h0' : σ.mem.base e = 0 := by rw [ht.2.2 e hpe (Nat.le_refl _)]; exact ht.2.1
      have hreb := progress_step (Q := fun _ => True) P fuel hk.rebase
        (hi.weaken_names (fun _ _ => trivial)) hs hpe (SameText.refl hpe h0') (by omega)
        (fun _ _ _ _ _ _ _ _ => trivial)
      have hQσ : ∀ a a1 v, σ.p ≤ a → a < e → IS_ALPHA (M0.base a) = true →
          basic_parsing_varname fuel M0.base a 0 = some (.OK, a1, v) → M0.base a1 = 40 → Q v :=
        fun a a1 v h1 h2 h3 h4 h5 => hQ a a1 v (by omega) h2 h3 h4 h5
      rcases progress_step P fuel hk hi hs hpe ht (by omega) hQσ with
        ⟨σ1, K1, w1, e1, k1, i1, hp1, hpe1, hφ, fs⟩ | ⟨r, σ1, K1, e1, k1, fs⟩
      · have hadd : ∃ news, σ1.mem.free_idx = σ.mem.free_idx + 48 * news.length ∧
            ZeroArraysAt σ1.mem.base σ.mem.free_idx news ∧
            (∀ x, x < σ.mem.free_idx → σ1.mem.base x = σ.mem.base x) ∧
            (∀ v ∈ news, Q v) ∧ news.Nodup ∧
            ∀ arrs, ArraysWF σ.mem arrs → ∀ v ∈ news, ∀ x ∈ arrs, x.1 ≠ v := by
          rcases hreb with ⟨σ2, K2, w2, e2, k2, _, _, _, _, _⟩ | ⟨r, σ2, K2, e2, _, _⟩
          · rw [e1] at e2
            cases e2
            exact @FreeStep.appended Q M0 _ _ _ k2 fs
          · rw [e1] at e2
            cases e2
        obtain ⟨l1, a1, a2, a3, a4, a5, a6⟩ := hadd
        have hw1 : ArraysWF σ1.mem (arrs ++ l1.map (fun v => (v, 44))) :=
          ArraysWF_appended hw (k1.arr.trans hk.arr.symm) a1 a2 a3
        rw [engine_loop_next P fuel pp out n hs e1]
        obtain ⟨r, p1, o, m1, sd, K2, l2, b1, b2, b3, b4, b5, b6, b7, b8, b9⟩ :=
          engine_loop_appends P fuel pp out h0 hout hf hQ n σ1 K1 w1 _ k1 i1 (by omega) hpe1
            (by omega) hw1
        refine ⟨r, p1, o, m1, sd, K2, l1 ++ l2, b1, b2, ?_, ?_, ?_, ?_, ?_, ?_, ?_⟩
        · rw [b3, a1, List.length_append]; omega
        · apply ZeroArraysAt_cons_append
          · exact ZeroArraysAt_congr l1 _ (fun x _ hx => b5 x (by omega)) a2
          · rw [← a1]; exact b4
        · intro x hx
          rw [b5 x (by omega), a3 x hx]
        · intro v hv
          rcases List.mem_append.1 hv with h | h
          · exact a4 v h
          · exact b6 v h
        · rw [List.nodup_append]
          refine ⟨a5, b7, fun v h1 h2 => ?_⟩
          exact b8 v h2 (v, 44) (List.mem_append_right _ (List.mem_map.2 ⟨v, h1, rfl⟩)) rfl
        · intro v hv x hx
          rcases List.mem_append.1 hv with h | h
          · exact a6 arrs hw v h x hx
          · exact b8 v h x (List.mem_append_left _ hx)
        · intro k σk hit
          cases k with
          | zero =>
            simp only [engine_iter, Option.some.injEq] at hit
            subst hit
            refine ⟨by rw [b3, a1]; omega, fun x hx => ?_⟩
            rw [b5 x (by omega), a3 x hx]
          | succ k =>
            simp only [engine_iter, hs, if_false, e1] at hit
            exact b9 k σk hit
      · have hadd : ∃ news, σ1.mem.free_idx = σ.mem.free_idx + 48 * news.length ∧
            ZeroArraysAt σ1.mem.base σ.mem.free_idx news ∧
            (∀ x, x < σ.mem.free_idx → σ1.mem.base x = σ.mem.base x) ∧
            (∀ v ∈ news, Q v) ∧ news.Nodup ∧
            ∀ arrs, ArraysWF σ.mem arrs → ∀ v ∈ news, ∀ x ∈ arrs, x.1 ≠ v := by
          rcases hreb with ⟨σ2, K2, w2, e2, _, _, _, _, _, _⟩ | ⟨r2, σ2, K2, e2, k2, _⟩
          · rw [e1] at e2
            cases e2
          · rw [e1] at e2
            cases e2
            exact @FreeStep.appended Q M0 _ _ _ k2 fs
        obtain ⟨l1, a1, a2, a3, a4, a5, a6⟩ := hadd
        refine ⟨_, _, _, _, _, K1, l1, engine_loop_ret P fuel pp out n hs e1, k1, a1, a2, a3,
          a4, a5, fun v hv x hx => a6 arrs hw v hv x hx, fun k σk hit => ?_⟩
        cases k with
        | zero =>
          simp only [engine_iter, Option.some.injEq] at hit
          subst hit
          exact ⟨by rw [a1]; omega, a3⟩
        | succ k => simp [engine_iter, hs, e1] at hit

/-- The evaluator returns, and all it has changed below the stack top at entry,
outside what is the free area at the end, is a chain of new array records of 11
zero elements appended at the free index at entry, for names that are
referenced as arrays in the text and had no record; what lies below the free
index after any number of iterations of the loop is still there at the
return. -/
theorem expression_appends (P : FPU) (fuel p e : Nat) (out : F32) (s : BASIC_MEM_MGR)
    (seed : Nat) (arrs : List (Nat × Nat)) (ho : ArenaOrdered s) (hw : ArraysWF s arrs)
    (hpe : p ≤ e) (h0 : s.base e = 0)
    (hout : e < s.free_idx ∨ s.stktop_idx ≤ p) (hf : 5 * (e - p) + 3 ≤ fuel) :
    ∃ r p1 o m1 sd news, basic_parsing_expression P fuel p out s seed = .ret r p1 o m1 sd ∧
      m1.stktop_idx = s.stktop_idx ∧ m1.vars_idx = s.vars_idx ∧ m1.array_idx = s.array_idx ∧
      m1.max_idx = s.max_idx ∧ m1.free_idx = s.free_idx + 48 * news.length ∧
      m1.free_idx ≤ s.stktop_idx ∧ ZeroArraysAt m1.base s.free_idx news ∧
      (∀ x, x < s.free_idx ∨ s.stktop_idx ≤ x → m1.base x = s.base x) ∧
      (∀ v ∈ news, ArrayRefIn fuel s.base p e v) ∧ news.Nodup ∧
      (∀ v ∈ news, ∀ x ∈ arrs, x.1 ≠ v) ∧
      ∀ m0, fgstack_push_expression s [PARSE_EXPR_STATE_EXITING] = (true, m0) →
        ∀ k σk, engine_iter P fuel k (engine_init p m0 seed) = some σk →
          σk.mem.free_idx ≤ m1.free_idx ∧ ∀ x, x < σk.mem.free_idx → m1.base x = σk.mem.base x := by
  obtain ⟨o1, o2, o3, o4, o5⟩ := ho
  have hk0 := ExprStack.init s o3 o4 o5
  have main : ∃ r p1 o m1 sd K1 news, expression_engine_norecurse P fuel p out s seed =
      .ret r p1 o m1 sd ∧ ExprStack s m1 K1 ∧ m1.free_idx = s.free_idx + 48 * news.length ∧
      ZeroArraysAt m1.base s.free_idx news ∧
      (∀ v ∈ news, ArrayRefIn fuel s.base p e v) ∧ news.Nodup ∧
      (∀ v ∈ news, ∀ x ∈ arrs, x.1 ≠ v) ∧
      ∀ m0, fgstack_push_expression s [PARSE_EXPR_STATE_EXITING] = (true, m0) →
        ∀ k σk, engine_iter P fuel k (engine_init p m0 seed) = some σk →
          σk.mem.free_idx ≤ m1.free_idx ∧
            ∀ x, x < σk.mem.free_idx → m1.base x = σk.mem.base x := by
    by_cases hg : 1 ≤ s.stktop_idx - s.free_idx
    · obtain ⟨m1, e1, k1, f1⟩ := hk0.push [PARSE_EXPR_STATE_EXITING]
        (by intro c hc; simp at hc; subst hc; decide) (by simpa using hg)
      have hw1 : ArraysWF m1 arrs := by
        have := @ArraysWF_appended _ _ _ [] hw k1.arr (by simpa using f1) trivial
          (fun x hx => k1.same x (Or.inl hx))
        simpa using this
      obtain ⟨r, p1, o, m2, sd, K2, news, l1, l2, l3, l4, _, l6, l7, l8, l9⟩ :=
        engine_loop_appends (Q := ArrayRefIn fuel s.base p e) P fuel p out h0 hout (by omega)
          (fun a a1 v h1 h2 h3 h4 h5 => ⟨a, a1, h1, h2, h3, h4, h5⟩)
          fuel (engine_init p m1 seed) _ (1 + 1) arrs k1 (.expression .exiting)
          (Nat.le_refl _) hpe (by
            show 5 * (e - p) + (1 + 1) < fuel
            omega) hw1
      have hfi : (engine_init p m1 seed).mem.free_idx = s.free_idx := f1
      refine ⟨r, p1, o, m2, sd, K2, news, ?_, l2, ?_, ?_, l6, l7, l8, ?_⟩
      · simp only [expression_engine_norecurse, e1]
        exact l1
      · rw [l3, hfi]
      · rw [hfi] at l4
        exact l4
      · intro m0 hm0 k σk hit
        rw [e1] at hm0
        simp only [Prod.mk.injEq, true_and] at hm0
        subst hm0
        exact l9 k σk hit
    · have hpf := hk0.push_fail [PARSE_EXPR_STATE_EXITING] (by simpa using hg)
      refine ⟨.OUT_OF_MEMORY, p, out, s, seed, [], [], ?_, hk0, by simp, trivial, by simp,
        by simp, by simp, fun m0 hm0 => ?_⟩
      · simp only [expression_engine_norecurse, hpf]
      · rw [hpf] at hm0
        simp at hm0
  obtain ⟨r, p1, o, m1, sd, K1, news, e1, k1, a1, a2, a3, a4, a5, a6⟩ := main
  refine ⟨r, p1, o, _, sd, news, basic_parsing_expression_of_engine P fuel p out s seed e1, rfl,
    k1.vars, k1.arr, k1.max, a1, ?_, a2, k1.same, a3, a4, a5, a6⟩
  have := k1.free_le
  have := k1.top
  show m1.free_idx ≤ s.stktop_idx
  omega

theorem array_offset_append_left {var : Nat} : ∀ (l1 l2 : List (Nat × Nat)) (a : Nat)
    {off bs : Nat}, array_offset var l1 a = some (off, bs) →
    array_offset var (l1 ++ l2) a = some (off, bs)
  | [], _, _, _, _, h => by simp [array_offset] at h
  | (n, b) :: rest, l2, a, off, bs, h => by
    simp only [array_offset, List.cons_append] at h ⊢
    by_cases hv : n = var
    · rw [if_pos hv] at h ⊢
      exact h
    · rw [if_neg hv] at h ⊢
      exact array_offset_append_left rest l2 _ h

/-- The loop of the evaluator takes `k` more iterations to get from `σ` to the
state that `engine_iter` gives. -/
theorem engine_iter_loop (P : FPU) (fuel pp : Nat) (out : F32) : ∀ (k : Nat) (σ σk : EngState),
    engine_iter P fuel k σ = some σk → ∀ n,
    engine_loop P fuel pp out (n + k) σ = engine_loop P fuel pp out n σk
  | 0, σ, σk, h, n => by
    simp only [engine_iter, Option.some.injEq] at h
    rw [h]
    rfl
  | k + 1, σ, σk, h, n => by
    by_cases hs : σ.state = PARSE_EXPR_STATE_EXITING
    · simp [engine_iter, hs] at h
    · simp only [engine_iter, hs, if_false] at h
      cases hst : engine_step P fuel σ with
      | next σ1 =>
        rw [hst] at h
        rw [show n + (k + 1) = (n + k) + 1 by omega, engine_loop_next P fuel pp out _ hs hst]
        exact engine_iter_loop P fuel pp out k σ1 σk h n
      | ret r σ1 => rw [hst] at h; cases h
      | abort => rw [hst] at h; cases h
      | out_of_fuel => rw [hst] at h; cases h

/-- C36: `basic_parsing_expression` returns on every NUL-terminated text
outside the free area, whatever its result `r`; `vars_idx`, `array_idx`, the
stack top and `max_idx` are unchanged, no byte below the free index at entry
(program text, scalars, arrays) or above the stack top has changed, and what
lies between the free index at entry and the free index at the end is a chain
of new array records with block size 44 (11 elements) that are all zero; the
array region is the old chain followed by the new records, every scalar reads
the value it had, and every access to an element of an array that existed
gives the same result, pointer and value.  The names `news` of the new records
are names that the text references as arrays (`ArrayRefIn`: the name, then an
opening parenthesis), no name twice and none that had a record at entry.
Whatever the result, what has been allocated at any moment of the evaluation
stays: after any number `k` of iterations of the loop of the evaluator
(`engine_iter`), the free index of the state is not above the free index at the
return, and every byte below it is at the return what it was in that state. -/
theorem C36_expression_frame (P : FPU) (fuel p e : Nat) (out : F32) (s : BASIC_MEM_MGR)
    (seed : Nat) (arrs : List (Nat × Nat)) (ho : ArenaOrdered s)
    (h6 : (s.array_idx - s.vars_idx) % 6 = 0) (hw : ArraysWF s arrs)
    (h4 : ∀ x ∈ arrs, x.2 % 4 = 0) (hpe : p ≤ e) (h0 : s.base e = 0)
    (hout : e < s.free_idx ∨ s.stktop_idx ≤ p) (hf : 5 * (e - p) + 3 ≤ fuel) :
    ∃ r p1 o m1 sd news, basic_parsing_expression P fuel p out s seed = .ret r p1 o m1 sd ∧
      m1.vars_idx = s.vars_idx ∧ m1.array_idx = s.array_idx ∧
      m1.stktop_idx = s.stktop_idx ∧ m1.max_idx = s.max_idx ∧
      (∀ x, x < s.free_idx ∨ s.stktop_idx ≤ x → m1.base x = s.base x) ∧
      m1.free_idx = s.free_idx + 48 * news.length ∧ m1.free_idx ≤ s.stktop_idx ∧
      ZeroArraysAt m1.base s.free_idx news ∧
      ArraysWF m1 (arrs ++ news.map (fun n => (n, 44))) ∧
      (∀ v, variable_storage_read_var m1 v = variable_storage_read_var s v) ∧
      (∀ name sub, (∃ bs, (name, bs) ∈ arrs) →
        ∃ r2 pval, variable_storage_create_array_var s name sub false = (r2, pval, s) ∧
          variable_storage_create_array_var m1 name sub false = (r2, pval, m1) ∧
          (r2 = .OK → mem_read_f32 m1.base pval = mem_read_f32 s.base pval)) ∧
      (∀ v ∈ news, ArrayRefIn fuel s.base p e v) ∧ news.Nodup ∧
      (∀ v ∈ news, ∀ bs, (v, bs) ∉ arrs) ∧
      ∀ m0, fgstack_push_expression s [PARSE_EXPR_STATE_EXITING] = (true, m0) →
        ∀ k σk, engine_iter P fuel k (engine_init p m0 seed) = some σk →
          σk.mem.free_idx ≤ m1.free_idx ∧
            ∀ x, x < σk.mem.free_idx → m1.base x = σk.mem.base x := by
  obtain ⟨r, p1, o, m1, sd, news, e1, e2, e3, e4, e5, e6, e7, e8, e9, e10, e11, e12, e13⟩ :=
    expression_appends P fuel p e out s seed arrs ho hw hpe h0 hout hf
  obtain ⟨o1, o2, o3, o4, o5⟩ := ho
  have hwt : ArraysWF m1 (arrs ++ news.map (fun n => (n, 44))) :=
    ArraysWF_appended hw e4 e6 e8 (fun x hx => e9 x (Or.inl hx))
  obtain ⟨hat, hsz⟩ := hw
  refine ⟨r, p1, o, m1, sd, news, e1, e3, e4, e2, e5, e9, e6, e7, e8, hwt, ?_, ?_, e10, e11,
    fun v hv bs hmem => e12 v hv (v, bs) hmem rfl, e13⟩
  · intro v
    have hdiv := Nat.div_add_mod (s.array_idx - s.vars_idx) 6
    have hlen : (scalar_region s).length = (s.array_idx - s.vars_idx) / 6 :=
      scalar_names_length _ _ _
    have hreg : scalar_region m1 = scalar_region s := by
      simp only [scalar_region, e3, e4, sizeof_VARIABLE_ENTRY]
      exact scalar_names_congr _ _ (fun x hx1 hx2 => e9 x (Or.inl (by omega)))
    simp only [variable_storage_read_var,
      lookup_var_spec m1 v (by omega) (by rw [e3, e4]; exact h6),
      lookup_var_spec s v o1 h6, hreg, e3]
    by_cases hm : v ∈ scalar_region s
    · have hi := List.indexOf_lt_length.2 hm
      simp only [hm, if_true]
      apply mem_read_f32_congr
      intro x hx1 hx2
      exact e9 x (Or.inl (by omega))
    · simp only [hm, if_false]
  · intro name sub hex
    obtain ⟨off, bs, hoff⟩ := array_offset_of_mem arrs s.array_idx hex
    obtain ⟨b1, b2, b3, b4⟩ := array_offset_block arrs s.array_idx hat hoff
    have hbs4 : bs % 4 = 0 := h4 (name, bs) b2
    have hofft : array_offset name (arrs ++ news.map (fun n => (n, 44))) m1.array_idx =
        some (off, bs) := by
      rw [e4]
      exact array_offset_append_left arrs _ s.array_idx hoff
    obtain ⟨c1, _, _, _⟩ := array_offset_block _ m1.array_idx hwt.1 hofft
    rw [create_array_found s name sub false arrs ⟨hat, hsz⟩ hoff b1,
      create_array_found m1 name sub false _ hwt hofft c1]
    simp only [Bool.false_eq_true, if_false]
    by_cases hsub : sub * 4 ≥ bs
    · exact ⟨.SUBSCRIPT, 0, by rw [if_pos hsub], by rw [if_pos hsub], fun h => by cases h⟩
    · refine ⟨.OK, off + 4 + 4 * sub, by rw [if_neg hsub], by rw [if_neg hsub], fun _ => ?_⟩
      apply mem_read_f32_congr
      intro x hx1 hx2
      exact e9 x (Or.inl (by omega))

/-- Witness of C36: the text `A(1)/0` in an arena of 80 bytes with no variable.
The array `A` is created by the reference to `A(1)`: after 7 iterations of the
loop `free_idx` is 48 higher.  The call then fails with DIVISION_BY_ZERO and
the array stays allocated. -/
theorem C36_expression_frame_witness :
    (ArenaOrdered array_expr_arena ∧ ArraysWF array_expr_arena [] ∧
      array_expr_arena.base 106 = 0 ∧
      (match basic_parsing_expression nat_fpu 40 100 0 array_expr_arena 0 with
        | .ret r _ _ m1 _ => some (r, m1.free_idx, decide (ZeroArraysAt m1.base 3 [65]))
        | _ => none) = some (.DIVISION_BY_ZERO, 51, true) ∧
      (engine_iter nat_fpu 40 7 (engine_init 100
        (fgstack_push_expression array_expr_arena [PARSE_EXPR_STATE_EXITING]).2 0)).map
          (fun σ => σ.mem.free_idx) = some 51) ∧
    ∃ r p1 o m1 sd news, basic_parsing_expression nat_fpu 40 100 0 array_expr_arena 0 =
        .ret r p1 o m1 sd ∧
      m1.vars_idx = array_expr_arena.vars_idx ∧ m1.array_idx = array_expr_arena.array_idx ∧
      m1.stktop_idx = array_expr_arena.stktop_idx ∧ m1.max_idx = array_expr_arena.max_idx ∧
      (∀ x, x < array_expr_arena.free_idx ∨ array_expr_arena.stktop_idx ≤ x →
        m1.base x = array_expr_arena.base x) ∧
      m1.free_idx = array_expr_arena.free_idx + 48 * news.length ∧
      m1.free_idx ≤ array_expr_arena.stktop_idx ∧
      ZeroArraysAt m1.base array_expr_arena.free_idx news ∧
      ArraysWF m1 ([] ++ news.map (fun n => (n, 44))) ∧
      (∀ v, variable_storage_read_var m1 v = variable_storage_read_var array_expr_arena v) ∧
      (∀ name sub, (∃ bs, (name, bs) ∈ ([] : List (Nat × Nat))) →
        ∃ r2 pval, variable_storage_create_array_var array_expr_arena name sub false =
            (r2, pval, array_expr_arena) ∧
          variable_storage_create_array_var m1 name sub false = (r2, pval, m1) ∧
          (r2 = .OK → mem_read_f32 m1.base pval = mem_read_f32 array_expr_arena.base pval)) ∧
      (∀ v ∈ news, ArrayRefIn 40 array_expr_arena.base 100 106 v) ∧ news.Nodup ∧
      (∀ v ∈ news, ∀ bs, (v, bs) ∉ ([] : List (Nat × Nat))) ∧
      ∀ m0, fgstack_push_expression array_expr_arena [PARSE_EXPR_STATE_EXITING] = (true, m0) →
        ∀ k σk, engine_iter nat_fpu 40 k (engine_init 100 m0 0) = some σk →
          σk.mem.free_idx ≤ m1.free_idx ∧
            ∀ x, x < σk.mem.free_idx → m1.base x = σk.mem.base x :=
  ⟨⟨by decide, by decide, by decide, by decide!, by decide!⟩,
    C36_expression_frame nat_fpu 40 100 106 0 array_expr_arena 0 [] (by decide) (by decide)
      (by decide) (by decide) (by decide) (by decide) (by decide) (by decide)⟩

/-! ## Runs of the loop of the evaluator -/

theorem Reaches.rfl_run (P : FPU) (fuel : Nat) (σ : EngState) : Reaches P fuel σ σ :=
  ⟨0, fun _ _ _ => rfl⟩

theorem Reaches.trans_run {P : FPU} {fuel : Nat} {σ σ1 σ2 : EngState}
    (h1 : Reaches P fuel σ σ1) (h2 : Reaches P fuel σ1 σ2) : Reaches P fuel σ σ2 := by
  obtain ⟨k1, e1⟩ := h1
  obtain ⟨k2, e2⟩ := h2
  refine ⟨k2 + k1, fun pp out n => ?_⟩
  rw [← Nat.add_assoc, e1, e2]

theorem Reaches.one_step {P : FPU} {fuel : Nat} {σ σ1 : EngState} {st : Nat} (hs : σ.state = st)
    (hne : st ≠ PARSE_EXPR_STATE_EXITING) (h : engine_step P fuel σ = .next σ1) :
    Reaches P fuel σ σ1 :=
  ⟨1, fun pp out n => engine_loop_next P fuel pp out n (by rw [hs]; exact hne) h⟩

theorem Fails.one_fail {P : FPU} {fuel : Nat} {σ σ1 : EngState} {st : Nat} {r : BASIC_ERROR_ID}
    (hs : σ.state = st) (hne : st ≠ PARSE_EXPR_STATE_EXITING)
    (h : engine_step P fuel σ = .ret r σ1) : Fails P fuel σ r :=
  ⟨0, σ1.mem, σ1.seed, fun pp out n => engine_loop_ret P fuel pp out n (by rw [hs]; exact hne) h⟩

theorem Reaches.then_fails {P : FPU} {fuel : Nat} {σ σ1 : EngState} {r : BASIC_ERROR_ID}
    (h1 : Reaches P fuel σ σ1) (h2 : Fails P fuel σ1 r) : Fails P fuel σ r := by
  obtain ⟨k1, e1⟩ := h1
  obtain ⟨k2, m, sd, e2⟩ := h2
  refine ⟨k2 + k1, m, sd, fun pp out n => ?_⟩
  rw [show n + (k2 + k1) + 1 = (n + k2 + 1) + k1 by omega, e1, e2]

/-- More iterations do not change what the loop returns. -/
theorem engine_loop_mono (P : FPU) (fuel pp : Nat) (out : F32) : ∀ (n : Nat) (σ : EngState)
    {r : BASIC_ERROR_ID} {p1 : Nat} {o : F32} {m : BASIC_MEM_MGR} {sd : Nat},
    engine_loop P fuel pp out n σ = .ret r p1 o m sd →
    ∀ j, engine_loop P fuel pp out (n + j) σ = .ret r p1 o m sd
  | 0, _, _, _, _, _, _, h, _ => by simp [engine_loop] at h
  | n + 1, σ, r, p1, o, m, sd, h, j => by
    rw [show n + 1 + j = (n + j) + 1 by omega]
    simp only [engine_loop] at h ⊢
    by_cases hs : σ.state = PARSE_EXPR_STATE_EXITING
    · rw [if_pos hs] at h ⊢
      exact h
    · rw [if_neg hs] at h ⊢
      cases hst : engine_step P fuel σ with
      | next σ1 =>
        rw [hst] at h
        simp only at h ⊢
        exact engine_loop_mono P fuel pp out n σ1 h j
      | ret r1 σ1 =>
        rw [hst] at h
        exact h
      | abort =>
        rw [hst] at h
        exact h
      | out_of_fuel =>
        rw [hst] at h
        exact h

theorem float_out_indep (P : FPU) (fuel : Nat) (m : Mem) (p : Nat) (out out1 : F32)
    {r : BASIC_ERROR_ID} {p1 : Nat} {v : F32}
    (h : basic_parsing_float P fuel m p out = some (r, p1, v)) :
    ∃ v1, basic_parsing_float P fuel m p out1 = some (r, p1, v1) ∧ (r = .OK → v1 = v) := by
  unfold basic_parsing_float at h ⊢
  cases hd : float_digits P m fuel p 0 FE_NONE 0 with
  | none => rw [hd] at h; cases h
  | some a =>
    obtain ⟨q1, val1, fl1, n1⟩ := a
    rw [hd] at h
    simp only at h ⊢
    cases hfr : float_fraction P m fuel q1 val1 fl1 with
    | none => rw [hfr] at h; cases h
    | some b =>
      obtain ⟨q2, val2, fl2, nfrac⟩ := b
      rw [hfr] at h
      simp only at h ⊢
      cases hex : float_exponent m fuel q2 with
      | none => rw [hex] at h; cases h
      | some c =>
        obtain ⟨r0, q3, ex⟩ := c
        rw [hex] at h
        simp only at h ⊢
        by_cases hr : r0 ≠ .NOT_FOUND ∧ r0 ≠ .OK
        · rw [if_pos hr] at h ⊢
          simp only [Option.some.injEq, Prod.mk.injEq] at h
          obtain ⟨h1, h2, h3⟩ := h
          subst h1 h2
          exact ⟨out1, rfl, fun hok => absurd hok hr.2⟩
        · rw [if_neg hr] at h ⊢
          split at h
          · rename_i hok
            rw [if_pos hok]
            simp only [Option.some.injEq, Prod.mk.injEq] at h
            obtain ⟨h1, h2, h3⟩ := h
            subst h1 h2 h3
            exact ⟨_, rfl, fun _ => rfl⟩
          · rename_i hok
            rw [if_neg hok]
            simp only [Option.some.injEq, Prod.mk.injEq] at h
            obtain ⟨h1, h2, h3⟩ := h
            subst h1 h2
            exact ⟨out1, rfl, fun h => absurd h hok⟩

/-- A run that reaches the state EXITING fixes what the loop returns, for
every bound on the iterations with which it returns. -/
theorem Reaches.exit_result {P : FPU} {fuel : Nat} {σ σ1 : EngState} (h : Reaches P fuel σ σ1)
    (hs : σ1.state = PARSE_EXPR_STATE_EXITING) {pp : Nat} {out : F32} {n : Nat}
    {r : BASIC_ERROR_ID} {p1 : Nat} {o : F32} {m : BASIC_MEM_MGR} {sd : Nat}
    (hr : engine_loop P fuel pp out n σ = .ret r p1 o m sd) :
    r = σ1.r ∧ p1 = σ1.p ∧ o = σ1.lhs ∧ m = σ1.mem ∧ sd = σ1.seed := by
  obtain ⟨k, hk⟩ := h
  have hA : engine_loop P fuel pp out (1 + k) σ = .ret σ1.r σ1.p σ1.lhs σ1.mem σ1.seed := by
    rw [hk pp out 1]
    exact engine_loop_exit P fuel pp out 0 hs
  have h1 := engine_loop_mono P fuel pp out n σ hr (1 + k)
  have h2 := engine_loop_mono P fuel pp out (1 + k) σ hA n
  rw [show 1 + k + n = n + (1 + k) by omega, h1] at h2
  simp only [EngResult.ret.injEq] at h2
  exact h2

/-- A run that fails fixes what the loop returns. -/
theorem Fails.fail_result {P : FPU} {fuel : Nat} {σ : EngState} {r0 : BASIC_ERROR_ID}
    (h : Fails P fuel σ r0) {pp : Nat} {out : F32} {n : Nat}
    {r : BASIC_ERROR_ID} {p1 : Nat} {o : F32} {m : BASIC_MEM_MGR} {sd : Nat}
    (hr : engine_loop P fuel pp out n σ = .ret r p1 o m sd) :
    r = r0 ∧ p1 = pp ∧ o = out := by
  obtain ⟨k, m0, sd0, hk⟩ := h
  have hA := hk pp out 0
  have h1 := engine_loop_mono P fuel pp out n σ hr (0 + k + 1)
  have h2 := engine_loop_mono P fuel pp out (0 + k + 1) σ hA n
  rw [show 0 + k + 1 + n = n + (0 + k + 1) by omega, h1] at h2
  simp only [EngResult.ret.injEq] at h2
  exact ⟨h2.1, h2.2.1, h2.2.2.1⟩

/-- An operand of a chain: from the state TERM the evaluator gets in one
iteration to the return state on top of the stack with the value of the operand
in `val`, or it returns the error of the literal. -/
theorem chain_operand_sim (P : FPU) {fuel : Nat} {M0 : BASIC_MEM_MGR} {e p0 : Nat}
    (C : SimCtx fuel M0 e p0) (σ : EngState) (s : Nat) (K : List Nat)
    (r : BASIC_ERROR_ID) (q : Nat) (v : F32) (hs : σ.state = PARSE_EXPR_STATE_TERM)
    (hk : ExprStack M0 σ.mem (s :: K)) (hlo : p0 ≤ σ.p) (hhi : σ.p ≤ e)
    (href : chain_operand P fuel M0 σ.p = some (r, q, v)) :
    (r = .OK → ∃ m1 neg, engine_step P fuel σ = .next { σ with
        val := v, p := q, negate := neg, r := .OK, state := s, mem := m1 } ∧
      ExprStack M0 m1 K ∧ m1.free_idx = σ.mem.free_idx ∧ σ.p ≤ q ∧ q ≤ e) ∧
    (r ≠ .OK → engine_step P fuel σ = .ret r σ) := by
  have ht : SameText M0.base σ.mem.base σ.p e := hk.text C.nul C.outside hlo hhi
  have hf : e - σ.p + 1 < fuel := by
    have := C.fuel_ok
    omega
  obtain ⟨o1, o2, o3, o4, o5⟩ := C.ord
  unfold chain_operand at href
  obtain ⟨⟨p1, neg⟩, s1, _, s3, s4, _⟩ := term_signs_text fuel σ.p false ht hf
  simp only at s3 s4
  rw [s1] at href
  simp only at href
  have ht1 := ht.mono p1 s3 s4
  by_cases hal : IS_ALPHA (M0.base p1) = true
  · rw [if_pos hal] at href
    obtain ⟨⟨pr, p2, vn⟩, v1, _, v3, v4, v5, v6⟩ := varname_text fuel p1 0 ht1 (by omega)
    simp only at v3 v4 v5 v6
    rw [v1] at href
    simp only at href
    by_cases hpr : pr = .OK
    · subst hpr
      rw [if_neg (by simp)] at href
      by_cases h40 : M0.base p2 = 40
      · rw [if_pos h40] at href
        cases href
      · rw [if_neg h40] at href
        obtain ⟨q1, q2, _, q3, q4, _⟩ := skipws_text fuel p2 (ht1.mono p2 v3 v4) (by omega)
        rw [q2] at href
        simp only [Option.some.injEq, Prod.mk.injEq] at href
        obtain ⟨h1, h2, h3⟩ := href
        subst h1 h2 h3
        obtain ⟨m1, e1, k1, f1, _⟩ := step_term_scalar P fuel hs hk ht hf s1 hal v1 h40 q2
        rw [read_var_congr hk o1 o2 C.h6 vn] at e1
        exact ⟨fun _ => ⟨m1, neg, e1, k1, f1, by omega, q4⟩, fun h => absurd rfl h⟩
    · rw [if_pos hpr] at href
      cases href
  · rw [if_neg hal] at href
    have hal' : IS_ALPHA (M0.base p1) = false := by simpa using hal
    by_cases hd : IS_DIGIT (M0.base p1) = true ∨ M0.base p1 = 46
    · rw [if_pos hd] at href
      obtain ⟨⟨fr, p2, fv⟩, v1, _, v3, v4⟩ := float_text P fuel p1 0 ht1 (by omega)
      simp only at v3 v4
      rw [v1] at href
      simp only at href
      obtain ⟨fv1, w1, w2⟩ := float_out_indep P fuel M0.base p1 0 σ.val v1
      obtain ⟨n1, n2⟩ := step_term_number P fuel hs hk ht hf s1 hal' hd w1
      by_cases hok : fr = .OK
      · subst hok
        rw [if_neg (by simp)] at href
        obtain ⟨q1, q2, _, q3, q4, _⟩ := skipws_text fuel p2 (ht1.mono p2 v3 v4) (by omega)
        rw [q2] at href
        simp only [Option.some.injEq, Prod.mk.injEq] at href
        obtain ⟨h1, h2, h3⟩ := href
        subst h1 h2 h3
        obtain ⟨m1, e1, k1, f1, _⟩ := n2 rfl q1 q2
        rw [w2 rfl] at e1
        exact ⟨fun _ => ⟨m1, neg, e1, k1, f1, by omega, q4⟩, fun h => absurd rfl h⟩
      · rw [if_pos hok] at href
        simp only [Option.some.injEq, Prod.mk.injEq] at href
        obtain ⟨h1, _, _⟩ := href
        subst h1
        exact ⟨fun h => absurd h hok, fun _ => n1 hok⟩
    · rw [if_neg hd] at href
      cases href

/-- The operators of a chain: from the state EXPR_1 with the value so far in
`lhs`, one byte of stack free and `min_precedence = 0`, the evaluator applies
the operators from left to right and gets back to the state EXPR_1 in front of
a byte that is not an operator, with the same stack; or it returns the error
of the chain. -/
theorem chain_loop_sim (P : FPU) {fuel : Nat} {M0 : BASIC_MEM_MGR} {e p0 : Nat}
    (C : SimCtx fuel M0 e p0) : ∀ (n : Nat) (σ : EngState) (K : List Nat)
    (r : BASIC_ERROR_ID) (q : Nat) (v : F32),
    σ.state = PARSE_EXPR_STATE_EXPR_1 → σ.min_precedence = 0 →
    ExprStack M0 σ.mem K → 1 ≤ σ.mem.stktop_idx - σ.mem.free_idx →
    p0 ≤ σ.p → σ.p ≤ e → chain_loop P fuel M0 n σ.lhs σ.p = some (r, q, v) →
    (r = .OK → ∃ σ1, Reaches P fuel σ σ1 ∧ σ1.state = PARSE_EXPR_STATE_EXPR_1 ∧
      σ1.lhs = v ∧ σ1.p = q ∧ σ1.seed = σ.seed ∧ (σ.r = .OK → σ1.r = .OK) ∧
      ExprStack M0 σ1.mem K ∧ σ1.mem.free_idx = σ.mem.free_idx ∧
      is_operator (M0.base q) = false ∧ p0 ≤ q ∧ q ≤ e) ∧
    (r ≠ .OK → Fails P fuel σ r)
  | 0, _, _, _, _, _, _, _, _, _, _, _, h => by simp [chain_loop] at h
  | n + 1, σ, K, r, q, v, hs, hmp, hk, hroom, hlo, hhi, href => by
    have ht : SameText M0.base σ.mem.base σ.p e := hk.text C.nul C.outside hlo hhi
    have hf : e - σ.p + 1 < fuel := by
      have := C.fuel_ok
      omega
    have hne1 : PARSE_EXPR_STATE_EXPR_1 ≠ PARSE_EXPR_STATE_EXITING := by decide
    simp only [chain_loop] at href
    by_cases hop : is_operator (M0.base σ.p) = true
    · rw [if_pos hop] at href
      have hlt : σ.p < e := by
        rcases Nat.lt_or_ge σ.p e with h | h
        · exact h
        · have : σ.p = e := by omega
          rw [this, C.nul] at hop
          exact absurd hop (by decide)
      have htM : SameText M0.base M0.base (σ.p + 1) e := SameText.refl (by omega) C.nul
      obtain ⟨p1, a1, _, a3, a4, _⟩ := skipws_text fuel (σ.p + 1) htM (by omega)
      rw [a1] at href
      simp only at href
      obtain ⟨m1, e1, k1, f1⟩ := ((step_expr_1 P fuel hs hk ht hf).1
        ⟨hop, by rw [hmp]; exact Nat.zero_le _⟩ p1 a1).1 hroom
      have hR1 := Reaches.one_step hs hne1 e1
      cases hco : chain_operand P fuel M0 p1 with
      | none =>
        rw [hco] at href
        cases href
      | some res =>
        obtain ⟨r1, p2, v1⟩ := res
        rw [hco] at href
        simp only at href
        have hneT : PARSE_EXPR_STATE_TERM ≠ PARSE_EXPR_STATE_EXITING := by decide
        obtain ⟨c1, c2⟩ := chain_operand_sim P C
          { σ with op := M0.base σ.p, p := p1, state := PARSE_EXPR_STATE_TERM, mem := m1 }
          PARSE_EXPR_STATE_SECOND_OPERATOR K r1 p2 v1 rfl k1 (by show p0 ≤ p1; omega) a4 hco
        by_cases hr1 : r1 = .OK
        · subst hr1
          rw [if_neg (by simp)] at href
          obtain ⟨m2, neg, e2, k2, f2, b1, b2⟩ := c1 rfl
          have hR2 := Reaches.one_step (σ := { σ with
            op := M0.base σ.p, p := p1, state := PARSE_EXPR_STATE_TERM, mem := m1 }) rfl hneT e2
          by_cases hup : is_operator (M0.base p2) = true ∧
              operator_precedence (M0.base p2) > operator_precedence (M0.base σ.p)
          · rw [if_pos hup] at href
            cases href
          · rw [if_neg hup] at href
            have hneS : PARSE_EXPR_STATE_SECOND_OPERATOR ≠ PARSE_EXPR_STATE_EXITING := by decide
            have ht2 : SameText M0.base m2.base p2 e :=
              k2.text C.nul C.outside (by show p0 ≤ p2; simp only at b1; omega) b2
            have e3 := (step_second_operator P fuel (σ := { σ with
                op := M0.base σ.p, p := p2, state := PARSE_EXPR_STATE_SECOND_OPERATOR
                mem := m2, val := v1, negate := neg, r := .OK }) (e := e) rfl k2 ht2).2 hup
            have hR3 := Reaches.one_step (σ := { σ with
                op := M0.base σ.p, p := p2, state := PARSE_EXPR_STATE_SECOND_OPERATOR
                mem := m2, val := v1, negate := neg, r := .OK }) rfl hneS e3
            have hneA : PARSE_EXPR_STATE_APPLY_OPERATOR ≠ PARSE_EXPR_STATE_EXITING := by decide
            obtain ⟨d1, d2⟩ := step_apply_operator P fuel (σ := { σ with
                op := M0.base σ.p, p := p2, state := PARSE_EXPR_STATE_APPLY_OPERATOR
                mem := m2, val := v1, negate := neg, r := .OK, rhs := v1 }) rfl
            have hR123 := (hR1.trans_run hR2).trans_run hR3
            by_cases hex : except_to_basic_error
                (apply_operator P σ.lhs v1 (M0.base σ.p)).2 = .OK
            · rw [if_neg (by rw [hex]; simp)] at href
              have e4 := d2 hex
              have hR4 := Reaches.one_step (σ := { σ with
                op := M0.base σ.p, p := p2, state := PARSE_EXPR_STATE_APPLY_OPERATOR
                mem := m2, val := v1, negate := neg, r := .OK, rhs := v1 }) rfl hneA e4
              have hstk : m2.stktop_idx = σ.mem.stktop_idx := by
                have t1 := k2.top
                have t2 := hk.top
                omega
              obtain ⟨i1, i2⟩ := chain_loop_sim P C n
                { σ with
                  op := M0.base σ.p, p := p2, state := PARSE_EXPR_STATE_EXPR_1
                  mem := m2, val := v1, negate := neg, r := .OK, rhs := v1
                  lhs := (apply_operator P σ.lhs v1 (M0.base σ.p)).1 }
                K r q v rfl hmp k2 (by
                  show 1 ≤ m2.stktop_idx - m2.free_idx
                  have : m2.free_idx = σ.mem.free_idx := f2.trans f1
                  rw [hstk, this]; exact hroom)
                (by show p0 ≤ p2; simp only at b1; omega) b2 href
              refine ⟨fun hok => ?_, fun hnok => (hR123.trans_run hR4).then_fails (i2 hnok)⟩
              obtain ⟨σ1, g1, g2, g3, g4, g5, g6, g7, g8, g9⟩ := i1 hok
              exact ⟨σ1, (hR123.trans_run hR4).trans_run g1, g2, g3, g4, g5, fun _ => g6 rfl, g7,
                g8.trans (f2.trans f1), g9⟩
            · rw [if_pos hex] at href
              simp only [Option.some.injEq, Prod.mk.injEq] at href
              obtain ⟨h1, _, _⟩ := href
              subst h1
              exact ⟨fun h => absurd h hex,
                fun _ => hR123.then_fails (Fails.one_fail (σ := { σ with
                  op := M0.base σ.p, p := p2, state := PARSE_EXPR_STATE_APPLY_OPERATOR
                  mem := m2, val := v1, negate := neg, r := .OK, rhs := v1 }) rfl hneA (d1 hex))⟩
        · rw [if_pos hr1] at href
          simp only [Option.some.injEq, Prod.mk.injEq] at href
          obtain ⟨h1, _, _⟩ := href
          subst h1
          exact ⟨fun h => absurd h hr1,
            fun _ => hR1.then_fails (Fails.one_fail (σ := { σ with
              op := M0.base σ.p, p := p1, state := PARSE_EXPR_STATE_TERM, mem := m1 }) rfl hneT
              (c2 hr1))⟩
    · rw [if_neg hop] at href
      simp only [Option.some.injEq, Prod.mk.injEq] at href
      obtain ⟨h1, h2, h3⟩ := href
      subst h1 h2 h3
      exact ⟨fun _ => ⟨σ, Reaches.rfl_run P fuel σ, hs, rfl, rfl, rfl, id, hk, rfl,
        by simpa using hop, hlo, hhi⟩, fun h => absurd rfl h⟩

theorem except_ne_oom (f : FEFlags) : except_to_basic_error f ≠ .OUT_OF_MEMORY := by
  unfold except_to_basic_error
  split
  · simp
  · split
    · simp
    · split <;> simp

theorem uint16_loop_result {m : Mem} : ∀ (fuel p result : Nat) (r0 : BASIC_ERROR_ID)
    {r : BASIC_ERROR_ID} {q v : Nat}, uint16_loop m fuel p result r0 = some (r, q, v) →
    r = .SYNTAX ∨ r = .OK ∨ r = r0
  | 0, _, _, _, _, _, _, h => by simp [uint16_loop] at h
  | fuel + 1, p, result, r0, r, q, v, h => by
    simp only [uint16_loop] at h
    cases hsk : basic_parsing_skipws m fuel p with
    | none => rw [hsk] at h; cases h
    | some p1 =>
      rw [hsk] at h
      simp only at h
      split at h
      · split at h
        · simp only [Option.some.injEq, Prod.mk.injEq] at h
          exact Or.inl h.1.symm
        · split at h
          · simp only [Option.some.injEq, Prod.mk.injEq] at h
            exact Or.inl h.1.symm
          · rcases uint16_loop_result fuel _ _ .OK h with h1 | h1 | h1
            · exact Or.inl h1
            · exact Or.inr (Or.inl h1)
            · exact Or.inr (Or.inl h1)
      · simp only [Option.some.injEq, Prod.mk.injEq] at h
        exact Or.inr (Or.inr h.1.symm)

theorem float_exponent_result {m : Mem} {fuel p : Nat} {r : BASIC_ERROR_ID} {q : Nat}
    {ex : Int} (h : float_exponent m fuel p = some (r, q, ex)) :
    r = .SYNTAX ∨ r = .OK ∨ r = .NOT_FOUND := by
  unfold float_exponent at h
  split at h
  · cases hsk : basic_parsing_skipws m fuel (p + 1) with
    | none => rw [hsk] at h; cases h
    | some p1 =>
      rw [hsk] at h
      simp only at h
      split at h
      · cases h
      · rename_i es p2 _
        cases hu : basic_parsing_uint16 fuel m p2 0 with
        | none => rw [hu] at h; cases h
        | some res =>
          obtain ⟨r1, p3, e1⟩ := res
          rw [hu] at h
          simp only [Option.some.injEq, Prod.mk.injEq] at h
          obtain ⟨h1, _, _⟩ := h
          subst h1
          unfold basic_parsing_uint16 at hu
          cases hl : uint16_loop m fuel p2 0 .NOT_FOUND with
          | none => rw [hl] at hu; cases hu
          | some res2 =>
            obtain ⟨r2, q2, v2⟩ := res2
            rw [hl] at hu
            simp only at hu
            have := uint16_loop_result fuel p2 0 .NOT_FOUND hl
            split at hu
            · simp only [Option.some.injEq, Prod.mk.injEq] at hu
              exact Or.inr (Or.inl hu.1.symm)
            · simp only [Option.some.injEq, Prod.mk.injEq] at hu
              rw [← hu.1]
              exact this
  · simp only [Option.some.injEq, Prod.mk.injEq] at h
    exact Or.inr (Or.inl h.1.symm)

theorem float_ne_oom {P : FPU} {fuel : Nat} {m : Mem} {p : Nat} {out : F32}
    {r : BASIC_ERROR_ID} {q : Nat} {v : F32}
    (h : basic_parsing_float P fuel m p out = some (r, q, v)) : r ≠ .OUT_OF_MEMORY := by
  unfold basic_parsing_float at h
  cases hd : float_digits P m fuel p 0 FE_NONE 0 with
  | none => rw [hd] at h; cases h
  | some a =>
    obtain ⟨q1, val1, fl1, n1⟩ := a
    rw [hd] at h
    simp only at h
    cases hfr : float_fraction P m fuel q1 val1 fl1 with
    | none => rw [hfr] at h; cases h
    | some b =>
      obtain ⟨q2, val2, fl2, nfrac⟩ := b
      rw [hfr] at h
      simp only at h
      cases hex : float_exponent m fuel q2 with
      | none => rw [hex] at h; cases h
      | some c =>
        obtain ⟨r0, q3, ex⟩ := c
        rw [hex] at h
        simp only at h
        have hr0 := float_exponent_result hex
        split at h
        · simp only [Option.some.injEq, Prod.mk.injEq] at h
          rw [← h.1]
          rcases hr0 with h1 | h1 | h1 <;> rw [h1] <;> simp
        · split at h
          · simp only [Option.some.injEq, Prod.mk.injEq] at h
            rw [← h.1]
            exact except_ne_oom _
          · simp only [Option.some.injEq, Prod.mk.injEq] at h
            rw [← h.1]
            exact except_ne_oom _

theorem chain_operand_ne_oom {P : FPU} {fuel : Nat} {s : BASIC_MEM_MGR} {p : Nat}
    {r : BASIC_ERROR_ID} {q : Nat} {v : F32}
    (h : chain_operand P fuel s p = some (r, q, v)) : r ≠ .OUT_OF_MEMORY := by
  unfold chain_operand at h
  cases hs : term_signs s.base fuel p false with
  | none => rw [hs] at h; cases h
  | some a =>
    obtain ⟨p1, neg⟩ := a
    rw [hs] at h
    simp only at h
    split at h
    · cases hv : basic_parsing_varname fuel s.base p1 0 with
      | none => rw [hv] at h; cases h
      | some b =>
        obtain ⟨r1, p2, vn⟩ := b
        rw [hv] at h
        simp only at h
        split at h
        · cases h
        · split at h
          · cases h
          · cases hk : basic_parsing_skipws s.base fuel p2 with
            | none => rw [hk] at h; cases h
            | some p3 =>
              rw [hk] at h
              simp only [Option.some.injEq, Prod.mk.injEq] at h
              rw [← h.1]
              simp
    · split at h
      · cases hfl : basic_parsing_float P fuel s.base p1 0 with
        | none => rw [hfl] at h; cases h
        | some b =>
          obtain ⟨r1, p2, fv⟩ := b
          rw [hfl] at h
          simp only at h
          have := float_ne_oom hfl
          split at h
          · simp only [Option.some.injEq, Prod.mk.injEq] at h
            rw [← h.1]
            exact this
          · cases hk : basic_parsing_skipws s.base fuel p2 with
            | none => rw [hk] at h; cases h
            | some p3 =>
              rw [hk] at h
              simp only [Option.some.injEq, Prod.mk.injEq] at h
              rw [← h.1]
              simp
      · cases h

theorem chain_loop_ne_oom {P : FPU} {fuel : Nat} {s : BASIC_MEM_MGR} : ∀ (n : Nat) (acc : F32)
    (p : Nat) {r : BASIC_ERROR_ID} {q : Nat} {v : F32},
    chain_loop P fuel s n acc p = some (r, q, v) → r ≠ .OUT_OF_MEMORY
  | 0, _, _, _, _, _, h => by simp [chain_loop] at h
  | n + 1, acc, p, r, q, v, h => by
    simp only [chain_loop] at h
    split at h
    · cases hk : basic_parsing_skipws s.base fuel (p + 1) with
      | none => rw [hk] at h; cases h
      | some p1 =>
        rw [hk] at h
        simp only at h
        cases hco : chain_operand P fuel s p1 with
        | none => rw [hco] at h; cases h
        | some b =>
          obtain ⟨r1, p2, v1⟩ := b
          rw [hco] at h
          simp only at h
          have := chain_operand_ne_oom hco
          split at h
          · simp only [Option.some.injEq, Prod.mk.injEq] at h
            rw [← h.1]
            exact this
          · split at h
            · cases h
            · split at h
              · simp only [Option.some.injEq, Prod.mk.injEq] at h
                rw [← h.1]
                exact except_ne_oom _
              · exact chain_loop_ne_oom n _ _ h
    · simp only [Option.some.injEq, Prod.mk.injEq] at h
      rw [← h.1]
      simp

/-- With fewer than two bytes free the evaluator returns OUT_OF_MEMORY before it
reads the text. -/
theorem expression_oom (P : FPU) (fuel p : Nat) (out : F32) (s : BASIC_MEM_MGR) (seed : Nat)
    (ho : ArenaOrdered s) (hroom : s.stktop_idx - s.free_idx < 2) (hf : 0 < fuel) :
    ∃ m1, basic_parsing_expression P fuel p out s seed = .ret .OUT_OF_MEMORY p out m1 seed ∧
      m1.stktop_idx = s.stktop_idx ∧ m1.free_idx = s.free_idx ∧ m1.vars_idx = s.vars_idx ∧
      m1.array_idx = s.array_idx ∧ m1.max_idx = s.max_idx := by
  obtain ⟨o1, o2, o3, o4, o5⟩ := ho
  obtain ⟨h1, h2⟩ := engine_enter P fuel p out s seed o3 o4 o5
  by_cases hg : 1 ≤ s.stktop_idx - s.free_idx
  · obtain ⟨m1, e1, k1, f1⟩ := h1 hg
    clear h1 h2
    obtain ⟨n, rfl⟩ : ∃ n, fuel = n + 1 := ⟨fuel - 1, by omega⟩
    have t1 := k1.top
    simp only [List.length_singleton] at t1
    have hlt : m1.stktop_idx - m1.free_idx < 1 := by omega
    have hst := (step_expression P (n + 1) (σ := engine_init p m1 seed) rfl k1).2 hlt
    have hl := engine_loop_ret P (n + 1) p out n (σ := engine_init p m1 seed)
      (show PARSE_EXPR_STATE_EXPRESSION ≠ PARSE_EXPR_STATE_EXITING by decide) hst
    rw [hl] at e1
    exact ⟨_, basic_parsing_expression_of_engine P (n + 1) p out s seed e1, rfl, f1, k1.vars,
      k1.arr, k1.max⟩
  · exact ⟨_, basic_parsing_expression_of_engine P fuel p out s seed (h2 (by omega)), rfl, rfl,
      rfl, rfl, rfl⟩

/-- A chain is evaluated from left to right with two bytes of stack. -/
theorem expression_chain (P : FPU) (fuel p e : Nat) (out : F32) (s : BASIC_MEM_MGR)
    (seed n : Nat) (r : BASIC_ERROR_ID) (q : Nat) (v : F32) (C : SimCtx fuel s e p)
    (hpe : p ≤ e) (hroom : 2 ≤ s.stktop_idx - s.free_idx) (hf : 5 * (e - p) + 3 ≤ fuel)
    (href : chain_value P fuel s n p = some (r, q, v)) :
    ∃ m1 sd, basic_parsing_expression P fuel p out s seed =
        .ret r (if r = .OK then q else p) (if r = .OK then v else out) m1 sd ∧
      m1.stktop_idx = s.stktop_idx ∧ (r = .OK → m1.free_idx = s.free_idx ∧ sd = seed) := by
  obtain ⟨o1, o2, o3, o4, o5⟩ := C.ord
  obtain ⟨h1, _⟩ := engine_enter P fuel p out s seed o3 o4 o5
  obtain ⟨m1, e1, k1, f1⟩ := h1 (by omega)
  clear h1
  have t1 := k1.top
  simp only [List.length_singleton] at t1
  have hge1 : 1 ≤ m1.stktop_idx - m1.free_idx := by omega
  obtain ⟨m2, e2, k2, f2⟩ := (step_expression P fuel (σ := engine_init p m1 seed) rfl k1).1 hge1
  have hR1 := @Reaches.one_step P fuel (engine_init p m1 seed) _ PARSE_EXPR_STATE_EXPRESSION rfl
    (show PARSE_EXPR_STATE_EXPRESSION ≠ PARSE_EXPR_STATE_EXITING by decide) e2
  -- what the loop returns
  obtain ⟨R, P1, O, M, SD, K1, l1, l2, _, _⟩ := engine_loop_returns P fuel p out C.nul
    C.outside C.fuel_ok ⟨Nat.le_refl _, hpe⟩ fuel (engine_init p m1 seed)
    _ (1 + 1) k1 (.expression .exiting) (Nat.le_refl _) hpe (by
      show 5 * (e - p) + (1 + 1) < fuel
      omega)
  rw [l1] at e1
  have hbpe := basic_parsing_expression_of_engine P fuel p out s seed e1
  have hfail : r ≠ .OK → Fails P fuel (engine_init p m1 seed) r →
      ∃ m1 sd, basic_parsing_expression P fuel p out s seed =
        .ret r (if r = .OK then q else p) (if r = .OK then v else out) m1 sd ∧
      m1.stktop_idx = s.stktop_idx ∧ (r = .OK → m1.free_idx = s.free_idx ∧ sd = seed) := by
    intro hr hF
    obtain ⟨g1, g2, g3⟩ := hF.fail_result l1
    subst g1 g2 g3
    refine ⟨fgstack_set_top M (fgstack_get_top s), SD, ?_, rfl, fun h => absurd h hr⟩
    rw [if_neg hr, if_neg hr]
    exact hbpe
  unfold chain_value at href
  cases hco : chain_operand P fuel s p with
  | none => rw [hco] at href; cases href
  | some res =>
    obtain ⟨r0, p1, v0⟩ := res
    rw [hco] at href
    simp only at href
    obtain ⟨c1, c2⟩ := chain_operand_sim P C
      { engine_init p m1 seed with
        min_precedence := 0, state := PARSE_EXPR_STATE_TERM, mem := m2 }
      PARSE_EXPR_STATE_FIRST_OPERATOR [PARSE_EXPR_STATE_EXITING] r0 p1 v0 rfl k2
      (Nat.le_refl _) hpe hco
    have hneT : PARSE_EXPR_STATE_TERM ≠ PARSE_EXPR_STATE_EXITING := by decide
    by_cases hr0 : r0 = .OK
    · subst hr0
      rw [if_neg (by simp)] at href
      obtain ⟨m3, neg, e3, k3, f3, b1, b2⟩ := c1 rfl
      have hR2 := Reaches.one_step (σ := { engine_init p m1 seed with
        min_precedence := 0, state := PARSE_EXPR_STATE_TERM, mem := m2 }) rfl hneT e3
      have e4 := engine_step_first_operator P fuel (σ := { engine_init p m1 seed with
        min_precedence := 0, state := PARSE_EXPR_STATE_FIRST_OPERATOR, mem := m3
        val := v0, p := p1, negate := neg, r := .OK }) rfl
      have hR3 := Reaches.one_step (σ := { engine_init p m1 seed with
        min_precedence := 0, state := PARSE_EXPR_STATE_FIRST_OPERATOR, mem := m3
        val := v0, p := p1, negate := neg, r := .OK }) rfl
        (show PARSE_EXPR_STATE_FIRST_OPERATOR ≠ PARSE_EXPR_STATE_EXITING by decide) e4
      have t3 := k3.top
      simp only [List.length_singleton] at t3
      have hf3 : m3.free_idx = s.free_idx := f3.trans (f2.trans f1)
      have hge3 : 1 ≤ m3.stktop_idx - m3.free_idx := by omega
      have hpp1 : p ≤ p1 := b1
      obtain ⟨i1, i2⟩ := chain_loop_sim P C n
        { engine_init p m1 seed with
          min_precedence := 0, state := PARSE_EXPR_STATE_EXPR_1, mem := m3
          val := v0, p := p1, negate := neg, r := .OK, lhs := v0 }
        [PARSE_EXPR_STATE_EXITING] r q v rfl rfl k3 hge3 hpp1 b2 href
      have hR123 := (hR1.trans_run hR2).trans_run hR3
      by_cases hr : r = .OK
      · obtain ⟨σ1, g1, g2, g3, g4, g5, g6, g7, g8, g9, g10, g11⟩ := i1 hr
        have ht1 : SameText s.base σ1.mem.base σ1.p e :=
          g7.text C.nul C.outside (by rw [g4]; exact g10) (by rw [g4]; exact g11)
        have hfu : e - σ1.p + 1 < fuel := by
          have := C.fuel_ok
          rw [g4]
          omega
        obtain ⟨m4, e5, k5, f5, _⟩ := (step_expr_1 P fuel g2 g7 ht1 hfu).2 (by
          rw [g4, g9]
          simp) PARSE_EXPR_STATE_EXITING [] rfl
        have hR5 := Reaches.one_step g2
          (show PARSE_EXPR_STATE_EXPR_1 ≠ PARSE_EXPR_STATE_EXITING by decide) e5
        obtain ⟨x1, x2, x3, x4, x5⟩ :=
          ((hR123.trans_run g1).trans_run hR5).exit_result rfl l1
        simp only at x1 x2 x3 x4 x5
        subst hr
        refine ⟨fgstack_set_top M (fgstack_get_top s), SD, ?_, rfl, fun _ => ⟨?_, ?_⟩⟩
        · rw [if_pos rfl, if_pos rfl, hbpe, x1, g6 rfl, x2, g4, x3, g3]
        · show M.free_idx = s.free_idx
          rw [x4]
          show m4.free_idx = s.free_idx
          rw [f5, g8]
          exact hf3
        · rw [x5, g5]
          rfl
      · exact hfail hr (hR123.then_fails (i2 hr))
    · rw [if_pos hr0] at href
      simp only [Option.some.injEq, Prod.mk.injEq] at href
      obtain ⟨h1, _, _⟩ := href
      subst h1
      exact hfail hr0 (hR1.then_fails (Fails.one_fail (σ := { engine_init p m1 seed with
        min_precedence := 0, state := PARSE_EXPR_STATE_TERM, mem := m2 }) rfl hneT (c2 hr0)))

/-- C33: with fewer than 2 bytes free between `free_idx` and `stktop_idx`,
`basic_parsing_expression` returns OUT_OF_MEMORY whatever the bytes at the
parse pointer are (nothing is assumed about them), with the pointer, the value
and the arena indices unchanged; with 2 bytes free or more, on a text that is a
chain (`chain_value`: a literal or a scalar, then operators and such operands
without increase of precedence, no parenthesis, function call or subscript) it
returns the result `r` of the chain evaluated from left to right, which is
never OUT_OF_MEMORY, and for `r = OK` the value of the chain and the pointer
behind it, with `free_idx` unchanged. -/
theorem C33_two_bytes_of_stack (P : FPU) (fuel p e : Nat) (out : F32) (s : BASIC_MEM_MGR)
    (seed n : Nat) (r : BASIC_ERROR_ID) (q : Nat) (v : F32) (ho : ArenaOrdered s) :
    (s.stktop_idx - s.free_idx < 2 → 0 < fuel →
      ∃ m1, basic_parsing_expression P fuel p out s seed = .ret .OUT_OF_MEMORY p out m1 seed ∧
        m1.stktop_idx = s.stktop_idx ∧ m1.free_idx = s.free_idx ∧ m1.vars_idx = s.vars_idx ∧
        m1.array_idx = s.array_idx ∧ m1.max_idx = s.max_idx) ∧
    (2 ≤ s.stktop_idx - s.free_idx → (s.array_idx - s.vars_idx) % 6 = 0 → p ≤ e →
      s.base e = 0 → (e < s.free_idx ∨ s.stktop_idx ≤ p) → 5 * (e - p) + 3 ≤ fuel →
      chain_value P fuel s n p = some (r, q, v) →
      r ≠ .OUT_OF_MEMORY ∧
      ∃ m1 sd, basic_parsing_expression P fuel p out s seed =
          .ret r (if r = .OK then q else p) (if r = .OK then v else out) m1 sd ∧
        m1.stktop_idx = s.stktop_idx ∧ (r = .OK → m1.free_idx = s.free_idx ∧ sd = seed)) := by
  refine ⟨fun hroom hf => expression_oom P fuel p out s seed ho hroom hf,
    fun hroom h6 hpe h0 hout hf href => ⟨?_, ?_⟩⟩
  · unfold chain_value at href
    cases hco : chain_operand P fuel s p with
    | none => rw [hco] at href; cases href
    | some res =>
      obtain ⟨r0, p1, v0⟩ := res
      rw [hco] at href
      simp only at href
      have := chain_operand_ne_oom hco
      split at href
      · simp only [Option.some.injEq, Prod.mk.injEq] at href
        rw [← href.1]
        exact this
      · exact chain_loop_ne_oom n _ _ href
  · exact expression_chain P fuel p e out s seed n r q v
      ⟨ho, h6, h0, hout, by omega⟩ hpe hroom hf href

/-- Witness of C33: the text `2*3+4` in an arena with 1 free byte (4 bytes, as
in the test) and in an arena with exactly 2 free bytes (5 bytes), where the
chain has the value 10. -/
theorem C33_two_bytes_of_stack_witness :
    ((chain_arena 4).stktop_idx - (chain_arena 4).free_idx < 2 ∧
      ∃ m1, basic_parsing_expression nat_fpu 28 100 0 (chain_arena 4) 0 =
          .ret .OUT_OF_MEMORY 100 0 m1 0 ∧
        m1.stktop_idx = (chain_arena 4).stktop_idx ∧ m1.free_idx = (chain_arena 4).free_idx ∧
        m1.vars_idx = (chain_arena 4).vars_idx ∧ m1.array_idx = (chain_arena 4).array_idx ∧
        m1.max_idx = (chain_arena 4).max_idx) ∧
    ((chain_arena 5).stktop_idx - (chain_arena 5).free_idx = 2 ∧
      chain_value nat_fpu 28 (chain_arena 5) 3 100 = some (.OK, 105, f32_of_nat 10) ∧
      ∃ m1 sd, basic_parsing_expression nat_fpu 28 100 0 (chain_arena 5) 0 =
          .ret .OK 105 (f32_of_nat 10) m1 sd ∧
        m1.stktop_idx = (chain_arena 5).stktop_idx ∧
        (BASIC_ERROR_ID.OK = .OK → m1.free_idx = (chain_arena 5).free_idx ∧ sd = 0)) :=
  ⟨⟨by decide, (C33_two_bytes_of_stack nat_fpu 28 100 105 0 (chain_arena 4) 0 3 .OK 105
      (f32_of_nat 10) (by decide)).1 (by decide) (by decide)⟩,
    ⟨by decide, by decide!, ((C33_two_bytes_of_stack nat_fpu 28 100 105 0 (chain_arena 5) 0 3 .OK
      105 (f32_of_nat 10) (by decide)).2 (by decide) (by decide) (by decide) (by decide)
      (by decide) (by decide) (by decide!)).2⟩⟩

theorem EngAt.text_fuel {M0 : BASIC_MEM_MGR} {e p0 c fuel : Nat} {σ : EngState} {K : List Nat}
    (h : EngAt M0 e p0 c σ K) (C : SimCtx fuel M0 e p0) :
    SameText M0.base σ.mem.base σ.p e ∧ e - σ.p + 1 < fuel :=
  ⟨h.stack.text C.nul C.outside h.lo h.hi, by
    have := C.fuel_ok
    have := h.lo
    omega⟩

theorem EngAt.avail {M0 : BASIC_MEM_MGR} {e p0 c : Nat} {σ : EngState} {K : List Nat}
    (h : EngAt M0 e p0 c σ K) :
    c + 9 * (e - σ.p) ≤ σ.mem.stktop_idx - σ.mem.free_idx := by
  have g := h.stack.gap
  have r := h.room
  have f := h.free
  rw [f] at g ⊢
  omega

theorem IsFPError.ne_ok {r : BASIC_ERROR_ID} (h : IsFPError r) : r ≠ .OK := by
  rcases h with h | h | h <;> rw [h] <;> simp

theorem not_fp_syntax : ¬ IsFPError .SYNTAX := by
  intro h
  rcases h with h | h | h <;> cases h

/-- A factor: from the state TERM the evaluator gets to the return state on top
of the stack with the value of the factor in `val`. -/
theorem sim_factor (P : FPU) {fuel : Nat} {M0 : BASIC_MEM_MGR} {e p0 : Nat}
    (C : SimCtx fuel M0 e p0) (sub : Nat → Option (BASIC_ERROR_ID × Nat × F32))
    (hsub : SimExpr P fuel M0 e p0 sub) (σ : EngState) (s : Nat) (K : List Nat)
    (r : BASIC_ERROR_ID) (p' : Nat) (v : F32) (hs : σ.state = PARSE_EXPR_STATE_TERM)
    (ha : EngAt M0 e p0 0 σ (s :: K))
    (href : ref_factor P fuel M0 sub σ.p = some (r, p', v)) :
    (r = .OK → ∃ σ1, Reaches P fuel σ σ1 ∧ σ1.state = s ∧ σ1.val = v ∧ σ1.p = p' ∧
      σ1.lhs = σ.lhs ∧ σ1.op = σ.op ∧ σ1.min_precedence = σ.min_precedence ∧
      σ1.seed = σ.seed ∧ σ1.r = .OK ∧ EngAt M0 e p0 0 σ1 K ∧ σ.p ≤ p') ∧
    (IsFPError r → Fails P fuel σ r) := by
  obtain ⟨ht, hf⟩ := ha.text_fuel C
  have hk := ha.stack
  have hroom := ha.room
  simp only [List.length_cons] at hroom
  have hlo := ha.lo
  have hhi := ha.hi
  unfold ref_factor at href
  obtain ⟨⟨p1, neg⟩, s1, _, s3, s4, _⟩ := term_signs_text fuel σ.p false ht hf
  simp only at s3 s4
  rw [s1] at href
  simp only at href
  have ht1 := ht.mono p1 s3 s4
  have hne : PARSE_EXPR_STATE_TERM ≠ PARSE_EXPR_STATE_EXITING := by decide
  by_cases h40 : M0.base p1 = 40
  · -- an expression in parentheses
    rw [if_pos h40] at href
    have hlt : p1 < e := ht1.lt (by rw [h40]; decide)
    have hav := ha.avail
    have hav8 : 8 ≤ σ.mem.stktop_idx - σ.mem.free_idx := by omega
    obtain ⟨m1, e1, k1, f1⟩ := (step_term_paren P fuel hs hk ht hf s1 h40).1 hav8
    have hr1 := Reaches.one_step hs hne e1
    cases hsb : sub (p1 + 1) with
    | none =>
      rw [hsb] at href
      cases href
    | some res =>
      obtain ⟨ir, q, iv⟩ := res
      rw [hsb] at href
      simp only at href
      have hA : EngAt M0 e p0 1 { σ with
          p := p1 + 1, negate := neg, r := .NOT_FOUND
          state := PARSE_EXPR_STATE_EXPRESSION, mem := m1 }
          (PARSE_EXPR_STATE_SUBEXPR_RET :: (f32_bytes σ.lhs ++
            [σ.op % 256, σ.min_precedence % 256, if neg then 1 else 0] ++ (s :: K))) := by
        refine ⟨k1, f1.trans ha.free, ?_, ?_, ?_, ha.op_lt, ha.mp_lt⟩
        · show p0 ≤ p1 + 1
          omega
        · show p1 + 1 ≤ e
          omega
        · simp only [List.length_cons, List.length_append, f32_bytes_length, List.length_nil]
          show _ + 1 + 9 * (e - (p1 + 1)) ≤ _
          omega
      obtain ⟨i1, i2⟩ := hsub _ PARSE_EXPR_STATE_SUBEXPR_RET _ ir q iv rfl hA hsb
      by_cases hok : ir = .OK
      · subst hok
        rw [if_neg (by simp)] at href
        obtain ⟨σ1, r1, a1, a2, a3, a4, a5, a6, a7⟩ := i1 rfl
        have a7 : p1 + 1 ≤ q := a7
        obtain ⟨ht2, hf2⟩ := a6.text_fuel C
        obtain ⟨u1, u2⟩ := step_subexpr_ret P fuel a1 a6.stack ht2 hf2
        have hne2 : PARSE_EXPR_STATE_SUBEXPR_RET ≠ PARSE_EXPR_STATE_EXITING := by decide
        rw [a3] at u1 u2
        have hq0 : p0 ≤ q := by rw [← a3]; exact a6.lo
        have hq : q ≤ e := by rw [← a3]; exact a6.hi
        have hroom6 := a6.room
        rw [a3] at hroom6
        simp only [List.length_cons, List.length_append, f32_bytes_length,
          List.length_nil] at hroom6
        by_cases h41 : M0.base q = 41
        · rw [if_neg (by simpa using h41)] at href
          have hlt2 : q < e := by
            rcases Nat.lt_or_ge q e with h | h
            · exact h
            · have : q = e := by omega
              rw [this, C.nul] at h41
              cases h41
          have htq : SameText M0.base M0.base (q + 1) e :=
            SameText.refl (by omega) C.nul
          have hfu := C.fuel_ok
          obtain ⟨q', q1, _, q3, q4, _⟩ := skipws_text fuel (q + 1) htq (by omega)
          rw [q1] at href
          simp only [Option.some.injEq, Prod.mk.injEq] at href
          obtain ⟨h1, h2, h3⟩ := href
          subst h1 h2 h3
          obtain ⟨m2, e2, k2, f2, _⟩ := u2 h41 q' q1
          have hr2 := Reaches.one_step a1 hne2 e2
          refine ⟨fun _ => ⟨_, (hr1.trans_run r1).trans_run hr2, rfl, ?_, rfl, rfl,
            Nat.mod_eq_of_lt ha.op_lt, Nat.mod_eq_of_lt ha.mp_lt, a4, a5,
            ⟨k2, f2.trans a6.free, ?_, q4, ?_, ?_, ?_⟩, by omega⟩, fun h => absurd rfl h.ne_ok⟩
          · show (if decide ((if neg = true then 1 else 0) ≠ 0) = true then f32_neg σ1.lhs
              else σ1.lhs) = _
            rw [a2]
            cases neg <;> simp
          · show p0 ≤ q'
            omega
          · show K.length + 0 + 9 * (e - q') ≤ _
            omega
          · show σ.op % 256 < 256
            omega
          · show σ.min_precedence % 256 < 256
            omega
        · rw [if_pos h41] at href
          simp only [Option.some.injEq, Prod.mk.injEq] at href
          obtain ⟨h1, _, _⟩ := href
          subst h1
          exact ⟨fun h => (by cases h), fun h => absurd h not_fp_syntax⟩
      · rw [if_pos hok] at href
        simp only [Option.some.injEq, Prod.mk.injEq] at href
        obtain ⟨h1, _, _⟩ := href
        subst h1
        exact ⟨fun h => absurd h hok, fun h => hr1.then_fails (i2 h)⟩
  · rw [if_neg h40] at href
    cases hco : chain_operand P fuel M0 σ.p with
    | none =>
      rw [hco] at href
      simp only [Option.some.injEq, Prod.mk.injEq] at href
      obtain ⟨h1, _, _⟩ := href
      subst h1
      exact ⟨fun h => (by cases h), fun h => absurd h not_fp_syntax⟩
    | some res =>
      rw [hco] at href
      simp only [Option.some.injEq] at href
      subst href
      obtain ⟨c1, c2⟩ := chain_operand_sim P C σ s K r p' v hs hk hlo hhi hco
      refine ⟨fun hok => ?_, fun h => Fails.one_fail hs hne (c2 h.ne_ok)⟩
      obtain ⟨m1, neg1, e1, k1, f1, b1, b2⟩ := c1 hok
      refine ⟨_, Reaches.one_step hs hne e1, rfl, rfl, rfl, rfl, rfl, rfl, rfl, rfl,
        ⟨k1, f1.trans ha.free, ?_, b2, ?_, ha.op_lt, ha.mp_lt⟩, b1⟩
      · show p0 ≤ p'
        omega
      · show K.length + 0 + 9 * (e - p') ≤ _
        omega

theorem operator_md {c : Nat} (h : c = BASIC_KEYWORD_MULTIPLY ∨ c = BASIC_KEYWORD_DIVIDE) :
    is_operator c = true ∧ operator_precedence c = 2 ∧ c < 256 := by
  rcases h with h | h <;> subst h <;> decide

theorem operator_pm {c : Nat} (h : c = BASIC_KEYWORD_PLUS ∨ c = BASIC_KEYWORD_MINUS) :
    is_operator c = true ∧ operator_precedence c = 1 ∧ c < 256 := by
  rcases h with h | h <;> subst h <;> decide

theorem operator_cases {c : Nat} (h : is_operator c = true) :
    (c = BASIC_KEYWORD_PLUS ∨ c = BASIC_KEYWORD_MINUS) ∨
      (c = BASIC_KEYWORD_MULTIPLY ∨ c = BASIC_KEYWORD_DIVIDE) := by
  simp only [is_operator, BASIC_KEYWORD_RANGE_BEGIN_OPERATORS, BASIC_KEYWORD_RANGE_END_OPERATORS,
    decide_eq_true_eq] at h
  simp only [BASIC_KEYWORD_PLUS, BASIC_KEYWORD_MINUS, BASIC_KEYWORD_MULTIPLY,
    BASIC_KEYWORD_DIVIDE]
  omega

theorem operator_precedence_le (c : Nat) : operator_precedence c ≤ 2 := by
  unfold operator_precedence operator_precedence_table
  generalize c - BASIC_KEYWORD_RANGE_BEGIN_OPERATORS = i
  rcases i with _ | _ | _ | _ | i <;> simp

theorem apply_operator_md (P : FPU) (a b : F32) {c : Nat}
    (h : c = BASIC_KEYWORD_MULTIPLY ∨ c = BASIC_KEYWORD_DIVIDE) :
    apply_operator P a b c = if c = BASIC_KEYWORD_MULTIPLY then P.mul a b else P.div a b := by
  rcases h with h | h <;> subst h <;>
    simp [apply_operator, BASIC_KEYWORD_PLUS, BASIC_KEYWORD_MINUS, BASIC_KEYWORD_MULTIPLY,
      BASIC_KEYWORD_DIVIDE]

theorem apply_operator_pm (P : FPU) (a b : F32) {c : Nat}
    (h : c = BASIC_KEYWORD_PLUS ∨ c = BASIC_KEYWORD_MINUS) :
    apply_operator P a b c = if c = BASIC_KEYWORD_PLUS then P.add a b else P.sub a b := by
  rcases h with h | h <;> subst h <;>
    simp [apply_operator, BASIC_KEYWORD_PLUS, BASIC_KEYWORD_MINUS]

/-- The state APPLY_OPERATOR: the operation is applied; an exception ends the
evaluation. -/
theorem sim_apply (P : FPU) (fuel : Nat) (σ : EngState)
    (hs : σ.state = PARSE_EXPR_STATE_APPLY_OPERATOR) :
    (except_to_basic_error (apply_operator P σ.lhs σ.rhs σ.op).2 ≠ .OK →
      Fails P fuel σ (except_to_basic_error (apply_operator P σ.lhs σ.rhs σ.op).2)) ∧
    (except_to_basic_error (apply_operator P σ.lhs σ.rhs σ.op).2 = .OK →
      Reaches P fuel σ { σ with
        lhs := (apply_operator P σ.lhs σ.rhs σ.op).1, r := .OK
        state := PARSE_EXPR_STATE_EXPR_1 }) := by
  have hne : PARSE_EXPR_STATE_APPLY_OPERATOR ≠ PARSE_EXPR_STATE_EXITING := by decide
  obtain ⟨d1, d2⟩ := step_apply_operator P fuel hs
  exact ⟨fun h => Fails.one_fail hs hne (d1 h), fun h => Reaches.one_step hs hne (d2 h)⟩

/-- The state SECOND_OPERATOR when the next operator does not bind tighter:
the operation is applied. -/
theorem sim_second_apply (P : FPU) {fuel : Nat} {M0 : BASIC_MEM_MGR} {e p0 : Nat}
    (C : SimCtx fuel M0 e p0) (σ : EngState) (K : List Nat)
    (hs : σ.state = PARSE_EXPR_STATE_SECOND_OPERATOR) (ha : EngAt M0 e p0 0 σ K)
    (hc : ¬ (is_operator (M0.base σ.p) = true ∧
        operator_precedence (M0.base σ.p) > operator_precedence σ.op)) :
    (except_to_basic_error (apply_operator P σ.lhs σ.val σ.op).2 ≠ .OK →
      Fails P fuel σ (except_to_basic_error (apply_operator P σ.lhs σ.val σ.op).2)) ∧
    (except_to_basic_error (apply_operator P σ.lhs σ.val σ.op).2 = .OK →
      Reaches P fuel σ { σ with
        rhs := σ.val, lhs := (apply_operator P σ.lhs σ.val σ.op).1, r := .OK
        state := PARSE_EXPR_STATE_EXPR_1 }) := by
  have hne : PARSE_EXPR_STATE_SECOND_OPERATOR ≠ PARSE_EXPR_STATE_EXITING := by decide
  obtain ⟨ht, _⟩ := ha.text_fuel C
  have e3 := (step_second_operator P fuel hs ha.stack ht).2 hc
  have hR := Reaches.one_step hs hne e3
  obtain ⟨d1, d2⟩ := sim_apply P fuel
    { σ with rhs := σ.val, state := PARSE_EXPR_STATE_APPLY_OPERATOR } rfl
  exact ⟨fun h => hR.then_fails (d1 h), fun h => hR.trans_run (d2 h)⟩

/-- The factors of a term from the second on: the evaluator, in the state
EXPR_1 with a minimum precedence that lets `*` and `/` through, follows
`ref_term_loop`. -/
theorem sim_term_loop (P : FPU) {fuel : Nat} {M0 : BASIC_MEM_MGR} {e p0 : Nat}
    (C : SimCtx fuel M0 e p0) (sub : Nat → Option (BASIC_ERROR_ID × Nat × F32))
    (hsub : SimExpr P fuel M0 e p0 sub) : ∀ (n : Nat) (σ : EngState) (K : List Nat)
    (r : BASIC_ERROR_ID) (q : Nat) (v : F32),
    σ.state = PARSE_EXPR_STATE_EXPR_1 → σ.min_precedence ≤ 2 → EngAt M0 e p0 0 σ K →
    ref_term_loop P fuel M0 sub n σ.lhs σ.p = some (r, q, v) →
    (r = .OK → ∃ σ1, Reaches P fuel σ σ1 ∧ σ1.state = PARSE_EXPR_STATE_EXPR_1 ∧
      σ1.lhs = v ∧ σ1.p = q ∧ σ1.min_precedence = σ.min_precedence ∧ σ1.seed = σ.seed ∧
      (σ.r = .OK → σ1.r = .OK) ∧ EngAt M0 e p0 0 σ1 K ∧
      ¬ (M0.base q = BASIC_KEYWORD_MULTIPLY ∨ M0.base q = BASIC_KEYWORD_DIVIDE) ∧ σ.p ≤ q) ∧
    (IsFPError r → Fails P fuel σ r)
  | 0, _, _, _, _, _, _, _, _, h => by simp [ref_term_loop] at h
  | n + 1, σ, K, r, q, v, hs, hmp, ha, href => by
    obtain ⟨ht, hf⟩ := ha.text_fuel C
    have hne1 : PARSE_EXPR_STATE_EXPR_1 ≠ PARSE_EXPR_STATE_EXITING := by decide
    simp only [ref_term_loop] at href
    by_cases hop : M0.base σ.p = BASIC_KEYWORD_MULTIPLY ∨ M0.base σ.p = BASIC_KEYWORD_DIVIDE
    · rw [if_pos hop] at href
      obtain ⟨o1, o2, o3⟩ := operator_md hop
      have hlt : σ.p < e := ht.lt (by
        intro h0; rw [h0] at o1; exact absurd o1 (by decide))
      have hlo := ha.lo
      have hroom := ha.room
      have hav := ha.avail
      have htM : SameText M0.base M0.base (σ.p + 1) e := SameText.refl (by omega) C.nul
      have hfu := C.fuel_ok
      obtain ⟨p1, a1, _, a3, a4, _⟩ := skipws_text fuel (σ.p + 1) htM (by omega)
      rw [a1] at href
      simp only at href
      obtain ⟨m1, e1, k1, f1⟩ := ((step_expr_1 P fuel hs ha.stack ht hf).1
        ⟨o1, by rw [o2]; exact hmp⟩ p1 a1).1 (by omega)
      have hR1 := Reaches.one_step hs hne1 e1
      have hA : EngAt M0 e p0 0 { σ with
          op := M0.base σ.p, p := p1, state := PARSE_EXPR_STATE_TERM, mem := m1 }
          (PARSE_EXPR_STATE_SECOND_OPERATOR :: K) := by
        refine ⟨k1, f1.trans ha.free, ?_, a4, ?_, o3, ha.mp_lt⟩
        · show p0 ≤ p1
          omega
        · simp only [List.length_cons]
          show _ + 0 + 9 * (e - p1) ≤ _
          omega
      cases hfa : ref_factor P fuel M0 sub p1 with
      | none =>
        rw [hfa] at href
        cases href
      | some res =>
        obtain ⟨r1, p2, v1⟩ := res
        rw [hfa] at href
        simp only at href
        obtain ⟨c1, c2⟩ := sim_factor P C sub hsub _ PARSE_EXPR_STATE_SECOND_OPERATOR K
          r1 p2 v1 rfl hA hfa
        by_cases hr1 : r1 = .OK
        · subst hr1
          rw [if_neg (by simp)] at href
          obtain ⟨σb, rb, b1, b2, b3, b4, b5, b6, b7, b8, b9, b10⟩ := c1 rfl
          simp only at b4 b5 b6 b7 b10
          have hc : ¬ (is_operator (M0.base σb.p) = true ∧
              operator_precedence (M0.base σb.p) > operator_precedence σb.op) := by
            rw [b5, o2]
            intro h
            have := operator_precedence_le (M0.base σb.p)
            omega
          obtain ⟨d1, d2⟩ := sim_second_apply P C σb K b1 b9 hc
          have hap : apply_operator P σb.lhs σb.val σb.op =
              if M0.base σ.p = BASIC_KEYWORD_MULTIPLY then P.mul σ.lhs v1
                else P.div σ.lhs v1 := by
            rw [b4, b2, b5, apply_operator_md P σ.lhs v1 hop]
          rw [hap] at d1 d2
          by_cases hex : except_to_basic_error
              (if M0.base σ.p = BASIC_KEYWORD_MULTIPLY then P.mul σ.lhs v1
                else P.div σ.lhs v1).2 = .OK
          · rw [if_neg (by rw [hex]; simp)] at href
            have hR2 := d2 hex
            obtain ⟨i1, i2⟩ := sim_term_loop P C sub hsub n
              { σb with
                rhs := σb.val
                lhs := (if M0.base σ.p = BASIC_KEYWORD_MULTIPLY then P.mul σ.lhs v1
                  else P.div σ.lhs v1).1
                r := .OK, state := PARSE_EXPR_STATE_EXPR_1 }
              K r q v rfl (by show σb.min_precedence ≤ 2; rw [b6]; exact hmp)
              ⟨b9.stack, b9.free, b9.lo, b9.hi, b9.room, b9.op_lt, b9.mp_lt⟩
              (by show ref_term_loop P fuel M0 sub n _ σb.p = _; rw [b3]; exact href)
            have hR := (hR1.trans_run rb).trans_run hR2
            refine ⟨fun hok => ?_, fun h => hR.then_fails (i2 h)⟩
            obtain ⟨σ1, g1, g2, g3, g4, g5, g6, g7, g8, g9, g10⟩ := i1 hok
            have g10 : σb.p ≤ q := g10
            exact ⟨σ1, hR.trans_run g1, g2, g3, g4, g5.trans b6, g6.trans b7,
              fun _ => g7 rfl, g8, g9, by omega⟩
          · rw [if_pos hex] at href
            simp only [Option.some.injEq, Prod.mk.injEq] at href
            obtain ⟨h1, _, _⟩ := href
            subst h1
            exact ⟨fun h => absurd h hex, fun _ => (hR1.trans_run rb).then_fails (d1 hex)⟩
        · rw [if_pos hr1] at href
          simp only [Option.some.injEq, Prod.mk.injEq] at href
          obtain ⟨h1, _, _⟩ := href
          subst h1
          exact ⟨fun h => absurd h hr1, fun h => hR1.then_fails (c2 h)⟩
    · rw [if_neg hop] at href
      simp only [Option.some.injEq, Prod.mk.injEq] at href
      obtain ⟨h1, h2, h3⟩ := href
      subst h1 h2 h3
      exact ⟨fun _ => ⟨σ, Reaches.rfl_run P fuel σ, hs, rfl, rfl, rfl, rfl, id, ha, hop,
        Nat.le_refl _⟩,
        fun h => absurd rfl h.ne_ok⟩

theorem ref_term_loop_stop (P : FPU) (lf : Nat) (s : BASIC_MEM_MGR)
    (sub : Nat → Option (BASIC_ERROR_ID × Nat × F32)) {n p : Nat} {acc : F32}
    {x : BASIC_ERROR_ID × Nat × F32}
    (hmd : ¬ (s.base p = BASIC_KEYWORD_MULTIPLY ∨ s.base p = BASIC_KEYWORD_DIVIDE))
    (h : ref_term_loop P lf s sub n acc p = some x) : x = (.OK, p, acc) := by
  cases n with
  | zero => simp [ref_term_loop] at h
  | succ n =>
    simp only [ref_term_loop] at h
    rw [if_neg hmd] at h
    simp only [Option.some.injEq] at h
    exact h.symm

theorem not_operator_of {c : Nat}
    (h1 : ¬ (c = BASIC_KEYWORD_PLUS ∨ c = BASIC_KEYWORD_MINUS))
    (h2 : ¬ (c = BASIC_KEYWORD_MULTIPLY ∨ c = BASIC_KEYWORD_DIVIDE)) :
    is_operator c = false := by
  cases h : is_operator c with
  | false => rfl
  | true =>
    rcases operator_cases h with h3 | h3
    · exact absurd h3 h1
    · exact absurd h3 h2

/-- The terms of a sum from the second on: the evaluator, in the state EXPR_1
with the minimum precedence 0 and the parse pointer not at `*` or `/`, follows
`ref_sum_loop`. -/
theorem sim_sum_loop (P : FPU) {fuel : Nat} {M0 : BASIC_MEM_MGR} {e p0 : Nat}
    (C : SimCtx fuel M0 e p0) (sub : Nat → Option (BASIC_ERROR_ID × Nat × F32))
    (hsub : SimExpr P fuel M0 e p0 sub) (n : Nat) : ∀ (k : Nat) (σ : EngState) (K : List Nat)
    (r : BASIC_ERROR_ID) (q : Nat) (v : F32),
    σ.state = PARSE_EXPR_STATE_EXPR_1 → σ.min_precedence = 0 → EngAt M0 e p0 0 σ K →
    ¬ (M0.base σ.p = BASIC_KEYWORD_MULTIPLY ∨ M0.base σ.p = BASIC_KEYWORD_DIVIDE) →
    ref_sum_loop P fuel M0 sub n k σ.lhs σ.p = some (r, q, v) →
    (r = .OK → ∃ σ1, Reaches P fuel σ σ1 ∧ σ1.state = PARSE_EXPR_STATE_EXPR_1 ∧
      σ1.lhs = v ∧ σ1.p = q ∧ σ1.seed = σ.seed ∧ (σ.r = .OK → σ1.r = .OK) ∧
      EngAt M0 e p0 0 σ1 K ∧ is_operator (M0.base q) = false ∧ σ.p ≤ q) ∧
    (IsFPError r → Fails P fuel σ r)
  | 0, _, _, _, _, _, _, _, _, _, h => by simp [ref_sum_loop] at h
  | k + 1, σ, K, r, q, v, hs, hmp, ha, hnmd, href => by
    obtain ⟨ht, hf⟩ := ha.text_fuel C
    have hne1 : PARSE_EXPR_STATE_EXPR_1 ≠ PARSE_EXPR_STATE_EXITING := by decide
    simp only [ref_sum_loop] at href
    by_cases hop : M0.base σ.p = BASIC_KEYWORD_PLUS ∨ M0.base σ.p = BASIC_KEYWORD_MINUS
    · rw [if_pos hop] at href
      obtain ⟨o1, o2, o3⟩ := operator_pm hop
      have hlt : σ.p < e := ht.lt (by
        intro h0; rw [h0] at o1; exact absurd o1 (by decide))
      have hlo := ha.lo
      have hroom := ha.room
      have hav := ha.avail
      have htM : SameText M0.base M0.base (σ.p + 1) e := SameText.refl (by omega) C.nul
      have hfu := C.fuel_ok
      obtain ⟨p1, a1, _, a3, a4, _⟩ := skipws_text fuel (σ.p + 1) htM (by omega)
      rw [a1] at href
      simp only [ref_term] at href
      obtain ⟨m1, e1, k1, f1⟩ := ((step_expr_1 P fuel hs ha.stack ht hf).1
        ⟨o1, by rw [hmp]; exact Nat.zero_le _⟩ p1 a1).1 (by omega)
      have hR1 := Reaches.one_step hs hne1 e1
      have hA : EngAt M0 e p0 0 { σ with
          op := M0.base σ.p, p := p1, state := PARSE_EXPR_STATE_TERM, mem := m1 }
          (PARSE_EXPR_STATE_SECOND_OPERATOR :: K) := by
        refine ⟨k1, f1.trans ha.free, ?_, a4, ?_, o3, ha.mp_lt⟩
        · show p0 ≤ p1
          omega
        · simp only [List.length_cons]
          show _ + 0 + 9 * (e - p1) ≤ _
          omega
      cases hfa : ref_factor P fuel M0 sub p1 with
      | none =>
        rw [hfa] at href
        cases href
      | some res =>
        obtain ⟨r1, p2, f⟩ := res
        rw [hfa] at href
        simp only at href
        obtain ⟨c1, c2⟩ := sim_factor P C sub hsub _ PARSE_EXPR_STATE_SECOND_OPERATOR K
          r1 p2 f rfl hA hfa
        by_cases hr1 : r1 = .OK
        · subst hr1
          rw [if_neg (by simp)] at href
          obtain ⟨σb, rb, b1, b2, b3, b4, b5, b6, b7, b8, b9, b10⟩ := c1 rfl
          simp only at b4 b5 b6 b7 b10
          have hRb := hR1.trans_run rb
          obtain ⟨htb, hfb⟩ := b9.text_fuel C
          have hbp : σb.min_precedence = 0 := b6.trans hmp
          cases htl : ref_term_loop P fuel M0 sub n f p2 with
          | none =>
            rw [htl] at href
            cases href
          | some res2 =>
            obtain ⟨r2, q2, t⟩ := res2
            rw [htl] at href
            simp only at href
            by_cases hmd : M0.base p2 = BASIC_KEYWORD_MULTIPLY ∨ M0.base p2 = BASIC_KEYWORD_DIVIDE
            · -- the next operator binds tighter: the term is evaluated first
              obtain ⟨u1, u2, _⟩ := operator_md hmd
              have hlt2 : σb.p < e := htb.lt (by
                rw [b3]; intro h0; rw [h0] at u1; exact absurd u1 (by decide))
              have havb := b9.avail
              have hcu : is_operator (M0.base σb.p) = true ∧
                  operator_precedence (M0.base σb.p) > operator_precedence σb.op := by
                rw [b3, b5, u2, o2]
                exact ⟨u1, by omega⟩
              obtain ⟨m2, e2, k2, f2⟩ :=
                ((step_second_operator P fuel b1 b9.stack htb).1 hcu).1 (by omega)
              have hneS : PARSE_EXPR_STATE_SECOND_OPERATOR ≠ PARSE_EXPR_STATE_EXITING := by
                decide
              have hR3 := hRb.trans_run (Reaches.one_step b1 hneS e2)
              have hmp2 : (operator_precedence σb.op + 1) % 256 = 2 := by rw [b5, o2]
              have hblo := b9.lo
              have hbhi := b9.hi
              have hAc : EngAt M0 e p0 0 { σb with
                  rhs := σb.val, lhs := σb.val
                  min_precedence := (operator_precedence σb.op + 1) % 256
                  state := PARSE_EXPR_STATE_EXPR_1, mem := m2 }
                  ([PARSE_EXPR_STATE_PRECEDENCE_DOWN] ++ f32_bytes σb.lhs ++
                    [σb.op % 256, σb.min_precedence % 256] ++ K) := by
                refine ⟨k2, f2.trans b9.free, hblo, hbhi, ?_, b9.op_lt, ?_⟩
                · simp only [List.length_cons, List.length_append, f32_bytes_length,
                    List.length_nil]
                  show _ + 0 + 9 * (e - σb.p) ≤ _
                  rw [b3]
                  omega
                · show (operator_precedence σb.op + 1) % 256 < 256
                  omega
              obtain ⟨t1, t2⟩ := sim_term_loop P C sub hsub n _ _ r2 q2 t rfl
                (by show (operator_precedence σb.op + 1) % 256 ≤ 2; omega) hAc
                (by show ref_term_loop P fuel M0 sub n σb.val σb.p = _; rw [b2, b3]; exact htl)
              by_cases hr2 : r2 = .OK
              · subst hr2
                rw [if_neg (by simp)] at href
                obtain ⟨σd, rd, d1, d2, d3, d4, d5, d6, d7, d8, d9⟩ := t1 rfl
                simp only at d4 d5 d9
                obtain ⟨htd, hfd⟩ := d7.text_fuel C
                have hcd : ¬ (is_operator (M0.base σd.p) = true ∧
                    operator_precedence (M0.base σd.p) ≥ σd.min_precedence) := by
                  rw [d4, hmp2, d3]
                  intro h
                  rcases operator_cases h.1 with h3 | h3
                  · have := (operator_pm h3).2.1
                    omega
                  · exact d8 h3
                obtain ⟨m3, e3, k3, f3, _⟩ := (step_expr_1 P fuel d1 d7.stack htd hfd).2 hcd
                  PARSE_EXPR_STATE_PRECEDENCE_DOWN
                  (f32_bytes σb.lhs ++ [σb.op % 256, σb.min_precedence % 256] ++ K) rfl
                have hR4 := (hR3.trans_run rd).trans_run (Reaches.one_step d1 hne1 e3)
                obtain ⟨m4, e4, k4, f4, _⟩ := step_precedence_down P fuel (σ := { σd with
                  state := PARSE_EXPR_STATE_PRECEDENCE_DOWN, mem := m3 }) rfl k3
                have hneP : PARSE_EXPR_STATE_PRECEDENCE_DOWN ≠ PARSE_EXPR_STATE_EXITING := by
                  decide
                have hR5 := hR4.trans_run (Reaches.one_step (σ := { σd with
                  state := PARSE_EXPR_STATE_PRECEDENCE_DOWN, mem := m3 }) rfl hneP e4)
                obtain ⟨w1, w2⟩ := sim_apply P fuel { σd with
                  rhs := σd.lhs, lhs := σb.lhs, op := σb.op % 256
                  min_precedence := σb.min_precedence % 256
                  state := PARSE_EXPR_STATE_APPLY_OPERATOR, mem := m4 } rfl
                have hap : apply_operator P σb.lhs σd.lhs (σb.op % 256) =
                    if M0.base σ.p = BASIC_KEYWORD_PLUS then P.add σ.lhs t
                      else P.sub σ.lhs t := by
                  rw [b4, d2, b5, Nat.mod_eq_of_lt o3, apply_operator_pm P σ.lhs t hop]
                simp only [hap] at w1 w2
                by_cases hex : except_to_basic_error
                    (if M0.base σ.p = BASIC_KEYWORD_PLUS then P.add σ.lhs t
                      else P.sub σ.lhs t).2 = .OK
                · rw [if_neg (by rw [hex]; simp)] at href
                  have hR6 := hR5.trans_run (w2 hex)
                  have hdlo := d7.lo
                  have hdhi := d7.hi
                  have hdroom := d7.room
                  simp only [List.length_cons, List.length_append, f32_bytes_length,
                    List.length_nil] at hdroom
                  obtain ⟨i1, i2⟩ := sim_sum_loop P C sub hsub n k
                    { σd with
                      rhs := σd.lhs
                      lhs := (if M0.base σ.p = BASIC_KEYWORD_PLUS then P.add σ.lhs t
                        else P.sub σ.lhs t).1
                      op := σb.op % 256
                      min_precedence := σb.min_precedence % 256
                      r := .OK
                      state := PARSE_EXPR_STATE_EXPR_1, mem := m4 } K r q v rfl
                    (by show σb.min_precedence % 256 = 0; rw [hbp])
                    ⟨k4, f4.trans (f3.trans d7.free), hdlo, hdhi, by
                      show K.length + 0 + 9 * (e - σd.p) ≤ _
                      omega, by
                      show σb.op % 256 < 256
                      omega, by
                      show σb.min_precedence % 256 < 256
                      omega⟩
                    (by show ¬ (M0.base σd.p = _ ∨ M0.base σd.p = _); rw [d3]; exact d8)
                    (by show ref_sum_loop P fuel M0 sub n k _ σd.p = _; rw [d3]; exact href)
                  refine ⟨fun hok => ?_, fun h => hR6.then_fails (i2 h)⟩
                  obtain ⟨σ1, g1, g2, g3, g4, g5, g6, g7, g8, g9⟩ := i1 hok
                  have g9 : σd.p ≤ q := g9
                  exact ⟨σ1, hR6.trans_run g1, g2, g3, g4,
                    g5.trans (d5.trans b7), fun _ => g6 rfl, g7, g8, by omega⟩
                · rw [if_pos hex] at href
                  simp only [Option.some.injEq, Prod.mk.injEq] at href
                  obtain ⟨h1, _, _⟩ := href
                  subst h1
                  exact ⟨fun h => absurd h hex, fun _ => hR5.then_fails (w1 hex)⟩
              · rw [if_pos hr2] at href
                simp only [Option.some.injEq, Prod.mk.injEq] at href
                obtain ⟨h1, _, _⟩ := href
                subst h1
                exact ⟨fun h => absurd h hr2, fun h => hR3.then_fails (t2 h)⟩
            · -- the operation is applied at once
              have hx := ref_term_loop_stop P fuel M0 sub hmd htl
              simp only [Prod.mk.injEq] at hx
              obtain ⟨h1, h2, h3⟩ := hx
              subst h1 h2 h3
              rw [if_neg (by simp)] at href
              have hc : ¬ (is_operator (M0.base σb.p) = true ∧
                  operator_precedence (M0.base σb.p) > operator_precedence σb.op) := by
                rw [b3, b5, o2]
                intro h
                rcases operator_cases h.1 with h3 | h3
                · have := (operator_pm h3).2.1
                  omega
                · exact hmd h3
              obtain ⟨d1, d2⟩ := sim_second_apply P C σb K b1 b9 hc
              have hap : apply_operator P σb.lhs σb.val σb.op =
                  if M0.base σ.p = BASIC_KEYWORD_PLUS then P.add σ.lhs t
                    else P.sub σ.lhs t := by
                rw [b4, b2, b5, apply_operator_pm P σ.lhs t hop]
              rw [hap] at d1 d2
              by_cases hex : except_to_basic_error
                  (if M0.base σ.p = BASIC_KEYWORD_PLUS then P.add σ.lhs t
                    else P.sub σ.lhs t).2 = .OK
              · rw [if_neg (by rw [hex]; simp)] at href
                have hR6 := hRb.trans_run (d2 hex)
                obtain ⟨i1, i2⟩ := sim_sum_loop P C sub hsub n k
                  { σb with
                    rhs := σb.val
                    lhs := (if M0.base σ.p = BASIC_KEYWORD_PLUS then P.add σ.lhs t
                      else P.sub σ.lhs t).1
                    r := .OK, state := PARSE_EXPR_STATE_EXPR_1 } K r q v rfl
                  (by show σb.min_precedence = 0; exact hbp)
                  ⟨b9.stack, b9.free, b9.lo, b9.hi, b9.room, b9.op_lt, b9.mp_lt⟩
                  (by show ¬ (M0.base σb.p = _ ∨ M0.base σb.p = _); rw [b3]; exact hmd)
                  (by show ref_sum_loop P fuel M0 sub n k _ σb.p = _; rw [b3]; exact href)
                refine ⟨fun hok => ?_, fun h => hR6.then_fails (i2 h)⟩
                obtain ⟨σ1, g1, g2, g3, g4, g5, g6, g7, g8, g9⟩ := i1 hok
                have g9 : σb.p ≤ q := g9
                exact ⟨σ1, hR6.trans_run g1, g2, g3, g4, g5.trans b7, fun _ => g6 rfl, g7, g8,
                  by omega⟩
              · rw [if_pos hex] at href
                simp only [Option.some.injEq, Prod.mk.injEq] at href
                obtain ⟨h1, _, _⟩ := href
                subst h1
                exact ⟨fun h => absurd h hex, fun _ => hRb.then_fails (d1 hex)⟩
        · rw [if_pos hr1] at href
          simp only at href
          rw [if_pos hr1] at href
          simp only [Option.some.injEq, Prod.mk.injEq] at href
          obtain ⟨h1, _, _⟩ := href
          subst h1
          exact ⟨fun h => absurd h hr1, fun h => hR1.then_fails (c2 h)⟩
    · rw [if_neg hop] at href
      simp only [Option.some.injEq, Prod.mk.injEq] at href
      obtain ⟨h1, h2, h3⟩ := href
      subst h1 h2 h3
      exact ⟨fun _ => ⟨σ, Reaches.rfl_run P fuel σ, hs, rfl, rfl, rfl, id, ha,
        not_operator_of hop hnmd, Nat.le_refl _⟩, fun h => absurd rfl h.ne_ok⟩

/-- An expression: the evaluator follows the reference evaluator of every
depth. -/
theorem sim_ref_expr (P : FPU) {fuel : Nat} {M0 : BASIC_MEM_MGR} {e p0 : Nat}
    (C : SimCtx fuel M0 e p0) : ∀ (n : Nat), SimExpr P fuel M0 e p0 (ref_expr P fuel M0 n)
  | 0 => by
    intro σ s K r q v _ _ href
    simp [ref_expr] at href
  | n + 1 => by
    have hsub := sim_ref_expr P C n
    intro σ s K r q v hs ha href
    simp only [ref_expr, ref_term] at href
    have hne0 : PARSE_EXPR_STATE_EXPRESSION ≠ PARSE_EXPR_STATE_EXITING := by decide
    have hne1 : PARSE_EXPR_STATE_EXPR_1 ≠ PARSE_EXPR_STATE_EXITING := by decide
    have hav := ha.avail
    have hroom := ha.room
    simp only [List.length_cons] at hroom
    obtain ⟨m1, e1, k1, f1⟩ := (step_expression P fuel hs ha.stack).1 (by omega)
    have hR1 := Reaches.one_step hs hne0 e1
    have hA : EngAt M0 e p0 0 { σ with
        min_precedence := 0, state := PARSE_EXPR_STATE_TERM, mem := m1 }
        (PARSE_EXPR_STATE_FIRST_OPERATOR :: s :: K) := by
      refine ⟨k1, f1.trans ha.free, ha.lo, ha.hi, ?_, ha.op_lt, ?_⟩
      · simp only [List.length_cons]
        show _ + 0 + 9 * (e - σ.p) ≤ _
        omega
      · show 0 < 256
        omega
    cases hfa : ref_factor P fuel M0 (ref_expr P fuel M0 n) σ.p with
    | none =>
      rw [hfa] at href
      cases href
    | some res =>
      obtain ⟨r1, p1, f⟩ := res
      rw [hfa] at href
      simp only at href
      obtain ⟨c1, c2⟩ := sim_factor P C _ hsub
        { σ with min_precedence := 0, state := PARSE_EXPR_STATE_TERM, mem := m1 }
        PARSE_EXPR_STATE_FIRST_OPERATOR (s :: K) r1 p1 f rfl hA hfa
      by_cases hr1 : r1 = .OK
      · subst hr1
        rw [if_neg (by simp)] at href
        obtain ⟨σb, rb, b1, b2, b3, b4, b5, b6, b7, b8, b9, b10⟩ := c1 rfl
        simp only at b4 b5 b6 b7 b10
        have e2 := engine_step_first_operator P fuel b1
        have hR2 := (hR1.trans_run rb).trans_run (Reaches.one_step b1
          (show PARSE_EXPR_STATE_FIRST_OPERATOR ≠ PARSE_EXPR_STATE_EXITING by decide) e2)
        cases htl : ref_term_loop P fuel M0 (ref_expr P fuel M0 n) n f p1 with
        | none =>
          rw [htl] at href
          cases href
        | some res2 =>
          obtain ⟨r2, q2, t⟩ := res2
          rw [htl] at href
          simp only at href
          obtain ⟨t1, t2⟩ := sim_term_loop P C _ hsub n
            { σb with lhs := σb.val, state := PARSE_EXPR_STATE_EXPR_1 } (s :: K) r2 q2 t rfl
            (by show σb.min_precedence ≤ 2; rw [b6]; omega)
            ⟨b9.stack, b9.free, b9.lo, b9.hi, b9.room, b9.op_lt, b9.mp_lt⟩
            (by show ref_term_loop P fuel M0 _ n σb.val σb.p = _; rw [b2, b3]; exact htl)
          by_cases hr2 : r2 = .OK
          · subst hr2
            rw [if_neg (by simp)] at href
            obtain ⟨σd, rd, d1, d2, d3, d4, d5, d6, d7, d8, d9⟩ := t1 rfl
            simp only at d4 d5 d6 d9
            have hR3 := hR2.trans_run rd
            obtain ⟨i1, i2⟩ := sim_sum_loop P C _ hsub n n σd (s :: K) r q v d1
              (d4.trans b6) d7 (by rw [d3]; exact d8) (by rw [d2, d3]; exact href)
            refine ⟨fun hok => ?_, fun h => hR3.then_fails (i2 h)⟩
            obtain ⟨σ3, g1, g2, g3, g4, g5, g6, g7, g8, g9⟩ := i1 hok
            obtain ⟨ht3, hf3⟩ := g7.text_fuel C
            obtain ⟨m4, e4, k4, f4, _⟩ := (step_expr_1 P fuel g2 g7.stack ht3 hf3).2 (by
              rw [g4, g8]
              simp) s K rfl
            have hR4 := (hR3.trans_run g1).trans_run (Reaches.one_step g2 hne1 e4)
            have hroom3 := g7.room
            simp only [List.length_cons] at hroom3
            refine ⟨_, hR4, rfl, g3, g4, g5.trans (d5.trans b7), g6 (d6 b8),
              ⟨k4, f4.trans g7.free, g7.lo, g7.hi, ?_, g7.op_lt, g7.mp_lt⟩, by omega⟩
            show K.length + 0 + 9 * (e - σ3.p) ≤ _
            omega
          · rw [if_pos hr2] at href
            simp only [Option.some.injEq, Prod.mk.injEq] at href
            obtain ⟨h1, _, _⟩ := href
            subst h1
            exact ⟨fun h => absurd h hr2, fun h => hR2.then_fails (t2 h)⟩
      · rw [if_pos hr1] at href
        simp only at href
        rw [if_pos hr1] at href
        simp only [Option.some.injEq, Prod.mk.injEq] at href
        obtain ⟨h1, _, _⟩ := href
        subst h1
        exact ⟨fun h => absurd h hr1, fun h => hR1.then_fails (c2 h)⟩

/-- C2: `basic_parsing_expression` against the conventional recursive
evaluator `ref_expr` (an expression is a sum of terms from left to right, a
term a product of factors from left to right, a factor is signs then a number
literal, the name of a scalar or an expression in parentheses).  In an ordered
arena, on a text that ends at `e` and lies outside the area of the stack, with
9 bytes of stack for each byte of the text and 2 more: when the reference
evaluator has the value `v` and ends at `q`, `basic_parsing_expression` returns
OK, `q` and `v` and leaves `free_idx`, `stktop_idx` and the seed as they were;
when the first operation of the reference evaluator that raises an exception
gives DIVISION_BY_ZERO, PARAMETER or OVERFLOW, `basic_parsing_expression`
returns this error with the pointer and the value it was called with. -/
theorem C2_expression_refines_reference (P : FPU) (fuel p e : Nat) (out : F32)
    (s : BASIC_MEM_MGR) (seed n : Nat) (r : BASIC_ERROR_ID) (q : Nat) (v : F32)
    (ho : ArenaOrdered s) (h6 : (s.array_idx - s.vars_idx) % 6 = 0) (hpe : p ≤ e)
    (h0 : s.base e = 0) (hout : e < s.free_idx ∨ s.stktop_idx ≤ p)
    (hf : 5 * (e - p) + 3 ≤ fuel) (hroom : 9 * (e - p) + 2 ≤ s.stktop_idx - s.free_idx)
    (href : ref_expr P fuel s n p = some (r, q, v)) :
    (r = .OK → ∃ m1, basic_parsing_expression P fuel p out s seed = .ret .OK q v m1 seed ∧
      m1.stktop_idx = s.stktop_idx ∧ m1.free_idx = s.free_idx) ∧
    (IsFPError r → ∃ m1 sd, basic_parsing_expression P fuel p out s seed = .ret r p out m1 sd ∧
      m1.stktop_idx = s.stktop_idx) := by
  have C : SimCtx fuel s e p := ⟨ho, h6, h0, hout, by omega⟩
  obtain ⟨o1, o2, o3, o4, o5⟩ := ho
  obtain ⟨h1, _⟩ := engine_enter P fuel p out s seed o3 o4 o5
  obtain ⟨m1, e1, k1, f1⟩ := h1 (by omega)
  clear h1
  obtain ⟨R, P1, O, M, SD, K1, l1, l2, _, _⟩ := engine_loop_returns P fuel p out C.nul
    C.outside C.fuel_ok ⟨Nat.le_refl _, hpe⟩ fuel (engine_init p m1 seed)
    _ (1 + 1) k1 (.expression .exiting) (Nat.le_refl _) hpe (by
      show 5 * (e - p) + (1 + 1) < fuel
      omega)
  rw [l1] at e1
  have hbpe := basic_parsing_expression_of_engine P fuel p out s seed e1
  have hA : EngAt s e p 1 (engine_init p m1 seed) (PARSE_EXPR_STATE_EXITING :: []) := by
    refine ⟨k1, f1, Nat.le_refl _, hpe, ?_, ?_, ?_⟩
    · simp only [List.length_cons, List.length_nil]
      show 0 + 1 + 1 + 9 * (e - p) ≤ _
      omega
    · show 0 < 256
      omega
    · show 0 < 256
      omega
  obtain ⟨i1, i2⟩ := sim_ref_expr P C n (engine_init p m1 seed) PARSE_EXPR_STATE_EXITING []
    r q v rfl hA href
  refine ⟨fun hok => ?_, fun h => ?_⟩
  · obtain ⟨σ1, g1, g2, g3, g4, g5, g6, g7, _⟩ := i1 hok
    obtain ⟨x1, x2, x3, x4, x5⟩ := g1.exit_result g2 l1
    refine ⟨fgstack_set_top M (fgstack_get_top s), ?_, rfl, ?_⟩
    · rw [hbpe, x1, g6, x2, g4, x3, g3, x5, g5]
      rfl
    · show M.free_idx = s.free_idx
      rw [x4]
      exact g7.free
  · obtain ⟨x1, x2, x3⟩ := (i2 h).fail_result l1
    exact ⟨fgstack_set_top M (fgstack_get_top s), SD, by rw [hbpe, x1, x2, x3], rfl⟩

/-- Witness of C2: the text `2+3*4` at 100 with an arena of 64 bytes, on the
platform that computes on the natural numbers: the reference evaluator has the
value 14. -/
theorem C2_expression_refines_reference_witness :
    (ArenaOrdered (expr_arena 64) ∧ (expr_arena 64).base 105 = 0 ∧
      9 * (105 - 100) + 2 ≤ (expr_arena 64).stktop_idx - (expr_arena 64).free_idx ∧
      ref_expr nat_fpu 28 (expr_arena 64) 3 100 = some (.OK, 105, f32_of_nat 14)) ∧
    ∃ m1, basic_parsing_expression nat_fpu 28 100 0 (expr_arena 64) 0 =
        .ret .OK 105 (f32_of_nat 14) m1 0 ∧
      m1.stktop_idx = (expr_arena 64).stktop_idx ∧ m1.free_idx = (expr_arena 64).free_idx :=
  ⟨⟨by decide, by decide, by decide, by decide⟩,
    (C2_expression_refines_reference nat_fpu 28 100 105 0 (expr_arena 64) 0 3 .OK 105
      (f32_of_nat 14) (by decide) (by decide) (by decide) (by decide) (by decide) (by decide)
      (by decide) (by decide)).1 rfl⟩

end UcBasic
